import Mathlib

/-!
# LISP9 (`ls9.c`): heap, garbage collector and virtual machine

A shallow embedding of the memory manager of the LISP9 interpreter
(`src/ls9.c`) together with the properties of its specification.

Conventions of the embedding

* A `cell` is a C `int`; it is modelled by `Int`.  Negative cells are the
  special objects, non-negative cells index the node pools.
* The node pools `Car`, `Cdr`, `Tag`, the vector arena `Vectors` and the
  table `Port_flags` are functions on `Nat` together with their allocated
  sizes.  An access outside the allocated size is undefined behaviour in C;
  the embedding returns `none` for it.
* `sizeof(cell)` is 4 and the bytes of an arena word are addressed in
  little-endian order (the byte view `string(n)` of the arena).
* Loops that may fail to terminate take a fuel argument; the theorems
  show that enough fuel exists.
-/

namespace LS9

/-! ## Constants of `ls9.c` -/

def CHUNKSIZE : Nat := 1024

def NIL : Int := -1
def TRUE : Int := -2
def EOFMARK : Int := -3
def UNDEF : Int := -4
def RPAREN : Int := -5
def DOT : Int := -6

def ATOM_TAG : Nat := 0x01
def MARK_TAG : Nat := 0x02
def TRAV_TAG : Nat := 0x04
def VECTOR_TAG : Nat := 0x08
def PORT_TAG : Nat := 0x10
def USED_TAG : Nat := 0x20
def LOCK_TAG : Nat := 0x40
def CONST_TAG : Nat := 0x80

def T_BYTECODE : Int := -10
def T_CATCHTAG : Int := -11
def T_CHAR : Int := -12
def T_CLOSURE : Int := -13
def T_FIXNUM : Int := -14
def T_INPORT : Int := -15
def T_OUTPORT : Int := -16
def T_STRING : Int := -17
def T_SYMBOL : Int := -18
def T_VECTOR : Int := -19

def OBFREE : Nat := 0
def OBALLOC : Nat := 1
def OBUSED : Nat := 2

def ISIZE0 : Nat := 1
def ISIZE1 : Nat := 3
def ISIZE2 : Nat := 5

/-- Size of a `cell` in bytes, the C `sizeof(cell)`. -/
def sizeof_cell : Nat := 4

/-! Opcodes: the positions of the `enum` of abstract machine opcodes. -/

def OP_ILL : Nat := 0
def OP_APPLIS : Nat := 1
def OP_APPLIST : Nat := 2
def OP_APPLY : Nat := 3
def OP_TAILAPP : Nat := 4
def OP_QUOTE : Nat := 5
def OP_ARG : Nat := 6
def OP_REF : Nat := 7
def OP_PUSH : Nat := 8
def OP_PUSHTRUE : Nat := 9
def OP_PUSHVAL : Nat := 10
def OP_POP : Nat := 11
def OP_DROP : Nat := 12
def OP_JMP : Nat := 13
def OP_BRF : Nat := 14
def OP_BRT : Nat := 15
def OP_HALT : Nat := 16
def OP_CATCHSTAR : Nat := 17
def OP_THROWSTAR : Nat := 18
def OP_CLOSURE : Nat := 19
def OP_MKENV : Nat := 20
def OP_PROPENV : Nat := 21
def OP_CPREF : Nat := 22
def OP_CPARG : Nat := 23
def OP_ENTER : Nat := 24
def OP_ENTCOL : Nat := 25
def OP_RETURN : Nat := 26
def OP_SETARG : Nat := 27
def OP_SETREF : Nat := 28
def OP_MACRO : Nat := 29

/-! ## Memory pools -/

/-- Pointwise update of a pool. -/
def upd {α : Type} (f : Nat → α) (i : Nat) (v : α) : Nat → α :=
  fun j => if j = i then v else f j

/-- The memory pools of the interpreter and the literal map root `Obmap`
that the marker writes to. -/
structure Heap where
  nnodes : Nat
  nvcells : Nat
  nports : Nat
  Car : Nat → Int
  Cdr : Nat → Int
  Tag : Nat → Nat
  Vectors : Nat → Int
  Port_flags : Nat → Nat
  Obmap : Int

/-- The macro `specialp(x)`. -/
def specialp (x : Int) : Bool := decide (x < 0)

/-- The index `x` lies inside the node pools. -/
def Heap.inNodes (h : Heap) (x : Int) : Bool :=
  decide (0 ≤ x) && decide (x < (h.nnodes : Int))

/-- The index `w` lies inside the vector arena. -/
def Heap.inVec (h : Heap) (w : Int) : Bool :=
  decide (0 ≤ w) && decide (w < (h.nvcells : Int))

/-- Read `Car[x]`. -/
def Heap.car (h : Heap) (x : Int) : Option Int :=
  if h.inNodes x then some (h.Car x.toNat) else none

/-- Read `Cdr[x]`. -/
def Heap.cdr (h : Heap) (x : Int) : Option Int :=
  if h.inNodes x then some (h.Cdr x.toNat) else none

/-- Read `Tag[x]`. -/
def Heap.tag (h : Heap) (x : Int) : Option Nat :=
  if h.inNodes x then some (h.Tag x.toNat) else none

/-- Read `Vectors[w]`. -/
def Heap.vref (h : Heap) (w : Int) : Option Int :=
  if h.inVec w then some (h.Vectors w.toNat) else none

/-- Write `Car[x] = v`. -/
def Heap.setCar (h : Heap) (x v : Int) : Option Heap :=
  if h.inNodes x then some { h with Car := upd h.Car x.toNat v } else none

/-- Write `Cdr[x] = v`. -/
def Heap.setCdr (h : Heap) (x v : Int) : Option Heap :=
  if h.inNodes x then some { h with Cdr := upd h.Cdr x.toNat v } else none

/-- Write `Tag[x] = t`. -/
def Heap.setTag (h : Heap) (x : Int) (t : Nat) : Option Heap :=
  if h.inNodes x then some { h with Tag := upd h.Tag x.toNat t } else none

/-- Write `Vectors[w] = v`. -/
def Heap.vset (h : Heap) (w v : Int) : Option Heap :=
  if h.inVec w then some { h with Vectors := upd h.Vectors w.toNat v } else none

/-- The macro `vecsize(k)`: `2 + (k + sizeof(cell)-1) / sizeof(cell)`, computed
in `size_t` as in C (the `int` operand is converted to a 64-bit unsigned). -/
def vecsize (k : Int) : Nat :=
  2 + ((k + ((sizeof_cell : Int) - 1)) % (2 : Int) ^ 64).toNat / sizeof_cell

/-- The macro `stringlen(n)`, the size word `Vectors[Cdr[n] - 1]`. -/
def Heap.stringlen (h : Heap) (n : Int) : Option Int :=
  match h.cdr n with
  | some off => h.vref (off - 1)
  | none => none

/-- The macro `veclen(n)`: `vecsize(stringlen(n)) - 2`. -/
def Heap.veclen (h : Heap) (n : Int) : Option Nat :=
  match h.stringlen n with
  | some k => some (vecsize k - 2)
  | none => none

/-- Conversion of an `int` to `size_t`. -/
def toSizeT (i : Int) : Nat := (i % (2 : Int) ^ 64).toNat

/-! ### Byte view of the arena -/

/-- Byte `j` (0 is the least significant) of the 32-bit word `w`. -/
def wordByte (w : Int) (j : Nat) : Nat :=
  ((w % (2 : Int) ^ 32).toNat / 256 ^ j) % 256

/-- The 32-bit `int` with the unsigned value `u`. -/
def wordOfNat (u : Nat) : Int :=
  if u % 2 ^ 32 < 2 ^ 31 then ((u % 2 ^ 32 : Nat) : Int)
  else ((u % 2 ^ 32 : Nat) : Int) - (2 : Int) ^ 32

/-- The word `w` with its byte `j` replaced by `b`. -/
def wordSetByte (w : Int) (j : Nat) (b : Nat) : Int :=
  let u := (w % (2 : Int) ^ 32).toNat
  wordOfNat (u - (wordByte w j) * 256 ^ j + (b % 256) * 256 ^ j)

/-- Read the byte `((byte *) &Vectors[base])[i]`. -/
def Heap.bref (h : Heap) (base : Int) (i : Nat) : Option Nat :=
  match h.vref (base + ((i / sizeof_cell : Nat) : Int)) with
  | some w => some (wordByte w (i % sizeof_cell))
  | none => none

/-- Write the byte `((byte *) &Vectors[base])[i] = b`. -/
def Heap.bset (h : Heap) (base : Int) (i : Nat) (b : Nat) : Option Heap :=
  match h.vref (base + ((i / sizeof_cell : Nat) : Int)) with
  | some w => h.vset (base + ((i / sizeof_cell : Nat) : Int))
      (wordSetByte w (i % sizeof_cell) b)
  | none => none

/-- The macro `fetcharg(a, i)`: `(a[i] << 8) | a[i+1]`. -/
def Heap.fetcharg (h : Heap) (base : Int) (i : Nat) : Option Nat :=
  match h.bref base i, h.bref base (i + 1) with
  | some hi, some lo => some ((hi <<< 8) ||| lo)
  | _, _ => none

/-! ## `marklit` -/

/-- One-operand opcodes other than `OP_QUOTE`, as listed in `marklit`. -/
def isSize1 (op : Nat) : Bool :=
  op == OP_ARG || op == OP_PUSHVAL || op == OP_JMP ||
  op == OP_BRF || op == OP_BRT || op == OP_CLOSURE ||
  op == OP_MKENV || op == OP_ENTER || op == OP_ENTCOL ||
  op == OP_SETARG || op == OP_SETREF || op == OP_MACRO

/-- Two-operand opcodes, as listed in `marklit`. -/
def isSize2 (op : Nat) : Bool :=
  op == OP_REF || op == OP_CPARG || op == OP_CPREF

/-- The loop of `marklit`: `v` and `m` are the arena offsets of the bytecode
string and of the literal map, `k` the length of the bytecode string.  Every
iteration advances `i`, so `fuel = k` iterations are enough. -/
def marklitLoop (v m : Int) (k : Int) : Nat → Heap → Nat → Option Heap
  | 0, h, i => if (i : Int) < k then none else some h
  | fuel + 1, h, i =>
    if (i : Int) < k then
      match h.bref v i with
      | none => none
      | some op =>
        if op = OP_QUOTE then
          match h.fetcharg v (i + 1) with
          | none => none
          | some a =>
            match h.bset m a OBUSED with
            | none => none
            | some h1 => marklitLoop v m k fuel h1 (i + ISIZE1)
        else if isSize1 op then marklitLoop v m k fuel h (i + ISIZE1)
        else if isSize2 op then marklitLoop v m k fuel h (i + ISIZE2)
        else marklitLoop v m k fuel h (i + ISIZE0)
    else some h

/-- The function `marklit(p)`. -/
def marklit (h : Heap) (p : Int) : Option Heap :=
  match h.stringlen p, h.cdr p, h.cdr h.Obmap with
  | some k, some v, some m => marklitLoop v m k k.toNat h 0
  | _, _, _ => none

/-! ## `mark` -/

/-- State of the loop of `mark`: the pools and the locals `n` and `parent`. -/
structure MarkState where
  h : Heap
  n : Int
  parent : Int

/-- Outcome of one iteration of the loop of `mark`. -/
inductive MarkStep where
  | next (s : MarkState)
  | done (h : Heap)

/-- The test `tag & mask` of C. -/
def tst (t mask : Nat) : Bool := t &&& mask != 0

/-- The byte operation `tag &= ~TRAV_TAG`. -/
def clrTrav (t : Nat) : Nat := t &&& 0xFB

/-- The byte operation `tag &= ~MARK_TAG`. -/
def clrMark (t : Nat) : Nat := t &&& 0xFD

/-- The macro `veclink(n)` / `vecndx(n)` as an arena index: `Cdr[n] - 2`. -/
def Heap.linkAddr (h : Heap) (n : Int) : Option Int :=
  match h.cdr n with
  | some off => some (off - 2)
  | none => none

/-- The assignment `veclink(n) = v`. -/
def Heap.setVeclink (h : Heap) (n v : Int) : Option Heap :=
  match h.linkAddr n with
  | some a => h.vset a v
  | none => none

/-- The assignment `tag(n) |= mask`. -/
def Heap.orTag (h : Heap) (n : Int) (mask : Nat) : Option Heap :=
  match h.tag n with
  | some t => h.setTag n (t ||| mask)
  | none => none

/-- Branch of `mark` taken when `n` is special or marked and `parent` is a
vector (`S1 --> S1|done`). -/
def markVecParent (h : Heap) (n parent : Int) (tp : Nat) : Option MarkStep := do
  let off ← h.cdr parent
  let i ← h.vref (off - 2)
  let more ←
    (if tst tp TRAV_TAG then
      match h.veclen parent with
      | some len => some (decide (toSizeT (i + 1) < len))
      | none => none
    else some false)
  if more then
    let x ← h.vref (off + (i + 1))
    let vi ← h.vref (off + i)
    let h1 ← h.vset (off + (i + 1)) vi
    let h2 ← h1.vset (off + i) n
    let h3 ← h2.setVeclink parent (i + 1)
    pure (MarkStep.next ⟨h3, x, parent⟩)
  else
    let x := parent
    let parent1 ← h.vref (off + i)
    let h1 ← h.vset (off + i) n
    let h2 ← h1.setVeclink x x
    pure (MarkStep.next ⟨h2, x, parent1⟩)

/-- Branch of `mark` taken when `n` is special or marked. -/
def markUp (h : Heap) (n parent : Int) : Option MarkStep :=
  if parent = NIL then some (MarkStep.done h)
  else do
    let tp ← h.tag parent
    if tst tp VECTOR_TAG then markVecParent h n parent tp
    else if tst tp TRAV_TAG then
      let x ← h.cdr parent
      let a ← h.car parent
      let h1 ← h.setCdr parent a
      let h2 ← h1.setCar parent n
      let h3 ← h2.setTag parent (clrTrav tp)
      pure (MarkStep.next ⟨h3, x, parent⟩)
    else
      let x := parent
      let parent1 ← h.cdr x
      let h1 ← h.setCdr x n
      pure (MarkStep.next ⟨h1, x, parent1⟩)

/-- Branch of `mark` for an unmarked vector object (`S0 --> S1`). -/
def markVec (h : Heap) (n parent : Int) : Option MarkStep := do
  let h1 ← h.orTag n MARK_TAG
  let a ← h1.car n
  let nonempty ←
    (if a = T_VECTOR then
      match h1.veclen n with
      | some len => some (decide (len ≠ 0))
      | none => none
    else some false)
  if nonempty then
    let h2 ← h1.orTag n TRAV_TAG
    let h3 ← h2.setVeclink n 0
    let off ← h3.cdr n
    let x ← h3.vref off
    let h4 ← h3.vset off parent
    pure (MarkStep.next ⟨h4, x, n⟩)
  else
    let h2 ← h1.setVeclink n n
    pure (MarkStep.next ⟨h2, n, parent⟩)

/-- The assignment `Port_flags[pn] |= USED_TAG`. -/
def Heap.usePort (h : Heap) (pn : Int) : Option Heap :=
  if 0 ≤ pn ∧ pn < (h.nports : Int) then
    some { h with
      Port_flags := upd h.Port_flags pn.toNat (h.Port_flags pn.toNat ||| USED_TAG) }
  else none

/-- The side effects of `mark` on an atom whose `cdr` is not `NIL`:
`marklit` for bytecode, the `USED` flag for ports. -/
def markAtomEffect (h : Heap) (n : Int) : Option Heap := do
  let d ← h.cdr n
  if d ≠ NIL then
    let a ← h.car n
    if a = T_BYTECODE then marklit h d
    else if a = T_INPORT ∨ a = T_OUTPORT then
      let pn ← h.car d
      h.usePort pn
    else some h
  else some h

/-- Branch of `mark` for an unmarked atom (`S0 --> S2`). -/
def markAtom (h : Heap) (n parent : Int) : Option MarkStep := do
  let h1 ← markAtomEffect h n
  let x ← h1.cdr n
  let h2 ← h1.setCdr n parent
  let h3 ← h2.orTag n MARK_TAG
  pure (MarkStep.next ⟨h3, x, n⟩)

/-- Branch of `mark` for an unmarked pair (`S0 --> S1`). -/
def markPair (h : Heap) (n parent : Int) : Option MarkStep := do
  let x ← h.car n
  let h1 ← h.setCar n parent
  let h2 ← h1.orTag n MARK_TAG
  let h3 ← h2.orTag n TRAV_TAG
  pure (MarkStep.next ⟨h3, x, n⟩)

/-- One iteration of the `while (1)` loop of `mark`; `none` is an access
outside the pools. -/
def markStep (s : MarkState) : Option MarkStep :=
  if specialp s.n then markUp s.h s.n s.parent
  else
    match s.h.tag s.n with
    | none => none
    | some t =>
      if tst t MARK_TAG then markUp s.h s.n s.parent
      else if tst t VECTOR_TAG then markVec s.h s.n s.parent
      else if tst t ATOM_TAG then markAtom s.h s.n s.parent
      else markPair s.h s.n s.parent

/-- The loop of `mark` with fuel: `none` when the fuel runs out or an access
leaves the pools. -/
def markLoop : Nat → MarkState → Option Heap
  | 0, _ => none
  | fuel + 1, s =>
    match markStep s with
    | none => none
    | some (MarkStep.done h) => some h
    | some (MarkStep.next s1) => markLoop fuel s1

/-- The function `mark(n)`: the loop started with `parent = NIL`. -/
def mark (fuel : Nat) (h : Heap) (n : Int) : Option Heap :=
  markLoop fuel ⟨h, n, NIL⟩

/-! ## The object graph -/

/-- The cell carries `MARK_TAG`. -/
def Heap.marked (h : Heap) (c : Nat) : Bool := tst (h.Tag c) MARK_TAG

/-- The cell is a vector object (`VECTOR_TAG`). -/
def Heap.isVec (h : Heap) (c : Nat) : Bool := tst (h.Tag c) VECTOR_TAG

/-- The cell is an atom: `ATOM_TAG` without `VECTOR_TAG`. -/
def Heap.isAtom (h : Heap) (c : Nat) : Bool :=
  !tst (h.Tag c) VECTOR_TAG && tst (h.Tag c) ATOM_TAG

/-- The cell is a pair: neither `ATOM_TAG` nor `VECTOR_TAG`. -/
def Heap.isPair (h : Heap) (c : Nat) : Bool :=
  !tst (h.Tag c) VECTOR_TAG && !tst (h.Tag c) ATOM_TAG

/-- Arena index of the backlink word of the vector object `c`. -/
def Heap.linkIx (h : Heap) (c : Nat) : Nat := (h.Cdr c - 2).toNat

/-- Arena index of the size word of the vector object `c`. -/
def Heap.sizeIx (h : Heap) (c : Nat) : Nat := (h.Cdr c - 1).toNat

/-- Arena index of slot `i` of the vector object `c`. -/
def Heap.slotIx (h : Heap) (c : Nat) (i : Nat) : Nat := (h.Cdr c + (i : Int)).toNat

/-- Number of arena words of the payload of the vector object `c`. -/
def Heap.vlen (h : Heap) (c : Nat) : Nat :=
  vecsize (h.Vectors (h.sizeIx c)) - 2

/-- Slot `i` of the vector object `c`. -/
def Heap.slot (h : Heap) (c : Nat) (i : Nat) : Int :=
  h.Vectors (h.slotIx c i)

/-- The cell is a `T_VECTOR` object with at least one slot: the vectors
whose slots `mark` walks. -/
def Heap.travVec (h : Heap) (c : Nat) : Bool :=
  h.isVec c && decide (h.Car c = T_VECTOR) && decide (h.vlen c ≠ 0)

/-- The references that `mark` follows from the cell `c`: `CAR` and `CDR` of
a pair, `CDR` of an atom, the slots of a `T_VECTOR` vector. -/
def Heap.succs (h : Heap) (c : Nat) : List Int :=
  if h.isVec c then
    (if h.travVec c then (List.range (h.vlen c)).map (h.slot c) else [])
  else if h.isAtom c then [h.Cdr c]
  else [h.Car c, h.Cdr c]

/-- The cell `d` is referenced from the cell `c`. -/
def Heap.Edge (h : Heap) (c d : Nat) : Prop := (d : Int) ∈ h.succs c

/-- The cell `c` is reachable from the reference `x`. -/
def Heap.Reach (h : Heap) (x : Int) (c : Nat) : Prop :=
  ∃ r : Nat, x = (r : Int) ∧ Relation.ReflTransGen h.Edge r c

/-- The reference `x` is special or a marked cell. -/
def Heap.okMarked (g : Heap) (x : Int) : Prop := x < 0 ∨ g.marked x.toNat = true

/-! ## Well-formed heaps -/

/-- Byte `i` of the arena counted from the word `off`. -/
def Heap.byteAt (h : Heap) (off : Int) (i : Nat) : Nat :=
  wordByte (h.Vectors (off + ((i / sizeof_cell : Nat) : Int)).toNat) (i % sizeof_cell)

/-- The bytecode `b` of length `k` decodes, with the instruction sizes of
`marklit`, so that every operand of `OP_QUOTE` lies inside the string and
is an index below `lim`. -/
def litScan (b : Nat → Nat) (k lim : Nat) : Nat → Nat → Bool
  | 0, i => decide (k ≤ i)
  | fuel + 1, i =>
    if i < k then
      if b i = OP_QUOTE then
        decide (i + 2 < k) && decide (((b (i + 1)) <<< 8 ||| b (i + 2)) < lim) &&
          litScan b k lim fuel (i + ISIZE1)
      else if isSize1 (b i) then litScan b k lim fuel (i + ISIZE1)
      else if isSize2 (b i) then litScan b k lim fuel (i + ISIZE2)
      else litScan b k lim fuel (i + ISIZE0)
    else true

/-- The arena word `w` belongs to the payload of the literal map. -/
def Heap.inOb (h : Heap) (w : Nat) : Prop :=
  0 ≤ h.Obmap ∧ h.Cdr h.Obmap.toNat ≤ (w : Int) ∧
    (w : Int) < h.Cdr h.Obmap.toNat + (h.vlen h.Obmap.toNat : Int)

/-- The bytecode atom `c` is fit for `marklit`: its `cdr` is a string other
than the literal map, the length of the string fits its block, and its
`OP_QUOTE` operands are byte indices into the block of the literal map. -/
def Heap.litOK (h : Heap) (c : Nat) : Prop :=
  0 ≤ h.Cdr c ∧ h.isVec (h.Cdr c).toNat = true ∧ h.Car (h.Cdr c).toNat ≠ T_VECTOR ∧
  h.Cdr c ≠ h.Obmap ∧ 0 ≤ h.Obmap ∧
  (h.Vectors (h.sizeIx (h.Cdr c).toNat)).toNat ≤ sizeof_cell * h.vlen (h.Cdr c).toNat ∧
  litScan (h.byteAt (h.Cdr (h.Cdr c).toNat))
    (h.Vectors (h.sizeIx (h.Cdr c).toNat)).toNat
    (sizeof_cell * h.vlen h.Obmap.toNat)
    (h.Vectors (h.sizeIx (h.Cdr c).toNat)).toNat 0 = true

/-- The port atom `c` is fit for `mark`: its `cdr` is an atom that holds a
port number of the port table. -/
def Heap.portOK (h : Heap) (c : Nat) : Prop :=
  0 ≤ h.Cdr c ∧ h.isAtom (h.Cdr c).toNat = true ∧ 0 ≤ h.Car (h.Cdr c).toNat ∧ h.Car (h.Cdr c).toNat < (h.nports : Int)

/-- Well-formed heap with respect to a set `L` of cells that is closed under
the references of its unmarked cells: cells are in the pool, unmarked atoms
carry no `TRAV_TAG`, bytecode and port atoms are fit for `mark`, vector
objects own disjoint blocks inside the arena, and the literal map, when
there is one, is a vector object of `L` without cell slots. -/
def WF (h : Heap) (L : List Nat) : Prop :=
  (∀ c ∈ L, c < h.nnodes) ∧
  (∀ c ∈ L, h.marked c = false → ∀ v ∈ h.succs c, 0 ≤ v → v.toNat ∈ L) ∧
  (∀ c ∈ L, h.marked c = false → h.isAtom c = true →
    tst (h.Tag c) TRAV_TAG = false ∧
    (h.Cdr c ≠ NIL → (h.Car c = T_BYTECODE → h.litOK c) ∧
      (h.Car c = T_INPORT ∨ h.Car c = T_OUTPORT → h.portOK c))) ∧
  (∀ c ∈ L, h.isVec c = true →
    2 ≤ h.Cdr c ∧ h.Cdr c + (h.vlen c : Int) ≤ (h.nvcells : Int)) ∧
  (∀ c ∈ L, ∀ d ∈ L, h.isVec c = true → h.isVec d = true → c ≠ d →
    h.Cdr c + (h.vlen c : Int) ≤ h.Cdr d - 2 ∨
    h.Cdr d + (h.vlen d : Int) ≤ h.Cdr c - 2) ∧
  (h.Obmap < 0 ∨ (h.Obmap.toNat ∈ L ∧ h.isVec h.Obmap.toNat = true ∧
    h.Car h.Obmap.toNat ≠ T_VECTOR))

instance (h : Heap) (w : Nat) : Decidable (h.inOb w) := by
  unfold Heap.inOb; infer_instance

instance (h : Heap) (c : Nat) : Decidable (h.litOK c) := by
  unfold Heap.litOK; infer_instance

instance (h : Heap) (c : Nat) : Decidable (h.portOK c) := by
  unfold Heap.portOK; infer_instance

instance (h : Heap) (L : List Nat) : Decidable (WF h L) := by
  unfold WF; infer_instance

/-! ## The invariant of `mark`

`H` is the heap at the entry of `mark`, `g` the heap during the loop.  The
cells between `parent` and the root of the traversal, linked through their
reversed pointers, form the stack `stk` (top first). -/

/-- The tag of a visited pair or vector that is still under traversal. -/
def tagS1 (t : Nat) : Nat := t ||| MARK_TAG ||| TRAV_TAG

/-- The tag of a completely visited pair. -/
def tagS2 (t : Nat) : Nat := clrTrav (t ||| MARK_TAG ||| TRAV_TAG)

/-- The cell `s` of the stack holds the reversed pointer `b` in the field
whose content at entry was `child`. -/
def frameOK (H g : Heap) (L : List Nat) (s : Nat) (child b : Int) : Prop :=
  s ∈ L ∧ H.marked s = false ∧
  ((H.travVec s = true ∧ g.Tag s = tagS1 (H.Tag s) ∧
      g.Car s = H.Car s ∧ g.Cdr s = H.Cdr s ∧
      ∃ i : Nat, g.Vectors (H.linkIx s) = (i : Int) ∧ i < H.vlen s ∧
        g.Vectors (H.slotIx s i) = b ∧ H.slot s i = child ∧
        (∀ j, j < H.vlen s → j ≠ i → g.Vectors (H.slotIx s j) = H.slot s j) ∧
        (∀ j, j < i → g.okMarked (H.slot s j))) ∨
   (H.isAtom s = true ∧ g.Tag s = H.Tag s ||| MARK_TAG ∧
      g.Car s = H.Car s ∧ g.Cdr s = b ∧ H.Cdr s = child) ∨
   (H.isPair s = true ∧ g.Tag s = tagS1 (H.Tag s) ∧
      g.Car s = b ∧ H.Car s = child ∧ g.Cdr s = H.Cdr s) ∨
   (H.isPair s = true ∧ g.Tag s = tagS2 (H.Tag s) ∧
      g.Cdr s = b ∧ H.Cdr s = child ∧ g.Car s = H.Car s ∧ g.okMarked (H.Car s)))

/-- The stack of reversed pointers below `parent`. -/
def stackOK (H g : Heap) (L : List Nat) : Int → List Nat → Int → Prop
  | _, [], p => p = NIL
  | child, s :: rest, p =>
    p = (s : Int) ∧ s ∉ rest ∧
      ∃ b, frameOK H g L s child b ∧ stackOK H g L (s : Int) rest b

/-- The bottom of the stack, or the current cell when the stack is empty: the
cell `mark` was called with. -/
def stackBase : Int → List Nat → Int
  | n, [] => n
  | _, s :: rest => stackBase (s : Int) rest

/-- The cell `c` is completely visited: its fields are those at entry, its
references are special or marked, its tag is final. -/
def doneOK (H g : Heap) (c : Nat) : Prop :=
  g.Car c = H.Car c ∧ g.Cdr c = H.Cdr c ∧
  (∀ v ∈ H.succs c, g.okMarked v) ∧
  (if H.isVec c then
      g.Tag c = (if H.travVec c then tagS1 (H.Tag c) else H.Tag c ||| MARK_TAG) ∧
      g.Vectors (H.linkIx c) = (c : Int) ∧
      (H.travVec c = true → ∀ j, j < H.vlen c → g.Vectors (H.slotIx c j) = H.slot c j)
    else if H.isAtom c then g.Tag c = H.Tag c ||| MARK_TAG
    else g.Tag c = tagS2 (H.Tag c))

/-- The invariant of the loop of `mark(root)`. -/
structure MInv (H : Heap) (L : List Nat) (root : Int) (g : Heap) (n p : Int)
    (stk : List Nat) : Prop where
  nn : g.nnodes = H.nnodes
  nv : g.nvcells = H.nvcells
  np : g.nports = H.nports
  ob : g.Obmap = H.Obmap
  cur : n < 0 ∨ (0 ≤ n ∧ n.toNat ∈ L ∧ H.Reach root n.toNat)
  stack : stackOK H g L n stk p
  base : stackBase n stk = root
  old : ∀ c, (H.marked c = true ∨ g.marked c = false) →
    g.Tag c = H.Tag c ∧ g.Car c = H.Car c ∧ g.Cdr c = H.Cdr c
  new : ∀ c, H.marked c = false → g.marked c = true →
    c ∈ L ∧ H.Reach root c ∧ (c ∈ stk ∨ doneOK H g c)
  vec : ∀ w, g.Vectors w = H.Vectors w ∨
    (∃ c ∈ L, H.isVec c = true ∧ H.marked c = false ∧ g.marked c = true ∧
      (w = H.linkIx c ∨ (c ∈ stk ∧ ∃ j, j < H.vlen c ∧ w = H.slotIx c j))) ∨
    H.inOb w
  ports : ∀ i, g.Port_flags i = H.Port_flags i ∨
    g.Port_flags i = H.Port_flags i ||| USED_TAG

/-- Number of loop iterations that the cell `c` still needs. -/
def work (H g : Heap) (stk : List Nat) (c : Nat) : Nat :=
  if c ∈ stk then
    (if H.isVec c then H.vlen c - (g.Vectors (H.linkIx c)).toNat
     else if tst (g.Tag c) TRAV_TAG then 2 else 1)
  else if g.marked c then 0
  else if H.isVec c then (if H.travVec c then H.vlen c + 1 else 1)
  else if H.isAtom c then 2
  else 3

/-- Number of loop iterations that `mark` still needs. -/
def potential (H g : Heap) (L stk : List Nat) : Nat :=
  (L.map (work H g stk)).sum

/-- The heaps `g` and `g1` agree on everything that belongs to the cell `c`:
tag, fields, and for a vector object the backlink and the walked slots. -/
def sameAt (H g g1 : Heap) (c : Nat) : Prop :=
  g1.Tag c = g.Tag c ∧ g1.Car c = g.Car c ∧ g1.Cdr c = g.Cdr c ∧
  (H.isVec c = true → g1.Vectors (H.linkIx c) = g.Vectors (H.linkIx c)) ∧
  (H.travVec c = true → ∀ j, j < H.vlen c →
    g1.Vectors (H.slotIx c j) = g.Vectors (H.slotIx c j))

/-- The heap `g1` differs from `g` only in what belongs to the cell `x`, in
the payload of the literal map and by `USED` flags of ports. -/
def localTo (H g g1 : Heap) (x : Nat) : Prop :=
  g1.nnodes = g.nnodes ∧ g1.nvcells = g.nvcells ∧ g1.nports = g.nports ∧
  g1.Obmap = g.Obmap ∧
  (∀ c, c ≠ x → g1.Tag c = g.Tag c ∧ g1.Car c = g.Car c ∧ g1.Cdr c = g.Cdr c) ∧
  (∀ w, g1.Vectors w = g.Vectors w ∨
    (H.isVec x = true ∧ w = H.linkIx x) ∨
    (H.travVec x = true ∧ ∃ j, j < H.vlen x ∧ w = H.slotIx x j) ∨
    H.inOb w) ∧
  (∀ i, g1.Port_flags i = g.Port_flags i ∨
    g1.Port_flags i = g.Port_flags i ||| USED_TAG)

/-- One more iteration of the loop keeps the invariant and lowers the number
of iterations still needed. -/
def StepGoal (H : Heap) (L : List Nat) (root : Int) (g : Heap) (n p : Int)
    (stk : List Nat) : Prop :=
  ∃ g1 n1 p1 stk1, markStep ⟨g, n, p⟩ = some (MarkStep.next ⟨g1, n1, p1⟩) ∧
    MInv H L root g1 n1 p1 stk1 ∧ potential H g1 L stk1 < potential H g L stk

/-! The heap after each kind of iteration of `mark`. -/

/-- After `S0 --> S1` of the pair `c`. -/
def Heap.pushPair (g : Heap) (c : Nat) (p : Int) : Heap :=
  { g with Car := upd g.Car c p, Tag := upd g.Tag c (tagS1 (g.Tag c)) }

/-- After `S1 --> S2` of the pair `s`. -/
def Heap.turnPair (g : Heap) (s : Nat) (n : Int) : Heap :=
  { g with Cdr := upd g.Cdr s (g.Car s), Car := upd g.Car s n,
           Tag := upd g.Tag s (clrTrav (g.Tag s)) }

/-- After `S2 --> done` of the pair or atom `s`. -/
def Heap.popCdr (g : Heap) (s : Nat) (n : Int) : Heap :=
  { g with Cdr := upd g.Cdr s n }

/-- After `S0 --> S1` of the vector `c`. -/
def Heap.pushVec (g : Heap) (c : Nat) (p : Int) : Heap :=
  { g with Tag := upd g.Tag c (tagS1 (g.Tag c)),
           Vectors := upd (upd g.Vectors (g.linkIx c) 0) (g.slotIx c 0) p }

/-- After the marking of the vector object `c` without slots to walk. -/
def Heap.doneVec (g : Heap) (c : Nat) : Heap :=
  { g with Tag := upd g.Tag c (g.Tag c ||| MARK_TAG),
           Vectors := upd g.Vectors (g.linkIx c) (c : Int) }

/-- After `S1 --> S1` of the vector `s` from slot `i` to slot `i + 1`. -/
def Heap.advVec (g : Heap) (s : Nat) (i : Nat) (n : Int) : Heap :=
  { g with Vectors := upd (upd (upd g.Vectors (g.slotIx s (i + 1)) (g.Vectors (g.slotIx s i)))
      (g.slotIx s i) n) (g.linkIx s) ((i : Int) + 1) }

/-- After `S1 --> done` of the vector `s` at slot `i`. -/
def Heap.popVec (g : Heap) (s : Nat) (i : Nat) (n : Int) : Heap :=
  { g with Vectors := upd (upd g.Vectors (g.slotIx s i) n) (g.linkIx s) (s : Int) }

/-- The heap `g1` is `g` up to arena words in `[m, m + len)`. -/
def sameButOb (g g1 : Heap) (m : Int) (len : Nat) : Prop :=
  g1 = { g with Vectors := g1.Vectors } ∧
  ∀ w : Nat, ((w : Int) < m ∨ m + (len : Int) ≤ (w : Int)) → g1.Vectors w = g.Vectors w

/-- The heap `g1` is `g` up to the payload of the literal map and `USED`
flags of ports: the side effects of `mark` on an atom. -/
def effOK (H g g1 : Heap) : Prop :=
  g1.nnodes = g.nnodes ∧ g1.nvcells = g.nvcells ∧ g1.nports = g.nports ∧
  g1.Obmap = g.Obmap ∧ g1.Car = g.Car ∧ g1.Cdr = g.Cdr ∧ g1.Tag = g.Tag ∧
  (∀ w, g1.Vectors w = g.Vectors w ∨ H.inOb w) ∧
  (∀ i, g1.Port_flags i = g.Port_flags i ∨
    g1.Port_flags i = g.Port_flags i ||| USED_TAG)

/-- After `S0 --> S2` of the atom `c`, `g` being the heap after the side
effects. -/
def Heap.pushAtom (g : Heap) (c : Nat) (p : Int) : Heap :=
  { g with Cdr := upd g.Cdr c p, Tag := upd g.Tag c (g.Tag c ||| MARK_TAG) }

/-- The effect of `mark(root)` on the heap `H`: fields and walked slots are
as before, the cells marked by the call are reachable from `root`, lie in
`L`, are completely visited, and only backlinks of newly marked vector
objects and the payload of the literal map are written in the arena. -/
structure MarkPost (H : Heap) (L : List Nat) (root : Int) (g : Heap) : Prop where
  nn : g.nnodes = H.nnodes
  nv : g.nvcells = H.nvcells
  np : g.nports = H.nports
  ob : g.Obmap = H.Obmap
  car : ∀ c, g.Car c = H.Car c
  cdr : ∀ c, g.Cdr c = H.Cdr c
  old : ∀ c, (H.marked c = true ∨ g.marked c = false) → g.Tag c = H.Tag c
  new : ∀ c, H.marked c = false → g.marked c = true →
    c ∈ L ∧ H.Reach root c ∧ doneOK H g c
  vec : ∀ w, g.Vectors w = H.Vectors w ∨
    (∃ c ∈ L, H.isVec c = true ∧ H.marked c = false ∧ g.marked c = true ∧
      w = H.linkIx c) ∨ H.inOb w
  ports : ∀ i, g.Port_flags i = H.Port_flags i ∨
    g.Port_flags i = H.Port_flags i ||| USED_TAG
  root : g.okMarked root

/-- The effect of marking the roots `rs` one after the other on the heap
`H`, as `MarkPost` for one root. -/
structure MarkAllPost (H : Heap) (L : List Nat) (rs : List Int) (g : Heap) : Prop where
  nn : g.nnodes = H.nnodes
  nv : g.nvcells = H.nvcells
  np : g.nports = H.nports
  ob : g.Obmap = H.Obmap
  car : ∀ c, g.Car c = H.Car c
  cdr : ∀ c, g.Cdr c = H.Cdr c
  old : ∀ c, (H.marked c = true ∨ g.marked c = false) → g.Tag c = H.Tag c
  new : ∀ c, H.marked c = false → g.marked c = true →
    c ∈ L ∧ (∃ r ∈ rs, H.Reach r c) ∧ doneOK H g c
  vec : ∀ w, g.Vectors w = H.Vectors w ∨
    (∃ c ∈ L, H.isVec c = true ∧ H.marked c = false ∧ g.marked c = true ∧
      w = H.linkIx c) ∨ H.inOb w
  ports : ∀ i, g.Port_flags i = H.Port_flags i ∨
    g.Port_flags i = H.Port_flags i ||| USED_TAG
  roots : ∀ r ∈ rs, g.okMarked r

/-- The cell `c` is reachable from one of the references `rs`. -/
def Heap.ReachAny (h : Heap) (rs : List Int) (c : Nat) : Prop :=
  ∃ r ∈ rs, h.Reach r c

/-! ## Concrete heaps -/

/-- A pool given by the list of its first entries. -/
def poolOf {α : Type} (l : List α) (d : α) : Nat → α := fun i => l.getD i d

/-- A heap with a cycle through a vector slot: cell 0 is the pair `(1 . 2)`,
cell 1 the fixnum atom whose payload is cell 3, cell 2 a `T_VECTOR` with the
two slots `#(0 1)` (slot 0 points back to the pair), cell 3 the atom
`(5 . NIL)`, cell 4 is unused. -/
def cycleHeap : Heap :=
  { nnodes := 5, nvcells := 10, nports := 3,
    Car := poolOf [1, -14, -19, 5, 0] 0,
    Cdr := poolOf [2, 3, 2, -1, 0] 0,
    Tag := poolOf [0, 1, 8, 1, 0] 0,
    Vectors := poolOf [-1, 8, 0, 1, 0, 0, 0, 0, 0, 0] 0,
    Port_flags := fun _ => 0,
    Obmap := -1 }

/-- A heap without `MARK_TAG` whose references are all in range, with a
stale `TRAV_TAG` on an atom: cell 0 is the fixnum atom `(T_FIXNUM . 1)`,
cell 1 its payload atom `(2 . NIL)` carrying `TRAV_TAG`, cell 2 the pair
`(NIL . NIL)`, which is referenced by no cell. -/
def staleTravHeap : Heap :=
  { nnodes := 3, nvcells := 0, nports := 0,
    Car := poolOf [-14, 2, -1] 0,
    Cdr := poolOf [1, -1, -1] 0,
    Tag := poolOf [1, 5, 0] 0,
    Vectors := fun _ => 0,
    Port_flags := fun _ => 0,
    Obmap := -1 }

/-- The fixnum 0 with a stale `TRAV_TAG` on its payload atom: cell 0 is
`(T_FIXNUM . 1)`, cell 1 is `(0 . NIL)` carrying `TRAV_TAG`. -/
def staleFixnumHeap : Heap :=
  { nnodes := 2, nvcells := 0, nports := 0,
    Car := poolOf [-14, 0] 0,
    Cdr := poolOf [1, -1] 0,
    Tag := poolOf [1, 5] 0,
    Vectors := fun _ => 0,
    Port_flags := fun _ => 0,
    Obmap := -1 }

/-- Every reference that `mark` follows from a cell of the pool is special
or a cell of the pool, and every vector object of the pool has its block
inside the arena. -/
def Heap.refsInRange (h : Heap) : Prop :=
  (∀ c, c < h.nnodes → ∀ v ∈ h.succs c, v < (h.nnodes : Int)) ∧
  (∀ c, c < h.nnodes → h.isVec c = true →
    2 ≤ h.Cdr c ∧ h.Cdr c + (h.vlen c : Int) ≤ (h.nvcells : Int))

instance (h : Heap) : Decidable h.refsInRange := by
  unfold Heap.refsInRange; infer_instance

/-- A heap with a stack of capacity 2: cell 0 is the `T_VECTOR` object of
the stack, its block is `[0, 4)` with the slots `NIL` and `NIL`; cell 1 is
the pair `(NIL . NIL)`; cell 2 is unused. -/
def stackHeap : Heap :=
  { nnodes := 3, nvcells := 6, nports := 3,
    Car := poolOf [-19, -1, 0] 0,
    Cdr := poolOf [2, -1, 0] 0,
    Tag := poolOf [8, 0, 0] 0,
    Vectors := poolOf [0, 8, -1, -1, 0, 0] 0,
    Port_flags := fun _ => 0,
    Obmap := -1 }

/-! ## The interpreter state and the garbage collector -/

/-- The global variables of the interpreter that the memory manager and the
virtual machine use.  `heap` holds the pools and `Obmap`; `Ports i` tells
whether `Ports[i]` is an open file. -/
structure Machine where
  heap : Heap
  Freelist : Int
  Freevec : Int
  Protected : Int
  Symbols : Int
  Symhash : Int
  Prog : Int
  Env : Int
  Obhash : Int
  Obarray : Int
  Cts : Int
  Emitbuf : Int
  Glob : Int
  Macros : Int
  Rts : Int
  Acc : Int
  E0 : Int
  Ep : Int
  Argv : Int
  Tmp : Int
  Tmp_car : Int
  Tmp_cdr : Int
  Files : Int
  Outstr : Int
  Nullvec : Int
  Nullstr : Int
  Blank : Int
  Zero : Int
  One : Int
  Ten : Int
  Sp : Int
  Fp : Int
  Ip : Int
  Sz : Int
  Inport : Int
  Outport : Int
  Ports : Nat → Bool

/-- The array `GC_roots`, in its order. -/
def Machine.roots (M : Machine) : List Int :=
  [M.Protected, M.Symbols, M.Symhash, M.Prog, M.Env, M.Obhash,
   M.Obarray, M.heap.Obmap, M.Cts, M.Emitbuf, M.Glob, M.Macros, M.Rts,
   M.Acc, M.E0, M.Ep, M.Argv, M.Tmp, M.Tmp_car, M.Tmp_cdr, M.Files,
   M.Outstr, M.Nullvec, M.Nullstr, M.Blank, M.Zero, M.One, M.Ten]

/-- The variable `GC_verbose`; it is initialised to 0 and never assigned. -/
def GC_verbose : Nat := 0

/-- The byte operation `Port_flags[i] &= ~USED_TAG`. -/
def clrUsed (t : Nat) : Nat := t &&& 0xDF

/-- One iteration of the first loop of `gc`: the `USED` flag of port `i`. -/
def gcPortFlag (inport outport : Int) (pf : Nat → Nat) (i : Nat) : Nat → Nat :=
  if tst (pf i) LOCK_TAG then upd pf i (pf i ||| USED_TAG)
  else if (i : Int) = inport ∨ (i : Int) = outport then upd pf i (pf i ||| USED_TAG)
  else upd pf i (clrUsed (pf i))

/-- The first loop of `gc`. -/
def gcPortFlags (nports : Nat) (inport outport : Int) (pf : Nat → Nat) : Nat → Nat :=
  (List.range nports).foldl (gcPortFlag inport outport) pf

/-- The assignment `stringlen(n) = v`. -/
def Heap.setStringlen (h : Heap) (n v : Int) : Option Heap :=
  match h.cdr n with
  | some off => h.vset (off - 1) v
  | none => none

/-- The narrowing of the stack in `gc`: returns the saved length `sk` and the
heap with `stringlen(Rts) = (1 + Sp) * sizeof(cell)`. -/
def narrowRts (h : Heap) (rts sp : Int) : Option (Int × Heap) :=
  if rts ≠ NIL then
    match h.stringlen rts with
    | none => none
    | some sk =>
      match h.setStringlen rts ((1 + sp) * (sizeof_cell : Int)) with
      | none => none
      | some h1 => some (sk, h1)
  else some (0, h)

/-- The loop `for (i=0; GC_roots[i] != NULL; i++) mark(*GC_roots[i])`. -/
def markAll (fuel : Nat) : Heap → List Int → Option Heap
  | h, [] => some h
  | h, r :: rs =>
    match mark fuel h r with
    | none => none
    | some h1 => markAll fuel h1 rs

/-- State of the sweep loop of `gc`: the pools, `Freelist` and the count `k`. -/
structure SweepState where
  h : Heap
  Freelist : Int
  k : Nat

/-- One iteration of the sweep loop of `gc`. -/
def sweepStep (s : SweepState) (i : Nat) : SweepState :=
  if !tst (s.h.Tag i) MARK_TAG then
    { h := { s.h with Cdr := upd s.h.Cdr i s.Freelist }, Freelist := (i : Int), k := s.k + 1 }
  else
    { s with h := { s.h with Tag := upd s.h.Tag i (clrMark (s.h.Tag i)) } }

/-- The sweep loop of `gc`, started with `k = 0` and `Freelist = NIL`. -/
def sweep (h : Heap) : SweepState :=
  (List.range h.nnodes).foldl sweepStep { h := h, Freelist := NIL, k := 0 }

/-- One iteration of the loop of `gc` that closes unused ports. -/
def closeStep (pf : Nat → Nat) (ports : Nat → Bool) (i : Nat) : Nat → Bool :=
  if !tst (pf i) USED_TAG && ports i then upd ports i false else ports

/-- The loop of `gc` that closes the ports without `USED` flag. -/
def closePorts (nports : Nat) (pf : Nat → Nat) (ports : Nat → Bool) : Nat → Bool :=
  (List.range nports).foldl (closeStep pf) ports

/-- One iteration of the literal loop of `gc`; `a` and `m` are the arena
offsets of `Obarray` and of `Obmap`. -/
def litStep (a m : Int) (h : Heap) (i : Nat) : Option Heap :=
  match h.bref m i with
  | none => none
  | some b =>
    if b = OBUSED then h.bset m i OBALLOC
    else
      match h.bset m i OBFREE with
      | none => none
      | some h1 => h1.vset (a + (i : Int)) NIL

/-- The literal loop of `gc` from slot `i` for `cnt` slots. -/
def litLoop (a m : Int) : Nat → Nat → Heap → Option Heap
  | 0, _, h => some h
  | cnt + 1, i, h =>
    match litStep a m h i with
    | none => none
    | some h1 => litLoop a m cnt (i + 1) h1

/-- The end of `gc`: literal slots flip from `OBUSED` to `OBALLOC`, the
others are freed and their object is overwritten by `NIL`.  With a `NULL`
pointer for the map the loop must not run. -/
def litSweep (h : Heap) (obarray : Int) : Option Heap :=
  if obarray = NIL then some h
  else
    match h.veclen obarray, h.cdr obarray with
    | some n, some a =>
      if h.Obmap = NIL then (if n = 0 then some h else none)
      else
        match h.cdr h.Obmap with
        | some m => litLoop a m n 0 h
        | none => none
    | _, _ => none

/-- The start of `gc`: the `USED` flags of the ports are set up and the
stack is narrowed to its used part.  Returns the saved length of the stack
and the heap that the marker sees. -/
def gcPrep (M : Machine) : Option (Int × Heap) :=
  narrowRts { M.heap with
      Port_flags := gcPortFlags M.heap.nports M.Inport M.Outport M.heap.Port_flags }
    M.Rts M.Sp

/-- The function `gc()`: returns the new state and the number of reclaimed
nodes.  `fuel` bounds the iterations of each call of `mark`. -/
def gc (fuel : Nat) (M : Machine) : Option (Machine × Nat) :=
  match gcPrep M with
  | none => none
  | some (sk, h1) =>
    match markAll fuel h1 M.roots with
    | none => none
    | some h2 =>
      match (if M.Rts ≠ NIL then h2.setStringlen M.Rts sk else some h2) with
      | none => none
      | some h3 =>
        let s := sweep h3
        let ports := closePorts s.h.nports s.h.Port_flags M.Ports
        match litSweep s.h M.Obarray with
        | none => none
        | some h4 => some ({ M with heap := h4, Freelist := s.Freelist, Ports := ports }, s.k)

/-- Outcome of a function that may raise an error through `error()`: a
result, the raised message with the state at that point, or an access
outside the pools. -/
inductive Outcome (α : Type) where
  | ok (a : α)
  | error (msg : String) (M : Machine)
  | fault

/-- The state in which `cons3` calls `gc`: the pending `car` and `cdr` are
stored in the temporary roots.  The test `0 == (ptag & ~CONST_TAG)` holds
exactly for the tags 0 and `CONST_TAG`. -/
def cons3Tmp (M : Machine) (pcar pcdr : Int) (ptag : Nat) : Machine :=
  let M1 := if ptag = 0 ∨ ptag = CONST_TAG then { M with Tmp_car := pcar } else M
  if !tst ptag VECTOR_TAG then { M1 with Tmp_cdr := pcdr } else M1

/-- The function `cons3(pcar, pcdr, ptag)`. -/
def cons3 (fuel : Nat) (M : Machine) (pcar pcdr : Int) (ptag : Nat) :
    Outcome (Machine × Int) :=
  let alloc := fun (M1 : Machine) =>
    match M1.heap.cdr M1.Freelist with
    | none => Outcome.fault
    | some next =>
      let n := M1.Freelist
      Outcome.ok ({ M1 with Freelist := next,
                            heap := { M1.heap with Car := upd M1.heap.Car n.toNat pcar,
                                                   Cdr := upd M1.heap.Cdr n.toNat pcdr,
                                                   Tag := upd M1.heap.Tag n.toNat (ptag % 256) } },
                  n)
  if M.Freelist = NIL then
    match gc fuel (cons3Tmp M pcar pcdr ptag) with
    | none => Outcome.fault
    | some (M3, _) =>
      let M4 := { M3 with Tmp_car := NIL, Tmp_cdr := NIL }
      if M4.Freelist = NIL then Outcome.error "cons3: out of nodes" M4
      else alloc M4
  else alloc M

/-- The cells on the free list: the chain through `Cdr` from `x` to `NIL`,
`none` when it is longer than `fuel` or leaves the pool. -/
def freeChain (h : Heap) : Nat → Int → Option (List Nat)
  | 0, x => if x = NIL then some [] else none
  | fuel + 1, x =>
    if x = NIL then some []
    else
      match h.cdr x with
      | none => none
      | some d =>
        match freeChain h fuel d with
        | none => none
        | some l => some (x.toNat :: l)

/-- The state with the pools `h` in which every root is `NIL`, the stack is
empty and no port is open. -/
def Machine.blank (h : Heap) : Machine :=
  { heap := h, Freelist := NIL, Freevec := 0,
    Protected := NIL, Symbols := NIL, Symhash := NIL, Prog := NIL, Env := NIL,
    Obhash := NIL, Obarray := NIL, Cts := NIL, Emitbuf := NIL, Glob := NIL,
    Macros := NIL, Rts := NIL, Acc := NIL, E0 := NIL, Ep := NIL, Argv := NIL,
    Tmp := NIL, Tmp_car := NIL, Tmp_cdr := NIL, Files := NIL, Outstr := NIL,
    Nullvec := NIL, Nullstr := NIL, Blank := NIL, Zero := NIL, One := NIL, Ten := NIL,
    Sp := -1, Fp := -1, Ip := 0, Sz := 0, Inport := 0, Outport := 1,
    Ports := fun _ => false }

/-- The unmarked cells below `n`, highest first: the order in which the
sweep of `gc` threads them on the free list. -/
def freeBelow (h : Heap) : Nat → List Nat
  | 0 => []
  | n + 1 => if h.marked n then freeBelow h n else n :: freeBelow h n

/-- The marked cells below `n`. -/
def liveBelow (h : Heap) : Nat → List Nat
  | 0 => []
  | n + 1 => if h.marked n then n :: liveBelow h n else liveBelow h n

/-- The sweep of `gc` over the first `n` cells. -/
def sweepN (h : Heap) (n : Nat) : SweepState :=
  (List.range n).foldl sweepStep { h := h, Freelist := NIL, k := 0 }

/-- The literal pool is fit for the last loop of `gc`: there is no literal
vector, or it is a vector object of `L` and the literal map has a byte for
each of its slots. -/
def litSweepOK (h : Heap) (L : List Nat) (obarray : Int) : Prop :=
  obarray = NIL ∨
  (0 ≤ obarray ∧ obarray.toNat ∈ L ∧ h.isVec obarray.toNat = true ∧
    ((h.Obmap = NIL ∧ h.vlen obarray.toNat = 0) ∨
     (0 ≤ h.Obmap ∧ h.vlen obarray.toNat ≤ sizeof_cell * h.vlen h.Obmap.toNat)))

/-- The state `M` is fit for `gc`: the preparation of `gc` yields the saved
stack length `sk` and the heap `H1`, which is well formed for the set `L`
and carries no mark; the roots are special or cells of `L`; the stack is a
vector object other than the literal vector; the literal pool is fit for
the last loop. -/
def GcWF (M : Machine) (L : List Nat) (sk : Int) (H1 : Heap) : Prop :=
  gcPrep M = some (sk, H1) ∧ WF H1 L ∧
  (∀ c, c < H1.nnodes → H1.marked c = false) ∧
  (∀ r ∈ M.roots, 0 ≤ r → r.toNat ∈ L) ∧
  (M.Rts = NIL ∨ (0 ≤ M.Rts ∧ H1.isVec M.Rts.toNat = true ∧ M.Rts ≠ M.Obarray)) ∧
  litSweepOK H1 L M.Obarray

instance (h : Heap) (L : List Nat) (obarray : Int) :
    Decidable (litSweepOK h L obarray) := by
  unfold litSweepOK; infer_instance

/-- The state that `gc` returns: the pools `h`, the free list `fl` and the
open files `ports`. -/
def Machine.afterGc (M : Machine) (h : Heap) (fl : Int) (ports : Nat → Bool) : Machine :=
  { M with heap := h, Freelist := fl, Ports := ports }

/-- A state whose only live objects are the stack vector (cell 0, one slot in
use: `Sp = 0`) and the pair in the accumulator (cell 1). -/
def stackMachine : Machine :=
  { Machine.blank stackHeap with Rts := 0, Sp := 0, Acc := 1, Freevec := 4 }

/-- The saved stack length and the heap that the marker sees when `gc` runs
on `stackMachine`: the stack is narrowed to one slot. -/
def stackPrep : Int × Heap := (gcPrep stackMachine).getD (0, stackHeap)

/-! ## The vector pool: `unmark_vecs` and `gcv` -/

def RAW_VECLINK : Int := 0
def RAW_VECSIZE : Int := 1
def RAW_VECDATA : Int := 2

/-- The loop of `unmark_vecs` from the arena offset `p`.  The update
`p += vecsize(k)` is computed in `size_t` and converted back to `int`. -/
def unmarkLoop (freevec : Int) : Nat → Heap → Int → Option Heap
  | 0, h, p => if p < freevec then none else some h
  | fuel + 1, h, p =>
    if p < freevec then
      match h.vref (p + RAW_VECSIZE) with
      | none => none
      | some k =>
        match h.vset p NIL with
        | none => none
        | some h1 => unmarkLoop freevec fuel h1 (wordOfNat (toSizeT p + vecsize k))
    else some h

/-- The function `unmark_vecs()`. -/
def unmark_vecs (fuel : Nat) (M : Machine) : Option Machine :=
  match unmarkLoop M.Freevec fuel M.heap 0 with
  | none => none
  | some h => some { M with heap := h }

/-- The call `memmove(&Vectors[dst], &Vectors[src], k * sizeof(cell))`: `k`
cells are copied as if through a buffer.  A negative `k` converts to a byte
count beyond every arena, so it is an access outside the pool. -/
def Heap.memmove (h : Heap) (dst src k : Int) : Option Heap :=
  if 0 ≤ k ∧ 0 ≤ dst ∧ 0 ≤ src ∧ dst + k ≤ (h.nvcells : Int) ∧ src + k ≤ (h.nvcells : Int) then
    some { h with Vectors := fun w =>
      if dst ≤ (w : Int) ∧ (w : Int) < dst + k then h.Vectors ((w : Int) - dst + src).toNat
      else h.Vectors w }
  else none

/-- Addition of two `int` values; an overflow has no defined result. -/
def addInt (a b : Int) : Option Int :=
  if -(2 : Int) ^ 31 ≤ a + b ∧ a + b < (2 : Int) ^ 31 then some (a + b) else none

/-- The body of `if (to != from)` in `gcv` (`dst` is `to`, `src` is `from`):
the block of `k` cells moves from `src` to `dst` and the `cdr` of its owner is set to the new payload offset. -/
def relocate (h : Heap) (dst src k : Int) : Option Heap :=
  if dst ≠ src then
    match h.memmove dst src k with
    | none => none
    | some h1 =>
      match h1.vref (dst + RAW_VECLINK) with
      | none => none
      | some owner => h1.setCdr owner (dst + RAW_VECDATA)
  else some h

/-- The compaction loop of `gcv`; returns the pools and the final `dst`. -/
def compactLoop (freevec : Int) : Nat → Heap → Int → Int → Option (Heap × Int)
  | 0, h, dst, src => if src < freevec then none else some (h, dst)
  | fuel + 1, h, dst, src =>
    if src < freevec then
      match h.vref (src + RAW_VECSIZE), h.vref (src + RAW_VECLINK) with
      | some v, some link =>
        match addInt src (wordOfNat (vecsize v)) with
        | none => none
        | some src1 =>
          if link ≠ NIL then
            match relocate h dst src (wordOfNat (vecsize v)), addInt dst (wordOfNat (vecsize v)) with
            | some h2, some dst1 => compactLoop freevec fuel h2 dst1 src1
            | _, _ => none
          else compactLoop freevec fuel h dst src1
      | _, _ => none
    else some (h, dst)

/-- The function `gcv()`: returns the new state and the number of reclaimed
arena cells.  `fuel` bounds the iterations of each loop. -/
def gcv (fuel : Nat) (M : Machine) : Option (Machine × Int) :=
  match unmark_vecs fuel M with
  | none => none
  | some M1 =>
    match gc fuel M1 with
    | none => none
    | some (M2, _) =>
      match compactLoop M2.Freevec fuel M2.heap 0 0 with
      | none => none
      | some (h, dst) => some ({ M2 with heap := h, Freevec := dst }, M2.Freevec - dst)

/-! ### The layout of the arena -/

/-- The arena words `[p, fv)` are covered by the blocks that start at the
offsets `ts`, each as long as its size word tells. -/
def Tiled (v : Nat → Int) : Nat → List Nat → Nat → Prop
  | p, [], fv => p = fv
  | p, t :: ts, fv => t = p ∧ p < fv ∧ Tiled v (p + vecsize (v (p + 1))) ts fv

instance (v : Nat → Int) : ∀ (ts : List Nat) (p fv : Nat), Decidable (Tiled v p ts fv)
  | [], p, fv => by unfold Tiled; infer_instance
  | t :: ts, p, fv => by
    unfold Tiled
    have := instDecidableTiled v ts (p + vecsize (v (p + 1))) fv
    infer_instance

/-- The arena after `unmark_vecs`: the backlink words of the blocks `ts` are
`NIL`. -/
def unlinked (v : Nat → Int) (ts : List Nat) : Nat → Int :=
  fun w => if w ∈ ts then NIL else v w

/-- The state after `unmark_vecs` on an arena with the blocks `ts`. -/
def Machine.unmarked (M : Machine) (ts : List Nat) : Machine :=
  { M with heap := { M.heap with Vectors := unlinked M.heap.Vectors ts } }

/-- The blocks of `ts` with a backlink, each with its offset after the
compaction that starts to fill the arena at `dst`. -/
def relocs (v : Nat → Int) : List Nat → Nat → List (Nat × Nat)
  | [], _ => []
  | t :: ts, dst =>
    if v t ≠ NIL then (t, dst) :: relocs v ts (dst + vecsize (v (t + 1)))
    else relocs v ts dst

/-- Total length of the blocks of `ts` with a backlink. -/
def liveSize (v : Nat → Int) : List Nat → Nat
  | [] => 0
  | t :: ts => (if v t ≠ NIL then vecsize (v (t + 1)) else 0) + liveSize v ts

/-- The state `M` is fit for `gcv`: the arena below `Freevec` consists of
the blocks `ts`, the state after `unmark_vecs` is fit for `gc`, and every
vector object of `L` owns a block of `ts` that holds its payload. -/
def GcvWF (M : Machine) (L ts : List Nat) (sk : Int) (H1 : Heap) : Prop :=
  0 ≤ M.Freevec ∧ M.Freevec ≤ (M.heap.nvcells : Int) ∧ M.heap.nvcells < 2 ^ 31 ∧
  Tiled M.heap.Vectors 0 ts M.Freevec.toNat ∧
  GcWF (M.unmarked ts) L sk H1 ∧
  (∀ c ∈ L, H1.isVec c = true →
    H1.linkIx c ∈ ts ∧ H1.vlen c + 2 ≤ vecsize (M.heap.Vectors (H1.sizeIx c)))

/-- The heaps agree on everything but the arena and `Cdr`. -/
def sameButVC (h h1 : Heap) : Prop :=
  h1.nnodes = h.nnodes ∧ h1.nvcells = h.nvcells ∧ h1.nports = h.nports ∧
  h1.Car = h.Car ∧ h1.Tag = h.Tag ∧ h1.Port_flags = h.Port_flags ∧ h1.Obmap = h.Obmap

/-- The state that `gcv` returns: the pools `h` and the new `Freevec`. -/
def Machine.afterGcv (M : Machine) (h : Heap) (fv : Int) : Machine :=
  { M with heap := h, Freevec := fv }

/-- A heap with three arena blocks below `Freevec = 10`: the block `[0, 4)`
of the stack vector (cell 0, capacity 2, slot 0 refers to the pair in cell
2), the block `[4, 7)` of a string that is no longer referenced (cell 3),
and the block `[7, 10)` of the string in cell 1. -/
def vecHeap : Heap :=
  { nnodes := 4, nvcells := 16, nports := 3,
    Car := poolOf [-19, -17, -1, -17] 0,
    Cdr := poolOf [2, 9, -1, 6] 0,
    Tag := poolOf [8, 8, 0, 8] 0,
    Vectors := poolOf [0, 8, 2, -1, 3, 3, 7, 1, 4, 9] 0,
    Port_flags := fun _ => 0,
    Obmap := -1 }

/-- A state on `vecHeap`: the stack holds one value and the accumulator
refers to the string in cell 1. -/
def vecMachine : Machine :=
  { Machine.blank vecHeap with Rts := 0, Sp := 0, Acc := 1, Freevec := 10 }

/-- The saved stack length and the heap that the marker sees when `gcv`
runs `gc` on `vecMachine`. -/
def vecPrep : Int × Heap := (gcPrep (vecMachine.unmarked [0, 4, 7])).getD (0, vecHeap)

/-! ## Primitive opcodes and the primitive tables of the compiler -/

def OP_ABS : Nat := 30
def OP_ALPHAC : Nat := 31
def OP_ATOM : Nat := 32
def OP_BITOP : Nat := 33
def OP_CAAR : Nat := 34
def OP_CADR : Nat := 35
def OP_CAR : Nat := 36
def OP_CDAR : Nat := 37
def OP_CDDR : Nat := 38
def OP_CDR : Nat := 39
def OP_CEQUAL : Nat := 40
def OP_CGRTR : Nat := 41
def OP_CGTEQ : Nat := 42
def OP_CHAR : Nat := 43
def OP_CHARP : Nat := 44
def OP_CHARVAL : Nat := 45
def OP_CLESS : Nat := 46
def OP_CLOSE_PORT : Nat := 47
def OP_CLTEQ : Nat := 48
def OP_CMDLINE : Nat := 49
def OP_CONC : Nat := 50
def OP_CONS : Nat := 51
def OP_CONSTP : Nat := 52
def OP_CTAGP : Nat := 53
def OP_DELETE : Nat := 54
def OP_DIV : Nat := 55
def OP_DOWNCASE : Nat := 56
def OP_DUMP_IMAGE : Nat := 57
def OP_EOFP : Nat := 58
def OP_EQ : Nat := 59
def OP_EQUAL : Nat := 60
def OP_ERROR : Nat := 61
def OP_ERROR2 : Nat := 62
def OP_ERRPORT : Nat := 63
def OP_EVAL : Nat := 64
def OP_EXISTSP : Nat := 65
def OP_FIXP : Nat := 66
def OP_FLUSH : Nat := 67
def OP_FORMAT : Nat := 68
def OP_FUNP : Nat := 69
def OP_GC : Nat := 70
def OP_GENSYM : Nat := 71
def OP_GRTR : Nat := 72
def OP_GTEQ : Nat := 73
def OP_INPORT : Nat := 74
def OP_INPORTP : Nat := 75
def OP_LESS : Nat := 76
def OP_LISTSTR : Nat := 77
def OP_LISTVEC : Nat := 78
def OP_LOAD : Nat := 79
def OP_LOWERC : Nat := 80
def OP_LTEQ : Nat := 81
def OP_MAX : Nat := 82
def OP_MIN : Nat := 83
def OP_MINUS : Nat := 84
def OP_MKSTR : Nat := 85
def OP_MKVEC : Nat := 86
def OP_MX : Nat := 87
def OP_MX1 : Nat := 88
def OP_NCONC : Nat := 89
def OP_NEGATE : Nat := 90
def OP_NRECONC : Nat := 91
def OP_NULL : Nat := 92
def OP_NUMERIC : Nat := 93
def OP_NUMSTR : Nat := 94
def OP_OBTAB : Nat := 95
def OP_OPEN_INFILE : Nat := 96
def OP_OPEN_OUTFILE : Nat := 97
def OP_OUTPORT : Nat := 98
def OP_OUTPORTP : Nat := 99
def OP_PAIR : Nat := 100
def OP_PEEKC : Nat := 101
def OP_PLUS : Nat := 102
def OP_PRIN : Nat := 103
def OP_PRINC : Nat := 104
def OP_QUIT : Nat := 105
def OP_READ : Nat := 106
def OP_READC : Nat := 107
def OP_RECONC : Nat := 108
def OP_REM : Nat := 109
def OP_RENAME : Nat := 110
def OP_SCONC : Nat := 111
def OP_SEQUAL : Nat := 112
def OP_SETCAR : Nat := 113
def OP_SETCDR : Nat := 114
def OP_SET_INPORT : Nat := 115
def OP_SET_OUTPORT : Nat := 116
def OP_SFILL : Nat := 117
def OP_SGRTR : Nat := 118
def OP_SGTEQ : Nat := 119
def OP_SIEQUAL : Nat := 120
def OP_SIGRTR : Nat := 121
def OP_SIGTEQ : Nat := 122
def OP_SILESS : Nat := 123
def OP_SILTEQ : Nat := 124
def OP_SLESS : Nat := 125
def OP_SLTEQ : Nat := 126
def OP_SREF : Nat := 127
def OP_SSET : Nat := 128
def OP_SSIZE : Nat := 129
def OP_STRINGP : Nat := 130
def OP_STRLIST : Nat := 131
def OP_STRNUM : Nat := 132
def OP_SUBSTR : Nat := 133
def OP_SUBVEC : Nat := 134
def OP_SYMBOL : Nat := 135
def OP_SYMBOLP : Nat := 136
def OP_SYMNAME : Nat := 137
def OP_SYMTAB : Nat := 138
def OP_SYSCMD : Nat := 139
def OP_TIMES : Nat := 140
def OP_UNTAG : Nat := 141
def OP_UPCASE : Nat := 142
def OP_UPPERC : Nat := 143
def OP_VCONC : Nat := 144
def OP_VECLIST : Nat := 145
def OP_VECTORP : Nat := 146
def OP_VFILL : Nat := 147
def OP_VREF : Nat := 148
def OP_VSET : Nat := 149
def OP_VSIZE : Nat := 150
def OP_WHITEC : Nat := 151
def OP_WRITEC : Nat := 152

/-- The symbols that the compiler compares the head of a form with: the
cells of the special-form symbols and of the primitive symbols. -/
structure Syms where
  I_a : Int
  I_e : Int
  I_arg : Int
  I_closure : Int
  I_ref : Int
  S_apply : Int
  S_def : Int
  S_if : Int
  S_ifstar : Int
  S_lambda : Int
  S_macro : Int
  S_prog : Int
  S_quote : Int
  S_setq : Int
  P_cmdline : Int
  P_errport : Int
  P_gc : Int
  P_gensym : Int
  P_inport : Int
  P_obtab : Int
  P_outport : Int
  P_quit : Int
  P_symtab : Int
  P_abs : Int
  P_alphac : Int
  P_atom : Int
  P_caar : Int
  P_cadr : Int
  P_car : Int
  P_catchstar : Int
  P_cdar : Int
  P_cddr : Int
  P_cdr : Int
  P_char : Int
  P_charp : Int
  P_charval : Int
  P_close_port : Int
  P_constp : Int
  P_ctagp : Int
  P_delete : Int
  P_dump_image : Int
  P_downcase : Int
  P_eofp : Int
  P_eval : Int
  P_existsp : Int
  P_fixp : Int
  P_flush : Int
  P_format : Int
  P_funp : Int
  P_inportp : Int
  P_liststr : Int
  P_listvec : Int
  P_load : Int
  P_lowerc : Int
  P_mx : Int
  P_mx1 : Int
  P_not : Int
  P_null : Int
  P_numeric : Int
  P_open_infile : Int
  P_outportp : Int
  P_pair : Int
  P_set_inport : Int
  P_set_outport : Int
  P_ssize : Int
  P_stringp : Int
  P_strlist : Int
  P_symbol : Int
  P_symbolp : Int
  P_symname : Int
  P_syscmd : Int
  P_untag : Int
  P_upcase : Int
  P_upperc : Int
  P_veclist : Int
  P_vectorp : Int
  P_vsize : Int
  P_whitec : Int
  P_cons : Int
  P_div : Int
  P_eq : Int
  P_nreconc : Int
  P_reconc : Int
  P_rem : Int
  P_rename : Int
  P_sless : Int
  P_slteq : Int
  P_sequal : Int
  P_sgrtr : Int
  P_sgteq : Int
  P_setcar : Int
  P_setcdr : Int
  P_sfill : Int
  P_siless : Int
  P_silteq : Int
  P_siequal : Int
  P_sigrtr : Int
  P_sigteq : Int
  P_sref : Int
  P_throwstar : Int
  P_vfill : Int
  P_vref : Int
  P_sset : Int
  P_substr : Int
  P_subvec : Int
  P_vset : Int
  P_peekc : Int
  P_read : Int
  P_readc : Int
  P_error : Int
  P_mkstr : Int
  P_mkvec : Int
  P_numstr : Int
  P_open_outfile : Int
  P_prin : Int
  P_princ : Int
  P_strnum : Int
  P_writec : Int
  P_times : Int
  P_plus : Int
  P_conc : Int
  P_nconc : Int
  P_sconc : Int
  P_vconc : Int
  P_bitop : Int
  P_max : Int
  P_min : Int
  P_minus : Int
  P_less : Int
  P_lteq : Int
  P_equal : Int
  P_grtr : Int
  P_gteq : Int
  P_cless : Int
  P_clteq : Int
  P_cequal : Int
  P_cgrtr : Int
  P_cgteq : Int

/-- A symbol table with pairwise distinct cells. -/
def sampleSyms : Syms :=
  { I_a := 1000,
    I_e := 1001,
    I_arg := 1002,
    I_closure := 1003,
    I_ref := 1004,
    S_apply := 1005,
    S_def := 1006,
    S_if := 1007,
    S_ifstar := 1008,
    S_lambda := 1009,
    S_macro := 1010,
    S_prog := 1011,
    S_quote := 1012,
    S_setq := 1013,
    P_cmdline := 1014,
    P_errport := 1015,
    P_gc := 1016,
    P_gensym := 1017,
    P_inport := 1018,
    P_obtab := 1019,
    P_outport := 1020,
    P_quit := 1021,
    P_symtab := 1022,
    P_abs := 1023,
    P_alphac := 1024,
    P_atom := 1025,
    P_caar := 1026,
    P_cadr := 1027,
    P_car := 1028,
    P_catchstar := 1029,
    P_cdar := 1030,
    P_cddr := 1031,
    P_cdr := 1032,
    P_char := 1033,
    P_charp := 1034,
    P_charval := 1035,
    P_close_port := 1036,
    P_constp := 1037,
    P_ctagp := 1038,
    P_delete := 1039,
    P_dump_image := 1040,
    P_downcase := 1041,
    P_eofp := 1042,
    P_eval := 1043,
    P_existsp := 1044,
    P_fixp := 1045,
    P_flush := 1046,
    P_format := 1047,
    P_funp := 1048,
    P_inportp := 1049,
    P_liststr := 1050,
    P_listvec := 1051,
    P_load := 1052,
    P_lowerc := 1053,
    P_mx := 1054,
    P_mx1 := 1055,
    P_not := 1056,
    P_null := 1057,
    P_numeric := 1058,
    P_open_infile := 1059,
    P_outportp := 1060,
    P_pair := 1061,
    P_set_inport := 1062,
    P_set_outport := 1063,
    P_ssize := 1064,
    P_stringp := 1065,
    P_strlist := 1066,
    P_symbol := 1067,
    P_symbolp := 1068,
    P_symname := 1069,
    P_syscmd := 1070,
    P_untag := 1071,
    P_upcase := 1072,
    P_upperc := 1073,
    P_veclist := 1074,
    P_vectorp := 1075,
    P_vsize := 1076,
    P_whitec := 1077,
    P_cons := 1078,
    P_div := 1079,
    P_eq := 1080,
    P_nreconc := 1081,
    P_reconc := 1082,
    P_rem := 1083,
    P_rename := 1084,
    P_sless := 1085,
    P_slteq := 1086,
    P_sequal := 1087,
    P_sgrtr := 1088,
    P_sgteq := 1089,
    P_setcar := 1090,
    P_setcdr := 1091,
    P_sfill := 1092,
    P_siless := 1093,
    P_silteq := 1094,
    P_siequal := 1095,
    P_sigrtr := 1096,
    P_sigteq := 1097,
    P_sref := 1098,
    P_throwstar := 1099,
    P_vfill := 1100,
    P_vref := 1101,
    P_sset := 1102,
    P_substr := 1103,
    P_subvec := 1104,
    P_vset := 1105,
    P_peekc := 1106,
    P_read := 1107,
    P_readc := 1108,
    P_error := 1109,
    P_mkstr := 1110,
    P_mkvec := 1111,
    P_numstr := 1112,
    P_open_outfile := 1113,
    P_prin := 1114,
    P_princ := 1115,
    P_strnum := 1116,
    P_writec := 1117,
    P_times := 1118,
    P_plus := 1119,
    P_conc := 1120,
    P_nconc := 1121,
    P_sconc := 1122,
    P_vconc := 1123,
    P_bitop := 1124,
    P_max := 1125,
    P_min := 1126,
    P_minus := 1127,
    P_less := 1128,
    P_lteq := 1129,
    P_equal := 1130,
    P_grtr := 1131,
    P_gteq := 1132,
    P_cless := 1133,
    P_clteq := 1134,
    P_cequal := 1135,
    P_cgrtr := 1136,
    P_cgteq := 1137 }

/-- The function `subr0`: the opcode of the primitives without arguments, or -1. -/
def subr0 (sy : Syms) (x : Int) : Int :=
  if x = sy.P_cmdline then (OP_CMDLINE : Nat) else
  if x = sy.P_errport then (OP_ERRPORT : Nat) else
  if x = sy.P_gc then (OP_GC : Nat) else
  if x = sy.P_gensym then (OP_GENSYM : Nat) else
  if x = sy.P_inport then (OP_INPORT : Nat) else
  if x = sy.P_obtab then (OP_OBTAB : Nat) else
  if x = sy.P_outport then (OP_OUTPORT : Nat) else
  if x = sy.P_quit then (OP_QUIT : Nat) else
  if x = sy.P_symtab then (OP_SYMTAB : Nat) else
  -1

/-- The function `subr1`: the opcode of the primitives of one argument, or -1. -/
def subr1 (sy : Syms) (x : Int) : Int :=
  if x = sy.P_abs then (OP_ABS : Nat) else
  if x = sy.P_alphac then (OP_ALPHAC : Nat) else
  if x = sy.P_atom then (OP_ATOM : Nat) else
  if x = sy.P_caar then (OP_CAAR : Nat) else
  if x = sy.P_cadr then (OP_CADR : Nat) else
  if x = sy.P_car then (OP_CAR : Nat) else
  if x = sy.P_catchstar then (OP_CATCHSTAR : Nat) else
  if x = sy.P_cdar then (OP_CDAR : Nat) else
  if x = sy.P_cddr then (OP_CDDR : Nat) else
  if x = sy.P_cdr then (OP_CDR : Nat) else
  if x = sy.P_char then (OP_CHAR : Nat) else
  if x = sy.P_charp then (OP_CHARP : Nat) else
  if x = sy.P_charval then (OP_CHARVAL : Nat) else
  if x = sy.P_close_port then (OP_CLOSE_PORT : Nat) else
  if x = sy.P_constp then (OP_CONSTP : Nat) else
  if x = sy.P_ctagp then (OP_CTAGP : Nat) else
  if x = sy.P_delete then (OP_DELETE : Nat) else
  if x = sy.P_dump_image then (OP_DUMP_IMAGE : Nat) else
  if x = sy.P_downcase then (OP_DOWNCASE : Nat) else
  if x = sy.P_dump_image then (OP_DUMP_IMAGE : Nat) else
  if x = sy.P_eofp then (OP_EOFP : Nat) else
  if x = sy.P_eval then (OP_EVAL : Nat) else
  if x = sy.P_existsp then (OP_EXISTSP : Nat) else
  if x = sy.P_fixp then (OP_FIXP : Nat) else
  if x = sy.P_flush then (OP_FLUSH : Nat) else
  if x = sy.P_format then (OP_FORMAT : Nat) else
  if x = sy.P_funp then (OP_FUNP : Nat) else
  if x = sy.P_inportp then (OP_INPORTP : Nat) else
  if x = sy.P_liststr then (OP_LISTSTR : Nat) else
  if x = sy.P_listvec then (OP_LISTVEC : Nat) else
  if x = sy.P_load then (OP_LOAD : Nat) else
  if x = sy.P_lowerc then (OP_LOWERC : Nat) else
  if x = sy.P_mx then (OP_MX : Nat) else
  if x = sy.P_mx1 then (OP_MX1 : Nat) else
  if x = sy.P_not then (OP_NULL : Nat) else
  if x = sy.P_null then (OP_NULL : Nat) else
  if x = sy.P_numeric then (OP_NUMERIC : Nat) else
  if x = sy.P_open_infile then (OP_OPEN_INFILE : Nat) else
  if x = sy.P_outportp then (OP_OUTPORTP : Nat) else
  if x = sy.P_pair then (OP_PAIR : Nat) else
  if x = sy.P_set_inport then (OP_SET_INPORT : Nat) else
  if x = sy.P_set_outport then (OP_SET_OUTPORT : Nat) else
  if x = sy.P_ssize then (OP_SSIZE : Nat) else
  if x = sy.P_stringp then (OP_STRINGP : Nat) else
  if x = sy.P_strlist then (OP_STRLIST : Nat) else
  if x = sy.P_symbol then (OP_SYMBOL : Nat) else
  if x = sy.P_symbolp then (OP_SYMBOLP : Nat) else
  if x = sy.P_symname then (OP_SYMNAME : Nat) else
  if x = sy.P_syscmd then (OP_SYSCMD : Nat) else
  if x = sy.P_untag then (OP_UNTAG : Nat) else
  if x = sy.P_upcase then (OP_UPCASE : Nat) else
  if x = sy.P_upperc then (OP_UPPERC : Nat) else
  if x = sy.P_veclist then (OP_VECLIST : Nat) else
  if x = sy.P_vectorp then (OP_VECTORP : Nat) else
  if x = sy.P_vsize then (OP_VSIZE : Nat) else
  if x = sy.P_whitec then (OP_WHITEC : Nat) else
  -1

/-- The function `subr2`: the opcode of the primitives of two arguments, or -1. -/
def subr2 (sy : Syms) (x : Int) : Int :=
  if x = sy.P_cons then (OP_CONS : Nat) else
  if x = sy.P_div then (OP_DIV : Nat) else
  if x = sy.P_eq then (OP_EQ : Nat) else
  if x = sy.P_nreconc then (OP_NRECONC : Nat) else
  if x = sy.P_reconc then (OP_RECONC : Nat) else
  if x = sy.P_rem then (OP_REM : Nat) else
  if x = sy.P_rename then (OP_RENAME : Nat) else
  if x = sy.P_sless then (OP_SLESS : Nat) else
  if x = sy.P_slteq then (OP_SLTEQ : Nat) else
  if x = sy.P_sequal then (OP_SEQUAL : Nat) else
  if x = sy.P_sgrtr then (OP_SGRTR : Nat) else
  if x = sy.P_sgteq then (OP_SGTEQ : Nat) else
  if x = sy.P_setcar then (OP_SETCAR : Nat) else
  if x = sy.P_setcdr then (OP_SETCDR : Nat) else
  if x = sy.P_sfill then (OP_SFILL : Nat) else
  if x = sy.P_siless then (OP_SILESS : Nat) else
  if x = sy.P_silteq then (OP_SILTEQ : Nat) else
  if x = sy.P_siequal then (OP_SIEQUAL : Nat) else
  if x = sy.P_sigrtr then (OP_SIGRTR : Nat) else
  if x = sy.P_sigteq then (OP_SIGTEQ : Nat) else
  if x = sy.P_sref then (OP_SREF : Nat) else
  if x = sy.P_throwstar then (OP_THROWSTAR : Nat) else
  if x = sy.P_vfill then (OP_VFILL : Nat) else
  if x = sy.P_vref then (OP_VREF : Nat) else
  -1

/-- The function `subr3`: the opcode of the primitives of three arguments, or -1. -/
def subr3 (sy : Syms) (x : Int) : Int :=
  if x = sy.P_sset then (OP_SSET : Nat) else
  if x = sy.P_substr then (OP_SUBSTR : Nat) else
  if x = sy.P_subvec then (OP_SUBVEC : Nat) else
  if x = sy.P_vset then (OP_VSET : Nat) else
  -1

/-- The function `osubr0`: the opcode of the primitives with an optional port argument, or -1. -/
def osubr0 (sy : Syms) (x : Int) : Int :=
  if x = sy.P_peekc then (OP_PEEKC : Nat) else
  if x = sy.P_read then (OP_READ : Nat) else
  if x = sy.P_readc then (OP_READC : Nat) else
  -1

/-- The function `osubr1`: the opcode of the primitives of one argument and an optional one, or -1. -/
def osubr1 (sy : Syms) (x : Int) : Int :=
  if x = sy.P_error then (OP_ERROR : Nat) else
  if x = sy.P_mkstr then (OP_MKSTR : Nat) else
  if x = sy.P_mkvec then (OP_MKVEC : Nat) else
  if x = sy.P_numstr then (OP_NUMSTR : Nat) else
  if x = sy.P_open_outfile then (OP_OPEN_OUTFILE : Nat) else
  if x = sy.P_prin then (OP_PRIN : Nat) else
  if x = sy.P_princ then (OP_PRINC : Nat) else
  if x = sy.P_strnum then (OP_STRNUM : Nat) else
  if x = sy.P_writec then (OP_WRITEC : Nat) else
  -1

/-- The function `lsubr0`: the opcode of the variadic primitives of zero or more arguments, or -1. -/
def lsubr0 (sy : Syms) (x : Int) : Int :=
  if x = sy.P_times then (OP_TIMES : Nat) else
  if x = sy.P_plus then (OP_PLUS : Nat) else
  if x = sy.P_conc then (OP_CONC : Nat) else
  if x = sy.P_nconc then (OP_NCONC : Nat) else
  if x = sy.P_sconc then (OP_SCONC : Nat) else
  if x = sy.P_vconc then (OP_VCONC : Nat) else
  -1

/-- The function `lsubr1`: the opcode of the variadic primitives of one or more arguments, or -1. -/
def lsubr1 (sy : Syms) (x : Int) : Int :=
  if x = sy.P_bitop then (OP_BITOP : Nat) else
  if x = sy.P_max then (OP_MAX : Nat) else
  if x = sy.P_min then (OP_MIN : Nat) else
  if x = sy.P_minus then (OP_MINUS : Nat) else
  if x = sy.P_less then (OP_LESS : Nat) else
  if x = sy.P_lteq then (OP_LTEQ : Nat) else
  if x = sy.P_equal then (OP_EQUAL : Nat) else
  if x = sy.P_grtr then (OP_GRTR : Nat) else
  if x = sy.P_gteq then (OP_GTEQ : Nat) else
  if x = sy.P_cless then (OP_CLESS : Nat) else
  if x = sy.P_clteq then (OP_CLTEQ : Nat) else
  if x = sy.P_cequal then (OP_CEQUAL : Nat) else
  if x = sy.P_cgrtr then (OP_CGRTR : Nat) else
  if x = sy.P_cgteq then (OP_CGTEQ : Nat) else
  -1

/-! ## The code generator of the compiler -/

/-- S-expressions as the compiler reads them: an atom is given by its cell
(a special value such as `NIL`, a symbol, a fixnum, ...), a pair by its
`car` and its `cdr`. -/
inductive Sx where
  | atom (c : Int)
  | cons (a d : Sx)
  deriving DecidableEq

/-- The test `x == c` for the cell `c` of a special value or of a symbol; a
pair is no such cell. -/
def Sx.is : Sx → Int → Bool
  | .atom d, c => d == c
  | .cons _ _, _ => false

/-- The macro `car(x)`; the model follows the compiler on pairs only. -/
def Sx.car : Sx → Option Sx
  | .cons a _ => some a
  | .atom _ => none

/-- The macro `cdr(x)`; the model follows the compiler on pairs only. -/
def Sx.cdr : Sx → Option Sx
  | .cons _ d => some d
  | .atom _ => none

def Sx.cadr (x : Sx) : Option Sx := x.cdr.bind Sx.car
def Sx.cddr (x : Sx) : Option Sx := x.cdr.bind Sx.cdr
def Sx.caddr (x : Sx) : Option Sx := x.cddr.bind Sx.car
def Sx.cdddr (x : Sx) : Option Sx := x.cddr.bind Sx.cdr
def Sx.cadddr (x : Sx) : Option Sx := x.cdddr.bind Sx.car
def Sx.caadr (x : Sx) : Option Sx := x.cadr.bind Sx.car
def Sx.cadadr (x : Sx) : Option Sx := x.cadr.bind Sx.cadr

/-- The function `length(n)`: `for (k = 0; n != NIL; n = cdr(n)) k++`. -/
def Sx.length : Sx → Option Nat
  | .atom c => if c = NIL then some 0 else none
  | .cons _ d => d.length.map (· + 1)

/-- The function `reconc(n, m)`; a dotted list is an error. -/
def reconc : Sx → Sx → Option Sx
  | .atom c, m => if c = NIL then some m else none
  | .cons a d, m => reconc d (.cons a m)

/-- The macro `reverse(n)`. -/
def reverse (n : Sx) : Option Sx := reconc n (.atom NIL)

/-- The function `flatargs(a)`: the formals as a proper list. -/
def flatargs : Sx → Sx
  | .cons a d => .cons a (flatargs d)
  | .atom c => if c = NIL then .atom NIL else .cons (.atom c) (.atom NIL)

/-- The function `dottedp(x)`. -/
def dottedp : Sx → Bool
  | .cons _ d => dottedp d
  | .atom c => c != NIL

/-- The function `ckargs(x, min, max)`; `none` is the raised error. -/
def ckargs (x : Sx) (min max : Int) : Option Unit :=
  match x.length with
  | none => none
  | some l =>
    if (l : Int) - 1 < min ∨ ((l : Int) - 1 > max ∧ max ≥ 0) then none else some ()

/-- What the code generator reads from the rest of the interpreter: the
symbols, `fixval(n)` of a form, the result of `htlookup(Symhash, s)` (`none`
for `UNDEF`, else `fixval(cdr(y))`), and the result of the `k`-th call of
`obindex`. -/
structure CEnv where
  sy : Syms
  fixval : Sx → Int
  symix : Sx → Option Int
  obindex : Nat → Int

/-- The state of the code generator: the bytes of `string(cdr(Emitbuf))`,
`Here`, the values on `Cts`, the number of calls of `obindex` so far, and
the offsets at which an opcode was emitted (a record that no function
reads). -/
structure Emit where
  buf : Nat → Nat
  Here : Nat
  Cts : List Int
  nq : Nat
  ins : List Nat

/-- The function `emit(x)`: the byte `x` is stored at `Here`.  The buffer
grows by copying, which keeps its bytes. -/
def emit (x : Int) (s : Emit) : Emit :=
  { s with buf := upd s.buf s.Here (x % 256).toNat, Here := s.Here + 1 }

/-- The macro `emitop(op)`, which is `emit(op)`. -/
def emitop (op : Int) (s : Emit) : Emit :=
  emit op { s with ins := s.ins ++ [s.Here] }

/-- The function `emitarg(i)`: `emit(i >> 8); emit(i & 255)`. -/
def emitarg (i : Int) (s : Emit) : Option Emit :=
  if i < 0 ∨ i > 65535 then none else some (emit (i % 256) (emit (i / 256) s))

/-- The function `emitq(x)`. -/
def emitq (env : CEnv) (s : Emit) : Option Emit :=
  emitarg (env.obindex s.nq) (emitop OP_QUOTE { s with nq := s.nq + 1 })

/-- The function `patch(a, n)`. -/
def patch (a n : Int) (s : Emit) : Option Emit :=
  if n < 0 ∨ n > 65535 then none
  else if a < 0 then none
  else some { s with buf := upd (upd s.buf a.toNat (n / 256).toNat) (a.toNat + 1) (n % 256).toNat }

/-- The macro `cpushval(x)`. -/
def cpushval (x : Int) (s : Emit) : Emit := { s with Cts := x :: s.Cts }

/-- The function `cpopval()`. -/
def cpopval (s : Emit) : Option (Int × Emit) :=
  match s.Cts with
  | [] => none
  | x :: r => some (x, { s with Cts := r })

/-- The function `swap()`. -/
def swap (s : Emit) : Option Emit :=
  match s.Cts with
  | x :: y :: r => some { s with Cts := y :: x :: r }
  | _ => none

/-- The opcode that a primitive table gives for the head of a form. -/
def headOp (f : Syms → Int → Int) (sy : Syms) : Sx → Int
  | .atom c => f sy c
  | .cons _ _ => -1

/-- The loop of `compprog`. -/
def compprogLoop (ce : Sx → Bool → Emit → Option Emit) : Sx → Bool → Emit → Option Emit
  | .cons a d, t, s =>
    if d.is NIL then ce a t s
    else
      match ce a false s with
      | none => none
      | some s1 => compprogLoop ce d t s1
  | .atom _, _, _ => none

/-- The function `compprog(x, t)`. -/
def compprog (env : CEnv) (ce : Sx → Bool → Emit → Option Emit) (x : Sx) (t : Bool)
    (s : Emit) : Option Emit :=
  match x.cdr with
  | none => none
  | some x1 => if x1.is NIL then emitq env s else compprogLoop ce x1 t s

/-- The function `compsetq(x)`. -/
def compsetq (env : CEnv) (ce : Sx → Bool → Emit → Option Emit) (x : Sx)
    (s : Emit) : Option Emit := do
  let v ← x.caddr
  let s1 ← ce v false s
  let loc ← x.caadr
  if loc.is env.sy.I_ref then do
    let n ← x.cadadr
    emitarg (env.fixval n) (emitop OP_SETREF s1)
  else if loc.is env.sy.I_arg then do
    let n ← x.cadadr
    emitarg (env.fixval n) (emitop OP_SETARG s1)
  else none

/-- The `else` part of `compif`: the jump over it is emitted and the branch
before the consequent is patched. -/
def compelse (ce : Sx → Bool → Emit → Option Emit) (x : Sx) (t : Bool)
    (s : Emit) : Option Emit := do
  let s1 := emitop OP_JMP s
  let s2 := cpushval s1.Here s1
  let s3 ← emitarg 0 s2
  let s4 ← swap s3
  let (p, s5) ← cpopval s4
  let s6 ← patch p s5.Here s5
  let b ← x.cadddr
  ce b t s6

/-- The function `compif(x, t, star)`. -/
def compif (ce : Sx → Bool → Emit → Option Emit) (x : Sx) (t star : Bool)
    (s : Emit) : Option Emit := do
  let c ← x.cadr
  let s1 ← ce c false s
  let s2 := emitop (if star then OP_BRT else OP_BRF) s1
  let s3 := cpushval s2.Here s2
  let s4 ← emitarg 0 s3
  let a ← x.caddr
  let s5 ← ce a t s4
  let r ← x.cdddr
  let s6 ← (if r.is NIL then some s5 else compelse ce x t s5)
  let (p, s7) ← cpopval s6
  patch p s7.Here s7

/-- The function `setupenv(m)`. -/
def setupenv (env : CEnv) : Sx → Emit → Option Emit
  | .atom c, s => if c = NIL then some s else none
  | .cons e m, s => do
    let k ← e.car
    let s1 ← (if k.is env.sy.I_e then some (emitop OP_CPREF s)
      else if k.is env.sy.I_a then some (emitop OP_CPARG s)
      else none)
    let n1 ← e.cadr
    let s2 ← emitarg (env.fixval n1) s1
    let n2 ← e.caddr
    let s3 ← emitarg (env.fixval n2) s2
    setupenv env m s3

/-- The function `compcls(x)`. -/
def compcls (env : CEnv) (ce : Sx → Bool → Emit → Option Emit) (x : Sx)
    (s : Emit) : Option Emit := do
  let s1 := emitop OP_JMP s
  let s2 := cpushval s1.Here s1
  let s3 ← emitarg 0 s2
  let args ← x.cadr
  let na ← (flatargs args).length
  let s4 ← (if dottedp args then emitarg ((na : Int) - 1) (emitop OP_ENTCOL s3)
    else emitarg (na : Int) (emitop OP_ENTER s3))
  let body ← x.cdddr
  let s5 ← ce (.cons (.atom env.sy.S_prog) body) true s4
  let s6 := emitop OP_RETURN s5
  let (p, s7) ← cpopval s6
  let s8 ← patch p s7.Here s7
  let m ← x.caddr
  let s9 ← (if m.is NIL then some (emitop OP_PROPENV s8)
    else do
      let l ← m.length
      let s10 ← emitarg (l : Int) (emitop OP_MKENV s8)
      setupenv env m s10)
  emitarg (s3.Here : Int) (emitop OP_CLOSURE s9)

/-- The loops `while (x != NIL) { emitop(OP_PUSH); compexpr(car(x), 0);
emitop(op); x = cdr(x); }` of `compapply`, `complsubr0`, `compbitop` and
`complsubr1`. -/
def pushOpLoop (ce : Sx → Bool → Emit → Option Emit) (op : Int) : Sx → Emit → Option Emit
  | .atom c, s => if c = NIL then some s else none
  | .cons a d, s =>
    match ce a false (emitop OP_PUSH s) with
    | none => none
    | some s1 => pushOpLoop ce op d (emitop op s1)

/-- The function `compapply(x, t)`. -/
def compapply (ce : Sx → Bool → Emit → Option Emit) (x : Sx) (t : Bool)
    (s : Emit) : Option Emit := do
  let l ← x.cddr
  let xs ← reverse l
  let h ← xs.car
  let s1 ← ce h false s
  let r ← xs.cdr
  let s2 ← pushOpLoop ce OP_CONS r s1
  let f ← x.cadr
  let s3 ← ce f false (emitop OP_PUSH s2)
  some (emitop (if t then OP_APPLIST else OP_APPLIS) s3)

/-- The loop of `compapp`. -/
def compappLoop (ce : Sx → Bool → Emit → Option Emit) : Sx → Emit → Option Emit
  | .atom c, s => if c = NIL then some s else none
  | .cons a d, s =>
    match ce a false s with
    | none => none
    | some s1 => compappLoop ce d (emitop OP_PUSH s1)

/-- The function `compapp(x, t)`. -/
def compapp (ce : Sx → Bool → Emit → Option Emit) (x : Sx) (t : Bool)
    (s : Emit) : Option Emit := do
  let l ← x.cdr
  let xs ← reverse l
  let s1 ← compappLoop ce xs s
  let n ← l.length
  let s2 ← emitarg (n : Int) (emitop OP_PUSHVAL s1)
  let f ← x.car
  let s3 ← ce f false s2
  some (emitop (if t then OP_TAILAPP else OP_APPLY) s3)

/-- The function `compsubr0(x, op)`. -/
def compsubr0 (x : Sx) (op : Int) (s : Emit) : Option Emit := do
  ckargs x 0 0
  some (emitop op s)

/-- The function `compsubr1(x, op)`. -/
def compsubr1 (ce : Sx → Bool → Emit → Option Emit) (x : Sx) (op : Int)
    (s : Emit) : Option Emit := do
  ckargs x 1 1
  let a ← x.cadr
  let s1 ← ce a false s
  let s2 := emitop op s1
  some (if op = OP_CATCHSTAR then emitop OP_APPLY s2 else s2)

/-- The function `compsubr2(x, op)`. -/
def compsubr2 (ce : Sx → Bool → Emit → Option Emit) (x : Sx) (op : Int)
    (s : Emit) : Option Emit := do
  ckargs x 2 2
  let b ← x.caddr
  let s1 ← ce b false s
  let a ← x.cadr
  let s2 ← ce a false (emitop OP_PUSH s1)
  some (emitop op s2)

/-- The function `compsubr3(x, op)`. -/
def compsubr3 (ce : Sx → Bool → Emit → Option Emit) (x : Sx) (op : Int)
    (s : Emit) : Option Emit := do
  ckargs x 3 3
  let c ← x.cadddr
  let s1 ← ce c false s
  let b ← x.caddr
  let s2 ← ce b false (emitop OP_PUSH s1)
  let a ← x.cadr
  let s3 ← ce a false (emitop OP_PUSH s2)
  some (emitop op s3)

/-- The function `composubr0(x, op)`. -/
def composubr0 (ce : Sx → Bool → Emit → Option Emit) (x : Sx) (op : Int)
    (s : Emit) : Option Emit := do
  ckargs x 0 1
  let r ← x.cdr
  let s1 ← (if r.is NIL then some (emitop OP_INPORT s)
    else do
      let a ← x.cadr
      ce a false s)
  some (emitop op s1)

/-- The default of the optional argument in `composubr1`. -/
def osubr1Default (env : CEnv) (op : Int) (s : Emit) : Option Emit :=
  if op = OP_ERROR then some s
  else if op = OP_MKSTR then emitq env s
  else if op = OP_MKVEC then emitq env s
  else if op = OP_OPEN_OUTFILE then emitq env s
  else if op = OP_NUMSTR ∨ op = OP_STRNUM then emitq env s
  else if op = OP_WRITEC ∨ op = OP_PRIN ∨ op = OP_PRINC then some (emitop OP_OUTPORT s)
  else some s

/-- The function `composubr1(x, op)`. -/
def composubr1 (env : CEnv) (ce : Sx → Bool → Emit → Option Emit) (x : Sx) (op : Int)
    (s : Emit) : Option Emit := do
  ckargs x 1 2
  let r ← x.cddr
  if r.is NIL then do
    let s1 ← osubr1Default env op s
    let a ← x.cadr
    let s2 ← ce a false (emitop OP_PUSH s1)
    some (emitop op s2)
  else do
    let b ← x.caddr
    let s1 ← ce b false s
    let a ← x.cadr
    let s2 ← ce a false (emitop OP_PUSH s1)
    some (emitop (if op = OP_ERROR then OP_ERROR2 else op) s2)

/-- The function `complsubr0(x, op)`. -/
def complsubr0 (env : CEnv) (ce : Sx → Bool → Emit → Option Emit) (x : Sx) (op : Int)
    (s : Emit) : Option Emit := do
  let r ← x.cdr
  if r.is NIL then
    (if op = OP_PLUS ∨ op = OP_TIMES ∨ op = OP_VCONC ∨ op = OP_SCONC ∨ op = OP_CONC ∨
        op = OP_NCONC then emitq env s
      else some s)
  else do
    let r2 ← x.cddr
    if r2.is NIL then do
      let a ← x.cadr
      ce a false s
    else if op = OP_CONC ∨ op = OP_SCONC ∨ op = OP_VCONC ∨ op = OP_NCONC then do
      let xs ← reverse r
      let s1 ← emitq env s
      let s2 ← pushOpLoop ce OP_CONS xs s1
      some (emitop op s2)
    else do
      let a ← r.car
      let s1 ← ce a false s
      let r3 ← r.cdr
      pushOpLoop ce op r3 s1

/-- The function `compbitop(x)`. -/
def compbitop (ce : Sx → Bool → Emit → Option Emit) (x : Sx) (s : Emit) : Option Emit := do
  let r2 ← x.cddr
  if r2.is NIL then none
  else do
    let r3 ← x.cdddr
    if r3.is NIL then none
    else do
      let a ← x.cadr
      let s1 ← ce a false s
      let b ← r2.car
      let s2 ← ce b false (emitop OP_PUSH s1)
      let s3 ← pushOpLoop ce OP_BITOP r3 s2
      some (emitop OP_DROP s3)

/-- The function `complsubr1(x, op)`. -/
def complsubr1 (env : CEnv) (ce : Sx → Bool → Emit → Option Emit) (x : Sx) (op : Int)
    (s : Emit) : Option Emit := do
  match x.length with
  | none => none
  | some l => if (l : Int) - 1 < 1 then none else
    if op = OP_BITOP then compbitop ce x s
    else do
      let r2 ← x.cddr
      if r2.is NIL then
        (if op = OP_MIN ∨ op = OP_MAX then do
            let a ← x.cadr
            ce a false s
          else if op = OP_MINUS then do
            let a ← x.cadr
            let s1 ← ce a false s
            some (emitop OP_NEGATE s1)
          else emitq env s)
      else do
        let s0 := (if op ≠ OP_MINUS ∧ op ≠ OP_MIN ∧ op ≠ OP_MAX then emitop OP_PUSHTRUE s else s)
        let r ← x.cdr
        let a ← r.car
        let s1 ← ce a false s0
        let r3 ← r.cdr
        let s2 ← pushOpLoop ce op r3 s1
        some (if op ≠ OP_MINUS ∧ op ≠ OP_MIN ∧ op ≠ OP_MAX then emitop OP_POP s2 else s2)

/-- The part of `compexpr(x, t)` for a pair `x` with the head `h`. -/
def compform (env : CEnv) (ce : Sx → Bool → Emit → Option Emit) (h x : Sx) (t : Bool)
    (s : Emit) : Option Emit :=
  if h.is env.sy.S_quote then
    (match x.cadr with
      | none => none
      | some _ => emitq env s)
  else if h.is env.sy.I_arg then
    (match x.cadr with
      | none => none
      | some n => emitarg (env.fixval n) (emitop OP_ARG s))
  else if h.is env.sy.I_ref then
    (match x.cadr, x.caddr with
      | some n, some sym =>
        match emitarg (env.fixval n) (emitop OP_REF s) with
        | none => none
        | some s1 =>
          match env.symix sym with
          | none => emitarg 0 s1
          | some v => emitarg v s1
      | _, _ => none)
  else if h.is env.sy.S_if then compif ce x t false s
  else if h.is env.sy.S_ifstar then compif ce x t true s
  else if h.is env.sy.I_closure then compcls env ce x s
  else if h.is env.sy.S_prog then compprog env ce x t s
  else if h.is env.sy.S_setq then compsetq env ce x s
  else if h.is env.sy.S_apply then compapply ce x t s
  else if h.is env.sy.S_macro then
    (match x.caddr, x.cadr with
      | some v, some name =>
        match ce v false s with
        | none => none
        | some s1 =>
          match env.symix name with
          | none => none
          | some i => emitarg i (emitop OP_MACRO s1)
      | _, _ => none)
  else if 0 ≤ headOp subr0 env.sy h then compsubr0 x (headOp subr0 env.sy h) s
  else if 0 ≤ headOp subr1 env.sy h then compsubr1 ce x (headOp subr1 env.sy h) s
  else if 0 ≤ headOp subr2 env.sy h then compsubr2 ce x (headOp subr2 env.sy h) s
  else if 0 ≤ headOp subr3 env.sy h then compsubr3 ce x (headOp subr3 env.sy h) s
  else if 0 ≤ headOp osubr0 env.sy h then composubr0 ce x (headOp osubr0 env.sy h) s
  else if 0 ≤ headOp osubr1 env.sy h then composubr1 env ce x (headOp osubr1 env.sy h) s
  else if 0 ≤ headOp lsubr0 env.sy h then complsubr0 env ce x (headOp lsubr0 env.sy h) s
  else if 0 ≤ headOp lsubr1 env.sy h then complsubr1 env ce x (headOp lsubr1 env.sy h) s
  else compapp ce x t s

/-- The function `compexpr(x, t)`; `fuel` bounds the depth of the calls. -/
def compexpr (env : CEnv) : Nat → Sx → Bool → Emit → Option Emit
  | 0, _, _, _ => none
  | _ + 1, .atom _, _, s => emitq env s
  | fuel + 1, .cons h d, t, s => compform env (compexpr env fuel) h (.cons h d) t s

/-- The function `compile(x)` up to the copy of the emitted bytes: the code
generator starts with an empty buffer, compiles `x` and emits `OP_HALT`. -/
def compile (env : CEnv) (fuel : Nat) (x : Sx) : Option Emit :=
  match compexpr env fuel x false { buf := fun _ => 0, Here := 0, Cts := [], nq := 0, ins := [] } with
  | none => none
  | some s => some (emitop OP_HALT s)

/-- The bytes of the string `subprog(cdr(Emitbuf), Here)`, which `mkstr`
makes `Here + 1` bytes long: the emitted bytes and a final 0. -/
def subprog (s : Emit) : Nat → Nat := fun i => if i < s.Here then s.buf i else 0

/-! ## Fixnums and their arithmetic -/

def INT_MAX : Int := 2147483647
def INT_MIN : Int := -2147483648

/-- The macro `add_ovfl(a, b)`. -/
def add_ovfl (a b : Int) : Bool :=
  (decide (b > 0) && decide (a > INT_MAX - b)) || (decide (b < 0) && decide (a < INT_MIN - b))

/-- The macro `sub_ovfl(a, b)`. -/
def sub_ovfl (a b : Int) : Bool :=
  (decide (b < 0) && decide (a > INT_MAX + b)) || (decide (b > 0) && decide (a < INT_MIN + b))

/-- The macro `fixp(n)`; `none` is a read outside the pool. -/
def Heap.fixp (h : Heap) (n : Int) : Option Bool :=
  if specialp n then some false
  else
    match h.tag n, h.car n with
    | some t, some a => some (tst t ATOM_TAG && decide (a = T_FIXNUM))
    | _, _ => none

/-- The macro `fixval(n)`, which is `cadr(n)`. -/
def Heap.fixval (h : Heap) (n : Int) : Option Int :=
  match h.cdr n with
  | some d => h.car d
  | none => none

/-- The macro `mkatom(a, d)`. -/
def mkatom (fuel : Nat) (M : Machine) (a d : Int) : Outcome (Machine × Int) :=
  cons3 fuel M a d ATOM_TAG

/-- The macro `mkfix(n)`: `mkatom(T_FIXNUM, mkatom(n, NIL))`. -/
def mkfix (fuel : Nat) (M : Machine) (n : Int) : Outcome (Machine × Int) :=
  match mkatom fuel M n NIL with
  | Outcome.ok (M1, c) => mkatom fuel M1 T_FIXNUM c
  | Outcome.error msg Me => Outcome.error msg Me
  | Outcome.fault => Outcome.fault

/-- The test of the operands at the start of `add`, `xsub` and `mul`:
`if (!fixp(x)) expect(who, "fixnum", x); if (!fixp(y)) expect(who, "fixnum", y)`,
followed by the reads `fixval(x)` and `fixval(y)`.  The result is the pair of
the values, or the error raised by `expect`. -/
def fixArgs (who : String) (M : Machine) (x y : Int) : Outcome (Int × Int) :=
  match M.heap.fixp x with
  | none => Outcome.fault
  | some false => Outcome.error (who ++ ": expected fixnum") M
  | some true =>
    match M.heap.fixp y with
    | none => Outcome.fault
    | some false => Outcome.error (who ++ ": expected fixnum") M
    | some true =>
      match M.heap.fixval x, M.heap.fixval y with
      | some a, some b => Outcome.ok (a, b)
      | _, _ => Outcome.fault

/-- The function `add(x, y)`.  In an error the state is the one in which
`fixover` is called. -/
def add (fuel : Nat) (M : Machine) (x y : Int) : Outcome (Machine × Int) :=
  match fixArgs "+" M x y with
  | Outcome.ok (a, b) =>
    if add_ovfl a b then Outcome.error "+: fixnum overflow" M
    else mkfix fuel M (a + b)
  | Outcome.error msg Me => Outcome.error msg Me
  | Outcome.fault => Outcome.fault

/-- The function `xsub(x, y)`, which computes `y - x`; its overflow message
names `+`, as in the source. -/
def xsub (fuel : Nat) (M : Machine) (x y : Int) : Outcome (Machine × Int) :=
  match fixArgs "-" M x y with
  | Outcome.ok (a, b) =>
    if sub_ovfl b a then Outcome.error "+: fixnum overflow" M
    else mkfix fuel M (b - a)
  | Outcome.error msg Me => Outcome.error msg Me
  | Outcome.fault => Outcome.fault

/-- The function `mul(x, y)`. -/
def mul (fuel : Nat) (M : Machine) (x y : Int) : Outcome (Machine × Int) :=
  match fixArgs "*" M x y with
  | Outcome.ok (a, b) =>
    if a = 0 ∨ b = 0 then Outcome.ok (M, M.Zero)
    else if a = 1 then Outcome.ok (M, y)
    else if b = 1 then Outcome.ok (M, x)
    else if a = INT_MIN ∨ b = INT_MIN then Outcome.error "*: fixnum overflow" M
    else if |a| > INT_MAX / |b| then Outcome.error "*: fixnum overflow" M
    else mkfix fuel M (a * b)
  | Outcome.error msg Me => Outcome.error msg Me
  | Outcome.fault => Outcome.fault

/-- The raised message of an outcome. -/
def Outcome.msg {α : Type} : Outcome α → Option String
  | Outcome.error m _ => some m
  | _ => none

/-- A heap with the fixnums -1073741824 (cell 0 with the value cell 1) and 2
(cell 2 with the value cell 3). -/
def mulHeap : Heap :=
  { nnodes := 6, nvcells := 0, nports := 0,
    Car := poolOf [-14, -1073741824, -14, 2, 0, 0] 0,
    Cdr := poolOf [1, -1, 3, -1, 5, -1] 0,
    Tag := poolOf [1, 1, 1, 1, 0, 0] 0,
    Vectors := fun _ => 0,
    Port_flags := fun _ => 0,
    Obmap := -1 }

/-- A state on `mulHeap` with two free cells. -/
def mulMachine : Machine := { Machine.blank mulHeap with Freelist := 4 }

/-! ## The syntax checker -/

/-- Result of a check: passed, an error raised with its message, or a read
outside a pair. -/
inductive Chk where
  | ok
  | error (msg : String)
  | fault
  deriving DecidableEq

/-- Sequencing of checks: the second runs when the first has passed. -/
def Chk.andThen : Chk → Chk → Chk
  | Chk.ok, c => c
  | Chk.error m, _ => Chk.error m
  | Chk.fault, _ => Chk.fault

/-- The macro `symbolp(n)` on a form, given the test on cells. -/
def Sx.symbolp (symp : Int → Bool) : Sx → Bool
  | .atom c => symp c
  | .cons _ _ => false

/-- The test `p != NIL` after `for (p = x; pairp(p); p = cdr(p));`. -/
def Sx.dotted : Sx → Bool
  | .atom c => c != NIL
  | .cons _ d => d.dotted

/-- The function `ckargs(x, min, max)` as a check on a proper list. -/
def ckargsChk (x : Sx) (min max : Int) : Chk :=
  match x.length with
  | none => Chk.fault
  | some l =>
    if (l : Int) - 1 < min ∨ ((l : Int) - 1 > max ∧ max ≥ 0) then
      Chk.error "wrong number of arguments"
    else Chk.ok

/-- The function `symlistp(x)`. -/
def symlistp (symp : Int → Bool) : Sx → Bool
  | .atom c => symp c || c == NIL
  | .cons a d => a.symbolp symp && symlistp symp d

/-- The cell of an atom; two forms are the same cell when both are the same
atom. -/
def Sx.sameCell : Sx → Sx → Bool
  | .atom c, .atom d => c == d
  | _, _ => false

/-- The function `memq(x, a)` as a test. -/
def memq (x : Sx) : Sx → Bool
  | .atom _ => false
  | .cons a d => a.sameCell x || memq x d

/-- The function `uniqlistp(x)`. -/
def uniqlistp : Sx → Bool
  | .atom _ => true
  | .cons a d => !memq a d && uniqlistp d

/-- The function `ckseq(x, top)` over the checker `ck` for the elements. -/
def ckseq (ck : Sx → Bool → Chk) : Sx → Bool → Chk
  | .atom _, _ => Chk.ok
  | .cons a d, top => (ck a top).andThen (ckseq ck d top)

/-- The function `ckdef(x, top)`. -/
def ckdef (symp : Int → Bool) (ck : Sx → Bool → Chk) (x : Sx) (top : Bool) : Chk :=
  (ckargsChk x 2 2).andThen
    (match x.cadr, x.caddr with
      | some n, some v =>
        if !n.symbolp symp then Chk.error "def: expected symbol"
        else if !top then Chk.error "def: must be at top level"
        else ck v false
      | _, _ => Chk.fault)

/-- The function `ckmacro(x, top)`. -/
def ckmacro (symp : Int → Bool) (ck : Sx → Bool → Chk) (x : Sx) (top : Bool) : Chk :=
  (ckargsChk x 2 2).andThen
    (match x.cadr, x.caddr with
      | some n, some v =>
        if !n.symbolp symp then Chk.error "macro: expected symbol"
        else if !top then Chk.error "macro: must be at top level"
        else ck v false
      | _, _ => Chk.fault)

/-- The function `cklambda(x)`. -/
def cklambda (symp : Int → Bool) (ck : Sx → Bool → Chk) (x : Sx) : Chk :=
  (ckargsChk x 2 (-1)).andThen
    (match x.cadr, x.cddr with
      | some a, some body =>
        if !symlistp symp a then Chk.error "lambda: invalid formals"
        else if !uniqlistp (flatargs a) then Chk.error "lambda: duplicate formal"
        else ckseq ck body false
      | _, _ => Chk.fault)

/-- The function `cksetq(x)`. -/
def cksetq (symp : Int → Bool) (ck : Sx → Bool → Chk) (x : Sx) : Chk :=
  (ckargsChk x 2 2).andThen
    (match x.cadr, x.cddr with
      | some n, some r =>
        if !n.symbolp symp then Chk.error "setq: expected symbol"
        else ckseq ck r false
      | _, _ => Chk.fault)

/-- The part of `syncheck(x, top)` for a pair `x` with the head `h`. -/
def ckform (sy : Syms) (symp : Int → Bool) (ck : Sx → Bool → Chk) (h x : Sx)
    (top : Bool) : Chk :=
  if x.dotted then Chk.error "dotted list in program"
  else if h.is sy.S_apply then ckargsChk x 2 (-1)
  else if h.is sy.S_def then ckdef symp ck x top
  else if h.is sy.S_if then
    (ckargsChk x 2 3).andThen
      (match x.cdr with
        | some r => ckseq ck r false
        | none => Chk.fault)
  else if h.is sy.S_ifstar then
    (ckargsChk x 2 2).andThen
      (match x.cdr with
        | some r => ckseq ck r false
        | none => Chk.fault)
  else if h.is sy.S_lambda then cklambda symp ck x
  else if h.is sy.S_macro then ckmacro symp ck x top
  else if h.is sy.S_prog then
    (match x.cdr with
      | some r => ckseq ck r top
      | none => Chk.fault)
  else if h.is sy.S_quote then ckargsChk x 1 1
  else if h.is sy.S_setq then cksetq symp ck x
  else ckseq ck x top

/-- The function `syncheck(x, top)`; `fuel` bounds the depth of the calls. -/
def syncheck (sy : Syms) (symp : Int → Bool) : Nat → Sx → Bool → Chk
  | 0, _, _ => Chk.fault
  | _ + 1, .atom _, _ => Chk.ok
  | fuel + 1, .cons h d, top => ckform sy symp (syncheck sy symp fuel) h (.cons h d) top

/-! ## The virtual machine: stack access and list primitives -/

/-- The macro `atomp(n)`; `none` is a read outside the pool. -/
def Heap.atomp (h : Heap) (n : Int) : Option Bool :=
  if specialp n then some true
  else
    match h.tag n with
    | some t => some (tst t ATOM_TAG || tst t VECTOR_TAG)
    | none => none

/-- The macro `pairp(x)`. -/
def Heap.pairp (h : Heap) (n : Int) : Option Bool := (h.atomp n).map (!·)

/-- The macro `listp(x)`. -/
def Heap.listp (h : Heap) (n : Int) : Option Bool :=
  if n = NIL then some true else h.pairp n

/-- The macro `constp(n)`. -/
def Heap.constp (h : Heap) (n : Int) : Option Bool :=
  if specialp n then some false
  else
    match h.tag n with
    | some t => some (tst t CONST_TAG)
    | none => none

/-- The macro `stackref(n)`: `vector(Rts)[n]`. -/
def Machine.stackref (M : Machine) (n : Int) : Option Int :=
  match M.heap.cdr M.Rts with
  | some v => M.heap.vref (v + n)
  | none => none

/-- The macro `stackset(n, v)`. -/
def Machine.stackset (M : Machine) (n v : Int) : Option Machine :=
  match M.heap.cdr M.Rts with
  | some off =>
    match M.heap.vset (off + n) v with
    | some h => some { M with heap := h }
    | none => none
  | none => none

/-- The macro `arg(n)`: `boxref(stackref(Sp-(n)))`. -/
def Machine.arg (M : Machine) (n : Int) : Option Int :=
  match M.stackref (M.Sp - n) with
  | some b => M.heap.car b
  | none => none

/-- The loop of `nreconc(n, m)`. -/
def nreconcLoop : Nat → Machine → Int → Int → Outcome (Machine × Int)
  | 0, _, _, _ => Outcome.fault
  | fuel + 1, M, n, m =>
    if n = NIL then Outcome.ok (M, m)
    else
      match M.heap.atomp n with
      | none => Outcome.fault
      | some true => Outcome.error "nreconc: dotted list" M
      | some false =>
        match M.heap.cdr n, M.heap.setCdr n m with
        | some h, some g => nreconcLoop fuel { M with heap := g } h n
        | _, _ => Outcome.fault

/-- The function `nreconc(n, m)`; `fuel` bounds the length of the list. -/
def nreconc (fuel : Nat) (M : Machine) (n m : Int) : Outcome (Machine × Int) :=
  nreconcLoop fuel M n m

/-- The case `OP_NRECONC` of `run`. -/
def opNreconc (fuel : Nat) (M : Machine) : Outcome Machine :=
  match M.heap.listp M.Acc, M.heap.constp M.Acc, M.arg 0 with
  | some false, _, _ => Outcome.error "nreconc: expected list" M
  | some true, some true, _ => Outcome.error "nreconc: immutable" M
  | some true, some false, some a =>
    match nreconc fuel M M.Acc a with
    | Outcome.ok (M1, r) => Outcome.ok { M1 with Acc := r, Sp := M1.Sp - 1, Ip := M1.Ip + ISIZE0 }
    | Outcome.error msg Me => Outcome.error msg Me
    | Outcome.fault => Outcome.fault
  | _, _, _ => Outcome.fault

/-- The state of an outcome that is a result. -/
def Outcome.state : Outcome Machine → Option Machine
  | Outcome.ok M => some M
  | _ => none

/-! ## Concrete forms and states for the checks of the primitives -/

/-- The test `symbolp` of the sample forms: the cells from 1000 on are
symbols. -/
def symCell (c : Int) : Bool := decide (1000 ≤ c)

/-- The form `(def y 7)` with the symbol `y` in cell 5001 and the fixnum in
cell 7. -/
def defForm : Sx :=
  .cons (.atom sampleSyms.S_def) (.cons (.atom 5001) (.cons (.atom 7) (.atom NIL)))

/-- The form `(f (def y 7))` with the symbol `f` in cell 5000. -/
def defInApp : Sx := .cons (.atom 5000) (.cons defForm (.atom NIL))

/-- The form `(apply f (def y 7))`. -/
def defInApply : Sx :=
  .cons (.atom sampleSyms.S_apply) (.cons (.atom 5000) (.cons defForm (.atom NIL)))

/-- The form `(lambda () (def y 7))`. -/
def defInLambda : Sx :=
  .cons (.atom sampleSyms.S_lambda) (.cons (.atom NIL) (.cons defForm (.atom NIL)))

/-- A heap with the list `(NIL NIL)` whose first pair (cell 0) is mutable
and whose second pair (cell 1) carries `CONST_TAG`, the box of the argument
`NIL` (cell 2) and the stack vector (cell 3) with one slot, which holds the
box. -/
def constHeap : Heap :=
  { nnodes := 4, nvcells := 3, nports := 0,
    Car := poolOf [-1, -1, -1, -19] 0,
    Cdr := poolOf [1, -1, -1, 2] 0,
    Tag := poolOf [0, 128, 0, 8] 0,
    Vectors := poolOf [3, 4, 2] 0,
    Port_flags := fun _ => 0,
    Obmap := -1 }

/-- The state in which `OP_NRECONC` runs for `(nreconc x nil)`, `x` being the
list in cell 0 of `constHeap`. -/
def constMachine : Machine :=
  { Machine.blank constHeap with Rts := 3, Sp := 0, Sz := 1, Acc := 0, Freevec := 3 }

/-! ## Conversion between fixnums and digit strings -/

/-- The digits `"0123456789abcdefghijklmnopqrstuvwxyz"` of `ntoa` and
`scanfix`, as character codes. -/
def digitChars : List Nat :=
  [48, 49, 50, 51, 52, 53, 54, 55, 56, 57,
   97, 98, 99, 100, 101, 102, 103, 104, 105, 106, 107, 108, 109,
   110, 111, 112, 113, 114, 115, 116, 117, 118, 119, 120, 121, 122]

/-- The function `tolower` of C in the "C" locale. -/
def tolower (c : Nat) : Nat := if 65 ≤ c ∧ c ≤ 90 then c + 32 else c

/-- The loop of `pos(p, s)` with the counter `i`. -/
def posFrom (p : Nat) : List Nat → Int → Int
  | [], _ => -1
  | c :: s, i => if p = c then i else posFrom p s (i + 1)

/-- The function `pos(p, s)`. -/
def pos (p : Nat) (s : List Nat) : Int := posFrom p s 0

/-- The loop of `ntoa`: `acc` holds the characters written so far, `fuel`
is the number of bytes left in front of them in the buffer.  Division and
remainder truncate as in C. -/
def ntoaLoop : Nat → Int → Int → Nat → List Nat → Option (List Nat)
  | 0, x, _, i, acc => if x ≠ 0 ∨ i = 0 then none else some acc
  | fuel + 1, x, r, i, acc =>
    if x ≠ 0 ∨ i = 0 then
      match digitChars[(x.tmod r).natAbs]? with
      | none => none
      | some c => ntoaLoop fuel (x.tdiv r) r (i + 1) (c :: acc)
    else some acc

/-- The function `ntoa(x, r)`: the characters of the result; `none` is a
write outside the buffer of 200 bytes or a read outside the digits. -/
def ntoa (x r : Int) : Option (List Nat) :=
  match ntoaLoop 199 x r 0 [] with
  | none => none
  | some ds => if x < 0 then (if ds.length < 199 then some (45 :: ds) else none) else some ds

/-- Result of `scanfix`: `NIL`, a fixnum made by `mkfix`, or a call of
`rderror` with "fixnum too big"; `cont` is the result when `rderror`
returns (a string is read) and the loop goes on. -/
inductive ScanRes where
  | nil
  | fix (v : Int)
  | tooBig (cont : ScanRes)
  deriving DecidableEq

/-- Result of one iteration of the loop of `scanfix`. -/
inductive ScanStep where
  | bad
  | over
  | next (v : Int)

/-- One iteration of the loop of `scanfix` for the character `c`. -/
def scanStep (r v g : Int) (c : Nat) : ScanStep :=
  let i := pos (tolower c) digitChars
  if i < 0 ∨ i ≥ r then ScanStep.bad
  else if v > INT_MAX.tdiv r ∨ (v > 0 ∧ add_ovfl (v * r) i = true) ∨
      (v < 0 ∧ sub_ovfl (v * r) i = true) then ScanStep.over
  else
    let v1 := if v < 0 then v * r - i else v * r + i
    ScanStep.next (if g ≠ 0 then v1 * g else v1)

/-- The loop of `scanfix`. -/
def scanLoop (r : Int) (ovf : Bool) : List Nat → Int → Int → ScanRes
  | [], v, g => if g ≠ 0 then ScanRes.nil else ScanRes.fix v
  | c :: p, v, g =>
    match scanStep r v g c with
    | ScanStep.bad => ScanRes.nil
    | ScanStep.over =>
      if ovf then ScanRes.tooBig (scanLoop r ovf p (if g ≠ 0 then v * g else v) 0)
      else ScanRes.nil
    | ScanStep.next v1 => scanLoop r ovf p v1 0

/-- The function `scanfix(s, r, of)` on the characters of `s`. -/
def scanfix (s : List Nat) (r : Int) (ovf : Bool) : ScanRes :=
  match s with
  | 43 :: p => scanLoop r ovf p 0 1
  | 45 :: p => scanLoop r ovf p 0 (-1)
  | p => scanLoop r ovf p 0 1

/-- The function `numstr(x, r)` for a fixnum of value `v`: the characters of
the new string, or the raised error. -/
def numstr (v r : Int) : Except String (List Nat) :=
  if r < 2 ∨ r > 36 then Except.error "numstr: bad radix"
  else
    match ntoa v r with
    | some s => Except.ok s
    | none => Except.error "fault"

/-- The function `strnum(s, r)`. -/
def strnum (s : List Nat) (r : Int) : Except String ScanRes :=
  if r < 2 ∨ r > 36 then Except.error "strnum: bad radix"
  else Except.ok (scanfix s r false)

/-- The state of the loop of `scanfix` after the characters `s`, when no
iteration leaves the loop. -/
def scanRun (r : Int) : List Nat → Int → Int → Option (Int × Int)
  | [], v, g => some (v, g)
  | c :: p, v, g =>
    match scanStep r v g c with
    | ScanStep.next v1 => scanRun r p v1 0
    | _ => none

/-! ## The reader

The reader is embedded on the values it builds: an object is the tree of
its contents, and every pair, string and vector keeps the tag byte that the
reader gives to its cell.  Allocation never fails here, and the identity of
shared objects (symbols, `Nullstr`, `Nullvec`) is not kept. -/

mutual
/-- Objects built by the reader. -/
inductive Obj where
  | special (c : Int)
  | fix (v : Int)
  | char (c : Nat)
  | str (bytes : List Nat) (tag : Nat)
  | sym (name : List Nat)
  | pair (a d : Obj) (tag : Nat)
  | vec (items : Objs) (tag : Nat)
  deriving DecidableEq
/-- The slots of a vector. -/
inductive Objs where
  | nil
  | cons (a : Obj) (rest : Objs)
  deriving DecidableEq
end

/-- The test `x == c` for a special object `c`. -/
def Obj.isSpecial : Obj → Int → Bool
  | Obj.special d, c => d == c
  | _, _ => false

def TOKLEN : Nat := 80

def EOF : Int := -1

/-- The state of the reader: the bytes left in the input port, the string
`Instr` being read (if any), `Rejected`, `Readerr`, `Inlist`, `Quoting`,
`Line` and `Intr`. -/
structure Rd where
  port : List Nat
  Instr : Option (List Nat)
  Rejected : Int
  Readerr : Option String
  Inlist : Int
  Quoting : Int
  Line : Int
  Intr : Bool
  deriving DecidableEq

/-- Outcome of a reader function: a value and the new state, an error
raised by `error`, or a fault (a loop that did not end within the fuel, or
undefined behaviour of the C code). -/
inductive RdOut (α : Type) where
  | val (a : α) (st : Rd)
  | error (msg : String)
  | fault
  deriving DecidableEq

/-- The value of an outcome. -/
def RdOut.value {α : Type} : RdOut α → Option α
  | RdOut.val a _ => some a
  | _ => none

/-- Reader functions. -/
@[reducible] def RdM (α : Type) : Type := Rd → RdOut α

instance instMonadRdM : Monad RdM where
  pure a := fun st => RdOut.val a st
  bind m f := fun st =>
    match m st with
    | RdOut.val a st1 => f a st1
    | RdOut.error msg => RdOut.error msg
    | RdOut.fault => RdOut.fault

/-- A byte as a value of the type `char`, which is signed (the initial
value -1 of `Rejected` is tested with `Rejected > -1`). -/
def schar (b : Int) : Int := (b + 128) % 256 - 128

/-- A value stored in a `char`, as a byte. -/
def ubyte (c : Int) : Nat := (c % 256).toNat

/-- The function `readc`.  The input port is open. -/
def readc : RdM Int := fun st =>
  match st.Instr with
  | some s =>
    if st.Rejected > -1 then RdOut.val st.Rejected { st with Rejected := -1 }
    else
      match s with
      | [] => RdOut.val EOF st
      | b :: rest =>
        if b % 256 = 0 then RdOut.val EOF st
        else RdOut.val (schar b) { st with Instr := some rest }
  | none =>
    match st.port with
    | [] => RdOut.val EOF st
    | b :: rest => RdOut.val (b % 256 : Nat) { st with port := rest }

/-- The function `rejectc`; `ungetc` ignores `EOF`. -/
def rejectc (c : Int) : RdM Unit := fun st =>
  match st.Instr with
  | some _ => RdOut.val () { st with Rejected := schar c }
  | none => RdOut.val () (if c = EOF then st else { st with port := ubyte c :: st.port })

/-- The function `rderror`: an error when a port is read, a note in
`Readerr` when a string is read. -/
def rderror (s : String) : RdM Unit := fun st =>
  match st.Instr with
  | none => RdOut.error s
  | some _ => RdOut.val () { st with Readerr := some s }

/-- The test `Intr || Readerr`. -/
def stopped : RdM Bool := fun st => RdOut.val (st.Intr || st.Readerr.isSome) st

def isalpha (c : Int) : Bool := (65 ≤ c && c ≤ 90) || (97 ≤ c && c ≤ 122)

def isdigit (c : Int) : Bool := 48 ≤ c && c ≤ 57

def octalp (c : Int) : Bool := 48 ≤ c && c ≤ 55

/-- The characters of the string that `symbolic` searches: `!`, `$`, `%`,
`^`, `&`, `*`, `-`, `/`, `_`, `+`, `=`, `~`, `.`, `?`, `<`, `>`, `:`. -/
def symbolChars : List Int :=
  [33, 36, 37, 94, 38, 42, 45, 47, 95, 43, 61, 126, 46, 63, 60, 62, 58]

def symbolic (c : Int) : Bool := isalpha c || isdigit c || (c != 0 && symbolChars.contains c)

/-- The C string that starts a buffer. -/
def cstr (s : List Nat) : List Nat := s.takeWhile (fun b => b != 0)

/-- The bytes of a C string literal. -/
def lit (s : String) : List Nat := s.toList.map Char.toNat

/-- The function `mkstr(s, k)` for a buffer with at least `k` bytes. -/
def mkstr (s : List Nat) (k : Nat) : Obj := Obj.str (s.take k) VECTOR_TAG

/-- The function `symref`. -/
def symref (name : List Nat) : Obj := Obj.sym (cstr name)

/-- The macro `mkchar`. -/
def mkchar (c : Int) : Obj := Obj.char (ubyte c)

/-- The function `cons`. -/
def cons (a d : Obj) : Obj := Obj.pair a d 0


/-- The symbols that the reader puts in front of a quoted datum. -/
def S_quoteObj : Obj := symref (lit "quote")

def S_qquoteObj : Obj := symref (lit "qquote")

def S_unquoteObj : Obj := symref (lit "unquote")

def S_spliceObj : Obj := symref (lit "splice")

/-- The statement `Line++`. -/
def incLine : RdM Unit := fun st => RdOut.val () { st with Line := st.Line + 1 }

/-- The statements `Inlist++` (`d = 1`) and `Inlist--` (`d = -1`). -/
def addInlist (d : Int) : RdM Unit := fun st => RdOut.val () { st with Inlist := st.Inlist + d }

/-- The statements `Quoting++` and `Quoting--`. -/
def addQuoting (d : Int) : RdM Unit := fun st =>
  RdOut.val () { st with Quoting := st.Quoting + d }

def getInlist : RdM Int := fun st => RdOut.val st.Inlist st

def getQuoting : RdM Int := fun st => RdOut.val st.Quoting st

/-- A loop that did not end, or undefined behaviour. -/
def rdFault {α : Type} : RdM α := fun _ => RdOut.fault

/-- The function `error`. -/
def rdRaise {α : Type} (msg : String) : RdM α := fun _ => RdOut.error msg

/-- The function `strcmp_ci` on two buffers; the end of a list is the
terminating 0. -/
def strcmp_ci : List Nat → List Nat → Int
  | a :: s1, b :: s2 =>
    let c1 := tolower a
    let c2 := tolower b
    if c1 = 0 ∨ c2 = 0 ∨ c1 ≠ c2 then (c1 : Int) - c2 else strcmp_ci s1 s2
  | [], b :: _ => 0 - (tolower b : Int)
  | a :: _, [] => (tolower a : Int)
  | [], [] => 0

/-- The loop of `octchar`: the value and the byte that ended the loop;
`none` when `8*v + *s - '0'` leaves the range of `int`. -/
def octcharLoop : List Nat → Int → Option (Int × Nat)
  | [], v => some (v, 0)
  | b :: s, v =>
    if octalp b then
      if 8 * v + b - 48 > INT_MAX then none else octcharLoop s (8 * v + b - 48)
    else some (v, b)

/-- The function `octchar`. -/
def octchar (s : List Nat) : Option Int :=
  if !octalp (s.headD 0 : Nat) then some (-1)
  else
    match octcharLoop s 0 with
    | none => none
    | some (v, b) => some (if b ≠ 0 ∨ v > 255 then -1 else v)

/-- The result of `scanfix(name, r, 1)` in the reader. -/
def scanObj : ScanRes → RdM Obj
  | ScanRes.nil => pure (Obj.special NIL)
  | ScanRes.fix v => pure (Obj.fix v)
  | ScanRes.tooBig cont => do
    rderror "fixnum too big"
    scanObj cont

/-- The loop of `rdsymfix`; `k` is `TOKLEN - i`, `name` holds `name[0..i-1]`. -/
def rdsymfixLoop : Nat → Int → List Nat → RdM (Int × List Nat)
  | 0, c, name => pure (c, name)
  | k + 1, c, name =>
    if !symbolic c then pure (c, name)
    else do
      let c1 ← readc
      rdsymfixLoop k c1 (name ++ [tolower (ubyte c)])

/-- The function `rdsymfix`. -/
def rdsymfix (c : Int) (r : Int) (sym : Bool) : RdM Obj := do
  let (c1, name) ← rdsymfixLoop TOKLEN c []
  rejectc c1
  if name.length = TOKLEN then rderror "symbol or fixnum too long"
  let n ← scanObj (scanfix (cstr name) r true)
  if !n.isSpecial NIL then pure n
  else do
    if !sym then rderror "invalid digits after #radixR"
    if name.headD 0 = 116 ∧ (name.tail.headD 0) = 0 then pure (Obj.special TRUE)
    else if cstr name = lit "nil" then pure (Obj.special NIL)
    else pure (symref name)

/-- The loop of `rdfix`; the sum leaving the range of `int` is a fault. -/
def rdfixLoop : Nat → Int → Int → RdM (Int × Int)
  | 0, _, _ => rdFault
  | fuel + 1, c, r =>
    if isdigit c then
      if r * 10 + c - 48 > INT_MAX then rdFault
      else do
        let c1 ← readc
        rdfixLoop fuel c1 (r * 10 + c - 48)
    else pure (c, r)

/-- The function `rdfix`. -/
def rdfix (fuel : Nat) (c : Int) : RdM Obj := do
  let (c1, r) ← rdfixLoop fuel c 0
  if c1 ≠ 114 then rderror "'R' expected after #radix"
  if r < 2 ∨ r > 36 then rderror "bad radix in #radixR"
  let c2 ← readc
  rdsymfix c2 r false

/-- The loop of `rdchar`; `k` is `TOKLEN - i`; `none` is `return NIL`. -/
def rdcharLoop : Nat → Int → List Nat → RdM (Option (Int × List Nat))
  | 0, c, name => pure (some (c, name))
  | k + 1, c, name => do
    if (← stopped) then pure none
    else if !isalpha c && !isdigit c then pure (some (c, name))
    else do
      let c1 ← readc
      rdcharLoop k c1 (name ++ [ubyte c])

/-- The function `rdchar`. -/
def rdchar : RdM Obj := do
  let c0 ← readc
  let c ← readc
  match ← rdcharLoop (TOKLEN - 1) c [ubyte c0] with
  | none => pure (Obj.special NIL)
  | some (c1, name) => do
    rejectc c1
    if name.length = TOKLEN then rderror "char name too long"
    if strcmp_ci name (lit "ht") = 0 then pure (mkchar 9)
    else if strcmp_ci name (lit "nl") = 0 then pure (mkchar 10)
    else if strcmp_ci name (lit "sp") = 0 then pure (mkchar 32)
    else
      match octchar name.tail with
      | none => rdFault
      | some v =>
        if name.headD 0 = 92 ∧ v ≥ 0 then pure (mkchar v)
        else do
          if name.length ≠ 1 then rderror "bad character name"
          pure (mkchar (name.headD 0 : Nat))

/-- The inner loop of `rdstr` for an octal escape; `k` is `3 - j`. -/
def rdstrOct : Nat → Int → Int → RdM (Int × Int)
  | 0, v, c => pure (v, c)
  | k + 1, v, c =>
    if octalp c then do
      let c1 ← readc
      rdstrOct k (v * 8 + c - 48) c1
    else pure (v, c)

/-- The branch `'\\' == c` of `rdstr`: the new values of `c` and `u`. -/
def rdstrEsc (u : Int) : RdM (Int × Int) := do
  let c ← readc
  if c = 92 ∨ c = 34 then pure (c, u)
  else if c = 116 then pure (9, u)
  else if c = 110 then pure (10, u)
  else if octalp c then do
    let (v, c1) ← rdstrOct 3 0 c
    rejectc c1
    if v > 255 then rderror "invalid char"
    pure (v, u)
  else if u = 0 then pure (c, c)
  else pure (c, u)

/-- The loop of `rdstr`; `k` is `TOKLEN - i`; `none` is `return NIL`. -/
def rdstrLoop : Nat → Int → Int → List Nat → RdM (Option (Int × List Nat))
  | 0, _, u, name => pure (some (u, name))
  | k + 1, c, u, name => do
    if (← stopped) then pure none
    else if c = 34 then pure (some (u, name))
    else do
      if c = 10 then incLine
      if c = EOF then rderror "EOF in string"
      let (c1, u1) ← if c = 92 then rdstrEsc u else pure (c, u)
      let c2 ← readc
      rdstrLoop k c2 u1 (name ++ [ubyte c1])

/-- The statement `tag(n) |= CONST_TAG`. -/
def Obj.setConst : Obj → Obj
  | Obj.str b t => Obj.str b (t ||| CONST_TAG)
  | Obj.vec v t => Obj.vec v (t ||| CONST_TAG)
  | Obj.pair a d t => Obj.pair a d (t ||| CONST_TAG)
  | o => o

/-- The function `rdstr`. -/
def rdstr : RdM Obj := do
  let c ← readc
  match ← rdstrLoop TOKLEN c 0 [] with
  | none => pure (Obj.special NIL)
  | some (u, name) => do
    if u ≠ 0 then rderror "unknown slash sequence"
    if name.length ≥ TOKLEN then rderror "string too long"
    if u ≠ 0 then pure (Obj.special NIL)
    else pure (mkstr name name.length).setConst

/-- The list of the cells that `rdlist` has filled, all made by
`cons3(…, …, CONST_TAG)`, with the given tail. -/
def constList (elems : List Obj) (tail : Obj) : Obj :=
  elems.foldr (fun e acc => Obj.pair e acc CONST_TAG) tail

/-- The loop of `rdlist`.  `done` holds the cars of the cells in front of
the cell `a` (so `p` is `NIL` exactly when `done` is empty), `n` is the
object read last; `rd` is `xread2`. -/
def rdlistLoop (rd : RdM Obj) : Nat → List Obj → Obj → RdM Obj
  | 0, _, _ => rdFault
  | fuel + 1, done, n =>
    if n.isSpecial RPAREN then do
      addInlist (-1)
      pure (constList done (Obj.special NIL))
    else do
      if (← stopped) then pure (Obj.special NIL)
      else if n.isSpecial EOFMARK then do
        rderror "missing ')'"
        pure (Obj.special NIL)
      else if n.isSpecial DOT then
        if done.isEmpty then do
          rderror "malformed pair"
          pure (Obj.special NIL)
        else do
          let n1 ← rd
          if n1.isSpecial RPAREN then do
            rderror "malformed pair"
            pure (Obj.special NIL)
          else do
            let n2 ← rd
            if !n2.isSpecial RPAREN then do
              rderror "malformed pair"
              pure (Obj.special NIL)
            else do
              addInlist (-1)
              pure (constList done n1)
      else do
        let n1 ← rd
        rdlistLoop rd fuel (done ++ [n]) n1

/-- The function `rdlist`. -/
def rdlist (rd : RdM Obj) (fuel : Nat) : RdM Obj := do
  addInlist 1
  let n ← rd
  if n.isSpecial RPAREN then do
    addInlist (-1)
    pure (Obj.special NIL)
  else rdlistLoop rd fuel [] n

/-- The elements of a list for `listvec`: `some` for a list that ends in
`NIL`. -/
def listItems : Obj → Option Objs
  | Obj.pair a d _ => (listItems d).map (fun l => Objs.cons a l)
  | Obj.special c => if c = NIL then some Objs.nil else none
  | _ => none

/-- The object that ends a list. -/
def listEnd : Obj → Obj
  | Obj.pair _ d _ => listEnd d
  | o => o

/-- The function `listvec`.  A list that ends in a fixnum or a character
raises the error; with any other end but `NIL` the counting loop follows
cells that are no list, which is a fault here. -/
def listvec (x : Obj) (veclit : Bool) : RdM Obj :=
  match listItems x with
  | some Objs.nil => pure (Obj.vec Objs.nil VECTOR_TAG)
  | some items => pure (Obj.vec items (if veclit then VECTOR_TAG ||| CONST_TAG else VECTOR_TAG))
  | none =>
    match listEnd x with
    | Obj.fix _ => rdRaise (if veclit then "vector literal contains a dot" else "listvec: dotted list")
    | Obj.char _ => rdRaise (if veclit then "vector literal contains a dot" else "listvec: dotted list")
    | _ => rdFault

/-- The function `rdvec`. -/
def rdvec (rd : RdM Obj) (fuel : Nat) : RdM Obj := do
  let x ← rdlist rd fuel
  listvec x true

/-- The function `rdquote`. -/
def rdquote (rd : RdM Obj) (q : Obj) : RdM Obj := do
  addQuoting 1
  let n ← rd
  addQuoting (-1)
  pure (cons q (cons n (Obj.special NIL)))

/-- The first loop of `meta`. -/
def metaBlanks : Nat → Int → RdM Int
  | 0, _ => rdFault
  | fuel + 1, c =>
    if c = 32 then do
      let c1 ← readc
      metaBlanks fuel c1
    else pure c

/-- The second loop of `meta`; `sizeof(s) - 6` is 122. -/
def metaArg : Nat → Int → List Nat → RdM (Int × List Nat)
  | 0, _, _ => rdFault
  | fuel + 1, c, s =>
    if c ≠ 10 ∧ c ≠ EOF then do
      let c1 ← readc
      metaArg fuel c1 (if s.length < 122 then s ++ [ubyte c] else s)
    else pure (c, s)

/-- The function `meta`; the text that the default case prints is not
kept. -/
def meta (fuel : Nat) : RdM Obj := do
  let c0 ← readc
  let cmd : Int := if 65 ≤ c0 ∧ c0 ≤ 90 then c0 + 32 else c0
  let c ← readc
  let c1 ← metaBlanks fuel c
  let (c2, s) ← metaArg fuel c1 []
  rejectc c2
  let s1 := if cmd = 108 then cstr s ++ lit ".ls9" else s
  let n0 := mkstr (cstr s1) (cstr s1).length
  let n := if s.length = 0 then Obj.special NIL else cons n0 (Obj.special NIL)
  if cmd = 99 then pure (cons (symref (lit "syscmd")) n)
  else if cmd = 104 then pure (cons (symref (lit "help")) n)
  else if cmd = 108 then pure (cons (symref (lit "load")) n)
  else pure (Obj.special NIL)

/-- The inner loop of `xread2` over blanks; `none` is `return NIL`. -/
def skipBlanks : Nat → Int → RdM (Option Int)
  | 0, _ => rdFault
  | fuel + 1, c =>
    if c = 32 ∨ c = 9 ∨ c = 10 ∨ c = 13 then do
      if (← stopped) then pure none
      else do
        if c = 10 then incLine
        let c1 ← readc
        skipBlanks fuel c1
    else pure (some c)

/-- The loop of `xread2` over a comment. -/
def skipComment : Nat → Int → RdM Int
  | 0, _ => rdFault
  | fuel + 1, c =>
    if c ≠ 10 ∧ c ≠ EOF then do
      let c1 ← readc
      skipComment fuel c1
    else pure c

/-- The outer loop of `xread2`. -/
def skipAll : Nat → Int → RdM (Option Int)
  | 0, _ => rdFault
  | fuel + 1, c => do
    match ← skipBlanks fuel c with
    | none => pure none
    | some c1 =>
      if c1 ≠ 59 then pure (some c1)
      else do
        let c2 ← skipComment fuel c1
        skipAll fuel c2

/-- The function `xread2`. -/
def xread2 : Nat → RdM Obj
  | 0 => rdFault
  | fuel + 1 => do
    let c0 ← readc
    match ← skipAll fuel c0 with
    | none => pure (Obj.special NIL)
    | some c =>
      if (← stopped) then pure (Obj.special NIL)
      else if c = EOF then pure (Obj.special EOFMARK)
      else if c = 35 then do
        let c1 ← readc
        if c1 = 92 then rdchar
        else if c1 = 40 then rdvec (xread2 fuel) fuel
        else if isdigit c1 then rdfix fuel c1
        else do
          rderror "bad # syntax"
          pure (Obj.special NIL)
      else if c = 34 then rdstr
      else if c = 40 then rdlist (xread2 fuel) fuel
      else if c = 41 then do
        if (← getInlist) = 0 then rderror "unexpected ')'"
        pure (Obj.special RPAREN)
      else if c = 39 then rdquote (xread2 fuel) S_quoteObj
      else if c = 96 ∨ c = 64 then rdquote (xread2 fuel) S_qquoteObj
      else if c = 44 then do
        if (← getInlist) = 0 ∧ (← getQuoting) = 0 then meta fuel
        else do
          let c1 ← readc
          if c1 = 64 then rdquote (xread2 fuel) S_spliceObj
          else do
            rejectc c1
            rdquote (xread2 fuel) S_unquoteObj
      else if c = 46 then do
        if (← getInlist) = 0 then rderror "unexpected '.'"
        pure (Obj.special DOT)
      else if symbolic c then rdsymfix c 10 true
      else do
        rderror "funny input character, code"
        pure (Obj.special NIL)

/-- The function `xread`. -/
def xread (fuel : Nat) : RdM Obj := fun st =>
  match xread2 fuel { st with Inlist := 0, Quoting := 0, Readerr := none } with
  | RdOut.val x st1 => if st1.Intr then RdOut.error "aborted" else RdOut.val x st1
  | r => r

/-- The function `b_read` for a string `ps` (the first branch) and for a
port, which is the input port here. -/
def b_read (fuel : Nat) (ps : Obj) : RdM Obj := fun st =>
  match ps with
  | Obj.str bytes _ =>
    match xread fuel { st with Instr := some bytes, Rejected := -1 } with
    | RdOut.val n st1 =>
      match st1.Readerr with
      | some e => RdOut.val (mkstr (lit e) (lit e).length) { st1 with Instr := none }
      | none => RdOut.val (cons n (Obj.special NIL)) { st1 with Instr := none }
    | r => r
  | _ => xread fuel st

/-- A reader state at the start of the text `s` on the input port. -/
def Rd.ofPort (s : List Nat) : Rd :=
  { port := s, Instr := none, Rejected := -1, Readerr := none, Inlist := 0, Quoting := 0, Line := 1, Intr := false }

/-! ## The printer of strings -/

/-- The text that one iteration of the loop of `prstr` writes for the byte
`c` when `next` is the byte after it (0 after the last one); `none` when
`ntoa` fails. -/
def prstrByte (c next : Nat) : Option (List Nat) :=
  if c = 34 then some [92, 34]
  else if c = 92 then some [92, 92]
  else if c = 10 then some [92, 110]
  else if c < 32 ∨ c > 126 then
    match ntoa c 8 with
    | none => none
    | some ds =>
      some ([92] ++
        (if octalp next then
          (if c < 100 then [48] else []) ++ (if c < 10 then [48] else [])
         else []) ++ ds)
  else some [c]

/-- The loop of `prstr` over the bytes of the string. -/
def prstrLoop : List Nat → Option (List Nat)
  | [] => some []
  | c :: rest =>
    match prstrByte c (rest.headD 0), prstrLoop rest with
    | some a, some b => some (a ++ b)
    | _, _ => none

/-- The text that `prstr(sl, x)` writes for a string with the given bytes,
with no limit on the output (`Plimit` is 0). -/
def prstr (sl : Bool) (bytes : List Nat) : Option (List Nat) :=
  if sl then
    match prstrLoop bytes with
    | some t => some ([34] ++ t ++ [34])
    | none => none
  else some (cstr bytes)

/-! ## Example texts for the reader -/

/-- The string of the two bytes 9 (tab) and 49 (the digit 1). -/
def tabDigit : List Nat := [9, 49]

/-- The text `"\00111"` (with the double quotes). -/
def tabDigitText : List Nat := [34, 92, 48, 48, 49, 49, 49, 34]

/-- The text of an empty list after a single quote character. -/
def quoteNilText : List Nat := [39, 40, 41]

/-- The text `(quote ())`. -/
def quoteNilLong : List Nat := [40, 113, 117, 111, 116, 101, 32, 40, 41, 41]

/-- The text `(#\A #( 1 2 ) #16rFF)`. -/
def readText : List Nat :=
  [40, 35, 92, 65, 32, 35, 40, 32, 49, 32, 50, 32, 41, 32, 35, 49, 54, 114, 70, 70, 41]

/-- The list of the character `A`, the vector of 1 and 2 and the fixnum
255, as the reader builds it. -/
def readDatum : Obj :=
  constList [Obj.char 65, Obj.vec (Objs.cons (Obj.fix 1) (Objs.cons (Obj.fix 2) Objs.nil)) (VECTOR_TAG ||| CONST_TAG), Obj.fix 255]
    (Obj.special NIL)

/-! ## The virtual machine: stack, frames and fixnum instructions -/

/-- Sequencing: the next function runs on a result; an error or a fault
ends the run. -/
def Outcome.bind {α β : Type} (o : Outcome α) (f : α → Outcome β) : Outcome β :=
  match o with
  | Outcome.ok a => f a
  | Outcome.error msg M => Outcome.error msg M
  | Outcome.fault => Outcome.fault

/-- A read of the pools; a read outside them is a fault. -/
def Outcome.ofOption {α : Type} : Option α → Outcome α
  | some a => Outcome.ok a
  | none => Outcome.fault

/-- The function `cons(a, d)`: `cons3(a, d, 0)`. -/
def consM (fuel : Nat) (M : Machine) (a d : Int) : Outcome (Machine × Int) :=
  cons3 fuel M a d 0

/-- The function `newvec(type, size)`. -/
def newvec (fuel : Nat) (M : Machine) (type size : Int) : Outcome (Machine × Int) :=
  let wsize := wordOfNat (vecsize size)
  let alloc := fun (M1 : Machine) =>
    (cons3 fuel { M1 with Freevec := M1.Freevec + wsize } type (M1.Freevec + RAW_VECDATA)
      VECTOR_TAG).bind fun r =>
        match r.1.heap.vset (M1.Freevec + RAW_VECLINK) r.2 with
        | none => Outcome.fault
        | some h1 =>
          match h1.vset (M1.Freevec + RAW_VECSIZE) size with
          | none => Outcome.fault
          | some h2 => Outcome.ok ({ r.1 with heap := h2 }, r.2)
  if M.Freevec + wsize ≥ (M.heap.nvcells : Int) then
    match gcv fuel M with
    | none => Outcome.fault
    | some (M1, _) =>
      if M1.Freevec + wsize ≥ (M1.heap.nvcells : Int) then
        Outcome.error "newvec: out of vector space" M1
      else alloc M1
  else alloc M

/-- The loop `for (i=0; i<k; i++) v[i] = NIL` of `mkvec`. -/
def fillNil (base : Int) : Nat → Heap → Option Heap
  | 0, h => some h
  | k + 1, h =>
    match fillNil base k h with
    | none => none
    | some h1 => h1.vset (base + (k : Int)) NIL

/-- The function `mkvec(k)`. -/
def mkvec (fuel : Nat) (M : Machine) (k : Int) : Outcome (Machine × Int) :=
  if k = 0 then Outcome.ok (M, M.Nullvec)
  else
    (newvec fuel M T_VECTOR (wordOfNat (toSizeT (k * (sizeof_cell : Int))))).bind fun r =>
      match r.1.heap.cdr r.2 with
      | none => Outcome.fault
      | some off =>
        match fillNil off k.toNat r.1.heap with
        | none => Outcome.fault
        | some h => Outcome.ok ({ r.1 with heap := h }, r.2)

/-- The loop `for (i=0; i<=Sp; i++) vn[i] = vs[i]` of `stkalloc`, for
`i < cnt`. -/
def copyStack (vs vn : Int) : Nat → Heap → Option Heap
  | 0, h => some h
  | k + 1, h =>
    match copyStack vs vn k h with
    | none => none
    | some h1 =>
      match h1.vref (vs + (k : Int)) with
      | none => none
      | some x => h1.vset (vn + (k : Int)) x

/-- The function `stkalloc(k)`. -/
def stkalloc (fuel : Nat) (M : Machine) (k : Int) : Outcome Machine :=
  if M.Sp + k ≥ M.Sz then
    let k1 : Int :=
      if k ≥ (CHUNKSIZE : Int) then
        (CHUNKSIZE : Int) * (1 + (M.Sp + k - M.Sz).tdiv (CHUNKSIZE : Int))
      else (CHUNKSIZE : Int)
    (mkvec fuel M (M.Sz + k1)).bind fun r =>
      match r.1.heap.cdr r.1.Rts, r.1.heap.cdr r.2 with
      | some vs, some vn =>
        match copyStack vs vn (r.1.Sp + 1).toNat r.1.heap with
        | none => Outcome.fault
        | some h => Outcome.ok { r.1 with heap := h, Sz := r.1.Sz + k1, Rts := r.2 }
      | _, _ => Outcome.fault
  else Outcome.ok M

/-- The function `push(x)`. -/
def push (fuel : Nat) (M : Machine) (x : Int) : Outcome Machine :=
  (stkalloc fuel { M with Tmp := x } 1).bind fun M1 =>
    Outcome.ofOption (Machine.stackset { M1 with Tmp := NIL, Sp := M1.Sp + 1 } (M1.Sp + 1) x)

/-- The macro `closurep(n)`. -/
def Heap.closurep (h : Heap) (n : Int) : Option Bool :=
  if specialp n then some false
  else
    match h.tag n, h.car n with
    | some t, some a => some (tst t ATOM_TAG && decide (a = T_CLOSURE))
    | _, _ => none

/-- The macro `cadr(x)`. -/
def Heap.cadr (h : Heap) (x : Int) : Option Int := (h.cdr x).bind h.car

/-- The macro `cddr(x)`. -/
def Heap.cddr (h : Heap) (x : Int) : Option Int := (h.cdr x).bind h.cdr

/-- The macro `caddr(x)`. -/
def Heap.caddr (h : Heap) (x : Int) : Option Int := (h.cddr x).bind h.car

/-- The macro `cadddr(x)`. -/
def Heap.cadddr (h : Heap) (x : Int) : Option Int := ((h.cddr x).bind h.cdr).bind h.car

/-- The value `fixval(stackref(n))`. -/
def Machine.stackfix (M : Machine) (n : Int) : Option Int :=
  (M.stackref n).bind M.heap.fixval

/-- The loop `for (i=0; i<=m; i++) stackset(pn+i, stackref(pm+i))` of
`apply`, for `i < cnt`. -/
def moveUp (pn pm : Int) : Nat → Nat → Machine → Option Machine
  | 0, _, M => some M
  | k + 1, i, M =>
    match M.stackref (pm + (i : Int)) with
    | none => none
    | some x =>
      match M.stackset (pn + (i : Int)) x with
      | none => none
      | some M1 => moveUp pn pm k (i + 1) M1

/-- The tail branch of `apply`, after `Ep` and `Prog` are set. -/
def applyTail (M : Machine) : Option Machine :=
  match M.stackfix M.Sp with
  | none => none
  | some m =>
    match M.stackfix (M.Sp - m - 4) with
    | none => none
    | some n =>
      let pm := M.Sp - m
      let pn := M.Sp - m - n - 4
      if n = m then
        match moveUp pn pm (m + 1).toNat 0 M with
        | none => none
        | some M1 =>
          match M1.stackfix (M1.Sp - m - 1) with
          | none => none
          | some fp => some { M1 with Fp := fp, Sp := M1.Sp - (n + 2) }
      else
        match M.stackref (M.Sp - m - 3), M.stackref (M.Sp - m - 2), M.stackfix (M.Sp - m - 1) with
        | some e, some k, some fp =>
          match moveUp pn pm (m + 1).toNat 0 { M with Fp := fp } with
          | none => none
          | some M1 =>
            match Machine.stackset { M1 with Sp := M1.Sp - (n + 2) } (M1.Sp - (n + 2) - 1) e with
            | none => none
            | some M2 => M2.stackset M2.Sp k
        | _, _, _ => none

/-- The function `apply(tail)` with the assignment `Ip = apply(tail)` of
`run`. -/
def apply (fuel : Nat) (M : Machine) (tail : Bool) : Outcome Machine :=
  match M.heap.closurep M.Acc with
  | none => Outcome.fault
  | some false => Outcome.error "application of non-function" M
  | some true =>
    if tail then
      match M.heap.caddr M.Acc, M.heap.cadddr M.Acc with
      | some e, some p =>
        match applyTail { M with Ep := e, Prog := p } with
        | none => Outcome.fault
        | some M1 =>
          match (M1.heap.cadr M1.Acc).bind M1.heap.fixval with
          | none => Outcome.fault
          | some ip => Outcome.ok { M1 with Ip := ip }
      | _, _ => Outcome.fault
    else
      (push fuel M M.Ep).bind fun M1 =>
        (mkfix fuel M1 (M1.Ip + 1)).bind fun r1 =>
          (consM fuel r1.1 r1.2 r1.1.Prog).bind fun r2 =>
            (push fuel r2.1 r2.2).bind fun M2 =>
              match M2.heap.caddr M2.Acc, M2.heap.cadddr M2.Acc with
              | some e, some p =>
                match (M2.heap.cadr M2.Acc).bind M2.heap.fixval with
                | none => Outcome.fault
                | some ip => Outcome.ok { M2 with Ep := e, Prog := p, Ip := ip }
              | _, _ => Outcome.fault

/-- The function `ret` with the assignment `Ip = ret()` of `run`. -/
def ret (M : Machine) : Outcome Machine :=
  match M.stackfix M.Sp, M.stackref (M.Sp - 1), M.stackref (M.Sp - 2), M.stackfix (M.Sp - 3) with
  | some fp, some r, some e, some n =>
    match M.heap.cdr r, (M.heap.car r).bind M.heap.fixval with
    | some p, some ip => Outcome.ok { M with Fp := fp, Prog := p, Ep := e, Sp := M.Sp - (n + 4), Ip := ip }
    | _, _ => Outcome.fault
  | _, _, _, _ => Outcome.fault

/-- The macro `protect(n)`. -/
def protect (fuel : Nat) (M : Machine) (n : Int) : Outcome Machine :=
  (consM fuel M n M.Protected).bind fun r => Outcome.ok { r.1 with Protected := r.2 }

/-- The call `unprot(1)`. -/
def unprot1 (M : Machine) : Outcome (Machine × Int) :=
  if M.Protected = NIL then Outcome.error "unprot: stack underflow" M
  else
    match M.heap.car M.Protected, M.heap.cdr M.Protected with
    | some n, some d => Outcome.ok ({ M with Protected := d }, n)
    | _, _ => Outcome.fault

/-- The first loop of `entcol`: `cnt` iterations are left, `a` is the last
cell of the list, `i` the index of the next box. -/
def entcolLoop (fuel : Nat) : Nat → Machine → Int → Int → Outcome Machine
  | 0, M, _, _ => Outcome.ok M
  | cnt + 1, M, a, i =>
    match (M.stackref i).bind M.heap.car with
    | none => Outcome.fault
    | some v =>
      (consM fuel M v NIL).bind fun r =>
        if a = NIL then
          match r.1.heap.setCar r.1.Protected r.2 with
          | none => Outcome.fault
          | some h => entcolLoop fuel cnt { r.1 with heap := h } r.2 (i - 1)
        else
          match r.1.heap.setCdr a r.2 with
          | none => Outcome.fault
          | some h => entcolLoop fuel cnt { r.1 with heap := h } r.2 (i - 1)

/-- The loop `for (i = na+2; i >= 0; i--) stackset(d+i, stackref(s+i))` of
`entcol`, for the indices below `cnt`, highest first. -/
def moveDown (d s : Int) : Nat → Machine → Option Machine
  | 0, M => some M
  | k + 1, M =>
    match M.stackref (s + (k : Int)) with
    | none => none
    | some x =>
      match M.stackset (d + (k : Int)) x with
      | none => none
      | some M1 => moveDown d s k M1

/-- The statements `push(mkfix(Fp)); Fp = Sp-4` that end `entcol` and the
case `OP_ENTER`. -/
def pushFp (fuel : Nat) (M : Machine) : Outcome Machine :=
  (mkfix fuel M M.Fp).bind fun r =>
    (push fuel r.1 r.2).bind fun M1 => Outcome.ok { M1 with Fp := M1.Sp - 4 }

/-- The function `entcol(fix)`. -/
def entcol (fuel : Nat) (M : Machine) (fix : Int) : Outcome Machine :=
  match M.stackfix (M.Sp - 2) with
  | none => Outcome.fault
  | some na =>
    if na < fix then Outcome.error "too few arguments" M
    else
      (protect fuel M NIL).bind fun M1 =>
        (entcolLoop fuel (na - fix).toNat M1 NIL (M1.Sp - fix - 3)).bind fun M2 =>
          (unprot1 M2).bind fun r =>
            if na > fix then
              (consM fuel r.1 r.2 NIL).bind fun b =>
                match b.1.stackset (b.1.Sp - fix - 3) b.2 with
                | none => Outcome.fault
                | some M3 => pushFp fuel M3
            else
              (push fuel r.1 NIL).bind fun M3 =>
                match moveDown (M3.Sp - na - 2) (M3.Sp - na - 3) (na + 3).toNat M3 with
                | none => Outcome.fault
                | some M4 =>
                  (mkfix fuel M4 (1 + fix)).bind fun c =>
                    match c.1.stackset (c.1.Sp - 2) c.2 with
                    | none => Outcome.fault
                    | some M5 =>
                      (consM fuel M5 NIL NIL).bind fun b =>
                        match b.1.stackset (b.1.Sp - fix - 3) b.2 with
                        | none => Outcome.fault
                        | some M6 => pushFp fuel M6

/-- The address `string(cdr(Prog))` as an offset into the arena. -/
def Machine.code (M : Machine) : Option Int :=
  (M.heap.cdr M.Prog).bind M.heap.cdr

/-- The macro `ins()`. -/
def Machine.ins (M : Machine) : Option Nat :=
  if M.Ip < 0 then none
  else M.code.bind fun b => M.heap.bref b M.Ip.toNat

/-- The macro `op1()`. -/
def Machine.op1 (M : Machine) : Option Nat :=
  if M.Ip < 0 then none
  else M.code.bind fun b => M.heap.fetcharg b (M.Ip.toNat + 1)

/-- The macro `argref(n)`: `boxref(stackref(Fp-(n)))`. -/
def Machine.argref (M : Machine) (n : Int) : Option Int :=
  (M.stackref (M.Fp - n)).bind M.heap.car

/-- The case `OP_QUOTE` of `run`. -/
def opQuote (M : Machine) : Outcome Machine :=
  match M.op1, M.heap.cdr M.Obarray with
  | some i, some ob =>
    match M.heap.vref (ob + (i : Int)) with
    | some x => Outcome.ok { M with Acc := x, Ip := M.Ip + ISIZE1 }
    | none => Outcome.fault
  | _, _ => Outcome.fault

/-- The case `OP_PUSH` of `run`. -/
def opPush (fuel : Nat) (M : Machine) : Outcome Machine :=
  (consM fuel M M.Acc NIL).bind fun r =>
    (push fuel r.1 r.2).bind fun M1 => Outcome.ok { M1 with Ip := M1.Ip + ISIZE0 }

/-- The cases `OP_PLUS` and `OP_MINUS` of `run` for `f` being `add` or
`xsub`. -/
def opArith (f : Nat → Machine → Int → Int → Outcome (Machine × Int)) (fuel : Nat)
    (M : Machine) : Outcome Machine :=
  match M.arg 0 with
  | none => Outcome.fault
  | some y =>
    (f fuel M M.Acc y).bind fun r =>
      Outcome.ok { r.1 with Acc := r.2, Sp := r.1.Sp - 1, Ip := r.1.Ip + ISIZE0 }

/-- The case `OP_NEGATE` of `run`. -/
def opNegate (fuel : Nat) (M : Machine) : Outcome Machine :=
  match M.heap.fixp M.Acc with
  | none => Outcome.fault
  | some false => Outcome.error "-: expected fixnum" M
  | some true =>
    match M.heap.fixval M.Acc with
    | none => Outcome.fault
    | some v =>
      if v = INT_MIN then Outcome.error "-: fixnum overflow" M
      else (mkfix fuel M (-v)).bind fun r =>
        Outcome.ok { r.1 with Acc := r.2, Ip := r.1.Ip + ISIZE0 }

/-- The case `OP_ENTER` of `run`. -/
def opEnter (fuel : Nat) (M : Machine) : Outcome Machine :=
  match M.stackfix (M.Sp - 2), M.op1 with
  | some na, some n =>
    if na ≠ (n : Int) then Outcome.error "wrong number of arguments" M
    else (pushFp fuel M).bind fun M1 => Outcome.ok { M1 with Ip := M1.Ip + ISIZE1 }
  | _, _ => Outcome.fault

/-- The case `OP_ENTCOL` of `run`. -/
def opEntcol (fuel : Nat) (M : Machine) : Outcome Machine :=
  match M.op1 with
  | none => Outcome.fault
  | some n => (entcol fuel M n).bind fun M1 => Outcome.ok { M1 with Ip := M1.Ip + ISIZE1 }

/-- The macro `op2()`. -/
def Machine.op2 (M : Machine) : Option Nat :=
  if M.Ip < 0 then none
  else M.code.bind fun b => M.heap.fetcharg b (M.Ip.toNat + 3)

/-- The macro `argbox(n)`: `stackref(Fp-(n))`. -/
def Machine.argbox (M : Machine) (n : Int) : Option Int :=
  M.stackref (M.Fp - n)

/-- The macro `envbox(n)`: `vector(Ep)[n]`. -/
def Machine.envbox (M : Machine) (n : Int) : Option Int :=
  match M.heap.cdr M.Ep with
  | some v => M.heap.vref (v + n)
  | none => none

/-- The case `OP_ARG` of `run`. -/
def opArg (M : Machine) : Outcome Machine :=
  match M.op1 with
  | none => Outcome.fault
  | some i =>
    match M.argref i with
    | some x => Outcome.ok { M with Acc := x, Ip := M.Ip + ISIZE1 }
    | none => Outcome.fault

/-- The case `OP_REF` of `run`; the trace buffer `Trace`, which the case
also writes, is not part of the state. -/
def opRef (M : Machine) : Outcome Machine :=
  match M.op1 with
  | none => Outcome.fault
  | some i =>
    match (M.envbox i).bind M.heap.car with
    | none => Outcome.fault
    | some x =>
      if x = UNDEF then Outcome.error "undefined symbol" { M with Acc := x }
      else Outcome.ok { M with Acc := x, Ip := M.Ip + ISIZE2 }

/-- The assignment `vector(Acc)[j] = b` of the cases `OP_CPARG` and
`OP_CPREF`, followed by `skip(ISIZE2)`. -/
def setEnvSlot (M : Machine) (j : Int) (b : Int) : Outcome Machine :=
  match M.heap.cdr M.Acc with
  | none => Outcome.fault
  | some v =>
    match M.heap.vset (v + j) b with
    | none => Outcome.fault
    | some h => Outcome.ok { M with heap := h, Ip := M.Ip + ISIZE2 }

/-- The case `OP_CPARG` of `run`. -/
def opCparg (M : Machine) : Outcome Machine :=
  match M.op1, M.op2 with
  | some i, some j =>
    (match M.argbox i with
     | some b => setEnvSlot M j b
     | none => Outcome.fault)
  | _, _ => Outcome.fault

/-- The case `OP_CPREF` of `run`. -/
def opCpref (M : Machine) : Outcome Machine :=
  match M.op1, M.op2 with
  | some i, some j =>
    (match M.envbox i with
     | some b => setEnvSlot M j b
     | none => Outcome.fault)
  | _, _ => Outcome.fault

/-- The assignment `boxset(b, Acc)` of the cases `OP_SETARG` and
`OP_SETREF`, followed by `skip(ISIZE1)`. -/
def setBox (M : Machine) (b : Int) : Outcome Machine :=
  match M.heap.setCar b M.Acc with
  | none => Outcome.fault
  | some h => Outcome.ok { M with heap := h, Ip := M.Ip + ISIZE1 }

/-- The case `OP_SETARG` of `run`. -/
def opSetarg (M : Machine) : Outcome Machine :=
  match M.op1 with
  | none => Outcome.fault
  | some i =>
    match M.argbox i with
    | some b => setBox M b
    | none => Outcome.fault

/-- The case `OP_SETREF` of `run`. -/
def opSetref (M : Machine) : Outcome Machine :=
  match M.op1 with
  | none => Outcome.fault
  | some i =>
    match M.envbox i with
    | some b => setBox M b
    | none => Outcome.fault

/-- The case `OP_JMP` of `run`: `Ip = op1()`. -/
def opJmp (M : Machine) : Outcome Machine :=
  match M.op1 with
  | some l => Outcome.ok { M with Ip := (l : Int) }
  | none => Outcome.fault

/-- The case `OP_BRF` of `run`: `if (NIL == Acc) Ip = op1(); else
skip(ISIZE1)`. -/
def opBrf (M : Machine) : Outcome Machine :=
  if M.Acc = NIL then
    match M.op1 with
    | some l => Outcome.ok { M with Ip := (l : Int) }
    | none => Outcome.fault
  else Outcome.ok { M with Ip := M.Ip + ISIZE1 }

/-- The case `OP_BRT` of `run`: `if (NIL == Acc) skip(ISIZE1); else Ip =
op1()`. -/
def opBrt (M : Machine) : Outcome Machine :=
  if M.Acc = NIL then Outcome.ok { M with Ip := M.Ip + ISIZE1 }
  else
    match M.op1 with
    | some l => Outcome.ok { M with Ip := (l : Int) }
    | none => Outcome.fault

/-- The case `OP_PUSHVAL` of `run`: `push(mkfix(op1()))`. -/
def opPushval (fuel : Nat) (M : Machine) : Outcome Machine :=
  match M.op1 with
  | none => Outcome.fault
  | some v =>
    (mkfix fuel M (v : Int)).bind fun r =>
      (push fuel r.1 r.2).bind fun M1 => Outcome.ok { M1 with Ip := M1.Ip + ISIZE1 }

/-- The case `OP_MKENV` of `run`: `Acc = mkvec(op1())`. -/
def opMkenv (fuel : Nat) (M : Machine) : Outcome Machine :=
  match M.op1 with
  | none => Outcome.fault
  | some k =>
    (mkvec fuel M (k : Int)).bind fun r =>
      Outcome.ok { r.1 with Acc := r.2, Ip := r.1.Ip + ISIZE1 }

/-- The case `OP_PROPENV` of `run`: `Acc = Ep`. -/
def opPropenv (M : Machine) : Outcome Machine :=
  Outcome.ok { M with Acc := M.Ep, Ip := M.Ip + ISIZE0 }

/-- The function `closure(i, e)`. -/
def closure (fuel : Nat) (M : Machine) (i e : Int) : Outcome (Machine × Int) :=
  (consM fuel M M.Prog NIL).bind fun r1 =>
  (consM fuel r1.1 e r1.2).bind fun r2 =>
  (protect fuel r2.1 r2.2).bind fun M3 =>
  (mkfix fuel M3 i).bind fun r4 =>
  (consM fuel r4.1 r4.2 r2.2).bind fun r5 =>
  (unprot1 r5.1).bind fun r6 =>
  mkatom fuel r6.1 T_CLOSURE r5.2

/-- The case `OP_CLOSURE` of `run`: `Acc = closure(op1(), Acc)`. -/
def opClosure (fuel : Nat) (M : Machine) : Outcome Machine :=
  match M.op1 with
  | none => Outcome.fault
  | some i =>
    (closure fuel M (i : Int) M.Acc).bind fun r =>
      Outcome.ok { r.1 with Acc := r.2, Ip := r.1.Ip + ISIZE1 }

/-- One turn of the loop of `run` for the instructions embedded here; any
other instruction is outside this embedding and counts as a fault. -/
def vmStep (fuel : Nat) (M : Machine) : Outcome Machine :=
  match M.ins with
  | none => Outcome.fault
  | some op =>
    if op = OP_TAILAPP then apply fuel M true
    else if op = OP_APPLY then apply fuel M false
    else if op = OP_QUOTE then opQuote M
    else if op = OP_PUSH then opPush fuel M
    else if op = OP_ENTER then opEnter fuel M
    else if op = OP_ENTCOL then opEntcol fuel M
    else if op = OP_RETURN then ret M
    else if op = OP_NEGATE then opNegate fuel M
    else if op = OP_MINUS then opArith xsub fuel M
    else if op = OP_PLUS then opArith add fuel M
    else if op = OP_ARG then opArg M
    else if op = OP_REF then opRef M
    else if op = OP_CPARG then opCparg M
    else if op = OP_CPREF then opCpref M
    else if op = OP_SETARG then opSetarg M
    else if op = OP_SETREF then opSetref M
    else if op = OP_PUSHVAL then opPushval fuel M
    else if op = OP_JMP then opJmp M
    else if op = OP_BRF then opBrf M
    else if op = OP_BRT then opBrt M
    else if op = OP_MKENV then opMkenv fuel M
    else if op = OP_PROPENV then opPropenv M
    else if op = OP_CLOSURE then opClosure fuel M
    else Outcome.fault

/-- The state after `k` turns of the loop of `run`. -/
def vmRun (fuel : Nat) : Nat → Machine → Outcome Machine
  | 0, M => Outcome.ok M
  | k + 1, M => (vmStep fuel M).bind (vmRun fuel k)

/-! ## States and relations used to describe the virtual machine -/

/-- The state after `cons3` has taken the free cell `c`. -/
def Machine.alloc (M : Machine) (c : Nat) (a d : Int) (t : Nat) : Machine :=
  { M with Freelist := M.heap.Cdr c, heap := { M.heap with Car := upd M.heap.Car c a, Cdr := upd M.heap.Cdr c d, Tag := upd M.heap.Tag c (t % 256) } }

/-- The state after `push(x)` has written the arena word `w`. -/
def Machine.pushed (M : Machine) (w : Nat) (x : Int) : Machine :=
  { M with Tmp := NIL, Sp := M.Sp + 1, heap := { M.heap with Vectors := upd M.heap.Vectors w x } }

/-- The heap `h1` with the free cells `fl1` comes from the heap `h` with
the free cells `fl` by allocation and by writes to the arena words in `W`:
the pools keep their sizes, `fl1` is an end of `fl`, every cell that is not
free in `h` keeps its contents, and every arena word outside `W` keeps its
value. -/
def HeapExt (h h1 : Heap) (fl fl1 : List Nat) (W : Nat → Prop) : Prop :=
  h1.nnodes = h.nnodes ∧ h1.nvcells = h.nvcells ∧
  (∃ used, fl = used ++ fl1) ∧
  (∀ c, c ∉ fl → h1.Car c = h.Car c ∧ h1.Cdr c = h.Cdr c ∧ h1.Tag c = h.Tag c) ∧
  (∀ w, ¬ W w → h1.Vectors w = h.Vectors w)

/-- The cell `c` is a fixnum of value `v` whose two cells are not free. -/
def FixCell (h : Heap) (fl : List Nat) (c v : Int) : Prop :=
  ∃ (n d : Nat), c = (n : Int) ∧ n < h.nnodes ∧ d < h.nnodes ∧
    tst (h.Tag n) ATOM_TAG = true ∧ h.Car n = T_FIXNUM ∧ h.Cdr n = (d : Int) ∧
    h.Car d = v ∧ n ∉ fl ∧ d ∉ fl

/-- The result of the left-to-right fold of `f` over fixnums, as the
specification describes it: `none` when a partial result leaves the range
from `INT_MIN` to `INT_MAX`. -/
def foldFix (f : Int → Int → Int) : Int → List Int → Option Int
  | acc, [] => some acc
  | acc, a :: r =>
    if INT_MIN ≤ f acc a ∧ f acc a ≤ INT_MAX then foldFix f (f acc a) r else none

/-- The cell `c` lies in the node pool and is not free. -/
def Live (h : Heap) (fl : List Nat) (c : Int) : Prop :=
  0 ≤ c ∧ c < (h.nnodes : Int) ∧ c.toNat ∉ fl

/-- The list `(a1 ... an)` of the atoms with the given cells. -/
def Sx.ofAtoms : List Int → Sx
  | [] => Sx.atom NIL
  | c :: r => Sx.cons (Sx.atom c) (Sx.ofAtoms r)

/-- The value lies in the range of a fixnum. -/
def inFix (v : Int) : Prop := INT_MIN ≤ v ∧ v ≤ INT_MAX

instance (v : Int) : Decidable (inFix v) := by unfold inFix; infer_instance

/-- The machine `M` with the free cells `fl` in a run that started in `M0`
with the free cells `fl0` and has written arena words in `W` only: the heap
has grown by allocation, the free list is the chain `fl` without
repetition, and the stack vector, the program and the literal pool are those
of `M0`. -/
def RunInv (M0 M : Machine) (fl0 fl : List Nat) (k : Nat) (W : Nat → Prop) : Prop :=
  HeapExt M0.heap M.heap fl0 fl W ∧ freeChain M.heap k M.Freelist = some fl ∧ fl.Nodup ∧
  M.Rts = M0.Rts ∧ M.Prog = M0.Prog ∧ M.Obarray = M0.Obarray ∧ M.Sz = M0.Sz

/-- The program of `M0`: its bytecode cell and the string cell are not
free, the bytes from `lo` up to `hi` are those of `buf`, and no word that
holds one of them is in `W`. -/
def CodeAt (M0 : Machine) (fl0 : List Nat) (W : Nat → Prop) (buf : Nat → Nat) (lo hi : Nat) :
    Prop :=
  ∃ pc pb, Live M0.heap fl0 M0.Prog ∧ M0.heap.cdr M0.Prog = some pc ∧ Live M0.heap fl0 pc ∧
    M0.heap.cdr pc = some pb ∧
    ∀ j, j < hi → lo ≤ j → M0.heap.bref pb j = some (buf j) ∧
      ¬ W (pb + ((j / sizeof_cell : Nat) : Int)).toNat

/-- The literal pool of `M0` holds the cells of `lits` at the indices that
`obindex` gave to the calls of `emitq` from the `k`-th on, each cell is a
fixnum in range with the paired value, and no slot is in `W`. -/
def LitsAt (env : CEnv) (M0 : Machine) (fl0 : List Nat) (W : Nat → Prop) (ob : Int) :
    Nat → List (Int × Int) → Prop
  | _, [] => True
  | k, (c, v) :: r =>
    M0.heap.vref (ob + env.obindex k) = some c ∧ ¬ W (ob + env.obindex k).toNat ∧
    FixCell M0.heap fl0 c v ∧ inFix v ∧ LitsAt env M0 fl0 W ob (k + 1) r

/-- The contract of `add` and `xsub` on two fixnums `x` (value `a`) and `y`
(value `p`) with two free cells at hand: the result is a new fixnum of
value `g p a` when this value is in range, and the error `msg` otherwise. -/
def ArithOp (f : Nat → Machine → Int → Int → Outcome (Machine × Int)) (g : Int → Int → Int)
    (msg : String) : Prop :=
  ∀ (fuel k : Nat) (M : Machine) (x y a p : Int) (c1 c2 : Nat) (fl : List Nat) (W : Nat → Prop),
    FixCell M.heap (c1 :: c2 :: fl) x a → FixCell M.heap (c1 :: c2 :: fl) y p →
    inFix a → inFix p →
    freeChain M.heap k M.Freelist = some (c1 :: c2 :: fl) → (c1 :: c2 :: fl).Nodup →
    (inFix (g p a) →
      ∃ M2, f fuel M x y = Outcome.ok (M2, (c2 : Int)) ∧
        M2 = (M.alloc c1 (g p a) NIL ATOM_TAG).alloc c2 T_FIXNUM c1 ATOM_TAG ∧
        freeChain M2.heap k M2.Freelist = some fl ∧
        HeapExt M.heap M2.heap (c1 :: c2 :: fl) fl W ∧
        FixCell M2.heap fl c2 (g p a)) ∧
    (¬ inFix (g p a) → f fuel M x y = Outcome.error msg M)

/-- The arena word of the stack slot above `Sp`, as the set of the words
that a run may write which keeps at most one more entry on the stack. -/
def stackSlot (rb sp : Int) : Nat → Prop := fun x => x = (rb + (sp + 1)).toNat

/-- The value of `(+ a1 ... an)` (`minus` false) and of `(- a1 ... an)`
(`minus` true) as the specification gives it: `(+)` is 0, `(- a)` is `-a`
unless `a` is `INT_MIN`, and more operands are folded from the left as long
as every partial result is in range; `none` is the overflow error (and
`(-)`, which does not compile). -/
def arithSpec (minus : Bool) : List Int → Option Int
  | [] => if minus then none else some 0
  | [a] => if minus then (if a = INT_MIN then none else some (-a)) else some a
  | a :: r => foldFix (if minus then (fun p x => p - x) else (fun p x => p + x)) a r

/-- The number of instructions that the code of a sum or difference of `n`
literals runs. -/
def arithSteps (minus : Bool) (n : Nat) : Nat :=
  if n ≤ 1 then (if minus ∧ n = 1 then 2 else 1) else 1 + 3 * (n - 1)

/-- The message of the overflow error: `OP_NEGATE` names `-`, `add` and
`xsub` both name `+`. -/
def arithMsg (minus : Bool) (n : Nat) : String :=
  if minus ∧ n = 1 then "-: fixnum overflow" else "+: fixnum overflow"

/-- The form `(+ a1 ... an)` or `(- a1 ... an)` of literals. -/
def arithForm (minus : Bool) (cs : List Int) : Sx :=
  Sx.cons (Sx.atom (if minus then sampleSyms.P_minus else sampleSyms.P_plus)) (Sx.ofAtoms cs)

instance (h : Heap) (fl : List Nat) (c : Int) : Decidable (Live h fl c) := by
  unfold Live; infer_instance

instance (rb sp : Int) (x : Nat) : Decidable (stackSlot rb sp x) := by
  unfold stackSlot; infer_instance

/-- The cell `c` is a closure made by `closure`: its four cells are not
free, the entry point is a fixnum of value `ip`, the environment is `e` and
the program is `p`. -/
def ClosureAt (h : Heap) (fl : List Nat) (c : Int) (ip e p : Int) : Prop :=
  ∃ (n0 n1 n2 n3 : Nat) (ipc : Int), c = (n0 : Int) ∧
    n0 < h.nnodes ∧ n1 < h.nnodes ∧ n2 < h.nnodes ∧ n3 < h.nnodes ∧
    n0 ∉ fl ∧ n1 ∉ fl ∧ n2 ∉ fl ∧ n3 ∉ fl ∧
    tst (h.Tag n0) ATOM_TAG = true ∧ h.Car n0 = T_CLOSURE ∧ h.Cdr n0 = (n1 : Int) ∧
    h.Car n1 = ipc ∧ h.Cdr n1 = (n2 : Int) ∧ h.Car n2 = e ∧ h.Cdr n2 = (n3 : Int) ∧
    h.Car n3 = p ∧ FixCell h fl ipc ip

/-- The bytecode object `p`: its cell and its string cell are not free, the
bytes from `lo` up to `hi` are those of `buf`, and no word that holds one of
them is in `W`. -/
def ProgAt (h : Heap) (fl : List Nat) (W : Nat → Prop) (p : Int) (buf : Nat → Nat)
    (lo hi : Nat) : Prop :=
  ∃ pc pb, Live h fl p ∧ h.cdr p = some pc ∧ Live h fl pc ∧ h.cdr pc = some pb ∧
    ∀ j, j < hi → lo ≤ j → h.bref pb j = some (buf j) ∧
      ¬ W (pb + ((j / sizeof_cell : Nat) : Int)).toNat

/-- The four entries of the frame on top of the stack of `M3`, and what
`ret` reads through them, are those of `M2`: the saved `Fp`, the
continuation `r` with its `cdr` and the value of its `car`, the saved
environment and the argument count. -/
def SameFrame (M2 M3 : Machine) : Prop :=
  M3.Sp = M2.Sp ∧ M3.stackfix M3.Sp = M2.stackfix M2.Sp ∧
  M3.stackref (M3.Sp - 2) = M2.stackref (M2.Sp - 2) ∧
  M3.stackfix (M3.Sp - 3) = M2.stackfix (M2.Sp - 3) ∧
  ∃ r, M3.stackref (M3.Sp - 1) = some r ∧ M2.stackref (M2.Sp - 1) = some r ∧
    M3.heap.cdr r = M2.heap.cdr r ∧
    (M3.heap.car r).bind M3.heap.fixval = (M2.heap.car r).bind M2.heap.fixval

/-- The three arena words above the stack slot `Sp` of a stack at `rb`. -/
def frameSlots (rb sp : Int) : Nat → Prop :=
  fun x => x = (rb + (sp + 1)).toNat ∨ x = (rb + (sp + 2)).toNat ∨ x = (rb + (sp + 3)).toNat

instance (rb sp : Int) (x : Nat) : Decidable (frameSlots rb sp x) := by
  unfold frameSlots; infer_instance

/-- The machine `M` in a run that started in `M0`: the heap has grown by
allocation and by writes to the arena words in `W`, the free list is the
chain `fl` without repetition, the stack vector and its size are those of
`M0`. -/
def StackInv (M0 M : Machine) (fl0 fl : List Nat) (k : Nat) (W : Nat → Prop) : Prop :=
  HeapExt M0.heap M.heap fl0 fl W ∧ freeChain M.heap k M.Freelist = some fl ∧ fl.Nodup ∧
  M.Rts = M0.Rts ∧ M.Sz = M0.Sz

/-- The registers that an allocation and a push leave alone. -/
def SameRegs (M M1 : Machine) : Prop :=
  M1.Fp = M.Fp ∧ M1.Ip = M.Ip ∧ M1.Ep = M.Ep ∧ M1.Prog = M.Prog ∧ M1.Acc = M.Acc

/-- The frame of a call on top of the stack of `M`: below the saved `Fp` in
the slot `Sp` lie the continuation, a pair of the fixnum `ip` and the
program `prog`, the saved environment `ep` and the count `n`. -/
def FrameAt (M : Machine) (n ep ip prog fp : Int) : Prop :=
  M.stackfix (M.Sp - 3) = some n ∧ M.stackref (M.Sp - 2) = some ep ∧
  (∃ r, M.stackref (M.Sp - 1) = some r ∧ M.heap.cdr r = some prog ∧
    (M.heap.car r).bind M.heap.fixval = some ip) ∧
  M.stackfix M.Sp = some fp

/-! ## An example program: `(+ 1 2 3)` -/

/-- A compiler environment in which the `k`-th literal gets the index `k`
of the literal pool. -/
def plusEnv : CEnv :=
  { sy := sampleSyms, fixval := fun _ => 0, symix := fun _ => none, obindex := fun k => (k : Int) }

/-- The state of the code generator at the start of `compile`. -/
def emptyEmit : Emit := { buf := fun _ => 0, Here := 0, Cts := [], nq := 0, ins := [] }

/-- The cells and the values of the fixnums 1, 2 and 3 in `plusHeap`. -/
def plusLits : List (Int × Int) := [(4, 1), (6, 2), (8, 3)]

/-- The code of `(+ 1 2 3)`: `QUOTE 0; PUSH; QUOTE 1; PLUS; PUSH; QUOTE 2;
PLUS`, 13 bytes. -/
def plusEmit : Emit :=
  (compexpr plusEnv 2 (arithForm false [4, 6, 8]) false emptyEmit).getD emptyEmit

/-- A heap with the program of `plusEmit` (bytecode cell 0, string cell 1,
arena words 2 to 5), the literal pool (cell 2, slots 8 to 10) with the
fixnums 1, 2, 3 (cells 4 to 9), a stack of four slots (cell 3, slots 13 to
16) and the free cells 10 to 18. -/
def plusHeap : Heap :=
  { nnodes := 19, nvcells := 20, nports := 3,
    Car := poolOf [-10, -17, -19, -19, -14, 1, -14, 2, -14, 3] 0,
    Cdr := poolOf [1, 2, 8, 13, 5, -1, 7, -1, 9, -1, 11, 12, 13, 14, 15, 16, 17, 18, -1] 0,
    Tag := poolOf [1, 8, 8, 8, 1, 1, 1, 1, 1, 1] 0,
    Vectors := poolOf [1, 14, 134217733, 1711341573, 33555720, 102, 2, 12, 4, 6, 8, 3, 16, -1, -1, -1, -1] 0,
    Port_flags := fun _ => 0,
    Obmap := -1 }

/-- The machine at the start of the program of `plusHeap`, with an empty
stack. -/
def plusMachine : Machine :=
  { Machine.blank plusHeap with Prog := 0, Obarray := 2, Rts := 3, Sp := -1, Sz := 4, Freelist := 10, Freevec := 17, Ip := 0 }

/-! ## Example forms and texts for the syntax checker and the reader -/

/-- The text `#(1 . 2)`. -/
def dotVecText : List Nat := [35, 40, 49, 32, 46, 32, 50, 41]

/-- The text `(1 . 2 3)`. -/
def badPairText : List Nat := [40, 49, 32, 46, 32, 50, 32, 51, 41]

/-! ## The order of the code of the operands of a call -/

/-- The proper list of the given forms. -/
def Sx.ofList : List Sx → Sx
  | [] => Sx.atom NIL
  | a :: r => Sx.cons a (Sx.ofList r)

/-- The bytes emitted so far. -/
def Emit.bytes (s : Emit) : List Nat := (List.range s.Here).map s.buf

/-- The bytes `bs` are emitted one after the other. -/
def emitAll (bs : List Nat) (s : Emit) : Emit := bs.foldl (fun s1 b => emit (b : Int) s1) s

/-- A compiler of sub-expressions that emits for the form `a` the bytes
`code a`, whatever they are: it stands for `compexpr` on the operands, so
that the code of a call shows where the code of each operand is placed. -/
def ceOf (code : Sx → List Nat) : Sx → Bool → Emit → Option Emit :=
  fun a _ s => some (emitAll (code a) s)

/-- The code of `(apply f a1 ... ak xs)` as `compapply` lays it out: the
code of `xs`, then for `ak` down to `a1` a `PUSH`, the code of the operand
and a `CONS`, then a `PUSH`, the code of `f` and `APPLIS` or `APPLIST`. -/
def applyCode (code : Sx → List Nat) (f : Sx) (args : List Sx) (xs : Sx) (t : Bool) : List Nat :=
  code xs ++ (args.reverse.map (fun a => [OP_PUSH] ++ code a ++ [OP_CONS])).flatten ++
    [OP_PUSH] ++ code f ++ [if t then OP_APPLIST else OP_APPLIS]

/-- The code of `(f a1 ... an)` as `compapp` lays it out: for `an` down to
`a1` the code of the operand and a `PUSH`, then `PUSHVAL n`, the code of `f`
and `APPLY` or `TAILAPP`. -/
def appCode (code : Sx → List Nat) (f : Sx) (args : List Sx) (t : Bool) : List Nat :=
  (args.reverse.map (fun a => code a ++ [OP_PUSH])).flatten ++
    [OP_PUSHVAL, args.length / 256, args.length % 256] ++ code f ++
    [if t then OP_TAILAPP else OP_APPLY]

/-- The code of an operand in the examples: one byte, the cell of the atom
(modulo 256). -/
def markCode : Sx → List Nat
  | Sx.atom c => [c.toNat % 256]
  | Sx.cons _ _ => []

/-- The form `(apply f a1 a2 xs)` with the atoms 201 (`f`), 202 (`a1`), 203
(`a2`) and 204 (`xs`). -/
def applyForm : Sx :=
  Sx.cons (Sx.atom sampleSyms.S_apply)
    (Sx.cons (Sx.atom 201) (Sx.ofList [Sx.atom 202, Sx.atom 203, Sx.atom 204]))

/-! ## The closure converter: free variables and the classification of
variables

Lists of symbols (environments, formals, results of `freevars`) are Lean
lists of the cells of their elements. -/

/-- The function `subrp(x)`. -/
def subrp (sy : Syms) (c : Int) : Bool :=
  decide (0 ≤ subr0 sy c) || decide (0 ≤ subr1 sy c) || decide (0 ≤ subr2 sy c) ||
  decide (0 ≤ subr3 sy c) || decide (0 ≤ osubr0 sy c) || decide (0 ≤ osubr1 sy c) ||
  decide (0 ≤ lsubr0 sy c) || decide (0 ≤ lsubr1 sy c)

/-- The test `subrp(car(x))` for the head `h` of a form; a pair is no
primitive. -/
def Sx.subrHead (sy : Syms) : Sx → Bool
  | Sx.atom c => subrp sy c
  | Sx.cons _ _ => false

/-- The function `set_union(a, b)`: the elements of `a`, taken from the
last to the first, are put in front of `b` unless `memq` finds them in
`b`. -/
def set_union (a b : List Int) : List Int :=
  a.reverse.foldl (fun n x => if b.contains x then n else x :: n) b

/-- The cells of a proper list of atoms; `none` for any other form. -/
def Sx.cells : Sx → Option (List Int)
  | Sx.atom c => if c = NIL then some [] else none
  | Sx.cons (Sx.atom c) d => d.cells.map (fun l => c :: l)
  | Sx.cons (Sx.cons _ _) _ => none

/-- The heads after which `freevars` continues with `cdr(x)`. -/
def Sx.seqHead (sy : Syms) (h : Sx) : Bool :=
  h.is sy.S_apply || h.is sy.S_prog || h.is sy.S_if || h.is sy.S_ifstar || h.is sy.S_setq

mutual
/-- The function `freevars(x, e)`; `none` is a read of the `car` or `cdr` of
an atom, or formals that are no list of atoms. -/
def freevars (sy : Syms) (symp : Int → Bool) : Sx → List Int → Option (List Int)
  | Sx.atom c, e => if e.contains c then some [] else if symp c then some [c] else some []
  | Sx.cons h d, e =>
    if h.is sy.S_quote then some []
    else if h.seqHead sy then freevarsLoop sy symp d e []
    else if h.is sy.S_def || h.is sy.S_macro then
      match d with
      | Sx.cons _ r => freevarsLoop sy symp r e []
      | Sx.atom _ => none
    else if h.subrHead sy then freevarsLoop sy symp d e []
    else if h.is sy.S_lambda then
      match d with
      | Sx.cons formals body =>
        match (flatargs formals).cells with
        | some a => freevarsLoop sy symp body (set_union a e) []
        | none => none
      | Sx.atom _ => none
    else
      match freevars sy symp h e with
      | some n => freevarsLoop sy symp d e (set_union [] n)
      | none => none
/-- The loop `while (pairp(x))` of `freevars` with the union `u` built so
far. -/
def freevarsLoop (sy : Syms) (symp : Int → Bool) : Sx → List Int → List Int → Option (List Int)
  | Sx.atom _, _, u => some u
  | Sx.cons a r, e, u =>
    match freevars sy symp a e with
    | some n => freevarsLoop sy symp r e (set_union u n)
    | none => none
end

mutual
/-- The symbol `v` is referenced in the form `x` outside every quote and
outside the scope of every formal of the same name, `bound` being the
formals in whose scope `x` stands; the head of a special form and the head
of a call of a primitive are no references, the name that `def` or `macro`
defines is none either. -/
def FreeIn (sy : Syms) (symp : Int → Bool) (v : Int) : Sx → List Int → Prop
  | Sx.atom c, bound => c = v ∧ symp c = true ∧ v ∉ bound
  | Sx.cons h d, bound =>
    if h.is sy.S_quote then False
    else if h.seqHead sy then FreeInAny sy symp v d bound
    else if h.is sy.S_def || h.is sy.S_macro then
      match d with
      | Sx.cons _ r => FreeInAny sy symp v r bound
      | Sx.atom _ => False
    else if h.subrHead sy then FreeInAny sy symp v d bound
    else if h.is sy.S_lambda then
      match d with
      | Sx.cons formals body =>
        FreeInAny sy symp v body (((flatargs formals).cells.getD []) ++ bound)
      | Sx.atom _ => False
    else FreeIn sy symp v h bound ∨ FreeInAny sy symp v d bound
/-- The symbol `v` is referenced in one of the forms of the list `x`. -/
def FreeInAny (sy : Syms) (symp : Int → Bool) (v : Int) : Sx → List Int → Prop
  | Sx.atom _, _ => False
  | Sx.cons a r, bound => FreeIn sy symp v a bound ∨ FreeInAny sy symp v r bound
end

mutual
/-- The form has the operands that `freevars` reads: `def` and `macro` have
a name, `lambda` has formals that are a list of atoms. -/
def Shaped (sy : Syms) : Sx → Bool
  | Sx.atom _ => true
  | Sx.cons h d =>
    if h.is sy.S_quote then true
    else if h.seqHead sy then ShapedAll sy d
    else if h.is sy.S_def || h.is sy.S_macro then
      match d with
      | Sx.cons _ r => ShapedAll sy r
      | Sx.atom _ => false
    else if h.subrHead sy then ShapedAll sy d
    else if h.is sy.S_lambda then
      match d with
      | Sx.cons formals body => (flatargs formals).cells.isSome && ShapedAll sy body
      | Sx.atom _ => false
    else Shaped sy h && ShapedAll sy d
/-- Every form of the list is `Shaped`. -/
def ShapedAll (sy : Syms) : Sx → Bool
  | Sx.atom _ => true
  | Sx.cons a r => Shaped sy a && ShapedAll sy r
end

/-! ## Example forms of the closure converter -/

/-- The call `(f car)`: the symbol `f` in cell 5002, the primitive `car` as
its operand. -/
def carAsArg : Sx :=
  .cons (.atom 5002) (.cons (.atom sampleSyms.P_car) (.atom NIL))

/-- The form `(lambda (x) (f x (quote y) (car z)))` with `f`, `x`, `y`, `z`
in the cells 5002, 5003, 5004, 5005. -/
def lamForm : Sx :=
  .cons (.atom sampleSyms.S_lambda)
    (.cons (.cons (.atom 5003) (.atom NIL))
      (.cons
        (.cons (.atom 5002)
          (.cons (.atom 5003)
            (.cons (.cons (.atom sampleSyms.S_quote) (.cons (.atom 5004) (.atom NIL)))
              (.cons (.cons (.atom sampleSyms.P_car) (.cons (.atom 5005) (.atom NIL)))
                (.atom NIL)))))
        (.atom NIL)))

/-! ## The closure converter: `cconv`

Environments and formals are the Lean lists of the cells of their elements,
as they stand when `cconv` is called. The fixnum cells that `mkfix`
allocates are given by a function from the value to the cell. The functions
that `cconv` calls on a pair are parameters, as is `cconv` itself for the
elements of a list. -/

/-- Result of a conversion: the converted form, an error raised with its
message and its object, or a read outside a pair. -/
inductive Conv where
  | val (x : Sx)
  | error (msg : String) (obj : Sx)
  | fault
  deriving DecidableEq

/-- The loop of `posq(x, a)` with the counter `n`; the counter is an `int`
and the lists of a pool indexed by `int` are too short for it to wrap. -/
def posqLoop (x : Int) : List Int → Int → Int
  | [], _ => NIL
  | c :: a, n => if c = x then n else posqLoop x a (n + 1)

/-- The function `posq(x, a)` for an atom `x`. -/
def posq (x : Int) (a : List Int) : Int := posqLoop x a 0

/-- The function `posq(x, a)` for a form `x`: the elements of `a` are atoms,
none is the cell of a pair. -/
def Sx.posq : Sx → List Int → Int
  | Sx.atom c, a => LS9.posq c a
  | Sx.cons _ _, _ => NIL

/-- The function `mapconv(x, e, a)` over the converter `cc` of the
elements. -/
def mapconv (cc : Sx → List Int → List Int → Conv) : Sx → List Int → List Int → Conv
  | Sx.atom _, _, _ => Conv.val (Sx.atom NIL)
  | Sx.cons x r, e, a =>
    match cc x e a with
    | Conv.val n =>
      (match mapconv cc r e a with
       | Conv.val m => Conv.val (Sx.cons n m)
       | o => o)
    | o => o

/-- The function `contains(a, x)` for the cell `x` of an atom. -/
def contains : Sx → Int → Bool
  | Sx.atom c, x => c == x
  | Sx.cons h d, x => contains h x || contains d x

/-- The function `liftable(x)`. -/
def liftable (sy : Syms) (x : Sx) : Bool := !contains x sy.S_setq

/-- The test `pairp(car(x)) && S_lambda == caar(x) && liftable(car(x))` on
the head `h` of a form. -/
def Sx.liftHead (sy : Syms) : Sx → Bool
  | Sx.atom _ => false
  | Sx.cons f r => f.is sy.S_lambda && liftable sy (Sx.cons f r)

/-- The function `cconv(x, e, a)`. -/
def cconv (sy : Syms) (symp : Int → Bool) (mkfix : Int → Int)
    (cc appconv lamconv defconv : Sx → List Int → List Int → Conv)
    (x : Sx) (e a : List Int) : Conv :=
  match x with
  | Sx.cons h d =>
    if h.is sy.S_apply || h.is sy.S_if || h.is sy.S_ifstar || h.is sy.S_prog ||
        h.is sy.S_setq || h.subrHead sy then
      match mapconv cc d e a with
      | Conv.val m => Conv.val (Sx.cons h m)
      | o => o
    else if x.posq a ≠ NIL then
      Conv.val (Sx.cons (Sx.atom sy.I_arg) (Sx.cons (Sx.atom (mkfix (x.posq a))) (Sx.atom NIL)))
    else if x.posq e ≠ NIL then
      Conv.val (Sx.cons (Sx.atom sy.I_ref)
        (Sx.cons (Sx.atom (mkfix (x.posq e))) (Sx.cons x (Sx.atom NIL))))
    else if h.is sy.S_quote then Conv.val x
    else if h.liftHead sy then appconv x e a
    else if h.is sy.S_lambda then lamconv x e a
    else if h.is sy.S_def then defconv x e a
    else if h.is sy.S_macro then
      match d with
      | Sx.cons n r =>
        (match mapconv cc r e a with
         | Conv.val m => Conv.val (Sx.cons h (Sx.cons n m))
         | o => o)
      | Sx.atom _ => Conv.fault
    else mapconv cc x e a
  | Sx.atom c =>
    if x.posq a ≠ NIL then
      Conv.val (Sx.cons (Sx.atom sy.I_arg) (Sx.cons (Sx.atom (mkfix (x.posq a))) (Sx.atom NIL)))
    else if x.posq e ≠ NIL then
      Conv.val (Sx.cons (Sx.atom sy.I_ref)
        (Sx.cons (Sx.atom (mkfix (x.posq e))) (Sx.cons x (Sx.atom NIL))))
    else if symp c then Conv.error "undefined symbol" x
    else Conv.val x

/-- The forms `(%arg i)` and `(%ref i v)` with the fixnum `i` in the cell
`mkfix i`. -/
def argForm (sy : Syms) (mkfix : Int → Int) (i : Nat) : Sx :=
  Sx.cons (Sx.atom sy.I_arg) (Sx.cons (Sx.atom (mkfix i)) (Sx.atom NIL))

/-- The form `(%ref i v)`. -/
def refForm (sy : Syms) (mkfix : Int → Int) (i : Nat) (v : Int) : Sx :=
  Sx.cons (Sx.atom sy.I_ref) (Sx.cons (Sx.atom (mkfix i)) (Sx.cons (Sx.atom v) (Sx.atom NIL)))

/-- The classification of a symbol that the specification gives: a formal
first, then a variable of the environment, else undefined. -/
def classify (sy : Syms) (mkfix : Int → Int) (v : Int) (e a : List Int) : Conv :=
  if v ∈ a then Conv.val (argForm sy mkfix (a.indexOf v))
  else if v ∈ e then Conv.val (refForm sy mkfix (e.indexOf v) v)
  else Conv.error "undefined symbol" (Sx.atom v)

/-- A converter that is never called. -/
def noConv : Sx → List Int → List Int → Conv := fun _ _ _ => Conv.fault

/-- Fixnum cells of the examples: the value `i` in the cell `7000 + i`. -/
def sampleFix (i : Int) : Int := 7000 + i

/-! ## Errors and their handler

The global environment `Glob` is the list of its bindings, each a name and
a value; `error` and `throwerr` read and write nothing else of the heap but
the new string, whose cell is given by a function from the message. -/

/-- The symbols `*errtag*` and `*errval*`. -/
structure ErrSyms where
  S_errtag : Int
  S_errval : Int

/-- The global environment and the register `Handler`. -/
structure ErrState where
  Glob : List (Int × Int)
  Handler : Int
  deriving DecidableEq

/-- The function `assq(x, a)` on the bindings `(name value)` of `Glob`,
followed by `cadr`: the value of the first binding of `x`. -/
def assqVal (x : Int) : List (Int × Int) → Option Int
  | [] => none
  | (n, v) :: a => if n = x then some v else assqVal x a

/-- The function `bindset(v, a)`: the value of the first binding of `v`
becomes `a`. -/
def bindset (v a : Int) : List (Int × Int) → List (Int × Int)
  | [] => []
  | (n, w) :: g => if n = v then (n, a) :: g else (n, w) :: bindset v a g

/-- Where `error` continues: at `setjmp(Errtag)` in `run`, or, after the
report of the message and the object, at `setjmp(Restart)`. -/
inductive Jump where
  | Errtag (st : ErrState)
  | Restart (msg : String) (obj : Int) (st : ErrState)
  deriving DecidableEq

/-- The function `error(s, x)`. -/
def error (es : ErrSyms) (mkstr : String → Int) (s : String) (x : Int) (st : ErrState) : Jump :=
  let handler := (assqVal es.S_errtag st.Glob).getD NIL
  if handler ≠ NIL then
    match assqVal es.S_errval st.Glob with
    | some v =>
      if v = handler then
        Jump.Errtag { Glob := bindset es.S_errval (mkstr s) st.Glob, Handler := handler }
      else Jump.Errtag { Glob := st.Glob, Handler := handler }
    | none => Jump.Errtag { Glob := st.Glob, Handler := handler }
  else Jump.Restart s x { Glob := st.Glob, Handler := handler }

/-- The content of a catch tag: the list `(Ip Sp Fp Ep . Prog)`. -/
structure CTag where
  Ip : Int
  Sp : Int
  Fp : Int
  Ep : Int
  Prog : Int
  deriving DecidableEq

/-- The registers that `throw` assigns. -/
structure Regs where
  Ip : Int
  Sp : Int
  Fp : Int
  Ep : Int
  Prog : Int
  Acc : Int
  deriving DecidableEq

/-- The function `throw(ct, v)`, `tags` giving the content of the cells
that are catch tags; `none` when `ct` is none, where `expect` raises an
error. -/
def throw (tags : Int → Option CTag) (ct v : Int) : Option Regs :=
  match tags ct with
  | some t => some { Ip := t.Ip, Sp := t.Sp, Fp := t.Fp, Ep := t.Ep, Prog := t.Prog, Acc := v }
  | none => none

/-- The function `throwerr(ct)`. -/
def throwerr (es : ErrSyms) (tags : Int → Option CTag) (glob : List (Int × Int)) (ct : Int) :
    Option Regs :=
  throw tags ct ((assqVal es.S_errval glob).getD NIL)

/-- The statements `if (setjmp(Errtag) != 0) Ip = throwerr(Handler);` of
`run` after a jump of `error`; `none` when `error` went to `Restart`. -/
def landing (es : ErrSyms) (tags : Int → Option CTag) : Jump → Option Regs
  | Jump.Errtag st => throwerr es tags st.Glob st.Handler
  | Jump.Restart _ _ _ => none

/-- The registers at the catch that made the tag `t`, with the value `v`
that the catch returns. -/
def CTag.resume (t : CTag) (v : Int) : Regs :=
  { Ip := t.Ip, Sp := t.Sp, Fp := t.Fp, Ep := t.Ep, Prog := t.Prog, Acc := v }

/-- Example symbols: `*errtag*` in cell 1200, `*errval*` in cell 1201. -/
def sampleErrSyms : ErrSyms := { S_errtag := 1200, S_errval := 1201 }

/-- Example strings: every new string is the cell 8000. -/
def sampleStr : String → Int := fun _ => 8000

/-- Example tags: the cell 50 is a catch tag. -/
def sampleTags (c : Int) : Option CTag :=
  if c = 50 then some { Ip := 12, Sp := 3, Fp := 1, Ep := 60, Prog := 61 } else none

/-- A global environment in which `*errtag*` holds the tag 50 and `*errval*`
the value 7. -/
def handlerGlob : List (Int × Int) := [(5001, 9), (1200, 50), (1201, 7)]

/-- A global environment in which `*errtag*` and `*errval*` both hold the
tag 50. -/
def armedGlob : List (Int × Int) := [(5001, 9), (1200, 50), (1201, 50)]

/-! ## The macro expander -/

/-- The symbols `defmac`, `defun` and `labels`. -/
structure ExpSyms where
  S_defmac : Int
  S_defun : Int
  S_labels : Int

def MXMAX : Int := 2000

/-- The function `zip(a, b)` on two lists of forms. -/
def zip : List Sx → List Sx → Sx
  | x :: a, y :: b => Sx.cons (Sx.cons x y) (zip a b)
  | _, _ => Sx.atom NIL

/-- The end of `expandbody(x)` after its loop, with the lists `vs` and `as`
that the loop has built, both in reverse order. -/
def expandbodyEnd (xs : ExpSyms) (x : Sx) (vs as : List Sx) : Sx :=
  match vs with
  | [] => x
  | _ :: _ =>
    Sx.cons (Sx.cons (Sx.atom xs.S_labels) (Sx.cons (zip vs.reverse as.reverse) x))
      (Sx.atom NIL)

mutual
/-- The function `expanddef(x)`; `symname` gives the name of a symbol. -/
def expanddef (sy : Syms) (xs : ExpSyms) (symname : Int → String) : Sx → Conv
  | Sx.cons (Sx.atom hc) (Sx.cons sig body) =>
    match sig with
    | Sx.atom _ => Conv.error (symname hc ++ ": expected signature") sig
    | Sx.cons name formals =>
      match expandbodyLoop sy xs symname body [] [] with
      | Conv.val b =>
        Conv.val (Sx.cons (Sx.atom (if hc = xs.S_defun then sy.S_def else sy.S_macro))
          (Sx.cons name (Sx.cons (Sx.cons (Sx.atom sy.S_lambda) (Sx.cons formals b))
            (Sx.atom NIL))))
      | o => o
  | _ => Conv.fault
/-- The loop of `expandbody(x)` and what follows it. -/
def expandbodyLoop (sy : Syms) (xs : ExpSyms) (symname : Int → String) :
    Sx → List Sx → List Sx → Conv
  | Sx.cons (Sx.cons (Sx.atom hc) d) rest, vs, as =>
    if hc = sy.S_def then
      match d with
      | Sx.cons name (Sx.cons v _) =>
        expandbodyLoop sy xs symname rest (name :: vs) (Sx.cons v (Sx.atom NIL) :: as)
      | _ => Conv.fault
    else if hc = xs.S_defun then
      match expanddef sy xs symname (Sx.cons (Sx.atom hc) d) with
      | Conv.val n =>
        (match n.cadr, n.caddr with
         | some name, some v =>
           expandbodyLoop sy xs symname rest (name :: vs) (Sx.cons v (Sx.atom NIL) :: as)
         | _, _ => Conv.fault)
      | o => o
    else Conv.val (expandbodyEnd xs (Sx.cons (Sx.cons (Sx.atom hc) d) rest) vs as)
  | x, vs, as => Conv.val (expandbodyEnd xs x vs as)
end

/-- The function `expandbody(x)`. -/
def expandbody (sy : Syms) (xs : ExpSyms) (symname : Int → String) (x : Sx) : Conv :=
  expandbodyLoop sy xs symname x [] []

/-- The loop of `mapexp(x, r)` over the expander `ex` of the elements; `x`
is the whole list, the object of the error. A result `none` is the end of
the fuel of `ex`. -/
def mapexpLoop (ex : Sx → Bool → Option Conv) (x : Sx) : Sx → Bool → Option Conv
  | Sx.atom c, _ =>
    if c ≠ NIL then some (Conv.error "dotted list in program" x)
    else some (Conv.val (Sx.atom NIL))
  | Sx.cons a p, r =>
    match ex a r with
    | some (Conv.val n) =>
      (match mapexpLoop ex x p r with
       | some (Conv.val m) => some (Conv.val (Sx.cons n m))
       | o => o)
    | o => o

/-- The function `mapexp(x, r)`. -/
def mapexp (ex : Sx → Bool → Option Conv) (x : Sx) (r : Bool) : Option Conv :=
  mapexpLoop ex x x r

/-- The form `(apply fn (quote args))` that `expand` evaluates for a use of
a macro. -/
def macroCall (sy : Syms) (fn : Int) (args : Sx) : Sx :=
  Sx.cons (Sx.atom sy.S_apply)
    (Sx.cons (Sx.atom fn)
      (Sx.cons (Sx.cons (Sx.atom sy.S_quote) (Sx.cons args (Sx.atom NIL))) (Sx.atom NIL)))

/-- The function `expand(x, r)` at the level `lev` of `Mxlev`; `macros` is
the list `Macros` of names and closures, `eval` stands for `eval(n, 1)`.
The first argument bounds the depth of the calls, `none` is its end. -/
def expand (sy : Syms) (xs : ExpSyms) (symname : Int → String) (symp : Int → Bool)
    (macros : List (Int × Int)) (eval : Sx → Conv) : Nat → Int → Sx → Bool → Option Conv
  | 0, _, _, _ => none
  | k + 1, lev, x, r =>
    if lev < 0 then some (Conv.error "interrupted" (Sx.atom UNDEF))
    else if lev > MXMAX then
      some (Conv.error "too many levels of macro expansion" (Sx.atom UNDEF))
    else
      match x with
      | Sx.atom _ => some (Conv.val x)
      | Sx.cons h d =>
        if h.is sy.S_quote then some (Conv.val x)
        else if h.is sy.S_lambda then
          match d with
          | Sx.cons formals body =>
            (match mapexp (expand sy xs symname symp macros eval k (lev + 1)) body r with
             | some (Conv.val n) => some (Conv.val (Sx.cons h (Sx.cons formals n)))
             | o => o)
          | Sx.atom _ => some Conv.fault
        else if h.is xs.S_defun || h.is xs.S_defmac then
          match expanddef sy xs symname x with
          | Conv.val y => expand sy xs symname symp macros eval k (lev + 1) y r
          | o => some o
        else
          match h with
          | Sx.atom hc =>
            if symp hc then
              match assqVal hc macros with
              | some fn =>
                (match eval (macroCall sy fn d) with
                 | Conv.val y =>
                   if r then expand sy xs symname symp macros eval k (lev + 1) y r
                   else some (Conv.val y)
                 | o => some o)
              | none => mapexp (expand sy xs symname symp macros eval k (lev + 1)) x r
            else mapexp (expand sy xs symname symp macros eval k (lev + 1)) x r
          | Sx.cons _ _ => mapexp (expand sy xs symname symp macros eval k (lev + 1)) x r

/-- Example symbols: `defmac`, `defun`, `labels` in the cells 1300 to
1302. -/
def sampleExp : ExpSyms := { S_defmac := 1300, S_defun := 1301, S_labels := 1302 }

/-- Names of the example symbols. -/
def sampleName (c : Int) : String :=
  if c = 1300 then "defmac" else if c = 1301 then "defun" else "g"

/-- The form `(list (quote if) c (cons (quote prog) b))` with `list`, `c`,
`b` in the cells 5013, 5011, 5012. -/
def whenBody : Sx :=
  Sx.ofList [Sx.atom 5013,
    Sx.ofList [Sx.atom sampleSyms.S_quote, Sx.atom sampleSyms.S_if],
    Sx.atom 5011,
    Sx.ofList [Sx.atom sampleSyms.P_cons,
      Sx.ofList [Sx.atom sampleSyms.S_quote, Sx.atom sampleSyms.S_prog],
      Sx.atom 5012]]

/-- The formals `(c . b)`. -/
def whenFormals : Sx := Sx.cons (Sx.atom 5011) (Sx.atom 5012)

/-- The form `(defmac when (c . b) (list (quote if) c (cons (quote prog)
b)))` with `when` in the cell 5010. -/
def whenNamed : Sx :=
  Sx.cons (Sx.atom sampleExp.S_defmac)
    (Sx.cons (Sx.atom 5010) (Sx.cons whenFormals (Sx.cons whenBody (Sx.atom NIL))))

/-- The form `(defmac (when c . b) (list (quote if) c (cons (quote prog)
b)))`. -/
def whenSigned : Sx :=
  Sx.cons (Sx.atom sampleExp.S_defmac)
    (Sx.cons (Sx.cons (Sx.atom 5010) whenFormals) (Sx.cons whenBody (Sx.atom NIL)))

/-- The form `(macro when (lambda (c . b) (list (quote if) c (cons (quote
prog) b))))`. -/
def whenMacro : Sx :=
  Sx.ofList [Sx.atom sampleSyms.S_macro, Sx.atom 5010,
    Sx.cons (Sx.atom sampleSyms.S_lambda) (Sx.cons whenFormals (Sx.cons whenBody (Sx.atom NIL)))]

/-- An evaluator that is never called. -/
def noEval : Sx → Conv := fun _ => Conv.fault

/-- The symbol that `expanddef` puts in the place of `defun` or `defmac`. -/
def defHead (sy : Syms) (xs : ExpSyms) (hc : Int) : Int :=
  if hc = xs.S_defun then sy.S_def else sy.S_macro

/-- The cells of `quote`, `lambda`, `defun` and `defmac` are four symbols,
`def` and `macro` are none of them and name no macro. -/
def Keywords (sy : Syms) (xs : ExpSyms) (macros : List (Int × Int)) : Prop :=
  sy.S_quote ≠ sy.S_lambda ∧
  xs.S_defun ≠ sy.S_quote ∧ xs.S_defun ≠ sy.S_lambda ∧
  xs.S_defmac ≠ sy.S_quote ∧ xs.S_defmac ≠ sy.S_lambda ∧
  sy.S_def ≠ sy.S_quote ∧ sy.S_def ≠ sy.S_lambda ∧ sy.S_def ≠ xs.S_defun ∧
  sy.S_def ≠ xs.S_defmac ∧
  sy.S_macro ≠ sy.S_quote ∧ sy.S_macro ≠ sy.S_lambda ∧ sy.S_macro ≠ xs.S_defun ∧
  sy.S_macro ≠ xs.S_defmac ∧
  assqVal sy.S_def macros = none ∧ assqVal sy.S_macro macros = none

instance (sy : Syms) (xs : ExpSyms) (macros : List (Int × Int)) :
    Decidable (Keywords sy xs macros) := by
  unfold Keywords
  infer_instance

/-! ## Nested evaluation: `begin_rec`, `end_rec` and `eval` -/

/-- The function `begin_rec()`. -/
def begin_rec (fuel : Nat) (M : Machine) : Outcome Machine :=
  (protect fuel M M.Prog).bind fun M1 =>
  (protect fuel M1 M1.Ep).bind fun M2 =>
  (mkfix fuel M2 M2.Ip).bind fun r3 =>
  (protect fuel r3.1 r3.2).bind fun M3 =>
  (mkfix fuel M3 M3.Sp).bind fun r4 =>
  (protect fuel r4.1 r4.2).bind fun M4 =>
  (mkfix fuel M4 M4.Fp).bind fun r5 =>
  protect fuel r5.1 r5.2

/-- The expression `fixval(unprot(1))`. -/
def unprotFix (M : Machine) : Outcome (Machine × Int) :=
  (unprot1 M).bind fun r =>
  (Outcome.ofOption (r.1.heap.fixval r.2)).bind fun v => Outcome.ok (r.1, v)

/-- The function `end_rec()`. -/
def end_rec (M : Machine) : Outcome Machine :=
  (unprotFix M).bind fun r1 =>
  (unprotFix { r1.1 with Fp := r1.2 }).bind fun r2 =>
  (unprotFix { r2.1 with Sp := r2.2 }).bind fun r3 =>
  (unprot1 { r3.1 with Ip := r3.2 }).bind fun r4 =>
  (unprot1 { r4.1 with Ep := r4.2 }).bind fun r5 =>
  Outcome.ok { r5.1 with Prog := r5.2 }

/-- The assignment `car(Protected) = x`. -/
def setProtected (M : Machine) (x : Int) : Outcome Machine :=
  match M.heap.setCar M.Protected x with
  | some h => Outcome.ok { M with heap := h }
  | none => Outcome.fault

/-- The functions that `eval` calls on the form: `expand(x, 1)`,
`syncheck(x, 1)`, `clsconv(x)`, `compile(x)` and `interpret(x)`. -/
structure Stages where
  expand : Machine → Int → Outcome (Machine × Int)
  syncheck : Machine → Int → Outcome Machine
  clsconv : Machine → Int → Outcome (Machine × Int)
  compile : Machine → Int → Outcome (Machine × Int)
  interpret : Machine → Int → Outcome (Machine × Int)

/-- The statements of `eval(x, r)` up to `Tmp = NIL`. -/
def evalEnter (fuel : Nat) (M : Machine) (x : Int) (r : Bool) : Outcome Machine :=
  (if r then begin_rec fuel { M with Tmp := x } else Outcome.ok { M with Tmp := x }).bind
    fun M1 =>
  (protect fuel M1 x).bind fun M2 => Outcome.ok { M2 with Tmp := NIL }

/-- The statements of `eval(x, r)` from `x = expand(x, 1)` to
`x = interpret(x)`. -/
def evalStages (st : Stages) (M : Machine) (x : Int) : Outcome (Machine × Int) :=
  (st.expand M x).bind fun e =>
  (setProtected e.1 e.2).bind fun M3 =>
  (st.syncheck M3 e.2).bind fun M4 =>
  (st.clsconv M4 e.2).bind fun c =>
  (setProtected c.1 c.2).bind fun M5 =>
  (st.compile M5 c.2).bind fun p =>
  (setProtected p.1 p.2).bind fun M6 =>
  st.interpret M6 p.2

/-- The function `eval(x, r)`. -/
def eval (fuel : Nat) (st : Stages) (M : Machine) (x : Int) (r : Bool) :
    Outcome (Machine × Int) :=
  (evalEnter fuel M x r).bind fun M2 =>
  (evalStages st M2 x).bind fun i =>
  (unprot1 i.1).bind fun u =>
  (if r then end_rec u.1 else Outcome.ok u.1).bind fun M7 =>
  Outcome.ok (M7, i.2)

/-- The state `M1` keeps of the state `M` the register `Protected`, the size
of the node pool and the `car` and `cdr` of the cells `cs`. -/
def Keeps (cs : List Nat) (M M1 : Machine) : Prop :=
  M1.Protected = M.Protected ∧ M1.heap.nnodes = M.heap.nnodes ∧
  ∀ c, c ∈ cs → M1.heap.Car c = M.heap.Car c ∧ M1.heap.Cdr c = M.heap.Cdr c

/-- Every stage that completes leaves `Protected` as it found it and does
not write to the cells `cs`. -/
def Stages.Keep (st : Stages) (cs : List Nat) : Prop :=
  (∀ M y M1 y1, st.expand M y = Outcome.ok (M1, y1) → Keeps cs M M1) ∧
  (∀ M y M1, st.syncheck M y = Outcome.ok M1 → Keeps cs M M1) ∧
  (∀ M y M1 y1, st.clsconv M y = Outcome.ok (M1, y1) → Keeps cs M M1) ∧
  (∀ M y M1 y1, st.compile M y = Outcome.ok (M1, y1) → Keeps cs M M1) ∧
  (∀ M y M1 y1, st.interpret M y = Outcome.ok (M1, y1) → Keeps cs M M1)

/-- The state after `protect(n)` has taken the free cell `c`. -/
def Machine.prot (M : Machine) (c : Nat) (n : Int) : Machine :=
  { M.alloc c n M.Protected 0 with Protected := (c : Int) }

/-- The state after `mkfix(v)` has taken the free cells `c1` and `c2`. -/
def Machine.fixed (M : Machine) (c1 c2 : Nat) (v : Int) : Machine :=
  (M.alloc c1 v NIL ATOM_TAG).alloc c2 T_FIXNUM c1 ATOM_TAG

/-- A heap of 14 free cells. -/
def recHeap : Heap :=
  { nnodes := 14, nvcells := 0, nports := 3,
    Car := fun _ => 0,
    Cdr := poolOf [1, 2, 3, 4, 5, 6, 7, 8, 9, 10, 11, 12, 13, -1] 0,
    Tag := fun _ => 0,
    Vectors := fun _ => 0,
    Port_flags := fun _ => 0,
    Obmap := -1 }

/-- A machine in the middle of a program. -/
def recMachine : Machine :=
  { Machine.blank recHeap with Prog := 40, Ep := 41, Ip := 7, Sp := 3, Fp := 1, Freelist := 0 }

/-- Stages that return the form and the state as they are. -/
def idStages : Stages :=
  { expand := fun M y => Outcome.ok (M, y),
    syncheck := fun M _ => Outcome.ok M,
    clsconv := fun M y => Outcome.ok (M, y),
    compile := fun M y => Outcome.ok (M, y),
    interpret := fun M y => Outcome.ok (M, y) }

/-- The twelve cells that `begin_rec` and `protect(x)` have taken hold the
saved registers `prog`, `ep`, `ip`, `sp`, `fp` in front of the list `p0`:
`c1` and `c2` are the entries of `Prog` and `Ep`, `c5`, `c8`, `c11` those of
the fixnums `c4`, `c7`, `c10` with the values in `c3`, `c6`, `c9`, and `c12`
is the entry of the form. -/
def Saved (h : Heap) (c1 c2 c3 c4 c5 c6 c7 c8 c9 c10 c11 c12 : Nat)
    (p0 prog ep ip sp fp : Int) : Prop :=
  (c1 < h.nnodes ∧ c2 < h.nnodes ∧ c3 < h.nnodes ∧ c4 < h.nnodes ∧ c5 < h.nnodes ∧
    c6 < h.nnodes ∧ c7 < h.nnodes ∧ c8 < h.nnodes ∧ c9 < h.nnodes ∧ c10 < h.nnodes ∧
    c11 < h.nnodes ∧ c12 < h.nnodes) ∧
  (h.Car c1 = prog ∧ h.Cdr c1 = p0 ∧ h.Car c2 = ep ∧ h.Cdr c2 = (c1 : Int)) ∧
  (h.Car c3 = ip ∧ h.Cdr c4 = (c3 : Int) ∧ h.Car c5 = (c4 : Int) ∧ h.Cdr c5 = (c2 : Int)) ∧
  (h.Car c6 = sp ∧ h.Cdr c7 = (c6 : Int) ∧ h.Car c8 = (c7 : Int) ∧ h.Cdr c8 = (c5 : Int)) ∧
  (h.Car c9 = fp ∧ h.Cdr c10 = (c9 : Int) ∧ h.Car c11 = (c10 : Int) ∧
    h.Cdr c11 = (c8 : Int)) ∧
  h.Cdr c12 = (c11 : Int)

/-! ## An example call -/

/-- A heap with a program (bytecode cell 0, string cell 1, arena words 2
and 3) whose bytes are `APPLY; ENTER 2; RETURN`, a stack of seven slots
(cell 2, arena words 6 to 12) that holds the boxes of two arguments (cells
12 and 11) and the count 2 (cells 9 and 10), a closure of the program with
the entry point 1 (cells 3 to 8) and the free cells 13 to 18. -/
def callHeap : Heap :=
  { nnodes := 19, nvcells := 13, nports := 3,
    Car := poolOf [-10, -17, -19, -13, 7, -1, 0, -14, 1, -14, 2, 9, 7] 0,
    Cdr := poolOf [1, 2, 6, 4, 5, 6, -1, 8, -1, 10, -1, -1, -1, 14, 15, 16, 17, 18, -1] 0,
    Tag := poolOf [1, 8, 8, 1, 0, 0, 0, 1, 1, 1, 1, 0, 0] 0,
    Vectors := poolOf [1, 5, 33560579, 26, 2, 28, 12, 11, 9, -1, -1, -1, -1] 0,
    Port_flags := fun _ => 0,
    Obmap := -1 }

/-- The machine at the instruction `APPLY` of `callHeap`: the closure is in
`Acc`, the arguments and the count are on the stack. -/
def callMachine : Machine :=
  { Machine.blank callHeap with Prog := 0, Rts := 2, Acc := 3, Ep := 4, Fp := 0, Sp := 2, Sz := 7, Freelist := 13, Ip := 0 }

/-- The bytes of the program of `callHeap`. -/
def callBuf : Nat → Nat := poolOf [OP_APPLY, OP_ENTER, 0, 2, OP_RETURN] 0

/-- The boxes of the arguments of `callMachine`, the first argument
first. -/
def callBoxes : Nat → Int := poolOf [11, 12] 0

/-- The values of the arguments of `callMachine`. -/
def callArgs : Nat → Int := poolOf [9, 7] 0

/-! ## An example of a captured variable -/

/-- The result of a run that has ended without an error. -/
def Outcome.result {α : Type} : Outcome α → Option α
  | Outcome.ok a => some a
  | _ => none

/-- A heap with a program (bytecode cell 0, string cell 1, arena words 2
to 4) whose bytes are `CPARG 0 0; SETARG 0; REF 0 0`, a stack of two slots
(cell 2, arena words 7 and 8) whose slot 0 holds the box of an argument
(cell 4, with the value 6), and a new environment vector of one slot (cell
3, arena word 11). -/
def captHeap : Heap :=
  { nnodes := 8, nvcells := 12, nports := 3,
    Car := poolOf [-10, -17, -19, -19, 6, 0, 0, 0] 0,
    Cdr := poolOf [1, 2, 7, 11, -1, -1, -1, -1] 0,
    Tag := poolOf [1, 8, 8, 8, 0, 0, 0, 0] 0,
    Vectors := poolOf [1, 12, 23, 6912, 7, 2, 8, 4, -1, 3, 4, -1] 0,
    Port_flags := fun _ => 0,
    Obmap := -1 }

/-- The machine at the instruction `CPARG 0 0` of `captHeap`, in a frame
with one argument and with the new environment vector in `Acc`. -/
def captMachine : Machine :=
  { Machine.blank captHeap with Prog := 0, Rts := 2, Acc := 3, Ep := -1, Fp := 0, Sp := 0, Sz := 2, Ip := 0 }

/-- The accumulator after `CPARG 0 0` in the frame, `SETARG 0` of the value
`x` in the frame and `REF 0 0` in a closure whose environment is the new
vector. -/
def captRun (x : Int) : Option Int :=
  ((vmStep 0 captMachine).bind fun M1 =>
    (vmStep 0 { M1 with Acc := x }).bind fun F1 =>
      (vmStep 0 { F1 with Ep := 3 }).bind fun C => Outcome.ok C.Acc).result

/-! ## Operands: `emitarg`, `patch` and `fetcharg` on the emit buffer -/

/-- The macro `fetcharg(a, i)` on the bytes of a buffer:
`(a[i] << 8) | a[i+1]`. -/
def fetcharg (a : Nat → Nat) (i : Nat) : Nat := (a i <<< 8) ||| a (i + 1)

/-- What a function of the code generator leaves: the new state, or the
error it raised with its message, its object and the state at the time of
the call of `error`, or an access outside the buffer. -/
inductive Emitted where
  | ok (s : Emit)
  | error (msg : String) (obj : Int) (s : Emit)
  | fault

/-- The function `emitarg(i)` with the error it raises: the range check
comes first, then `emit(i >> 8); emit(i & 255)`. -/
def emitargE (i : Int) (s : Emit) : Emitted :=
  if i < 0 ∨ i > 65535 then Emitted.error "bytecode argument out of range" i s
  else Emitted.ok (emit (i % 256) (emit (i / 256) s))

/-- The function `patch(a, n)` with the error it raises: the range check
comes first, then the bytes at `a` and `a+1` are set to `n >> 8` and
`n & 255`. -/
def patchE (a n : Int) (s : Emit) : Emitted :=
  if n < 0 ∨ n > 65535 then Emitted.error "bytecode argument out of range" n s
  else if a < 0 then Emitted.fault
  else Emitted.ok { s with buf := upd (upd s.buf a.toNat (n / 256).toNat) (a.toNat + 1) (n % 256).toNat }

/-- The state that is left, if any. -/
def Emitted.toOption : Emitted → Option Emit
  | Emitted.ok s => some s
  | Emitted.error _ _ _ => none
  | Emitted.fault => none

/-- A compiler of sub-expressions that emits for the form `a`, compiled with
the tail flag `t` at the offset `p`, the bytes `code a t p`, whatever they
are: it stands for `compexpr` on the parts of a form, so that the code of
the form shows where the code of each part is placed. -/
def ceAt (code : Sx → Bool → Nat → List Nat) : Sx → Bool → Emit → Option Emit :=
  fun a t s => some (emitAll (code a t s.Here) s)

/-- The code of `(if c a)` (`b` is `none`) and of `(if c a b)` at the offset
`p` as the claim describes it: the code of `c`, the branch with the operand
`L1`, the code of `a`, and with an alternative the jump with the operand
`L2` and the code of `b`; `L1` is the offset after the code of `a` and the
jump, `L2` the offset after the code of `b`. -/
def ifCode (code : Sx → Bool → Nat → List Nat) (c a : Sx) (b : Option Sx) (t star : Bool)
    (p : Nat) : List Nat :=
  let cc := code c false p
  let pa := p + cc.length + 3
  let ca := code a t pa
  let br := if star then OP_BRT else OP_BRF
  match b with
  | none => cc ++ [br, (pa + ca.length) / 256, (pa + ca.length) % 256] ++ ca
  | some b =>
    let pb := pa + ca.length + 3
    let cb := code b t pb
    cc ++ [br, pb / 256, pb % 256] ++ ca ++
      [OP_JMP, (pb + cb.length) / 256, (pb + cb.length) % 256] ++ cb

/-- A two-part code generator state for the examples: nothing emitted, the
values 7 and 9 on `Cts`. -/
def ifEmit : Emit := { buf := fun _ => 0, Here := 0, Cts := [7, 9], nq := 0, ins := [] }

/-- The code of a part in the examples: the cell of the atom (modulo 256),
then the low byte of the offset at which it stands. -/
def posCode : Sx → Bool → Nat → List Nat
  | Sx.atom c, _, p => [c.toNat % 256, p % 256]
  | Sx.cons _ _, _, _ => []

/-! ## Digit strings with a sign and leading zeros -/

/-- The characters `-05`. -/
def minusZeroFive : List Nat := [45, 48, 53]

/-- The characters `-007`. -/
def minusZeroZeroSeven : List Nat := [45, 48, 48, 55]

/-! ## The string comparison primitives -/

/-- What a comparison primitive leaves: its value, the error it raised with
its message and object, or a read outside the pools. -/
inductive Cmp where
  | val (x : Int)
  | error (msg : String) (obj : Int)
  | fault
  deriving DecidableEq

/-- The address that the macro `string(n)` computes, `(byte *)
&Vectors[Cdr[n]]`, where `vbase` is the address of the arena `Vectors`. -/
def Heap.stringAddr (h : Heap) (vbase : Int) (n : Int) : Option Int :=
  (h.cdr n).map fun k => vbase + (sizeof_cell : Int) * k

/-- The loop of `memcmp(a, b, k)` on the bytes at the arena offsets `a` and
`b`, from the byte `i` on: the difference of the first two bytes that
differ, else 0 (C fixes the sign of the result only). -/
def memcmpFrom (h : Heap) (a b : Int) : Nat → Nat → Option Int
  | 0, _ => some 0
  | k + 1, i =>
    match h.bref a i, h.bref b i with
    | some p, some q => if p ≠ q then some ((p : Int) - (q : Int)) else memcmpFrom h a b k (i + 1)
    | _, _ => none

/-- The function `memcmp(a, b, k)`; the `int` length is converted to
`size_t`. -/
def memcmp (h : Heap) (a b : Int) (k : Int) : Option Int := memcmpFrom h a b (toSizeT k) 0

/-- The function `tolower` of C in the "C" locale on an `int`. -/
def tolowerInt (c : Int) : Int := if 65 ≤ c ∧ c ≤ 90 then c + 32 else c

/-- The loop of `memcmp_ci(a, b, k)` from `i` on; `left` is `k - i`.  The bytes are
read through a `char *`. -/
def memcmp_ciFrom (h : Heap) (a b : Int) : Nat → Nat → Option Int
  | 0, _ => some 0
  | left + 1, i =>
    match h.bref a i, h.bref b i with
    | some p, some q =>
      if tolowerInt (schar (p : Nat)) - tolowerInt (schar (q : Nat)) ≠ 0
      then some (tolowerInt (schar (p : Nat)) - tolowerInt (schar (q : Nat)))
      else memcmp_ciFrom h a b left (i + 1)
    | _, _ => none

/-- The function `memcmp_ci(a, b, k)`: no iteration for `k ≤ 0`. -/
def memcmp_ci (h : Heap) (a b : Int) (k : Int) : Option Int := memcmp_ciFrom h a b k.toNat 0

/-- The body shared by `scomp` and `scomp_ci`, with the compare function
`cmp`. -/
def scompWith (cmp : Heap → Int → Int → Int → Option Int) (h : Heap) (x y : Int) : Option Int :=
  match h.stringlen x, h.stringlen y, h.cdr x, h.cdr y with
  | some kx, some ky, some a, some b =>
    if kx = ky then cmp h a b kx else cmp h a b (1 + (if kx < ky then kx else ky))
  | _, _, _, _ => none

/-- The function `scomp(x, y)`. -/
def scomp (h : Heap) (x y : Int) : Option Int := scompWith memcmp h x y

/-- The function `scomp_ci(x, y)`. -/
def scomp_ci (h : Heap) (x y : Int) : Option Int := scompWith memcmp_ci h x y

/-- The body shared by the ten comparison primitives: the tests
`if (!string(x)) expect(who, "string", x)` and the same for `y`, for the
equalities the test of the lengths, then the comparison `rel` of the result
of `comp` with 0. -/
def strPrim (who : String) (comp : Heap → Int → Int → Option Int) (lens : Bool)
    (rel : Int → Bool) (h : Heap) (vbase x y : Int) : Cmp :=
  match h.stringAddr vbase x with
  | none => Cmp.fault
  | some ax =>
    if ax = 0 then Cmp.error (who ++ ": expected string") x
    else
      match h.stringAddr vbase y with
      | none => Cmp.fault
      | some ay =>
        if ay = 0 then Cmp.error (who ++ ": expected string") y
        else
          match h.stringlen x, h.stringlen y with
          | some kx, some ky =>
            if lens && kx != ky then Cmp.val NIL
            else
              match comp h x y with
              | some d => Cmp.val (if rel d then TRUE else NIL)
              | none => Cmp.fault
          | _, _ => Cmp.fault

/-- The function `sless(x, y)`. -/
def sless : Heap → Int → Int → Int → Cmp := strPrim "s<" scomp false (fun d => d < 0)

/-- The function `slteq(x, y)`. -/
def slteq : Heap → Int → Int → Int → Cmp := strPrim "s<=" scomp false (fun d => d ≤ 0)

/-- The function `sequal(x, y)`. -/
def sequal : Heap → Int → Int → Int → Cmp := strPrim "s=" scomp true (fun d => d == 0)

/-- The function `sgrtr(x, y)`. -/
def sgrtr : Heap → Int → Int → Int → Cmp := strPrim "s>" scomp false (fun d => d > 0)

/-- The function `sgteq(x, y)`. -/
def sgteq : Heap → Int → Int → Int → Cmp := strPrim "s>=" scomp false (fun d => d ≥ 0)

/-- The function `siless(x, y)`. -/
def siless : Heap → Int → Int → Int → Cmp := strPrim "si<" scomp_ci false (fun d => d < 0)

/-- The function `silteq(x, y)`. -/
def silteq : Heap → Int → Int → Int → Cmp := strPrim "si<=" scomp_ci false (fun d => d ≤ 0)

/-- The function `siequal(x, y)`. -/
def siequal : Heap → Int → Int → Int → Cmp := strPrim "si=" scomp_ci true (fun d => d == 0)

/-- The function `sigrtr(x, y)`. -/
def sigrtr : Heap → Int → Int → Int → Cmp := strPrim "si>" scomp_ci false (fun d => d > 0)

/-- The function `sigteq(x, y)`. -/
def sigteq : Heap → Int → Int → Int → Cmp := strPrim "si>=" scomp_ci false (fun d => d ≥ 0)

/-- The ten comparison primitives. -/
def strPrims : List (Heap → Int → Int → Int → Cmp) :=
  [sless, slteq, sequal, sgrtr, sgteq, siless, silteq, siequal, sigrtr, sigteq]

/-- The macro `stringp(n)`. -/
def Heap.stringp (h : Heap) (n : Int) : Bool :=
  !specialp n && (match h.tag n, h.car n with
    | some t, some a => tst t VECTOR_TAG && a == T_STRING
    | _, _ => false)

/-- A heap with two strings, a fixnum and a list: cell 0 is the string of
the character `a` (length word 2, bytes 97 0 and two bytes 0 that fill the
word), cell 1 the string of the character `a` and a byte 0 (length word 3,
bytes 97 0 0), cell 2 the fixnum 5 with its value in cell 3, cells 4 and 5
the list of the two strings. -/
def cmpHeap : Heap :=
  { nnodes := 6, nvcells := 6, nports := 3,
    Car := poolOf [T_STRING, T_STRING, T_FIXNUM, 5, 0, 1] 0,
    Cdr := poolOf [2, 5, 3, NIL, 5, NIL] 0,
    Tag := poolOf [VECTOR_TAG, VECTOR_TAG, ATOM_TAG, ATOM_TAG, 0, 0] 0,
    Vectors := poolOf [0, 2, 97, 1, 3, 97] 0,
    Port_flags := fun _ => 0,
    Obmap := -1 }

/-! ## The printer -/

/-- The constant `PRDEPTH`. -/
def PRDEPTH : Int := 1024

/-- The symbols that `prex` compares with. -/
structure QuoteSyms where
  S_quote : Int
  S_qquote : Int
  S_unquote : Int
  S_splice : Int

/-- The state of the printer: the bytes written to the output port, `Plimit`
and `Intr`. -/
structure PrSt where
  out : List Nat
  Plimit : Int
  Intr : Bool
  deriving DecidableEq

/-- What a function of the printer leaves: the new state, the error it
raised with the state at that time, a read outside the pools, or `more`
when the fuel of the model is used up and the function has not returned. -/
inductive PrOut where
  | ok (s : PrSt)
  | error (msg : String) (s : PrSt)
  | fault
  | more
  deriving DecidableEq

/-- Sequencing: the rest runs when the first part has returned. -/
def PrOut.bind (r : PrOut) (f : PrSt → PrOut) : PrOut :=
  match r with
  | PrOut.ok s => f s
  | PrOut.error msg s => PrOut.error msg s
  | PrOut.fault => PrOut.fault
  | PrOut.more => PrOut.more

/-- The function `blockwrite(s, k)` for an output port on which every write
succeeds: nothing is written when `Plimit` is 1, and a `Plimit` other than
0 is lowered by `k`, down to 1. -/
def blockwrite (bs : List Nat) (s : PrSt) : PrSt :=
  if s.Plimit = 1 then s
  else
    { s with
      out := s.out ++ bs
      Plimit := if s.Plimit ≠ 0 then
          (if s.Plimit - (bs.length : Int) < 1 then 1 else s.Plimit - (bs.length : Int))
        else s.Plimit }

/-- The function `prints(s)` for the text `s`. -/
def prints (t : String) (s : PrSt) : PrSt := blockwrite (t.toList.map Char.toNat) s

/-- The function `writec(c)`. -/
def writec (c : Nat) (s : PrSt) : PrSt := blockwrite [c] s

/-- The first `k` bytes at the arena offset `base`. -/
def Heap.bytesAt (h : Heap) (base : Int) (k : Nat) : Option (List Nat) :=
  (List.range k).mapM fun i => h.bref base i

/-- The bytes of the string or symbol `n` in front of its last byte, the
byte 0 that ends it. -/
def Heap.strBytes (h : Heap) (n : Int) : Option (List Nat) :=
  match h.cdr n, h.stringlen n with
  | some base, some k => h.bytesAt base (k - 1).toNat
  | _, _ => none

/-- The text that `ntoa(x, r)` gives is written with `prints`. -/
def printsNum (x r : Int) (s : PrSt) : PrOut :=
  match ntoa x r with
  | some ds => PrOut.ok (blockwrite ds s)
  | none => PrOut.fault

/-- The function `prchar(sl, x)` for a character with the value `c`. -/
def prchar (sl : Bool) (c : Int) (s : PrSt) : PrOut :=
  if sl then
    if c = 9 then PrOut.ok (prints "ht" (prints "#\\" s))
    else if c = 10 then PrOut.ok (prints "nl" (prints "#\\" s))
    else if c = 32 then PrOut.ok (prints "sp" (prints "#\\" s))
    else if c < 32 ∨ c > 126 then printsNum c 8 (prints "\\" (prints "#\\" s))
    else PrOut.ok (writec (ubyte c) (prints "#\\" s))
  else PrOut.ok (writec (ubyte c) s)

/-- The function `prport(out, x)` for the port number `p`. -/
def prport (out : Bool) (p : Int) (s : PrSt) : PrOut :=
  (printsNum p 10 (prints "port " (prints (if out then "out" else "in") (prints "#<" s)))).bind
    fun s1 => PrOut.ok (prints ">" s1)

/-- The function `pruspec(x)`. -/
def pruspec (x : Int) (s : PrSt) : PrOut :=
  (printsNum x 10 (prints "#<special object " s)).bind fun s1 => PrOut.ok (prints ">" s1)

/-- The function `pruatom(x)` for an atom with the car `a`. -/
def pruatom (a : Int) (s : PrSt) : PrOut :=
  (printsNum a 10 (prints "#<atom " s)).bind fun s1 => PrOut.ok (prints ">" s1)

/-- The macro `quoted(x, q)`: `car(x) == q && cdr(x) != NIL && NIL ==
cddr(x)`; `none` is a read outside the pools. -/
def Heap.quoted (h : Heap) (x q : Int) : Option Bool :=
  match h.car x, h.cdr x with
  | some a, some d =>
    if a = q ∧ d ≠ NIL then (h.cdr d).map fun dd => decide (dd = NIL) else some false
  | _, _ => none

/-- The character or text that `prquote` writes in front of the quoted
object. -/
def quoteMark (q : QuoteSyms) (a : Int) (s : PrSt) : PrSt :=
  if a = q.S_quote then writec 39 s
  else if a = q.S_qquote then writec 64 s
  else if a = q.S_unquote then writec 44 s
  else if a = q.S_splice then prints ",@" s
  else s

mutual
/-- The function `prex(sl, x, d)`.  For a special `x` the type tests, which
all start with `!specialp(x)`, fail, so the case of `pruspec` is taken; the
text of a string is written in one block. -/
def prex (q : QuoteSyms) (sl : Bool) (h : Heap) : Nat → Int → Int → PrSt → PrOut
  | 0, _, _, _ => PrOut.more
  | fuel + 1, x, d, s =>
    if d > PRDEPTH then PrOut.error "prin: nesting too deep" (prints "\n" s)
    else if s.Intr then PrOut.error "interrupted" { s with Intr := false }
    else if x = NIL then PrOut.ok (prints "nil" s)
    else if x = TRUE then PrOut.ok (prints "t" s)
    else if x = EOFMARK then PrOut.ok (prints "#<eof>" s)
    else if x = UNDEF then PrOut.ok (prints "#<undef>" s)
    else if specialp x then pruspec x s
    else
      match h.tag x, h.car x with
      | some t, some a =>
        if tst t ATOM_TAG ∧ a = T_CHAR then
          match h.cadr x with
          | some c => prchar sl c s
          | none => PrOut.fault
        else if tst t ATOM_TAG ∧ a = T_FIXNUM then
          match h.cadr x with
          | some v => printsNum v 10 s
          | none => PrOut.fault
        else if tst t VECTOR_TAG ∧ a = T_SYMBOL then
          match h.strBytes x with
          | some bs => PrOut.ok (blockwrite (cstr bs) s)
          | none => PrOut.fault
        else if tst t VECTOR_TAG ∧ a = T_STRING then
          match h.strBytes x with
          | some bs =>
            match prstr sl bs with
            | some text => PrOut.ok (blockwrite text s)
            | none => PrOut.fault
          | none => PrOut.fault
        else if tst t VECTOR_TAG ∧ a = T_VECTOR then
          match h.veclen x with
          | some k => (prvecLoop q sl h fuel x d k 0 (prints "#(" s)).bind
              fun s1 => PrOut.ok (writec 41 s1)
          | none => PrOut.fault
        else if tst t ATOM_TAG ∧ a = T_CLOSURE then PrOut.ok (prints "#<function>" s)
        else if tst t ATOM_TAG ∧ a = T_CATCHTAG then PrOut.ok (prints "#<catch tag>" s)
        else if tst t ATOM_TAG ∧ tst t PORT_TAG ∧ a = T_INPORT then
          match h.cadr x with
          | some p => prport false p s
          | none => PrOut.fault
        else if tst t ATOM_TAG ∧ tst t PORT_TAG ∧ a = T_OUTPORT then
          match h.cadr x with
          | some p => prport true p s
          | none => PrOut.fault
        else if tst t ATOM_TAG ∨ tst t VECTOR_TAG then pruatom a s
        else
          match h.quoted x q.S_quote, h.quoted x q.S_qquote, h.quoted x q.S_unquote,
            h.quoted x q.S_splice with
          | some q1, some q2, some q3, some q4 =>
            if q1 ∨ q2 ∨ q3 ∨ q4 then
              match h.cadr x with
              | some y => prex q sl h fuel y d (quoteMark q a s)
              | none => PrOut.fault
            else (prlistLoop q sl h fuel x d (writec 40 s)).bind fun s1 => PrOut.ok (writec 41 s1)
          | _, _, _, _ => PrOut.fault
      | _, _ => PrOut.fault
/-- The loop of `prlist(sl, x, d)`. -/
def prlistLoop (q : QuoteSyms) (sl : Bool) (h : Heap) : Nat → Int → Int → PrSt → PrOut
  | 0, _, _, _ => PrOut.more
  | fuel + 1, x, d, s =>
    if x ≠ NIL ∧ s.Plimit ≠ 1 then
      match h.car x, h.cdr x with
      | some a, some x1 =>
        (prex q sl h fuel a (d + 1) s).bind fun s1 =>
          if x1 ≠ NIL then
            match h.atomp x1 with
            | some true => prex q sl h fuel x1 (d + 1) (prints ". " (writec 32 s1))
            | some false => prlistLoop q sl h fuel x1 d (writec 32 s1)
            | none => PrOut.fault
          else prlistLoop q sl h fuel x1 d s1
      | _, _ => PrOut.fault
    else PrOut.ok s
/-- The loop of `prvec(sl, x, d)` from the slot `i` on, for a vector of `k`
slots. -/
def prvecLoop (q : QuoteSyms) (sl : Bool) (h : Heap) : Nat → Int → Int → Nat → Nat → PrSt → PrOut
  | 0, _, _, _, _, _ => PrOut.more
  | fuel + 1, x, d, k, i, s =>
    if i < k then
      match (h.cdr x).bind fun base => h.vref (base + (i : Int)) with
      | some y =>
        (prex q sl h fuel y (d + 1) s).bind fun s1 =>
          prvecLoop q sl h fuel x d k (i + 1) (if i + 1 < k then writec 32 s1 else s1)
      | none => PrOut.fault
    else PrOut.ok s
end

/-- The function `xprint(sl, x)`. -/
def xprint (q : QuoteSyms) (sl : Bool) (h : Heap) (fuel : Nat) (x : Int) (s : PrSt) : PrOut :=
  (prex q sl h fuel x 0 s).bind fun s1 =>
    if s1.Plimit = 1 then PrOut.ok (prints "..." { s1 with Plimit := 0 }) else PrOut.ok s1

/-- The function `prin(x)`. -/
def prin (q : QuoteSyms) (h : Heap) (fuel : Nat) (x : Int) (s : PrSt) : PrOut :=
  xprint q true h fuel x s

/-- A heap with four cyclic objects: cell 0 is a circular list, the pair
`(nil . #0)` whose cdr is the pair itself; cell 1 is the list of the symbol
`quote` and of cell 1 itself (cells 1 and 2); cell 3 is the pair whose car
is the pair itself; cell 4 is a vector of one slot that holds the vector
itself. -/
def printHeap : Heap :=
  { nnodes := 5, nvcells := 3, nports := 3,
    Car := poolOf [NIL, 5, 1, 3, T_VECTOR] 0,
    Cdr := poolOf [0, 2, NIL, NIL, 2] 0,
    Tag := poolOf [0, 0, 0, 0, VECTOR_TAG] 0,
    Vectors := poolOf [4, 4, 4] 0,
    Port_flags := fun _ => 0,
    Obmap := -1 }

/-- The symbols `quote`, `qquote`, `unquote` and `splice` for `printHeap`:
the cells 5 to 8, whose names are not stored. -/
def printSyms : QuoteSyms := { S_quote := 5, S_qquote := 6, S_unquote := 7, S_splice := 8 }

/-- The state of the printer at the call of `prin`: nothing written, no
limit on the output, no interrupt. -/
def printStart : PrSt := { out := [], Plimit := 0, Intr := false }

/-- The bytes written, when the function has returned. -/
def PrOut.written : PrOut → Option (List Nat)
  | PrOut.ok s => some s.out
  | _ => none

/-- The state of the printer in `report`, which sets `Plimit` to 100. -/
def printLimited : PrSt := { out := [], Plimit := 100, Intr := false }

/-! ## The literal pool of the compiler -/

/-- The call `memset(s, b, k)` on the bytes at the arena offset `base`. -/
def fillBytes (base : Int) (b : Nat) : Nat → Heap → Option Heap
  | 0, h => some h
  | k + 1, h =>
    match fillBytes base b k h with
    | none => none
    | some h1 => h1.bset base k b

/-- The call `memcpy(dst, src, k)` on bytes of the arena. -/
def copyBytes (src dst : Int) : Nat → Heap → Option Heap
  | 0, h => some h
  | k + 1, h =>
    match copyBytes src dst k h with
    | none => none
    | some h1 =>
      match h1.bref src k with
      | none => none
      | some b => h1.bset dst k b

/-- The call `memcpy(dst, src, k * sizeof(cell))` on words of the arena. -/
def copyWords (src dst : Int) : Nat → Heap → Option Heap
  | 0, h => some h
  | k + 1, h =>
    match copyWords src dst k h with
    | none => none
    | some h1 =>
      match h1.vref (src + (k : Int)) with
      | none => none
      | some x => h1.vset (dst + (k : Int)) x

/-- The call `mkstr(NULL, k)`: a new string of `k` bytes 0 and the byte 0
that ends it. -/
def mkstrNull (fuel : Nat) (M : Machine) (k : Int) : Outcome (Machine × Int) :=
  if k = 0 then Outcome.ok (M, M.Nullstr)
  else
    (newvec fuel M T_STRING (k + 1)).bind fun r =>
      match r.1.heap.cdr r.2 with
      | none => Outcome.fault
      | some off =>
        match fillBytes off 0 (toSizeT (k + 1)) r.1.heap with
        | none => Outcome.fault
        | some h => Outcome.ok ({ r.1 with heap := h }, r.2)

/-- The interpreter state together with the variable `Obptr` of the literal
pool. -/
structure Pool where
  M : Machine
  Obptr : Int

/-- What the scan of `obslot` leaves: the slot found, with the pools in
which it is marked `OBALLOC`, or the value of `Obptr` after the scan, or a
read outside the pools. -/
inductive Scan where
  | found (h : Heap) (p : Int)
  | missed (p : Int)
  | fault

/-- The loop `for (i=0; i<k; i++)` of `obslot` with `cnt` iterations left;
`m` is the arena offset of the literal map. -/
def obscan (k : Int) (m : Int) : Nat → Heap → Int → Scan
  | 0, _, p => Scan.missed p
  | cnt + 1, h, p =>
    if p < 0 then Scan.fault
    else
      match h.bref m p.toNat with
      | none => Scan.fault
      | some b =>
        if b = OBFREE then
          match h.bset m p.toNat OBALLOC with
          | some h1 => Scan.found h1 p
          | none => Scan.fault
        else obscan k m cnt h (if p + 1 ≥ k then 0 else p + 1)

/-- One turn of the loop over `j` in `obslot` up to the call of `gc`: `k`
and `s` are read and the map is scanned.  The result holds the slot, if one
was found, and `k`. -/
def obround (P : Pool) : Outcome (Pool × Option Int × Int) :=
  match P.M.heap.veclen P.M.Obarray, P.M.heap.cdr P.M.heap.Obmap with
  | some k, some m =>
    match obscan (k : Int) m k P.M.heap P.Obptr with
    | Scan.found h p => Outcome.ok ({ M := { P.M with heap := h }, Obptr := p }, some p, (k : Int))
    | Scan.missed p => Outcome.ok ({ P with Obptr := p }, none, (k : Int))
    | Scan.fault => Outcome.fault
  | _, _ => Outcome.fault

/-- The two turns of the loop over `j` in `obslot`, with the call of `gc`
after the first. -/
def obrounds (fuel : Nat) (P : Pool) : Outcome (Pool × Option Int × Int) :=
  (obround P).bind fun r =>
    match r.2.1 with
    | some i => Outcome.ok (r.1, some i, r.2.2)
    | none =>
      match gc fuel r.1.M with
      | none => Outcome.fault
      | some (M1, _) => obround { r.1 with M := M1 }

/-- The growth of the literal pool in `obslot` by `CHUNKSIZE` slots. -/
def obgrow (fuel : Nat) (P : Pool) (k : Int) : Outcome Pool :=
  (mkvec fuel P.M (k + (CHUNKSIZE : Int))).bind fun r =>
    match r.1.heap.cdr r.2, r.1.heap.cdr r.1.Obarray with
    | some vn, some vo =>
      match copyWords vo vn k.toNat r.1.heap with
      | none => Outcome.fault
      | some h1 =>
        (mkstrNull fuel { r.1 with heap := h1, Obarray := r.2 } (k + (CHUNKSIZE : Int))).bind fun q =>
          match q.1.heap.cdr q.2, q.1.heap.cdr q.1.heap.Obmap with
          | some sn, some so =>
            match fillBytes sn OBFREE (toSizeT (k + (CHUNKSIZE : Int))) q.1.heap with
            | none => Outcome.fault
            | some h2 =>
              match copyBytes so sn (toSizeT k) h2 with
              | none => Outcome.fault
              | some h3 => Outcome.ok { P with M := { q.1 with heap := { h3 with Obmap := q.2 } } }
          | _, _ => Outcome.fault
    | _, _ => Outcome.fault

/-- The function `obslot()`: the new state and the slot. -/
def obslot (fuel : Nat) (P : Pool) : Outcome (Pool × Int) :=
  (obrounds fuel P).bind fun r =>
    match r.2.1 with
    | some i => Outcome.ok (r.1, i)
    | none =>
      if r.2.2 + (CHUNKSIZE : Int) ≥ 64 * 1024 then Outcome.error "out of object space" r.1.M
      else
        (obgrow fuel r.1 r.2.2).bind fun P1 =>
          (obrounds fuel P1).bind fun r1 =>
            match r1.2.1 with
            | some i => Outcome.ok (r1.1, i)
            | none =>
              if r1.2.2 + (CHUNKSIZE : Int) ≥ 64 * 1024 then
                Outcome.error "out of object space" r1.1.M
              else
                (obgrow fuel r1.1 r1.2.2).bind fun P2 =>
                  Outcome.error "out of object space" P2.M

/-- The macro `vectorp(n)`. -/
def Heap.vectorp (h : Heap) (n : Int) : Option Bool :=
  if specialp n then some false
  else
    match h.tag n, h.car n with
    | some t, some a => some (tst t VECTOR_TAG && decide (a = T_VECTOR))
    | _, _ => none

/-- The test `pairp(x) || vectorp(x) || closurep(x)` of `obindex`. -/
def Heap.mutableLit (h : Heap) (x : Int) : Option Bool :=
  match h.pairp x, h.vectorp x, h.closurep x with
  | some a, some b, some c => some (a || b || c)
  | _, _, _ => none

/-- The functions of the hash table and the function `match` that
`obindex` calls; they are parameters of the model.  `htlookup` gives the
entry or `UNDEF`. -/
structure HtOps where
  htlookup : Machine → Int → Int → Outcome Int
  htrem : Machine → Int → Int → Outcome Machine
  htadd : Nat → Machine → Int → Int → Int → Outcome Machine
  matchp : Machine → Int → Int → Outcome Bool

/-- The end of `obindex` for a literal that has no slot yet:
`i = obslot(); htadd(Obhash, x, mkfix(i)); return i`. -/
def obindexNew (ops : HtOps) (fuel : Nat) (P : Pool) (x : Int) : Outcome (Pool × Int) :=
  (obslot fuel P).bind fun r =>
    (mkfix fuel r.1.M r.2).bind fun v =>
      (ops.htadd fuel v.1 v.1.Obhash x v.2).bind fun M1 =>
        Outcome.ok ({ r.1 with M := M1 }, r.2)

/-- The function `obindex(x)`. -/
def obindex (ops : HtOps) (fuel : Nat) (P : Pool) (x : Int) : Outcome (Pool × Int) :=
  match P.M.heap.mutableLit x with
  | none => Outcome.fault
  | some true => obslot fuel P
  | some false =>
    (ops.htlookup P.M P.M.Obhash x).bind fun n =>
      if n ≠ UNDEF then
        match (P.M.heap.cdr n).bind P.M.heap.fixval, P.M.heap.cdr P.M.heap.Obmap,
          P.M.heap.cdr P.M.Obarray with
        | some i, some m, some a =>
          if i < 0 then Outcome.fault
          else
            match P.M.heap.bref m i.toNat, P.M.heap.vref (a + i) with
            | some b, some y =>
              if b ≠ OBFREE then
                (ops.matchp P.M x y).bind fun eq =>
                  if eq then Outcome.ok (P, i)
                  else (ops.htrem P.M P.M.Obhash x).bind fun M1 =>
                    obindexNew ops fuel { P with M := M1 } x
              else (ops.htrem P.M P.M.Obhash x).bind fun M1 =>
                obindexNew ops fuel { P with M := M1 } x
            | _, _ => Outcome.fault
        | _, _, _ => Outcome.fault
      else obindexNew ops fuel P x

/-- The statement `vector(Obarray)[i] = x` of `emitq`. -/
def setLiteral (M : Machine) (i x : Int) : Option Machine :=
  match M.heap.cdr M.Obarray with
  | some a => (M.heap.vset (a + i) x).map fun h => { M with heap := h }
  | none => none

/-- The state of the slot `i` of the literal pool: the byte of the map and
the object. -/
def Machine.slot (M : Machine) (i : Nat) : Option (Nat × Int) :=
  match M.heap.cdr M.heap.Obmap, M.heap.cdr M.Obarray with
  | some m, some a =>
    match M.heap.bref m i, M.heap.vref (a + (i : Int)) with
    | some b, some x => some (b, x)
    | _, _ => none
  | _, _ => none

/-- A heap in the middle of a compilation: the literal vector with one slot
(cell 0, arena words 2), the literal map (cell 1, one byte and the byte 0
after it, arena word 5) with the slot free, the fixnum 7 (cells 2 and 3)
and the pair `(nil)` (cell 4), which are the literals of the program to be
compiled and are held by the list in `Protected` (cells 5 and 6), the emit
buffer (cells 7 and 8, four bytes 0 at arena word 8), and the cells 9 and
10, which are not in use and not on the free list. -/
def poolHeap : Heap :=
  { nnodes := 11, nvcells := 9, nports := 3,
    Car := poolOf [T_VECTOR, T_STRING, T_FIXNUM, 7, NIL, 2, 4, T_BYTECODE, T_STRING, NIL, NIL] 0,
    Cdr := poolOf [2, 5, 3, NIL, NIL, 6, NIL, 8, 8, NIL, NIL] 0,
    Tag := poolOf [VECTOR_TAG, VECTOR_TAG, ATOM_TAG, ATOM_TAG, 0, 0, 0, ATOM_TAG, VECTOR_TAG, 0, 0] 0,
    Vectors := poolOf [0, 4, NIL, 1, 2, 0, 8, 4, 0] 0,
    Port_flags := fun _ => 0,
    Obmap := 1 }

/-- The state at the call `obindex(x)` for the fixnum of cell 2: the free
list is empty. -/
def poolStart : Pool :=
  { M := { Machine.blank poolHeap with Obarray := 0, Protected := 5, Emitbuf := 7, Freevec := 9 },
    Obptr := 0 }

/-- The state after the call of `obslot` in `obindex(x)`. -/
def poolGiven : Pool :=
  match obslot 50 poolStart with
  | Outcome.ok r => r.1
  | _ => poolStart

/-- The state and the fixnum after the call `mkfix(i)` for the slot 0 that
`obslot` returned. -/
def poolFixed : Machine × Int :=
  match mkfix 50 poolGiven.M 0 with
  | Outcome.ok r => r
  | _ => (poolGiven.M, NIL)

/-- The state after `obindex(x)` has returned the slot 0 and `emitq` has
stored the fixnum of cell 2 in it. -/
def poolStored : Pool :=
  { M := (setLiteral poolFixed.1 0 2).getD poolFixed.1, Obptr := poolGiven.Obptr }

/-- The slot returned, `Obptr` and the state of the slot 0 after a call of
`obslot` or `obindex`. -/
def slotGiven : Outcome (Pool × Int) → Option (Int × Int × Option (Nat × Int))
  | Outcome.ok r => some (r.2, r.1.Obptr, r.1.M.slot 0)
  | _ => none

/-! ## A literal pool for the last loop of `gc` -/

/-- A heap with a literal pool of two slots: the literal vector (cell 0,
arena words 2 and 3) holds the pairs of cell 5 and of cell 6, the literal
map (cell 1, arena word 6) has both slots `OBALLOC`, and the program (the
bytecode atom of cell 2 with the string of cell 3, arena word 9) is
`QUOTE 0` followed by a byte 0; cell 4 is not in use. -/
def sweepHeap : Heap :=
  { nnodes := 7, nvcells := 10, nports := 3,
    Car := poolOf [T_VECTOR, T_STRING, T_BYTECODE, T_STRING, NIL, NIL, NIL] 0,
    Cdr := poolOf [2, 6, 3, 9, NIL, NIL, NIL] 0,
    Tag := poolOf [VECTOR_TAG, VECTOR_TAG, ATOM_TAG, VECTOR_TAG, 0, 0, 0] 0,
    Vectors := poolOf [0, 8, 5, 6, 1, 3, 257, 3, 4, 5] 0,
    Port_flags := fun _ => 0,
    Obmap := 1 }

/-- A state with the pools `sweepHeap`, the program of cell 2 and no
stack. -/
def sweepMachine : Machine :=
  { Machine.blank sweepHeap with Obarray := 0, Prog := 2, Freevec := 10 }

/-- The saved stack length and the heap that the marker sees when `gc` runs
on `sweepMachine`. -/
def sweepPrep : Int × Heap := (gcPrep sweepMachine).getD (0, sweepHeap)

/-! ## The closure converter with the global environment

The list `Env` of the names of the global variables is threaded through the
conversion: `newvar` puts a name at its end, in place, so that the list
that `clsconv` hands to `cconv` as `e` grows while the form is converted.
Lists of symbols are Lean lists of the cells of their elements, and the
fixnum cells that `mkfix` allocates are given by a function, as in
`cconv`. -/

/-- The argument `e` of the converter: the list `Env` itself, or the list
of the free variables of a function. -/
inductive EnvArg where
  | glob
  | loc (l : List Int)

/-- The elements of `e` when `Env` holds `env`. -/
def EnvArg.list : EnvArg → List Int → List Int
  | EnvArg.glob, env => env
  | EnvArg.loc l, _ => l

/-- Result of a conversion: the converted form and `Env`, an error raised
with its message and its object, or a read outside a pair. -/
inductive ConvS where
  | val (x : Sx) (env : List Int)
  | error (msg : String) (obj : Sx)
  | fault

/-- The function `newvar(x)` for a symbol `x`. -/
def newvar (x : Int) (env : List Int) : List Int :=
  if env.contains x then env else env ++ [x]

/-- The function `newvars(x)`. -/
def newvars : List Int → List Int → List Int
  | [], env => env
  | x :: r, env => newvars r (newvar x env)

/-- An element of the map that `initmap` builds: `(%a j i v)` when `arg` is
set, else `(%e j i v)`. -/
structure MapEntry where
  arg : Bool
  src : Int
  dst : Int
  name : Int

/-- The element of the map as a form. -/
def MapEntry.form (sy : Syms) (mkfix : Int → Int) (p : MapEntry) : Sx :=
  Sx.ofList [Sx.atom (if p.arg then sy.I_a else sy.I_e), Sx.atom (mkfix p.src),
    Sx.atom (mkfix p.dst), Sx.atom p.name]

/-- The loop of `initmap(fv, e, a)` from the index `i` on: the map, or the
undefined symbol. -/
def initmapLoop (e a : List Int) : List Int → Int → Except Int (List MapEntry)
  | [], _ => Except.ok []
  | v :: fv, i =>
    if posq v a ≠ NIL then
      (initmapLoop e a fv (i + 1)).map fun m =>
        { arg := true, src := posq v a, dst := i, name := v } :: m
    else if posq v e ≠ NIL then
      (initmapLoop e a fv (i + 1)).map fun m =>
        { arg := false, src := posq v e, dst := i, name := v } :: m
    else Except.error v

/-- The function `initmap(fv, e, a)`. -/
def initmap (fv e a : List Int) : Except Int (List MapEntry) := initmapLoop e a fv 0

/-- The function `liftnames(m)`. -/
def liftnames (m : List MapEntry) : List Int := (m.filter fun p => p.arg).map fun p => p.name

/-- The function `liftargs(m)`. -/
def liftargs (sy : Syms) (mkfix : Int → Int) (m : List MapEntry) : List Sx :=
  (m.filter fun p => p.arg).map fun p =>
    Sx.cons (Sx.atom sy.I_arg) (Sx.cons (Sx.atom (mkfix p.src)) (Sx.atom NIL))

/-- The list `l` in front of the form `b`, as `conc` and `nconc` give it. -/
def Sx.prepend : List Sx → Sx → Sx
  | [], b => b
  | x :: r, b => Sx.cons x (Sx.prepend r b)

/-- The function `mapconv(x, e, a)` over the converter `cc` of the
elements. -/
def mapconvS (cc : Sx → EnvArg → List Int → List Int → ConvS) :
    Sx → EnvArg → List Int → List Int → ConvS
  | Sx.atom _, _, _, env => ConvS.val (Sx.atom NIL) env
  | Sx.cons x r, e, a, env =>
    match cc x e a env with
    | ConvS.val n env1 =>
      (match mapconvS cc r e a env1 with
       | ConvS.val m env2 => ConvS.val (Sx.cons n m) env2
       | o => o)
    | o => o

/-- The function `lamconv(x, e, a)`. -/
def lamconvS (sy : Syms) (symp : Int → Bool) (mkfix : Int → Int)
    (cc : Sx → EnvArg → List Int → List Int → ConvS)
    (x : Sx) (e : EnvArg) (a env : List Int) : ConvS :=
  match freevars sy symp x [], x with
  | some fv, Sx.cons _ (Sx.cons formals body) =>
    match (flatargs formals).cells with
    | none => ConvS.fault
    | some args =>
      match initmap fv (e.list (newvars fv env)) a with
      | Except.error v => ConvS.error "undefined symbol" (Sx.atom v)
      | Except.ok m =>
        match mapconvS cc body (EnvArg.loc fv) args (newvars fv env) with
        | ConvS.val cl env1 =>
          ConvS.val (Sx.cons (Sx.atom sy.I_closure) (Sx.cons formals
            (Sx.cons (Sx.ofList (m.map (MapEntry.form sy mkfix))) cl))) env1
        | o => o
  | _, _ => ConvS.fault

/-- The function `appconv(x, e, a)`. -/
def appconvS (sy : Syms) (symp : Int → Bool) (mkfix : Int → Int)
    (cc : Sx → EnvArg → List Int → List Int → ConvS)
    (x : Sx) (e : EnvArg) (a env : List Int) : ConvS :=
  match x with
  | Sx.cons (Sx.cons fh (Sx.cons formals body)) as =>
    match freevars sy symp (Sx.cons fh (Sx.cons formals body)) [], (flatargs formals).cells with
    | some fv, some fnargs =>
      match initmap fv (e.list (newvars fv env)) a with
      | Except.error v => ConvS.error "undefined symbol" (Sx.atom v)
      | Except.ok m =>
        match mapconvS cc as e a (newvars fv env) with
        | ConvS.val as1 env1 =>
          (match mapconvS cc body e (set_union (liftnames m) fnargs) env1 with
           | ConvS.val fn env2 =>
             ConvS.val
               (Sx.cons
                 (Sx.cons (Sx.atom sy.I_closure)
                   (Sx.cons (Sx.prepend ((liftnames m).map Sx.atom) formals)
                     (Sx.cons (Sx.atom NIL) fn)))
                 (Sx.prepend (liftargs sy mkfix m) as1)) env2
           | o => o)
        | o => o
    | _, _ => ConvS.fault
  | _ => ConvS.fault

/-- The function `defconv(x, e, a)` for a definition of a symbol. -/
def defconvS (sy : Syms) (mkfix : Int → Int)
    (cc : Sx → EnvArg → List Int → List Int → ConvS)
    (x : Sx) (e : EnvArg) (a env : List Int) : ConvS :=
  match x with
  | Sx.cons _ (Sx.cons (Sx.atom v) (Sx.cons b _)) =>
    match cc b e a (newvar v env) with
    | ConvS.val n env1 =>
      ConvS.val (Sx.cons (Sx.atom sy.S_setq)
        (Sx.cons
          (Sx.ofList [Sx.atom sy.I_ref, Sx.atom (mkfix (posq v (e.list env1))), Sx.atom v])
          (Sx.cons n (Sx.atom NIL)))) env1
    | o => o
  | _ => ConvS.fault

/-- The function `cconv(x, e, a)` over the converter `cc` of the parts of
a form and the function `app` that converts an application of a `lambda`
form that is liftable.  The lists `a` and `e` hold symbols, so `posq` is
tried for an atom only. -/
def cconvStep (sy : Syms) (symp : Int → Bool) (mkfix : Int → Int)
    (app cc : Sx → EnvArg → List Int → List Int → ConvS)
    (x : Sx) (e : EnvArg) (a env : List Int) : ConvS :=
  match x with
  | Sx.cons h d =>
    if h.is sy.S_apply || h.is sy.S_if || h.is sy.S_ifstar || h.is sy.S_prog ||
        h.is sy.S_setq || h.subrHead sy then
      match mapconvS cc d e a env with
      | ConvS.val m env1 => ConvS.val (Sx.cons h m) env1
      | o => o
    else if h.is sy.S_quote then ConvS.val x env
    else if h.liftHead sy then app x e a env
    else if h.is sy.S_lambda then lamconvS sy symp mkfix cc x e a env
    else if h.is sy.S_def then defconvS sy mkfix cc x e a env
    else if h.is sy.S_macro then
      match d with
      | Sx.cons n r =>
        (match mapconvS cc r e a env with
         | ConvS.val m env1 => ConvS.val (Sx.cons h (Sx.cons n m)) env1
         | o => o)
      | Sx.atom _ => ConvS.fault
    else mapconvS cc x e a env
  | Sx.atom c =>
    if posq c a ≠ NIL then
      ConvS.val (Sx.ofList [Sx.atom sy.I_arg, Sx.atom (mkfix (posq c a))]) env
    else if posq c (e.list env) ≠ NIL then
      ConvS.val (Sx.ofList [Sx.atom sy.I_ref, Sx.atom (mkfix (posq c (e.list env))), x]) env
    else if symp c then ConvS.error "undefined symbol" x
    else ConvS.val x env

/-- The function `cconv(x, e, a)`; `fuel` bounds the depth of the form. -/
def cconvS (sy : Syms) (symp : Int → Bool) (mkfix : Int → Int) :
    Nat → Sx → EnvArg → List Int → List Int → ConvS
  | 0 => fun _ _ _ _ => ConvS.fault
  | fuel + 1 =>
    cconvStep sy symp mkfix (appconvS sy symp mkfix (cconvS sy symp mkfix fuel))
      (cconvS sy symp mkfix fuel)

/-- The conversion without lifting, which the claim compares with: an
application of a `lambda` form is converted as any other application, the
function by `lamconv`. -/
def cconvPlain (sy : Syms) (symp : Int → Bool) (mkfix : Int → Int) :
    Nat → Sx → EnvArg → List Int → List Int → ConvS
  | 0 => fun _ _ _ _ => ConvS.fault
  | fuel + 1 =>
    cconvStep sy symp mkfix (mapconvS (cconvPlain sy symp mkfix fuel))
      (cconvPlain sy symp mkfix fuel)

/-- A binding of `Glob`: the cell of the pair `(name . box)`, the name, the
cell of the box and the value in the box. -/
structure Binding where
  cell : Int
  name : Int
  box : Int
  value : Int
  deriving DecidableEq

/-- The function `carof(a)`. -/
def carof : List Binding → List Int
  | [] => []
  | b :: r => b.name :: carof r

/-- The function `zipenv(vs, oe)`; the cells of the `k`-th new binding and
of its box are `alloc k`. -/
def zipenv (alloc : Nat → Int × Int) : List Int → List Binding → Nat → List Binding
  | [], _, _ => []
  | v :: vs, [], k =>
    { cell := (alloc k).1, name := v, box := (alloc k).2, value := UNDEF } ::
      zipenv alloc vs [] (k + 1)
  | _ :: vs, b :: oe, k => b :: zipenv alloc vs oe k

/-- The function `clsconv(x)`: the result of `cconv` and `Glob` after the
call; when `cconv` does not return, `Glob` is not assigned. -/
def clsconv (sy : Syms) (symp : Int → Bool) (mkfix : Int → Int) (alloc : Nat → Int × Int)
    (fuel : Nat) (x : Sx) (glob : List Binding) : ConvS × List Binding :=
  match cconvS sy symp mkfix fuel x EnvArg.glob []
      (if carof glob = [] then [UNDEF] else carof glob) with
  | ConvS.val n env => (ConvS.val n env, zipenv alloc env glob 0)
  | o => (o, glob)

/-- The cells of the bindings that `zipenv` makes in the examples. -/
def sampleAlloc (k : Nat) : Int × Int := (9000 + 2 * (k : Int), 9001 + 2 * (k : Int))

/-- The form `(lambda () (setq v (- v)))`, with `v` in the cell 5003: a
function that assigns to `v`. -/
def setterForm : Sx :=
  Sx.ofList [Sx.atom sampleSyms.S_lambda, Sx.atom NIL,
    Sx.ofList [Sx.atom sampleSyms.S_setq, Sx.atom 5003,
      Sx.ofList [Sx.atom sampleSyms.P_minus, Sx.atom 5003]]]

/-- The form `(lambda (f) (f) v)`, with `f` in the cell 5002: it calls its
argument and then reads `v`; its text has no `setq`. -/
def liftFn : Sx :=
  Sx.ofList [Sx.atom sampleSyms.S_lambda, Sx.ofList [Sx.atom 5002],
    Sx.ofList [Sx.atom 5002], Sx.atom 5003]

/-- The application `((lambda (f) (f) v) (lambda () (setq v (- v))))`. -/
def liftInner : Sx := Sx.ofList [liftFn, setterForm]

/-- The form `((lambda (v) ((lambda (f) (f) v) (lambda () (setq v (- v))))) 1)`,
the fixnum 1 in the cell 4. -/
def liftForm : Sx :=
  Sx.ofList [Sx.ofList [Sx.atom sampleSyms.S_lambda, Sx.ofList [Sx.atom 5003], liftInner],
    Sx.atom 4]

/-- The converted `setterForm` inside the function of `v`:
`(%closure () ((%a 0 0 v)) (setq (%ref 0 v) (- (%ref 0 v))))`; the fixnum
`i` is the cell `sampleFix i`. -/
def setterClosure : Sx :=
  Sx.ofList [Sx.atom sampleSyms.I_closure, Sx.atom NIL,
    Sx.ofList [Sx.ofList [Sx.atom sampleSyms.I_a, Sx.atom (sampleFix 0),
      Sx.atom (sampleFix 0), Sx.atom 5003]],
    Sx.ofList [Sx.atom sampleSyms.S_setq,
      Sx.ofList [Sx.atom sampleSyms.I_ref, Sx.atom (sampleFix 0), Sx.atom 5003],
      Sx.ofList [Sx.atom sampleSyms.P_minus,
        Sx.ofList [Sx.atom sampleSyms.I_ref, Sx.atom (sampleFix 0), Sx.atom 5003]]]]

/-- The lifted `liftInner`:
`((%closure (v f) () ((%arg 1)) (%arg 0)) (%arg 0) setterClosure)`. -/
def liftedInner : Sx :=
  Sx.ofList
    [Sx.ofList [Sx.atom sampleSyms.I_closure, Sx.ofList [Sx.atom 5003, Sx.atom 5002],
      Sx.atom NIL,
      Sx.ofList [Sx.ofList [Sx.atom sampleSyms.I_arg, Sx.atom (sampleFix 1)]],
      Sx.ofList [Sx.atom sampleSyms.I_arg, Sx.atom (sampleFix 0)]],
     Sx.ofList [Sx.atom sampleSyms.I_arg, Sx.atom (sampleFix 0)],
     setterClosure]

/-- The form `liftInner` converted without lifting:
`((%closure (f) ((%a 0 0 v)) ((%arg 0)) (%ref 0 v)) setterClosure)`. -/
def plainInner : Sx :=
  Sx.ofList
    [Sx.ofList [Sx.atom sampleSyms.I_closure, Sx.ofList [Sx.atom 5002],
      Sx.ofList [Sx.ofList [Sx.atom sampleSyms.I_a, Sx.atom (sampleFix 0),
        Sx.atom (sampleFix 0), Sx.atom 5003]],
      Sx.ofList [Sx.ofList [Sx.atom sampleSyms.I_arg, Sx.atom (sampleFix 0)]],
      Sx.ofList [Sx.atom sampleSyms.I_ref, Sx.atom (sampleFix 0), Sx.atom 5003]],
     setterClosure]

/-- The converted function of `v` around a converted body, applied to the
fixnum 1: `((%closure (v) () body) 1)`. -/
def outerCall (body : Sx) : Sx :=
  Sx.ofList [Sx.ofList [Sx.atom sampleSyms.I_closure, Sx.ofList [Sx.atom 5003],
    Sx.atom NIL, body], Sx.atom 4]

/-- The form that a conversion returns, `NIL` if it does not return. -/
def ConvS.form : ConvS → Sx
  | ConvS.val x _ => x
  | _ => Sx.atom NIL

/-- The conversion of `liftForm` by `cconv`, with `Env` holding `UNDEF`
only, as `clsconv` sets it up when `Glob` is empty. -/
def liftedForm : Sx := (cconvS sampleSyms symCell sampleFix 9 liftForm EnvArg.glob [] [UNDEF]).form

/-- The conversion of `liftForm` without lifting. -/
def plainForm : Sx := (cconvPlain sampleSyms symCell sampleFix 9 liftForm EnvArg.glob [] [UNDEF]).form

/-- A compiler environment for the converted forms: the fixnum cells are
those of `sampleFix`, the `k`-th literal gets the index `k` of the literal
pool, every symbol has the index 0 in the symbol table. -/
def liftEnv : CEnv :=
  { sy := sampleSyms
    fixval := fun x => match x with
      | Sx.atom c => c - 7000
      | Sx.cons _ _ => 0
    symix := fun _ => some 0
    obindex := fun k => (k : Int) }

/-- The bytes of the program that `compile` returns for the form `x`: the
emitted bytes and a final 0. -/
def progBytes (x : Sx) : List Nat :=
  match compile liftEnv 20 x with
  | some s => (List.range (s.Here + 1)).map (subprog s)
  | none => []

/-- The bytes `bs` as words of the arena, four bytes to a word, the first
byte in the low bits. -/
def packWords : Nat → List Nat → List Int
  | 0, _ => []
  | fuel + 1, bs =>
    match bs with
    | [] => []
    | _ => wordOfNat (bs.getD 0 0 + 256 * bs.getD 1 0 + 65536 * bs.getD 2 0 +
        16777216 * bs.getD 3 0) :: packWords fuel (bs.drop 4)

/-- A heap with the program of the bytes `code` (cells 0 and 1), the
literal pool of one slot that holds the fixnum 1 (cell 2; the fixnum in the
cells 4 and 5), a stack of 16 slots (cell 3), and the free list of the
cells 6 to 99. -/
def runHeap (code : List Nat) : Heap :=
  let ws := packWords code.length code
  let w := ws.length
  { nnodes := 100, nvcells := w + 200, nports := 3,
    Car := fun i => if i < 6 then poolOf [T_BYTECODE, T_STRING, T_VECTOR, T_VECTOR, T_FIXNUM, 1] 0 i
      else 0,
    Cdr := fun i => if i < 6 then
        poolOf [1, 2, (w : Int) + 4, (w : Int) + 7, 5, NIL] 0 i
      else if i < 99 then (i : Int) + 1 else NIL,
    Tag := fun i => if i < 6 then
        poolOf [ATOM_TAG, VECTOR_TAG, VECTOR_TAG, VECTOR_TAG, ATOM_TAG, ATOM_TAG] 0 i
      else 0,
    Vectors := poolOf ([1, (code.length : Int)] ++ ws ++ [2, 4, 4] ++ [3, 64] ++
      List.replicate 16 NIL) 0,
    Port_flags := fun _ => 0,
    Obmap := NIL }

/-- The state at the start of `run` for the program of the bytes `code`. -/
def runMachine (code : List Nat) : Machine :=
  { Machine.blank (runHeap code) with
    Prog := 0, Obarray := 2, Rts := 3, Sp := -1, Sz := 16, Freelist := 6,
    Freevec := (packWords code.length code).length + 23, Ip := 0 }

/-- The instruction at `Ip`, whether `Acc` is a fixnum, and its value, after `k`
turns of the loop of `run`. -/
def runResult (code : List Nat) (k : Nat) : Option (Option Nat × Option Bool × Option Int) :=
  (vmRun 50 k (runMachine code)).result.map fun M =>
    (M.ins, M.heap.fixp M.Acc, M.heap.fixval M.Acc)

/-- The number of literals that `compile` asks a slot for in the form `x`. -/
def progLiterals (x : Sx) : Option Nat := (compile liftEnv 20 x).map fun s => s.nq

/-! ## Example forms with a dotted `quote` form in program position -/

/-- The dotted list `(quote a . b)` with the symbols `a` (cell 5002) and
`b` (cell 5003): a form whose head is `quote` and whose end is not `NIL`. -/
def quoteDotted : Sx :=
  Sx.cons (Sx.atom sampleSyms.S_quote) (Sx.cons (Sx.atom 5002) (Sx.atom 5003))

/-- The form `(apply f (quote a . b))`, `f` in the cell 5000. -/
def dotQuoteInApply : Sx :=
  Sx.ofList [Sx.atom sampleSyms.S_apply, Sx.atom 5000, quoteDotted]

/-- The form `(if f (quote a . b))`. -/
def dotQuoteInIf : Sx :=
  Sx.ofList [Sx.atom sampleSyms.S_if, Sx.atom 5000, quoteDotted]

/-! ## Liveness in the state before a collection -/

/-- The references that count from the cell `c` in the state `M`: those of `Heap.succs` in the pools of `M`, except for the stack `Rts`, of which only the slots in use, 0 to `Sp`, count. -/
def Machine.liveSuccs (M : Machine) (c : Nat) : List Int :=
  if (c : Int) = M.Rts then (List.range (1 + M.Sp).toNat).map (M.heap.slot c)
  else M.heap.succs c

/-- The cell `d` is referenced from the cell `c` in the state `M`. -/
def Machine.LiveEdge (M : Machine) (c d : Nat) : Prop := (d : Int) ∈ M.liveSuccs c

/-- The cell `c` is live in the state `M`: there is a chain of references
from one of the roots `GC_roots` to `c`.  The definition reads the pools of
`M` and the registers `Rts` and `Sp`, nothing that the collector computes. -/
def Machine.Live (M : Machine) (c : Nat) : Prop :=
  ∃ r ∈ M.roots, ∃ n : Nat, r = (n : Int) ∧ Relation.ReflTransGen M.LiveEdge n c

/-- The stack of `M` is fit for the narrowing in `gc`: there is none, or it
is a `T_VECTOR` and the length `(1 + Sp) * sizeof(cell)` of its used part
is an `int`. -/
def Machine.stackFit (M : Machine) : Prop :=
  M.Rts = NIL ∨ (M.heap.Car M.Rts.toNat = T_VECTOR ∧ -1 ≤ M.Sp ∧ M.Sp < 2 ^ 29)

instance (M : Machine) : Decidable M.stackFit := by
  unfold Machine.stackFit; infer_instance

/-- A heap with a stack of capacity 2 whose second slot is stale: cell 0 is
the `T_VECTOR` object of the stack, its block is `[0, 4)` with the slots 1
and 2; the cells 1 and 2 are pairs `(NIL . NIL)`; cell 3 is unused. -/
def staleHeap : Heap :=
  { nnodes := 4, nvcells := 6, nports := 3,
    Car := poolOf [-19, -1, -1, 0] 0,
    Cdr := poolOf [2, -1, -1, 0] 0,
    Tag := poolOf [8, 0, 0, 0] 0,
    Vectors := poolOf [0, 8, 1, 2, 0, 0] 0,
    Port_flags := fun _ => 0,
    Obmap := -1 }

/-- A state on `staleHeap` with one value on the stack (`Sp = 0`): the
slot 1 of the stack still refers to the pair in cell 2, which nothing else
refers to. -/
def staleMachine : Machine :=
  { Machine.blank staleHeap with Rts := 0, Sp := 0, Freevec := 4 }

/-- The saved stack length and the heap that the marker sees when `gc` runs
on `staleMachine`. -/
def stalePrep : Int × Heap := (gcPrep staleMachine).getD (0, staleHeap)

/-- The heap `vecHeap` with a stale second slot of the stack: it refers to
the string in cell 3, which nothing else refers to. -/
def staleVecHeap : Heap :=
  { vecHeap with Vectors := poolOf [0, 8, 2, 3, 3, 3, 7, 1, 4, 9] 0 }

/-- A state on `staleVecHeap`: the stack holds one value (`Sp = 0`) and the
accumulator refers to the string in cell 1. -/
def staleVecMachine : Machine :=
  { Machine.blank staleVecHeap with Rts := 0, Sp := 0, Acc := 1, Freevec := 10 }

/-- The saved stack length and the heap that the marker sees when `gcv`
runs `gc` on `staleVecMachine`. -/
def staleVecPrep : Int × Heap :=
  (gcPrep (staleVecMachine.unmarked [0, 4, 7])).getD (0, staleVecHeap)

/-! ## Errors that a handler catches inside `run`, and `interpret` -/

/-- The instruction `OP_CONS`: `Acc = cons(Acc, arg(0)); clear(1)`. -/
def opCons (fuel : Nat) (M : Machine) : Outcome Machine :=
  match M.arg 0 with
  | none => Outcome.fault
  | some a =>
    (consM fuel M M.Acc a).bind fun r =>
      Outcome.ok { r.1 with Acc := r.2, Sp := r.1.Sp - 1, Ip := r.1.Ip + ISIZE0 }

/-- The function `mkctag()`: the catch tag `(Ip+2 Sp Fp Ep . Prog)`. -/
def mkctag (fuel : Nat) (M : Machine) : Outcome (Machine × Int) :=
  (consM fuel M M.Ep M.Prog).bind fun r1 =>
  (mkfix fuel { r1.1 with Tmp := r1.2 } r1.1.Fp).bind fun f =>
  (consM fuel f.1 f.2 r1.2).bind fun r2 =>
  (mkfix fuel { r2.1 with Tmp := r2.2 } r2.1.Sp).bind fun s =>
  (consM fuel s.1 s.2 r2.2).bind fun r3 =>
  (mkfix fuel { r3.1 with Tmp := r3.2 } (r3.1.Ip + 2)).bind fun i =>
  (consM fuel i.1 i.2 r3.2).bind fun r4 =>
  mkatom fuel { r4.1 with Tmp := NIL } T_CATCHTAG r4.2

/-- The instruction `OP_CATCHSTAR`: `push(box(mkctag())); push(mkfix(1))`. -/
def opCatchstar (fuel : Nat) (M : Machine) : Outcome Machine :=
  (mkctag fuel M).bind fun t =>
  (consM fuel t.1 t.2 NIL).bind fun b =>
  (push fuel b.1 b.2).bind fun M1 =>
  (mkfix fuel M1 1).bind fun o =>
  (push fuel o.1 o.2).bind fun M2 =>
  Outcome.ok { M2 with Ip := M2.Ip + ISIZE0 }

/-- The inner loop of `lconc`, `for (q = car(p); q != NIL; q = cdr(q))`:
`n` is the last cell of the new list and `k` the number of the elements
stored; the first argument bounds the iterations.  A `q` that is no pair
ends in `expect("conc", "list", car(p))`, with the state at that point. -/
def lconcInner (fuel : Nat) : Nat → Machine → Int → Int → Nat → Outcome (Machine × Int × Nat)
  | 0, _, _, _, _ => Outcome.fault
  | g + 1, M, q, n, k =>
    if q = NIL then Outcome.ok (M, n, k)
    else
      match M.heap.pairp q with
      | none => Outcome.fault
      | some false => Outcome.error "conc: expected list" M
      | some true =>
        (if k ≠ 0 then
          (consM fuel M NIL NIL).bind fun r =>
            match r.1.heap.setCdr n r.2 with
            | none => Outcome.fault
            | some h => Outcome.ofOption ((h.cdr n).map fun n1 => ({ r.1 with heap := h }, n1))
         else Outcome.ok (M, n)).bind fun s =>
        match s.1.heap.car q with
        | none => Outcome.fault
        | some a =>
          match s.1.heap.setCar s.2 a with
          | none => Outcome.fault
          | some h =>
            match h.cdr q with
            | none => Outcome.fault
            | some q1 => lconcInner fuel g { s.1 with heap := h } q1 s.2 (k + 1)

/-- The outer loop of `lconc`, `for (p = x; cdr(p) != NIL; p = cdr(p))`;
returns the state, `p`, `n` and `k` at its end.  The first argument bounds
the iterations. -/
def lconcOuter (fuel : Nat) : Nat → Machine → Int → Int → Nat →
    Outcome (Machine × Int × Int × Nat)
  | 0, _, _, _, _ => Outcome.fault
  | g + 1, M, p, n, k =>
    match M.heap.cdr p with
    | none => Outcome.fault
    | some d =>
      if d = NIL then Outcome.ok (M, p, n, k)
      else
        match M.heap.car p with
        | none => Outcome.fault
        | some a =>
          if a = NIL then lconcOuter fuel g M d n k
          else
            (lconcInner fuel fuel M a n k).bind fun r =>
              match r.1.heap.cdr p with
              | none => Outcome.fault
              | some d1 => lconcOuter fuel g r.1 d1 r.2.1 r.2.2

/-- The function `lconc(x)`. -/
def lconc (fuel : Nat) (M : Machine) (x : Int) : Outcome (Machine × Int) :=
  match M.heap.cdr x with
  | none => Outcome.fault
  | some d =>
    if d = NIL then Outcome.ofOption ((M.heap.car x).map fun a => (M, a))
    else
      (consM fuel M NIL NIL).bind fun c =>
      (protect fuel c.1 c.2).bind fun M1 =>
      (lconcOuter fuel fuel M1 x c.2 0).bind fun r =>
      (unprot1 r.1).bind fun u =>
        match u.1.heap.car r.2.1 with
        | none => Outcome.fault
        | some a =>
          if r.2.2.2 = 0 then Outcome.ok (u.1, a)
          else
            match u.1.heap.setCdr r.2.2.1 a with
            | none => Outcome.fault
            | some h => Outcome.ok ({ u.1 with heap := h }, u.2)

/-- The instruction `OP_CONC`: `Acc = lconc(Acc)`. -/
def opConc (fuel : Nat) (M : Machine) : Outcome Machine :=
  (lconc fuel M M.Acc).bind fun r =>
    Outcome.ok { r.1 with Acc := r.2, Ip := r.1.Ip + ISIZE0 }

/-- One turn of the loop of `run` for an instruction other than `OP_HALT`:
the instructions of `vmStep` and `OP_CATCHSTAR`, `OP_CONS`, `OP_CONC`. -/
def vmStepX (fuel : Nat) (M : Machine) : Outcome Machine :=
  match M.ins with
  | none => Outcome.fault
  | some op =>
    if op = OP_CATCHSTAR then opCatchstar fuel M
    else if op = OP_CONS then opCons fuel M
    else if op = OP_CONC then opConc fuel M
    else vmStep fuel M

/-- The function `assq(x, a)` on the cells of the heap; the first argument
bounds the length of the list. -/
def assqH (h : Heap) (x : Int) : Nat → Int → Option Int
  | 0, a => if a = NIL then some NIL else none
  | g + 1, a =>
    if a = NIL then some NIL
    else
      match h.car a with
      | none => none
      | some b =>
        match h.car b, h.cdr a with
        | some n, some d => if n = x then some b else assqH h x g d
        | _, _ => none

/-- The call `memcpy(string(n), s, k)` for the bytes `bs` of `s`. -/
def writeBytes (base : Int) : List Nat → Nat → Heap → Option Heap
  | [], _, h => some h
  | b :: bs, i, h =>
    match h.bset base i b with
    | none => none
    | some h1 => writeBytes base bs (i + 1) h1

/-- The call `mkstr(s, strlen(s))` for the bytes `bs` of `s`. -/
def mkstrOf (fuel : Nat) (M : Machine) (bs : List Nat) : Outcome (Machine × Int) :=
  if bs.length = 0 then Outcome.ok (M, M.Nullstr)
  else
    (newvec fuel M T_STRING ((bs.length : Int) + 1)).bind fun r =>
      match r.1.heap.cdr r.2 with
      | none => Outcome.fault
      | some off =>
        match writeBytes off bs 0 r.1.heap with
        | none => Outcome.fault
        | some h =>
          match h.bset off bs.length 0 with
          | none => Outcome.fault
          | some h1 => Outcome.ok ({ r.1 with heap := h1 }, r.2)

/-- Where `error` goes: to `setjmp(Errtag)` in `run` with the state and
the register `Handler`, or, after the report, to `setjmp(Restart)`; or a
read outside the pools. -/
inductive ErrJump where
  | errtag (M : Machine) (handler : Int)
  | restart (msg : String) (M : Machine)
  | fault

/-- The function `error(s, x)` on the state at the call; the object `x` is
used by the report only.  An error that `mkstr` raises inside `error` leads
to the same call of `mkstr` again, without end; it is a fault here. -/
def errorH (es : ErrSyms) (fuel : Nat) (M : Machine) (s : String) : ErrJump :=
  match assqH M.heap es.S_errtag fuel M.Glob with
  | none => ErrJump.fault
  | some n =>
    match (if n = NIL then some NIL else M.heap.cadr n) with
    | none => ErrJump.fault
    | some handler =>
      if handler ≠ NIL then
        match assqH M.heap es.S_errval fuel M.Glob with
        | none => ErrJump.fault
        | some v =>
          if v = NIL then ErrJump.errtag M handler
          else
            match M.heap.cadr v with
            | none => ErrJump.fault
            | some w =>
              if w = handler then
                match mkstrOf fuel M (s.toList.map Char.toNat) with
                | Outcome.ok r =>
                  (match assqH r.1.heap es.S_errval fuel r.1.Glob with
                   | none => ErrJump.fault
                   | some b =>
                     if b = NIL then ErrJump.errtag r.1 handler
                     else
                       match (r.1.heap.cdr b).bind fun d => r.1.heap.setCar d r.2 with
                       | none => ErrJump.fault
                       | some h => ErrJump.errtag { r.1 with heap := h } handler)
                | Outcome.error _ _ => ErrJump.fault
                | Outcome.fault => ErrJump.fault
              else ErrJump.errtag M handler
      else ErrJump.restart s M

/-- The macro `ctagp(n)`. -/
def Heap.ctagp (h : Heap) (n : Int) : Option Bool :=
  if specialp n then some false
  else
    match h.tag n, h.car n with
    | some t, some a => some (tst t ATOM_TAG && decide (a = T_CATCHTAG))
    | _, _ => none

/-- The function `throw(ct, v)` with the assignment `Ip = throw(...)`. -/
def throwH (M : Machine) (ct v : Int) : Outcome Machine :=
  match M.heap.ctagp ct with
  | none => Outcome.fault
  | some false => Outcome.error "throw: expected catch tag" M
  | some true =>
    Outcome.ofOption do
      let c1 ← M.heap.cdr ct
      let ip ← (M.heap.car c1).bind M.heap.fixval
      let c2 ← M.heap.cdr c1
      let sp ← (M.heap.car c2).bind M.heap.fixval
      let c3 ← M.heap.cdr c2
      let fp ← (M.heap.car c3).bind M.heap.fixval
      let c4 ← M.heap.cdr c3
      let ep ← M.heap.car c4
      let c5 ← M.heap.cdr c4
      pure { M with Ip := ip, Sp := sp, Fp := fp, Ep := ep, Prog := c5, Acc := v }

/-- The function `throwerr(ct)` with the assignment `Ip = throwerr(Handler)`
of `run`. -/
def throwerrH (es : ErrSyms) (fuel : Nat) (M : Machine) (ct : Int) : Outcome Machine :=
  match assqH M.heap es.S_errval fuel M.Glob with
  | none => Outcome.fault
  | some n =>
    match (if n = NIL then some NIL else M.heap.cadr n) with
    | none => Outcome.fault
    | some v => throwH M ct v

/-- The loop of `run` with the landing of `longjmp(Errtag, 1)`: on a state
the loop returns at `OP_HALT` and else does one turn; on an error `error`
runs on the state at the call and, when it has found a handler, the loop
goes on after `Ip = throwerr(Handler)`; when it has found none the run ends
with the message (the jump to `Restart`).  The first argument bounds the
number of turns and landings.  The variable `Run` stays 1: no interrupt. -/
def runFrom (es : ErrSyms) (fuel : Nat) : Nat → Outcome Machine → Outcome Machine
  | 0, _ => Outcome.fault
  | _ + 1, Outcome.fault => Outcome.fault
  | k + 1, Outcome.error msg Me =>
    match errorH es fuel Me msg with
    | ErrJump.errtag M1 handler => runFrom es fuel k (throwerrH es fuel M1 handler)
    | ErrJump.restart m M1 => Outcome.error m M1
    | ErrJump.fault => Outcome.fault
  | k + 1, Outcome.ok M =>
    match M.ins with
    | none => Outcome.fault
    | some op =>
      if op = OP_HALT then Outcome.ok M
      else runFrom es fuel k (vmStepX fuel M)

/-- The function `run(x)`. -/
def run (es : ErrSyms) (fuel steps : Nat) (M : Machine) (x : Int) : Outcome Machine :=
  runFrom es fuel steps (Outcome.ok { M with Acc := NIL, Prog := x, Ip := 0 })

/-- The function `length(n)`; the first argument bounds the length. -/
def lengthH (h : Heap) : Nat → Int → Option Nat
  | 0, n => if n = NIL then some 0 else none
  | g + 1, n =>
    if n = NIL then some 0
    else
      match h.cdr n with
      | none => none
      | some d => (lengthH h g d).map (· + 1)

/-- The loop of `interpret` that stores the boxes of `Glob` in `E0`, from
the binding `n` and the index `i` on. -/
def fillE0 : Nat → Machine → Int → Int → Option Machine
  | 0, M, n, _ => if n = NIL then some M else none
  | g + 1, M, n, i =>
    if n = NIL then some M
    else
      match (M.heap.car n).bind M.heap.cdr, M.heap.cdr M.E0, M.heap.cdr n with
      | some b, some off, some d =>
        match M.heap.vset (off + i) b with
        | none => none
        | some h => fillE0 g { M with heap := h } d (i + 1)
      | _, _, _ => none

/-- The function `interpret(x)`. -/
def interpret (es : ErrSyms) (fuel steps : Nat) (M : Machine) (x : Int) :
    Outcome (Machine × Int) :=
  match lengthH M.heap fuel M.Glob with
  | none => Outcome.fault
  | some len =>
    (mkvec fuel M (len : Int)).bind fun r =>
      match fillE0 fuel { r.1 with E0 := r.2 } r.1.Glob 0 with
      | none => Outcome.fault
      | some M2 =>
        (run es fuel steps { M2 with Ep := M2.E0 } x).bind fun M3 => Outcome.ok (M3, M3.Acc)

/-! ## A nested evaluation in which a handler catches an error -/

/-- The form `(catch* (lambda (k) (setq *errtag* k) (conc k k)))`, with
`k` in the cell 5003 and `*errtag*` in the cell 1200: the function makes
its catch tag the error handler and then calls `conc` on the tag, which is
no list. -/
def leakForm : Sx :=
  Sx.ofList [Sx.atom sampleSyms.P_catchstar,
    Sx.ofList [Sx.atom sampleSyms.S_lambda, Sx.ofList [Sx.atom 5003],
      Sx.ofList [Sx.atom sampleSyms.S_setq, Sx.atom sampleErrSyms.S_errtag, Sx.atom 5003],
      Sx.ofList [Sx.atom sampleSyms.P_conc, Sx.atom 5003, Sx.atom 5003]]]

/-- The form `(catch* (lambda (k) (setq *errtag* k) (conc)))`: the same
function with a call of `conc` that raises no error. -/
def calmForm : Sx :=
  Sx.ofList [Sx.atom sampleSyms.P_catchstar,
    Sx.ofList [Sx.atom sampleSyms.S_lambda, Sx.ofList [Sx.atom 5003],
      Sx.ofList [Sx.atom sampleSyms.S_setq, Sx.atom sampleErrSyms.S_errtag, Sx.atom 5003],
      Sx.ofList [Sx.atom sampleSyms.P_conc]]]

/-- The global environment after the start of the interpreter, cut down to
`*errval*` and `*errtag*`, both bound to `NIL`: the bindings in the cells 6
and 8 with the boxes 7 and 9. -/
def leakGlob : List Binding :=
  [{ cell := 6, name := sampleErrSyms.S_errval, box := 7, value := NIL },
   { cell := 8, name := sampleErrSyms.S_errtag, box := 9, value := NIL }]

/-- The form that `clsconv` returns for the form `x` in `leakGlob`, `NIL`
if it does not return. -/
def leakConv (x : Sx) : Sx :=
  (clsconv sampleSyms symCell sampleFix sampleAlloc 9 x leakGlob).1.form

/-- The bytes of the program that `compile` returns for the converted form
`x`, and the number of the literals it asks a slot for. -/
def leakProg (x : Sx) : List Nat × Option Nat := (progBytes (leakConv x), progLiterals (leakConv x))

/-- The blocks `bs` of the arena in a row, each with the backlink to its
owner, its size word and its payload. -/
def arenaOf : List (Int × Int × List Int) → List Int
  | [] => []
  | b :: bs => b.1 :: b.2.1 :: (b.2.2 ++ arenaOf bs)

/-- The payload offset of the block `k` of `bs`. -/
def offsetOf : List (Int × Int × List Int) → Nat → Int
  | [], _ => 2
  | _ :: _, 0 => 2
  | b :: bs, k + 1 => 2 + (b.2.2.length : Int) + offsetOf bs k

/-- The block of a string with the bytes `bs`, owned by the cell `c`; the
size word counts the byte 0 that ends the string. -/
def strBlock (c : Int) (bs : List Nat) : Int × Int × List Int :=
  (c, (bs.length : Int) + 1, packWords (bs.length + 1) (bs ++ [0]))

/-- The pairs of the form `x` laid out in consecutive cells from `base` on,
each as its `car` and `cdr`, and the reference to `x`: a pair comes first,
then the pairs of its `car`, then those of its `cdr`. -/
def cellsOf : Sx → Nat → List (Int × Int) × Int
  | Sx.atom c, _ => ([], c)
  | Sx.cons a d, base =>
    let ra := cellsOf a (base + 1)
    let rd := cellsOf d (base + 1 + ra.1.length)
    ((ra.2, rd.2) :: (ra.1 ++ rd.1), (base : Int))

/-- The form in the cell `c` of a heap; the first argument bounds its
depth. -/
def Heap.sxAt (h : Heap) : Nat → Int → Option Sx
  | 0, _ => none
  | g + 1, c =>
    match h.pairp c with
    | none => none
    | some false => some (Sx.atom c)
    | some true =>
      match (h.car c).bind (h.sxAt g), (h.cdr c).bind (h.sxAt g) with
      | some a, some d => some (Sx.cons a d)
      | _, _ => none

/-- The symbols of the forms and their names: `lambda`, `setq`, `catch*`,
`conc`, `*errtag*`, `*errval*` and `k`. -/
def evalSymbols : List (Nat × List Nat) :=
  [(1009, [108, 97, 109, 98, 100, 97]), (1013, [115, 101, 116, 113]),
   (1029, [99, 97, 116, 99, 104, 42]), (1120, [99, 111, 110, 99]),
   (1200, [42, 101, 114, 114, 116, 97, 103, 42]),
   (1201, [42, 101, 114, 114, 118, 97, 108, 42]), (5003, [107])]

/-- The blocks of the arena of `evalHeap`: the program with the bytes
`code` (cell 1), the literal pool with the one slot `NIL` (cell 2), the
stack of 16 slots (cell 3), the program of the caller (cell 11), its
environment with the boxes 7 and 9 (cell 12), and the names of the
symbols. -/
def evalBlocks (code : List Nat) : List (Int × Int × List Int) :=
  [(1, (code.length : Int), packWords code.length code),
   (2, 4, [NIL]),
   (3, 64, List.replicate 16 NIL),
   (11, 12, [0, 0, (OP_HALT : Int) * 16777216]),
   (12, 8, [7, 9])] ++ evalSymbols.map fun s => strBlock (s.1 : Int) s.2

/-- The index of the cell `i` in `evalSymbols`, 7 if it is none of them. -/
def symIndex (i : Nat) : Nat := (evalSymbols.map Prod.fst).indexOf i

/-- A heap for the nested evaluation of the form `x`, whose program has the
bytes `code`.  Cell 0 is the program, cell 2 the literal pool, cell 3 the
stack; the cells 4 to 9 are `Glob`, the list of the bindings `(*errval*
NIL)` and `(*errtag* NIL)`; cell 10 is the program of the caller and cell
12 its environment; the form `x` lies in the cells from 13 on, and the
cells after it, up to 199, are free; the cells of `evalSymbols` are
symbols. -/
def evalHeap (x : Sx) (code : List Nat) : Heap :=
  let form := (cellsOf x 13).1
  { nnodes := 5004, nvcells := 400, nports := 3,
    Car := fun i =>
      if i < 13 then poolOf [T_BYTECODE, T_STRING, T_VECTOR, T_VECTOR, 6, 8,
        sampleErrSyms.S_errval, NIL, sampleErrSyms.S_errtag, NIL,
        T_BYTECODE, T_STRING, T_VECTOR] 0 i
      else if i < 13 + form.length then (form.getD (i - 13) (0, 0)).1
      else if symIndex i < 7 then T_SYMBOL else 0,
    Cdr := fun i =>
      if i < 13 then
        poolOf [1, offsetOf (evalBlocks code) 0, offsetOf (evalBlocks code) 1,
          offsetOf (evalBlocks code) 2, 5, NIL, 7, NIL, 9, NIL,
          11, offsetOf (evalBlocks code) 3, offsetOf (evalBlocks code) 4] 0 i
      else if i < 13 + form.length then (form.getD (i - 13) (0, 0)).2
      else if i < 199 then (i : Int) + 1
      else if symIndex i < 7 then offsetOf (evalBlocks code) (5 + symIndex i)
      else NIL,
    Tag := fun i =>
      if i < 13 then poolOf [ATOM_TAG, VECTOR_TAG, VECTOR_TAG, VECTOR_TAG, 0, 0, 0, 0, 0, 0,
        ATOM_TAG, VECTOR_TAG, VECTOR_TAG] 0 i
      else if symIndex i < 7 then VECTOR_TAG else 0,
    Vectors := poolOf (arenaOf (evalBlocks code)) 0,
    Port_flags := fun _ => 0,
    Obmap := NIL }

/-- The state of a caller in the middle of its program (cell 10, at the
byte 7, with four values on the stack) that is about to call `eval(x, 1)`
for the form `x` in cell 13. -/
def evalMachine (x : Sx) (code : List Nat) : Machine :=
  { Machine.blank (evalHeap x code) with
    Prog := 10, Ep := 12, E0 := 12, Glob := 4, Obarray := 2, Rts := 3,
    Ip := 7, Sp := 3, Fp := 1, Sz := 16, Freelist := 13 + (cellsOf x 13).1.length,
    Freevec := (arenaOf (evalBlocks code)).length }

/-- The stages of `eval` on `evalHeap`: `interpret` is the function of the
source; `expand`, `syncheck` and `clsconv` hand on the state and the form,
and `compile` returns the program in cell 0, whose bytes are those that
the compiler gives for the converted form. -/
def evalStagesOn : Stages :=
  { expand := fun M y => Outcome.ok (M, y),
    syncheck := fun M _ => Outcome.ok M,
    clsconv := fun M y => Outcome.ok (M, y),
    compile := fun M _ => Outcome.ok (M, 0),
    interpret := interpret sampleErrSyms 50 100 }

/-- The registers `Prog`, `Ep`, `Ip`, `Sp`, `Fp` and `Protected` of a
state. -/
def Machine.regs (M : Machine) : List Int :=
  [M.Prog, M.Ep, M.Ip, M.Sp, M.Fp, M.Protected]

/-- The value that `eval(x, 1)` returns for the form `x` in cell 13 of
`evalMachine`, whose program is the one that the compiler gives for the
converted form, followed by the registers at its return. -/
def evalOn (x : Sx) : Option (List Int) :=
  (eval 50 evalStagesOn (evalMachine x (leakProg x).1) 13 true).result.map
    fun r => r.2 :: r.1.regs

/-- The number of the entries of `Protected` at the call of `interpret`
inside `eval(x, 1)` on `evalMachine` and at its return. -/
def protDepths (x : Sx) : Option (Nat × Nat) :=
  match evalEnter 50 (evalMachine x (leakProg x).1) 13 true with
  | Outcome.ok M2 =>
    match interpret sampleErrSyms 50 100 M2 0 with
    | Outcome.ok r =>
      (match lengthH M2.heap 20 M2.Protected, lengthH r.1.heap 20 r.1.Protected with
       | some a, some b => some (a, b)
       | _, _ => none)
    | _ => none
  | _ => none

/-! ## Basic facts: pools, tags -/

@[simp] theorem upd_same {α : Type} (f : Nat → α) (i : Nat) (v : α) : upd f i v i = v := by
  simp [upd]

@[simp] theorem upd_ne {α : Type} (f : Nat → α) {i j : Nat} (v : α) (h : j ≠ i) :
    upd f i v j = f j := by
  simp [upd, h]

theorem upd_apply {α : Type} (f : Nat → α) (i j : Nat) (v : α) :
    upd f i v j = if j = i then v else f j := rfl

theorem tst_two_pow (t k : Nat) : tst t (2 ^ k) = t.testBit k := by
  unfold tst
  cases hb : t.testBit k
  · have : t &&& 2 ^ k = 0 := by
      apply Nat.eq_of_testBit_eq
      intro i
      rw [Nat.testBit_and, Nat.zero_testBit, Nat.testBit_two_pow]
      by_cases hki : k = i
      · subst hki; simp [hb]
      · simp [hki]
    simp [this]
  · have : (t &&& 2 ^ k).testBit k = true := by
      rw [Nat.testBit_and, Nat.testBit_two_pow_self, hb]; rfl
    have hne : t &&& 2 ^ k ≠ 0 := by
      intro h0; rw [h0, Nat.zero_testBit] at this; exact Bool.noConfusion this
    simpa using hne

theorem tst_1 (t : Nat) : tst t 1 = t.testBit 0 := tst_two_pow t 0
theorem tst_2 (t : Nat) : tst t 2 = t.testBit 1 := tst_two_pow t 1
theorem tst_4 (t : Nat) : tst t 4 = t.testBit 2 := tst_two_pow t 2
theorem tst_8 (t : Nat) : tst t 8 = t.testBit 3 := tst_two_pow t 3

theorem bit_consts :
    (Nat.testBit 2 0 = false ∧ Nat.testBit 2 1 = true ∧ Nat.testBit 2 2 = false ∧
      Nat.testBit 2 3 = false) ∧
    (Nat.testBit 4 0 = false ∧ Nat.testBit 4 1 = false ∧ Nat.testBit 4 2 = true ∧
      Nat.testBit 4 3 = false) ∧
    (Nat.testBit 251 0 = true ∧ Nat.testBit 251 1 = true ∧ Nat.testBit 251 2 = false ∧
      Nat.testBit 251 3 = true) ∧
    (Nat.testBit 253 0 = true ∧ Nat.testBit 253 1 = false ∧ Nat.testBit 253 2 = true ∧
      Nat.testBit 253 3 = true) := by
  decide

theorem tst_ops (t : Nat) (k : Nat) (hk : k = 1 ∨ k = 2 ∨ k = 4 ∨ k = 8) :
    (tst (t ||| 2) k = (tst t k || decide (k = 2))) ∧
    (tst (t ||| 4) k = (tst t k || decide (k = 4))) ∧
    (tst (clrTrav t) k = (tst t k && !decide (k = 4))) ∧
    (tst (clrMark t) k = (tst t k && !decide (k = 2))) := by
  obtain ⟨⟨a0, a1, a2, a3⟩, ⟨b0, b1, b2, b3⟩, ⟨c0, c1, c2, c3⟩, ⟨d0, d1, d2, d3⟩⟩ :=
    bit_consts
  rcases hk with rfl | rfl | rfl | rfl <;>
  simp [tst_1, tst_2, tst_4, tst_8, clrTrav, clrMark, a0, a1, a2, a3, b0, b1, b2, b3,
    c0, c1, c2, c3, d0, d1, d2, d3]

@[simp] theorem tst_orM_M (t : Nat) : tst (t ||| MARK_TAG) MARK_TAG = true := by
  simpa [MARK_TAG] using (tst_ops t 2 (by decide)).1
@[simp] theorem tst_orM_A (t : Nat) : tst (t ||| MARK_TAG) ATOM_TAG = tst t ATOM_TAG := by
  simpa [MARK_TAG, ATOM_TAG] using (tst_ops t 1 (by decide)).1
@[simp] theorem tst_orM_T (t : Nat) : tst (t ||| MARK_TAG) TRAV_TAG = tst t TRAV_TAG := by
  simpa [MARK_TAG, TRAV_TAG] using (tst_ops t 4 (by decide)).1
@[simp] theorem tst_orM_V (t : Nat) : tst (t ||| MARK_TAG) VECTOR_TAG = tst t VECTOR_TAG := by
  simpa [MARK_TAG, VECTOR_TAG] using (tst_ops t 8 (by decide)).1

@[simp] theorem tst_orT_T (t : Nat) : tst (t ||| TRAV_TAG) TRAV_TAG = true := by
  simpa [TRAV_TAG] using (tst_ops t 4 (by decide)).2.1
@[simp] theorem tst_orT_A (t : Nat) : tst (t ||| TRAV_TAG) ATOM_TAG = tst t ATOM_TAG := by
  simpa [TRAV_TAG, ATOM_TAG] using (tst_ops t 1 (by decide)).2.1
@[simp] theorem tst_orT_M (t : Nat) : tst (t ||| TRAV_TAG) MARK_TAG = tst t MARK_TAG := by
  simpa [MARK_TAG, TRAV_TAG] using (tst_ops t 2 (by decide)).2.1
@[simp] theorem tst_orT_V (t : Nat) : tst (t ||| TRAV_TAG) VECTOR_TAG = tst t VECTOR_TAG := by
  simpa [TRAV_TAG, VECTOR_TAG] using (tst_ops t 8 (by decide)).2.1

@[simp] theorem tst_clrT_T (t : Nat) : tst (clrTrav t) TRAV_TAG = false := by
  simpa [TRAV_TAG] using (tst_ops t 4 (by decide)).2.2.1
@[simp] theorem tst_clrT_A (t : Nat) : tst (clrTrav t) ATOM_TAG = tst t ATOM_TAG := by
  simpa [ATOM_TAG] using (tst_ops t 1 (by decide)).2.2.1
@[simp] theorem tst_clrT_M (t : Nat) : tst (clrTrav t) MARK_TAG = tst t MARK_TAG := by
  simpa [MARK_TAG] using (tst_ops t 2 (by decide)).2.2.1
@[simp] theorem tst_clrT_V (t : Nat) : tst (clrTrav t) VECTOR_TAG = tst t VECTOR_TAG := by
  simpa [VECTOR_TAG] using (tst_ops t 8 (by decide)).2.2.1

@[simp] theorem tst_clrM_M (t : Nat) : tst (clrMark t) MARK_TAG = false := by
  simpa [MARK_TAG] using (tst_ops t 2 (by decide)).2.2.2
@[simp] theorem tst_clrM_A (t : Nat) : tst (clrMark t) ATOM_TAG = tst t ATOM_TAG := by
  simpa [ATOM_TAG] using (tst_ops t 1 (by decide)).2.2.2
@[simp] theorem tst_clrM_T (t : Nat) : tst (clrMark t) TRAV_TAG = tst t TRAV_TAG := by
  simpa [TRAV_TAG] using (tst_ops t 4 (by decide)).2.2.2
@[simp] theorem tst_clrM_V (t : Nat) : tst (clrMark t) VECTOR_TAG = tst t VECTOR_TAG := by
  simpa [VECTOR_TAG] using (tst_ops t 8 (by decide)).2.2.2

@[simp] theorem tst_tagS1_M (t : Nat) : tst (tagS1 t) MARK_TAG = true := by simp [tagS1]
@[simp] theorem tst_tagS1_T (t : Nat) : tst (tagS1 t) TRAV_TAG = true := by simp [tagS1]
@[simp] theorem tst_tagS1_A (t : Nat) : tst (tagS1 t) ATOM_TAG = tst t ATOM_TAG := by
  simp [tagS1]
@[simp] theorem tst_tagS1_V (t : Nat) : tst (tagS1 t) VECTOR_TAG = tst t VECTOR_TAG := by
  simp [tagS1]
@[simp] theorem tst_tagS2_M (t : Nat) : tst (tagS2 t) MARK_TAG = true := by simp [tagS2]
@[simp] theorem tst_tagS2_T (t : Nat) : tst (tagS2 t) TRAV_TAG = false := by simp [tagS2]
@[simp] theorem tst_tagS2_A (t : Nat) : tst (tagS2 t) ATOM_TAG = tst t ATOM_TAG := by
  simp [tagS2]
@[simp] theorem tst_tagS2_V (t : Nat) : tst (tagS2 t) VECTOR_TAG = tst t VECTOR_TAG := by
  simp [tagS2]

/-! ### Accessors inside the pools -/

theorem car_nat {h : Heap} {c : Nat} (hc : c < h.nnodes) :
    h.car (c : Int) = some (h.Car c) := by
  simp [Heap.car, Heap.inNodes, hc]

theorem cdr_nat {h : Heap} {c : Nat} (hc : c < h.nnodes) :
    h.cdr (c : Int) = some (h.Cdr c) := by
  simp [Heap.cdr, Heap.inNodes, hc]

theorem tag_nat {h : Heap} {c : Nat} (hc : c < h.nnodes) :
    h.tag (c : Int) = some (h.Tag c) := by
  simp [Heap.tag, Heap.inNodes, hc]

theorem setCar_nat {h : Heap} {c : Nat} (hc : c < h.nnodes) (v : Int) :
    h.setCar (c : Int) v = some { h with Car := upd h.Car c v } := by
  simp [Heap.setCar, Heap.inNodes, hc]

theorem setCdr_nat {h : Heap} {c : Nat} (hc : c < h.nnodes) (v : Int) :
    h.setCdr (c : Int) v = some { h with Cdr := upd h.Cdr c v } := by
  simp [Heap.setCdr, Heap.inNodes, hc]

theorem setTag_nat {h : Heap} {c : Nat} (hc : c < h.nnodes) (t : Nat) :
    h.setTag (c : Int) t = some { h with Tag := upd h.Tag c t } := by
  simp [Heap.setTag, Heap.inNodes, hc]

theorem orTag_nat {h : Heap} {c : Nat} (hc : c < h.nnodes) (m : Nat) :
    h.orTag (c : Int) m = some { h with Tag := upd h.Tag c (h.Tag c ||| m) } := by
  simp [Heap.orTag, tag_nat hc, setTag_nat hc]

theorem vref_ok {h : Heap} {w : Int} (h0 : 0 ≤ w) (h1 : w < (h.nvcells : Int)) :
    h.vref w = some (h.Vectors w.toNat) := by
  simp [Heap.vref, Heap.inVec, h0, h1]

theorem vset_ok {h : Heap} {w : Int} (h0 : 0 ≤ w) (h1 : w < (h.nvcells : Int)) (v : Int) :
    h.vset w v = some { h with Vectors := upd h.Vectors w.toNat v } := by
  simp [Heap.vset, Heap.inVec, h0, h1]

/-! ## Frame lemmas for the invariant of `mark` -/

theorem okMarked_mono {g g1 : Heap} (hm : ∀ c, g.marked c = true → g1.marked c = true)
    {x : Int} (h : g.okMarked x) : g1.okMarked x := by
  rcases h with h | h
  · exact Or.inl h
  · exact Or.inr (hm _ h)

theorem frameOK_frame {H g g1 : Heap} {L : List Nat} {s : Nat} {child b : Int}
    (hs : sameAt H g g1 s) (hm : ∀ c, g.marked c = true → g1.marked c = true)
    (h : frameOK H g L s child b) : frameOK H g1 L s child b := by
  obtain ⟨ht, hcar, hcdr, hl, hsl⟩ := hs
  obtain ⟨hL, hH, hc⟩ := h
  refine ⟨hL, hH, ?_⟩
  rcases hc with ⟨htv, h1, h2, h3, i, h4, h5, h6, h7, h8, h9⟩ | ⟨ha, h1, h2, h3, h4⟩ |
    ⟨hp, h1, h2, h3, h4⟩ | ⟨hp, h1, h2, h3, h4, h5⟩
  · have hiv : H.isVec s = true := by
      simp only [Heap.travVec, Bool.and_eq_true] at htv; exact htv.1.1
    refine Or.inl ⟨htv, by rw [ht, h1], by rw [hcar, h2], by rw [hcdr, h3], i,
      by rw [hl hiv, h4], h5, by rw [hsl htv i h5, h6], h7, ?_, ?_⟩
    · intro j hj hji; rw [hsl htv j hj]; exact h8 j hj hji
    · intro j hj; exact okMarked_mono hm (h9 j hj)
  · exact Or.inr (Or.inl ⟨ha, by rw [ht, h1], by rw [hcar, h2], by rw [hcdr, h3], h4⟩)
  · exact Or.inr (Or.inr (Or.inl ⟨hp, by rw [ht, h1], by rw [hcar, h2], h3, by rw [hcdr, h4]⟩))
  · exact Or.inr (Or.inr (Or.inr ⟨hp, by rw [ht, h1], by rw [hcdr, h2], h3,
      by rw [hcar, h4], okMarked_mono hm h5⟩))

theorem stackOK_frame {H g g1 : Heap} {L : List Nat}
    (hm : ∀ c, g.marked c = true → g1.marked c = true) :
    ∀ (rest : List Nat) (child b : Int), (∀ c ∈ rest, sameAt H g g1 c) →
      stackOK H g L child rest b → stackOK H g1 L child rest b
  | [], _, _, _, h => h
  | s :: rest, child, b, hs, h => by
    obtain ⟨hp, hnin, b1, hf, hrest⟩ := h
    refine ⟨hp, hnin, b1, frameOK_frame (hs s (List.mem_cons_self _ _)) hm hf, ?_⟩
    exact stackOK_frame hm rest _ _ (fun c hc => hs c (List.mem_cons_of_mem _ hc)) hrest

theorem doneOK_frame {H g g1 : Heap} {c : Nat}
    (hs : sameAt H g g1 c) (hm : ∀ c, g.marked c = true → g1.marked c = true)
    (h : doneOK H g c) : doneOK H g1 c := by
  obtain ⟨ht, hcar, hcdr, hl, hsl⟩ := hs
  obtain ⟨h1, h2, h3, h4⟩ := h
  refine ⟨by rw [hcar, h1], by rw [hcdr, h2], fun v hv => okMarked_mono hm (h3 v hv), ?_⟩
  by_cases hv : H.isVec c = true
  · simp only [hv, if_true] at h4 ⊢
    refine ⟨by rw [ht]; exact h4.1, by rw [hl hv]; exact h4.2.1, ?_⟩
    intro htv j hj; rw [hsl htv j hj]; exact h4.2.2 htv j hj
  · simp only [hv] at h4 ⊢
    by_cases ha : H.isAtom c = true
    · simp only [ha, if_true] at h4 ⊢; rw [ht]; exact h4
    · simp only [ha] at h4 ⊢; rw [ht]; exact h4

/-- Every cell of the stack is marked and was unmarked at entry. -/
theorem stackOK_marked {H g : Heap} {L : List Nat} :
    ∀ (stk : List Nat) (child p : Int), stackOK H g L child stk p →
      ∀ c ∈ stk, c ∈ L ∧ H.marked c = false ∧ g.marked c = true
  | [], _, _, _ => by intro c hc; cases hc
  | s :: rest, child, p, h => by
    obtain ⟨_, _, b, hf, hrest⟩ := h
    intro c hc
    rcases List.mem_cons.1 hc with rfl | hc
    · obtain ⟨hL, hH, hcase⟩ := hf
      refine ⟨hL, hH, ?_⟩
      rcases hcase with ⟨_, h1, _⟩ | ⟨_, h1, _⟩ | ⟨_, h1, _⟩ | ⟨_, h1, _⟩ <;>
        simp [Heap.marked, h1]
    · exact stackOK_marked rest _ _ hrest c hc


theorem travVec_isVec {H : Heap} {c : Nat} (h : H.travVec c = true) : H.isVec c = true := by
  simp only [Heap.travVec, Bool.and_eq_true] at h; exact h.1.1

theorem travVec_car {H : Heap} {c : Nat} (h : H.travVec c = true) : H.Car c = T_VECTOR := by
  simp only [Heap.travVec, Bool.and_eq_true, decide_eq_true_eq] at h; exact h.1.2

theorem travVec_len {H : Heap} {c : Nat} (h : H.travVec c = true) : H.vlen c ≠ 0 := by
  simp only [Heap.travVec, Bool.and_eq_true, decide_eq_true_eq] at h; exact h.2

/-- The words of a vector object of `L` are outside the blocks of the other
vector objects of `L` and, for the backlink and for walked slots, outside
the payload of the literal map. -/
theorem sameAt_of_local {H g g1 : Heap} {L : List Nat} (hwf : WF H L) {x : Nat}
    (hx : x ∈ L) (hloc : localTo H g g1 x) {c : Nat} (hc : c ∈ L) (hne : c ≠ x) :
    sameAt H g g1 c := by
  obtain ⟨_, _, _, _, hf, hv, _⟩ := hloc
  obtain ⟨_, _, _, hblock, hdisj, hob⟩ := hwf
  obtain ⟨h1, h2, h3⟩ := hf c hne
  refine ⟨h1, h2, h3, ?_, ?_⟩
  · intro hcv
    have hbc := hblock c hc hcv
    rcases hv (H.linkIx c) with h | ⟨hxv, h⟩ | ⟨hxt, j, hj, h⟩ | h
    · exact h
    · exfalso
      have hbx := hblock x hx hxv
      have hd := hdisj c hc x hx hcv hxv hne
      simp only [Heap.linkIx] at h; omega
    · exfalso
      have hxv := travVec_isVec hxt
      have hbx := hblock x hx hxv
      have hd := hdisj c hc x hx hcv hxv hne
      simp only [Heap.linkIx, Heap.slotIx] at h; omega
    · exfalso
      obtain ⟨h0, hlo, hhi⟩ := h
      rcases hob with hob | ⟨hoL, hov, _⟩
      · omega
      · have hbo := hblock _ hoL hov
        by_cases hco : c = H.Obmap.toNat
        · subst hco; simp only [Heap.linkIx] at hlo hhi; omega
        · have hd := hdisj c hc _ hoL hcv hov hco
          simp only [Heap.linkIx] at hlo hhi; omega
  · intro htv j hj
    have hcv := travVec_isVec htv
    have hbc := hblock c hc hcv
    rcases hv (H.slotIx c j) with h | ⟨hxv, h⟩ | ⟨hxt, j', hj', h⟩ | h
    · exact h
    · exfalso
      have hbx := hblock x hx hxv
      have hd := hdisj c hc x hx hcv hxv hne
      simp only [Heap.linkIx, Heap.slotIx] at h; omega
    · exfalso
      have hxv := travVec_isVec hxt
      have hbx := hblock x hx hxv
      have hd := hdisj c hc x hx hcv hxv hne
      simp only [Heap.slotIx] at h; omega
    · exfalso
      obtain ⟨h0, hlo, hhi⟩ := h
      rcases hob with hob | ⟨hoL, hov, hocar⟩
      · omega
      · have hbo := hblock _ hoL hov
        have hco : c ≠ H.Obmap.toNat := by
          intro hco; subst hco; exact hocar (travVec_car htv)
        have hd := hdisj c hc _ hoL hcv hov hco
        simp only [Heap.slotIx] at hlo hhi; omega

theorem stackOK_travVec {H g : Heap} {L : List Nat} :
    ∀ (stk : List Nat) (child p : Int), stackOK H g L child stk p →
      ∀ c ∈ stk, H.isVec c = true → H.travVec c = true
  | [], _, _, _ => by intro c hc; cases hc
  | s :: rest, child, p, h => by
    obtain ⟨_, _, b, hf, hrest⟩ := h
    intro c hc hv
    rcases List.mem_cons.1 hc with rfl | hc
    · obtain ⟨_, _, hcase⟩ := hf
      rcases hcase with ⟨h1, _⟩ | ⟨h1, _⟩ | ⟨h1, _⟩ | ⟨h1, _⟩
      · exact h1
      · simp [Heap.isAtom, Heap.isVec] at h1 hv; simp [hv] at h1
      · simp [Heap.isPair, Heap.isVec] at h1 hv; simp [hv] at h1
      · simp [Heap.isPair, Heap.isVec] at h1 hv; simp [hv] at h1
    · exact stackOK_travVec rest _ _ hrest c hc hv

theorem or_used_idem (a : Nat) : (a ||| USED_TAG) ||| USED_TAG = a ||| USED_TAG := by
  rw [Nat.or_assoc, Nat.or_self]

theorem MInv_of_local {H g g1 : Heap} {L : List Nat} {root n p n1 p1 : Int}
    {stk stk1 : List Nat} (hwf : WF H L) (hinv : MInv H L root g n p stk) {x : Nat}
    (hx : x ∈ L) (hHx : H.marked x = false) (hgx : g1.marked x = true)
    (hloc : localTo H g g1 x)
    (hstk : ∀ c, c ≠ x → (c ∈ stk ↔ c ∈ stk1))
    (hcur : n1 < 0 ∨ (0 ≤ n1 ∧ n1.toNat ∈ L ∧ H.Reach root n1.toNat))
    (hstack : stackOK H g1 L n1 stk1 p1)
    (hreach : H.Reach root x)
    (hxd : x ∈ stk1 ∨ doneOK H g1 x) (hbase : stackBase n1 stk1 = root) :
    MInv H L root g1 n1 p1 stk1 := by
  have hloc' := hloc
  obtain ⟨l1, l2, l3, l4, lf, lv, lp⟩ := hloc
  have hmono : ∀ c, g.marked c = true → g1.marked c = true := by
    intro c hc
    by_cases hcx : c = x
    · subst hcx; exact hgx
    · simp only [Heap.marked] at hc ⊢; rw [(lf c hcx).1]; exact hc
  have hsame : ∀ c ∈ L, c ≠ x → sameAt H g g1 c :=
    fun c hc hne => sameAt_of_local hwf hx hloc' hc hne
  refine ⟨l1.trans hinv.nn, l2.trans hinv.nv, l3.trans hinv.np, l4.trans hinv.ob, hcur,
    hstack, hbase, ?_, ?_, ?_, ?_⟩
  · intro c hc
    have hcx : c ≠ x := by
      rintro rfl
      rcases hc with hc | hc
      · rw [hHx] at hc; exact Bool.noConfusion hc
      · rw [hgx] at hc; exact Bool.noConfusion hc
    obtain ⟨t1, t2, t3⟩ := lf c hcx
    have : H.marked c = true ∨ g.marked c = false := by
      rcases hc with hc | hc
      · exact Or.inl hc
      · right; simp only [Heap.marked] at hc ⊢; rw [← t1]; exact hc
    obtain ⟨o1, o2, o3⟩ := hinv.old c this
    exact ⟨t1.trans o1, t2.trans o2, t3.trans o3⟩
  · intro c hH hg1
    by_cases hcx : c = x
    · subst hcx; exact ⟨hx, hreach, hxd⟩
    · have hg : g.marked c = true := by
        simp only [Heap.marked] at hg1 ⊢; rw [← (lf c hcx).1]; exact hg1
      obtain ⟨cL, cr, cd⟩ := hinv.new c hH hg
      refine ⟨cL, cr, ?_⟩
      rcases cd with cd | cd
      · exact Or.inl ((hstk c hcx).1 cd)
      · exact Or.inr (doneOK_frame (hsame c cL hcx) hmono cd)
  · intro w
    have hxslot : H.travVec x = true → ∀ j, j < H.vlen x →
        g1.Vectors (H.slotIx x j) = H.Vectors (H.slotIx x j) ∨
        (∃ c ∈ L, H.isVec c = true ∧ H.marked c = false ∧ g1.marked c = true ∧
          (H.slotIx x j = H.linkIx c ∨
            (c ∈ stk1 ∧ ∃ j', j' < H.vlen c ∧ H.slotIx x j = H.slotIx c j'))) ∨
        H.inOb (H.slotIx x j) := by
      intro htv j hj
      rcases hxd with hxd | hxd
      · exact Or.inr (Or.inl ⟨x, hx, travVec_isVec htv, hHx, hgx, Or.inr ⟨hxd, j, hj, rfl⟩⟩)
      · left
        obtain ⟨_, _, _, h4⟩ := hxd
        simp only [travVec_isVec htv, if_true] at h4
        exact h4.2.2 htv j hj
    rcases lv w with h | ⟨hxv, h⟩ | ⟨hxt, j, hj, h⟩ | h
    · rcases hinv.vec w with h' | ⟨c, cL, cv, cH, cg, h'⟩ | h'
      · exact Or.inl (h.trans h')
      · by_cases hcx : c = x
        · subst hcx
          rcases h' with h' | ⟨cs, j, hj, h'⟩
          · exact Or.inr (Or.inl ⟨c, cL, cv, cH, hgx, Or.inl h'⟩)
          · have htv := stackOK_travVec _ _ _ hinv.stack c cs cv
            rw [h']; exact hxslot htv j hj
        · refine Or.inr (Or.inl ⟨c, cL, cv, cH, hmono c cg, ?_⟩)
          rcases h' with h' | ⟨cs, h'⟩
          · exact Or.inl h'
          · exact Or.inr ⟨(hstk c hcx).1 cs, h'⟩
      · exact Or.inr (Or.inr h')
    · exact Or.inr (Or.inl ⟨x, hx, hxv, hHx, hgx, Or.inl h⟩)
    · rw [h]; exact hxslot hxt j hj
    · exact Or.inr (Or.inr h)
  · intro i
    rcases lp i with h | h <;> rcases hinv.ports i with h' | h'
    · exact Or.inl (h.trans h')
    · exact Or.inr (h.trans h')
    · right; rw [h, h']
    · right; rw [h, h', or_used_idem]

theorem sum_map_lt {f f1 : Nat → Nat} :
    ∀ (L : List Nat) (x : Nat), x ∈ L → (∀ c ∈ L, f1 c ≤ f c) → f1 x < f x →
      (L.map f1).sum < (L.map f).sum
  | [], _, hx, _, _ => by cases hx
  | a :: L, x, hx, hle, hlt => by
    simp only [List.map_cons, List.sum_cons]
    have ha := hle a (List.mem_cons_self _ _)
    have hL : (L.map f1).sum ≤ (L.map f).sum := by
      apply List.sum_le_sum
      intro c hc
      exact hle c (List.mem_cons_of_mem _ hc)
    rcases List.mem_cons.1 hx with rfl | hx
    · omega
    · have := sum_map_lt L x hx (fun c hc => hle c (List.mem_cons_of_mem _ hc)) hlt
      omega

theorem potential_lt {H g g1 : Heap} {L stk stk1 : List Nat} (hwf : WF H L) {x : Nat}
    (hx : x ∈ L) (hloc : localTo H g g1 x)
    (hstk : ∀ c, c ≠ x → (c ∈ stk ↔ c ∈ stk1))
    (hw : work H g1 stk1 x < work H g stk x) :
    potential H g1 L stk1 < potential H g L stk := by
  unfold potential
  apply sum_map_lt L x hx _ hw
  intro c hc
  by_cases hcx : c = x
  · subst hcx; exact Nat.le_of_lt hw
  · obtain ⟨t1, _, _, t4, _⟩ := sameAt_of_local hwf hx hloc hc hcx
    apply Nat.le_of_eq
    unfold work
    simp only [Heap.marked, t1, ← hstk c hcx]
    by_cases hv : H.isVec c = true
    · simp only [hv, t4 hv]
    · simp [hv]

@[simp] theorem upd_upd {α : Type} (f : Nat → α) (i : Nat) (a b : α) :
    upd (upd f i a) i b = upd f i b := by
  funext j; unfold upd; by_cases h : j = i <;> simp [h]

theorem natCast_ne_NIL (s : Nat) : (s : Int) ≠ NIL := by
  unfold NIL; omega

theorem specialp_natCast (s : Nat) : specialp (s : Int) = false := by
  simp [specialp]

/-! ### The branches of `mark`, computed -/

theorem markPair_eq {g : Heap} {c : Nat} (hc : c < g.nnodes) (p : Int) :
    markPair g (c : Int) p = some (MarkStep.next
      ⟨g.pushPair c p, g.Car c, (c : Int)⟩) := by
  simp [Heap.pushPair, markPair, car_nat hc, setCar_nat hc, Heap.orTag, Heap.setTag, Heap.tag, Heap.inNodes, hc,
    tagS1]

theorem markUp_pairS1 {g : Heap} {s : Nat} (hs : s < g.nnodes) (n : Int)
    (hv : tst (g.Tag s) VECTOR_TAG = false) (ht : tst (g.Tag s) TRAV_TAG = true) :
    markUp g n (s : Int) = some (MarkStep.next
      ⟨g.turnPair s n, g.Cdr s, (s : Int)⟩) := by
  simp [Heap.turnPair, markUp, natCast_ne_NIL, tag_nat hs, hv, ht, car_nat hs, cdr_nat hs, Heap.setCdr,
    Heap.setCar, Heap.setTag, Heap.inNodes, hs]

theorem markUp_pop {g : Heap} {s : Nat} (hs : s < g.nnodes) (n : Int)
    (hv : tst (g.Tag s) VECTOR_TAG = false) (ht : tst (g.Tag s) TRAV_TAG = false) :
    markUp g n (s : Int) = some (MarkStep.next
      ⟨g.popCdr s n, (s : Int), g.Cdr s⟩) := by
  simp [Heap.popCdr, markUp, natCast_ne_NIL, tag_nat hs, hv, ht, cdr_nat hs, Heap.setCdr, Heap.inNodes, hs]

theorem markStep_up {g : Heap} {n p : Int} (h : g.okMarked n)
    (hn : 0 ≤ n → n.toNat < g.nnodes) : markStep ⟨g, n, p⟩ = markUp g n p := by
  unfold markStep
  by_cases hs : n < 0
  · simp [specialp, hs]
  · have h0 : 0 ≤ n := by omega
    obtain ⟨c, rfl⟩ := Int.eq_ofNat_of_zero_le h0
    have hc : c < g.nnodes := by simpa using hn h0
    rcases h with h | h
    · omega
    · have hm : tst (g.Tag c) MARK_TAG = true := by simpa [Heap.marked] using h
      simp [specialp, tag_nat hc, hm]

theorem markStep_down {g : Heap} {c : Nat} {p : Int} (hc : c < g.nnodes)
    (hm : g.marked c = false) :
    markStep ⟨g, (c : Int), p⟩ =
      if tst (g.Tag c) VECTOR_TAG then markVec g (c : Int) p
      else if tst (g.Tag c) ATOM_TAG then markAtom g (c : Int) p
      else markPair g (c : Int) p := by
  have hm' : tst (g.Tag c) MARK_TAG = false := by simpa [Heap.marked] using hm
  simp [markStep, specialp, tag_nat hc, hm']


theorem reach_succ {H : Heap} {root : Int} {c : Nat} (hr : H.Reach root c) {v : Int}
    (hv : v ∈ H.succs c) (h0 : 0 ≤ v) : H.Reach root v.toNat := by
  obtain ⟨r, hr1, hr2⟩ := hr
  refine ⟨r, hr1, hr2.tail ?_⟩
  unfold Heap.Edge
  rw [Int.toNat_of_nonneg h0]; exact hv

theorem cur_of_succ {H : Heap} {L : List Nat} (hwf : WF H L) {root : Int} {c : Nat}
    (hc : c ∈ L) (hm : H.marked c = false) (hr : H.Reach root c) {v : Int}
    (hv : v ∈ H.succs c) : v < 0 ∨ (0 ≤ v ∧ v.toNat ∈ L ∧ H.Reach root v.toNat) := by
  by_cases h0 : v < 0
  · exact Or.inl h0
  · have h0' : 0 ≤ v := by omega
    exact Or.inr ⟨h0', hwf.2.1 c hc hm v hv h0', reach_succ hr hv h0'⟩

theorem succs_pair {H : Heap} {c : Nat} (h : H.isPair c = true) :
    H.succs c = [H.Car c, H.Cdr c] := by
  simp only [Heap.isPair, Bool.and_eq_true, Bool.not_eq_true'] at h
  simp [Heap.succs, Heap.isVec, Heap.isAtom, h.1, h.2]

theorem succs_atom {H : Heap} {c : Nat} (h : H.isAtom c = true) :
    H.succs c = [H.Cdr c] := by
  simp only [Heap.isAtom, Bool.and_eq_true, Bool.not_eq_true'] at h
  simp [Heap.succs, Heap.isVec, Heap.isAtom, h.1, h.2]

theorem mem_cons_iff_of_ne {c x : Nat} (stk : List Nat) (h : c ≠ x) :
    c ∈ stk ↔ c ∈ x :: stk := by
  simp [h]

/-- `S0 --> S1` for a pair. -/
theorem step_pair_push {H g : Heap} {L : List Nat} {root p : Int} {stk : List Nat}
    (hwf : WF H L) {c : Nat} (hinv : MInv H L root g (c : Int) p stk)
    (hcL : c ∈ L) (hr : H.Reach root c) (hm : g.marked c = false)
    (hp : H.isPair c = true) : StepGoal H L root g (c : Int) p stk := by
  have hcn : c < g.nnodes := by rw [hinv.nn]; exact hwf.1 c hcL
  obtain ⟨o1, o2, o3⟩ := hinv.old c (Or.inr hm)
  have hHm : H.marked c = false := by simpa [Heap.marked, o1] using hm
  have hp' := hp
  simp only [Heap.isPair, Bool.and_eq_true, Bool.not_eq_true'] at hp'
  have hstep : markStep ⟨g, (c : Int), p⟩ = markPair g (c : Int) p := by
    rw [markStep_down hcn hm, o1, hp'.1, hp'.2]; simp
  have hnin : c ∉ stk := by
    intro hcs
    have := (stackOK_marked _ _ _ hinv.stack c hcs).2.2
    rw [hm] at this; exact Bool.noConfusion this
  refine ⟨_, _, _, c :: stk, by rw [hstep, markPair_eq hcn], ?_, ?_⟩
  · have hloc : localTo H g (g.pushPair c p) c := by
      refine ⟨rfl, rfl, rfl, rfl, ?_, fun w => Or.inl rfl, fun i => Or.inl rfl⟩
      intro c' hc'; simp [Heap.pushPair, hc']
    have hmono : ∀ d, g.marked d = true → (g.pushPair c p).marked d = true := by
      intro d hd
      by_cases hdc : d = c
      · subst hdc; simp [Heap.marked, Heap.pushPair]
      · simpa [Heap.marked, Heap.pushPair, hdc] using hd
    apply MInv_of_local hwf hinv hcL hHm (by simp [Heap.marked, Heap.pushPair]) hloc
      (fun c' hc' => mem_cons_iff_of_ne stk hc')
    · rw [o2]; exact cur_of_succ hwf hcL hHm hr (by rw [succs_pair hp]; simp)
    · refine ⟨rfl, hnin, p, ⟨hcL, hHm, Or.inr (Or.inr (Or.inl ⟨hp,
        by simp [Heap.pushPair, o1], by simp [Heap.pushPair],
        o2.symm, by simpa [Heap.pushPair] using o3⟩))⟩, ?_⟩
      apply stackOK_frame hmono stk _ _ _ hinv.stack
      intro d hd
      have hdL := (stackOK_marked _ _ _ hinv.stack d hd).1
      exact sameAt_of_local hwf hcL hloc hdL (fun h => hnin (h ▸ hd))
    · exact hr
    · exact Or.inl (List.mem_cons_self _ _)
    · exact hinv.base
  · apply potential_lt hwf hcL (x := c) _ (fun c' hc' => mem_cons_iff_of_ne stk hc')
    · simp [work, hnin, hm, Heap.isVec, Heap.isAtom, hp'.1, hp'.2, Heap.pushPair]
    · refine ⟨rfl, rfl, rfl, rfl, ?_, fun w => Or.inl rfl, fun i => Or.inl rfl⟩
      intro c' hc'; simp [Heap.pushPair, hc']

theorem mem_tail_iff_of_ne {c x : Nat} (rest : List Nat) (h : c ≠ x) :
    c ∈ x :: rest ↔ c ∈ rest := by
  simp [h]

theorem isPair_not_vec {H : Heap} {c : Nat} (h : H.isPair c = true) :
    tst (H.Tag c) VECTOR_TAG = false ∧ tst (H.Tag c) ATOM_TAG = false := by
  simpa [Heap.isPair] using h

theorem isAtom_not_vec {H : Heap} {c : Nat} (h : H.isAtom c = true) :
    tst (H.Tag c) VECTOR_TAG = false ∧ tst (H.Tag c) ATOM_TAG = true := by
  simpa [Heap.isAtom] using h

/-- `S1 --> S2` for the pair on top of the stack. -/
theorem step_pair_turn {H g : Heap} {L : List Nat} {root n b : Int} {s : Nat}
    {rest : List Nat} (hwf : WF H L) (hinv : MInv H L root g n (s : Int) (s :: rest))
    (hn : g.okMarked n) (hsL : s ∈ L) (hHm : H.marked s = false)
    (hp : H.isPair s = true) (h1 : g.Tag s = tagS1 (H.Tag s)) (h2 : g.Car s = b)
    (h3 : H.Car s = n) (h4 : g.Cdr s = H.Cdr s) (hnin : s ∉ rest)
    (hrest : stackOK H g L (s : Int) rest b) :
    StepGoal H L root g n (s : Int) (s :: rest) := by
  have hsn : s < g.nnodes := by rw [hinv.nn]; exact hwf.1 s hsL
  have hcls := isPair_not_vec hp
  have hgm : g.marked s = true := by simp [Heap.marked, h1]
  have hr : H.Reach root s := (hinv.new s hHm hgm).2.1
  have hstep : markStep ⟨g, n, (s : Int)⟩ = markUp g n (s : Int) := by
    apply markStep_up hn
    intro h0
    rcases hinv.cur with h | ⟨_, hL, _⟩
    · omega
    · rw [hinv.nn]; exact hwf.1 _ hL
  have hloc : localTo H g (g.turnPair s n) s := by
    refine ⟨rfl, rfl, rfl, rfl, ?_, fun w => Or.inl rfl, fun i => Or.inl rfl⟩
    intro c' hc'; simp [Heap.turnPair, hc']
  have hmono : ∀ d, g.marked d = true → (g.turnPair s n).marked d = true := by
    intro d hd
    by_cases hdc : d = s
    · subst hdc; simp [Heap.marked, Heap.turnPair, h1, tagS1]
    · simpa [Heap.marked, Heap.turnPair, hdc] using hd
  refine ⟨_, _, _, s :: rest, by
    rw [hstep, markUp_pairS1 hsn n (by simp [h1, hcls.1]) (by simp [h1])], ?_, ?_⟩
  · apply MInv_of_local hwf hinv hsL hHm (hmono s hgm) hloc (fun c' _ => Iff.rfl)
    · rw [h4]; exact cur_of_succ hwf hsL hHm hr (by rw [succs_pair hp]; simp)
    · refine ⟨rfl, hnin, b, ⟨hsL, hHm, Or.inr (Or.inr (Or.inr ⟨hp,
        by simp [Heap.turnPair, h1, tagS2, tagS1], by simp [Heap.turnPair, h2], h4.symm,
        by simp [Heap.turnPair, h3], by rw [h3]; exact okMarked_mono hmono hn⟩))⟩, ?_⟩
      apply stackOK_frame hmono rest _ _ _ hrest
      intro d hd
      have hdL := (stackOK_marked _ _ _ hrest d hd).1
      exact sameAt_of_local hwf hsL hloc hdL (fun h => hnin (h ▸ hd))
    · exact hr
    · exact Or.inl (List.mem_cons_self _ _)
    · exact hinv.base
  · apply potential_lt hwf hsL hloc (fun c' _ => Iff.rfl)
    simp [work, Heap.isVec, hcls.1, Heap.turnPair, h1]

/-- `S2 --> done` for the pair or atom on top of the stack. -/
theorem step_pop {H g : Heap} {L : List Nat} {root n b : Int} {s : Nat}
    {rest : List Nat} (hwf : WF H L) (hinv : MInv H L root g n (s : Int) (s :: rest))
    (hn : g.okMarked n) (hsL : s ∈ L) (hHm : H.marked s = false)
    (hcase : (H.isAtom s = true ∧ g.Tag s = H.Tag s ||| MARK_TAG) ∨
      (H.isPair s = true ∧ g.Tag s = tagS2 (H.Tag s) ∧ g.okMarked (H.Car s)))
    (h2 : g.Cdr s = b) (h3 : H.Cdr s = n) (h4 : g.Car s = H.Car s) (hnin : s ∉ rest)
    (hrest : stackOK H g L (s : Int) rest b) :
    StepGoal H L root g n (s : Int) (s :: rest) := by
  have hsn : s < g.nnodes := by rw [hinv.nn]; exact hwf.1 s hsL
  have hgm : g.marked s = true := by
    rcases hcase with ⟨_, h1⟩ | ⟨_, h1, _⟩ <;> simp [Heap.marked, h1]
  have hgv : tst (g.Tag s) VECTOR_TAG = false := by
    rcases hcase with ⟨ha, h1⟩ | ⟨hp, h1, _⟩
    · simp [h1, (isAtom_not_vec ha).1]
    · simp [h1, (isPair_not_vec hp).1]
  have hHv : H.isVec s = false := by
    rcases hcase with ⟨ha, h1⟩ | ⟨hp, h1, _⟩
    · simp [Heap.isVec, (isAtom_not_vec ha).1]
    · simp [Heap.isVec, (isPair_not_vec hp).1]
  have hgt : tst (g.Tag s) TRAV_TAG = false := by
    rcases hcase with ⟨ha, h1⟩ | ⟨hp, h1, _⟩
    · rw [h1]; simp; exact (hwf.2.2.1 s hsL hHm ha).1
    · simp [h1]
  have hr : H.Reach root s := (hinv.new s hHm hgm).2.1
  have hstep : markStep ⟨g, n, (s : Int)⟩ = markUp g n (s : Int) := by
    apply markStep_up hn
    intro h0
    rcases hinv.cur with h | ⟨_, hL, _⟩
    · omega
    · rw [hinv.nn]; exact hwf.1 _ hL
  have hloc : localTo H g (g.popCdr s n) s := by
    refine ⟨rfl, rfl, rfl, rfl, ?_, fun w => Or.inl rfl, fun i => Or.inl rfl⟩
    intro c' hc'; simp [Heap.popCdr, hc']
  have hmono : ∀ d, g.marked d = true → (g.popCdr s n).marked d = true := by
    intro d hd; simpa [Heap.marked, Heap.popCdr] using hd
  have hstk : ∀ c', c' ≠ s → (c' ∈ s :: rest ↔ c' ∈ rest) :=
    fun c' hc' => mem_tail_iff_of_ne rest hc'
  refine ⟨_, _, _, rest, by rw [hstep, markUp_pop hsn n hgv hgt], ?_, ?_⟩
  · apply MInv_of_local hwf hinv hsL hHm (hmono s hgm) hloc hstk
    · exact Or.inr ⟨by omega, by simpa using hsL, by simpa using hr⟩
    · rw [h2]
      apply stackOK_frame hmono rest _ _ _ hrest
      intro d hd
      have hdL := (stackOK_marked _ _ _ hrest d hd).1
      exact sameAt_of_local hwf hsL hloc hdL (fun h => hnin (h ▸ hd))
    · exact hr
    · right
      refine ⟨by simpa [Heap.popCdr] using h4, by simp [Heap.popCdr, h3], ?_, ?_⟩
      · rcases hcase with ⟨ha, h1⟩ | ⟨hp, h1, hcar⟩
        · rw [succs_atom ha]; intro v hv
          simp only [List.mem_singleton] at hv; subst hv; rw [h3]
          exact okMarked_mono hmono hn
        · rw [succs_pair hp]; intro v hv
          simp only [List.mem_cons, List.mem_singleton, List.not_mem_nil, or_false] at hv
          rcases hv with rfl | rfl
          · exact okMarked_mono hmono hcar
          · rw [h3]; exact okMarked_mono hmono hn
      · simp only [hHv, Bool.false_eq_true, if_false]
        rcases hcase with ⟨ha, h1⟩ | ⟨hp, h1, hcar⟩
        · simp [ha, Heap.popCdr, h1]
        · have : H.isAtom s = false := by simp [Heap.isAtom, (isPair_not_vec hp).2]
          simp [this, Heap.popCdr, h1]
    · exact hinv.base
  · apply potential_lt hwf hsL hloc hstk
    have hHv' : tst (H.Tag s) VECTOR_TAG = false := by simpa [Heap.isVec] using hHv
    simp [work, hnin, Heap.isVec, hgt, hmono s hgm, hHv']


/-! ### Arena words under the invariant -/

theorem stackOK_mem {H g : Heap} {L : List Nat} :
    ∀ (stk : List Nat) (child p : Int), stackOK H g L child stk p →
      ∀ c ∈ stk, ∃ ch b, frameOK H g L c ch b
  | [], _, _, _ => by intro c hc; cases hc
  | s :: rest, child, p, h => by
    obtain ⟨_, _, b, hf, hrest⟩ := h
    intro c hc
    rcases List.mem_cons.1 hc with rfl | hc
    · exact ⟨child, b, hf⟩
    · exact stackOK_mem rest _ _ hrest c hc

/-- The size word of a vector object of `L` is never written. -/
theorem size_same {H g : Heap} {L : List Nat} {root n p : Int} {stk : List Nat}
    (hwf : WF H L) (hinv : MInv H L root g n p stk) {c : Nat} (hc : c ∈ L)
    (hv : H.isVec c = true) : g.Vectors (H.sizeIx c) = H.Vectors (H.sizeIx c) := by
  obtain ⟨_, _, _, hblock, hdisj, hob⟩ := hwf
  have hbc := hblock c hc hv
  rcases hinv.vec (H.sizeIx c) with h | ⟨d, dL, dv, _, _, h⟩ | h
  · exact h
  · exfalso
    have hbd := hblock d dL dv
    by_cases hcd : c = d
    · subst hcd
      rcases h with h | ⟨_, j, hj, h⟩
      · simp only [Heap.sizeIx, Heap.linkIx] at h; omega
      · simp only [Heap.sizeIx, Heap.slotIx] at h; omega
    · have hd := hdisj c hc d dL hv dv hcd
      rcases h with h | ⟨_, j, hj, h⟩
      · simp only [Heap.sizeIx, Heap.linkIx] at h; omega
      · simp only [Heap.sizeIx, Heap.slotIx] at h; omega
  · exfalso
    obtain ⟨h0, hlo, hhi⟩ := h
    rcases hob with hob | ⟨hoL, hov, _⟩
    · omega
    · have hbo := hblock _ hoL hov
      by_cases hco : c = H.Obmap.toNat
      · subst hco; simp only [Heap.sizeIx] at hlo hhi; omega
      · have hd := hdisj c hc _ hoL hv hov hco
        simp only [Heap.sizeIx] at hlo hhi; omega

/-- The payload of a vector object of `L` that is not on the stack and is
not the literal map is as at entry. -/
theorem slot_same {H g : Heap} {L : List Nat} {root n p : Int} {stk : List Nat}
    (hwf : WF H L) (hinv : MInv H L root g n p stk) {c : Nat} (hc : c ∈ L)
    (hv : H.isVec c = true) (hns : c ∉ stk) (hno : (c : Int) ≠ H.Obmap)
    {j : Nat} (hj : j < H.vlen c) :
    g.Vectors (H.slotIx c j) = H.Vectors (H.slotIx c j) := by
  obtain ⟨_, _, _, hblock, hdisj, hob⟩ := hwf
  have hbc := hblock c hc hv
  rcases hinv.vec (H.slotIx c j) with h | ⟨d, dL, dv, _, _, h⟩ | h
  · exact h
  · exfalso
    have hbd := hblock d dL dv
    by_cases hcd : c = d
    · subst hcd
      rcases h with h | ⟨hs, _⟩
      · simp only [Heap.slotIx, Heap.linkIx] at h; omega
      · exact hns hs
    · have hd := hdisj c hc d dL hv dv hcd
      rcases h with h | ⟨_, j', hj', h⟩
      · simp only [Heap.slotIx, Heap.linkIx] at h; omega
      · simp only [Heap.slotIx] at h; omega
  · exfalso
    obtain ⟨h0, hlo, hhi⟩ := h
    rcases hob with hob | ⟨hoL, hov, _⟩
    · omega
    · have hbo := hblock _ hoL hov
      have hco : c ≠ H.Obmap.toNat := by
        intro hco; apply hno; rw [hco]; omega
      have hd := hdisj c hc _ hoL hv hov hco
      simp only [Heap.slotIx] at hlo hhi; omega

theorem travVec_ne_ob {H : Heap} {L : List Nat} (hwf : WF H L) {c : Nat}
    (ht : H.travVec c = true) : (c : Int) ≠ H.Obmap := by
  intro h
  rcases hwf.2.2.2.2.2 with h0 | ⟨_, _, hcar⟩
  · omega
  · apply hcar; rw [← h]; simpa using travVec_car ht

/-- The `cdr` of a vector object, its arena offset, is never written. -/
theorem vec_cdr_same {H g : Heap} {L : List Nat} {root n p : Int} {stk : List Nat}
    (hinv : MInv H L root g n p stk) {c : Nat}
    (hv : H.isVec c = true) : g.Cdr c = H.Cdr c ∧ g.Car c = H.Car c := by
  by_cases h : H.marked c = true ∨ g.marked c = false
  · exact ⟨(hinv.old c h).2.2, (hinv.old c h).2.1⟩
  · have h1 : H.marked c = false := by
      cases hh : H.marked c
      · rfl
      · exact absurd (Or.inl hh) h
    have h2 : g.marked c = true := by
      cases hh : g.marked c
      · exact absurd (Or.inr hh) h
      · rfl
    rcases (hinv.new c h1 h2).2.2 with hs | hd
    · obtain ⟨ch, b, _, _, hcase⟩ := stackOK_mem _ _ _ hinv.stack c hs
      rcases hcase with ⟨_, _, h3, h4, _⟩ | ⟨ha, _⟩ | ⟨hp, _⟩ | ⟨hp, _⟩
      · exact ⟨h4, h3⟩
      · have := (isAtom_not_vec ha).1; simp [Heap.isVec, this] at hv
      · have := (isPair_not_vec hp).1; simp [Heap.isVec, this] at hv
      · have := (isPair_not_vec hp).1; simp [Heap.isVec, this] at hv
    · exact ⟨hd.2.1, hd.1⟩

theorem vlen_lt (H : Heap) (c : Nat) : H.vlen c < 2 ^ 62 := by
  unfold Heap.vlen vecsize sizeof_cell
  have h := Int.emod_lt_of_pos (H.Vectors (H.sizeIx c) + (((4 : Nat) : Int) - 1))
    (show (0 : Int) < 2 ^ 64 by norm_num)
  have h0 := Int.emod_nonneg (H.Vectors (H.sizeIx c) + (((4 : Nat) : Int) - 1))
    (show (2 : Int) ^ 64 ≠ 0 by norm_num)
  omega

theorem markVec_push {g : Heap} {c : Nat} (hc : c < g.nnodes) (p : Int)
    (hcar : g.Car c = T_VECTOR) (h2 : 2 ≤ g.Cdr c)
    (hb : g.Cdr c + (g.vlen c : Int) ≤ (g.nvcells : Int)) (hl : g.vlen c ≠ 0) :
    markVec g (c : Int) p = some (MarkStep.next ⟨g.pushVec c p, g.slot c 0, (c : Int)⟩) := by
  have h0 : 0 ≤ g.Cdr c - 2 := by omega
  have h1 : g.Cdr c - 2 < (g.nvcells : Int) := by omega
  have h3 : 0 ≤ g.Cdr c := by omega
  have h4 : g.Cdr c < (g.nvcells : Int) := by omega
  have h5 : 0 ≤ g.Cdr c - 1 := by omega
  have h6 : g.Cdr c - 1 < (g.nvcells : Int) := by omega
  have h7 : 1 ≤ g.Cdr c := by omega
  have hl' : vecsize (g.Vectors (g.Cdr c - 1).toNat) - 2 ≠ 0 := hl
  have hne : (g.Cdr c).toNat ≠ (g.Cdr c - 2).toNat := by omega
  simp [-Int.pred_toNat, markVec, Heap.orTag, Heap.tag, Heap.setTag, Heap.car, Heap.cdr,
    Heap.inNodes, hc, hcar,
    Heap.veclen, Heap.stringlen, Heap.vref, Heap.vset, Heap.inVec, Heap.setVeclink,
    Heap.linkAddr, h0, h1, h2, h3, h4, h5, h6, h7, hl', Heap.pushVec, Heap.slot, Heap.slotIx,
    Heap.linkIx, tagS1, hne]

theorem markVec_done {g : Heap} {c : Nat} (hc : c < g.nnodes) (p : Int)
    (h2 : 2 ≤ g.Cdr c)
    (hb : g.Cdr c + (g.vlen c : Int) ≤ (g.nvcells : Int))
    (hl : g.Car c ≠ T_VECTOR ∨ g.vlen c = 0) :
    markVec g (c : Int) p = some (MarkStep.next ⟨g.doneVec c, (c : Int), p⟩) := by
  have h0 : 0 ≤ g.Cdr c - 2 := by omega
  have h1 : g.Cdr c - 2 < (g.nvcells : Int) := by omega
  have h5 : 0 ≤ g.Cdr c - 1 := by omega
  have h6 : g.Cdr c - 1 < (g.nvcells : Int) := by omega
  have h7 : 1 ≤ g.Cdr c := by omega
  rcases hl with hl | hl
  · simp [-Int.pred_toNat, markVec, Heap.orTag, Heap.tag, Heap.setTag, Heap.car, Heap.cdr,
      Heap.inNodes, hc, hl, Heap.vset, Heap.inVec, Heap.setVeclink,
      Heap.linkAddr, h0, h1, h2, Heap.doneVec, Heap.linkIx]
  · have hl' : vecsize (g.Vectors (g.Cdr c - 1).toNat) - 2 = 0 := hl
    by_cases hcar : g.Car c = T_VECTOR
    · simp [-Int.pred_toNat, markVec, Heap.orTag, Heap.tag, Heap.setTag, Heap.car, Heap.cdr,
        Heap.inNodes, hc, hcar, Heap.veclen, Heap.stringlen, Heap.vref, Heap.vset, Heap.inVec,
        Heap.setVeclink, Heap.linkAddr, h0, h1, h2, h5, h6, h7, hl', Heap.doneVec, Heap.linkIx]
    · simp [-Int.pred_toNat, markVec, Heap.orTag, Heap.tag, Heap.setTag, Heap.car, Heap.cdr,
        Heap.inNodes, hc, hcar, Heap.vset, Heap.inVec, Heap.setVeclink,
        Heap.linkAddr, h0, h1, h2, Heap.doneVec, Heap.linkIx]

theorem toSizeT_small {i : Nat} (h : i < 2 ^ 63) : toSizeT ((i : Int) + 1) = i + 1 := by
  unfold toSizeT
  have : ((i : Int) + 1) % 2 ^ 64 = (i : Int) + 1 := by
    apply Int.emod_eq_of_lt <;> omega
  rw [this]; omega

theorem markUp_vec_adv {g : Heap} {s i : Nat} (hs : s < g.nnodes) (n : Int)
    (hv : tst (g.Tag s) VECTOR_TAG = true) (ht : tst (g.Tag s) TRAV_TAG = true)
    (h2 : 2 ≤ g.Cdr s) (hb : g.Cdr s + (g.vlen s : Int) ≤ (g.nvcells : Int))
    (hi : g.Vectors (g.linkIx s) = (i : Int)) (hlt : i + 1 < g.vlen s) :
    markUp g n (s : Int) = some (MarkStep.next
      ⟨g.advVec s i n, g.slot s (i + 1), (s : Int)⟩) := by
  have h0 : 0 ≤ g.Cdr s - 2 := by omega
  have h1 : g.Cdr s - 2 < (g.nvcells : Int) := by omega
  have h5 : 0 ≤ g.Cdr s - 1 := by omega
  have h6 : g.Cdr s - 1 < (g.nvcells : Int) := by omega
  have h7 : 1 ≤ g.Cdr s := by omega
  have h8 : 0 ≤ g.Cdr s + ((i : Int) + 1) := by omega
  have h9 : g.Cdr s + ((i : Int) + 1) < (g.nvcells : Int) := by omega
  have h10 : 0 ≤ g.Cdr s + (i : Int) := by omega
  have h11 : g.Cdr s + (i : Int) < (g.nvcells : Int) := by omega
  have hi' : g.Vectors (g.Cdr s - 2).toNat = (i : Int) := hi
  have hlt' : i + 1 < vecsize (g.Vectors (g.Cdr s - 1).toNat) - 2 := hlt
  have hsz : toSizeT ((i : Int) + 1) = i + 1 := by
    apply toSizeT_small
    have := vlen_lt g s
    omega
  have hne : (g.Cdr s + (i : Int)).toNat ≠ (g.Cdr s + ((i : Int) + 1)).toNat := by omega
  simp [-Int.pred_toNat, markUp, natCast_ne_NIL, markVecParent, Heap.tag, Heap.cdr,
    Heap.inNodes, hs, hv, ht,
    Heap.veclen, Heap.stringlen, Heap.vref, Heap.vset, Heap.inVec, Heap.setVeclink,
    Heap.linkAddr, h0, h1, h2, h5, h6, h7, h8, h9, h10, h11, hi', hlt', hsz, Heap.advVec,
    Heap.slot, Heap.slotIx, Heap.linkIx, hne]

theorem markUp_vec_pop {g : Heap} {s i : Nat} (hs : s < g.nnodes) (n : Int)
    (hv : tst (g.Tag s) VECTOR_TAG = true)
    (h2 : 2 ≤ g.Cdr s) (hb : g.Cdr s + (g.vlen s : Int) ≤ (g.nvcells : Int))
    (hi : g.Vectors (g.linkIx s) = (i : Int)) (hlt : i < g.vlen s) (hge : ¬ i + 1 < g.vlen s) :
    markUp g n (s : Int) = some (MarkStep.next
      ⟨g.popVec s i n, (s : Int), g.slot s i⟩) := by
  have h0 : 0 ≤ g.Cdr s - 2 := by omega
  have h1 : g.Cdr s - 2 < (g.nvcells : Int) := by omega
  have h5 : 0 ≤ g.Cdr s - 1 := by omega
  have h6 : g.Cdr s - 1 < (g.nvcells : Int) := by omega
  have h7 : 1 ≤ g.Cdr s := by omega
  have h10 : 0 ≤ g.Cdr s + (i : Int) := by omega
  have h11 : g.Cdr s + (i : Int) < (g.nvcells : Int) := by omega
  have hi' : g.Vectors (g.Cdr s - 2).toNat = (i : Int) := hi
  have hge' : ¬ i + 1 < vecsize (g.Vectors (g.Cdr s - 1).toNat) - 2 := hge
  have hsz : toSizeT ((i : Int) + 1) = i + 1 := by
    apply toSizeT_small
    have := vlen_lt g s
    omega
  by_cases ht : tst (g.Tag s) TRAV_TAG = true
  · simp [-Int.pred_toNat, markUp, natCast_ne_NIL, markVecParent, Heap.tag, Heap.cdr,
      Heap.inNodes, hs, hv, ht,
      Heap.veclen, Heap.stringlen, Heap.vref, Heap.vset, Heap.inVec, Heap.setVeclink,
      Heap.linkAddr, h0, h1, h2, h5, h6, h7, h10, h11, hi', hge', hsz, Heap.popVec,
      Heap.slot, Heap.slotIx, Heap.linkIx]
  · simp [-Int.pred_toNat, markUp, natCast_ne_NIL, markVecParent, Heap.tag, Heap.cdr,
      Heap.inNodes, hs, hv, ht,
      Heap.vref, Heap.vset, Heap.inVec, Heap.setVeclink,
      Heap.linkAddr, h0, h1, h2, h10, h11, hi', Heap.popVec,
      Heap.slot, Heap.slotIx, Heap.linkIx]

/-- The geometry of a vector object of `L` is as at entry. -/
theorem geom_same {H g : Heap} {L : List Nat} {root n p : Int} {stk : List Nat}
    (hwf : WF H L) (hinv : MInv H L root g n p stk) {c : Nat} (hc : c ∈ L)
    (hv : H.isVec c = true) :
    g.Cdr c = H.Cdr c ∧ g.Car c = H.Car c ∧ g.vlen c = H.vlen c ∧
      g.linkIx c = H.linkIx c ∧ ∀ j, g.slotIx c j = H.slotIx c j := by
  obtain ⟨h1, h2⟩ := vec_cdr_same hinv hv
  have h3 := size_same hwf hinv hc hv
  refine ⟨h1, h2, ?_, ?_, ?_⟩
  · unfold Heap.vlen Heap.sizeIx; rw [h1]; unfold Heap.sizeIx at h3; rw [h3]
  · unfold Heap.linkIx; rw [h1]
  · intro j; unfold Heap.slotIx; rw [h1]

theorem succs_travVec {H : Heap} {c : Nat} (h : H.travVec c = true) :
    H.succs c = (List.range (H.vlen c)).map (H.slot c) := by
  simp [Heap.succs, travVec_isVec h, h]

theorem succs_vec_nil {H : Heap} {c : Nat} (hv : H.isVec c = true)
    (h : H.travVec c = false) : H.succs c = [] := by
  simp [Heap.succs, hv, h]

theorem slot_mem_succs {H : Heap} {c : Nat} (h : H.travVec c = true) {j : Nat}
    (hj : j < H.vlen c) : H.slot c j ∈ H.succs c := by
  rw [succs_travVec h]
  exact List.mem_map.2 ⟨j, List.mem_range.2 hj, rfl⟩

/-- `S0 --> S1` for a vector with slots. -/
theorem step_vec_push {H g : Heap} {L : List Nat} {root p : Int} {stk : List Nat}
    (hwf : WF H L) {c : Nat} (hinv : MInv H L root g (c : Int) p stk)
    (hcL : c ∈ L) (hr : H.Reach root c) (hm : g.marked c = false)
    (ht : H.travVec c = true) : StepGoal H L root g (c : Int) p stk := by
  have hcn : c < g.nnodes := by rw [hinv.nn]; exact hwf.1 c hcL
  have hv := travVec_isVec ht
  obtain ⟨o1, o2, o3⟩ := hinv.old c (Or.inr hm)
  have hHm : H.marked c = false := by simpa [Heap.marked, o1] using hm
  obtain ⟨q1, q2, q3, q4, q5⟩ := geom_same hwf hinv hcL hv
  obtain ⟨b1, b2⟩ := hwf.2.2.2.1 c hcL hv
  have hlen := travVec_len ht
  have hv' : tst (H.Tag c) VECTOR_TAG = true := by simpa [Heap.isVec] using hv
  have hnin : c ∉ stk := by
    intro hcs
    have := (stackOK_marked _ _ _ hinv.stack c hcs).2.2
    rw [hm] at this; exact Bool.noConfusion this
  have hstep : markStep ⟨g, (c : Int), p⟩ = markVec g (c : Int) p := by
    rw [markStep_down hcn hm, o1, hv']; simp
  have heq := markVec_push hcn p (by rw [q2]; exact travVec_car ht) (by rw [q1]; exact b1)
    (by rw [q1, q3, hinv.nv]; exact b2) (by rw [q3]; exact hlen)
  have hl0 : H.slotIx c 0 ≠ H.linkIx c := by
    simp only [Heap.slotIx, Heap.linkIx]; omega
  have hloc : localTo H g (g.pushVec c p) c := by
    refine ⟨rfl, rfl, rfl, rfl, ?_, ?_, fun i => Or.inl rfl⟩
    · intro c' hc'; simp [Heap.pushVec, hc']
    · intro w
      by_cases hw0 : w = H.slotIx c 0
      · exact Or.inr (Or.inr (Or.inl ⟨ht, 0, Nat.pos_of_ne_zero hlen, hw0⟩))
      · by_cases hw1 : w = H.linkIx c
        · exact Or.inr (Or.inl ⟨hv, hw1⟩)
        · left; simp [Heap.pushVec, q4, q5, hw0, hw1]
  have hgm : (g.pushVec c p).marked c = true := by simp [Heap.marked, Heap.pushVec]
  have hmono : ∀ d, g.marked d = true → (g.pushVec c p).marked d = true := by
    intro d hd
    by_cases hdc : d = c
    · subst hdc; exact hgm
    · simpa [Heap.marked, Heap.pushVec, hdc] using hd
  have hs0 : g.slot c 0 = H.slot c 0 := by
    unfold Heap.slot; rw [q5]
    exact slot_same hwf hinv hcL hv hnin (travVec_ne_ob hwf ht) (Nat.pos_of_ne_zero hlen)
  refine ⟨_, _, _, c :: stk, by rw [hstep, heq], ?_, ?_⟩
  · apply MInv_of_local hwf hinv hcL hHm hgm hloc (fun c' hc' => mem_cons_iff_of_ne stk hc')
    · rw [hs0]
      exact cur_of_succ hwf hcL hHm hr (slot_mem_succs ht (Nat.pos_of_ne_zero hlen))
    · refine ⟨rfl, hnin, p, ⟨hcL, hHm, Or.inl ⟨ht, by simp [Heap.pushVec, o1],
        by simp [Heap.pushVec, o2], by simp [Heap.pushVec, o3], 0, ?_, Nat.pos_of_ne_zero hlen,
        ?_, hs0.symm, ?_, ?_⟩⟩, ?_⟩
      · simp [Heap.pushVec, q4, q5, Ne.symm hl0]
      · simp [Heap.pushVec, q4, q5]
      · intro j hj hj0
        have e1 : H.slotIx c j ≠ H.slotIx c 0 := by
          simp only [Heap.slotIx]; omega
        have e2 : H.slotIx c j ≠ H.linkIx c := by
          simp only [Heap.slotIx, Heap.linkIx]; omega
        simp only [Heap.pushVec, q4, q5, upd_ne _ _ e1, upd_ne _ _ e2]
        exact slot_same hwf hinv hcL hv hnin (travVec_ne_ob hwf ht) hj
      · intro j hj; omega
      · apply stackOK_frame hmono stk _ _ _ hinv.stack
        intro d hd
        have hdL := (stackOK_marked _ _ _ hinv.stack d hd).1
        exact sameAt_of_local hwf hcL hloc hdL (fun h => hnin (h ▸ hd))
    · exact hr
    · exact Or.inl (List.mem_cons_self _ _)
    · exact hinv.base
  · apply potential_lt hwf hcL hloc (fun c' hc' => mem_cons_iff_of_ne stk hc')
    simp [work, hnin, hm, hv, ht, Heap.pushVec, q4, q5, Ne.symm hl0]

/-- Marking of a vector object without slots to walk. -/
theorem step_vec_done {H g : Heap} {L : List Nat} {root p : Int} {stk : List Nat}
    (hwf : WF H L) {c : Nat} (hinv : MInv H L root g (c : Int) p stk)
    (hcL : c ∈ L) (hr : H.Reach root c) (hm : g.marked c = false)
    (hv : H.isVec c = true) (ht : H.travVec c = false) :
    StepGoal H L root g (c : Int) p stk := by
  have hcn : c < g.nnodes := by rw [hinv.nn]; exact hwf.1 c hcL
  obtain ⟨o1, o2, o3⟩ := hinv.old c (Or.inr hm)
  have hHm : H.marked c = false := by simpa [Heap.marked, o1] using hm
  obtain ⟨q1, q2, q3, q4, q5⟩ := geom_same hwf hinv hcL hv
  obtain ⟨b1, b2⟩ := hwf.2.2.2.1 c hcL hv
  have hv' : tst (H.Tag c) VECTOR_TAG = true := by simpa [Heap.isVec] using hv
  have hnin : c ∉ stk := by
    intro hcs
    have := (stackOK_marked _ _ _ hinv.stack c hcs).2.2
    rw [hm] at this; exact Bool.noConfusion this
  have hstep : markStep ⟨g, (c : Int), p⟩ = markVec g (c : Int) p := by
    rw [markStep_down hcn hm, o1, hv']; simp
  have hcase : g.Car c ≠ T_VECTOR ∨ g.vlen c = 0 := by
    rw [q2, q3]
    simp only [Heap.travVec, hv, Bool.true_and, Bool.and_eq_false_iff, decide_eq_false_iff_not,
      ne_eq, not_not] at ht
    exact ht
  have heq := markVec_done hcn p (by rw [q1]; exact b1)
    (by rw [q1, q3, hinv.nv]; exact b2) hcase
  have hloc : localTo H g (g.doneVec c) c := by
    refine ⟨rfl, rfl, rfl, rfl, ?_, ?_, fun i => Or.inl rfl⟩
    · intro c' hc'; simp [Heap.doneVec, hc']
    · intro w
      by_cases hw1 : w = H.linkIx c
      · exact Or.inr (Or.inl ⟨hv, hw1⟩)
      · left; simp [Heap.doneVec, q4, hw1]
  have hgm : (g.doneVec c).marked c = true := by simp [Heap.marked, Heap.doneVec]
  have hmono : ∀ d, g.marked d = true → (g.doneVec c).marked d = true := by
    intro d hd
    by_cases hdc : d = c
    · subst hdc; exact hgm
    · simpa [Heap.marked, Heap.doneVec, hdc] using hd
  refine ⟨_, _, _, stk, by rw [hstep, heq], ?_, ?_⟩
  · apply MInv_of_local hwf hinv hcL hHm hgm hloc (fun c' _ => Iff.rfl)
    · exact Or.inr ⟨by omega, by simpa using hcL, by simpa using hr⟩
    · apply stackOK_frame hmono stk _ _ _ hinv.stack
      intro d hd
      have hdL := (stackOK_marked _ _ _ hinv.stack d hd).1
      exact sameAt_of_local hwf hcL hloc hdL (fun h => hnin (h ▸ hd))
    · exact hr
    · right
      refine ⟨by simpa [Heap.doneVec] using o2, by simpa [Heap.doneVec] using o3, ?_, ?_⟩
      · rw [succs_vec_nil hv ht]; intro v hv; cases hv
      · simp [hv, ht, Heap.doneVec, o1, q4]
    · exact hinv.base
  · apply potential_lt hwf hcL hloc (fun c' _ => Iff.rfl)
    simp [work, hnin, hm, hv, ht, hgm]

/-- `S1 --> S1` for the vector on top of the stack. -/
theorem step_vec_adv {H g : Heap} {L : List Nat} {root n b : Int} {s : Nat}
    {rest : List Nat} (hwf : WF H L) (hinv : MInv H L root g n (s : Int) (s :: rest))
    (hn : g.okMarked n) (hsL : s ∈ L) (hHm : H.marked s = false)
    (ht : H.travVec s = true) (h1 : g.Tag s = tagS1 (H.Tag s))
    (h2 : g.Car s = H.Car s) (h3 : g.Cdr s = H.Cdr s) {i : Nat}
    (h4 : g.Vectors (H.linkIx s) = (i : Int)) (h5 : i < H.vlen s)
    (h6 : g.Vectors (H.slotIx s i) = b) (h7 : H.slot s i = n)
    (h8 : ∀ j, j < H.vlen s → j ≠ i → g.Vectors (H.slotIx s j) = H.slot s j)
    (h9 : ∀ j, j < i → g.okMarked (H.slot s j))
    (hnin : s ∉ rest) (hrest : stackOK H g L (s : Int) rest b)
    (hlt : i + 1 < H.vlen s) :
    StepGoal H L root g n (s : Int) (s :: rest) := by
  have hsn : s < g.nnodes := by rw [hinv.nn]; exact hwf.1 s hsL
  have hv := travVec_isVec ht
  obtain ⟨q1, q2, q3, q4, q5⟩ := geom_same hwf hinv hsL hv
  obtain ⟨b1, b2⟩ := hwf.2.2.2.1 s hsL hv
  have hv' : tst (H.Tag s) VECTOR_TAG = true := by simpa [Heap.isVec] using hv
  have hgm : g.marked s = true := by simp [Heap.marked, h1]
  have hr : H.Reach root s := (hinv.new s hHm hgm).2.1
  have hstep : markStep ⟨g, n, (s : Int)⟩ = markUp g n (s : Int) := by
    apply markStep_up hn
    intro h0
    rcases hinv.cur with h | ⟨_, hL, _⟩
    · omega
    · rw [hinv.nn]; exact hwf.1 _ hL
  have heq := markUp_vec_adv (i := i) hsn n (by simp [h1, hv']) (by simp [h1])
    (by rw [q1]; exact b1) (by rw [q1, q3, hinv.nv]; exact b2) (by rw [q4]; exact h4)
    (by rw [q3]; exact hlt)
  have e1 : H.slotIx s (i + 1) ≠ H.slotIx s i := by simp only [Heap.slotIx]; omega
  have e2 : H.slotIx s (i + 1) ≠ H.linkIx s := by
    simp only [Heap.slotIx, Heap.linkIx]; omega
  have e3 : H.slotIx s i ≠ H.linkIx s := by simp only [Heap.slotIx, Heap.linkIx]; omega
  have hloc : localTo H g (g.advVec s i n) s := by
    refine ⟨rfl, rfl, rfl, rfl, ?_, ?_, fun i => Or.inl rfl⟩
    · intro c' hc'; simp [Heap.advVec, hc']
    · intro w
      by_cases hw0 : w = H.slotIx s i
      · exact Or.inr (Or.inr (Or.inl ⟨ht, i, h5, hw0⟩))
      · by_cases hw1 : w = H.linkIx s
        · exact Or.inr (Or.inl ⟨hv, hw1⟩)
        · by_cases hw2 : w = H.slotIx s (i + 1)
          · exact Or.inr (Or.inr (Or.inl ⟨ht, i + 1, hlt, hw2⟩))
          · left; simp [Heap.advVec, q4, q5, hw0, hw1, hw2]
  have hmono : ∀ d, g.marked d = true → (g.advVec s i n).marked d = true := by
    intro d hd; simpa [Heap.marked, Heap.advVec] using hd
  have hs1 : g.slot s (i + 1) = H.slot s (i + 1) := by
    unfold Heap.slot; rw [q5]; exact h8 (i + 1) hlt (by omega)
  refine ⟨_, _, _, s :: rest, by rw [hstep, heq], ?_, ?_⟩
  · apply MInv_of_local hwf hinv hsL hHm (hmono s hgm) hloc (fun c' _ => Iff.rfl)
    · rw [hs1]
      exact cur_of_succ hwf hsL hHm hr (slot_mem_succs ht hlt)
    · refine ⟨rfl, hnin, b, ⟨hsL, hHm, Or.inl ⟨ht, by simp [Heap.advVec, h1],
        by simp [Heap.advVec, h2], by simp [Heap.advVec, h3], i + 1, ?_, hlt,
        ?_, hs1.symm, ?_, ?_⟩⟩, ?_⟩
      · simp [Heap.advVec, q4, q5]
      · simp [Heap.advVec, q4, q5, e2, e1, h6]
      · intro j hj hji
        by_cases hj' : j = i
        · subst hj'
          simp [Heap.advVec, q4, q5, e3, h7]
        · have f1 : H.slotIx s j ≠ H.slotIx s i := by simp only [Heap.slotIx]; omega
          have f2 : H.slotIx s j ≠ H.linkIx s := by
            simp only [Heap.slotIx, Heap.linkIx]; omega
          have f3 : H.slotIx s j ≠ H.slotIx s (i + 1) := by simp only [Heap.slotIx]; omega
          simp only [Heap.advVec, q4, q5, upd_ne _ _ f1, upd_ne _ _ f2, upd_ne _ _ f3]
          exact h8 j hj hj'
      · intro j hj
        by_cases hj' : j = i
        · subst hj'; rw [h7]; exact okMarked_mono hmono hn
        · exact okMarked_mono hmono (h9 j (by omega))
      · apply stackOK_frame hmono rest _ _ _ hrest
        intro d hd
        have hdL := (stackOK_marked _ _ _ hrest d hd).1
        exact sameAt_of_local hwf hsL hloc hdL (fun h => hnin (h ▸ hd))
    · exact hr
    · exact Or.inl (List.mem_cons_self _ _)
    · exact hinv.base
  · apply potential_lt hwf hsL hloc (fun c' _ => Iff.rfl)
    simp [work, hv, Heap.advVec, q4, h4]
    omega

/-- `S1 --> done` for the vector on top of the stack. -/
theorem step_vec_pop {H g : Heap} {L : List Nat} {root n b : Int} {s : Nat}
    {rest : List Nat} (hwf : WF H L) (hinv : MInv H L root g n (s : Int) (s :: rest))
    (hn : g.okMarked n) (hsL : s ∈ L) (hHm : H.marked s = false)
    (ht : H.travVec s = true) (h1 : g.Tag s = tagS1 (H.Tag s))
    (h2 : g.Car s = H.Car s) (h3 : g.Cdr s = H.Cdr s) {i : Nat}
    (h4 : g.Vectors (H.linkIx s) = (i : Int)) (h5 : i < H.vlen s)
    (h6 : g.Vectors (H.slotIx s i) = b) (h7 : H.slot s i = n)
    (h8 : ∀ j, j < H.vlen s → j ≠ i → g.Vectors (H.slotIx s j) = H.slot s j)
    (h9 : ∀ j, j < i → g.okMarked (H.slot s j))
    (hnin : s ∉ rest) (hrest : stackOK H g L (s : Int) rest b)
    (hge : ¬ i + 1 < H.vlen s) :
    StepGoal H L root g n (s : Int) (s :: rest) := by
  have hsn : s < g.nnodes := by rw [hinv.nn]; exact hwf.1 s hsL
  have hv := travVec_isVec ht
  obtain ⟨q1, q2, q3, q4, q5⟩ := geom_same hwf hinv hsL hv
  obtain ⟨b1, b2⟩ := hwf.2.2.2.1 s hsL hv
  have hv' : tst (H.Tag s) VECTOR_TAG = true := by simpa [Heap.isVec] using hv
  have hgm : g.marked s = true := by simp [Heap.marked, h1]
  have hr : H.Reach root s := (hinv.new s hHm hgm).2.1
  have hstep : markStep ⟨g, n, (s : Int)⟩ = markUp g n (s : Int) := by
    apply markStep_up hn
    intro h0
    rcases hinv.cur with h | ⟨_, hL, _⟩
    · omega
    · rw [hinv.nn]; exact hwf.1 _ hL
  have heq := markUp_vec_pop (i := i) hsn n (by simp [h1, hv'])
    (by rw [q1]; exact b1) (by rw [q1, q3, hinv.nv]; exact b2) (by rw [q4]; exact h4)
    (by rw [q3]; exact h5) (by rw [q3]; exact hge)
  have e3 : H.slotIx s i ≠ H.linkIx s := by simp only [Heap.slotIx, Heap.linkIx]; omega
  have hloc : localTo H g (g.popVec s i n) s := by
    refine ⟨rfl, rfl, rfl, rfl, ?_, ?_, fun i => Or.inl rfl⟩
    · intro c' hc'; simp [Heap.popVec, hc']
    · intro w
      by_cases hw0 : w = H.slotIx s i
      · exact Or.inr (Or.inr (Or.inl ⟨ht, i, h5, hw0⟩))
      · by_cases hw1 : w = H.linkIx s
        · exact Or.inr (Or.inl ⟨hv, hw1⟩)
        · left; simp [Heap.popVec, q4, q5, hw0, hw1]
  have hmono : ∀ d, g.marked d = true → (g.popVec s i n).marked d = true := by
    intro d hd; simpa [Heap.marked, Heap.popVec] using hd
  have hstk : ∀ c', c' ≠ s → (c' ∈ s :: rest ↔ c' ∈ rest) :=
    fun c' hc' => mem_tail_iff_of_ne rest hc'
  have hsb : g.slot s i = b := by unfold Heap.slot; rw [q5]; exact h6
  refine ⟨_, _, _, rest, by rw [hstep, heq], ?_, ?_⟩
  · apply MInv_of_local hwf hinv hsL hHm (hmono s hgm) hloc hstk
    · exact Or.inr ⟨by omega, by simpa using hsL, by simpa using hr⟩
    · rw [hsb]
      apply stackOK_frame hmono rest _ _ _ hrest
      intro d hd
      have hdL := (stackOK_marked _ _ _ hrest d hd).1
      exact sameAt_of_local hwf hsL hloc hdL (fun h => hnin (h ▸ hd))
    · exact hr
    · right
      have hslots : ∀ j, j < H.vlen s →
          (g.popVec s i n).Vectors (H.slotIx s j) = H.slot s j := by
        intro j hj
        by_cases hj' : j = i
        · subst hj'
          simp [Heap.popVec, q4, q5, e3, h7]
        · have f1 : H.slotIx s j ≠ H.slotIx s i := by simp only [Heap.slotIx]; omega
          have f2 : H.slotIx s j ≠ H.linkIx s := by
            simp only [Heap.slotIx, Heap.linkIx]; omega
          simp only [Heap.popVec, q4, q5, upd_ne _ _ f1, upd_ne _ _ f2]
          exact h8 j hj hj'
      refine ⟨by simpa [Heap.popVec] using h2, by simpa [Heap.popVec] using h3, ?_, ?_⟩
      · rw [succs_travVec ht]; intro v hv
        obtain ⟨j, hj, rfl⟩ := List.mem_map.1 hv
        have hj := List.mem_range.1 hj
        by_cases hj' : j = i
        · subst hj'; rw [h7]; exact okMarked_mono hmono hn
        · exact okMarked_mono hmono (h9 j (by omega))
      · simp only [hv, ht, if_true]
        exact ⟨by simp [Heap.popVec, h1], by simp [Heap.popVec, q4], fun _ => hslots⟩
    · exact hinv.base
  · apply potential_lt hwf hsL hloc hstk
    simp [work, hnin, hv, hmono s hgm, h4]
    omega


/-! ### `marklit` writes only into the literal map -/

theorem sameButOb_refl (g : Heap) (m : Int) (len : Nat) : sameButOb g g m len :=
  ⟨rfl, fun _ _ => rfl⟩

theorem marklitLoop_frame {g : Heap} {v m kI : Int} {lenS lenO : Nat} {b : Nat → Nat}
    (hm0 : 0 ≤ m) (hmr : m + (lenO : Int) ≤ (g.nvcells : Int))
    (hv0 : 0 ≤ v) (hvr : v + (lenS : Int) ≤ (g.nvcells : Int))
    (hk : kI.toNat ≤ sizeof_cell * lenS)
    (hdisj : v + (lenS : Int) ≤ m ∨ m + (lenO : Int) ≤ v)
    (hb : ∀ i, i < kI.toNat → wordByte (g.Vectors (v + ((i / sizeof_cell : Nat) : Int)).toNat)
      (i % sizeof_cell) = b i) :
    ∀ (fuel i : Nat) (g1 : Heap), sameButOb g g1 m lenO →
      litScan b kI.toNat (sizeof_cell * lenO) fuel i = true →
      ∃ g2, marklitLoop v m kI fuel g1 i = some g2 ∧ sameButOb g g2 m lenO := by
  have hbyte : ∀ (g1 : Heap), sameButOb g g1 m lenO → ∀ i, i < kI.toNat →
      g1.bref v i = some (b i) := by
    intro g1 hs i hi
    obtain ⟨e1, e2⟩ := hs
    have hnv : g1.nvcells = g.nvcells := by rw [e1]
    have hbi := hb i hi
    unfold Heap.bref
    simp only [sizeof_cell] at hk hbi ⊢
    have hw : i / 4 < lenS := by omega
    have hin0 : 0 ≤ v + ((i / 4 : Nat) : Int) := by omega
    have hin1 : v + ((i / 4 : Nat) : Int) < (g1.nvcells : Int) := by
      rw [hnv]; omega
    rw [vref_ok hin0 hin1]
    simp only
    rw [e2 _ (by omega), hbi]
  intro fuel
  induction fuel with
  | zero =>
    intro i g1 hs hscan
    simp only [litScan, decide_eq_true_eq] at hscan
    refine ⟨g1, ?_, hs⟩
    have : ¬ ((i : Int) < kI) := by omega
    simp [marklitLoop, this]
  | succ fuel ih =>
    intro i g1 hs hscan
    by_cases hik : i < kI.toNat
    · have hik' : (i : Int) < kI := by omega
      simp only [litScan, hik, if_true] at hscan
      simp only [marklitLoop, hik', if_true, hbyte g1 hs i hik]
      by_cases hq : b i = OP_QUOTE
      · simp only [hq, if_true, Bool.and_eq_true, decide_eq_true_eq] at hscan ⊢
        obtain ⟨⟨h2, ha⟩, hrest⟩ := hscan
        have hf : g1.fetcharg v (i + 1) = some ((b (i + 1)) <<< 8 ||| b (i + 2)) := by
          unfold Heap.fetcharg
          rw [hbyte g1 hs (i + 1) (by omega), hbyte g1 hs (i + 1 + 1) (by omega)]
        simp only [hf]
        obtain ⟨e1, e2⟩ := hs
        have hnv : g1.nvcells = g.nvcells := by rw [e1]
        have hset : ∃ g3, g1.bset m ((b (i + 1)) <<< 8 ||| b (i + 2)) OBUSED = some g3 ∧
            sameButOb g g3 m lenO := by
          unfold Heap.bset
          simp only [sizeof_cell] at ha ⊢
          generalize ((b (i + 1)) <<< 8 ||| b (i + 2)) = a at ha ⊢
          have hw : a / 4 < lenO := by omega
          have hin0 : 0 ≤ m + ((a / 4 : Nat) : Int) := by omega
          have hin1 : m + ((a / 4 : Nat) : Int) < (g1.nvcells : Int) := by rw [hnv]; omega
          rw [vref_ok hin0 hin1]
          simp only
          rw [vset_ok hin0 hin1]
          refine ⟨_, rfl, ?_, ?_⟩
          · simp only; rw [e1]
          · intro w hw'
            simp only
            rw [upd_ne _ _ (by omega)]
            exact e2 w hw'
        obtain ⟨g3, hg3, hs3⟩ := hset
        simp only [hg3]
        exact ih _ g3 hs3 hrest
      · simp only [hq, if_false] at hscan ⊢
        by_cases h1 : isSize1 (b i) = true
        · simp only [h1, if_true] at hscan ⊢
          exact ih _ g1 hs hscan
        · simp only [h1] at hscan ⊢
          by_cases h2 : isSize2 (b i) = true
          · simp only [h2, if_true] at hscan ⊢
            exact ih _ g1 hs hscan
          · simp only [h2] at hscan ⊢
            exact ih _ g1 hs hscan
    · have hik' : ¬ (i : Int) < kI := by omega
      refine ⟨g1, ?_, hs⟩
      simp [marklitLoop, hik']

/-- The `car` of an atom is never written. -/
theorem atom_car_same {H g : Heap} {L : List Nat} {root n p : Int} {stk : List Nat}
    (hinv : MInv H L root g n p stk) {c : Nat}
    (ha : H.isAtom c = true) : g.Car c = H.Car c := by
  by_cases h : H.marked c = true ∨ g.marked c = false
  · exact (hinv.old c h).2.1
  · have h1 : H.marked c = false := by
      cases hh : H.marked c
      · rfl
      · exact absurd (Or.inl hh) h
    have h2 : g.marked c = true := by
      cases hh : g.marked c
      · exact absurd (Or.inr hh) h
      · rfl
    rcases (hinv.new c h1 h2).2.2 with hs | hd
    · obtain ⟨ch, b, _, _, hcase⟩ := stackOK_mem _ _ _ hinv.stack c hs
      rcases hcase with ⟨_, _, h3, _⟩ | ⟨_, _, h3, _⟩ | ⟨hp, _⟩ | ⟨hp, _⟩
      · exact h3
      · exact h3
      · have := (isPair_not_vec hp).2; have := (isAtom_not_vec ha).2; simp_all
      · have := (isPair_not_vec hp).2; have := (isAtom_not_vec ha).2; simp_all
    · exact hd.1

theorem marklit_spec {H g : Heap} {L : List Nat} {root n p : Int} {stk : List Nat}
    (hwf : WF H L) (hinv : MInv H L root g n p stk) {c : Nat}
    (hcL : c ∈ L) (hHm : H.marked c = false) (ha : H.isAtom c = true)
    (hlit : H.litOK c) :
    ∃ g1, marklit g (H.Cdr c) = some g1 ∧ effOK H g g1 := by
  obtain ⟨l0, lv, lcar, lne, lob, lsz, lscan⟩ := hlit
  obtain ⟨s, hs⟩ := Int.eq_ofNat_of_zero_le l0
  obtain ⟨o, ho⟩ := Int.eq_ofNat_of_zero_le lob
  rw [hs] at lv lcar lne lsz lscan ⊢
  rw [ho] at lne lscan
  simp only [Int.toNat_ofNat] at lv lcar lsz lscan
  have hsL : s ∈ L := by
    have := hwf.2.1 c hcL hHm (H.Cdr c) (by rw [succs_atom ha]; simp) l0
    rw [hs] at this; simpa using this
  have hoL : o ∈ L ∧ H.isVec o = true := by
    rcases hwf.2.2.2.2.2 with h | ⟨h1, h2, _⟩
    · omega
    · rw [ho] at h1 h2; simp only [Int.toNat_ofNat] at h1 h2; exact ⟨h1, h2⟩
  have hso : s ≠ o := by
    intro h; apply lne; rw [h]
  obtain ⟨q1, q2, q3, q4, q5⟩ := geom_same hwf hinv hsL lv
  obtain ⟨r1, r2, r3, r4, r5⟩ := geom_same hwf hinv hoL.1 hoL.2
  obtain ⟨b1, b2⟩ := hwf.2.2.2.1 s hsL lv
  obtain ⟨c1, c2⟩ := hwf.2.2.2.1 o hoL.1 hoL.2
  have hsn : s < g.nnodes := by rw [hinv.nn]; exact hwf.1 s hsL
  have hon : o < g.nnodes := by rw [hinv.nn]; exact hwf.1 o hoL.1
  have hsz := size_same hwf hinv hsL lv
  have hns : s ∉ stk := by
    intro h
    have := stackOK_travVec _ _ _ hinv.stack s h lv
    exact lcar (travVec_car this)
  have hdisj := hwf.2.2.2.2.1 s hsL o hoL.1 lv hoL.2 hso
  have hsl : g.stringlen (s : Int) = some (H.Vectors (H.sizeIx s)) := by
    unfold Heap.stringlen
    rw [cdr_nat hsn, q1]
    simp only
    rw [vref_ok (by omega) (by rw [hinv.nv]; omega)]
    exact congrArg some hsz
  have hloop := @marklitLoop_frame g (H.Cdr s) (H.Cdr o)
    (H.Vectors (H.sizeIx s)) (H.vlen s) (H.vlen o)
    (H.byteAt (H.Cdr s)) (by omega) (by rw [hinv.nv]; exact c2) (by omega)
    (by rw [hinv.nv]; exact b2) lsz (by omega) (by
      intro i hi
      unfold Heap.byteAt
      simp only [sizeof_cell] at lsz ⊢
      have hw : i / 4 < H.vlen s := by omega
      have := slot_same hwf hinv hsL lv hns (by rw [ho]; exact lne) hw
      unfold Heap.slotIx at this
      rw [this])
    (H.Vectors (H.sizeIx s)).toNat 0 g (sameButOb_refl _ _ _) lscan
  obtain ⟨g2, hg2, e1, e2⟩ := hloop
  refine ⟨g2, ?_, ?_⟩
  · unfold marklit
    have hob : g.Obmap = (o : Int) := by rw [hinv.ob, ho]
    rw [hsl, cdr_nat hsn, hob, cdr_nat hon, q1, r1]
    exact hg2
  · refine ⟨by rw [e1], by rw [e1], by rw [e1], by rw [e1], by rw [e1], by rw [e1],
      by rw [e1], ?_, fun i => Or.inl (by rw [e1])⟩
    intro w
    by_cases hw : (w : Int) < H.Cdr o ∨ H.Cdr o + (H.vlen o : Int) ≤ (w : Int)
    · exact Or.inl (e2 w hw)
    · right
      refine ⟨lob, ?_, ?_⟩
      · rw [ho]; simp only [Int.toNat_ofNat]; omega
      · rw [ho]; simp only [Int.toNat_ofNat]; omega


theorem effOK_refl (H g : Heap) : effOK H g g :=
  ⟨rfl, rfl, rfl, rfl, rfl, rfl, rfl, fun _ => Or.inl rfl, fun _ => Or.inl rfl⟩

theorem markAtomEffect_spec {H g : Heap} {L : List Nat} {root p : Int} {stk : List Nat}
    (hwf : WF H L) {c : Nat} (hinv : MInv H L root g (c : Int) p stk)
    (hcL : c ∈ L) (hm : g.marked c = false) (ha : H.isAtom c = true) :
    ∃ g1, markAtomEffect g (c : Int) = some g1 ∧ effOK H g g1 := by
  have hcn : c < g.nnodes := by rw [hinv.nn]; exact hwf.1 c hcL
  obtain ⟨o1, o2, o3⟩ := hinv.old c (Or.inr hm)
  have hHm : H.marked c = false := by simpa [Heap.marked, o1] using hm
  obtain ⟨_, hfx⟩ := hwf.2.2.1 c hcL hHm ha
  unfold markAtomEffect
  simp only [Option.bind_eq_bind, cdr_nat hcn, Option.some_bind, car_nat hcn, o2, o3]
  by_cases hd : H.Cdr c = NIL
  · simp only [hd, ne_eq, not_true_eq_false, if_false]
    exact ⟨g, rfl, effOK_refl H g⟩
  · simp only [ne_eq, hd, not_false_eq_true, if_true]
    obtain ⟨hbc, hport⟩ := hfx hd
    by_cases hb : H.Car c = T_BYTECODE
    · simp only [hb, if_true]
      exact marklit_spec hwf hinv hcL hHm ha (hbc hb)
    · simp only [hb, if_false]
      by_cases hp : H.Car c = T_INPORT ∨ H.Car c = T_OUTPORT
      · simp only [hp, if_true]
        obtain ⟨p0, pa, p1, p2⟩ := hport hp
        obtain ⟨d, hd'⟩ := Int.eq_ofNat_of_zero_le p0
        rw [hd'] at pa p1 p2 ⊢
        simp only [Int.toNat_ofNat] at pa p1 p2
        have hdL : d ∈ L := by
          have := hwf.2.1 c hcL hHm (H.Cdr c) (by rw [succs_atom ha]; simp) p0
          rw [hd'] at this; simpa using this
        have hdn : d < g.nnodes := by rw [hinv.nn]; exact hwf.1 d hdL
        rw [car_nat hdn, atom_car_same hinv pa]
        have p2' : H.Car d < (g.nports : Int) := by rw [hinv.np]; exact p2
        simp only [Option.some_bind, Heap.usePort, p1, p2', and_self, if_true]
        refine ⟨_, rfl, rfl, rfl, rfl, rfl, rfl, rfl, rfl, fun _ => Or.inl rfl, ?_⟩
        intro i
        by_cases hi : i = (H.Car d).toNat
        · right; subst hi; simp
        · left; simp [hi]
      · simp only [hp, if_false]
        exact ⟨g, rfl, effOK_refl H g⟩

theorem markAtom_eq {g g1 : Heap} {c : Nat} (hc : c < g.nnodes) (p : Int)
    (he : markAtomEffect g (c : Int) = some g1) (hn : g1.nnodes = g.nnodes) :
    markAtom g (c : Int) p = some (MarkStep.next ⟨g1.pushAtom c p, g1.Cdr c, (c : Int)⟩) := by
  have hc1 : c < g1.nnodes := by rw [hn]; exact hc
  simp [markAtom, he, Heap.pushAtom, Heap.cdr, Heap.setCdr, Heap.orTag, Heap.tag, Heap.setTag,
    Heap.inNodes, hc1]

/-- `S0 --> S2` for an atom. -/
theorem step_atom_push {H g : Heap} {L : List Nat} {root p : Int} {stk : List Nat}
    (hwf : WF H L) {c : Nat} (hinv : MInv H L root g (c : Int) p stk)
    (hcL : c ∈ L) (hr : H.Reach root c) (hm : g.marked c = false)
    (ha : H.isAtom c = true) : StepGoal H L root g (c : Int) p stk := by
  have hcn : c < g.nnodes := by rw [hinv.nn]; exact hwf.1 c hcL
  obtain ⟨o1, o2, o3⟩ := hinv.old c (Or.inr hm)
  have hHm : H.marked c = false := by simpa [Heap.marked, o1] using hm
  have ha' := isAtom_not_vec ha
  obtain ⟨htrav, _⟩ := hwf.2.2.1 c hcL hHm ha
  have hstep : markStep ⟨g, (c : Int), p⟩ = markAtom g (c : Int) p := by
    rw [markStep_down hcn hm, o1, ha'.1, ha'.2]; simp
  have hnin : c ∉ stk := by
    intro hcs
    have := (stackOK_marked _ _ _ hinv.stack c hcs).2.2
    rw [hm] at this; exact Bool.noConfusion this
  obtain ⟨g1, he, e1, e2, e3, e4, e5, e6, e7, e8, e9⟩ := markAtomEffect_spec hwf hinv hcL hm ha
  have heq := markAtom_eq hcn p he e1
  have hloc : localTo H g (g1.pushAtom c p) c := by
    refine ⟨e1, e2, e3, e4, ?_, ?_, e9⟩
    · intro c' hc'; simp [Heap.pushAtom, hc', e5, e6, e7]
    · intro w
      rcases e8 w with h | h
      · exact Or.inl h
      · exact Or.inr (Or.inr (Or.inr h))
  have hgm : (g1.pushAtom c p).marked c = true := by simp [Heap.marked, Heap.pushAtom]
  have hmono : ∀ d, g.marked d = true → (g1.pushAtom c p).marked d = true := by
    intro d hd
    by_cases hdc : d = c
    · subst hdc; exact hgm
    · simpa [Heap.marked, Heap.pushAtom, hdc, e7] using hd
  refine ⟨_, _, _, c :: stk, by rw [hstep, heq], ?_, ?_⟩
  · apply MInv_of_local hwf hinv hcL hHm hgm hloc (fun c' hc' => mem_cons_iff_of_ne stk hc')
    · rw [e6, o3]; exact cur_of_succ hwf hcL hHm hr (by rw [succs_atom ha]; simp)
    · refine ⟨rfl, hnin, p, ⟨hcL, hHm, Or.inr (Or.inl ⟨ha,
        by simp [Heap.pushAtom, e7, o1], by simp [Heap.pushAtom, e5, o2],
        by simp [Heap.pushAtom], by rw [e6, o3]⟩)⟩, ?_⟩
      apply stackOK_frame hmono stk _ _ _ hinv.stack
      intro d hd
      have hdL := (stackOK_marked _ _ _ hinv.stack d hd).1
      exact sameAt_of_local hwf hcL hloc hdL (fun h => hnin (h ▸ hd))
    · exact hr
    · exact Or.inl (List.mem_cons_self _ _)
    · exact hinv.base
  · apply potential_lt hwf hcL hloc (fun c' hc' => mem_cons_iff_of_ne stk hc')
    have hv : H.isVec c = false := by simp [Heap.isVec, ha'.1]
    simp [work, hnin, hm, hv, ha, Heap.pushAtom, e7, o1, htrav]


/-! ### The loop of `mark` -/

/-- One iteration of `mark` under the invariant: either the loop ends with
an empty stack, or the invariant is kept and the potential drops. -/
theorem mark_step {H g : Heap} {L : List Nat} {root n p : Int} {stk : List Nat}
    (hwf : WF H L) (hinv : MInv H L root g n p stk) :
    (stk = [] ∧ g.okMarked n ∧ markStep ⟨g, n, p⟩ = some (MarkStep.done g)) ∨
    StepGoal H L root g n p stk := by
  by_cases hn : g.okMarked n
  · cases stk with
    | nil =>
      left
      refine ⟨rfl, hn, ?_⟩
      have hp : p = NIL := hinv.stack
      have hstep : markStep ⟨g, n, p⟩ = markUp g n p := by
        apply markStep_up hn
        intro h0
        rcases hinv.cur with h | ⟨_, hL, _⟩
        · omega
        · rw [hinv.nn]; exact hwf.1 _ hL
      rw [hstep, hp]; simp [markUp]
    | cons s rest =>
      right
      obtain ⟨hp, hnin, b, ⟨hsL, hHm, hcase⟩, hrest⟩ := hinv.stack
      subst hp
      rcases hcase with ⟨ht, h1, h2, h3, i, h4, h5, h6, h7, h8, h9⟩ | ⟨ha, h1, h2, h3, h4⟩ |
        ⟨hp, h1, h2, h3, h4⟩ | ⟨hp, h1, h2, h3, h4, h5⟩
      · by_cases hlt : i + 1 < H.vlen s
        · exact step_vec_adv hwf hinv hn hsL hHm ht h1 h2 h3 h4 h5 h6 h7 h8 h9 hnin hrest hlt
        · exact step_vec_pop hwf hinv hn hsL hHm ht h1 h2 h3 h4 h5 h6 h7 h8 h9 hnin hrest hlt
      · exact step_pop hwf hinv hn hsL hHm (Or.inl ⟨ha, h1⟩) h3 h4 h2 hnin hrest
      · exact step_pair_turn hwf hinv hn hsL hHm hp h1 h2 h3 h4 hnin hrest
      · exact step_pop hwf hinv hn hsL hHm (Or.inr ⟨hp, h1, h5⟩) h2 h3 h4 hnin hrest
  · right
    have h0 : 0 ≤ n := by
      by_contra h; exact hn (Or.inl (by omega))
    obtain ⟨c, rfl⟩ := Int.eq_ofNat_of_zero_le h0
    have hm : g.marked c = false := by
      cases hh : g.marked c
      · rfl
      · exact absurd (Or.inr (by simpa using hh)) hn
    rcases hinv.cur with h | ⟨_, hcL, hr⟩
    · omega
    · simp only [Int.toNat_ofNat] at hcL hr
      by_cases hv : H.isVec c = true
      · by_cases ht : H.travVec c = true
        · exact step_vec_push hwf hinv hcL hr hm ht
        · exact step_vec_done hwf hinv hcL hr hm hv (by simpa using ht)
      · by_cases ha : H.isAtom c = true
        · exact step_atom_push hwf hinv hcL hr hm ha
        · have hp : H.isPair c = true := by
            simp only [Heap.isVec, Bool.not_eq_true] at hv
            simp only [Heap.isAtom, hv, Bool.not_false, Bool.true_and, Bool.not_eq_true] at ha
            simp [Heap.isPair, hv, ha]
          exact step_pair_push hwf hinv hcL hr hm hp

/-- The loop of `mark` terminates under the invariant, with an empty stack. -/
theorem markLoop_terminates {H : Heap} {L : List Nat} {root : Int} (hwf : WF H L) :
    ∀ (k : Nat) (g : Heap) (n p : Int) (stk : List Nat), MInv H L root g n p stk →
      potential H g L stk ≤ k →
      ∃ fuel g1 n1, markLoop fuel ⟨g, n, p⟩ = some g1 ∧ MInv H L root g1 n1 NIL [] ∧
        g1.okMarked n1 := by
  intro k
  induction k with
  | zero =>
    intro g n p stk hinv hk
    rcases mark_step hwf hinv with ⟨hs, hn, hstep⟩ | ⟨g1, n1, p1, stk1, _, _, hlt⟩
    · subst hs
      have hp : p = NIL := hinv.stack
      subst hp
      exact ⟨1, g, n, by simp [markLoop, hstep], hinv, hn⟩
    · omega
  | succ k ih =>
    intro g n p stk hinv hk
    rcases mark_step hwf hinv with ⟨hs, hn, hstep⟩ | ⟨g1, n1, p1, stk1, hstep, hinv1, hlt⟩
    · subst hs
      have hp : p = NIL := hinv.stack
      subst hp
      exact ⟨1, g, n, by simp [markLoop, hstep], hinv, hn⟩
    · obtain ⟨fuel, g2, n2, hrun, hinv2, hn2⟩ := ih g1 n1 p1 stk1 hinv1 (by omega)
      exact ⟨fuel + 1, g2, n2, by simp [markLoop, hstep, hrun], hinv2, hn2⟩

/-- The invariant holds at the entry of `mark`. -/
theorem MInv_init {H : Heap} {L : List Nat} {root : Int}
    (hroot : root < 0 ∨ (0 ≤ root ∧ root.toNat ∈ L)) : MInv H L root H root NIL [] := by
  refine ⟨rfl, rfl, rfl, rfl, ?_, rfl, rfl, fun c _ => ⟨rfl, rfl, rfl⟩, ?_,
    fun w => Or.inl rfl, fun i => Or.inl rfl⟩
  · rcases hroot with h | ⟨h0, hL⟩
    · exact Or.inl h
    · exact Or.inr ⟨h0, hL, ⟨root.toNat, (Int.toNat_of_nonneg h0).symm, Relation.ReflTransGen.refl⟩⟩
  · intro c h1 h2; rw [h1] at h2; exact Bool.noConfusion h2

theorem markLoop_mono {s : MarkState} {g : Heap} :
    ∀ (f k : Nat), markLoop f s = some g → markLoop (f + k) s = some g := by
  intro f
  induction f generalizing s with
  | zero => intro k h; simp [markLoop] at h
  | succ f ih =>
    intro k h
    rw [Nat.add_right_comm]
    simp only [markLoop] at h ⊢
    cases hs : markStep s with
    | none => rw [hs] at h; simp at h
    | some r =>
      rw [hs] at h
      cases r with
      | done g1 => simpa using h
      | next s1 => simp only at h ⊢; exact ih k h

theorem markLoop_det {s : MarkState} {g1 g2 : Heap} {f1 f2 : Nat}
    (h1 : markLoop f1 s = some g1) (h2 : markLoop f2 s = some g2) : g1 = g2 := by
  have e1 := markLoop_mono f1 f2 h1
  have e2 := markLoop_mono f2 f1 h2
  rw [Nat.add_comm] at e2
  rw [e1] at e2
  exact Option.some.inj e2

theorem MarkPost_of_MInv {H g : Heap} {L : List Nat} {root n : Int}
    (hinv : MInv H L root g n NIL []) (hn : g.okMarked n) : MarkPost H L root g := by
  have hb : n = root := hinv.base
  subst hb
  have hnew : ∀ c, H.marked c = false → g.marked c = true →
      c ∈ L ∧ H.Reach n c ∧ doneOK H g c := by
    intro c h1 h2
    obtain ⟨a, b, d⟩ := hinv.new c h1 h2
    rcases d with d | d
    · cases d
    · exact ⟨a, b, d⟩
  have hfield : ∀ c, g.Car c = H.Car c ∧ g.Cdr c = H.Cdr c := by
    intro c
    by_cases h : H.marked c = true ∨ g.marked c = false
    · exact ⟨(hinv.old c h).2.1, (hinv.old c h).2.2⟩
    · have h1 : H.marked c = false := by
        cases hh : H.marked c
        · rfl
        · exact absurd (Or.inl hh) h
      have h2 : g.marked c = true := by
        cases hh : g.marked c
        · exact absurd (Or.inr hh) h
        · rfl
      exact ⟨(hnew c h1 h2).2.2.1, (hnew c h1 h2).2.2.2.1⟩
  refine ⟨hinv.nn, hinv.nv, hinv.np, hinv.ob, fun c => (hfield c).1, fun c => (hfield c).2,
    fun c hc => (hinv.old c hc).1, hnew, ?_, hinv.ports, hn⟩
  intro w
  rcases hinv.vec w with h | ⟨c, cL, cv, cH, cg, h⟩ | h
  · exact Or.inl h
  · rcases h with h | ⟨hs, _⟩
    · exact Or.inr (Or.inl ⟨c, cL, cv, cH, cg, h⟩)
    · cases hs
  · exact Or.inr (Or.inr h)

/-- On a well-formed heap `mark(root)` terminates and has the effect
`MarkPost`. -/
theorem mark_spec {H : Heap} {L : List Nat} {root : Int} (hwf : WF H L)
    (hroot : root < 0 ∨ (0 ≤ root ∧ root.toNat ∈ L)) :
    ∃ fuel g, mark fuel H root = some g ∧ MarkPost H L root g := by
  obtain ⟨fuel, g, n, hrun, hinv, hn⟩ :=
    markLoop_terminates hwf _ H root NIL [] (MInv_init hroot) (Nat.le_refl _)
  exact ⟨fuel, g, hrun, MarkPost_of_MInv hinv hn⟩

/-- Cells reachable from a marked cell are marked when the marked cells of
`L` are completely visited. -/
theorem reach_marked {H g : Heap}
    (hclosed : ∀ c, g.marked c = true → ∀ v ∈ H.succs c, g.okMarked v) {r c : Nat}
    (hr : g.marked r = true) (hp : Relation.ReflTransGen H.Edge r c) :
    g.marked c = true := by
  induction hp with
  | refl => exact hr
  | tail _ hbc ih =>
    rcases hclosed _ ih _ hbc with h | h
    · omega
    · simpa using h


/-! ## C1 and C2: `mark` -/

/-- The payload of a vector object of `L` other than the literal map is
unchanged by `mark`. -/
theorem post_slot_same {H g : Heap} {L : List Nat} {root : Int}
    (hwf : WF H L) (hpost : MarkPost H L root g) {c : Nat} (hc : c ∈ L)
    (hv : H.isVec c = true) (hno : (c : Int) ≠ H.Obmap)
    {j : Nat} (hj : j < H.vlen c) : g.slot c j = H.slot c j := by
  obtain ⟨_, _, _, hblock, hdisj, hob⟩ := hwf
  have hbc := hblock c hc hv
  unfold Heap.slot
  have e : g.slotIx c j = H.slotIx c j := by unfold Heap.slotIx; rw [hpost.cdr]
  rw [e]
  rcases hpost.vec (H.slotIx c j) with h | ⟨d, dL, dv, _, _, h⟩ | h
  · exact h
  · exfalso
    have hbd := hblock d dL dv
    by_cases hcd : c = d
    · subst hcd
      simp only [Heap.slotIx, Heap.linkIx] at h; omega
    · have hd := hdisj c hc d dL hv dv hcd
      simp only [Heap.slotIx, Heap.linkIx] at h; omega
  · exfalso
    obtain ⟨h0, hlo, hhi⟩ := h
    rcases hob with hob | ⟨hoL, hov, _⟩
    · omega
    · have hbo := hblock _ hoL hov
      have hco : c ≠ H.Obmap.toNat := by
        intro hco; apply hno; rw [hco]; omega
      have hd := hdisj c hc _ hoL hv hov hco
      simp only [Heap.slotIx] at hlo hhi; omega

/-- Every cell reachable from a marked cell of `L` is marked after `mark`,
when the cells of `L` carried no mark before. -/
theorem post_reach_marked {H g : Heap} {L : List Nat} {root : Int}
    (hwf : WF H L) (hpost : MarkPost H L root g)
    (hclean : ∀ c ∈ L, H.marked c = false) {r c : Nat}
    (hr : g.marked r = true ∧ r ∈ L) (hp : Relation.ReflTransGen H.Edge r c) :
    g.marked c = true ∧ c ∈ L := by
  induction hp with
  | refl => exact hr
  | tail _ hbc ih =>
    obtain ⟨hbm, hbL⟩ := ih
    have hd := (hpost.new _ (hclean _ hbL) hbm).2.2.2.2.1 _ hbc
    have hL := hwf.2.1 _ hbL (hclean _ hbL) _ hbc (by omega)
    rcases hd with h | h
    · omega
    · exact ⟨by simpa using h, by simpa using hL⟩

/-- C1 (amended): on a well-formed heap without marks `mark(n)` terminates
and marks exactly the cells reachable from `n` through `CAR` and `CDR` of
pairs, `CDR` of atoms and slots of `T_VECTOR` vectors, cycles included. -/
theorem mark_marks_reachable (H : Heap) (L : List Nat) (n : Int) (hwf : WF H L)
    (hn : n < 0 ∨ (0 ≤ n ∧ n.toNat ∈ L))
    (hclean : ∀ c, c < H.nnodes → H.marked c = false) :
    ∃ fuel g, (∀ k, mark (fuel + k) H n = some g) ∧
      ∀ c, c < H.nnodes → (g.marked c = true ↔ H.Reach n c) := by
  obtain ⟨fuel, g, hrun, hpost⟩ := mark_spec hwf hn
  refine ⟨fuel, g, fun k => markLoop_mono fuel k hrun, ?_⟩
  intro c hc
  constructor
  · intro hm
    exact (hpost.new c (hclean c hc) hm).2.1
  · rintro ⟨r, hr, hp⟩
    have hroot : g.marked r = true ∧ r ∈ L := by
      rcases hn with h | ⟨_, hL⟩
      · omega
      · rcases hpost.root with h | h
        · omega
        · rw [hr] at h hL; simp only [Int.toNat_ofNat] at h hL; exact ⟨h, hL⟩
    exact (post_reach_marked hwf hpost (fun d hd => hclean d (hwf.1 d hd)) hroot hp).1

/-- Witness of C1: the heap with a cycle through a vector slot. -/
theorem mark_marks_reachable_witness :
    ∃ fuel g, (∀ k, mark (fuel + k) cycleHeap 0 = some g) ∧
      ∀ c, c < cycleHeap.nnodes → (g.marked c = true ↔ cycleHeap.Reach 0 c) :=
  mark_marks_reachable cycleHeap [0, 1, 2, 3] 0 (by decide) (by decide) (by decide)

/-- The only cells reachable from cell 0 of `staleTravHeap` are 0 and 1. -/
theorem staleTrav_reach {c : Nat} (h : Relation.ReflTransGen staleTravHeap.Edge 0 c) :
    c = 0 ∨ c = 1 := by
  induction h with
  | refl => exact Or.inl rfl
  | @tail b d _ hbc ih =>
    rcases ih with rfl | rfl
    · have : ((d : Int) ∈ staleTravHeap.succs 0) := hbc
      have e : staleTravHeap.succs 0 = [1] := by decide
      rw [e] at this
      simp only [List.mem_singleton] at this
      right; omega
    · have : ((d : Int) ∈ staleTravHeap.succs 1) := hbc
      have e : staleTravHeap.succs 1 = [-1] := by decide
      rw [e] at this
      simp only [List.mem_singleton] at this
      omega

/-- C1 as stated fails: `staleTravHeap` carries no `MARK_TAG` and all its
references are in range, yet `mark(0)` returns with cell 2 marked, a cell
that is not reachable from cell 0. -/
theorem mark_marks_reachable_counterexample :
    (∀ c, c < staleTravHeap.nnodes → staleTravHeap.marked c = false) ∧
    staleTravHeap.refsInRange ∧
    (∃ g, mark 9 staleTravHeap 0 = some g ∧ g.marked 2 = true) ∧
    ¬ staleTravHeap.Reach 0 2 := by
  refine ⟨by decide, by decide, ⟨_, rfl, by decide⟩, ?_⟩
  rintro ⟨r, hr, hp⟩
  have hr0 : r = 0 := by omega
  subst hr0
  rcases staleTrav_reach hp with h | h <;> omega

/-- C2 (amended): on a well-formed heap `mark(n)` returns, and on return the
`CAR` and `CDR` of every cell, the size word of every vector object and
every slot of every vector other than the literal map hold the values they
held before the call; the only arena words written are backlinks of vector
objects and the payload of the literal map. -/
theorem mark_restores_pointers (H : Heap) (L : List Nat) (n : Int) (hwf : WF H L)
    (hn : n < 0 ∨ (0 ≤ n ∧ n.toNat ∈ L)) :
    (∃ fuel g, mark fuel H n = some g) ∧
    ∀ fuel g, mark fuel H n = some g →
      g.nnodes = H.nnodes ∧ g.nvcells = H.nvcells ∧ g.nports = H.nports ∧
      g.Obmap = H.Obmap ∧
      (∀ c, g.Car c = H.Car c ∧ g.Cdr c = H.Cdr c) ∧
      (∀ c ∈ L, H.isVec c = true → g.vlen c = H.vlen c ∧
        ((c : Int) ≠ H.Obmap → ∀ j, j < H.vlen c → g.slot c j = H.slot c j)) ∧
      (∀ w, g.Vectors w = H.Vectors w ∨
        (∃ c ∈ L, H.isVec c = true ∧ w = H.linkIx c) ∨ H.inOb w) := by
  obtain ⟨fuel0, g0, hrun0, hpost⟩ := mark_spec hwf hn
  refine ⟨⟨fuel0, g0, hrun0⟩, ?_⟩
  intro fuel g hrun
  have hg : g = g0 := markLoop_det hrun hrun0
  subst hg
  refine ⟨hpost.nn, hpost.nv, hpost.np, hpost.ob, fun c => ⟨hpost.car c, hpost.cdr c⟩, ?_, ?_⟩
  · intro c hc hv
    refine ⟨?_, fun hno j hj => post_slot_same hwf hpost hc hv hno hj⟩
    obtain ⟨_, _, _, hblock, hdisj, hob⟩ := hwf
    have hbc := hblock c hc hv
    have e : g.sizeIx c = H.sizeIx c := by unfold Heap.sizeIx; rw [hpost.cdr]
    unfold Heap.vlen
    rw [e]
    congr 2
    rcases hpost.vec (H.sizeIx c) with h | ⟨d, dL, dv, _, _, h⟩ | h
    · exact h
    · exfalso
      have hbd := hblock d dL dv
      by_cases hcd : c = d
      · subst hcd
        simp only [Heap.sizeIx, Heap.linkIx] at h; omega
      · have hd := hdisj c hc d dL hv dv hcd
        simp only [Heap.sizeIx, Heap.linkIx] at h; omega
    · exfalso
      obtain ⟨h0, hlo, hhi⟩ := h
      rcases hob with hob | ⟨hoL, hov, _⟩
      · omega
      · have hbo := hblock _ hoL hov
        by_cases hco : c = H.Obmap.toNat
        · subst hco; simp only [Heap.sizeIx] at hlo hhi; omega
        · have hd := hdisj c hc _ hoL hv hov hco
          simp only [Heap.sizeIx] at hlo hhi; omega
  · intro w
    rcases hpost.vec w with h | ⟨c, cL, cv, _, _, h⟩ | h
    · exact Or.inl h
    · exact Or.inr (Or.inl ⟨c, cL, cv, h⟩)
    · exact Or.inr (Or.inr h)

/-- Witness of C2: the heap with a cycle through a vector slot. -/
theorem mark_restores_pointers_witness :
    (∃ fuel g, mark fuel cycleHeap 0 = some g) ∧
    ∀ fuel g, mark fuel cycleHeap 0 = some g →
      g.nnodes = cycleHeap.nnodes ∧ g.nvcells = cycleHeap.nvcells ∧
      g.nports = cycleHeap.nports ∧ g.Obmap = cycleHeap.Obmap ∧
      (∀ c, g.Car c = cycleHeap.Car c ∧ g.Cdr c = cycleHeap.Cdr c) ∧
      (∀ c ∈ [0, 1, 2, 3], cycleHeap.isVec c = true → g.vlen c = cycleHeap.vlen c ∧
        ((c : Int) ≠ cycleHeap.Obmap → ∀ j, j < cycleHeap.vlen c →
          g.slot c j = cycleHeap.slot c j)) ∧
      (∀ w, g.Vectors w = cycleHeap.Vectors w ∨
        (∃ c ∈ [0, 1, 2, 3], cycleHeap.isVec c = true ∧ w = cycleHeap.linkIx c) ∨
        cycleHeap.inOb w) :=
  mark_restores_pointers cycleHeap [0, 1, 2, 3] 0 (by decide) (by decide)

/-- C2 as stated ("for every heap") fails: on `staleFixnumHeap`, where the
payload atom of a fixnum carries a stale `TRAV_TAG`, `mark(0)` returns with
the `CAR` of cell 1 changed from 0 to `NIL` and its `CDR` changed from `NIL`
to 0. -/
theorem mark_restores_pointers_counterexample :
    ∃ g, mark 6 staleFixnumHeap 0 = some g ∧
      staleFixnumHeap.Car 1 = 0 ∧ g.Car 1 = NIL ∧
      staleFixnumHeap.Cdr 1 = NIL ∧ g.Cdr 1 = 0 :=
  ⟨_, rfl, by decide, by decide, by decide, by decide⟩


/-! ## Marking several roots -/

theorem MarkPost.toAll {H g : Heap} {L : List Nat} {root : Int}
    (h : MarkPost H L root g) : MarkAllPost H L [root] g :=
  ⟨h.nn, h.nv, h.np, h.ob, h.car, h.cdr, h.old,
    fun c h1 h2 => ⟨(h.new c h1 h2).1, ⟨root, List.mem_singleton.2 rfl, (h.new c h1 h2).2.1⟩,
      (h.new c h1 h2).2.2⟩,
    h.vec, h.ports, fun r hr => by rw [List.mem_singleton.1 hr]; exact h.root⟩

theorem MarkAllPost.nil (H : Heap) (L : List Nat) : MarkAllPost H L [] H :=
  ⟨rfl, rfl, rfl, rfl, fun _ => rfl, fun _ => rfl, fun _ _ => rfl,
    fun c h1 h2 => by rw [h1] at h2; exact Bool.noConfusion h2,
    fun _ => Or.inl rfl, fun _ => Or.inl rfl, fun r hr => by cases hr⟩

/-- Marking keeps the class bits of every tag. -/
theorem post_class_same {H g : Heap} {L : List Nat} {rs : List Int}
    (hp : MarkAllPost H L rs g) (c : Nat) :
    tst (g.Tag c) VECTOR_TAG = tst (H.Tag c) VECTOR_TAG ∧
    tst (g.Tag c) ATOM_TAG = tst (H.Tag c) ATOM_TAG := by
  by_cases h : H.marked c = true ∨ g.marked c = false
  · rw [hp.old c h]; exact ⟨rfl, rfl⟩
  · have h1 : H.marked c = false := by
      cases hh : H.marked c
      · rfl
      · exact absurd (Or.inl hh) h
    have h2 : g.marked c = true := by
      cases hh : g.marked c
      · exact absurd (Or.inr hh) h
      · rfl
    obtain ⟨_, _, _, _, _, ht⟩ := hp.new c h1 h2
    by_cases hv : H.isVec c = true
    · simp only [hv, if_true] at ht
      by_cases htv : H.travVec c = true
      · simp only [htv, if_true] at ht; rw [ht.1]; simp
      · simp only [htv] at ht; rw [ht.1]; simp
    · simp only [hv] at ht
      by_cases ha : H.isAtom c = true
      · simp only [ha, if_true] at ht; rw [ht]; simp
      · simp only [ha] at ht; rw [ht]; simp

theorem post_isVec {H g : Heap} {L : List Nat} {rs : List Int}
    (hp : MarkAllPost H L rs g) (c : Nat) : g.isVec c = H.isVec c := by
  simp only [Heap.isVec]; exact (post_class_same hp c).1

theorem post_isAtom {H g : Heap} {L : List Nat} {rs : List Int}
    (hp : MarkAllPost H L rs g) (c : Nat) : g.isAtom c = H.isAtom c := by
  simp only [Heap.isAtom]; rw [(post_class_same hp c).1, (post_class_same hp c).2]

/-- Words of the block of a vector object of `L` that `mark` leaves alone:
the size word, and the payload unless the object is the literal map. -/
theorem post_words {H g : Heap} {L : List Nat} {rs : List Int}
    (hwf : WF H L) (hp : MarkAllPost H L rs g) {c : Nat} (hc : c ∈ L)
    (hv : H.isVec c = true) :
    g.Vectors (H.sizeIx c) = H.Vectors (H.sizeIx c) ∧
    ((c : Int) ≠ H.Obmap → ∀ j, j < H.vlen c →
      g.Vectors (H.slotIx c j) = H.Vectors (H.slotIx c j)) := by
  obtain ⟨_, _, _, hblock, hdisj, hob⟩ := hwf
  have hbc := hblock c hc hv
  constructor
  · rcases hp.vec (H.sizeIx c) with h | ⟨d, dL, dv, _, _, h⟩ | h
    · exact h
    · exfalso
      have hbd := hblock d dL dv
      by_cases hcd : c = d
      · subst hcd
        simp only [Heap.sizeIx, Heap.linkIx] at h; omega
      · have hd := hdisj c hc d dL hv dv hcd
        simp only [Heap.sizeIx, Heap.linkIx] at h; omega
    · exfalso
      obtain ⟨h0, hlo, hhi⟩ := h
      rcases hob with hob | ⟨hoL, hov, _⟩
      · omega
      · have hbo := hblock _ hoL hov
        by_cases hco : c = H.Obmap.toNat
        · subst hco; simp only [Heap.sizeIx] at hlo hhi; omega
        · have hd := hdisj c hc _ hoL hv hov hco
          simp only [Heap.sizeIx] at hlo hhi; omega
  · intro hno j hj
    rcases hp.vec (H.slotIx c j) with h | ⟨d, dL, dv, _, _, h⟩ | h
    · exact h
    · exfalso
      have hbd := hblock d dL dv
      by_cases hcd : c = d
      · subst hcd
        simp only [Heap.slotIx, Heap.linkIx] at h; omega
      · have hd := hdisj c hc d dL hv dv hcd
        simp only [Heap.slotIx, Heap.linkIx] at h; omega
    · exfalso
      obtain ⟨h0, hlo, hhi⟩ := h
      rcases hob with hob | ⟨hoL, hov, _⟩
      · omega
      · have hbo := hblock _ hoL hov
        have hco : c ≠ H.Obmap.toNat := by
          intro hco; apply hno; rw [hco]; omega
        have hd := hdisj c hc _ hoL hv hov hco
        simp only [Heap.slotIx] at hlo hhi; omega

/-- The geometry of the vector objects of `L` after marking. -/
theorem post_geom {H g : Heap} {L : List Nat} {rs : List Int}
    (hwf : WF H L) (hp : MarkAllPost H L rs g) {c : Nat} (hc : c ∈ L)
    (hv : H.isVec c = true) :
    g.sizeIx c = H.sizeIx c ∧ g.linkIx c = H.linkIx c ∧
    (∀ j, g.slotIx c j = H.slotIx c j) ∧ g.vlen c = H.vlen c ∧
    g.travVec c = H.travVec c := by
  have e1 : g.sizeIx c = H.sizeIx c := by unfold Heap.sizeIx; rw [hp.cdr]
  have e2 : g.linkIx c = H.linkIx c := by unfold Heap.linkIx; rw [hp.cdr]
  have e3 : ∀ j, g.slotIx c j = H.slotIx c j := by
    intro j; unfold Heap.slotIx; rw [hp.cdr]
  have e4 : g.vlen c = H.vlen c := by
    unfold Heap.vlen; rw [e1, (post_words hwf hp hc hv).1]
  refine ⟨e1, e2, e3, e4, ?_⟩
  unfold Heap.travVec
  rw [post_isVec hp, hp.car, e4]

/-- The references followed from a cell of `L` are the same after marking. -/
theorem post_succs {H g : Heap} {L : List Nat} {rs : List Int}
    (hwf : WF H L) (hp : MarkAllPost H L rs g) {c : Nat} (hc : c ∈ L) :
    g.succs c = H.succs c := by
  unfold Heap.succs
  rw [post_isVec hp, post_isAtom hp, hp.car, hp.cdr]
  by_cases hv : H.isVec c = true
  · obtain ⟨_, _, e3, e4, e5⟩ := post_geom hwf hp hc hv
    simp only [hv, if_true, e5, e4]
    by_cases ht : H.travVec c = true
    · simp only [ht, if_true]
      apply List.map_congr_left
      intro j hj
      have hj := List.mem_range.1 hj
      unfold Heap.slot
      rw [e3]
      exact (post_words hwf hp hc hv).2 (travVec_ne_ob hwf ht) j hj
    · simp [ht]
  · simp [hv]

theorem litScan_congr {b b1 : Nat → Nat} {k lim : Nat} (h : ∀ i, i < k → b1 i = b i) :
    ∀ fuel i, litScan b1 k lim fuel i = litScan b k lim fuel i := by
  intro fuel
  induction fuel with
  | zero => intro i; rfl
  | succ fuel ih =>
    intro i
    simp only [litScan]
    by_cases hik : i < k
    · simp only [hik, if_true, h i hik, ih]
      by_cases hq : b i = OP_QUOTE
      · simp only [hq, if_true]
        by_cases h2 : i + 2 < k
        · rw [h (i + 1) (by omega), h (i + 2) h2]
        · simp [h2]
      · simp only [hq, if_false]
    · simp only [hik, if_false]

/-- The payload of the literal map stays where it is. -/
theorem post_inOb {H g : Heap} {L : List Nat} {rs : List Int}
    (hwf : WF H L) (hp : MarkAllPost H L rs g) (w : Nat) : g.inOb w ↔ H.inOb w := by
  unfold Heap.inOb
  rw [hp.ob, hp.cdr]
  by_cases h0 : 0 ≤ H.Obmap
  · rcases hwf.2.2.2.2.2 with h | ⟨hoL, hov, _⟩
    · omega
    · rw [(post_geom hwf hp hoL hov).2.2.2.1]
  · simp [h0]

/-- A heap stays well formed when roots are marked. -/
theorem WF_of_post {H g : Heap} {L : List Nat} {rs : List Int}
    (hwf : WF H L) (hclean : ∀ c ∈ L, H.marked c = false)
    (hp : MarkAllPost H L rs g) : WF g L := by
  have hwf' := hwf
  obtain ⟨w1, w2, w3, w4, w5, w6⟩ := hwf
  refine ⟨?_, ?_, ?_, ?_, ?_, ?_⟩
  · intro c hc; rw [hp.nn]; exact w1 c hc
  · intro c hc _ v hv h0
    rw [post_succs hwf' hp hc] at hv
    exact w2 c hc (hclean c hc) v hv h0
  · intro c hc hm ha
    rw [post_isAtom hp] at ha
    have ht := hp.old c (Or.inr hm)
    obtain ⟨t1, t2⟩ := w3 c hc (hclean c hc) ha
    refine ⟨by rw [ht]; exact t1, ?_⟩
    rw [hp.cdr, hp.car]
    intro hd
    obtain ⟨t3, t4⟩ := t2 hd
    constructor
    · intro hb
      obtain ⟨l0, lv, lcar, lne, lob, lsz, lscan⟩ := t3 hb
      have hsL : (H.Cdr c).toNat ∈ L :=
        w2 c hc (hclean c hc) (H.Cdr c) (by rw [succs_atom ha]; simp) l0
      have hoL : H.Obmap.toNat ∈ L ∧ H.isVec H.Obmap.toNat = true := by
        rcases w6 with h | ⟨h1, h2, _⟩
        · omega
        · exact ⟨h1, h2⟩
      obtain ⟨e1, _, e3, e4, _⟩ := post_geom hwf' hp hsL lv
      obtain ⟨f1, _, _, f4, _⟩ := post_geom hwf' hp hoL.1 hoL.2
      have hsz := (post_words hwf' hp hsL lv).1
      have hno : (((H.Cdr c).toNat : Nat) : Int) ≠ H.Obmap := by
        rw [Int.toNat_of_nonneg l0]; exact lne
      unfold Heap.litOK
      rw [hp.cdr, hp.ob, post_isVec hp, hp.car, e1, hsz, e4, f4, hp.cdr]
      refine ⟨l0, lv, lcar, lne, lob, lsz, ?_⟩
      rw [← lscan]
      apply litScan_congr
      intro i hi
      unfold Heap.byteAt
      simp only [sizeof_cell] at lsz ⊢
      have hw : i / 4 < H.vlen (H.Cdr c).toNat := by omega
      have := (post_words hwf' hp hsL lv).2 hno (i / 4) hw
      unfold Heap.slotIx at this
      rw [this]
    · intro hport
      obtain ⟨p0, pa, p1, p2⟩ := t4 hport
      unfold Heap.portOK
      rw [hp.cdr, post_isAtom hp, hp.car, hp.np]
      exact ⟨p0, pa, p1, p2⟩
  · intro c hc hv
    rw [post_isVec hp] at hv
    rw [hp.cdr, (post_geom hwf' hp hc hv).2.2.2.1, hp.nv]
    exact w4 c hc hv
  · intro c hc d hd hcv hdv hne
    rw [post_isVec hp] at hcv hdv
    rw [hp.cdr, hp.cdr, (post_geom hwf' hp hc hcv).2.2.2.1, (post_geom hwf' hp hd hdv).2.2.2.1]
    exact w5 c hc d hd hcv hdv hne
  · rw [hp.ob, post_isVec hp, hp.car]
    exact w6

theorem post_marked_mono {H g : Heap} {L : List Nat} {rs : List Int}
    (hp : MarkAllPost H L rs g) (c : Nat) (h : H.marked c = true) : g.marked c = true := by
  have := hp.old c (Or.inl h)
  simp only [Heap.marked] at h ⊢
  rw [this]; exact h

/-- Reachability after marking is reachability before it. -/
theorem post_reach {H g : Heap} {L : List Nat} {rs : List Int}
    (hwf : WF H L) (hclean : ∀ c ∈ L, H.marked c = false)
    (hp : MarkAllPost H L rs g) {r : Int} (hr : 0 ≤ r → r.toNat ∈ L) {c : Nat}
    (h : g.Reach r c) : H.Reach r c ∧ c ∈ L := by
  obtain ⟨r0, hr0, hpath⟩ := h
  have hr0L : r0 ∈ L := by
    have := hr (by omega)
    rw [hr0] at this; simpa using this
  have key : Relation.ReflTransGen H.Edge r0 c ∧ c ∈ L := by
    induction hpath with
    | refl => exact ⟨Relation.ReflTransGen.refl, hr0L⟩
    | @tail b d _ hbd ih =>
      obtain ⟨ih1, ih2⟩ := ih
      have hbd' : H.Edge b d := by
        unfold Heap.Edge at hbd ⊢
        rw [← post_succs hwf hp ih2]; exact hbd
      refine ⟨ih1.tail hbd', ?_⟩
      have := hwf.2.1 b ih2 (hclean b ih2) _ hbd' (by omega)
      simpa using this
  exact ⟨⟨r0, hr0, key.1⟩, key.2⟩

/-- Marking one more root after the roots `rs`. -/
theorem MarkAllPost.snoc {H g g1 : Heap} {L : List Nat} {rs : List Int} {r : Int}
    (hwf : WF H L) (hclean : ∀ c ∈ L, H.marked c = false)
    (hp : MarkAllPost H L rs g) (hr : 0 ≤ r → r.toNat ∈ L)
    (hq : MarkPost g L r g1) : MarkAllPost H L (rs ++ [r]) g1 := by
  have hwfg : WF g L := WF_of_post hwf hclean hp
  have hmono : ∀ c, g.marked c = true → g1.marked c = true := by
    intro c hc
    have := hq.old c (Or.inl hc)
    simp only [Heap.marked] at hc ⊢
    rw [this]; exact hc
  have hqa := hq.toAll
  refine ⟨hq.nn.trans hp.nn, hq.nv.trans hp.nv, hq.np.trans hp.np, hq.ob.trans hp.ob,
    fun c => (hq.car c).trans (hp.car c), fun c => (hq.cdr c).trans (hp.cdr c), ?_, ?_, ?_, ?_, ?_⟩
  · intro c hc
    have hg : H.marked c = true ∨ g.marked c = false := by
      rcases hc with hc | hc
      · exact Or.inl hc
      · right
        cases hh : g.marked c
        · rfl
        · rw [hmono c hh] at hc; exact Bool.noConfusion hc
    have hg1 : g.marked c = true ∨ g1.marked c = false := by
      rcases hc with hc | hc
      · exact Or.inl (post_marked_mono hp c hc)
      · exact Or.inr hc
    rw [hq.old c hg1, hp.old c hg]
  · intro c hH hg1
    cases hgm : g.marked c
    · -- newly marked by the last call
      obtain ⟨cL, cr, cd⟩ := hq.new c hgm hg1
      obtain ⟨cr1, _⟩ := post_reach hwf hclean hp hr cr
      refine ⟨cL, ⟨r, by simp, cr1⟩, ?_⟩
      obtain ⟨d1, d2, d3, d4⟩ := cd
      have ht : g.Tag c = H.Tag c := hp.old c (Or.inr hgm)
      refine ⟨d1.trans (hp.car c), d2.trans (hp.cdr c), ?_, ?_⟩
      · intro v hv
        rw [← post_succs hwf hp cL] at hv
        exact d3 v hv
      · rw [post_isVec hp, post_isAtom hp, ht] at d4
        by_cases hv : H.isVec c = true
        · obtain ⟨_, e2, e3, e4, e5⟩ := post_geom hwf hp cL hv
          simp only [hv, if_true, e5, e2] at d4 ⊢
          refine ⟨d4.1, d4.2.1, ?_⟩
          intro htv j hj
          have := d4.2.2 htv j (by rw [e4]; exact hj)
          rw [e3] at this
          rw [this]
          unfold Heap.slot
          rw [e3]
          exact (post_words hwf hp cL hv).2 (travVec_ne_ob hwf htv) j hj
        · simp only [hv] at d4 ⊢
          exact d4
    · -- marked by an earlier call
      obtain ⟨cL, cr, cd⟩ := hp.new c hH hgm
      obtain ⟨r0, hr0, hr0r⟩ := cr
      refine ⟨cL, ⟨r0, List.mem_append_left _ hr0, hr0r⟩, ?_⟩
      obtain ⟨d1, d2, d3, d4⟩ := cd
      have ht : g1.Tag c = g.Tag c := hq.old c (Or.inl hgm)
      refine ⟨(hq.car c).trans d1, (hq.cdr c).trans d2,
        fun v hv => okMarked_mono hmono (d3 v hv), ?_⟩
      by_cases hv : H.isVec c = true
      · obtain ⟨e1, e2, e3, e4, e5⟩ := post_geom hwf hp cL hv
        have hgv : g.isVec c = true := by rw [post_isVec hp]; exact hv
        obtain ⟨b1, b2⟩ := hwfg.2.2.2.1 c cL hgv
        simp only [hv, if_true] at d4 ⊢
        have hlink : g1.Vectors (H.linkIx c) = g.Vectors (H.linkIx c) := by
          rcases hq.vec (H.linkIx c) with h | ⟨d, dL, dv, dm, _, h⟩ | h
          · exact h
          · exfalso
            have hcd : c ≠ d := by
              intro hcd; rw [← hcd, hgm] at dm; exact Bool.noConfusion dm
            obtain ⟨bd1, bd2⟩ := hwfg.2.2.2.1 d dL dv
            have hd := hwfg.2.2.2.2.1 c cL d dL hgv dv hcd
            rw [← e2] at h
            simp only [Heap.linkIx] at h; omega
          · exfalso
            obtain ⟨h0, hlo, hhi⟩ := h
            rcases hwfg.2.2.2.2.2 with hob | ⟨hoL, hov, _⟩
            · omega
            · obtain ⟨bo1, bo2⟩ := hwfg.2.2.2.1 _ hoL hov
              rw [← e2] at hlo hhi
              by_cases hco : c = g.Obmap.toNat
              · rw [← hco] at hlo hhi; simp only [Heap.linkIx] at hlo hhi; omega
              · have hd := hwfg.2.2.2.2.1 c cL _ hoL hgv hov hco
                simp only [Heap.linkIx] at hlo hhi; omega
        refine ⟨by rw [ht]; exact d4.1, by rw [hlink]; exact d4.2.1, ?_⟩
        intro htv j hj
        have hslot : g1.Vectors (H.slotIx c j) = g.Vectors (H.slotIx c j) := by
          have hgt : g.travVec c = true := by rw [e5]; exact htv
          have hj' : j < g.vlen c := by rw [e4]; exact hj
          rcases hq.vec (H.slotIx c j) with h | ⟨d, dL, dv, dm, _, h⟩ | h
          · exact h
          · exfalso
            have hcd : c ≠ d := by
              intro hcd; rw [← hcd, hgm] at dm; exact Bool.noConfusion dm
            obtain ⟨bd1, bd2⟩ := hwfg.2.2.2.1 d dL dv
            have hd := hwfg.2.2.2.2.1 c cL d dL hgv dv hcd
            rw [← e3] at h
            simp only [Heap.linkIx, Heap.slotIx] at h; omega
          · exfalso
            obtain ⟨h0, hlo, hhi⟩ := h
            rcases hwfg.2.2.2.2.2 with hob | ⟨hoL, hov, hocar⟩
            · omega
            · obtain ⟨bo1, bo2⟩ := hwfg.2.2.2.1 _ hoL hov
              rw [← e3] at hlo hhi
              have hco : c ≠ g.Obmap.toNat := by
                intro hco; apply hocar; rw [← hco]; exact travVec_car hgt
              have hd := hwfg.2.2.2.2.1 c cL _ hoL hgv hov hco
              simp only [Heap.slotIx] at hlo hhi; omega
        rw [hslot]; exact d4.2.2 htv j hj
      · simp only [hv] at d4 ⊢
        by_cases ha : H.isAtom c = true
        · simp only [ha, if_true] at d4 ⊢; rw [ht]; exact d4
        · simp only [ha] at d4 ⊢; rw [ht]; exact d4
  · intro w
    rcases hq.vec w with h | ⟨d, dL, dv, dm, dm1, h⟩ | h
    · rcases hp.vec w with h' | ⟨d, dL, dv, dm, dm1, h'⟩ | h'
      · exact Or.inl (h.trans h')
      · exact Or.inr (Or.inl ⟨d, dL, dv, dm, hmono d dm1, h'⟩)
      · exact Or.inr (Or.inr h')
    · have dv' : H.isVec d = true := by rw [← post_isVec hp]; exact dv
      refine Or.inr (Or.inl ⟨d, dL, dv', hclean d dL, dm1, ?_⟩)
      rw [h, (post_geom hwf hp dL dv').2.1]
    · exact Or.inr (Or.inr ((post_inOb hwf hp w).1 h))
  · intro i
    rcases hq.ports i with h | h <;> rcases hp.ports i with h' | h'
    · exact Or.inl (h.trans h')
    · exact Or.inr (h.trans h')
    · right; rw [h, h']
    · right; rw [h, h', or_used_idem]
  · intro r' hr'
    rcases List.mem_append.1 hr' with h | h
    · exact okMarked_mono hmono (hp.roots r' h)
    · rw [List.mem_singleton.1 h]; exact hq.root

theorem markAll_mono {fuel : Nat} (k : Nat) :
    ∀ (rs : List Int) (h g : Heap), markAll fuel h rs = some g →
      markAll (fuel + k) h rs = some g
  | [], h, g, hrun => by simpa [markAll] using hrun
  | r :: rs, h, g, hrun => by
    simp only [markAll] at hrun ⊢
    cases hm : mark fuel h r with
    | none => rw [hm] at hrun; simp at hrun
    | some h1 =>
      rw [hm] at hrun
      have : mark (fuel + k) h r = some h1 := markLoop_mono fuel k hm
      rw [this]
      exact markAll_mono k rs h1 g hrun

/-- Marking a list of roots on a well-formed heap without marks terminates
and has the effect `MarkAllPost`. -/
theorem markAll_spec {H : Heap} {L : List Nat} (hwf : WF H L)
    (hclean : ∀ c ∈ L, H.marked c = false) :
    ∀ (rs done : List Int) (g : Heap), MarkAllPost H L done g →
      (∀ r ∈ rs, 0 ≤ r → r.toNat ∈ L) →
      ∃ fuel g1, markAll fuel g rs = some g1 ∧ MarkAllPost H L (done ++ rs) g1
  | [], done, g, hp, _ => ⟨0, g, rfl, by simpa using hp⟩
  | r :: rs, done, g, hp, hrs => by
    have hwfg : WF g L := WF_of_post hwf hclean hp
    have hr : 0 ≤ r → r.toNat ∈ L := hrs r (List.mem_cons_self _ _)
    have hroot : r < 0 ∨ (0 ≤ r ∧ r.toNat ∈ L) := by
      by_cases h : r < 0
      · exact Or.inl h
      · exact Or.inr ⟨by omega, hr (by omega)⟩
    obtain ⟨f1, g1, hrun1, hq⟩ := mark_spec hwfg hroot
    have hp1 := MarkAllPost.snoc hwf hclean hp hr hq
    obtain ⟨f2, g2, hrun2, hp2⟩ := markAll_spec hwf hclean rs (done ++ [r]) g1 hp1
      (fun r' h' => hrs r' (List.mem_cons_of_mem _ h'))
    refine ⟨f1 + f2, g2, ?_, by simpa using hp2⟩
    have e1 : mark (f1 + f2) g r = some g1 := markLoop_mono f1 f2 hrun1
    simp only [markAll, e1]
    have := markAll_mono f1 rs g1 g2 hrun2
    rw [Nat.add_comm] at this
    exact this


/-! ## The sweep of `gc` -/

theorem sweepN_succ (h : Heap) (n : Nat) : sweepN h (n + 1) = sweepStep (sweepN h n) n := by
  unfold sweepN
  rw [List.range_succ, List.foldl_append]
  rfl

theorem freeBelow_lt (h : Heap) : ∀ n c, c ∈ freeBelow h n → c < n ∧ h.marked c = false := by
  intro n
  induction n with
  | zero => intro c hc; cases hc
  | succ n ih =>
    intro c hc
    simp only [freeBelow] at hc
    by_cases hm : h.marked n = true
    · simp only [hm, if_true] at hc
      exact ⟨by have := (ih c hc).1; omega, (ih c hc).2⟩
    · simp only [hm] at hc
      rcases List.mem_cons.1 hc with rfl | hc
      · exact ⟨by omega, by simpa using hm⟩
      · exact ⟨by have := (ih c hc).1; omega, (ih c hc).2⟩

theorem mem_freeBelow (h : Heap) : ∀ n c, c < n → h.marked c = false → c ∈ freeBelow h n := by
  intro n
  induction n with
  | zero => intro c hc; omega
  | succ n ih =>
    intro c hc hm
    simp only [freeBelow]
    by_cases hcn : c = n
    · subst hcn; simp [hm]
    · have := ih c (by omega) hm
      by_cases hm' : h.marked n = true
      · simp [hm', this]
      · simp [hm', this]

theorem freeBelow_nodup (h : Heap) : ∀ n, (freeBelow h n).Nodup := by
  intro n
  induction n with
  | zero => exact List.nodup_nil
  | succ n ih =>
    simp only [freeBelow]
    by_cases hm : h.marked n = true
    · simp [hm, ih]
    · simp only [hm]
      refine List.nodup_cons.2 ⟨?_, ih⟩
      intro hc
      have := (freeBelow_lt h n n hc).1
      omega

theorem liveBelow_mem (h : Heap) : ∀ n c, c ∈ liveBelow h n ↔ c < n ∧ h.marked c = true := by
  intro n
  induction n with
  | zero => intro c; simp [liveBelow]
  | succ n ih =>
    intro c
    simp only [liveBelow]
    by_cases hm : h.marked n = true
    · simp only [hm, if_true, List.mem_cons, ih]
      constructor
      · rintro (rfl | ⟨h1, h2⟩)
        · exact ⟨by omega, hm⟩
        · exact ⟨by omega, h2⟩
      · rintro ⟨h1, h2⟩
        by_cases hcn : c = n
        · exact Or.inl hcn
        · exact Or.inr ⟨by omega, h2⟩
    · have hm' : h.marked n = false := by simpa using hm
      simp only [hm', Bool.false_eq_true, if_false, ih]
      constructor
      · rintro ⟨h1, h2⟩; exact ⟨by omega, h2⟩
      · rintro ⟨h1, h2⟩
        have hcn : c ≠ n := by rintro rfl; exact hm h2
        exact ⟨by omega, h2⟩

theorem liveBelow_nodup (h : Heap) : ∀ n, (liveBelow h n).Nodup := by
  intro n
  induction n with
  | zero => exact List.nodup_nil
  | succ n ih =>
    simp only [liveBelow]
    by_cases hm : h.marked n = true
    · simp only [hm, if_true]
      refine List.nodup_cons.2 ⟨?_, ih⟩
      intro hc
      have := ((liveBelow_mem h n n).1 hc).1
      omega
    · simp [hm, ih]

theorem free_live_length (h : Heap) :
    ∀ n, (freeBelow h n).length + (liveBelow h n).length = n := by
  intro n
  induction n with
  | zero => rfl
  | succ n ih =>
    simp only [freeBelow, liveBelow]
    by_cases hm : h.marked n = true
    · simp only [hm, if_true, List.length_cons]; omega
    · have hm' : h.marked n = false := by simpa using hm
      simp only [hm', Bool.false_eq_true, if_false, List.length_cons]; omega

/-- The free chain only depends on the `Cdr` of its cells. -/
theorem freeChain_congr {h h1 : Heap} (hn : h1.nnodes = h.nnodes) :
    ∀ (fuel : Nat) (x : Int) (l : List Nat), freeChain h fuel x = some l →
      (∀ c ∈ l, h1.Cdr c = h.Cdr c) → freeChain h1 fuel x = some l := by
  intro fuel
  induction fuel with
  | zero =>
    intro x l hrun _
    simp only [freeChain] at hrun ⊢
    exact hrun
  | succ fuel ih =>
    intro x l hrun hl
    simp only [freeChain] at hrun ⊢
    by_cases hx : x = NIL
    · simp only [hx, if_true] at hrun ⊢; exact hrun
    · simp only [hx, if_false] at hrun ⊢
      cases hc : h.cdr x with
      | none => rw [hc] at hrun; simp at hrun
      | some d =>
        rw [hc] at hrun
        simp only at hrun
        cases hr : freeChain h fuel d with
        | none => rw [hr] at hrun; simp at hrun
        | some l' =>
          rw [hr] at hrun
          simp only [Option.some.injEq] at hrun
          subst hrun
          have hin : h.inNodes x = true := by
            unfold Heap.cdr at hc
            by_cases hi : h.inNodes x = true
            · exact hi
            · simp [hi] at hc
          have hin1 : h1.inNodes x = true := by
            unfold Heap.inNodes at hin ⊢; rw [hn]; exact hin
          have hd : h.Cdr x.toNat = d := by
            unfold Heap.cdr at hc; simp only [hin, if_true, Option.some.injEq] at hc; exact hc
          have hc1 : h1.cdr x = some d := by
            unfold Heap.cdr
            simp only [hin1, if_true]
            rw [hl x.toNat (List.mem_cons_self _ _), hd]
          rw [hc1]
          simp only
          rw [ih d l' hr (fun c hc' => hl c (List.mem_cons_of_mem _ hc'))]

theorem freeChain_mono {h : Heap} :
    ∀ (fuel : Nat) (x : Int) (l : List Nat), freeChain h fuel x = some l →
      freeChain h (fuel + 1) x = some l := by
  intro fuel
  induction fuel with
  | zero =>
    intro x l hrun
    simp only [freeChain] at hrun ⊢
    by_cases hx : x = NIL
    · simp only [hx, if_true] at hrun ⊢; exact hrun
    · simp [hx] at hrun
  | succ fuel ih =>
    intro x l hrun
    rw [freeChain] at hrun ⊢
    by_cases hx : x = NIL
    · simp only [hx, if_true] at hrun ⊢; exact hrun
    · simp only [hx, if_false] at hrun ⊢
      cases hc : h.cdr x with
      | none => rw [hc] at hrun; simp at hrun
      | some d =>
        rw [hc] at hrun
        simp only at hrun ⊢
        cases hr : freeChain h fuel d with
        | none => rw [hr] at hrun; simp at hrun
        | some l' =>
          rw [hr] at hrun
          rw [ih d l' hr]
          exact hrun

theorem freeChain_mono_le {h : Heap} {x : Int} {l : List Nat} {f1 f2 : Nat}
    (hle : f1 ≤ f2) (hrun : freeChain h f1 x = some l) : freeChain h f2 x = some l := by
  induction hle with
  | refl => exact hrun
  | step _ ih => exact freeChain_mono _ x l ih


/-- The sweep of the first `n` cells: marked cells lose `MARK_TAG`, unmarked
cells are threaded on the free list, highest first, and counted. -/
theorem sweepN_spec (h : Heap) : ∀ n, n ≤ h.nnodes →
    (sweepN h n).h.nnodes = h.nnodes ∧ (sweepN h n).h.nvcells = h.nvcells ∧
    (sweepN h n).h.nports = h.nports ∧ (sweepN h n).h.Obmap = h.Obmap ∧
    (sweepN h n).h.Car = h.Car ∧ (sweepN h n).h.Vectors = h.Vectors ∧
    (sweepN h n).h.Port_flags = h.Port_flags ∧
    (∀ i, (sweepN h n).h.Tag i =
      if i < n ∧ h.marked i = true then clrMark (h.Tag i) else h.Tag i) ∧
    (∀ i, (n ≤ i ∨ h.marked i = true) → (sweepN h n).h.Cdr i = h.Cdr i) ∧
    (sweepN h n).k = (freeBelow h n).length ∧
    freeChain (sweepN h n).h (freeBelow h n).length (sweepN h n).Freelist
      = some (freeBelow h n) := by
  intro n
  induction n with
  | zero =>
    intro _
    refine ⟨rfl, rfl, rfl, rfl, rfl, rfl, rfl, ?_, fun _ _ => rfl, rfl, ?_⟩
    · intro i; simp [sweepN]
    · simp [freeBelow, freeChain, sweepN]
  | succ n ih =>
    intro hn
    obtain ⟨i1, i2, i3, i4, i5, i6, i7, i8, i9, i10, i11⟩ := ih (by omega)
    rw [sweepN_succ]
    have htag : (sweepN h n).h.Tag n = h.Tag n := by rw [i8 n]; simp
    by_cases hm : h.marked n = true
    · have hm' : tst (h.Tag n) MARK_TAG = true := hm
      have hstep : sweepStep (sweepN h n) n =
          { sweepN h n with h := { (sweepN h n).h with
              Tag := upd (sweepN h n).h.Tag n (clrMark ((sweepN h n).h.Tag n)) } } := by
        simp [sweepStep, htag, hm']
      rw [hstep]
      refine ⟨i1, i2, i3, i4, i5, i6, i7, ?_, ?_, ?_, ?_⟩
      · intro i
        by_cases hin : i = n
        · subst hin; simp [htag, hm]
        · simp only [upd_ne _ _ hin, i8 i]
          have : (i < n + 1 ∧ h.marked i = true) ↔ (i < n ∧ h.marked i = true) := by
            constructor
            · rintro ⟨a, b⟩; exact ⟨by omega, b⟩
            · rintro ⟨a, b⟩; exact ⟨by omega, b⟩
          simp only [this]
      · intro i hi
        apply i9 i
        rcases hi with hi | hi
        · exact Or.inl (by omega)
        · exact Or.inr hi
      · simp [freeBelow, hm, i10]
      · simp only [freeBelow, hm, if_true]
        refine @freeChain_congr (sweepN h n).h _ ?_ _ _ _ i11 ?_
        · rfl
        · intro _ _; rfl
    · have hm0 : h.marked n = false := by simpa using hm
      have hm' : tst (h.Tag n) MARK_TAG = false := hm0
      have hstep : sweepStep (sweepN h n) n =
          { h := { (sweepN h n).h with Cdr := upd (sweepN h n).h.Cdr n (sweepN h n).Freelist },
            Freelist := (n : Int), k := (sweepN h n).k + 1 } := by
        simp [sweepStep, htag, hm']
      rw [hstep]
      refine ⟨i1, i2, i3, i4, i5, i6, i7, ?_, ?_, ?_, ?_⟩
      · intro i
        simp only [i8 i]
        by_cases hin : i = n
        · subst hin; simp [hm0]
        · have : (i < n + 1 ∧ h.marked i = true) ↔ (i < n ∧ h.marked i = true) := by
            constructor
            · rintro ⟨a, b⟩; exact ⟨by omega, b⟩
            · rintro ⟨a, b⟩; exact ⟨by omega, b⟩
          simp only [this]
      · intro i hi
        have hin : i ≠ n := by
          rintro rfl
          rcases hi with hi | hi
          · omega
          · exact hm hi
        simp only [upd_ne _ _ hin]
        apply i9 i
        rcases hi with hi | hi
        · exact Or.inl (by omega)
        · exact Or.inr hi
      · simp [freeBelow, hm0, i10]
      · simp only [freeBelow, hm0, Bool.false_eq_true, if_false, List.length_cons]
        have hnn : n < (sweepN h n).h.nnodes := by rw [i1]; omega
        have hrest : freeChain
            { (sweepN h n).h with Cdr := upd (sweepN h n).h.Cdr n (sweepN h n).Freelist }
            (freeBelow h n).length (sweepN h n).Freelist = some (freeBelow h n) := by
          refine @freeChain_congr (sweepN h n).h _ ?_ _ _ _ i11 ?_
          · rfl
          intro c hc
          have := (freeBelow_lt h n c hc).1
          simp only [upd_ne _ _ (show c ≠ n by omega)]
        simp only [freeChain, natCast_ne_NIL, if_false, Heap.cdr, Heap.inNodes]
        simp only [Int.natCast_nonneg, decide_True, Bool.true_and, Nat.cast_lt, hnn,
          if_true, upd_same, hrest, Int.toNat_ofNat]

/-! ## The phases of `gc` -/

/-- Every cell reachable from a marked cell of `L` is marked after the
marking of the roots, when the cells of `L` carried no mark before. -/
theorem postAll_reach_marked {H g : Heap} {L : List Nat} {rs : List Int}
    (hwf : WF H L) (hpost : MarkAllPost H L rs g)
    (hclean : ∀ c ∈ L, H.marked c = false) {r c : Nat}
    (hr : g.marked r = true ∧ r ∈ L) (hp : Relation.ReflTransGen H.Edge r c) :
    g.marked c = true ∧ c ∈ L := by
  induction hp with
  | refl => exact hr
  | tail _ hbc ih =>
    obtain ⟨hbm, hbL⟩ := ih
    have hd := (hpost.new _ (hclean _ hbL) hbm).2.2.2.2.1 _ hbc
    have hL := hwf.2.1 _ hbL (hclean _ hbL) _ hbc (by omega)
    rcases hd with h | h
    · omega
    · exact ⟨by simpa using h, by simpa using hL⟩

/-- After the marking of the roots a cell of the pool is marked exactly when
it is reachable from a root. -/
theorem postAll_marked_iff {H g : Heap} {L : List Nat} {rs : List Int}
    (hwf : WF H L) (hpost : MarkAllPost H L rs g)
    (hclean : ∀ c, c < H.nnodes → H.marked c = false)
    (hrs : ∀ r ∈ rs, 0 ≤ r → r.toNat ∈ L) {c : Nat} (hc : c < H.nnodes) :
    g.marked c = true ↔ H.ReachAny rs c := by
  constructor
  · intro hm
    exact (hpost.new c (hclean c hc) hm).2.1
  · rintro ⟨x, hx, r, hr, hp⟩
    have hroot : g.marked r = true ∧ r ∈ L := by
      have hL := hrs x hx (by omega)
      rcases hpost.roots x hx with h | h
      · omega
      · rw [hr] at h hL; simp only [Int.toNat_ofNat] at h hL; exact ⟨h, hL⟩
    exact (postAll_reach_marked hwf hpost (fun d hd => hclean d (hwf.1 d hd)) hroot hp).1

/-- More fuel does not change the result of `gc`. -/
theorem gc_mono {fuel : Nat} {M : Machine} {x : Machine × Nat} (j : Nat)
    (h : gc fuel M = some x) : gc (fuel + j) M = some x := by
  unfold gc at h ⊢
  cases hp : gcPrep M with
  | none => rw [hp] at h; simp at h
  | some p =>
    obtain ⟨sk, h1⟩ := p
    rw [hp] at h
    simp only at h ⊢
    cases hm : markAll fuel h1 M.roots with
    | none => rw [hm] at h; simp at h
    | some h2 =>
      rw [hm] at h
      rw [markAll_mono j _ _ _ hm]
      exact h

/-- A byte write inside the arena changes arena words only. -/
theorem bset_ok (h : Heap) (m : Int) (i b : Nat)
    (hm : h.inVec (m + ((i / sizeof_cell : Nat) : Int)) = true) :
    ∃ v, h.bset m i b = some { h with Vectors := v } ∧
      ∀ w, w ≠ (m + ((i / sizeof_cell : Nat) : Int)).toNat → v w = h.Vectors w := by
  unfold Heap.bset Heap.vref Heap.vset
  simp only [hm, if_true]
  refine ⟨_, rfl, ?_⟩
  intro w hw
  unfold upd; rw [if_neg hw]

/-- One iteration of the literal loop of `gc` inside the arena changes arena
words only: the word of the map byte and the slot of the literal. -/
theorem litStep_ok (a m : Int) (h : Heap) (i : Nat)
    (hm : h.inVec (m + ((i / sizeof_cell : Nat) : Int)) = true)
    (ha : h.inVec (a + (i : Int)) = true) :
    ∃ h1, litStep a m h i = some h1 ∧ h1 = { h with Vectors := h1.Vectors } ∧
      ∀ w, w ≠ (m + ((i / sizeof_cell : Nat) : Int)).toNat → w ≠ (a + (i : Int)).toNat →
        h1.Vectors w = h.Vectors w := by
  unfold litStep
  have hb : h.bref m i = some (wordByte (h.Vectors (m + ((i / sizeof_cell : Nat) : Int)).toNat)
      (i % sizeof_cell)) := by
    unfold Heap.bref Heap.vref
    simp only [hm, if_true]
  rw [hb]
  simp only
  split
  · obtain ⟨v, hv, hvw⟩ := bset_ok h m i OBALLOC hm
    exact ⟨_, hv, rfl, fun w h1 _ => hvw w h1⟩
  · obtain ⟨v, hv, hvw⟩ := bset_ok h m i OBFREE hm
    rw [hv]
    simp only
    have ha' : Heap.inVec { h with Vectors := v } (a + (i : Int)) = true := ha
    unfold Heap.vset
    simp only [ha', if_true]
    refine ⟨_, rfl, rfl, ?_⟩
    intro w h1 h2
    show upd v (a + (i : Int)).toNat NIL w = h.Vectors w
    unfold upd; rw [if_neg h2]; exact hvw w h1

/-- The literal loop of `gc` inside the arena changes arena words only: words
of map bytes and slots of literals. -/
theorem litLoop_ok (a m : Int) : ∀ (cnt i : Nat) (h : Heap),
    (∀ j, i ≤ j → j < i + cnt →
      h.inVec (m + ((j / sizeof_cell : Nat) : Int)) = true ∧
      h.inVec (a + (j : Int)) = true) →
    ∃ h1, litLoop a m cnt i h = some h1 ∧ h1 = { h with Vectors := h1.Vectors } ∧
      ∀ w, (∀ j, i ≤ j → j < i + cnt →
          w ≠ (m + ((j / sizeof_cell : Nat) : Int)).toNat ∧ w ≠ (a + (j : Int)).toNat) →
        h1.Vectors w = h.Vectors w
  | 0, _, h, _ => ⟨h, rfl, rfl, fun _ _ => rfl⟩
  | cnt + 1, i, h, hr => by
    obtain ⟨h1, e1, e2, e2w⟩ := litStep_ok a m h i (hr i (le_refl _) (by omega)).1
      (hr i (le_refl _) (by omega)).2
    have hr1 : ∀ j, i + 1 ≤ j → j < i + 1 + cnt →
        h1.inVec (m + ((j / sizeof_cell : Nat) : Int)) = true ∧
        h1.inVec (a + (j : Int)) = true := by
      intro j h1j h2j
      have := hr j (by omega) (by omega)
      rw [e2]; exact this
    obtain ⟨h2, e3, e4, e4w⟩ := litLoop_ok a m cnt (i + 1) h1 hr1
    refine ⟨h2, ?_, ?_, ?_⟩
    · simp only [litLoop, e1, e3]
    · rw [e4, e2]
    · intro w hw
      rw [e4w w (fun j h1j h2j => hw j (by omega) (by omega))]
      exact e2w w (hw i (le_refl _) (by omega)).1 (hw i (le_refl _) (by omega)).2

/-- The step of `gc` that gives the stack its length back writes the size
word of the stack only. -/
theorem restore_ok {H1 h2 : Heap} {L : List Nat} {rs : List Int}
    (hwf : WF H1 L) (hp : MarkAllPost H1 L rs h2) (rts sk : Int)
    (hr : rts = NIL ∨ (0 ≤ rts ∧ rts.toNat ∈ L ∧ H1.isVec rts.toNat = true)) :
    ∃ h3, (if rts ≠ NIL then h2.setStringlen rts sk else some h2) = some h3 ∧
      h3 = { h2 with Vectors := h3.Vectors } ∧
      ∀ w, h3.Vectors w =
        if rts ≠ NIL ∧ w = H1.sizeIx rts.toNat then sk else h2.Vectors w := by
  rcases hr with hr | ⟨h0, hL, hv⟩
  · refine ⟨h2, by simp [hr], rfl, fun w => ?_⟩
    simp [hr]
  · have hne : rts ≠ NIL := by unfold NIL; omega
    have hn := hwf.1 _ hL
    have hb := hwf.2.2.2.1 _ hL hv
    have hin : h2.inNodes rts = true := by
      simp only [Heap.inNodes, hp.nn]; simp; omega
    have hcd : h2.Cdr rts.toNat = H1.Cdr rts.toNat := hp.cdr _
    have hiv : h2.inVec (h2.Cdr rts.toNat - 1) = true := by
      simp only [Heap.inVec, hp.nv, hcd]; simp; omega
    refine ⟨{ h2 with Vectors := upd h2.Vectors (h2.Cdr rts.toNat - 1).toNat sk }, ?_, rfl, ?_⟩
    · simp only [hne, ne_eq, not_false_eq_true, if_true, Heap.setStringlen, Heap.cdr, hin,
        Heap.vset, hiv]
    · intro w
      show upd h2.Vectors (h2.Cdr rts.toNat - 1).toNat sk w = _
      have e : (h2.Cdr rts.toNat - 1).toNat = H1.sizeIx rts.toNat := by rw [hcd]; rfl
      rw [e]
      unfold upd
      by_cases hw : w = H1.sizeIx rts.toNat
      · rw [if_pos hw, if_pos ⟨hne, hw⟩]
      · rw [if_neg hw, if_neg (fun h => hw h.2)]

/-- The narrowing of the stack writes its size word only and returns the
old size word. -/
theorem narrowRts_frame {h H1 : Heap} {rts sp sk : Int}
    (hrun : narrowRts h rts sp = some (sk, H1)) :
    H1 = { h with Vectors := H1.Vectors } ∧
    (∀ w, (rts = NIL ∨ w ≠ h.sizeIx rts.toNat) → H1.Vectors w = h.Vectors w) ∧
    (rts ≠ NIL → sk = h.Vectors (h.sizeIx rts.toNat)) := by
  unfold narrowRts at hrun
  by_cases hne : rts = NIL
  · simp only [hne, ne_eq, not_true_eq_false, if_false, Option.some.injEq, Prod.mk.injEq] at hrun
    obtain ⟨_, rfl⟩ := hrun
    exact ⟨rfl, fun _ _ => rfl, fun h => absurd hne h⟩
  · simp only [ne_eq, hne, not_false_eq_true, if_true] at hrun
    unfold Heap.stringlen Heap.setStringlen Heap.cdr at hrun
    by_cases hin : h.inNodes rts = true
    · simp only [hin, if_true] at hrun
      unfold Heap.vref Heap.vset at hrun
      by_cases hiv : h.inVec (h.Cdr rts.toNat - 1) = true
      · simp only [hiv, if_true, Option.some.injEq, Prod.mk.injEq] at hrun
        obtain ⟨e1, rfl⟩ := hrun
        refine ⟨rfl, ?_, fun _ => e1.symm⟩
        intro w hw
        rcases hw with hw | hw
        · exact absurd hw hne
        · show upd _ _ _ w = _
          unfold upd; exact if_neg hw
      · simp [hiv] at hrun
    · simp [hin] at hrun

/-- The preparation of `gc` changes port flags and the size word of the
stack only; the saved length is the size word of the stack. -/
theorem gcPrep_frame {M : Machine} {sk : Int} {H1 : Heap} (h : gcPrep M = some (sk, H1)) :
    H1.nnodes = M.heap.nnodes ∧ H1.nvcells = M.heap.nvcells ∧ H1.nports = M.heap.nports ∧
    H1.Obmap = M.heap.Obmap ∧ H1.Car = M.heap.Car ∧ H1.Cdr = M.heap.Cdr ∧
    H1.Tag = M.heap.Tag ∧
    (∀ w, (M.Rts = NIL ∨ w ≠ M.heap.sizeIx M.Rts.toNat) → H1.Vectors w = M.heap.Vectors w) ∧
    (M.Rts ≠ NIL → sk = M.heap.Vectors (M.heap.sizeIx M.Rts.toNat)) := by
  unfold gcPrep at h
  obtain ⟨e1, e2, e3⟩ := narrowRts_frame h
  refine ⟨?_, ?_, ?_, ?_, ?_, ?_, ?_, e2, e3⟩ <;> rw [e1]

/-- The literal loop of `gc` returns on a heap `s` that agrees with the
well-formed heap `H1` on the literal vector and on the literal map; its
result is `s`, or the result of the loop over the slots of the literal
vector. -/
theorem litSweep_run {H1 s : Heap} {L : List Nat} {obarray : Int}
    (hw : WF H1 L) (hlit : litSweepOK H1 L obarray)
    (hn : s.nnodes = H1.nnodes) (hv : s.nvcells = H1.nvcells) (hob : s.Obmap = H1.Obmap)
    (hca : 0 ≤ obarray → s.Cdr obarray.toNat = H1.Cdr obarray.toNat)
    (hsz : 0 ≤ obarray → s.Vectors (H1.sizeIx obarray.toNat)
      = H1.Vectors (H1.sizeIx obarray.toNat))
    (hcm : 0 ≤ H1.Obmap → s.Cdr H1.Obmap.toNat = H1.Cdr H1.Obmap.toNat)
    (P : Heap → Prop) (hPs : P s)
    (hP : 0 ≤ obarray → 0 ≤ H1.Obmap →
      H1.vlen obarray.toNat ≤ sizeof_cell * H1.vlen H1.Obmap.toNat → ∀ h4,
      h4 = { s with Vectors := h4.Vectors } →
      (∀ w, (∀ j, j < H1.vlen obarray.toNat →
          w ≠ (H1.Cdr H1.Obmap.toNat + ((j / sizeof_cell : Nat) : Int)).toNat ∧
          w ≠ (H1.Cdr obarray.toNat + (j : Int)).toNat) →
        h4.Vectors w = s.Vectors w) → P h4) :
    ∃ h4, litSweep s obarray = some h4 ∧ P h4 := by
  unfold litSweep
  rcases hlit with h | ⟨h0, hL, hvec, hrest⟩
  · exact ⟨s, by simp [h], hPs⟩
  · have hne : obarray ≠ NIL := by unfold NIL; omega
    have hlt := hw.1 _ hL
    have hb := hw.2.2.2.1 _ hL hvec
    have hin : s.inNodes obarray = true := by
      simp only [Heap.inNodes, hn]; simp; omega
    have hiv : s.inVec (s.Cdr obarray.toNat - 1) = true := by
      simp only [Heap.inVec, hv, hca h0]; simp; omega
    have hsix : (s.Cdr obarray.toNat - 1).toNat = H1.sizeIx obarray.toNat := by
      rw [hca h0]; rfl
    have hlen : s.veclen obarray = some (H1.vlen obarray.toNat) := by
      simp only [Heap.veclen, Heap.stringlen, Heap.cdr, hin, if_true, Heap.vref, hiv, hsix,
        hsz h0, Heap.vlen]
    have hcdr : s.cdr obarray = some (H1.Cdr obarray.toNat) := by
      simp only [Heap.cdr, hin, if_true, hca h0]
    simp only [hne, if_false, hlen, hcdr, hob]
    rcases hrest with ⟨hm, hz⟩ | ⟨hm0, hle⟩
    · simp only [hm, if_true, hz]
      exact ⟨s, rfl, hPs⟩
    · have hmne : H1.Obmap ≠ NIL := by unfold NIL; omega
      rcases hw.2.2.2.2.2 with hneg | ⟨hmL, hmv, _⟩
      · omega
      · have hmlt := hw.1 _ hmL
        have hmb := hw.2.2.2.1 _ hmL hmv
        have hmin : s.inNodes H1.Obmap = true := by
          simp only [Heap.inNodes, hn]; simp; omega
        simp only [hmne, if_false, Heap.cdr, hmin, if_true, hcm hm0]
        have hloop := litLoop_ok (H1.Cdr obarray.toNat) (H1.Cdr H1.Obmap.toNat)
          (H1.vlen obarray.toNat) 0 s
        suffices hr : ∀ j, 0 ≤ j → j < 0 + H1.vlen obarray.toNat →
            s.inVec (H1.Cdr H1.Obmap.toNat + ((j / sizeof_cell : Nat) : Int)) = true ∧
            s.inVec (H1.Cdr obarray.toNat + (j : Int)) = true by
          obtain ⟨h4, e1, e2, e3⟩ := hloop hr
          refine ⟨h4, e1, hP h0 hm0 hle h4 e2 ?_⟩
          intro w hwj
          exact e3 w (fun j _ hj => hwj j (by omega))
        intro j _ hj
        simp only [sizeof_cell] at hle ⊢
        have hj4 : j / 4 < H1.vlen H1.Obmap.toNat := by omega
        constructor
        · simp only [Heap.inVec, hv]; simp; omega
        · simp only [Heap.inVec, hv]; simp; omega

/-- The literal loop of `gc` writes to the payloads of the literal map and
of the literal vector only. -/
theorem litSweep_ok {H1 s : Heap} {L : List Nat} {obarray : Int}
    (hw : WF H1 L) (hlit : litSweepOK H1 L obarray)
    (hn : s.nnodes = H1.nnodes) (hv : s.nvcells = H1.nvcells) (hob : s.Obmap = H1.Obmap)
    (hca : 0 ≤ obarray → s.Cdr obarray.toNat = H1.Cdr obarray.toNat)
    (hsz : 0 ≤ obarray → s.Vectors (H1.sizeIx obarray.toNat)
      = H1.Vectors (H1.sizeIx obarray.toNat))
    (hcm : 0 ≤ H1.Obmap → s.Cdr H1.Obmap.toNat = H1.Cdr H1.Obmap.toNat) :
    ∃ h4, litSweep s obarray = some h4 ∧ h4 = { s with Vectors := h4.Vectors } ∧
      ∀ w : Nat, h4.Vectors w = s.Vectors w ∨ H1.inOb w ∨
        (0 ≤ obarray ∧ H1.Cdr obarray.toNat ≤ (w : Int) ∧
          (w : Int) < H1.Cdr obarray.toNat + (H1.vlen obarray.toNat : Int)) := by
  apply litSweep_run hw hlit hn hv hob hca hsz hcm
  · exact ⟨rfl, fun _ => Or.inl rfl⟩
  · intro h0 hm0 hle h4 e2 e3
    refine ⟨e2, fun w => ?_⟩
    by_cases hall : ∀ j, j < H1.vlen obarray.toNat →
          w ≠ (H1.Cdr H1.Obmap.toNat + ((j / sizeof_cell : Nat) : Int)).toNat ∧
          w ≠ (H1.Cdr obarray.toNat + (j : Int)).toNat
    · exact Or.inl (e3 w hall)
    · right
      push_neg at hall
      obtain ⟨j, hj, hjw⟩ := hall
      have hbo : 2 ≤ H1.Cdr obarray.toNat := by
        rcases hlit with h | ⟨_, hL, hvec, _⟩
        · unfold NIL at h; omega
        · exact (hw.2.2.2.1 _ hL hvec).1
      have hbm : 2 ≤ H1.Cdr H1.Obmap.toNat := by
        rcases hw.2.2.2.2.2 with hneg | ⟨hmL, hmv, _⟩
        · omega
        · exact (hw.2.2.2.1 _ hmL hmv).1
      simp only [sizeof_cell] at hle hjw
      by_cases h1 : w = (H1.Cdr H1.Obmap.toNat + ((j / 4 : Nat) : Int)).toNat
      · left
        refine ⟨hm0, ?_, ?_⟩ <;> omega
      · right
        have h2 := hjw h1
        refine ⟨h0, ?_, ?_⟩ <;> omega

/-- The sweep loop of `gc` is the sweep of all cells. -/
theorem sweep_eq (h : Heap) : sweep h = sweepN h h.nnodes := rfl

/-- A run of `gc` on a fit state: the roots are marked, the stack gets its
length back, the cells are swept and the literal loop writes to the
payloads of the literal map and of the literal vector. -/
theorem gc_run {M : Machine} {L : List Nat} {sk : Int} {H1 : Heap}
    (hwf : GcWF M L sk H1) :
    ∃ fuel h2 h3 h4,
      MarkAllPost H1 L M.roots h2 ∧
      h3 = { h2 with Vectors := h3.Vectors } ∧
      (∀ w, h3.Vectors w =
        if M.Rts ≠ NIL ∧ w = H1.sizeIx M.Rts.toNat then sk else h2.Vectors w) ∧
      h4 = { (sweepN h3 H1.nnodes).h with Vectors := h4.Vectors } ∧
      (∀ w : Nat, h4.Vectors w = h3.Vectors w ∨ H1.inOb w ∨
        (0 ≤ M.Obarray ∧ H1.Cdr M.Obarray.toNat ≤ (w : Int) ∧
          (w : Int) < H1.Cdr M.Obarray.toNat + (H1.vlen M.Obarray.toNat : Int))) ∧
      ∀ j, gc (fuel + j) M = some
        (M.afterGc h4 (sweepN h3 H1.nnodes).Freelist
          (closePorts H1.nports h2.Port_flags M.Ports),
         (sweepN h3 H1.nnodes).k) := by
  obtain ⟨hprep, hw, hclean, hroots, hrts, hlit⟩ := hwf
  have hcleanL : ∀ c ∈ L, H1.marked c = false := fun c hc => hclean c (hw.1 c hc)
  obtain ⟨fuel, h2, hrun, hp⟩ :=
    markAll_spec hw hcleanL M.roots [] H1 (MarkAllPost.nil H1 L) hroots
  simp only [List.nil_append] at hp
  have hRtsMem : M.Rts ∈ M.roots := by simp [Machine.roots]
  have hObMem : M.Obarray ∈ M.roots := by simp [Machine.roots]
  have hr : M.Rts = NIL ∨ (0 ≤ M.Rts ∧ M.Rts.toNat ∈ L ∧ H1.isVec M.Rts.toNat = true) := by
    rcases hrts with h | ⟨h0, hv, _⟩
    · exact Or.inl h
    · exact Or.inr ⟨h0, hroots _ hRtsMem h0, hv⟩
  obtain ⟨h3, hres, hh3, hv3⟩ := restore_ok hw hp M.Rts sk hr
  have e3n : h3.nnodes = H1.nnodes := by rw [hh3]; exact hp.nn
  have e3p : h3.nports = H1.nports := by rw [hh3]; exact hp.np
  have e3f : h3.Port_flags = h2.Port_flags := by rw [hh3]
  -- the state after the sweep
  have hsw := sweepN_spec h3 H1.nnodes (le_of_eq e3n.symm)
  obtain ⟨s1, s2, s3, s4, s5, s6, s7, s8, s9, s10, s11⟩ := hsw
  -- the literal loop
  have hl : ∃ h4, litSweep (sweepN h3 H1.nnodes).h M.Obarray = some h4 ∧
      h4 = { (sweepN h3 H1.nnodes).h with Vectors := h4.Vectors } ∧
      ∀ w : Nat, h4.Vectors w = (sweepN h3 H1.nnodes).h.Vectors w ∨ H1.inOb w ∨
        (0 ≤ M.Obarray ∧ H1.Cdr M.Obarray.toNat ≤ (w : Int) ∧
          (w : Int) < H1.Cdr M.Obarray.toNat + (H1.vlen M.Obarray.toNat : Int)) := by
    have e3t : h3.Tag = h2.Tag := by rw [hh3]
    have e3c : h3.Cdr = h2.Cdr := by rw [hh3]
    have hmk : ∀ r ∈ M.roots, 0 ≤ r → h3.marked r.toNat = true := by
      intro r hr h0
      rcases hp.roots r hr with h | h
      · omega
      · simp only [Heap.marked, e3t] at h ⊢; exact h
    have hcdr : ∀ r ∈ M.roots, 0 ≤ r →
        (sweepN h3 H1.nnodes).h.Cdr r.toNat = H1.Cdr r.toNat := by
      intro r hr h0
      rw [s9 _ (Or.inr (hmk r hr h0)), e3c, hp.cdr]
    have hobm : H1.Obmap ∈ M.roots := by
      rw [(gcPrep_frame hprep).2.2.2.1]; simp [Machine.roots]
    apply litSweep_ok hw hlit (s1.trans e3n)
    · rw [s2, hh3]; exact hp.nv
    · rw [s4, hh3]; exact hp.ob
    · exact hcdr _ hObMem
    · intro h0
      rcases hlit with h | ⟨_, hL, hvec, _⟩
      · unfold NIL at h; omega
      · rw [s6, hv3]
        have hne : ¬ (M.Rts ≠ NIL ∧ H1.sizeIx M.Obarray.toNat = H1.sizeIx M.Rts.toNat) := by
          rintro ⟨hne, hw1⟩
          rcases hrts with h | ⟨r0, rv, rne⟩
          · exact hne h
          · have rL := hroots _ hRtsMem r0
            have hcd : M.Obarray.toNat ≠ M.Rts.toNat := by
              intro h; apply rne; omega
            have hd := hw.2.2.2.2.1 _ hL _ rL hvec rv hcd
            have b1 := hw.2.2.2.1 _ hL hvec
            have b2 := hw.2.2.2.1 _ rL rv
            simp only [Heap.sizeIx] at hw1
            omega
        rw [if_neg hne]
        exact (post_words hw hp hL hvec).1
    · exact hcdr _ hobm
  obtain ⟨h4, hl1, hl2, hl3⟩ := hl
  refine ⟨fuel, h2, h3, h4, hp, hh3, hv3, hl2, ?_, ?_⟩
  · intro w; rw [← s6]; exact hl3 w
  intro j
  unfold gc
  rw [hprep]
  simp only
  rw [markAll_mono j _ _ _ hrun]
  simp only
  rw [hres]
  simp only
  rw [sweep_eq, e3n, hl1]
  simp only [Machine.afterGc, s3, s7, e3p, e3f]

/-! ## `gc` and `cons3`: the free list, and C3 -/

/-- A chain of free cells ends when its head is `NIL`. -/
theorem freeChain_nil (h : Heap) (fuel : Nat) : freeChain h fuel NIL = some [] := by
  cases fuel <;> simp [freeChain]

/-- The free list after `gc` in terms of the heap that the marker sees: on
a state that is fit for `gc`, `gc` returns (with enough fuel for the marker)
a state whose free list, threaded through `Cdr` from `Freelist` and ending
in `NIL` after at most `NNODES` cells, holds without repetition exactly the
cells that are not reachable from the roots in that heap; the returned
count is its length; count plus number of reachable cells is `NNODES`; and
a call of `cons3` that runs this `gc` raises only the error "cons3: out of
nodes", and only when every cell is reachable from the roots. -/
theorem gc_free_seen (M : Machine) (L : List Nat) (sk : Int) (H1 : Heap)
    (hwf : GcWF M L sk H1) :
    ∃ (fuel : Nat) (M1 : Machine) (k : Nat) (fl live : List Nat),
      (∀ j, gc (fuel + j) M = some (M1, k)) ∧
      freeChain M1.heap H1.nnodes M1.Freelist = some fl ∧ fl.Nodup ∧
      (∀ c, c ∈ fl ↔ c < H1.nnodes ∧ ¬ H1.ReachAny M.roots c) ∧
      fl.length = k ∧
      live.Nodup ∧ (∀ c, c ∈ live ↔ c < H1.nnodes ∧ H1.ReachAny M.roots c) ∧
      k + live.length = H1.nnodes ∧
      ∀ M0 pcar pcdr ptag, cons3Tmp M0 pcar pcdr ptag = M →
        ∀ f msg Me, cons3 f M0 pcar pcdr ptag = Outcome.error msg Me →
          msg = "cons3: out of nodes" ∧ ∀ c, c < H1.nnodes → H1.ReachAny M.roots c := by
  obtain ⟨fuel, h2, h3, h4, hp, hh3, hv3, hh4, _, hrun⟩ := gc_run hwf
  obtain ⟨hprep, hw, hclean, hroots, hrts, hlit⟩ := hwf
  have e3n : h3.nnodes = H1.nnodes := by rw [hh3]; exact hp.nn
  have e3t : h3.Tag = h2.Tag := by rw [hh3]
  obtain ⟨s1, s2, s3, s4, s5, s6, s7, s8, s9, s10, s11⟩ :=
    sweepN_spec h3 H1.nnodes (le_of_eq e3n.symm)
  have hmk : ∀ c, c < H1.nnodes → (h3.marked c = true ↔ H1.ReachAny M.roots c) := by
    intro c hc
    rw [← postAll_marked_iff hw hp hclean hroots hc]
    simp only [Heap.marked, e3t]
  have hsum := free_live_length h3 H1.nnodes
  have hchain : freeChain h4 H1.nnodes (sweepN h3 H1.nnodes).Freelist
      = some (freeBelow h3 H1.nnodes) := by
    have := freeChain_mono_le (by omega : (freeBelow h3 H1.nnodes).length ≤ H1.nnodes) s11
    refine @freeChain_congr (sweepN h3 H1.nnodes).h h4 ?_ _ _ _ this ?_
    · rw [hh4]
    · intro c _; rw [hh4]
  have hfl : ∀ c, c ∈ freeBelow h3 H1.nnodes ↔ c < H1.nnodes ∧ ¬ H1.ReachAny M.roots c := by
    intro c
    constructor
    · intro hc
      obtain ⟨h1, h2'⟩ := freeBelow_lt h3 _ c hc
      refine ⟨h1, fun hr => ?_⟩
      rw [(hmk c h1).2 hr] at h2'
      exact Bool.noConfusion h2'
    · rintro ⟨h1, h2'⟩
      apply mem_freeBelow h3 _ c h1
      cases hm : h3.marked c
      · rfl
      · exact absurd ((hmk c h1).1 hm) h2'
  refine ⟨fuel, _, _, freeBelow h3 H1.nnodes, liveBelow h3 H1.nnodes, hrun, hchain,
    freeBelow_nodup h3 _, hfl, s10.symm, liveBelow_nodup h3 _, ?_, ?_, ?_⟩
  · intro c
    rw [liveBelow_mem]
    constructor
    · rintro ⟨h1, h2'⟩; exact ⟨h1, (hmk c h1).1 h2'⟩
    · rintro ⟨h1, h2'⟩; exact ⟨h1, (hmk c h1).2 h2'⟩
  · rw [s10]; exact hsum
  · intro M0 pcar pcdr ptag hM0 f msg Me herr
    unfold cons3 at herr
    simp only at herr
    split at herr
    · rw [hM0] at herr
      have hg : gc f M = some (M.afterGc h4 (sweepN h3 H1.nnodes).Freelist
          (closePorts H1.nports h2.Port_flags M.Ports), (sweepN h3 H1.nnodes).k) := by
        cases hgf : gc f M with
        | none => rw [hgf] at herr; simp at herr
        | some x =>
          have a1 := gc_mono fuel hgf
          have a2 := hrun f
          rw [Nat.add_comm] at a1
          rw [a1] at a2
          exact a2
      rw [hg] at herr
      simp only at herr
      split at herr
      · rename_i hnil
        simp only [Outcome.error.injEq] at herr
        refine ⟨herr.1.symm, ?_⟩
        intro c hc
        by_contra hnr
        have hmem := (hfl c).2 ⟨hc, hnr⟩
        have hnil' : (sweepN h3 H1.nnodes).Freelist = NIL := hnil
        rw [hnil', freeChain_nil] at hchain
        simp only [Option.some.injEq] at hchain
        rw [← hchain] at hmem
        cases hmem
      · split at herr <;> simp at herr
    · split at herr <;> simp at herr

/-- The collector returns on `stackMachine` with fuel 10. -/
theorem gc_stack_some : (gc 10 stackMachine).isSome = true := by decide

/-- C3 (divergence): after `gc` on `stackMachine`, whatever the fuel above
10, the stack vector in cell 0, which is the root `Rts` and therefore live,
has `MARK_TAG` clear but still carries `TRAV_TAG`: `mark` sets the bit on a
`T_VECTOR` with slots and neither `mark` nor the sweep clears it. -/
theorem gc_leaves_trav_on_vector (j : Nat) :
    ∃ M1 k, gc (10 + j) stackMachine = some (M1, k) ∧
      M1.Rts = 0 ∧ M1.heap.isVec 0 = true ∧ M1.heap.marked 0 = false ∧
      tst (M1.heap.Tag 0) TRAV_TAG = true :=
  ⟨((gc 10 stackMachine).get gc_stack_some).1, ((gc 10 stackMachine).get gc_stack_some).2,
    gc_mono j (Option.some_get gc_stack_some).symm, by decide, by decide, by decide, by decide⟩

/-! ## The arena layout -/

theorem vecsize_ge (k : Int) : 2 ≤ vecsize k := by unfold vecsize; exact Nat.le_add_right _ _

theorem wordOfNat_small {u : Nat} (h : u < 2 ^ 31) : wordOfNat u = (u : Int) := by
  unfold wordOfNat
  have : u % 2 ^ 32 = u := Nat.mod_eq_of_lt (by omega)
  rw [this, if_pos h]

theorem toSizeT_nat {i : Nat} (h : i < 2 ^ 63) : toSizeT (i : Int) = i := by
  unfold toSizeT
  have : ((i : Int)) % 2 ^ 64 = (i : Int) := by
    apply Int.emod_eq_of_lt <;> omega
  rw [this]; omega

/-- A tiling ends at or after its start. -/
theorem tiled_le {v : Nat → Int} : ∀ {ts : List Nat} {p fv : Nat}, Tiled v p ts fv → p ≤ fv
  | [], p, fv, h => by unfold Tiled at h; omega
  | t :: ts, p, fv, h => by unfold Tiled at h; omega

/-- Every block of a tiling lies between the start and the end. -/
theorem tiled_mem {v : Nat → Int} : ∀ {ts : List Nat} {p fv : Nat}, Tiled v p ts fv →
    ∀ t ∈ ts, p ≤ t ∧ t + vecsize (v (t + 1)) ≤ fv
  | [], _, _, _ => by intro t ht; cases ht
  | t0 :: ts, p, fv, h => by
    unfold Tiled at h
    obtain ⟨h1, h2, h3⟩ := h
    intro t ht
    rcases List.mem_cons.1 ht with e | e
    · subst e; subst h1
      exact ⟨le_refl _, tiled_le h3⟩
    · have := tiled_mem h3 t e
      have := vecsize_ge (v (p + 1))
      omega

/-- Two blocks of a tiling do not overlap. -/
theorem tiled_disj {v : Nat → Int} : ∀ {ts : List Nat} {p fv : Nat}, Tiled v p ts fv →
    ∀ t ∈ ts, ∀ u ∈ ts, t ≠ u →
      t + vecsize (v (t + 1)) ≤ u ∨ u + vecsize (v (u + 1)) ≤ t
  | [], _, _, _ => by intro t ht; cases ht
  | t0 :: ts, p, fv, h => by
    unfold Tiled at h
    obtain ⟨h1, h2, h3⟩ := h
    subst h1
    intro t ht u hu hne
    rcases List.mem_cons.1 ht with e | e <;> rcases List.mem_cons.1 hu with f | f
    · exact absurd (e.trans f.symm) hne
    · subst e; left; exact (tiled_mem h3 u f).1
    · subst f; right; exact (tiled_mem h3 t e).1
    · exact tiled_disj h3 t e u f hne

/-- A tiling depends on the size words from its start on only. -/
theorem tiled_congr {v v1 : Nat → Int} : ∀ {ts : List Nat} {p fv : Nat},
    (∀ w, p < w → v1 w = v w) → Tiled v p ts fv → Tiled v1 p ts fv
  | [], _, _, _, h => by unfold Tiled at h ⊢; exact h
  | t0 :: ts, p, fv, hv, h => by
    unfold Tiled at h ⊢
    obtain ⟨h1, h2, h3⟩ := h
    refine ⟨h1, h2, ?_⟩
    rw [hv (p + 1) (by omega)]
    exact tiled_congr (fun w hw => hv w (by omega)) h3

/-- The word after the start of a block is the start of no block. -/
theorem tiled_succ_not_mem {v : Nat → Int} {ts : List Nat} {p fv : Nat}
    (h : Tiled v p ts fv) {t : Nat} (ht : t ∈ ts) : t + 1 ∉ ts := by
  intro h1
  have := tiled_disj h t ht (t + 1) h1 (by omega)
  have := vecsize_ge (v (t + 1))
  omega

/-- The loop of `unmark_vecs` on a tiled arena sets the backlink word of
every block to `NIL`. -/
theorem unmarkLoop_spec (fv : Nat) : ∀ (ts : List Nat) (p : Nat) (h : Heap) (j : Nat),
    Tiled h.Vectors p ts fv → fv ≤ h.nvcells → h.nvcells < 2 ^ 31 →
    unmarkLoop (fv : Int) (ts.length + j) h (p : Int)
      = some { h with Vectors := unlinked h.Vectors ts }
  | [], p, h, j, ht, _, _ => by
    unfold Tiled at ht
    subst ht
    have : unlinked h.Vectors [] = h.Vectors := by funext w; simp [unlinked]
    rw [this]
    cases j <;> simp [unmarkLoop]
  | t :: ts, p, h, j, ht, hfv, hnv => by
    have hm := tiled_mem ht t (List.mem_cons_self _ _)
    have hsz := vecsize_ge (h.Vectors (t + 1))
    unfold Tiled at ht
    obtain ⟨h1, h2, h3⟩ := ht
    subst h1
    have e : (t :: ts).length + j = (ts.length + j) + 1 := by simp; omega
    rw [e]
    have hlt : (t : Int) < (fv : Int) := by omega
    have hv1 : h.inVec ((t : Int) + RAW_VECSIZE) = true := by
      simp only [Heap.inVec, RAW_VECSIZE]; simp; omega
    have hv0 : h.inVec (t : Int) = true := by
      simp only [Heap.inVec]; simp; omega
    have hix : ((t : Int) + RAW_VECSIZE).toNat = t + 1 := by simp only [RAW_VECSIZE]; omega
    have hnext : wordOfNat (toSizeT (t : Int) + vecsize (h.Vectors (t + 1)))
        = ((t + vecsize (h.Vectors (t + 1)) : Nat) : Int) := by
      rw [toSizeT_nat (by omega), wordOfNat_small (by omega)]
    simp only [unmarkLoop, hlt, if_true, Heap.vref, hv1, hix, Heap.vset, hv0, hnext,
      Int.toNat_ofNat]
    have h3' : Tiled (upd h.Vectors t NIL) (t + vecsize (h.Vectors (t + 1))) ts fv :=
      tiled_congr (fun w hw => by unfold upd; rw [if_neg (by omega)]) h3
    have ih := unmarkLoop_spec fv ts (t + vecsize (h.Vectors (t + 1)))
      { h with Vectors := upd h.Vectors t NIL } j h3' hfv hnv
    rw [ih]
    congr 2
    funext w
    simp only [unlinked, upd, List.mem_cons]
    by_cases hw : w = t <;> by_cases hw2 : w ∈ ts <;> simp [hw, hw2]

theorem sameButVC_refl (h : Heap) : sameButVC h h := ⟨rfl, rfl, rfl, rfl, rfl, rfl, rfl⟩

theorem sameButVC_trans {h h1 h2 : Heap} (a : sameButVC h h1) (b : sameButVC h1 h2) :
    sameButVC h h2 :=
  ⟨b.1.trans a.1, b.2.1.trans a.2.1, b.2.2.1.trans a.2.2.1, b.2.2.2.1.trans a.2.2.2.1,
    b.2.2.2.2.1.trans a.2.2.2.2.1, b.2.2.2.2.2.1.trans a.2.2.2.2.2.1,
    b.2.2.2.2.2.2.trans a.2.2.2.2.2.2⟩

/-- The move of a block of `k` cells down from `src` to `dst`. -/
theorem relocate_spec (h : Heap) (dst src k : Nat) (hlt : dst < src) (hk : 0 < k)
    (hin : src + k ≤ h.nvcells) (ho : 0 ≤ h.Vectors src)
    (hon : (h.Vectors src).toNat < h.nnodes) :
    ∃ h2, relocate h (dst : Int) (src : Int) (k : Int) = some h2 ∧ sameButVC h h2 ∧
      h2.Cdr = upd h.Cdr (h.Vectors src).toNat ((dst : Int) + 2) ∧
      (∀ i, i < k → h2.Vectors (dst + i) = h.Vectors (src + i)) ∧
      (∀ w, (w < dst ∨ dst + k ≤ w) → h2.Vectors w = h.Vectors w) := by
  unfold relocate
  have hne : (dst : Int) ≠ (src : Int) := by omega
  have hc : (0 : Int) ≤ (k : Int) ∧ (0 : Int) ≤ (dst : Int) ∧ (0 : Int) ≤ (src : Int) ∧
      (dst : Int) + (k : Int) ≤ (h.nvcells : Int) ∧ (src : Int) + (k : Int) ≤ (h.nvcells : Int) := by
    omega
  simp only [ne_eq, hne, not_false_eq_true, if_true, Heap.memmove, hc, and_self]
  have hiv : ∀ v : Nat → Int, Heap.inVec { h with Vectors := v } ((dst : Int) + RAW_VECLINK) = true := by
    intro v
    simp only [Heap.inVec, RAW_VECLINK]; simp; omega
  simp only [Heap.vref, hiv, if_true]
  have e0 : ((dst : Int) + RAW_VECLINK).toNat = dst := by simp [RAW_VECLINK]
  have e1 : ((dst : Int) - (dst : Int) + (src : Int)).toNat = src := by omega
  have hcond : (dst : Int) ≤ (dst : Int) ∧ (dst : Int) < (dst : Int) + (k : Int) := by omega
  simp only [e0, hcond, and_self, if_true, e1]
  have hinn : ∀ v : Nat → Int, Heap.inNodes { h with Vectors := v } (h.Vectors src) = true := by
    intro v
    simp only [Heap.inNodes]; simp; omega
  simp only [Heap.setCdr, hinn, if_true]
  refine ⟨_, rfl, ⟨rfl, rfl, rfl, rfl, rfl, rfl, rfl⟩, ?_, ?_, ?_⟩
  · simp only [RAW_VECDATA]
  · intro i hi
    have hc2 : (dst : Int) ≤ ((dst + i : Nat) : Int) ∧ ((dst + i : Nat) : Int) < (dst : Int) + (k : Int) := by
      omega
    have e2 : (((dst + i : Nat) : Int) - (dst : Int) + (src : Int)).toNat = src + i := by omega
    simp only [hc2, and_self, if_true, e2]
  · intro w hw
    have hc3 : ¬ ((dst : Int) ≤ (w : Int) ∧ (w : Int) < (dst : Int) + (k : Int)) := by omega
    simp only [hc3, if_false]

/-- The compaction loop of `gcv` over the blocks `rest` that tile the arena
from `src` on, when the arena words from `src` on are those of `v0` and the
owner of each block with a backlink still points to it: the blocks with a
backlink move down to `dst` and follow one another, their owners point to
the new payload offsets, other cells and the words below `dst` are kept. -/
theorem compactLoop_spec (v0 : Nat → Int) (fv : Nat) :
    ∀ (rest : List Nat) (src dst : Nat) (h : Heap),
    Tiled v0 src rest fv → fv ≤ h.nvcells → h.nvcells < 2 ^ 31 → dst ≤ src →
    (∀ w, src ≤ w → h.Vectors w = v0 w) →
    (∀ t ∈ rest, v0 t ≠ NIL →
      0 ≤ v0 t ∧ (v0 t).toNat < h.nnodes ∧ h.Cdr (v0 t).toNat = (t : Int) + 2) →
    ∃ h1, (∀ j, compactLoop (fv : Int) (rest.length + j) h (dst : Int) (src : Int)
        = some (h1, ((dst + liveSize v0 rest : Nat) : Int))) ∧
      sameButVC h h1 ∧
      (∀ p ∈ relocs v0 rest dst, h1.Cdr (v0 p.1).toNat = (p.2 : Int) + 2 ∧
        ∀ i, i < vecsize (v0 (p.1 + 1)) → h1.Vectors (p.2 + i) = v0 (p.1 + i)) ∧
      (∀ c, (∀ t ∈ rest, v0 t ≠ NIL → c ≠ (v0 t).toNat) → h1.Cdr c = h.Cdr c) ∧
      (∀ w, w < dst → h1.Vectors w = h.Vectors w)
  | [], src, dst, h, ht, _, _, _, _, _ => by
    unfold Tiled at ht
    subst ht
    refine ⟨h, ?_, sameButVC_refl h, ?_, fun _ _ => rfl, fun _ _ => rfl⟩
    · intro j; cases j <;> simp [compactLoop, liveSize]
    · intro p hp; simp [relocs] at hp
  | t :: rest, src, dst, h, ht, hfv, hnv, hle, hvec, hown => by
    have hm := tiled_mem ht t (List.mem_cons_self _ _)
    have hsz := vecsize_ge (v0 (t + 1))
    have htl := ht
    unfold Tiled at ht
    obtain ⟨h1, h2, h3⟩ := ht
    subst h1
    have e : ∀ j, (t :: rest).length + j = (rest.length + j) + 1 := by
      intro j; simp; omega
    have hlt : (t : Int) < (fv : Int) := by omega
    have hv1 : h.inVec ((t : Int) + RAW_VECSIZE) = true := by
      simp only [Heap.inVec, RAW_VECSIZE]; simp; omega
    have hv0 : h.inVec ((t : Int) + RAW_VECLINK) = true := by
      simp only [Heap.inVec, RAW_VECLINK]; simp; omega
    have hix1 : ((t : Int) + RAW_VECSIZE).toNat = t + 1 := by simp only [RAW_VECSIZE]; omega
    have hix0 : ((t : Int) + RAW_VECLINK).toNat = t := by simp only [RAW_VECLINK]; omega
    have hk : wordOfNat (vecsize (v0 (t + 1))) = ((vecsize (v0 (t + 1)) : Nat) : Int) :=
      wordOfNat_small (by omega)
    have hadd : ∀ a : Nat, a ≤ t →
        addInt (a : Int) ((vecsize (v0 (t + 1)) : Nat) : Int)
          = some ((a + vecsize (v0 (t + 1)) : Nat) : Int) := by
      intro a ha
      unfold addInt
      rw [if_pos (by constructor <;> omega)]
      simp
    have hrest : ∀ u ∈ rest, t + vecsize (v0 (t + 1)) ≤ u := fun u hu => (tiled_mem h3 u hu).1
    have hstep : ∀ j, compactLoop (fv : Int) ((t :: rest).length + j) h (dst : Int) (t : Int)
        = if v0 t ≠ NIL then
            match relocate h (dst : Int) (t : Int) ((vecsize (v0 (t + 1)) : Nat) : Int),
              addInt (dst : Int) ((vecsize (v0 (t + 1)) : Nat) : Int) with
            | some h2, some dst1 =>
              compactLoop (fv : Int) (rest.length + j) h2 dst1
                ((t + vecsize (v0 (t + 1)) : Nat) : Int)
            | _, _ => none
          else compactLoop (fv : Int) (rest.length + j) h (dst : Int)
            ((t + vecsize (v0 (t + 1)) : Nat) : Int) := by
      intro j
      rw [e j]
      simp only [compactLoop, hlt, if_true, Heap.vref, hv1, hv0, hix1, hix0,
        hvec (t + 1) (by omega), hvec t (le_refl _), hk, hadd t (le_refl _)]
    by_cases hlink : v0 t = NIL
    · -- a block without backlink is skipped
      obtain ⟨g, r1, r2, r3, r4, r5⟩ := compactLoop_spec v0 fv rest (t + vecsize (v0 (t + 1)))
        dst h h3 hfv hnv (by omega) (fun w hw => hvec w (by omega))
        (fun u hu => hown u (List.mem_cons_of_mem _ hu))
      refine ⟨g, ?_, r2, ?_, ?_, r5⟩
      · intro j
        rw [hstep j, if_neg (by simp [hlink]), r1 j]; simp [liveSize, hlink]
      · intro p hp
        simp only [relocs, hlink, ne_eq, not_true_eq_false, if_false] at hp
        exact r3 p hp
      · intro c hc
        exact r4 c (fun u hu => hc u (List.mem_cons_of_mem _ hu))
    · obtain ⟨o1, o2, o3⟩ := hown t (List.mem_cons_self _ _) hlink
      have hdist : ∀ u ∈ rest, v0 u ≠ NIL → (v0 t).toNat ≠ (v0 u).toNat := by
        intro u hu hul heq
        have := (hown u (List.mem_cons_of_mem _ hu) hul).2.2
        rw [← heq, o3] at this
        have := hrest u hu
        omega
      by_cases hmove : dst = t
      · -- the block is in place
        subst hmove
        obtain ⟨g, r1, r2, r3, r4, r5⟩ := compactLoop_spec v0 fv rest
          (dst + vecsize (v0 (dst + 1))) (dst + vecsize (v0 (dst + 1))) h h3 hfv hnv
          (le_refl _) (fun w hw => hvec w (by omega))
          (fun u hu => hown u (List.mem_cons_of_mem _ hu))
        refine ⟨g, ?_, r2, ?_, ?_, ?_⟩
        · intro j
          rw [hstep j, if_pos hlink]
          simp only [relocate, ne_eq, not_true_eq_false, if_false, hadd dst hle]
          rw [r1 j]; simp [liveSize, hlink]; omega
        · intro p hp
          simp only [relocs, ne_eq, hlink, not_false_eq_true, if_true, List.mem_cons] at hp
          rcases hp with hp | hp
          · subst hp
            simp only
            refine ⟨?_, ?_⟩
            · rw [r4 _ (fun u hu hul => hdist u hu hul)]; exact o3
            · intro i hi
              rw [r5 _ (by omega)]; exact hvec _ (by omega)
          · exact r3 p hp
        · intro c hc
          exact r4 c (fun u hu => hc u (List.mem_cons_of_mem _ hu))
        · intro w hw
          exact r5 w (by omega)
      · -- the block moves down
        have hlt2 : dst < t := by omega
        obtain ⟨h2', q1, q2, q3, q4, q5⟩ := relocate_spec h dst t (vecsize (v0 (t + 1)))
          hlt2 (by omega) (by omega) (by rw [hvec t (le_refl _)]; exact o1)
          (by rw [hvec t (le_refl _)]; exact o2)
        rw [hvec t (le_refl _)] at q3
        obtain ⟨g, r1, r2, r3, r4, r5⟩ := compactLoop_spec v0 fv rest
          (t + vecsize (v0 (t + 1))) (dst + vecsize (v0 (t + 1))) h2' h3
          (by rw [q2.2.1]; exact hfv) (by rw [q2.2.1]; exact hnv) (by omega)
          (fun w hw => by rw [q5 w (Or.inr (by omega))]; exact hvec w (by omega))
          (fun u hu hul => by
            obtain ⟨a1, a2, a3⟩ := hown u (List.mem_cons_of_mem _ hu) hul
            refine ⟨a1, by rw [q2.1]; exact a2, ?_⟩
            rw [q3]; unfold upd
            rw [if_neg (fun hh => hdist u hu hul hh.symm)]; exact a3)
        refine ⟨g, ?_, sameButVC_trans q2 r2, ?_, ?_, ?_⟩
        · intro j
          rw [hstep j, if_pos hlink]
          simp only [q1, hadd dst hle]
          rw [r1 j]; simp [liveSize, hlink]; omega
        · intro p hp
          simp only [relocs, ne_eq, hlink, not_false_eq_true, if_true, List.mem_cons] at hp
          rcases hp with hp | hp
          · subst hp
            simp only
            refine ⟨?_, ?_⟩
            · rw [r4 _ (fun u hu hul => hdist u hu hul), q3]
              unfold upd; rw [if_pos rfl]
            · intro i hi
              rw [r5 _ (by omega), q4 i hi]; exact hvec _ (by omega)
          · exact r3 p hp
        · intro c hc
          rw [r4 c (fun u hu => hc u (List.mem_cons_of_mem _ hu)), q3]
          unfold upd
          rw [if_neg (hc t (List.mem_cons_self _ _) hlink)]
        · intro w hw
          rw [r5 w (by omega)]
          exact q5 w (Or.inl hw)

/-- A tiling depends on the size words of its blocks only. -/
theorem tiled_congr_mem {v v1 : Nat → Int} : ∀ {ts : List Nat} {p fv : Nat},
    (∀ t ∈ ts, v1 (t + 1) = v (t + 1)) → Tiled v p ts fv → Tiled v1 p ts fv
  | [], _, _, _, h => by unfold Tiled at h ⊢; exact h
  | t0 :: ts, p, fv, hv, h => by
    unfold Tiled at h ⊢
    obtain ⟨h1, h2, h3⟩ := h
    refine ⟨h1, h2, ?_⟩
    rw [← h1, hv t0 (List.mem_cons_self _ _), h1]
    exact tiled_congr_mem (fun t ht => hv t (List.mem_cons_of_mem _ ht)) h3

/-- A word inside a block is neither the start of a block nor the word
after the start of a block. -/
theorem tile_interior {v : Nat → Int} {ts : List Nat} {p fv : Nat}
    (h : Tiled v p ts fv) {t0 t w : Nat} (ht0 : t0 ∈ ts) (ht : t ∈ ts)
    (hlo : t0 + 2 ≤ w) (hhi : w < t0 + vecsize (v (t0 + 1))) : w ≠ t ∧ w ≠ t + 1 := by
  have hs := vecsize_ge (v (t + 1))
  by_cases e : t = t0
  · subst e; omega
  · have := tiled_disj h t ht t0 ht0 e
    omega

/-- The relocated blocks are blocks with a backlink. -/
theorem relocs_sub (v : Nat → Int) : ∀ (ts : List Nat) (dst : Nat) (p : Nat × Nat),
    p ∈ relocs v ts dst → p.1 ∈ ts ∧ v p.1 ≠ NIL ∧ dst ≤ p.2
  | [], _, p, hp => by simp [relocs] at hp
  | t :: ts, dst, p, hp => by
    unfold relocs at hp
    by_cases hl : v t ≠ NIL
    · rw [if_pos hl] at hp
      rcases List.mem_cons.1 hp with e | e
      · subst e; exact ⟨List.mem_cons_self _ _, hl, le_refl _⟩
      · obtain ⟨a, b, c⟩ := relocs_sub v ts _ p e
        exact ⟨List.mem_cons_of_mem _ a, b, by omega⟩
    · rw [if_neg hl] at hp
      obtain ⟨a, b, c⟩ := relocs_sub v ts _ p hp
      exact ⟨List.mem_cons_of_mem _ a, b, c⟩

/-- Every block with a backlink is relocated. -/
theorem relocs_mem (v : Nat → Int) : ∀ (ts : List Nat) (dst : Nat) (t : Nat),
    t ∈ ts → v t ≠ NIL → ∃ n, (t, n) ∈ relocs v ts dst
  | [], _, t, ht, _ => by cases ht
  | t0 :: ts, dst, t, ht, hl => by
    unfold relocs
    rcases List.mem_cons.1 ht with e | e
    · subst e
      rw [if_pos hl]
      exact ⟨dst, List.mem_cons_self _ _⟩
    · by_cases hl0 : v t0 ≠ NIL
      · rw [if_pos hl0]
        obtain ⟨n, hn⟩ := relocs_mem v ts (dst + vecsize (v (t0 + 1))) t e hl
        exact ⟨n, List.mem_cons_of_mem _ hn⟩
      · rw [if_neg hl0]
        exact relocs_mem v ts dst t e hl

/-- The relocation keeps the order of the blocks. -/
theorem relocs_pairwise (v : Nat → Int) (fv : Nat) : ∀ (ts : List Nat) (p dst : Nat),
    Tiled v p ts fv →
    (relocs v ts dst).Pairwise (fun a b => a.1 < b.1 ∧ a.2 < b.2)
  | [], _, _, _ => by simp [relocs]
  | t :: ts, p, dst, ht => by
    have hs := vecsize_ge (v (t + 1))
    have htl := ht
    unfold Tiled at ht
    obtain ⟨h1, h2, h3⟩ := ht
    subst h1
    unfold relocs
    by_cases hl : v t ≠ NIL
    · rw [if_pos hl]
      refine List.Pairwise.cons ?_ (relocs_pairwise v fv ts _ _ h3)
      intro b hb
      obtain ⟨b1, _, b3⟩ := relocs_sub v ts _ b hb
      have := (tiled_mem h3 b.1 b1).1
      constructor <;> simp only <;> omega
    · rw [if_neg hl]
      exact relocs_pairwise v fv ts _ _ h3

/-- The total length of the blocks with a backlink is the sum of the lengths
of the relocated blocks. -/
theorem liveSize_eq (v : Nat → Int) : ∀ (ts : List Nat) (dst : Nat),
    liveSize v ts = ((relocs v ts dst).map (fun p => vecsize (v (p.1 + 1)))).sum
  | [], _ => by simp [liveSize, relocs]
  | t :: ts, dst => by
    unfold liveSize relocs
    by_cases hl : v t ≠ NIL
    · rw [if_pos hl, if_pos hl, List.map_cons, List.sum_cons, ← liveSize_eq v ts _]
    · rw [if_neg hl, if_neg hl, Nat.zero_add]
      exact liveSize_eq v ts dst

/-- After the relocation the arena is tiled by the relocated blocks. -/
theorem relocs_tiled (v f : Nat → Int) : ∀ (ts : List Nat) (dst : Nat),
    (∀ p ∈ relocs v ts dst, f (p.2 + 1) = v (p.1 + 1)) →
    Tiled f dst ((relocs v ts dst).map Prod.snd) (dst + liveSize v ts)
  | [], dst, _ => by simp [relocs, liveSize, Tiled]
  | t :: ts, dst, hf => by
    have hs := vecsize_ge (v (t + 1))
    unfold relocs at hf ⊢
    unfold liveSize
    by_cases hl : v t ≠ NIL
    · rw [if_pos hl] at hf ⊢
      rw [if_pos hl]
      simp only [List.map_cons]
      unfold Tiled
      have e := hf (t, dst) (List.mem_cons_self _ _)
      simp only at e
      refine ⟨rfl, by omega, ?_⟩
      rw [e]
      have := relocs_tiled v f ts (dst + vecsize (v (t + 1)))
        (fun p hp => hf p (List.mem_cons_of_mem _ hp))
      rw [← Nat.add_assoc]
      exact this
    · rw [if_neg hl] at hf ⊢
      rw [if_neg hl, Nat.zero_add]
      exact relocs_tiled v f ts dst hf

theorem unmarked_Rts (M : Machine) (ts : List Nat) : (M.unmarked ts).Rts = M.Rts := rfl

theorem unmarked_Obarray (M : Machine) (ts : List Nat) :
    (M.unmarked ts).Obarray = M.Obarray := rfl

theorem unmarked_roots (M : Machine) (ts : List Nat) : (M.unmarked ts).roots = M.roots := rfl

theorem unmarked_Vectors (M : Machine) (ts : List Nat) :
    (M.unmarked ts).heap.Vectors = unlinked M.heap.Vectors ts := rfl

theorem unmarked_sizeIx (M : Machine) (ts : List Nat) (c : Nat) :
    (M.unmarked ts).heap.sizeIx c = M.heap.sizeIx c := rfl

/-- The run of `gc` inside `gcv`: the size words of the blocks are kept, the
backlink word of a block is `NIL` or its marked owner, and the backlink
word of every marked vector object of `L` is the object. -/
theorem gcv_gc_run {M : Machine} {L ts : List Nat} {sk : Int} {H1 : Heap}
    (hwf : GcvWF M L ts sk H1) :
    ∃ (fuel : Nat) (h2 G : Heap) (fl : Int) (ports : Nat → Bool) (k : Nat),
      MarkAllPost H1 L M.roots h2 ∧
      (∀ j, gc (fuel + j) (M.unmarked ts) = some ((M.unmarked ts).afterGc G fl ports, k)) ∧
      G.nnodes = H1.nnodes ∧ G.nvcells = H1.nvcells ∧
      (∀ c, G.isVec c = H1.isVec c) ∧
      (∀ t ∈ ts, G.Vectors (t + 1) = M.heap.Vectors (t + 1)) ∧
      (∀ t ∈ ts, G.Vectors t = NIL ∨
        ∃ c ∈ L, h2.marked c = true ∧ H1.isVec c = true ∧ t = H1.linkIx c ∧
          G.Vectors t = (c : Int)) ∧
      (∀ c ∈ L, h2.marked c = true → H1.isVec c = true →
        G.Vectors (H1.linkIx c) = (c : Int)) ∧
      (∀ c, h2.marked c = true → G.Cdr c = H1.Cdr c) ∧
      (∀ c ∈ L, H1.isVec c = true → (c : Int) ≠ M.Obarray → (c : Int) ≠ H1.Obmap →
        ∀ i, 2 ≤ i → i < vecsize (M.heap.Vectors (H1.linkIx c + 1)) →
          G.Vectors (H1.linkIx c + i) = M.heap.Vectors (H1.linkIx c + i)) := by
  obtain ⟨hF0, hFle, hnv, htiled, hgc, hblk⟩ := hwf
  obtain ⟨fuel, h2, h3, h4, hp, hh3, hv3, hh4, hw4, hrun⟩ := gc_run hgc
  obtain ⟨hprep, hw, hclean, hroots, hrts, hlit⟩ := hgc
  obtain ⟨p1, p2, p3, p4, p5, p6, p7, p8, p9⟩ := gcPrep_frame hprep
  simp only [unmarked_Rts, unmarked_Obarray, unmarked_roots, unmarked_Vectors,
    unmarked_sizeIx] at hp hv3 hw4 hroots hrts hlit p8 p9
  have p6' : H1.Cdr = M.heap.Cdr := p6
  have e3n : h3.nnodes = H1.nnodes := by rw [hh3]; exact hp.nn
  have e3t : h3.Tag = h2.Tag := by rw [hh3]
  have e3c : h3.Cdr = h2.Cdr := by rw [hh3]
  obtain ⟨s1, s2, s3, s4, s5, s6, s7, s8, s9, s10, s11⟩ :=
    sweepN_spec h3 H1.nnodes (le_of_eq e3n.symm)
  have hRtsMem : M.Rts ∈ M.roots := by simp [Machine.roots]
  have hroots' : ∀ r ∈ M.roots, 0 ≤ r → r.toNat ∈ L := hroots
  -- geometry of the vector objects of `L`
  have hgeo : ∀ c ∈ L, H1.isVec c = true →
      H1.linkIx c ∈ ts ∧ H1.sizeIx c = H1.linkIx c + 1 ∧
      H1.Cdr c = (H1.linkIx c : Int) + 2 ∧
      H1.vlen c + 2 ≤ vecsize (M.heap.Vectors (H1.linkIx c + 1)) := by
    intro c hc hv
    obtain ⟨b1, b2⟩ := hblk c hc hv
    have hb := (hw.2.2.2.1 c hc hv).1
    have e1 : H1.sizeIx c = H1.linkIx c + 1 := by
      simp only [Heap.sizeIx, Heap.linkIx]; omega
    refine ⟨b1, e1, ?_, ?_⟩
    · simp only [Heap.linkIx]; omega
    · rw [← e1]; exact b2
  have hpay : ∀ c ∈ L, H1.isVec c = true → ∀ w : Nat, H1.Cdr c ≤ (w : Int) →
      (w : Int) < H1.Cdr c + (H1.vlen c : Int) → ∀ t ∈ ts, w ≠ t ∧ w ≠ t + 1 := by
    intro c hc hv w hlo hhi t ht
    obtain ⟨g1, g2, g3, g4⟩ := hgeo c hc hv
    exact tile_interior htiled g1 ht (by omega) (by omega)
  have hob : ∀ w : Nat, H1.inOb w → ∀ t ∈ ts, w ≠ t ∧ w ≠ t + 1 := by
    intro w ⟨h0, hlo, hhi⟩ t ht
    rcases hw.2.2.2.2.2 with hneg | ⟨hmL, hmv, _⟩
    · omega
    · exact hpay _ hmL hmv w hlo hhi t ht
  have hoa : ∀ w : Nat, (0 ≤ M.Obarray ∧ H1.Cdr M.Obarray.toNat ≤ (w : Int) ∧
      (w : Int) < H1.Cdr M.Obarray.toNat + (H1.vlen M.Obarray.toNat : Int)) →
      ∀ t ∈ ts, w ≠ t ∧ w ≠ t + 1 := by
    intro w ⟨h0, hlo, hhi⟩ t ht
    rcases hlit with h | ⟨_, hL, hvec, _⟩
    · have : M.Obarray = NIL := h
      unfold NIL at this; omega
    · exact hpay _ hL hvec w hlo hhi t ht
  have h43 : ∀ t ∈ ts, h4.Vectors t = h3.Vectors t ∧ h4.Vectors (t + 1) = h3.Vectors (t + 1) := by
    intro t ht
    constructor
    · rcases hw4 t with h | h | h
      · exact h
      · exact absurd rfl (hob t h t ht).1
      · exact absurd rfl (hoa t h t ht).1
    · rcases hw4 (t + 1) with h | h | h
      · exact h
      · exact absurd rfl (hob (t + 1) h t ht).2
      · exact absurd rfl (hoa (t + 1) h t ht).2
  have hrtsL : M.Rts ≠ NIL → M.Rts.toNat ∈ L ∧ H1.isVec M.Rts.toNat = true := by
    intro hne
    rcases hrts with h | ⟨r0, rv, _⟩
    · exact absurd h hne
    · exact ⟨hroots' _ hRtsMem r0, rv⟩
  have h32 : ∀ t ∈ ts, h3.Vectors t = h2.Vectors t := by
    intro t ht
    rw [hv3]
    have : ¬ (M.Rts ≠ NIL ∧ t = H1.sizeIx M.Rts.toNat) := by
      rintro ⟨hne, e⟩
      obtain ⟨rL, rv⟩ := hrtsL hne
      obtain ⟨g1, g2, _, _⟩ := hgeo _ rL rv
      rw [g2] at e
      exact tiled_succ_not_mem htiled g1 (e ▸ ht)
    rw [if_neg this]
  have hH1 : ∀ w, (M.Rts = NIL ∨ w ≠ H1.sizeIx M.Rts.toNat) →
      H1.Vectors w = unlinked M.heap.Vectors ts w := by
    intro w hw1
    have hsix : M.heap.sizeIx M.Rts.toNat = H1.sizeIx M.Rts.toNat := by
      simp only [Heap.sizeIx, p6']
    exact p8 w (by rw [hsix]; exact hw1)
  refine ⟨fuel, h2, h4, _, _, _, hp, hrun, ?_, ?_, ?_, ?_, ?_, ?_, ?_, ?_⟩
  · rw [hh4]; exact s1.trans e3n
  · rw [hh4]; show (sweepN h3 H1.nnodes).h.nvcells = _
    rw [s2, hh3]; exact hp.nv
  · intro c
    have e4 : h4.Tag = (sweepN h3 H1.nnodes).h.Tag := by rw [hh4]
    simp only [Heap.isVec, e4, s8 c]
    split
    · rw [tst_clrM_V, e3t]; exact post_isVec hp c
    · rw [e3t]; exact post_isVec hp c
  · intro t ht
    rw [(h43 t ht).2, hv3]
    have hnot : t + 1 ∉ ts := tiled_succ_not_mem htiled ht
    have hun : unlinked M.heap.Vectors ts (t + 1) = M.heap.Vectors (t + 1) := by
      unfold unlinked; rw [if_neg hnot]
    by_cases hc : M.Rts ≠ NIL ∧ t + 1 = H1.sizeIx M.Rts.toNat
    · rw [if_pos hc]
      have := p9 hc.1
      rw [this]
      have hsix : M.heap.sizeIx M.Rts.toNat = H1.sizeIx M.Rts.toNat := by
        simp only [Heap.sizeIx, p6']
      rw [hsix, ← hc.2]
      exact hun
    · rw [if_neg hc]
      have hc' : M.Rts = NIL ∨ t + 1 ≠ H1.sizeIx M.Rts.toNat := by
        by_cases h : M.Rts = NIL
        · exact Or.inl h
        · right; intro e; exact hc ⟨h, e⟩
      rcases hp.vec (t + 1) with h | ⟨c, cL, cv, _, _, e⟩ | h
      · rw [h, hH1 _ hc', hun]
      · exfalso
        have := (hgeo c cL cv).1
        rw [← e] at this
        exact hnot this
      · exact absurd rfl (hob (t + 1) h t ht).2
  · intro t ht
    rw [(h43 t ht).1, h32 t ht]
    rcases hp.vec t with h | ⟨c, cL, cv, cu, cm, e⟩ | h
    · left
      have hc' : M.Rts = NIL ∨ t ≠ H1.sizeIx M.Rts.toNat := by
        by_cases h : M.Rts = NIL
        · exact Or.inl h
        · right; intro e
          obtain ⟨rL, rv⟩ := hrtsL h
          obtain ⟨g1, g2, _, _⟩ := hgeo _ rL rv
          rw [g2] at e
          exact tiled_succ_not_mem htiled g1 (e ▸ ht)
      rw [h, hH1 _ hc']
      unfold unlinked; rw [if_pos ht]
    · right
      refine ⟨c, cL, cm, cv, e, ?_⟩
      have hd := (hp.new c cu cm).2.2.2.2.2
      rw [if_pos cv] at hd
      rw [e]; exact hd.2.1
    · exact absurd rfl (hob t h t ht).1
  · intro c cL cm cv
    obtain ⟨g1, _, _, _⟩ := hgeo c cL cv
    rw [(h43 _ g1).1, h32 _ g1]
    have cu : H1.marked c = false := hclean c (hw.1 c cL)
    have hd := (hp.new c cu cm).2.2.2.2.2
    rw [if_pos cv] at hd
    exact hd.2.1
  · intro c cm
    have e4 : h4.Cdr = (sweepN h3 H1.nnodes).h.Cdr := by rw [hh4]
    have cm3 : h3.marked c = true := by simp only [Heap.marked, e3t] at cm ⊢; exact cm
    rw [e4, s9 c (Or.inr cm3), e3c, hp.cdr]
  · intro c cL cv cna cnm i hi2 hisz
    obtain ⟨g1, g2, g3, g4⟩ := hgeo c cL cv
    have hint : ∀ t ∈ ts, H1.linkIx c + i ≠ t ∧ H1.linkIx c + i ≠ t + 1 :=
      fun t ht => tile_interior htiled g1 ht (by omega) (by omega)
    -- a payload of another vector object of `L` does not meet this block
    have hother : ∀ d ∈ L, H1.isVec d = true → (c : Int) ≠ (d : Int) →
        ¬ (H1.Cdr d ≤ ((H1.linkIx c + i : Nat) : Int) ∧
          ((H1.linkIx c + i : Nat) : Int) < H1.Cdr d + (H1.vlen d : Int)) := by
      intro d dL dv hcd ⟨hlo, hhi⟩
      obtain ⟨d1, d2, d3, d4⟩ := hgeo d dL dv
      have hne : H1.linkIx c ≠ H1.linkIx d := by
        intro e
        have hd := hw.2.2.2.2.1 c cL d dL cv dv (by intro e2; apply hcd; rw [e2])
        rw [g3, d3, e] at hd
        omega
      have := tiled_disj htiled _ g1 _ d1 hne
      omega
    have e43 : h4.Vectors (H1.linkIx c + i) = h3.Vectors (H1.linkIx c + i) := by
      rcases hw4 (H1.linkIx c + i) with h | ⟨h0, hlo, hhi⟩ | ⟨h0, hlo, hhi⟩
      · exact h
      · exfalso
        rcases hw.2.2.2.2.2 with hneg | ⟨hmL, hmv, _⟩
        · omega
        · exact hother _ hmL hmv (by intro e; apply cnm; rw [e]; omega) ⟨hlo, hhi⟩
      · exfalso
        rcases hlit with h | ⟨_, hL, hvec, _⟩
        · have : M.Obarray = NIL := h
          unfold NIL at this; omega
        · exact hother _ hL hvec (by intro e; apply cna; rw [e]; omega) ⟨hlo, hhi⟩
    have hnr : M.Rts = NIL ∨ H1.linkIx c + i ≠ H1.sizeIx M.Rts.toNat := by
      by_cases h : M.Rts = NIL
      · exact Or.inl h
      · right; intro e
        obtain ⟨rL, rv⟩ := hrtsL h
        obtain ⟨r1, r2, _, _⟩ := hgeo _ rL rv
        rw [r2] at e
        exact (hint _ r1).2 e
    have e32 : h3.Vectors (H1.linkIx c + i) = h2.Vectors (H1.linkIx c + i) := by
      rw [hv3]
      have : ¬ (M.Rts ≠ NIL ∧ H1.linkIx c + i = H1.sizeIx M.Rts.toNat) := by
        rintro ⟨hne, e⟩
        rcases hnr with h | h
        · exact hne h
        · exact h e
      rw [if_neg this]
    have hun : unlinked M.heap.Vectors ts (H1.linkIx c + i) = M.heap.Vectors (H1.linkIx c + i) := by
      unfold unlinked
      rw [if_neg (fun hmem => (hint _ hmem).1 rfl)]
    rw [e43, e32]
    rcases hp.vec (H1.linkIx c + i) with h | ⟨d, dL, dv, _, _, e⟩ | ⟨h0, hlo, hhi⟩
    · rw [h, hH1 _ hnr, hun]
    · exfalso
      exact (hint _ (hgeo d dL dv).1).1 e
    · exfalso
      rcases hw.2.2.2.2.2 with hneg | ⟨hmL, hmv, _⟩
      · omega
      · exact hother _ hmL hmv (by intro e; apply cnm; rw [e]; omega) ⟨hlo, hhi⟩

/-! ## The compaction of `gcv` -/

/-- The state after `unmark_vecs` on a tiled arena. -/
theorem unmark_vecs_spec {M : Machine} {ts : List Nat} (h0 : 0 ≤ M.Freevec)
    (hle : M.Freevec ≤ (M.heap.nvcells : Int)) (hnv : M.heap.nvcells < 2 ^ 31)
    (ht : Tiled M.heap.Vectors 0 ts M.Freevec.toNat) (j : Nat) :
    unmark_vecs (ts.length + j) M = some (M.unmarked ts) := by
  unfold unmark_vecs
  have e : M.Freevec = ((M.Freevec.toNat : Nat) : Int) := by omega
  have := unmarkLoop_spec M.Freevec.toNat ts 0 M.heap j ht (by omega) hnv
  rw [← e] at this
  simp only [Nat.cast_zero] at this
  rw [this]
  rfl

/-- The compaction in terms of the heap that the marker sees: on a state
that is fit for `gcv`, `gcv` returns (with enough fuel for its loops) a
state in which every vector object `n` that is reachable from the roots in
that heap is the content of its own backlink word, has the size word and
the payload that it had in the heap `G` before the compaction loop (and,
the literal vector and the literal map apart, before `gcv`), and the blocks
of these objects, listed in `rl` with their old and new offsets in their old
order, tile the arena from offset 0 to the new `Freevec`, which is the sum
of their lengths. -/
theorem gcv_compacts_seen (M : Machine) (L ts : List Nat) (sk : Int) (H1 : Heap)
    (hwf : GcvWF M L ts sk H1) :
    ∃ (fuel : Nat) (M1 : Machine) (k : Int) (G : Heap) (rl : List (Nat × Nat)),
      (∀ j, gcv (fuel + j) M = some (M1, k)) ∧
      (∃ M0 Mg kg, unmark_vecs fuel M = some M0 ∧ gc fuel M0 = some (Mg, kg) ∧ Mg.heap = G) ∧
      (∀ n, n < H1.nnodes → H1.ReachAny M.roots n → H1.isVec n = true →
        2 ≤ M1.heap.Cdr n ∧
        M1.heap.Vectors (M1.heap.linkIx n) = (n : Int) ∧
        M1.heap.Vectors (M1.heap.sizeIx n) = G.Vectors (G.sizeIx n) ∧
        (∀ i, i < G.vlen n → M1.heap.slot n i = G.slot n i) ∧
        M1.heap.Vectors (M1.heap.sizeIx n) = M.heap.Vectors (M.heap.sizeIx n) ∧
        ((n : Int) ≠ M.Obarray → (n : Int) ≠ M.heap.Obmap →
          ∀ i, i < G.vlen n → M1.heap.slot n i = M.heap.slot n i) ∧
        (G.linkIx n, M1.heap.linkIx n) ∈ rl) ∧
      (∀ p ∈ rl, ∃ n, n < H1.nnodes ∧ H1.ReachAny M.roots n ∧ H1.isVec n = true ∧
        p = (G.linkIx n, M1.heap.linkIx n)) ∧
      rl.Pairwise (fun a b => a.1 < b.1 ∧ a.2 < b.2) ∧
      0 ≤ M1.Freevec ∧
      Tiled M1.heap.Vectors 0 (rl.map Prod.snd) M1.Freevec.toNat ∧
      M1.Freevec = (((rl.map (fun p => vecsize (M1.heap.Vectors (p.2 + 1)))).sum : Nat) : Int) ∧
      k = M.Freevec - M1.Freevec := by
  obtain ⟨fuel, h2, G, fl, ports, kg, hp, hrun, gn, gv, gisv, gsz, glink, gown, gcdr, gpay⟩ :=
    gcv_gc_run hwf
  obtain ⟨hF0, hFle, hnv, htiled, hgc, hblk⟩ := hwf
  obtain ⟨hprep, hw, hclean, hroots, hrts, hlit⟩ := hgc
  simp only [unmarked_roots] at hroots
  obtain ⟨p1, p2, p3, p4, p5, p6, p7, p8, p9⟩ := gcPrep_frame hprep
  have p2' : H1.nvcells = M.heap.nvcells := p2
  have hgeo : ∀ c ∈ L, H1.isVec c = true →
      H1.linkIx c ∈ ts ∧ H1.Cdr c = (H1.linkIx c : Int) + 2 := by
    intro c hc hv
    obtain ⟨b1, b2⟩ := hblk c hc hv
    have hb := (hw.2.2.2.1 c hc hv).1
    refine ⟨b1, ?_⟩
    simp only [Heap.linkIx]; omega
  -- the compaction loop
  have hT : Tiled G.Vectors 0 ts M.Freevec.toNat := tiled_congr_mem gsz htiled
  have hown : ∀ t ∈ ts, G.Vectors t ≠ NIL →
      0 ≤ G.Vectors t ∧ (G.Vectors t).toNat < G.nnodes ∧
        G.Cdr (G.Vectors t).toNat = (t : Int) + 2 := by
    intro t ht hl
    rcases glink t ht with h | ⟨c, cL, cm, cv, e, hc⟩
    · exact absurd h hl
    · rw [hc]
      simp only [Int.toNat_ofNat]
      refine ⟨by omega, by rw [gn]; exact hw.1 c cL, ?_⟩
      rw [gcdr c cm, (hgeo c cL cv).2, e]
  obtain ⟨h1, c1, c2, c3, c4, c5⟩ := compactLoop_spec G.Vectors M.Freevec.toNat ts 0 0 G
    hT (by rw [gv, p2']; omega) (by rw [gv, p2']; exact hnv) (le_refl _)
    (fun _ _ => rfl) hown
  simp only [Nat.zero_add, Nat.cast_zero] at c1
  have eF : M.Freevec = ((M.Freevec.toNat : Nat) : Int) := by omega
  -- live vector objects
  have hlive : ∀ n, n < H1.nnodes → H1.ReachAny M.roots n → H1.isVec n = true →
      n ∈ L ∧ h2.marked n = true := by
    intro n hn hr _
    have hm := (postAll_marked_iff hw hp hclean hroots hn).2 hr
    exact ⟨(hp.new n (hclean n hn) hm).1, hm⟩
  have hfin : ∀ n ∈ L, h2.marked n = true → H1.isVec n = true →
      G.linkIx n = H1.linkIx n ∧ G.Vectors (H1.linkIx n) = (n : Int) ∧
      ∃ q, (H1.linkIx n, q) ∈ relocs G.Vectors ts 0 ∧ h1.Cdr n = (q : Int) + 2 ∧
        ∀ i, i < vecsize (G.Vectors (H1.linkIx n + 1)) →
          h1.Vectors (q + i) = G.Vectors (H1.linkIx n + i) := by
    intro n nL nm nv
    have e1 : G.linkIx n = H1.linkIx n := by simp only [Heap.linkIx, gcdr n nm]
    have e2 := gown n nL nm nv
    have hne : G.Vectors (H1.linkIx n) ≠ NIL := by rw [e2]; unfold NIL; omega
    obtain ⟨q, hq⟩ := relocs_mem G.Vectors ts 0 _ (hgeo n nL nv).1 hne
    obtain ⟨r1, r2⟩ := c3 _ hq
    simp only [e2, Int.toNat_ofNat] at r1
    exact ⟨e1, e2, q, hq, r1, r2⟩
  have hM1 : ∀ j, gcv (ts.length + fuel + j) M = some
      (((M.unmarked ts).afterGc G fl ports).afterGcv h1 ((liveSize G.Vectors ts : Nat) : Int),
        M.Freevec - ((liveSize G.Vectors ts : Nat) : Int)) := by
    intro j
    unfold gcv
    rw [Nat.add_assoc, unmark_vecs_spec hF0 hFle hnv htiled (fuel + j)]
    simp only
    have e1 : ts.length + (fuel + j) = fuel + (ts.length + j) := by omega
    rw [e1, hrun (ts.length + j)]
    simp only
    have e2 : ((M.unmarked ts).afterGc G fl ports).Freevec = ((M.Freevec.toNat : Nat) : Int) := by
      show M.Freevec = _
      exact eF
    have e3 : fuel + (ts.length + j) = ts.length + (fuel + j) := by omega
    have e4 : ((M.unmarked ts).afterGc G fl ports).heap = G := rfl
    rw [e2, e3, e4, c1 (fuel + j)]
    simp only [Machine.afterGcv]
    rw [← eF]
  refine ⟨ts.length + fuel, _, _, G, relocs G.Vectors ts 0, hM1, ?_, ?_, ?_, ?_, ?_, ?_, ?_, ?_⟩
  · exact ⟨M.unmarked ts, _, kg, unmark_vecs_spec hF0 hFle hnv htiled fuel,
      by rw [Nat.add_comm]; exact hrun ts.length, rfl⟩
  · intro n hn hr hv
    obtain ⟨nL, nm⟩ := hlive n hn hr hv
    obtain ⟨e1, e2, q, hq, r1, r2⟩ := hfin n nL nm hv
    have hs := vecsize_ge (G.Vectors (H1.linkIx n + 1))
    have gc2 : G.Cdr n = (H1.linkIx n : Int) + 2 := by rw [gcdr n nm]; exact (hgeo n nL hv).2
    show 2 ≤ h1.Cdr n ∧ h1.Vectors (h1.linkIx n) = (n : Int) ∧
      h1.Vectors (h1.sizeIx n) = G.Vectors (G.sizeIx n) ∧
      (∀ i, i < G.vlen n → h1.slot n i = G.slot n i) ∧
      h1.Vectors (h1.sizeIx n) = M.heap.Vectors (M.heap.sizeIx n) ∧
      ((n : Int) ≠ M.Obarray → (n : Int) ≠ M.heap.Obmap →
        ∀ i, i < G.vlen n → h1.slot n i = M.heap.slot n i) ∧
      (G.linkIx n, h1.linkIx n) ∈ _
    have l1 : h1.linkIx n = q := by simp only [Heap.linkIx, r1]; omega
    have l2 : h1.sizeIx n = q + 1 := by simp only [Heap.sizeIx, r1]; omega
    have l3 : G.sizeIx n = H1.linkIx n + 1 := by simp only [Heap.sizeIx, gc2]; omega
    have mc2 : M.heap.Cdr n = (H1.linkIx n : Int) + 2 := by
      have : H1.Cdr = M.heap.Cdr := p6
      rw [← this]; exact (hgeo n nL hv).2
    have l4 : M.heap.sizeIx n = H1.linkIx n + 1 := by simp only [Heap.sizeIx, mc2]; omega
    have hsz := gsz _ (hgeo n nL hv).1
    have hslot : ∀ i, i < G.vlen n → h1.slot n i = G.slot n i := by
      intro i hi
      simp only [Heap.vlen, l3] at hi
      simp only [Heap.slot, Heap.slotIx, r1, gc2]
      have a1 : ((q : Int) + 2 + (i : Int)).toNat = q + (2 + i) := by omega
      have a2 : ((H1.linkIx n : Int) + 2 + (i : Int)).toNat = H1.linkIx n + (2 + i) := by omega
      rw [a1, a2]
      exact r2 (2 + i) (by omega)
    refine ⟨by omega, ?_, ?_, hslot, ?_, ?_, ?_⟩
    · rw [l1]
      have := r2 0 (by omega)
      simp only [Nat.add_zero] at this
      rw [this]; exact e2
    · rw [l2, l3]; exact r2 1 (by omega)
    · rw [l2, l4, ← hsz]; exact r2 1 (by omega)
    · intro ha hm i hi
      rw [hslot i hi]
      simp only [Heap.vlen, l3] at hi
      simp only [Heap.slot, Heap.slotIx, mc2, gc2]
      have a2 : ((H1.linkIx n : Int) + 2 + (i : Int)).toNat = H1.linkIx n + (2 + i) := by omega
      rw [a2]
      have hm' : (n : Int) ≠ H1.Obmap := by
        have : H1.Obmap = M.heap.Obmap := p4
        rw [this]; exact hm
      exact gpay n nL hv ha hm' (2 + i) (by omega) (by rw [← hsz]; omega)
    · rw [e1, l1]; exact hq
  · intro p hp0
    obtain ⟨b1, b2, _⟩ := relocs_sub G.Vectors ts 0 p hp0
    rcases glink p.1 b1 with h | ⟨c, cL, cm, cv, e, hc⟩
    · exact absurd h b2
    · have hcn := hw.1 c cL
      refine ⟨c, hcn, (postAll_marked_iff hw hp hclean hroots hcn).1 cm, cv, ?_⟩
      have r1 := (c3 p hp0).1
      rw [hc] at r1
      simp only [Int.toNat_ofNat] at r1
      have l1 : Heap.linkIx h1 c = p.2 := by simp only [Heap.linkIx, r1]; omega
      have l0 : G.linkIx c = p.1 := by simp only [Heap.linkIx, gcdr c cm]; rw [e]; rfl
      show p = (G.linkIx c, Heap.linkIx h1 c)
      rw [l0, l1]
  · exact relocs_pairwise G.Vectors _ ts 0 0 hT
  · show (0 : Int) ≤ ((liveSize G.Vectors ts : Nat) : Int)
    omega
  · show Tiled h1.Vectors 0 _ (((liveSize G.Vectors ts : Nat) : Int)).toNat
    have := relocs_tiled G.Vectors h1.Vectors ts 0
      (fun p hp0 => (c3 p hp0).2 1 (by have := vecsize_ge (G.Vectors (p.1 + 1)); omega))
    simpa using this
  · show ((liveSize G.Vectors ts : Nat) : Int) = _
    rw [liveSize_eq G.Vectors ts 0]
    congr 2
    apply List.map_congr_left
    intro p hp0
    show vecsize (G.Vectors (p.1 + 1)) = vecsize (h1.Vectors (p.2 + 1))
    rw [(c3 p hp0).2 1 (by have := vecsize_ge (G.Vectors (p.1 + 1)); omega)]
  · rfl

/-! ## C14: `mul` -/

/-- C14 (divergence): for the fixnums -1073741824 and 2, whose product
-2147483648 is `INT_MIN` and so lies in the fixnum range, `mul` raises the
fixnum overflow error; the source itself notes "Bug: result may not be
INT_MIN". -/
theorem mul_rejects_int_min (fuel : Nat) :
    mulMachine.heap.fixval 0 = some (-1073741824) ∧ mulMachine.heap.fixval 2 = some 2 ∧
    INT_MIN ≤ (-1073741824 : Int) * 2 ∧ (-1073741824 : Int) * 2 ≤ INT_MAX ∧
    (mul fuel mulMachine 0 2).msg = some "*: fixnum overflow" := by
  refine ⟨by decide, by decide, by decide, by decide, ?_⟩
  have h : fixArgs "*" mulMachine 0 2 = Outcome.ok (-1073741824, 2) := rfl
  unfold mul
  rw [h]
  simp only
  rw [if_neg (by decide), if_neg (by decide), if_neg (by decide), if_neg (by decide),
    if_pos (by decide)]
  rfl

/-! ## C19 and C20: immutable objects and the syntax checker -/

/-- C20 (divergence): `syncheck(x, 1)` accepts a `def` form among the
arguments of a function application and among the arguments of `apply`,
although these are no top-level positions; in a `lambda` body the same form
is rejected. -/
theorem syncheck_accepts_nested_def :
    syncheck sampleSyms symCell 5 defInApp true = Chk.ok ∧
    syncheck sampleSyms symCell 5 defInApply true = Chk.ok ∧
    syncheck sampleSyms symCell 5 defInLambda true = Chk.error "def: must be at top level" := by
  decide

/-- An outcome with a state is a result. -/
theorem state_ok {o : Outcome Machine} {M : Machine} (h : o.state = some M) :
    o = Outcome.ok M := by
  cases o with
  | ok M0 => simp only [Outcome.state, Option.some.injEq] at h; rw [h]
  | error m Me => simp [Outcome.state] at h
  | fault => simp [Outcome.state] at h

/-- The case `OP_NRECONC` returns on `constMachine`. -/
theorem nreconc_some : (opNreconc 3 constMachine).state.isSome = true := by decide

/-- C19 (divergence): `OP_NRECONC` on the list `(NIL NIL)` whose second pair
carries `CONST_TAG` raises no error and changes the `cdr` of that pair from
`NIL` to cell 0: only the first pair of the list is tested with `constp`. -/
theorem nreconc_mutates_const :
    constMachine.heap.constp 1 = some true ∧ constMachine.heap.Cdr 1 = NIL ∧
    ∃ M1, opNreconc 3 constMachine = Outcome.ok M1 ∧ M1.heap.constp 1 = some true ∧
      M1.heap.Cdr 1 = 0 ∧ M1.Acc = 1 :=
  ⟨by decide, by decide, (opNreconc 3 constMachine).state.get nreconc_some,
    state_ok (Option.some_get nreconc_some).symm, by decide, by decide, by decide⟩


/-! ## C15: `ntoa` and `scanfix` -/

/-- Every digit is found at its own index. -/
theorem pos_digit : ∀ i : Nat, i < 36 →
    (digitChars[i]?).map (fun c => pos (tolower c) digitChars) = some ((i : Nat) : Int) := by
  decide

/-- The loop of `scanfix` goes on after characters that do not end it. -/
theorem scan_append (r : Int) (ovf : Bool) : ∀ (l1 l2 : List Nat) (v g v1 g1 : Int),
    scanRun r l1 v g = some (v1, g1) →
    scanLoop r ovf (l1 ++ l2) v g = scanLoop r ovf l2 v1 g1
  | [], l2, v, g, v1, g1, h => by
    simp only [scanRun, Option.some.injEq, Prod.mk.injEq] at h
    obtain ⟨rfl, rfl⟩ := h
    rfl
  | c :: l1, l2, v, g, v1, g1, h => by
    simp only [scanRun] at h
    simp only [List.cons_append, scanLoop]
    cases hs : scanStep r v g c with
    | bad => rw [hs] at h; simp at h
    | over => rw [hs] at h; simp at h
    | next w =>
      rw [hs] at h
      simp only at h ⊢
      exact scan_append r ovf l1 l2 w 0 v1 g1 h

theorem scanRun_append (r : Int) : ∀ (l1 l2 : List Nat) (v g v1 g1 : Int),
    scanRun r l1 v g = some (v1, g1) →
    scanRun r (l1 ++ l2) v g = scanRun r l2 v1 g1
  | [], l2, v, g, v1, g1, h => by
    simp only [scanRun, Option.some.injEq, Prod.mk.injEq] at h
    obtain ⟨rfl, rfl⟩ := h
    rfl
  | c :: l1, l2, v, g, v1, g1, h => by
    simp only [scanRun] at h
    simp only [List.cons_append, scanRun]
    cases hs : scanStep r v g c with
    | bad => rw [hs] at h; simp at h
    | over => rw [hs] at h; simp at h
    | next w =>
      rw [hs] at h
      simp only at h ⊢
      exact scanRun_append r l1 l2 w 0 v1 g1 h

/-- Quotient and remainder of the truncating division by a radix. -/
theorem tdiv_facts (y r : Int) (hr : 2 ≤ r) :
    r * y.tdiv r + y.tmod r = y ∧
    (0 ≤ y → 0 ≤ y.tmod r ∧ y.tmod r < r ∧ 0 ≤ y.tdiv r) ∧
    (y ≤ 0 → y.tmod r ≤ 0 ∧ -r < y.tmod r ∧ y.tdiv r ≤ 0) := by
  refine ⟨Int.tdiv_add_tmod y r, ?_, ?_⟩
  · intro h0
    refine ⟨Int.tmod_nonneg r h0, Int.tmod_lt_of_pos y (by omega), Int.tdiv_nonneg h0 (by omega)⟩
  · intro h0
    obtain ⟨n, hn⟩ : ∃ n : Int, y = -n ∧ 0 ≤ n := ⟨-y, by omega, by omega⟩
    obtain ⟨rfl, hn0⟩ := And.intro hn.1 hn.2
    have e1 := Int.tdiv_add_tmod (-n) r
    have e2 := Int.tdiv_add_tmod n r
    rw [Int.neg_tdiv] at e1 ⊢
    have e3 : (-n).tmod r = -(n.tmod r) := by
      have : r * -n.tdiv r = -(r * n.tdiv r) := by ring
      rw [this] at e1
      omega
    rw [e3]
    have a1 := Int.tmod_nonneg r hn0
    have a2 := Int.tmod_lt_of_pos n (show 0 < r by omega)
    have a3 := Int.tdiv_nonneg hn0 (show 0 ≤ r by omega)
    omega

/-- One iteration of the loop of `scanfix` on the digit that `ntoa` writes
for `y`: from the value of the digits before it, the value `y` results. -/
theorem scanStep_digit (y r : Int) (hr2 : 2 ≤ r) (hr36 : r ≤ 36)
    (hlo : INT_MIN ≤ y) (hhi : y ≤ INT_MAX) (g : Int) (c : Nat)
    (hc : digitChars[(y.tmod r).natAbs]? = some c)
    (hg : (y.tdiv r ≠ 0 ∧ g = 0) ∨
      (y.tdiv r = 0 ∧ ((0 ≤ y ∧ g = 1) ∨ (y ≤ 0 ∧ g = -1)))) :
    scanStep r (y.tdiv r) g c = ScanStep.next y := by
  obtain ⟨e, hpos, hneg⟩ := tdiv_facts y r hr2
  have hi36 : (y.tmod r).natAbs < 36 := by
    rcases le_total 0 y with h | h
    · have := hpos h; omega
    · have := hneg h; omega
  have hp := pos_digit _ hi36
  rw [hc] at hp
  simp only [Option.map_some', Option.some.injEq] at hp
  have hmax : (0 : Int) ≤ INT_MAX.tdiv r := Int.tdiv_nonneg (by decide) (by omega)
  have hq : 0 < y.tdiv r → y.tdiv r ≤ INT_MAX.tdiv r := by
    intro hq0
    have hy0 : 0 ≤ y := by
      by_contra hc0
      have := (hneg (by omega)).2.2
      omega
    rw [Int.tdiv_eq_ediv (by decide : (0:Int) ≤ INT_MAX) (by omega : (0:Int) ≤ r)]
    apply Int.le_ediv_of_mul_le (by omega)
    have := hpos hy0
    have e' : y.tdiv r * r = r * y.tdiv r := Int.mul_comm _ _
    omega
  unfold scanStep
  simp only [hp]
  have hcomm : y.tdiv r * r = r * y.tdiv r := Int.mul_comm _ _
  generalize hP : r * y.tdiv r = P at e hcomm
  generalize hm : y.tmod r = m at e hpos hneg hi36
  generalize hQ : y.tdiv r = q at hq hpos hneg hg hcomm
  have hbad : ¬ (((m.natAbs : Nat) : Int) < 0 ∨ ((m.natAbs : Nat) : Int) ≥ r) := by
    rcases le_total 0 y with h | h
    · have := hpos h; omega
    · have := hneg h; omega
  rw [if_neg hbad]
  have hmaxv : INT_MAX = 2147483647 := rfl
  have hminv : INT_MIN = -2147483648 := rfl
  have hover : ¬ (q > INT_MAX.tdiv r ∨ (q > 0 ∧ add_ovfl (q * r) ((m.natAbs : Nat) : Int) = true) ∨
      (q < 0 ∧ sub_ovfl (q * r) ((m.natAbs : Nat) : Int) = true)) := by
    rw [hcomm]
    simp only [add_ovfl, sub_ovfl, Bool.or_eq_true, Bool.and_eq_true, decide_eq_true_eq]
    rintro (h | ⟨h1, h2⟩ | ⟨h1, h2⟩)
    · rcases lt_or_le 0 q with hq0 | hq0
      · have := hq hq0; omega
      · omega
    · have hy0 : 0 ≤ y := by
        by_contra hc0
        have := (hneg (by omega)).2.2
        omega
      have := hpos hy0
      omega
    · have hy0 : y ≤ 0 := by
        by_contra hc0
        have := (hpos (by omega)).2.2
        omega
      have := hneg hy0
      omega
  rw [if_neg hover]
  simp only [hcomm]
  have hval : (if g ≠ 0 then
      (if q < 0 then P - ((m.natAbs : Nat) : Int) else P + ((m.natAbs : Nat) : Int)) * g
      else (if q < 0 then P - ((m.natAbs : Nat) : Int) else P + ((m.natAbs : Nat) : Int))) = y := by
    rcases hg with ⟨hq0, hg0⟩ | ⟨hq0, hs⟩
    · rw [if_neg (by omega)]
      rcases lt_or_le q 0 with hq1 | hq1
      · rw [if_pos hq1]
        have hy0 : y ≤ 0 := by
          by_contra hc0
          have := (hpos (by omega)).2.2
          omega
        have := hneg hy0
        omega
      · rw [if_neg (by omega)]
        have hy0 : 0 ≤ y := by
          by_contra hc0
          have := (hneg (by omega)).2.2
          omega
        have := hpos hy0
        omega
    · have hP0 : P = 0 := by rw [← hcomm, hq0]; simp
      rw [if_neg (by omega : ¬ q < 0)]
      rcases hs with ⟨hy0, hg1⟩ | ⟨hy0, hg1⟩
      · have := hpos hy0
        rw [if_pos (by omega), hg1]
        omega
      · have := hneg hy0
        rw [if_pos (by omega), hg1]
        omega
  rw [hval]

/-- Every index below 36 has a digit. -/
theorem digit_some (i : Nat) (h : i < 36) : ∃ c, digitChars[i]? = some c := by
  have : i < digitChars.length := h
  exact ⟨digitChars[i], List.getElem?_eq_getElem this⟩

/-- The sign characters are no digits. -/
theorem scanStep_sign (r v g : Int) :
    scanStep r v g 43 = ScanStep.bad ∧ scanStep r v g 45 = ScanStep.bad := by
  have h1 : pos (tolower 43) digitChars = -1 := by decide
  have h2 : pos (tolower 45) digitChars = -1 := by decide
  unfold scanStep
  simp only [h1, h2]
  constructor <;> rw [if_pos (Or.inl (by decide))]

/-- The digits that the loop of `ntoa` writes for a number `y` other than 0
are read back by the loop of `scanfix` as `y`. -/
theorem ntoaLoop_scan (r : Int) (hr2 : 2 ≤ r) (hr36 : r ≤ 36) (g : Int) :
    ∀ (n : Nat) (y : Int) (fuel i : Nat) (acc : List Nat), y ≠ 0 → INT_MIN ≤ y → y ≤ INT_MAX →
      y.natAbs < 2 ^ n → n ≤ fuel → ((0 < y ∧ g = 1) ∨ (y < 0 ∧ g = -1)) →
      ∃ ds, ntoaLoop fuel y r i acc = some (ds ++ acc) ∧
        scanRun r ds 0 g = some (y, 0) ∧ ds.length ≤ n := by
  intro n
  induction n with
  | zero =>
    intro y fuel i acc hy _ _ hn
    simp at hn
    exact absurd hn hy
  | succ n ih =>
    intro y fuel i acc hy hlo hhi hn hf hg
    obtain ⟨e, hpos, hneg⟩ := tdiv_facts y r hr2
    obtain ⟨f, rfl⟩ : ∃ f, fuel = f + 1 := ⟨fuel - 1, by omega⟩
    have hi36 : (y.tmod r).natAbs < 36 := by
      rcases le_total 0 y with h | h
      · have := hpos h; omega
      · have := hneg h; omega
    obtain ⟨c, hc⟩ := digit_some _ hi36
    have hloop : ntoaLoop (f + 1) y r i acc = ntoaLoop f (y.tdiv r) r (i + 1) (c :: acc) := by
      simp only [ntoaLoop, ne_eq, hy, not_false_eq_true, true_or, if_true, hc]
    rw [hloop]
    by_cases hq : y.tdiv r = 0
    · refine ⟨[c], ?_, ?_, by simp⟩
      · rw [hq]
        cases f <;> simp [ntoaLoop]
      · have hs := scanStep_digit y r hr2 hr36 hlo hhi g c hc
          (Or.inr ⟨hq, by rcases hg with ⟨h1, h2⟩ | ⟨h1, h2⟩
                          · exact Or.inl ⟨by omega, h2⟩
                          · exact Or.inr ⟨by omega, h2⟩⟩)
        rw [hq] at hs
        simp only [scanRun, hs]
    · have hmaxv : INT_MAX = 2147483647 := rfl
      have hminv : INT_MIN = -2147483648 := rfl
      have hnat : (y.tdiv r).natAbs < 2 ^ n := by
        rw [Int.natAbs_tdiv]
        have hr' : 2 ≤ r.natAbs := by omega
        have : y.natAbs.div r.natAbs ≤ y.natAbs / 2 := by
          show y.natAbs / r.natAbs ≤ y.natAbs / 2
          exact Nat.div_le_div_left hr' (by decide)
        have h2 : y.natAbs / 2 < 2 ^ n := by
          rw [Nat.div_lt_iff_lt_mul (by decide)]
          rw [pow_succ] at hn
          exact hn
        omega
      have hrange : INT_MIN ≤ y.tdiv r ∧ y.tdiv r ≤ INT_MAX ∧
          ((0 < y.tdiv r ∧ g = 1) ∨ (y.tdiv r < 0 ∧ g = -1)) := by
        have hcomm : r * y.tdiv r = y.tdiv r * r := Int.mul_comm _ _
        rcases hg with ⟨h1, h2⟩ | ⟨h1, h2⟩
        · have := hpos (by omega)
          have hq0 : 0 < y.tdiv r := by omega
          have : y.tdiv r ≤ y.tdiv r * r := by nlinarith
          refine ⟨by omega, by omega, Or.inl ⟨hq0, h2⟩⟩
        · have := hneg (by omega)
          have hq0 : y.tdiv r < 0 := by omega
          have : y.tdiv r * r ≤ y.tdiv r := by nlinarith
          refine ⟨by omega, by omega, Or.inr ⟨hq0, h2⟩⟩
      obtain ⟨ds, h1, h2, h3⟩ := ih (y.tdiv r) f (i + 1) (c :: acc) hq hrange.1 hrange.2.1
        hnat (by omega) hrange.2.2
      refine ⟨ds ++ [c], ?_, ?_, by simp; omega⟩
      · rw [h1]; simp
      · rw [scanRun_append r ds [c] 0 g _ _ h2]
        have hs := scanStep_digit y r hr2 hr36 hlo hhi 0 c hc (Or.inl ⟨hq, rfl⟩)
        simp only [scanRun, hs]

/-- The string of `ntoa` is read back by `scanfix`. -/
theorem ntoa_scanfix (v r : Int) (hr2 : 2 ≤ r) (hr36 : r ≤ 36)
    (hlo : INT_MIN ≤ v) (hhi : v ≤ INT_MAX) (ovf : Bool) :
    ∃ s, ntoa v r = some s ∧ scanfix s r ovf = ScanRes.fix v := by
  have hmaxv : INT_MAX = 2147483647 := rfl
  have hminv : INT_MIN = -2147483648 := rfl
  rcases lt_trichotomy v 0 with hneg | rfl | hpos
  · obtain ⟨ds, h1, h2, h3⟩ := ntoaLoop_scan r hr2 hr36 (-1) 32 v 199 0 [] (by omega) hlo hhi
      (by omega) (by decide) (Or.inr ⟨hneg, rfl⟩)
    refine ⟨45 :: ds, ?_, ?_⟩
    · unfold ntoa
      rw [h1]
      simp only [List.append_nil]
      rw [if_pos hneg, if_pos (by omega)]
    · have := scan_append r ovf ds [] 0 (-1) v 0 h2
      rw [List.append_nil] at this
      show scanLoop r ovf ds 0 (-1) = _
      rw [this]
      rfl
  · refine ⟨[48], ?_, ?_⟩
    · unfold ntoa
      have : ntoaLoop 199 0 r 0 [] = some [48] := by
        show ntoaLoop (198 + 1) 0 r 0 [] = some [48]
        simp [ntoaLoop, digitChars]
      rw [this]
      simp
    · have hc : digitChars[((0 : Int).tmod r).natAbs]? = some 48 := by simp [digitChars]
      have hs := scanStep_digit 0 r hr2 hr36 (by decide) (by decide) 1 48 hc
        (Or.inr ⟨by simp, Or.inl ⟨le_refl _, rfl⟩⟩)
      simp only [Int.zero_tdiv] at hs
      show scanLoop r ovf [48] 0 1 = _
      simp only [scanLoop, hs]
      rfl
  · obtain ⟨ds, h1, h2, h3⟩ := ntoaLoop_scan r hr2 hr36 1 32 v 199 0 [] (by omega) hlo hhi
      (by omega) (by decide) (Or.inl ⟨hpos, rfl⟩)
    refine ⟨ds, ?_, ?_⟩
    · unfold ntoa
      rw [h1]
      simp only [List.append_nil]
      rw [if_neg (by omega)]
    · have hl := scan_append r ovf ds [] 0 1 v 0 h2
      rw [List.append_nil] at hl
      have hsg := scanStep_sign r 0 1
      have : scanfix ds r ovf = scanLoop r ovf ds 0 1 := by
        unfold scanfix
        split
        · rename_i p
          simp only [scanRun, hsg.1] at h2
          simp at h2
        · rename_i p
          simp only [scanRun, hsg.2] at h2
          simp at h2
        · rfl
      rw [this, hl]
      rfl

/-- Claim C15: for every fixnum value `v` from `INT_MIN` to `INT_MAX`,
`numstr` makes a string in every radix from 2 to 36 and `strnum` reads that
string back as the fixnum `v` in the same radix; with any other radix both
functions raise their "bad radix" error. -/
theorem numstr_strnum_round_trip (v r : Int) (hlo : INT_MIN ≤ v) (hhi : v ≤ INT_MAX) :
    (2 ≤ r ∧ r ≤ 36 →
      ∃ s, numstr v r = Except.ok s ∧ strnum s r = Except.ok (ScanRes.fix v)) ∧
    (¬ (2 ≤ r ∧ r ≤ 36) →
      numstr v r = Except.error "numstr: bad radix" ∧
      ∀ s, strnum s r = Except.error "strnum: bad radix") := by
  constructor
  · rintro ⟨hr2, hr36⟩
    obtain ⟨s, h1, h2⟩ := ntoa_scanfix v r hr2 hr36 hlo hhi false
    refine ⟨s, ?_, ?_⟩
    · unfold numstr
      rw [if_neg (by omega), h1]
    · unfold strnum
      rw [if_neg (by omega), h2]
  · intro hr
    have hbad : r < 2 ∨ r > 36 := by omega
    refine ⟨?_, fun s => ?_⟩
    · unfold numstr
      rw [if_pos hbad]
    · unfold strnum
      rw [if_pos hbad]

theorem numstr_strnum_round_trip_witness :
    INT_MIN ≤ INT_MIN ∧ INT_MIN ≤ INT_MAX ∧
    numstr INT_MIN 2 = Except.ok (45 :: 49 :: List.replicate 31 48) ∧
    ((2 ≤ (2 : Int) ∧ (2 : Int) ≤ 36 →
      ∃ s, numstr INT_MIN 2 = Except.ok s ∧ strnum s 2 = Except.ok (ScanRes.fix INT_MIN)) ∧
    (¬ (2 ≤ (2 : Int) ∧ (2 : Int) ≤ 36) →
      numstr INT_MIN 2 = Except.error "numstr: bad radix" ∧
      ∀ s, strnum s 2 = Except.error "strnum: bad radix")) :=
  ⟨by decide, by decide, rfl, numstr_strnum_round_trip INT_MIN 2 (by decide) (by decide)⟩



/-! ## C16, C17, C18: the reader -/

/-- Claim C16, evaluated: for the string of the two bytes 9 (tab) and 49
(the digit 1) `prstr` writes the text `"\00111"`, four octal digits after
the backslash, and the reader returns for this text the string of the three
bytes 1, 49, 49, from a port as well as from a string. -/
theorem prstr_rdstr_tab_digit :
    prstr true tabDigit = some tabDigitText ∧
    (xread 10 (Rd.ofPort tabDigitText)).value =
      some (Obj.str [1, 49, 49] (VECTOR_TAG ||| CONST_TAG)) ∧
    (b_read 10 (Obj.str tabDigitText VECTOR_TAG) (Rd.ofPort [])).value =
      some (cons (Obj.str [1, 49, 49] (VECTOR_TAG ||| CONST_TAG)) (Obj.special NIL)) := by
  decide!

/-- Claim C17, amended: `b_read` on a string returns the string of the
message when the reader has noted an error, and otherwise a new list of one
element, the object that `xread` has read; for the text
`(#\A #( 1 2 ) #16rFF)` this is the list whose only element is the list of
the character A, the vector of 1 and 2, and the fixnum 255. -/
theorem b_read_string_wraps (fuel : Nat) (s : List Nat) (t : Nat) (st : Rd) :
    (b_read fuel (Obj.str s t) st).value =
      (match xread fuel { st with Instr := some s, Rejected := -1 } with
       | RdOut.val n st1 =>
         some (match st1.Readerr with
               | some e => mkstr (lit e) (lit e).length
               | none => cons n (Obj.special NIL))
       | _ => none) ∧
    (b_read 10 (Obj.str readText VECTOR_TAG) (Rd.ofPort [])).value =
      some (cons readDatum (Obj.special NIL)) := by
  constructor
  · unfold b_read
    simp only
    cases xread fuel { st with Instr := some s, Rejected := -1 } with
    | val n st1 => cases h : st1.Readerr <;> simp [RdOut.value, h]
    | error msg => rfl
    | fault => rfl
  · decide!

/-- Claim C17 as stated fails: the value of `b_read` on the text
`(#\A #( 1 2 ) #16rFF)` is not the list of three elements. -/
theorem b_read_not_datum :
    (b_read 10 (Obj.str readText VECTOR_TAG) (Rd.ofPort [])).value ≠ some readDatum := by
  decide!

/-- Claim C18, evaluated: for the text of a quote character and an empty
list the reader returns the list of the symbol `quote` and `NIL`, and
neither of its two pairs has `CONST_TAG`; for the text `(quote ())` the two
pairs of the same list have `CONST_TAG`. -/
theorem rdquote_pairs_not_const :
    (xread 10 (Rd.ofPort quoteNilText)).value =
      some (Obj.pair S_quoteObj (Obj.pair (Obj.special NIL) (Obj.special NIL) 0) 0) ∧
    tst 0 CONST_TAG = false ∧
    (xread 10 (Rd.ofPort quoteNilLong)).value =
      some (Obj.pair S_quoteObj (Obj.pair (Obj.special NIL) (Obj.special NIL) CONST_TAG)
        CONST_TAG) := by
  decide!


/-! ## The virtual machine: allocation, stack and fixnum instructions -/

theorem bind_ok {α β : Type} (a : α) (f : α → Outcome β) : (Outcome.ok a).bind f = f a := rfl

theorem freeChain_cons {h : Heap} {k : Nat} {x : Int} {c : Nat} {fl : List Nat}
    (hc : freeChain h k x = some (c :: fl)) :
    x = (c : Int) ∧ c < h.nnodes ∧ freeChain h k (h.Cdr c) = some fl := by
  cases k with
  | zero =>
    simp only [freeChain] at hc
    split at hc <;> simp at hc
  | succ k =>
    simp only [freeChain] at hc
    by_cases hx : x = NIL
    · simp [hx] at hc
    · rw [if_neg hx] at hc
      cases hd : h.cdr x with
      | none => simp [hd] at hc
      | some d =>
        rw [hd] at hc
        simp only at hc
        cases hr : freeChain h k d with
        | none => simp [hr] at hc
        | some l =>
          rw [hr] at hc
          simp only [Option.some.injEq, List.cons.injEq] at hc
          obtain ⟨h1, rfl⟩ := hc
          unfold Heap.cdr at hd
          split at hd
          · rename_i hin
            simp only [Option.some.injEq] at hd
            simp only [Heap.inNodes, Bool.and_eq_true, decide_eq_true_eq] at hin
            have hxc : x = (c : Int) := by omega
            refine ⟨hxc, by omega, ?_⟩
            rw [hxc] at hd
            simp only [Int.toNat_ofNat] at hd
            rw [hd]
            exact freeChain_mono _ _ _ hr
          · simp at hd

theorem cons3_ok (fuel k : Nat) (M : Machine) (a d : Int) (t : Nat) (c : Nat) (fl : List Nat)
    (hf : freeChain M.heap k M.Freelist = some (c :: fl)) (hnd : c ∉ fl) :
    cons3 fuel M a d t = Outcome.ok (M.alloc c a d t, (c : Int)) ∧
    freeChain (M.alloc c a d t).heap k (M.alloc c a d t).Freelist = some fl := by
  obtain ⟨hx, hlt, hrest⟩ := freeChain_cons hf
  constructor
  · unfold cons3
    have hne : M.Freelist ≠ NIL := by rw [hx]; simp [NIL]
    rw [if_neg hne]
    simp only
    have hcdr : M.heap.cdr M.Freelist = some (M.heap.Cdr c) := by
      unfold Heap.cdr
      rw [hx]
      simp [Heap.inNodes, hlt]
    rw [hcdr]
    simp only [Machine.alloc, hx, Int.toNat_ofNat]
  · refine @freeChain_congr M.heap (M.alloc c a d t).heap rfl k _ fl hrest ?_
    intro x hxl
    have : x ≠ c := fun e => hnd (e ▸ hxl)
    simp [Machine.alloc, upd, this]

theorem heapExt_refl (h : Heap) (fl : List Nat) (W : Nat → Prop) : HeapExt h h fl fl W :=
  ⟨rfl, rfl, ⟨[], rfl⟩, fun _ _ => ⟨rfl, rfl, rfl⟩, fun _ _ => rfl⟩

theorem heapExt_trans {h h1 h2 : Heap} {fl fl1 fl2 : List Nat} {W : Nat → Prop}
    (a : HeapExt h h1 fl fl1 W) (b : HeapExt h1 h2 fl1 fl2 W) : HeapExt h h2 fl fl2 W := by
  obtain ⟨a1, a2, ⟨u1, a3⟩, a4, a5⟩ := a
  obtain ⟨b1, b2, ⟨u2, b3⟩, b4, b5⟩ := b
  refine ⟨b1.trans a1, b2.trans a2, ⟨u1 ++ u2, by rw [a3, b3, List.append_assoc]⟩, ?_, ?_⟩
  · intro c hc
    have hc1 : c ∉ fl1 := fun hm => hc (by rw [a3]; exact List.mem_append_right _ hm)
    obtain ⟨x1, x2, x3⟩ := a4 c hc
    obtain ⟨y1, y2, y3⟩ := b4 c hc1
    exact ⟨y1.trans x1, y2.trans x2, y3.trans x3⟩
  · intro w hw
    exact (b5 w hw).trans (a5 w hw)

theorem heapExt_sub {h h1 : Heap} {fl fl1 : List Nat} {W : Nat → Prop}
    (a : HeapExt h h1 fl fl1 W) {c : Nat} (hc : c ∉ fl) : c ∉ fl1 := by
  obtain ⟨_, _, ⟨u1, a3⟩, _, _⟩ := a
  exact fun hm => hc (by rw [a3]; exact List.mem_append_right _ hm)

/-- Allocation of the first free cell. -/
theorem heapExt_alloc (M : Machine) (c : Nat) (fl : List Nat) (a d : Int) (t : Nat)
    (W : Nat → Prop) : HeapExt M.heap (M.alloc c a d t).heap (c :: fl) fl W := by
  refine ⟨rfl, rfl, ⟨[c], rfl⟩, ?_, fun _ _ => rfl⟩
  intro x hx
  have : x ≠ c := fun e => hx (by simp [e])
  simp [Machine.alloc, upd, this]

/-- A write to an arena word in `W`. -/
theorem heapExt_pushed (M : Machine) (w : Nat) (x : Int) (fl : List Nat) (W : Nat → Prop)
    (hw : W w) : HeapExt M.heap (M.pushed w x).heap fl fl W := by
  refine ⟨rfl, rfl, ⟨[], rfl⟩, fun _ _ => ⟨rfl, rfl, rfl⟩, ?_⟩
  intro y hy
  have : y ≠ w := fun e => hy (e ▸ hw)
  simp [Machine.pushed, upd, this]

theorem live_ext {h h1 : Heap} {fl fl1 : List Nat} {W : Nat → Prop}
    (a : HeapExt h h1 fl fl1 W) {c : Int} (hl : Live h fl c) :
    Live h1 fl1 c ∧ h1.car c = h.car c ∧ h1.cdr c = h.cdr c ∧ h1.tag c = h.tag c := by
  obtain ⟨l1, l2, l3⟩ := hl
  have hs := heapExt_sub a l3
  obtain ⟨a1, a2, _, a4, _⟩ := a
  obtain ⟨x1, x2, x3⟩ := a4 _ l3
  refine ⟨⟨l1, by rw [a1]; exact l2, hs⟩, ?_, ?_, ?_⟩
  · simp only [Heap.car, Heap.inNodes, a1, x1]
  · simp only [Heap.cdr, Heap.inNodes, a1, x2]
  · simp only [Heap.tag, Heap.inNodes, a1, x3]

theorem vref_ext {h h1 : Heap} {fl fl1 : List Nat} {W : Nat → Prop}
    (a : HeapExt h h1 fl fl1 W) {w : Int} (hw : ¬ W w.toNat) : h1.vref w = h.vref w := by
  obtain ⟨_, a2, _, _, a5⟩ := a
  simp only [Heap.vref, Heap.inVec, a2, a5 _ hw]

theorem bref_ext {h h1 : Heap} {fl fl1 : List Nat} {W : Nat → Prop}
    (a : HeapExt h h1 fl fl1 W) {base : Int} {i : Nat}
    (hw : ¬ W (base + ((i / sizeof_cell : Nat) : Int)).toNat) : h1.bref base i = h.bref base i := by
  simp only [Heap.bref, vref_ext a hw]

theorem fixCell_read {h : Heap} {fl : List Nat} {c v : Int} (hf : FixCell h fl c v) :
    h.fixp c = some true ∧ h.fixval c = some v ∧ Live h fl c := by
  obtain ⟨n, d, rfl, hn, hd, ht, hcar, hcdr, hv, hnf, hdf⟩ := hf
  refine ⟨?_, ?_, ⟨by omega, by omega, by simpa using hnf⟩⟩
  · simp [Heap.fixp, specialp, Heap.tag, Heap.car, Heap.inNodes, hn, ht, hcar]
  · simp [Heap.fixval, Heap.cdr, Heap.car, Heap.inNodes, hn, hcdr, hd, hv]

theorem fixCell_ext {h h1 : Heap} {fl fl1 : List Nat} {W : Nat → Prop}
    (a : HeapExt h h1 fl fl1 W) {c v : Int} (hf : FixCell h fl c v) : FixCell h1 fl1 c v := by
  obtain ⟨n, d, rfl, hn, hd, ht, hcar, hcdr, hv, hnf, hdf⟩ := hf
  have s1 := heapExt_sub a hnf
  have s2 := heapExt_sub a hdf
  obtain ⟨a1, _, _, a4, _⟩ := a
  obtain ⟨x1, x2, x3⟩ := a4 _ hnf
  obtain ⟨y1, _, _⟩ := a4 _ hdf
  exact ⟨n, d, rfl, by omega, by omega, by rw [x3]; exact ht, by rw [x1]; exact hcar,
    by rw [x2]; exact hcdr, by rw [y1]; exact hv, s1, s2⟩

/-- The function `mkfix` with two free cells at hand. -/
theorem mkfix_ok (fuel k : Nat) (M : Machine) (v : Int) (c1 c2 : Nat) (fl : List Nat)
    (hf : freeChain M.heap k M.Freelist = some (c1 :: c2 :: fl))
    (hnd : (c1 :: c2 :: fl).Nodup) (W : Nat → Prop) :
    ∃ M2, mkfix fuel M v = Outcome.ok (M2, (c2 : Int)) ∧
      M2 = (M.alloc c1 v NIL ATOM_TAG).alloc c2 T_FIXNUM c1 ATOM_TAG ∧
      freeChain M2.heap k M2.Freelist = some fl ∧
      HeapExt M.heap M2.heap (c1 :: c2 :: fl) fl W ∧
      FixCell M2.heap fl c2 v := by
  have hn1 : c1 ∉ c2 :: fl := (List.nodup_cons.mp hnd).1
  have hnd2 := (List.nodup_cons.mp hnd).2
  have hn2 : c2 ∉ fl := (List.nodup_cons.mp hnd2).1
  obtain ⟨e1, f1⟩ := cons3_ok fuel k M v NIL ATOM_TAG c1 (c2 :: fl) hf hn1
  obtain ⟨e2, f2⟩ := cons3_ok fuel k (M.alloc c1 v NIL ATOM_TAG) T_FIXNUM c1 ATOM_TAG c2 fl f1 hn2
  obtain ⟨_, hlt1, _⟩ := freeChain_cons hf
  obtain ⟨_, hlt2, _⟩ := freeChain_cons f1
  refine ⟨_, ?_, rfl, f2, ?_, ?_⟩
  · unfold mkfix mkatom
    rw [e1]
    simp only
    rw [e2]
  · exact heapExt_trans (heapExt_alloc M c1 (c2 :: fl) _ _ _ W)
      (heapExt_alloc (M.alloc c1 v NIL ATOM_TAG) c2 fl _ _ _ W)
  · have hne : c1 ≠ c2 := fun e => hn1 (by simp [e])
    refine ⟨c2, c1, rfl, hlt2, hlt1, ?_, ?_, ?_, ?_, hn2, fun hm => hn1 (List.mem_cons_of_mem _ hm)⟩
    · simp [Machine.alloc, upd, ATOM_TAG, tst]
    · simp [Machine.alloc, upd]
    · simp [Machine.alloc, upd]
    · simp [Machine.alloc, upd, hne]

/-- The function `push` when the stack has room. -/
theorem push_ok (fuel : Nat) (M : Machine) (x rb : Int)
    (hrts : M.heap.cdr M.Rts = some rb) (hsz : M.Sp + 1 < M.Sz)
    (hin : M.heap.inVec (rb + (M.Sp + 1)) = true) :
    push fuel M x = Outcome.ok (M.pushed (rb + (M.Sp + 1)).toNat x) := by
  unfold push stkalloc
  simp only
  rw [if_neg (by omega)]
  simp only [Outcome.bind, Machine.stackset, hrts, Heap.vset, hin, if_true, Outcome.ofOption,
    Machine.pushed]

theorem emit_spec (x : Int) (s : Emit) :
    (emit x s).Here = s.Here + 1 ∧ (emit x s).nq = s.nq ∧
    (emit x s).buf s.Here = (x % 256).toNat ∧ ∀ i, i ≠ s.Here → (emit x s).buf i = s.buf i := by
  refine ⟨rfl, rfl, by simp [emit, upd], ?_⟩
  intro i hi
  simp [emit, upd, hi]

theorem emitop_spec (x : Int) (s : Emit) :
    (emitop x s).Here = s.Here + 1 ∧ (emitop x s).nq = s.nq ∧
    (emitop x s).buf s.Here = (x % 256).toNat ∧ ∀ i, i ≠ s.Here → (emitop x s).buf i = s.buf i := by
  refine ⟨rfl, rfl, by simp [emitop, emit, upd], ?_⟩
  intro i hi
  simp [emitop, emit, upd, hi]

theorem emitq_spec (env : CEnv) (s s1 : Emit) (h : emitq env s = some s1) :
    s1.Here = s.Here + 3 ∧ s1.nq = s.nq + 1 ∧
    0 ≤ env.obindex s.nq ∧ env.obindex s.nq ≤ 65535 ∧
    s1.buf s.Here = OP_QUOTE ∧
    s1.buf (s.Here + 1) = ((env.obindex s.nq / 256) % 256).toNat ∧
    s1.buf (s.Here + 2) = ((env.obindex s.nq % 256) % 256).toNat ∧
    ∀ i, i < s.Here → s1.buf i = s.buf i := by
  unfold emitq emitarg at h
  split at h
  · simp at h
  · rename_i hr
    simp only [Option.some.injEq] at h
    subst h
    have n1 : s.Here ≠ s.Here + 1 := by omega
    have n2 : s.Here ≠ s.Here + 1 + 1 := by omega
    have n3 : s.Here + 1 ≠ s.Here + 1 + 1 := by omega
    refine ⟨rfl, rfl, by omega, by omega, ?_, ?_, ?_, ?_⟩
    · simp [emit, emitop, upd, OP_QUOTE, n1, n2]
    · simp [emit, emitop, upd, n3]
    · simp [emit, emitop, upd]
    · intro i hi
      have h1 : i ≠ s.Here := by omega
      have h2 : i ≠ s.Here + 1 := by omega
      have h3 : i ≠ s.Here + 2 := by omega
      simp [emit, emitop, upd, h1, h2, h3]

/-- The two bytes that `emitarg` writes are read back by `fetcharg`. -/
theorem fetch_bytes (i : Int) (h0 : 0 ≤ i) (h1 : i ≤ 65535) :
    ((((i / 256) % 256).toNat <<< 8) ||| ((i % 256) % 256).toNat) = i.toNat := by
  obtain ⟨n, rfl⟩ := Int.eq_ofNat_of_zero_le h0
  have hn : n ≤ 65535 := by omega
  have e1 : (((n : Int) / 256) % 256).toNat = n / 256 := by omega
  have e2 : (((n : Int) % 256) % 256).toNat = n % 256 := by omega
  rw [e1, e2, Int.toNat_ofNat]
  rw [Nat.shiftLeft_eq, Nat.mul_comm, ← Nat.mul_add_lt_is_or (by omega : n % 256 < 2 ^ 8)]
  omega

theorem code_ext {M0 M : Machine} {fl0 fl : List Nat} {k : Nat} {W : Nat → Prop}
    {buf : Nat → Nat} {lo hi : Nat}
    (hinv : RunInv M0 M fl0 fl k W) (hcode : CodeAt M0 fl0 W buf lo hi) :
    ∃ pb, M.code = some pb ∧ ∀ j, j < hi → lo ≤ j → M.heap.bref pb j = some (buf j) := by
  obtain ⟨hext, _, _, _, hprog, _, _⟩ := hinv
  obtain ⟨pc, pb, l1, c1, l2, c2, hb⟩ := hcode
  obtain ⟨_, _, e1, _⟩ := live_ext hext l1
  obtain ⟨_, _, e2, _⟩ := live_ext hext l2
  refine ⟨pb, ?_, ?_⟩
  · unfold Machine.code
    rw [hprog, e1, c1]
    simp only [Option.bind]
    rw [e2, c2]
  · intro j hj hl
    obtain ⟨b1, b2⟩ := hb j hj hl
    rw [bref_ext hext b2, b1]

theorem ins_at {M0 M : Machine} {fl0 fl : List Nat} {k : Nat} {W : Nat → Prop}
    {buf : Nat → Nat} {lo hi : Nat}
    (hinv : RunInv M0 M fl0 fl k W) (hcode : CodeAt M0 fl0 W buf lo hi)
    (j : Nat) (hip : M.Ip = (j : Int)) (hl : lo ≤ j) (hj : j < hi) :
    M.ins = some (buf j) := by
  obtain ⟨pb, hc, hb⟩ := code_ext hinv hcode
  unfold Machine.ins
  rw [if_neg (by omega), hc, hip]
  simp only [Option.bind, Int.toNat_ofNat]
  exact hb j hj hl

theorem op1_at {M0 M : Machine} {fl0 fl : List Nat} {k : Nat} {W : Nat → Prop}
    {buf : Nat → Nat} {lo hi : Nat}
    (hinv : RunInv M0 M fl0 fl k W) (hcode : CodeAt M0 fl0 W buf lo hi)
    (j : Nat) (hip : M.Ip = (j : Int)) (hl : lo ≤ j) (hj : j + 2 < hi) :
    M.op1 = some ((buf (j + 1) <<< 8) ||| buf (j + 2)) := by
  obtain ⟨pb, hc, hb⟩ := code_ext hinv hcode
  unfold Machine.op1
  rw [if_neg (by omega), hc, hip]
  simp only [Option.bind, Int.toNat_ofNat, Heap.fetcharg]
  rw [hb (j + 1) (by omega) (by omega), hb (j + 1 + 1) (by omega) (by omega)]

theorem fixArgs_ok {M : Machine} {fl : List Nat} {x y a p : Int} (who : String)
    (hx : FixCell M.heap fl x a) (hy : FixCell M.heap fl y p) :
    fixArgs who M x y = Outcome.ok (a, p) := by
  obtain ⟨x1, x2, _⟩ := fixCell_read hx
  obtain ⟨y1, y2, _⟩ := fixCell_read hy
  simp only [fixArgs, x1, y1, x2, y2]

theorem add_arith : ArithOp add (fun p a => p + a) "+: fixnum overflow" := by
  intro fuel k M x y a p c1 c2 fl W hx hy ha hp hf hnd
  have hargs := fixArgs_ok "+" hx hy
  have hov : add_ovfl a p = true ↔ ¬ inFix (p + a) := by
    unfold inFix at ha hp ⊢
    simp only [add_ovfl, INT_MAX, INT_MIN, Bool.or_eq_true, Bool.and_eq_true,
      decide_eq_true_eq] at *
    omega
  constructor
  · intro hr
    obtain ⟨M2, e, rest⟩ := mkfix_ok fuel k M (p + a) c1 c2 fl hf hnd W
    refine ⟨M2, ?_, rest⟩
    unfold add
    rw [hargs]
    simp only
    have : add_ovfl a p = false := by
      cases h : add_ovfl a p
      · rfl
      · exact absurd hr (hov.mp h)
    rw [this, Int.add_comm a p]
    simpa using e
  · intro hr
    unfold add
    rw [hargs]
    simp only
    rw [hov.mpr hr]
    simp

theorem xsub_arith : ArithOp xsub (fun p a => p - a) "+: fixnum overflow" := by
  intro fuel k M x y a p c1 c2 fl W hx hy ha hp hf hnd
  have hargs := fixArgs_ok "-" hx hy
  have hov : sub_ovfl p a = true ↔ ¬ inFix (p - a) := by
    unfold inFix at ha hp ⊢
    simp only [sub_ovfl, INT_MAX, INT_MIN, Bool.or_eq_true, Bool.and_eq_true,
      decide_eq_true_eq] at *
    omega
  constructor
  · intro hr
    obtain ⟨M2, e, rest⟩ := mkfix_ok fuel k M (p - a) c1 c2 fl hf hnd W
    refine ⟨M2, ?_, rest⟩
    unfold xsub
    rw [hargs]
    simp only
    have : sub_ovfl p a = false := by
      cases h : sub_ovfl p a
      · rfl
      · exact absurd hr (hov.mp h)
    rw [this]
    simpa using e
  · intro hr
    unfold xsub
    rw [hargs]
    simp only
    rw [hov.mpr hr]
    simp

theorem vmRun_add (fuel : Nat) : ∀ (a b : Nat) (M : Machine),
    vmRun fuel (a + b) M = (vmRun fuel a M).bind (vmRun fuel b)
  | 0, b, M => by simp [vmRun, Outcome.bind]
  | a + 1, b, M => by
    rw [Nat.add_right_comm]
    simp only [vmRun]
    cases h : vmStep fuel M with
    | ok M1 => simp only [Outcome.bind]; exact vmRun_add fuel a b M1
    | error msg Me => rfl
    | fault => rfl

theorem vmStep_quote {fuel : Nat} {M : Machine} (h : M.ins = some OP_QUOTE) :
    vmStep fuel M = opQuote M := by
  simp [vmStep, h, OP_QUOTE, OP_TAILAPP, OP_APPLY]

theorem vmStep_push {fuel : Nat} {M : Machine} (h : M.ins = some OP_PUSH) :
    vmStep fuel M = opPush fuel M := by
  simp [vmStep, h, OP_QUOTE, OP_TAILAPP, OP_APPLY, OP_PUSH]

theorem vmStep_plus {fuel : Nat} {M : Machine} (h : M.ins = some OP_PLUS) :
    vmStep fuel M = opArith add fuel M := by
  simp [vmStep, h, OP_QUOTE, OP_TAILAPP, OP_APPLY, OP_PUSH, OP_ENTER, OP_ENTCOL, OP_RETURN,
    OP_NEGATE, OP_MINUS, OP_PLUS]

theorem vmStep_minus {fuel : Nat} {M : Machine} (h : M.ins = some OP_MINUS) :
    vmStep fuel M = opArith xsub fuel M := by
  simp [vmStep, h, OP_QUOTE, OP_TAILAPP, OP_APPLY, OP_PUSH, OP_ENTER, OP_ENTCOL, OP_RETURN,
    OP_NEGATE, OP_MINUS]

theorem vmStep_negate {fuel : Nat} {M : Machine} (h : M.ins = some OP_NEGATE) :
    vmStep fuel M = opNegate fuel M := by
  simp [vmStep, h, OP_QUOTE, OP_TAILAPP, OP_APPLY, OP_PUSH, OP_ENTER, OP_ENTCOL, OP_RETURN,
    OP_NEGATE]

theorem runInv_regs {M0 M M1 : Machine} {fl0 fl : List Nat} {k : Nat} {W : Nat → Prop}
    (hinv : RunInv M0 M fl0 fl k W) (hh : M1.heap = M.heap) (hf : M1.Freelist = M.Freelist)
    (h1 : M1.Rts = M.Rts) (h2 : M1.Prog = M.Prog) (h3 : M1.Obarray = M.Obarray)
    (h4 : M1.Sz = M.Sz) : RunInv M0 M1 fl0 fl k W := by
  obtain ⟨a, b, c, d, e, f, g⟩ := hinv
  exact ⟨hh ▸ a, by rw [hh, hf]; exact b, c, h1.trans d, h2.trans e, h3.trans f, h4.trans g⟩

/-- The case `OP_QUOTE` on a literal of the pool. -/
theorem quote_step {M0 M : Machine} {fl0 fl : List Nat} {k : Nat} {W : Nat → Prop}
    {buf : Nat → Nat} {lo hi : Nat} (fuel : Nat)
    (hinv : RunInv M0 M fl0 fl k W) (hcode : CodeAt M0 fl0 W buf lo hi)
    {ob : Int} (hob : Live M0.heap fl0 M0.Obarray) (hobc : M0.heap.cdr M0.Obarray = some ob)
    (j : Nat) (hip : M.Ip = (j : Int)) (hl : lo ≤ j) (hj : j + 2 < hi)
    (i c : Int) (h0 : 0 ≤ i) (h1 : i ≤ 65535)
    (hb0 : buf j = OP_QUOTE) (hb1 : buf (j + 1) = ((i / 256) % 256).toNat)
    (hb2 : buf (j + 2) = ((i % 256) % 256).toNat)
    (hlit : M0.heap.vref (ob + i) = some c) (hnw : ¬ W (ob + i).toNat) :
    vmStep fuel M = Outcome.ok { M with Acc := c, Ip := M.Ip + ISIZE1 } := by
  have hins := ins_at hinv hcode j hip hl (by omega)
  rw [hb0] at hins
  rw [vmStep_quote hins]
  have hop := op1_at hinv hcode j hip hl hj
  rw [hb1, hb2, fetch_bytes i h0 h1] at hop
  obtain ⟨hext, _, _, _, _, hobe, _⟩ := hinv
  obtain ⟨_, _, e2, _⟩ := live_ext hext hob
  have hi' : ((i.toNat : Nat) : Int) = i := Int.toNat_of_nonneg h0
  unfold opQuote
  rw [hop, hobe, e2, hobc]
  simp only
  rw [hi', vref_ext hext hnw, hlit]

theorem runInv_alloc {M0 M : Machine} {fl0 fl : List Nat} {k : Nat} {W : Nat → Prop} {c : Nat}
    (hinv : RunInv M0 M fl0 (c :: fl) k W) (a d : Int) (t : Nat) :
    RunInv M0 (M.alloc c a d t) fl0 fl k W := by
  obtain ⟨h1, h2, h3, h4, h5, h6, h7⟩ := hinv
  have hnd := List.nodup_cons.mp h3
  obtain ⟨_, hfree⟩ := cons3_ok 0 k M a d t c fl h2 hnd.1
  exact ⟨heapExt_trans h1 (heapExt_alloc M c fl a d t W), hfree, hnd.2, h4, h5, h6, h7⟩

theorem runInv_pushed {M0 M : Machine} {fl0 fl : List Nat} {k : Nat} {W : Nat → Prop}
    (hinv : RunInv M0 M fl0 fl k W) (w : Nat) (x : Int) (hw : W w) :
    RunInv M0 (M.pushed w x) fl0 fl k W := by
  obtain ⟨h1, h2, h3, h4, h5, h6, h7⟩ := hinv
  refine ⟨heapExt_trans h1 (heapExt_pushed M w x fl W hw), ?_, h3, h4, h5, h6, h7⟩
  exact @freeChain_congr M.heap (M.pushed w x).heap rfl k _ fl h2 (fun _ _ => rfl)

/-- The case `OP_PUSH` with a free cell at hand and room on the stack. -/
theorem push_step {M0 M : Machine} {fl0 fl : List Nat} {k : Nat} {W : Nat → Prop}
    {buf : Nat → Nat} {lo hi : Nat} (fuel : Nat) {b : Nat}
    (hinv : RunInv M0 M fl0 (b :: fl) k W) (hcode : CodeAt M0 fl0 W buf lo hi)
    {rb : Int} (hrts : Live M0.heap fl0 M0.Rts) (hrc : M0.heap.cdr M0.Rts = some rb)
    (j : Nat) (hip : M.Ip = (j : Int)) (hl : lo ≤ j) (hj : j < hi) (hb0 : buf j = OP_PUSH)
    (hsz : M.Sp + 1 < M.Sz) (hin : M0.heap.inVec (rb + (M.Sp + 1)) = true)
    (hW : W (rb + (M.Sp + 1)).toNat) :
    vmStep fuel M = Outcome.ok
      { (M.alloc b M.Acc NIL 0).pushed (rb + (M.Sp + 1)).toNat (b : Int) with Ip := M.Ip + ISIZE0 } ∧
    RunInv M0
      { (M.alloc b M.Acc NIL 0).pushed (rb + (M.Sp + 1)).toNat (b : Int) with Ip := M.Ip + ISIZE0 }
      fl0 fl k W := by
  have hins := ins_at hinv hcode j hip hl hj
  rw [hb0] at hins
  have hinv1 := runInv_alloc hinv M.Acc NIL 0
  have hinv2 := runInv_pushed hinv1 (rb + (M.Sp + 1)).toNat (b : Int) hW
  constructor
  · rw [vmStep_push hins]
    obtain ⟨_, hf, hnd, _⟩ := hinv
    obtain ⟨e1, _⟩ := cons3_ok fuel k M M.Acc NIL 0 b fl hf (List.nodup_cons.mp hnd).1
    unfold opPush consM
    rw [e1]
    simp only [Outcome.bind]
    obtain ⟨hext, _, _, hr, _⟩ := hinv1
    obtain ⟨_, _, e2, _⟩ := live_ext hext hrts
    have hcdr : (M.alloc b M.Acc NIL 0).heap.cdr (M.alloc b M.Acc NIL 0).Rts = some rb := by
      rw [hr, e2, hrc]
    have hin1 : (M.alloc b M.Acc NIL 0).heap.inVec (rb + ((M.alloc b M.Acc NIL 0).Sp + 1)) = true := by
      have : (M.alloc b M.Acc NIL 0).heap.nvcells = M0.heap.nvcells := hext.2.1
      simp only [Heap.inVec, this]
      exact hin
    rw [push_ok fuel (M.alloc b M.Acc NIL 0) (b : Int) rb hcdr hsz hin1]
    rfl
  · exact runInv_regs hinv2 rfl rfl rfl rfl rfl rfl

/-- The cases `OP_PLUS` and `OP_MINUS` on two fixnums. -/
theorem arith_step {f : Nat → Machine → Int → Int → Outcome (Machine × Int)}
    {g : Int → Int → Int} {msg : String} (hop : ArithOp f g msg) {opc : Nat}
    (hdisp : ∀ (fuel : Nat) (M : Machine), M.ins = some opc → vmStep fuel M = opArith f fuel M)
    {M0 M : Machine} {fl0 fl : List Nat} {k : Nat} {W : Nat → Prop}
    {buf : Nat → Nat} {lo hi : Nat} (fuel : Nat) {c1 c2 : Nat}
    (hinv : RunInv M0 M fl0 (c1 :: c2 :: fl) k W) (hcode : CodeAt M0 fl0 W buf lo hi)
    (j : Nat) (hip : M.Ip = (j : Int)) (hl : lo ≤ j) (hj : j < hi) (hb0 : buf j = opc)
    {y a p : Int} (harg : M.arg 0 = some y)
    (hx : FixCell M.heap (c1 :: c2 :: fl) M.Acc a) (hy : FixCell M.heap (c1 :: c2 :: fl) y p)
    (ha : inFix a) (hp : inFix p) :
    (inFix (g p a) → ∃ M3, vmStep fuel M = Outcome.ok M3 ∧ RunInv M0 M3 fl0 fl k W ∧
        M3.Sp = M.Sp - 1 ∧ M3.Ip = M.Ip + ISIZE0 ∧ FixCell M3.heap fl M3.Acc (g p a)) ∧
    (¬ inFix (g p a) → vmStep fuel M = Outcome.error msg M) := by
  have hins := ins_at hinv hcode j hip hl hj
  rw [hb0] at hins
  have hstep := hdisp fuel M hins
  obtain ⟨h1, h2, h3, h4, h5, h6, h7⟩ := hinv
  obtain ⟨r1, r2⟩ := hop fuel k M M.Acc y a p c1 c2 fl W hx hy ha hp h2 h3
  constructor
  · intro hr
    obtain ⟨M2, e, rfl, hfree, hext, hfix⟩ := r1 hr
    refine ⟨{ (M.alloc c1 (g p a) NIL ATOM_TAG).alloc c2 T_FIXNUM (c1 : Int) ATOM_TAG with Acc := (c2 : Int), Sp := M.Sp - 1, Ip := M.Ip + ISIZE0 }, ?_, ?_, ?_, ?_, ?_⟩
    · rw [hstep]
      unfold opArith
      rw [harg]
      simp only
      rw [e]
      rfl
    · exact ⟨heapExt_trans h1 hext, hfree, (List.nodup_cons.mp (List.nodup_cons.mp h3).2).2,
        h4, h5, h6, h7⟩
    · rfl
    · rfl
    · exact hfix
  · intro hr
    rw [hstep]
    unfold opArith
    rw [harg]
    simp only
    rw [r2 hr]
    rfl

/-- One operand of a fold: `OP_PUSH`, `OP_QUOTE` of a fixnum literal, and
the arithmetic instruction. -/
theorem arith_iter {f : Nat → Machine → Int → Int → Outcome (Machine × Int)}
    {g : Int → Int → Int} {msg : String} (hop : ArithOp f g msg) {opc : Nat}
    (hdisp : ∀ (fuel : Nat) (M : Machine), M.ins = some opc → vmStep fuel M = opArith f fuel M)
    {M0 M : Machine} {fl0 fl : List Nat} {k : Nat} {W : Nat → Prop}
    {buf : Nat → Nat} {lo hi : Nat} (fuel : Nat) {b c1 c2 : Nat}
    (hcode : CodeAt M0 fl0 W buf lo hi)
    {ob : Int} (hob : Live M0.heap fl0 M0.Obarray) (hobc : M0.heap.cdr M0.Obarray = some ob)
    {rb : Int} (hrts : Live M0.heap fl0 M0.Rts) (hrc : M0.heap.cdr M0.Rts = some rb)
    (hsz : M0.Sp + 1 < M0.Sz) (hin : M0.heap.inVec (rb + (M0.Sp + 1)) = true)
    (hW : W (rb + (M0.Sp + 1)).toNat)
    (hinv : RunInv M0 M fl0 (b :: c1 :: c2 :: fl) k W) (hsp : M.Sp = M0.Sp)
    (j : Nat) (hip : M.Ip = (j : Int)) (hl : lo ≤ j) (hj : j + 4 < hi)
    (i c a p : Int) (h0 : 0 ≤ i) (h1 : i ≤ 65535)
    (hb0 : buf j = OP_PUSH) (hb1 : buf (j + 1) = OP_QUOTE)
    (hb2 : buf (j + 2) = ((i / 256) % 256).toNat) (hb3 : buf (j + 3) = ((i % 256) % 256).toNat)
    (hb4 : buf (j + 4) = opc)
    (hlit : M0.heap.vref (ob + i) = some c) (hnw : ¬ W (ob + i).toNat)
    (hfc : FixCell M0.heap fl0 c a) (ha : inFix a)
    (hacc : FixCell M.heap (b :: c1 :: c2 :: fl) M.Acc p) (hp : inFix p) :
    (inFix (g p a) → ∃ M3, vmRun fuel 3 M = Outcome.ok M3 ∧ RunInv M0 M3 fl0 fl k W ∧
        M3.Sp = M0.Sp ∧ M3.Ip = ((j + 5 : Nat) : Int) ∧ FixCell M3.heap fl M3.Acc (g p a)) ∧
    (¬ inFix (g p a) → ∃ Me, vmRun fuel 3 M = Outcome.error msg Me) := by
  have hsz' : M.Sp + 1 < M.Sz := by rw [hsp, hinv.2.2.2.2.2.2]; exact hsz
  obtain ⟨e1, inv1⟩ := push_step fuel hinv hcode hrts hrc j hip hl (by omega) hb0 hsz'
    (by rw [hsp]; exact hin) (by rw [hsp]; exact hW)
  obtain ⟨_, hlt, _⟩ := freeChain_cons hinv.2.1
  have hextM : HeapExt M.heap ((M.alloc b M.Acc NIL 0).pushed (rb + (M.Sp + 1)).toNat (b : Int)).heap
      (b :: c1 :: c2 :: fl) (c1 :: c2 :: fl) W :=
    heapExt_trans (heapExt_alloc M b _ _ _ _ W)
      (heapExt_pushed _ _ _ _ W (by rw [hsp]; exact hW))
  generalize hM1 : ({ (M.alloc b M.Acc NIL 0).pushed (rb + (M.Sp + 1)).toNat (b : Int) with Ip := M.Ip + ISIZE0 } : Machine) = M1 at e1 inv1
  have hM1h : M1.heap = ((M.alloc b M.Acc NIL 0).pushed (rb + (M.Sp + 1)).toNat (b : Int)).heap := by
    rw [← hM1]
  have hM1ip : M1.Ip = ((j + 1 : Nat) : Int) := by
    rw [← hM1]
    show M.Ip + ISIZE0 = _
    rw [hip]
    simp [ISIZE0]
  have hM1sp : M1.Sp = M0.Sp + 1 := by
    rw [← hM1]
    show M.Sp + 1 = _
    rw [hsp]
  have e2 := quote_step fuel inv1 hcode hob hobc (j + 1) hM1ip (by omega) (by omega) i c h0 h1
    hb1 hb2 hb3 hlit hnw
  have inv2 : RunInv M0 { M1 with Acc := c, Ip := M1.Ip + ISIZE1 } fl0 (c1 :: c2 :: fl) k W :=
    runInv_regs inv1 rfl rfl rfl rfl rfl rfl
  generalize hM2 : ({ M1 with Acc := c, Ip := M1.Ip + ISIZE1 } : Machine) = M2 at e2 inv2
  have hM2h : M2.heap = M1.heap := by rw [← hM2]
  have hM2ip : M2.Ip = ((j + 4 : Nat) : Int) := by
    rw [← hM2]
    show M1.Ip + ISIZE1 = _
    rw [hM1ip]
    simp [ISIZE1]
    omega
  have hM2sp : M2.Sp = M0.Sp + 1 := by rw [← hM2]; exact hM1sp
  have hM2acc : M2.Acc = c := by rw [← hM2]
  have hM2rts : M2.Rts = M0.Rts := inv2.2.2.2.1
  have hx : FixCell M2.heap (c1 :: c2 :: fl) M2.Acc a := by
    rw [hM2acc]
    exact fixCell_ext inv2.1 hfc
  have hy : FixCell M2.heap (c1 :: c2 :: fl) M.Acc p := by
    rw [hM2h, hM1h]
    exact fixCell_ext hextM hacc
  have harg : M2.arg 0 = some M.Acc := by
    obtain ⟨_, _, er, _⟩ := live_ext inv2.1 hrts
    have hv : M2.heap.vref (rb + (M0.Sp + 1)) = some (b : Int) := by
      have hnv : M2.heap.nvcells = M0.heap.nvcells := inv2.1.2.1
      have hin2 : M2.heap.inVec (rb + (M0.Sp + 1)) = true := by
        simp only [Heap.inVec, hnv]
        exact hin
      unfold Heap.vref
      rw [hin2, hM2h, hM1h]
      simp [Machine.pushed, upd, hsp]
    have hcar : M2.heap.car (b : Int) = some M.Acc := by
      have hnn : M2.heap.nnodes = M.heap.nnodes := by rw [hM2h, hM1h]; rfl
      unfold Heap.car
      simp only [Heap.inNodes, hnn]
      rw [hM2h, hM1h]
      simp [Machine.pushed, Machine.alloc, upd, hlt]
    unfold Machine.arg Machine.stackref
    rw [hM2rts, er, hrc]
    simp only [hM2sp, sub_zero]
    rw [hv]
    exact hcar
  obtain ⟨r1, r2⟩ := arith_step hop hdisp fuel inv2 hcode (j + 4) hM2ip (by omega) (by omega) hb4
    harg hx hy ha hp
  constructor
  · intro hr
    obtain ⟨M3, e3, inv3, s3, i3, f3⟩ := r1 hr
    refine ⟨M3, ?_, inv3, ?_, ?_, f3⟩
    · simp only [vmRun, e1, Outcome.bind, e2, e3]
    · rw [s3, hM2sp]; omega
    · rw [i3, hM2ip]; simp [ISIZE0]; omega
  · intro hr
    refine ⟨M2, ?_⟩
    simp only [vmRun, e1, Outcome.bind, e2, r2 hr]

theorem compexpr_atom (env : CEnv) (fc : Nat) (c : Int) (t : Bool) (s : Emit) :
    compexpr env (fc + 1) (Sx.atom c) t s = emitq env s := rfl

theorem pushOpLoop_cons (env : CEnv) (fc : Nat) (op : Int) (c : Int) (r : List Int) (s s1 : Emit)
    (h : pushOpLoop (compexpr env (fc + 1)) op (Sx.ofAtoms (c :: r)) s = some s1) :
    ∃ s2, emitq env (emitop OP_PUSH s) = some s2 ∧
      pushOpLoop (compexpr env (fc + 1)) op (Sx.ofAtoms r) (emitop op s2) = some s1 := by
  simp only [Sx.ofAtoms, pushOpLoop, compexpr_atom] at h
  cases he : emitq env (emitop (OP_PUSH : Nat) s) with
  | none => rw [he] at h; simp at h
  | some s2 => rw [he] at h; exact ⟨s2, rfl, h⟩

theorem pushOpLoop_frame (env : CEnv) (fc : Nat) (op : Int) : ∀ (cs : List Int) (s s1 : Emit),
    pushOpLoop (compexpr env (fc + 1)) op (Sx.ofAtoms cs) s = some s1 →
    s.Here ≤ s1.Here ∧ ∀ i, i < s.Here → s1.buf i = s.buf i
  | [], s, s1, h => by
    simp only [Sx.ofAtoms, pushOpLoop, if_true, Option.some.injEq] at h
    subst h
    exact ⟨le_refl _, fun _ _ => rfl⟩
  | c :: r, s, s1, h => by
    obtain ⟨s2, he, hr⟩ := pushOpLoop_cons env fc op c r s s1 h
    obtain ⟨q1, _, _, _, _, _, _, q8⟩ := emitq_spec env _ s2 he
    obtain ⟨p1, _, _, p4⟩ := emitop_spec (OP_PUSH : Nat) s
    obtain ⟨o1, _, _, o4⟩ := emitop_spec op s2
    obtain ⟨ih1, ih2⟩ := pushOpLoop_frame env fc op r _ s1 hr
    constructor
    · omega
    · intro i hi
      rw [ih2 i (by omega), o4 i (by omega), q8 i (by omega), p4 i (by omega)]

/-- The loop that `complsubr0` and `complsubr1` compile for the operands
after the first one, run on fixnum literals. -/
theorem fold_run {f : Nat → Machine → Int → Int → Outcome (Machine × Int)}
    {g : Int → Int → Int} {msg : String} (hop : ArithOp f g msg) {opc : Nat} (hopc : opc < 256)
    (hdisp : ∀ (fuel : Nat) (M : Machine), M.ins = some opc → vmStep fuel M = opArith f fuel M)
    (env : CEnv) (fc : Nat)
    {M0 : Machine} {fl0 : List Nat} {k : Nat} {W : Nat → Prop} {lo : Nat} (fuel : Nat)
    (s1 : Emit) (hcode : CodeAt M0 fl0 W s1.buf lo s1.Here)
    {ob : Int} (hob : Live M0.heap fl0 M0.Obarray) (hobc : M0.heap.cdr M0.Obarray = some ob)
    {rb : Int} (hrts : Live M0.heap fl0 M0.Rts) (hrc : M0.heap.cdr M0.Rts = some rb)
    (hsz : M0.Sp + 1 < M0.Sz) (hin : M0.heap.inVec (rb + (M0.Sp + 1)) = true)
    (hW : W (rb + (M0.Sp + 1)).toNat) :
    ∀ (lits : List (Int × Int)) (s : Emit) (M : Machine) (fl : List Nat) (p : Int),
      pushOpLoop (compexpr env (fc + 1)) (opc : Nat) (Sx.ofAtoms (lits.map Prod.fst)) s = some s1 →
      lo ≤ s.Here → RunInv M0 M fl0 fl k W → M.Sp = M0.Sp → M.Ip = (s.Here : Int) →
      FixCell M.heap fl M.Acc p → inFix p → LitsAt env M0 fl0 W ob s.nq lits →
      3 * lits.length ≤ fl.length →
      (∀ v, foldFix g p (lits.map Prod.snd) = some v →
        ∃ M1 fl1, vmRun fuel (3 * lits.length) M = Outcome.ok M1 ∧ RunInv M0 M1 fl0 fl1 k W ∧
          M1.Sp = M0.Sp ∧ M1.Ip = (s1.Here : Int) ∧ FixCell M1.heap fl1 M1.Acc v ∧ inFix v) ∧
      (foldFix g p (lits.map Prod.snd) = none →
        ∃ Me, vmRun fuel (3 * lits.length) M = Outcome.error msg Me) := by
  intro lits
  induction lits with
  | nil =>
    intro s M fl p hc _ hinv hsp hip hacc hp _ _
    simp only [List.map_nil, Sx.ofAtoms, pushOpLoop, if_true, Option.some.injEq] at hc
    subst hc
    constructor
    · intro v hv
      simp only [List.map_nil, foldFix, Option.some.injEq] at hv
      subst hv
      exact ⟨M, fl, rfl, hinv, hsp, hip, hacc, hp⟩
    · intro hv
      simp [foldFix] at hv
  | cons ca r ih =>
    obtain ⟨c, a⟩ := ca
    intro s M fl p hc hlo hinv hsp hip hacc hp hlits hlen
    simp only [List.map_cons] at hc
    obtain ⟨s2, he, hr⟩ := pushOpLoop_cons env fc _ c _ s s1 hc
    obtain ⟨q1, q2, q3, q4, q5, q6, q7, q8⟩ := emitq_spec env _ s2 he
    obtain ⟨p1, p2, p3, p4⟩ := emitop_spec (OP_PUSH : Nat) s
    obtain ⟨o1, o2, o3, o4⟩ := emitop_spec (opc : Nat) s2
    obtain ⟨f1, f2⟩ := pushOpLoop_frame env fc _ _ _ s1 hr
    obtain ⟨l1, l2, l3, l4, l5⟩ := hlits
    rw [p2] at q3 q4 q6 q7
    rw [p1] at q1 q5 q6 q7
    -- the bytes of this operand in the final buffer
    have hb0 : s1.buf s.Here = OP_PUSH := by
      rw [f2 _ (by omega), o4 _ (by omega), q8 _ (by omega), p3]
      simp [OP_PUSH]
    have hb1 : s1.buf (s.Here + 1) = OP_QUOTE := by
      rw [f2 _ (by omega), o4 _ (by omega), q5]
    have hb2 : s1.buf (s.Here + 2) = ((env.obindex s.nq / 256) % 256).toNat := by
      rw [f2 _ (by omega), o4 _ (by omega)]
      exact q6
    have hb3 : s1.buf (s.Here + 3) = ((env.obindex s.nq % 256) % 256).toNat := by
      rw [f2 _ (by omega), o4 _ (by omega)]
      exact q7
    have hb4 : s1.buf (s.Here + 4) = opc := by
      have : s2.Here = s.Here + 4 := by omega
      rw [f2 _ (by omega), ← this, o3]
      omega
    have hlen3 : 3 ≤ fl.length := by
      simp only [List.length_cons] at hlen
      omega
    obtain ⟨b, c1, c2, fl', rfl⟩ : ∃ b c1 c2 fl', fl = b :: c1 :: c2 :: fl' := by
      rcases fl with _ | ⟨b, _ | ⟨c1, _ | ⟨c2, fl'⟩⟩⟩
      · simp at hlen3
      · simp at hlen3
      · simp at hlen3
      · exact ⟨b, c1, c2, fl', rfl⟩
    obtain ⟨r1, r2⟩ := arith_iter hop hdisp fuel hcode hob hobc hrts hrc hsz hin hW hinv hsp
      s.Here hip hlo (by omega) (env.obindex s.nq) c a p q3 q4 hb0 hb1 hb2 hb3 hb4 l1 l2 l3 l4
      hacc hp
    have hmul : 3 * ((c, a) :: r).length = 3 + 3 * r.length := by
      simp only [List.length_cons]; omega
    rw [hmul, ]
    simp only [List.map_cons, foldFix]
    by_cases hr3 : inFix (g p a)
    · obtain ⟨M3, e3, inv3, s3, i3, f3⟩ := r1 hr3
      have hnq : (emitop (opc : Nat) s2).nq = s.nq + 1 := by rw [o2, q2, p2]
      have hhere : (emitop (opc : Nat) s2).Here = s.Here + 5 := by omega
      obtain ⟨g1, g2⟩ := ih (emitop (opc : Nat) s2) M3 fl' (g p a) hr (by omega) inv3 s3
        (by rw [i3, hhere]) f3 hr3 (by rw [hnq]; exact l5)
        (by simp only [List.length_cons] at hlen; omega)
      have hr3' : INT_MIN ≤ g p a ∧ g p a ≤ INT_MAX := hr3
      rw [if_pos hr3']
      constructor
      · intro v hv
        obtain ⟨M1, fl1, x1, x2⟩ := g1 v hv
        refine ⟨M1, fl1, ?_, x2⟩
        rw [vmRun_add, e3]
        exact x1
      · intro hv
        obtain ⟨Me, x1⟩ := g2 hv
        refine ⟨Me, ?_⟩
        rw [vmRun_add, e3]
        exact x1
    · obtain ⟨Me, e3⟩ := r2 hr3
      have hr3' : ¬ (INT_MIN ≤ g p a ∧ g p a ≤ INT_MAX) := hr3
      rw [if_neg hr3']
      constructor
      · intro v hv
        simp at hv
      · intro _
        refine ⟨Me, ?_⟩
        rw [vmRun_add, e3]
        rfl

theorem compform_plus (env : CEnv) (henv : env.sy = sampleSyms)
    (ce : Sx → Bool → Emit → Option Emit) (x : Sx) (t : Bool) (s : Emit) :
    compform env ce (Sx.atom sampleSyms.P_plus) x t s = complsubr0 env ce x (OP_PLUS : Nat) s := by
  unfold compform
  rw [henv]
  rw [if_neg (by decide), if_neg (by decide), if_neg (by decide), if_neg (by decide),
    if_neg (by decide), if_neg (by decide), if_neg (by decide), if_neg (by decide),
    if_neg (by decide), if_neg (by decide), if_neg (by decide), if_neg (by decide),
    if_neg (by decide), if_neg (by decide), if_neg (by decide), if_neg (by decide),
    if_pos (by decide)]
  rfl

theorem compform_minus (env : CEnv) (henv : env.sy = sampleSyms)
    (ce : Sx → Bool → Emit → Option Emit) (x : Sx) (t : Bool) (s : Emit) :
    compform env ce (Sx.atom sampleSyms.P_minus) x t s = complsubr1 env ce x (OP_MINUS : Nat) s := by
  unfold compform
  rw [henv]
  rw [if_neg (by decide), if_neg (by decide), if_neg (by decide), if_neg (by decide),
    if_neg (by decide), if_neg (by decide), if_neg (by decide), if_neg (by decide),
    if_neg (by decide), if_neg (by decide), if_neg (by decide), if_neg (by decide),
    if_neg (by decide), if_neg (by decide), if_neg (by decide), if_neg (by decide),
    if_neg (by decide)]
  rfl

theorem complsubr0_atoms (env : CEnv) (fc : Nat) (h : Sx) (cs : List Int) (s s1 : Emit)
    (hc : complsubr0 env (compexpr env (fc + 1)) (Sx.cons h (Sx.ofAtoms cs)) (OP_PLUS : Nat) s
      = some s1) :
    (cs = [] → emitq env s = some s1) ∧
    (∀ c r, cs = c :: r → ∃ s2, emitq env s = some s2 ∧
      pushOpLoop (compexpr env (fc + 1)) (OP_PLUS : Nat) (Sx.ofAtoms r) s2 = some s1) := by
  constructor
  · rintro rfl
    simpa [complsubr0, Sx.ofAtoms, Sx.cdr, Sx.is] using hc
  · rintro c r rfl
    cases r with
    | nil =>
      refine ⟨s1, ?_, by simp [Sx.ofAtoms, pushOpLoop]⟩
      simpa [complsubr0, Sx.ofAtoms, Sx.cdr, Sx.cddr, Sx.cadr, Sx.car, Sx.is, compexpr_atom] using hc
    | cons c2 r =>
      simp [complsubr0, Sx.ofAtoms, Sx.cdr, Sx.cddr, Sx.cadr, Sx.car, Sx.is, compexpr_atom,
        OP_PLUS, OP_CONC, OP_SCONC, OP_VCONC, OP_NCONC] at hc
      cases he : emitq env s with
      | none => simp [he] at hc
      | some s2 =>
        rw [he] at hc
        exact ⟨s2, rfl, by simpa [Sx.ofAtoms, OP_PLUS] using hc⟩

theorem complsubr1_atoms (env : CEnv) (fc : Nat) (h : Sx) (cs : List Int) (s s1 : Emit)
    (hc : complsubr1 env (compexpr env (fc + 1)) (Sx.cons h (Sx.ofAtoms cs)) (OP_MINUS : Nat) s
      = some s1) :
    cs ≠ [] ∧
    (∀ c, cs = [c] → ∃ s2, emitq env s = some s2 ∧ s1 = emitop (OP_NEGATE : Nat) s2) ∧
    (∀ c c2 r, cs = c :: c2 :: r → ∃ s2, emitq env s = some s2 ∧
      pushOpLoop (compexpr env (fc + 1)) (OP_MINUS : Nat) (Sx.ofAtoms (c2 :: r)) s2 = some s1) := by
  refine ⟨?_, ?_, ?_⟩
  · rintro rfl
    simp [complsubr1, Sx.ofAtoms, Sx.length] at hc
  · rintro c rfl
    simp [complsubr1, Sx.ofAtoms, Sx.length, Sx.cdr, Sx.cddr, Sx.cadr, Sx.car, Sx.is,
      compexpr_atom, OP_MINUS, OP_BITOP, OP_MIN, OP_MAX] at hc
    cases he : emitq env s with
    | none => simp [he] at hc
    | some s2 =>
      rw [he] at hc
      exact ⟨s2, rfl, by simpa [OP_MINUS, OP_NEGATE] using hc.symm⟩
  · rintro c c2 r rfl
    cases hl : (Sx.ofAtoms r).length with
    | none => simp [complsubr1, Sx.ofAtoms, Sx.length, hl] at hc
    | some l =>
      simp [complsubr1, Sx.ofAtoms, Sx.length, hl, Sx.cdr, Sx.cddr, Sx.cadr, Sx.car, Sx.is,
        compexpr_atom, OP_MINUS, OP_BITOP, OP_MIN, OP_MAX] at hc
      obtain ⟨_, hc⟩ := hc
      cases he : emitq env s with
      | none => simp [he] at hc
      | some s2 =>
        rw [he] at hc
        exact ⟨s2, rfl, by simpa [Sx.ofAtoms, OP_MINUS] using hc⟩

theorem runInv_init {M : Machine} {fl : List Nat} {k : Nat} (W : Nat → Prop)
    (hfree : freeChain M.heap k M.Freelist = some fl) (hnd : fl.Nodup) :
    RunInv M M fl fl k W :=
  ⟨heapExt_refl _ _ _, hfree, hnd, rfl, rfl, rfl, rfl⟩

/-- The first instruction of the code of a sum or difference: `OP_QUOTE`
of the first literal. -/
theorem first_quote (env : CEnv) {M : Machine} {fl : List Nat} {k : Nat} {W : Nat → Prop}
    (fuel : Nat) (s0 s2 s1 : Emit) (he : emitq env s0 = some s2)
    (hfr : s2.Here ≤ s1.Here ∧ ∀ i, i < s2.Here → s1.buf i = s2.buf i)
    (hcode : CodeAt M fl W s1.buf s0.Here s1.Here) (hip : M.Ip = (s0.Here : Int))
    {ob : Int} (hob : Live M.heap fl M.Obarray) (hobc : M.heap.cdr M.Obarray = some ob)
    (hfree : freeChain M.heap k M.Freelist = some fl) (hnd : fl.Nodup)
    (c a : Int) (r : List (Int × Int)) (hlits : LitsAt env M fl W ob s0.nq ((c, a) :: r)) :
    vmStep fuel M = Outcome.ok { M with Acc := c, Ip := M.Ip + ISIZE1 } ∧
    RunInv M { M with Acc := c, Ip := M.Ip + ISIZE1 } fl fl k W ∧
    FixCell M.heap fl c a ∧ inFix a ∧ LitsAt env M fl W ob s2.nq r ∧
    s2.Here = s0.Here + 3 := by
  obtain ⟨q1, q2, q3, q4, q5, q6, q7, q8⟩ := emitq_spec env _ s2 he
  obtain ⟨l1, l2, l3, l4, l5⟩ := hlits
  have hinv := runInv_init W hfree hnd
  have e := quote_step fuel hinv hcode hob hobc s0.Here hip (le_refl _) (by omega)
    (env.obindex s0.nq) c q3 q4 (by rw [hfr.2 _ (by omega), q5])
    (by rw [hfr.2 _ (by omega), q6]) (by rw [hfr.2 _ (by omega), q7]) l1 l2
  exact ⟨e, runInv_regs hinv rfl rfl rfl rfl rfl rfl, l3, l4, by rw [q2]; exact l5, q1⟩

/-- The case `OP_NEGATE` on a fixnum with two free cells at hand. -/
theorem negate_step {M0 M : Machine} {fl0 fl : List Nat} {k : Nat} {W : Nat → Prop}
    {buf : Nat → Nat} {lo hi : Nat} (fuel : Nat) {c1 c2 : Nat}
    (hinv : RunInv M0 M fl0 (c1 :: c2 :: fl) k W) (hcode : CodeAt M0 fl0 W buf lo hi)
    (j : Nat) (hip : M.Ip = (j : Int)) (hl : lo ≤ j) (hj : j < hi) (hb0 : buf j = OP_NEGATE)
    {a : Int} (hx : FixCell M.heap (c1 :: c2 :: fl) M.Acc a) :
    (a ≠ INT_MIN → ∃ M3, vmStep fuel M = Outcome.ok M3 ∧ M3.Sp = M.Sp ∧
        M3.Ip = M.Ip + ISIZE0 ∧ FixCell M3.heap fl M3.Acc (-a)) ∧
    (a = INT_MIN → vmStep fuel M = Outcome.error "-: fixnum overflow" M) := by
  have hins := ins_at hinv hcode j hip hl hj
  rw [hb0] at hins
  obtain ⟨x1, x2, _⟩ := fixCell_read hx
  obtain ⟨_, h2, h3, _⟩ := hinv
  constructor
  · intro hne
    obtain ⟨M2, e, rfl, _, _, hfix⟩ := mkfix_ok fuel k M (-a) c1 c2 fl h2 h3 W
    refine ⟨{ (M.alloc c1 (-a) NIL ATOM_TAG).alloc c2 T_FIXNUM (c1 : Int) ATOM_TAG with Acc := (c2 : Int), Ip := M.Ip + ISIZE0 }, ?_, rfl, rfl, hfix⟩
    rw [vmStep_negate hins]
    unfold opNegate
    rw [x1, x2]
    simp only
    rw [if_neg hne, e]
    rfl
  · intro he
    rw [vmStep_negate hins]
    unfold opNegate
    rw [x1, x2]
    simp only
    rw [if_pos he]

theorem arithSpec_cons (minus : Bool) (a b : Int) (r : List Int) :
    arithSpec minus (a :: b :: r) =
      foldFix (if minus then (fun p x => p - x) else (fun p x => p + x)) a (b :: r) := rfl

theorem arithSteps_cons (minus : Bool) (n : Nat) :
    arithSteps minus (n + 2) = 1 + 3 * (n + 1) := by
  unfold arithSteps
  rw [if_neg (by omega)]
  rfl

theorem vmRun_one (fuel : Nat) (M M1 : Machine) (h : vmStep fuel M = Outcome.ok M1) (n : Nat) :
    vmRun fuel (1 + n) M = vmRun fuel n M1 := by
  rw [vmRun_add]
  simp only [vmRun, h, Outcome.bind]

/-- A sum or difference of two or more fixnum literals. -/
theorem arith_many {f : Nat → Machine → Int → Int → Outcome (Machine × Int)}
    {g : Int → Int → Int} {msg : String} (hop : ArithOp f g msg) {opc : Nat} (hopc : opc < 256)
    (hdisp : ∀ (fuel : Nat) (M : Machine), M.ins = some opc → vmStep fuel M = opArith f fuel M)
    (env : CEnv) (fc fuel k : Nat) (s0 s2 s1 : Emit) (c a : Int) (r : List (Int × Int))
    (M : Machine) (fl : List Nat) (ob rb : Int)
    (he : emitq env s0 = some s2)
    (hpl : pushOpLoop (compexpr env (fc + 1)) (opc : Nat) (Sx.ofAtoms (r.map Prod.fst)) s2 = some s1)
    (hcode : CodeAt M fl (stackSlot rb M.Sp) s1.buf s0.Here s1.Here)
    (hip : M.Ip = (s0.Here : Int))
    (hob : Live M.heap fl M.Obarray) (hobc : M.heap.cdr M.Obarray = some ob)
    (hlits : LitsAt env M fl (stackSlot rb M.Sp) ob s0.nq ((c, a) :: r))
    (hrts : Live M.heap fl M.Rts) (hrc : M.heap.cdr M.Rts = some rb)
    (hsz : M.Sp + 1 < M.Sz) (hin : M.heap.inVec (rb + (M.Sp + 1)) = true)
    (hfree : freeChain M.heap k M.Freelist = some fl) (hnd : fl.Nodup)
    (hlen : 3 * r.length ≤ fl.length) :
    (∀ v, foldFix g a (r.map Prod.snd) = some v →
      ∃ M1, vmRun fuel (1 + 3 * r.length) M = Outcome.ok M1 ∧
        M1.Ip = (s1.Here : Int) ∧ M1.Sp = M.Sp ∧
        M1.heap.fixp M1.Acc = some true ∧ M1.heap.fixval M1.Acc = some v) ∧
    (foldFix g a (r.map Prod.snd) = none →
      ∃ Me, vmRun fuel (1 + 3 * r.length) M = Outcome.error msg Me) := by
  have hfr := pushOpLoop_frame env fc _ _ _ s1 hpl
  obtain ⟨e1, inv1, hfc, ha, hl', hh⟩ := first_quote env fuel s0 s2 s1 he hfr hcode hip hob hobc
    hfree hnd c a r hlits
  have hip1 : ({ M with Acc := c, Ip := M.Ip + ISIZE1 } : Machine).Ip = (s2.Here : Int) := by
    show M.Ip + ISIZE1 = _
    rw [hip, hh]
    simp [ISIZE1]
  obtain ⟨g1, g2⟩ := fold_run hop hopc hdisp env fc fuel s1 hcode hob hobc hrts hrc hsz hin rfl
    r s2 { M with Acc := c, Ip := M.Ip + ISIZE1 } fl a hpl (by omega) inv1 rfl hip1 hfc ha hl' hlen
  constructor
  · intro v hv
    obtain ⟨M1, fl1, x1, _, x3, x4, x5, _⟩ := g1 v hv
    obtain ⟨y1, y2, _⟩ := fixCell_read x5
    exact ⟨M1, by rw [vmRun_one fuel M _ e1]; exact x1, x4, x3, y1, y2⟩
  · intro hv
    obtain ⟨Me, x1⟩ := g2 hv
    exact ⟨Me, by rw [vmRun_one fuel M _ e1]; exact x1⟩


/-! ## C13: sums and differences of fixnum literals -/

theorem arithSpec_plus (a : Int) (r : List Int) :
    arithSpec false (a :: r) = foldFix (fun p x => p + x) a r := by
  cases r <;> rfl

theorem arithSteps_plus (n : Nat) : arithSteps false (n + 1) = 1 + 3 * n := by
  unfold arithSteps
  by_cases h : n = 0
  · subst h; rfl
  · rw [if_neg (by omega)]; rfl

theorem compexpr_plus (env : CEnv) (henv : env.sy = sampleSyms) (fc : Nat) (cs : List Int)
    (t : Bool) (s : Emit) :
    compexpr env (fc + 2) (arithForm false cs) t s =
      complsubr0 env (compexpr env (fc + 1))
        (Sx.cons (Sx.atom sampleSyms.P_plus) (Sx.ofAtoms cs)) (OP_PLUS : Nat) s := by
  show compform env (compexpr env (fc + 1)) (Sx.atom sampleSyms.P_plus) _ t s = _
  exact compform_plus env henv _ _ t s

theorem compexpr_minus (env : CEnv) (henv : env.sy = sampleSyms) (fc : Nat) (cs : List Int)
    (t : Bool) (s : Emit) :
    compexpr env (fc + 2) (arithForm true cs) t s =
      complsubr1 env (compexpr env (fc + 1))
        (Sx.cons (Sx.atom sampleSyms.P_minus) (Sx.ofAtoms cs)) (OP_MINUS : Nat) s := by
  show compform env (compexpr env (fc + 1)) (Sx.atom sampleSyms.P_minus) _ t s = _
  exact compform_minus env henv _ _ t s

/-- Claim C13: the code that the compiler emits for `(+ a1 ... an)` and for
`(- a1 ... an)` with fixnum literals, run by the virtual machine with enough
free cells and room for one stack entry, leaves in `Acc` a fixnum with the
value that the specification gives (0 for `(+)`, `-a` for `(- a)`, the fold
from the left otherwise) with `Sp` unchanged and `Ip` behind the code, when
every partial result lies between `INT_MIN` and `INT_MAX`, and raises a
fixnum-overflow error otherwise. -/
theorem fixnum_sum_exact (minus : Bool) (env : CEnv) (henv : env.sy = sampleSyms)
    (fc fuel k : Nat) (t : Bool) (s0 s1 : Emit) (lits : List (Int × Int))
    (M : Machine) (fl : List Nat) (ob rb : Int)
    (hcomp : compexpr env (fc + 2) (arithForm minus (lits.map Prod.fst)) t s0 = some s1)
    (hcode : CodeAt M fl (stackSlot rb M.Sp) s1.buf s0.Here s1.Here)
    (hip : M.Ip = (s0.Here : Int))
    (hob : Live M.heap fl M.Obarray) (hobc : M.heap.cdr M.Obarray = some ob)
    (hlits : LitsAt env M fl (stackSlot rb M.Sp) ob s0.nq
      (if lits = [] then [(M.Zero, 0)] else lits))
    (hrts : Live M.heap fl M.Rts) (hrc : M.heap.cdr M.Rts = some rb)
    (hsz : M.Sp + 1 < M.Sz) (hin : M.heap.inVec (rb + (M.Sp + 1)) = true)
    (hfree : freeChain M.heap k M.Freelist = some fl) (hnd : fl.Nodup)
    (hlen : 3 * lits.length ≤ fl.length) :
    (∀ v, arithSpec minus (lits.map Prod.snd) = some v →
      ∃ M1, vmRun fuel (arithSteps minus lits.length) M = Outcome.ok M1 ∧
        M1.Ip = (s1.Here : Int) ∧ M1.Sp = M.Sp ∧
        M1.heap.fixp M1.Acc = some true ∧ M1.heap.fixval M1.Acc = some v) ∧
    (arithSpec minus (lits.map Prod.snd) = none →
      ∃ Me, vmRun fuel (arithSteps minus lits.length) M =
        Outcome.error (arithMsg minus lits.length) Me) := by
  cases minus with
  | false =>
    rw [compexpr_plus env henv] at hcomp
    obtain ⟨h0, h1⟩ := complsubr0_atoms env fc _ _ s0 s1 hcomp
    cases lits with
    | nil =>
      have he := h0 rfl
      simp only [if_true] at hlits
      obtain ⟨e1, _, hfc, _, _, hh⟩ := first_quote env fuel s0 s1 s1 he
        ⟨le_refl _, fun _ _ => rfl⟩ hcode hip hob hobc hfree hnd M.Zero 0 [] hlits
      obtain ⟨y1, y2, _⟩ := fixCell_read hfc
      constructor
      · intro v hv
        simp only [List.map_nil, arithSpec, Bool.false_eq_true, if_false,
          Option.some.injEq] at hv
        subst hv
        refine ⟨{ M with Acc := M.Zero, Ip := M.Ip + ISIZE1 }, ?_, ?_, rfl, y1, y2⟩
        · show vmRun fuel 1 M = _
          simp only [vmRun, e1, Outcome.bind]
        · show M.Ip + ISIZE1 = _
          rw [hip, hh]
          simp [ISIZE1]
      · intro hv
        simp [arithSpec] at hv
    | cons ca r =>
      obtain ⟨c, a⟩ := ca
      obtain ⟨s2, he, hpl⟩ := h1 c (r.map Prod.fst) rfl
      rw [if_neg (by simp)] at hlits
      simp only [List.map_cons, arithSpec_plus, List.length_cons, arithSteps_plus]
      have hm : arithMsg false (r.length + 1) = "+: fixnum overflow" := by
        simp [arithMsg]
      rw [hm]
      exact arith_many add_arith (by decide) (fun fuel M h => vmStep_plus h) env fc fuel k
        s0 s2 s1 c a r M fl ob rb he hpl hcode hip hob hobc hlits hrts hrc hsz hin hfree hnd
        (by simp only [List.length_cons] at hlen; omega)
  | true =>
    rw [compexpr_minus env henv] at hcomp
    obtain ⟨h0, h1, h2⟩ := complsubr1_atoms env fc _ _ s0 s1 hcomp
    cases lits with
    | nil => exact absurd rfl h0
    | cons ca r =>
      obtain ⟨c, a⟩ := ca
      rw [if_neg (by simp)] at hlits
      cases r with
      | nil =>
        obtain ⟨s2, he, rfl⟩ := h1 c rfl
        obtain ⟨o1, _, o3, o4⟩ := emitop_spec (OP_NEGATE : Nat) s2
        obtain ⟨e1, inv1, hfc, _, _, hh⟩ := first_quote env fuel s0 s2 _ he
          ⟨by omega, fun i hi => o4 i (by omega)⟩ hcode hip hob hobc hfree hnd c a [] hlits
        have hlen3 : 2 ≤ fl.length := by
          simp only [List.length_cons, List.length_nil] at hlen
          omega
        obtain ⟨c1, c2, fl', rfl⟩ : ∃ c1 c2 fl', fl = c1 :: c2 :: fl' := by
          rcases fl with _ | ⟨c1, _ | ⟨c2, fl'⟩⟩
          · simp at hlen3
          · simp at hlen3
          · exact ⟨c1, c2, fl', rfl⟩
        have hip1 : ({ M with Acc := c, Ip := M.Ip + ISIZE1 } : Machine).Ip = (s2.Here : Int) := by
          show M.Ip + ISIZE1 = _
          rw [hip, hh]
          simp [ISIZE1]
        obtain ⟨n1, n2⟩ := negate_step fuel inv1 hcode s2.Here hip1 (by omega) (by omega)
          (by rw [o3]; simp [OP_NEGATE]) hfc
        simp only [List.map_cons, List.map_nil, arithSpec, if_true, List.length_cons,
          List.length_nil]
        have hst : arithSteps true (0 + 1) = 2 := by decide
        have hm : arithMsg true (0 + 1) = "-: fixnum overflow" := by decide
        rw [hst, hm]
        constructor
        · intro v hv
          by_cases ham : a = INT_MIN
          · simp [ham] at hv
          · rw [if_neg ham] at hv
            simp only [Option.some.injEq] at hv
            subst hv
            obtain ⟨M3, e3, s3, i3, f3⟩ := n1 ham
            obtain ⟨y1, y2, _⟩ := fixCell_read f3
            refine ⟨M3, ?_, ?_, s3, y1, y2⟩
            · simp only [vmRun, e1, Outcome.bind, e3]
            · rw [i3, hip1, o1]
              simp [ISIZE0]
        · intro hv
          by_cases ham : a = INT_MIN
          · refine ⟨{ M with Acc := c, Ip := M.Ip + ISIZE1 }, ?_⟩
            simp only [vmRun, e1, Outcome.bind, n2 ham]
          · simp [ham] at hv
      | cons ca2 r =>
        obtain ⟨c2, a2⟩ := ca2
        obtain ⟨s2, he, hpl⟩ := h2 c c2 (r.map Prod.fst) rfl
        simp only [List.map_cons, arithSpec_cons, List.length_cons, arithSteps_cons]
        have hm : arithMsg true (r.length + 1 + 1) = "+: fixnum overflow" := by
          simp [arithMsg]
        rw [hm]
        exact arith_many xsub_arith (by decide) (fun fuel M h => vmStep_minus h) env fc fuel k
          s0 s2 s1 c a ((c2, a2) :: r) M fl ob rb he hpl hcode hip hob hobc hlits hrts hrc hsz
          hin hfree hnd (by simp only [List.length_cons] at hlen ⊢; omega)

theorem some_getD_of_isSome {α : Type} (x : Option α) (d : α) (h : x.isSome = true) :
    x = some (x.getD d) := by
  cases x with
  | none => simp at h
  | some a => rfl

theorem fixnum_sum_exact_witness :
    compexpr plusEnv 2 (arithForm false (plusLits.map Prod.fst)) false emptyEmit = some plusEmit ∧
    arithSpec false (plusLits.map Prod.snd) = some 6 ∧
    ∃ M1, vmRun 0 (arithSteps false plusLits.length) plusMachine = Outcome.ok M1 ∧
      M1.Ip = (plusEmit.Here : Int) ∧ M1.Sp = plusMachine.Sp ∧
      M1.heap.fixp M1.Acc = some true ∧ M1.heap.fixval M1.Acc = some 6 :=
  have hc : compexpr plusEnv 2 (arithForm false (plusLits.map Prod.fst)) false emptyEmit
      = some plusEmit := some_getD_of_isSome _ _ (by decide)
  ⟨hc, by decide,
    (fixnum_sum_exact false plusEnv rfl 0 0 19 false emptyEmit plusEmit plusLits plusMachine
      [10, 11, 12, 13, 14, 15, 16, 17, 18] 8 13 hc
      ⟨1, 2, by decide, by decide, by decide, by decide, by decide⟩
      rfl (by decide) (by decide)
      ⟨by decide, by decide, ⟨4, 5, by decide, by decide, by decide, by decide, by decide,
          by decide, by decide, by decide, by decide⟩, by decide,
        by decide, by decide, ⟨6, 7, by decide, by decide, by decide, by decide, by decide,
          by decide, by decide, by decide, by decide⟩, by decide,
        by decide, by decide, ⟨8, 9, by decide, by decide, by decide, by decide, by decide,
          by decide, by decide, by decide, by decide⟩, by decide, trivial⟩
      (by decide) (by decide) (by decide) (by decide) (by decide) (by decide) (by decide)).1 6
      (by decide)⟩



/-! ## C21 and C30: what the syntax checker and the reader let pass -/

/-- Claim C21, evaluated: the form `(apply f (quote a . b))`, whose last
operand is the dotted list `(quote a . b)` in program position, passes
`expand` unchanged (a form with the head `quote` is returned as it is) and
is accepted by `syncheck`, at top level and below, because `ckapply` checks
only the number of the operands; the same dotted list as an operand of `if`
also passes `expand` unchanged, and there `syncheck` raises "dotted list in
program". -/
theorem syncheck_accepts_dotted_in_apply (n : Nat) (top r : Bool) (ev : Sx → Conv) :
    expand sampleSyms sampleExp sampleName symCell [] ev (n + 2) 0 dotQuoteInApply r =
      some (Conv.val dotQuoteInApply) ∧
    syncheck sampleSyms symCell (n + 1) dotQuoteInApply top = Chk.ok ∧
    expand sampleSyms sampleExp sampleName symCell [] ev (n + 2) 0 dotQuoteInIf r =
      some (Conv.val dotQuoteInIf) ∧
    syncheck sampleSyms symCell (n + 2) dotQuoteInIf top =
      Chk.error "dotted list in program" := by
  cases top <;> cases r <;> exact ⟨rfl, rfl, rfl, rfl⟩

/-- Claim C30, evaluated: `b_read` on the string `#(1 . 2)` ends in a call
of `error`, raised by `listvec` with "vector literal contains a dot", and
sets no `Readerr`; for the malformed pair `(1 . 2 3)` the reader notes the
error and `b_read` returns the message as a string. -/
theorem b_read_raises_on_dotted_vector :
    b_read 10 (Obj.str dotVecText VECTOR_TAG) (Rd.ofPort []) =
      RdOut.error "vector literal contains a dot" ∧
    (b_read 10 (Obj.str badPairText VECTOR_TAG) (Rd.ofPort [])).value =
      some (mkstr (lit "malformed pair") 14) := by
  decide!


/-! ## C24: the order of the operands in the code of a call -/

theorem bytes_emit (x : Int) (s : Emit) : (emit x s).bytes = s.bytes ++ [(x % 256).toNat] := by
  unfold Emit.bytes emit
  simp only [List.range_succ, List.map_append, List.map_cons, List.map_nil]
  congr 1
  · apply List.map_congr_left
    intro i hi
    have : i ≠ s.Here := by
      have := List.mem_range.mp hi
      omega
    simp [upd, this]
  · simp [upd]

theorem bytes_emitop (x : Int) (s : Emit) :
    (emitop x s).bytes = s.bytes ++ [(x % 256).toNat] := by
  unfold emitop
  rw [bytes_emit]
  rfl

theorem bytes_emitAll : ∀ (bs : List Nat) (s : Emit), (∀ b ∈ bs, b < 256) →
    (emitAll bs s).bytes = s.bytes ++ bs
  | [], s, _ => by simp [emitAll]
  | b :: bs, s, h => by
    have hb : b < 256 := h b (List.mem_cons_self _ _)
    have ih := bytes_emitAll bs (emit (b : Int) s) (fun c hc => h c (List.mem_cons_of_mem _ hc))
    have e : emitAll (b :: bs) s = emitAll bs (emit (b : Int) s) := rfl
    rw [e, ih, bytes_emit]
    have : ((b : Int) % 256).toNat = b := by omega
    rw [this, List.append_assoc]
    rfl

theorem reconc_ofList : ∀ (l : List Sx) (m : Sx),
    reconc (Sx.ofList l) m = some (l.foldl (fun acc a => Sx.cons a acc) m)
  | [], m => by simp [Sx.ofList, reconc]
  | a :: r, m => by
    simp only [Sx.ofList, reconc, List.foldl_cons]
    exact reconc_ofList r (Sx.cons a m)

theorem foldl_cons_ofList : ∀ (l r : List Sx),
    l.foldl (fun acc a => Sx.cons a acc) (Sx.ofList r) = Sx.ofList (l.reverse ++ r)
  | [], r => by simp
  | a :: l, r => by
    simp only [List.foldl_cons, List.reverse_cons, List.append_assoc, List.singleton_append]
    exact foldl_cons_ofList l (a :: r)

theorem reverse_ofList (l : List Sx) : reverse (Sx.ofList l) = some (Sx.ofList l.reverse) := by
  unfold reverse
  rw [reconc_ofList]
  have := foldl_cons_ofList l []
  simp only [Sx.ofList, List.append_nil] at this
  rw [this]

theorem length_ofList : ∀ (l : List Sx), (Sx.ofList l).length = some l.length
  | [] => by simp [Sx.ofList, Sx.length]
  | a :: r => by simp [Sx.ofList, Sx.length, length_ofList r]

theorem pushOpLoop_bytes (code : Sx → List Nat) (hc : ∀ a, ∀ b ∈ code a, b < 256) (op : Nat)
    (hop : op < 256) : ∀ (l : List Sx) (s : Emit),
    ∃ s1, pushOpLoop (ceOf code) (op : Nat) (Sx.ofList l) s = some s1 ∧
      s1.bytes = s.bytes ++ (l.map (fun a => [OP_PUSH] ++ code a ++ [op])).flatten
  | [], s => ⟨s, by simp [Sx.ofList, pushOpLoop], by simp⟩
  | a :: r, s => by
    obtain ⟨s1, h1, h2⟩ := pushOpLoop_bytes code hc op hop r
      (emitop (op : Nat) (emitAll (code a) (emitop (OP_PUSH : Nat) s)))
    refine ⟨s1, ?_, ?_⟩
    · simp only [Sx.ofList, pushOpLoop, ceOf]
      exact h1
    · rw [h2, bytes_emitop, bytes_emitAll _ _ (hc a), bytes_emitop]
      have e1 : (((op : Nat) : Int) % 256).toNat = op := by omega
      have e2 : (((OP_PUSH : Nat) : Int) % 256).toNat = OP_PUSH := by decide
      rw [e1, e2]
      simp

theorem compappLoop_bytes (code : Sx → List Nat) (hc : ∀ a, ∀ b ∈ code a, b < 256) :
    ∀ (l : List Sx) (s : Emit),
    ∃ s1, compappLoop (ceOf code) (Sx.ofList l) s = some s1 ∧
      s1.bytes = s.bytes ++ (l.map (fun a => code a ++ [OP_PUSH])).flatten
  | [], s => ⟨s, by simp [Sx.ofList, compappLoop], by simp⟩
  | a :: r, s => by
    obtain ⟨s1, h1, h2⟩ := compappLoop_bytes code hc r
      (emitop (OP_PUSH : Nat) (emitAll (code a) s))
    refine ⟨s1, ?_, ?_⟩
    · simp only [Sx.ofList, compappLoop, ceOf]
      exact h1
    · rw [h2, bytes_emitop, bytes_emitAll _ _ (hc a)]
      have e2 : (((OP_PUSH : Nat) : Int) % 256).toNat = OP_PUSH := by decide
      rw [e2]
      simp

/-- Claim C24, amended: whatever code the operands compile to, the code of
`(apply f a1 ... ak xs)` holds the code of `xs` first, then the code of
`ak` down to `a1` (each between a `PUSH` and a `CONS`), then the code of
`f`; the code of the direct call `(f a1 ... an)` holds the code of `an` down
to `a1`, each followed by a `PUSH`, then `PUSHVAL n` and the code of `f`.
In both, the operands are evaluated from the last to the first. -/
theorem call_code_order (code : Sx → List Nat) (hc : ∀ a, ∀ b ∈ code a, b < 256)
    (h f xs : Sx) (args : List Sx) (t : Bool) (s : Emit) (hn : args.length ≤ 65535) :
    (compapply (ceOf code) (Sx.cons h (Sx.cons f (Sx.ofList (args ++ [xs])))) t s).map Emit.bytes
      = some (s.bytes ++ applyCode code f args xs t) ∧
    (compapp (ceOf code) (Sx.cons f (Sx.ofList args)) t s).map Emit.bytes
      = some (s.bytes ++ appCode code f args t) := by
  constructor
  · obtain ⟨s2, h1, h2⟩ := pushOpLoop_bytes code hc OP_CONS (by decide) args.reverse
      (emitAll (code xs) s)
    have hrev : reverse (Sx.ofList (args ++ [xs])) = some (Sx.ofList (xs :: args.reverse)) := by
      rw [reverse_ofList]
      simp
    simp only [compapply, Sx.cddr, Sx.cdr, Sx.cadr, Sx.car, Option.bind_eq_bind,
      Option.some_bind, hrev, Sx.ofList, ceOf, h1, Option.map_some', Option.some.injEq]
    rw [bytes_emitop, bytes_emitAll _ _ (hc f), bytes_emitop, h2, bytes_emitAll _ _ (hc xs)]
    have e2 : (((OP_PUSH : Nat) : Int) % 256).toNat = OP_PUSH := by decide
    rw [e2]
    cases t
    · simp [applyCode, OP_APPLIS]
    · simp [applyCode, OP_APPLIST]
  · obtain ⟨s1, h1, h2⟩ := compappLoop_bytes code hc args.reverse s
    have hrev := reverse_ofList args
    have hlen := length_ofList args
    have harg : emitarg (args.length : Int) (emitop (OP_PUSHVAL : Nat) s1) =
        some (emit ((args.length : Int) % 256) (emit ((args.length : Int) / 256)
          (emitop (OP_PUSHVAL : Nat) s1))) := by
      unfold emitarg
      rw [if_neg (by omega)]
    simp only [compapp, Sx.cdr, Sx.car, Option.bind_eq_bind, Option.some_bind, hrev, h1, hlen,
      harg, ceOf, Option.map_some', Option.some.injEq]
    rw [bytes_emitop, bytes_emitAll _ _ (hc f), bytes_emit, bytes_emit, bytes_emitop, h2]
    have e2 : (((OP_PUSHVAL : Nat) : Int) % 256).toNat = OP_PUSHVAL := by decide
    have e3 : (((args.length : Int) / 256) % 256).toNat = args.length / 256 := by omega
    have e4 : (((args.length : Int) % 256) % 256).toNat = args.length % 256 := by omega
    rw [e2, e3, e4]
    cases t
    · simp [appCode, OP_APPLY]
    · simp [appCode, OP_TAILAPP]

theorem markCode_byte (a : Sx) : ∀ b ∈ markCode a, b < 256 := by
  intro b hb
  cases a with
  | atom c =>
    simp only [markCode, List.mem_singleton] at hb
    omega
  | cons _ _ => simp [markCode] at hb

theorem call_code_order_witness :
    (∀ a, ∀ b ∈ markCode a, b < 256) ∧ [Sx.atom 202, Sx.atom 203].length ≤ 65535 ∧
    (compapply (ceOf markCode) applyForm false emptyEmit).map Emit.bytes
      = some (emptyEmit.bytes ++
          applyCode markCode (Sx.atom 201) [Sx.atom 202, Sx.atom 203] (Sx.atom 204) false) ∧
    (compapp (ceOf markCode) (Sx.cons (Sx.atom 201) (Sx.ofList [Sx.atom 202, Sx.atom 203]))
        false emptyEmit).map Emit.bytes
      = some (emptyEmit.bytes ++ appCode markCode (Sx.atom 201) [Sx.atom 202, Sx.atom 203] false) :=
  ⟨markCode_byte, by decide,
    call_code_order markCode markCode_byte
      (Sx.atom sampleSyms.S_apply) (Sx.atom 201) (Sx.atom 204) [Sx.atom 202, Sx.atom 203] false
      emptyEmit (by decide)⟩

/-- Claim C24 as stated fails: in the code of `(apply f a1 a2 xs)` the code
of `xs` (the byte 204) comes first, and the code of `a2` (203) stands before
the code of `a1` (202). -/
theorem apply_code_right_to_left :
    (compapply (ceOf markCode) applyForm false emptyEmit).map Emit.bytes
      = some [204, OP_PUSH, 203, OP_CONS, OP_PUSH, 202, OP_CONS, OP_PUSH, 201, OP_APPLIS] := by
  decide


/-! ## C22: the free variables of a form -/

theorem set_union_eq (a b : List Int) :
    set_union a b = a.filter (fun x => !b.contains x) ++ b := by
  unfold set_union
  rw [List.foldl_reverse]
  induction a with
  | nil => rfl
  | cons x a ih =>
    simp only [List.foldr_cons, List.filter_cons, ih]
    cases h : b.contains x <;> simp

theorem mem_set_union (a b : List Int) (v : Int) : v ∈ set_union a b ↔ v ∈ a ∨ v ∈ b := by
  rw [set_union_eq]
  simp only [List.mem_append, List.mem_filter, Bool.not_eq_true', List.contains_eq_any_beq,
    List.any_eq_false, beq_iff_eq]
  constructor
  · rintro (⟨h, _⟩ | h)
    · exact Or.inl h
    · exact Or.inr h
  · rintro (h | h)
    · by_cases hb : v ∈ b
      · exact Or.inr hb
      · exact Or.inl ⟨h, fun x hx e => hb (e ▸ hx)⟩
    · exact Or.inr h

theorem nodup_set_union (a b : List Int) (ha : a.Nodup) (hb : b.Nodup) :
    (set_union a b).Nodup := by
  rw [set_union_eq]
  refine List.Nodup.append (ha.filter _) hb ?_
  intro x hx hxb
  simp only [List.mem_filter, Bool.not_eq_true', List.contains_eq_any_beq, List.any_eq_false,
    beq_iff_eq] at hx
  exact hx.2 x hxb rfl

/-- The size of a form. -/
theorem sx_size_cons (h d : Sx) : sizeOf h < sizeOf (Sx.cons h d) ∧ sizeOf d < sizeOf (Sx.cons h d) := by
  simp only [Sx.cons.sizeOf_spec]
  omega

theorem freeIn_atomTail (sy : Syms) (symp : Int → Bool) (v : Int) (h : Sx) (c : Int)
    (bound : List Int) :
    FreeIn sy symp v (Sx.cons h (Sx.atom c)) bound =
      (if h.is sy.S_quote then False
       else if h.seqHead sy then False
       else if h.is sy.S_def || h.is sy.S_macro then False
       else if h.subrHead sy then False
       else if h.is sy.S_lambda then False
       else FreeIn sy symp v h bound ∨ False) := by
  simp only [FreeIn, FreeInAny]

theorem freeIn_consTail (sy : Syms) (symp : Int → Bool) (v : Int) (h a r : Sx)
    (bound : List Int) :
    FreeIn sy symp v (Sx.cons h (Sx.cons a r)) bound =
      (if h.is sy.S_quote then False
       else if h.seqHead sy then FreeInAny sy symp v (Sx.cons a r) bound
       else if h.is sy.S_def || h.is sy.S_macro then FreeInAny sy symp v r bound
       else if h.subrHead sy then FreeInAny sy symp v (Sx.cons a r) bound
       else if h.is sy.S_lambda then
         FreeInAny sy symp v r (((flatargs a).cells.getD []) ++ bound)
       else FreeIn sy symp v h bound ∨ FreeInAny sy symp v (Sx.cons a r) bound) := by
  simp only [FreeIn, FreeInAny]

theorem freevars_atomTail (sy : Syms) (symp : Int → Bool) (h : Sx) (c : Int) (e : List Int) :
    freevars sy symp (Sx.cons h (Sx.atom c)) e =
      (if h.is sy.S_quote then some []
       else if h.seqHead sy then some []
       else if h.is sy.S_def || h.is sy.S_macro then none
       else if h.subrHead sy then some []
       else if h.is sy.S_lambda then none
       else
         (freevars sy symp h e).bind (fun n => some (set_union [] n))) := by
  simp only [freevars, freevarsLoop]
  cases freevars sy symp h e <;> rfl

theorem freevars_consTail (sy : Syms) (symp : Int → Bool) (h a r : Sx) (e : List Int) :
    freevars sy symp (Sx.cons h (Sx.cons a r)) e =
      (if h.is sy.S_quote then some []
       else if h.seqHead sy then freevarsLoop sy symp (Sx.cons a r) e []
       else if h.is sy.S_def || h.is sy.S_macro then freevarsLoop sy symp r e []
       else if h.subrHead sy then freevarsLoop sy symp (Sx.cons a r) e []
       else if h.is sy.S_lambda then
         (flatargs a).cells.bind (fun l => freevarsLoop sy symp r (set_union l e) [])
       else
         (freevars sy symp h e).bind
           (fun n => freevarsLoop sy symp (Sx.cons a r) e (set_union [] n))) := by
  rw [freevars]
  cases freevars sy symp h e <;> cases (flatargs a).cells <;> rfl

theorem freevarsLoop_cons (sy : Syms) (symp : Int → Bool) (a r : Sx) (e u : List Int) :
    freevarsLoop sy symp (Sx.cons a r) e u =
      (freevars sy symp a e).bind (fun n => freevarsLoop sy symp r e (set_union u n)) := by
  rw [freevarsLoop]
  cases freevars sy symp a e <;> rfl

theorem shaped_atomTail (sy : Syms) (h : Sx) (c : Int) :
    Shaped sy (Sx.cons h (Sx.atom c)) =
      (if h.is sy.S_quote then true
       else if h.seqHead sy then true
       else if h.is sy.S_def || h.is sy.S_macro then false
       else if h.subrHead sy then true
       else if h.is sy.S_lambda then false
       else Shaped sy h && true) := by
  simp only [Shaped, ShapedAll]

theorem shaped_consTail (sy : Syms) (h a r : Sx) :
    Shaped sy (Sx.cons h (Sx.cons a r)) =
      (if h.is sy.S_quote then true
       else if h.seqHead sy then ShapedAll sy (Sx.cons a r)
       else if h.is sy.S_def || h.is sy.S_macro then ShapedAll sy r
       else if h.subrHead sy then ShapedAll sy (Sx.cons a r)
       else if h.is sy.S_lambda then (flatargs a).cells.isSome && ShapedAll sy r
       else Shaped sy h && ShapedAll sy (Sx.cons a r)) := by
  rw [Shaped]

theorem freeInAny_cons (sy : Syms) (symp : Int → Bool) (v : Int) (a r : Sx) (b : List Int) :
    FreeInAny sy symp v (Sx.cons a r) b = (FreeIn sy symp v a b ∨ FreeInAny sy symp v r b) := by
  rw [FreeInAny]

theorem freeIn_congr (sy : Syms) (symp : Int → Bool) (v : Int) :
    ∀ (n : Nat) (x : Sx), sizeOf x < n → ∀ (b1 b2 : List Int), (v ∈ b1 ↔ v ∈ b2) →
      (FreeIn sy symp v x b1 ↔ FreeIn sy symp v x b2) ∧
      (FreeInAny sy symp v x b1 ↔ FreeInAny sy symp v x b2) := by
  intro n
  induction n with
  | zero => intro x hx; omega
  | succ n ih =>
    intro x hx b1 b2 hb
    match x, hx with
    | Sx.atom c, _ =>
      simp only [FreeIn, FreeInAny, hb, and_self]
    | Sx.cons h (Sx.atom c), hx =>
      obtain ⟨s1, s2⟩ := sx_size_cons h (Sx.atom c)
      have ihh := ih h (by omega) b1 b2 hb
      constructor
      · rw [freeIn_atomTail, freeIn_atomTail, ihh.1]
      · rw [freeInAny_cons sy symp v h, freeInAny_cons sy symp v h, ihh.1]
        simp only [FreeInAny]
    | Sx.cons h (Sx.cons a r), hx =>
      obtain ⟨s1, s2⟩ := sx_size_cons h (Sx.cons a r)
      obtain ⟨t1, t2⟩ := sx_size_cons a r
      have ihh := ih h (by omega) b1 b2 hb
      have ihd := ih (Sx.cons a r) (by omega) b1 b2 hb
      have ihr := ih r (by omega) b1 b2 hb
      have ihl := ih r (by omega) (((flatargs a).cells.getD []) ++ b1)
        (((flatargs a).cells.getD []) ++ b2) (by simp [hb])
      constructor
      · rw [freeIn_consTail, freeIn_consTail, ihh.1, ihd.2, ihr.2, ihl.2]
      · rw [freeInAny_cons sy symp v h, freeInAny_cons sy symp v h, ihh.1, ihd.2]

theorem freevars_atom (sy : Syms) (symp : Int → Bool) (c : Int) (e : List Int) :
    ∃ l, freevars sy symp (Sx.atom c) e = some l ∧ l.Nodup ∧
      ∀ v, v ∈ l ↔ FreeIn sy symp v (Sx.atom c) e := by
  simp only [freevars, FreeIn]
  by_cases h1 : e.contains c = true
  · refine ⟨[], by rw [if_pos h1], List.nodup_nil, ?_⟩
    intro v
    simp only [List.not_mem_nil, false_iff, not_and]
    intro hc _ hv
    subst hc
    exact hv (by simpa using h1)
  · rw [if_neg h1]
    by_cases h2 : symp c = true
    · refine ⟨[c], by rw [if_pos h2], List.nodup_singleton c, ?_⟩
      intro v
      simp only [List.mem_singleton]
      constructor
      · intro hv
        subst hv
        exact ⟨rfl, h2, by simpa using h1⟩
      · intro hv
        exact hv.1.symm
    · refine ⟨[], by rw [if_neg h2], List.nodup_nil, ?_⟩
      intro v
      simp only [List.not_mem_nil, false_iff, not_and]
      intro _ hc
      exact absurd hc h2

theorem freevars_spec (sy : Syms) (symp : Int → Bool) :
    ∀ (n : Nat) (x : Sx), sizeOf x < n →
      (∀ e, Shaped sy x = true → ∃ l, freevars sy symp x e = some l ∧ l.Nodup ∧
        ∀ v, v ∈ l ↔ FreeIn sy symp v x e) ∧
      (∀ e u, ShapedAll sy x = true → u.Nodup → ∃ l, freevarsLoop sy symp x e u = some l ∧
        l.Nodup ∧ ∀ v, v ∈ l ↔ (v ∈ u ∨ FreeInAny sy symp v x e)) := by
  intro n
  induction n with
  | zero => intro x hx; omega
  | succ n ih =>
    intro x hx
    have loopStep : ∀ (a r : Sx), sizeOf a < n → sizeOf r < n → ∀ e u,
        ShapedAll sy (Sx.cons a r) = true → u.Nodup →
        ∃ l, freevarsLoop sy symp (Sx.cons a r) e u = some l ∧
          l.Nodup ∧ ∀ v, v ∈ l ↔ (v ∈ u ∨ FreeInAny sy symp v (Sx.cons a r) e) := by
      intro a r ha hr e u hs hu
      rw [ShapedAll, Bool.and_eq_true] at hs
      obtain ⟨l1, e1, n1, m1⟩ := (ih a ha).1 e hs.1
      obtain ⟨l2, e2, n2, m2⟩ := (ih r hr).2 e (set_union u l1) hs.2
        (nodup_set_union u l1 hu n1)
      refine ⟨l2, ?_, n2, ?_⟩
      · rw [freevarsLoop_cons, e1]
        exact e2
      · intro v
        rw [m2, mem_set_union, m1, freeInAny_cons, or_assoc]
    match x, hx with
    | Sx.atom c, _ =>
      constructor
      · intro e _
        exact freevars_atom sy symp c e
      · intro e u _ hu
        exact ⟨u, by rw [freevarsLoop], hu, fun v => by simp only [FreeInAny, or_false]⟩
    | Sx.cons h (Sx.atom c), hx =>
      obtain ⟨s1, s2⟩ := sx_size_cons h (Sx.atom c)
      constructor
      · intro e hs
        rw [shaped_atomTail] at hs
        rw [freevars_atomTail]
        simp only [freeIn_atomTail]
        by_cases hq : h.is sy.S_quote = true
        · simp only [if_pos hq]
          exact ⟨[], rfl, List.nodup_nil, fun v => by simp⟩
        · rw [if_neg hq] at hs
          simp only [if_neg hq]
          by_cases h2 : h.seqHead sy = true
          · simp only [if_pos h2]
            exact ⟨[], rfl, List.nodup_nil, fun v => by simp⟩
          · rw [if_neg h2] at hs
            simp only [if_neg h2]
            by_cases h3 : (h.is sy.S_def || h.is sy.S_macro) = true
            · rw [if_pos h3] at hs
              exact absurd hs (by simp)
            · rw [if_neg h3] at hs
              simp only [if_neg h3]
              by_cases h4 : h.subrHead sy = true
              · simp only [if_pos h4]
                exact ⟨[], rfl, List.nodup_nil, fun v => by simp⟩
              · rw [if_neg h4] at hs
                simp only [if_neg h4]
                by_cases h5 : h.is sy.S_lambda = true
                · rw [if_pos h5] at hs
                  exact absurd hs (by simp)
                · rw [if_neg h5] at hs
                  simp only [if_neg h5]
                  rw [Bool.and_true] at hs
                  obtain ⟨l1, e1, n1, m1⟩ := (ih h (by omega)).1 e hs
                  refine ⟨set_union [] l1, by rw [e1]; rfl,
                    nodup_set_union [] l1 List.nodup_nil n1, ?_⟩
                  intro v
                  rw [mem_set_union, m1]
                  simp
      · intro e u hs hu
        exact loopStep h (Sx.atom c) (by omega) (by omega) e u hs hu
    | Sx.cons h (Sx.cons a r), hx =>
      obtain ⟨s1, s2⟩ := sx_size_cons h (Sx.cons a r)
      obtain ⟨t1, t2⟩ := sx_size_cons a r
      constructor
      · intro e hs
        rw [shaped_consTail] at hs
        rw [freevars_consTail]
        simp only [freeIn_consTail]
        by_cases hq : h.is sy.S_quote = true
        · simp only [if_pos hq]
          exact ⟨[], rfl, List.nodup_nil, fun v => by simp⟩
        · rw [if_neg hq] at hs
          simp only [if_neg hq]
          by_cases h2 : h.seqHead sy = true
          · rw [if_pos h2] at hs
            simp only [if_pos h2]
            obtain ⟨l, e1, n1, m1⟩ := (ih (Sx.cons a r) (by omega)).2 e [] hs List.nodup_nil
            exact ⟨l, e1, n1, fun v => by rw [m1]; simp⟩
          · rw [if_neg h2] at hs
            simp only [if_neg h2]
            by_cases h3 : (h.is sy.S_def || h.is sy.S_macro) = true
            · rw [if_pos h3] at hs
              simp only [if_pos h3]
              obtain ⟨l, e1, n1, m1⟩ := (ih r (by omega)).2 e [] hs List.nodup_nil
              exact ⟨l, e1, n1, fun v => by rw [m1]; simp⟩
            · rw [if_neg h3] at hs
              simp only [if_neg h3]
              by_cases h4 : h.subrHead sy = true
              · rw [if_pos h4] at hs
                simp only [if_pos h4]
                obtain ⟨l, e1, n1, m1⟩ := (ih (Sx.cons a r) (by omega)).2 e [] hs List.nodup_nil
                exact ⟨l, e1, n1, fun v => by rw [m1]; simp⟩
              · rw [if_neg h4] at hs
                simp only [if_neg h4]
                by_cases h5 : h.is sy.S_lambda = true
                · rw [if_pos h5] at hs
                  simp only [if_pos h5]
                  rw [Bool.and_eq_true] at hs
                  obtain ⟨fl, hfl⟩ := Option.isSome_iff_exists.mp hs.1
                  rw [hfl]
                  obtain ⟨l, e1, n1, m1⟩ :=
                    (ih r (by omega)).2 (set_union fl e) [] hs.2 List.nodup_nil
                  refine ⟨l, e1, n1, fun v => ?_⟩
                  rw [m1]
                  simp only [List.not_mem_nil, false_or, Option.getD_some]
                  exact (freeIn_congr sy symp v _ r (Nat.lt_succ_self _) _ _
                    (by rw [mem_set_union, List.mem_append])).2
                · rw [if_neg h5] at hs
                  simp only [if_neg h5]
                  rw [Bool.and_eq_true] at hs
                  obtain ⟨l1, e1, n1, m1⟩ := (ih h (by omega)).1 e hs.1
                  obtain ⟨l2, e2, n2, m2⟩ := (ih (Sx.cons a r) (by omega)).2 e (set_union [] l1)
                    hs.2 (nodup_set_union [] l1 List.nodup_nil n1)
                  refine ⟨l2, by rw [e1]; exact e2, n2, fun v => ?_⟩
                  rw [m2, mem_set_union, m1]
                  simp
      · intro e u hs hu
        exact loopStep h (Sx.cons a r) (by omega) (by omega) e u hs hu


/-- C22 (amended): for every form in which `def` and `macro` have a name and
`lambda` has formals that are a list of atoms, `freevars(x, NIL)` returns a
duplicate-free list that holds exactly the symbols referenced in `x` outside
every quote and outside the scope of a formal of the same name; the head of
a call of a primitive is no reference, a primitive's name in any other
position is one. -/
theorem freevars_free_symbols (sy : Syms) (symp : Int → Bool) (x : Sx)
    (hs : Shaped sy x = true) :
    ∃ l, freevars sy symp x [] = some l ∧ l.Nodup ∧
      ∀ v, v ∈ l ↔ FreeIn sy symp v x [] :=
  (freevars_spec sy symp (sizeOf x + 1) x (Nat.lt_succ_self _)).1 [] hs

/-- C22, witness: the form `(lambda (x) (f x (quote y) (car z)))`. -/
theorem freevars_free_symbols_witness :
    Shaped sampleSyms lamForm = true ∧
    ∃ l, freevars sampleSyms symCell lamForm [] = some l ∧ l.Nodup ∧
      ∀ v, v ∈ l ↔ FreeIn sampleSyms symCell v lamForm [] :=
  ⟨by decide, freevars_free_symbols sampleSyms symCell lamForm (by decide)⟩

/-- C22, counterexample: `car` is a primitive and `freevars` returns it for
the call `(f car)`, where it stands in argument position. -/
theorem freevars_returns_primitive_argument :
    subrp sampleSyms sampleSyms.P_car = true ∧
    freevars sampleSyms symCell carAsArg [] = some [5002, sampleSyms.P_car] ∧
    freevars sampleSyms symCell lamForm [] = some [5002, 5005] := by
  decide

/-! ## C23: the classification of variables -/

theorem posqLoop_spec (x : Int) : ∀ (a : List Int) (n : Int),
    posqLoop x a n = if x ∈ a then n + (a.indexOf x : Nat) else NIL := by
  intro a
  induction a with
  | nil => intro n; simp [posqLoop]
  | cons c a ih =>
    intro n
    rw [posqLoop]
    by_cases hc : c = x
    · subst hc
      simp
    · have hc2 : ¬ x = c := fun h => hc h.symm
      rw [if_neg hc, ih, List.indexOf_cons_ne _ hc]
      simp only [List.mem_cons, hc2, false_or, Nat.succ_eq_add_one, Nat.cast_add, Nat.cast_one]
      split
      · ring
      · rfl

theorem posq_spec (x : Int) (a : List Int) :
    posq x a = if x ∈ a then ((a.indexOf x : Nat) : Int) else NIL := by
  rw [posq, posqLoop_spec, Int.zero_add]

theorem posq_mem (x : Int) (a : List Int) (h : x ∈ a) :
    posq x a ≠ NIL ∧ posq x a = ((a.indexOf x : Nat) : Int) := by
  rw [posq_spec, if_pos h]
  refine ⟨?_, rfl⟩
  simp only [NIL]
  omega

theorem posq_not_mem (x : Int) (a : List Int) (h : x ∉ a) : posq x a = NIL := by
  rw [posq_spec, if_neg h]

/-- C23: `cconv(v, e, a)` for a symbol `v` is `(%arg i)` with `i` the position
of the first occurrence of `v` in the formals `a` when `v` is in `a`,
otherwise `(%ref i v)` with `i` the position of `v` in the environment `e`
when `v` is in `e`, and otherwise raises "undefined symbol". -/
theorem cconv_classifies_symbol (sy : Syms) (symp : Int → Bool) (mkfix : Int → Int)
    (cc appconv lamconv defconv : Sx → List Int → List Int → Conv)
    (v : Int) (e a : List Int) (hv : symp v = true) :
    cconv sy symp mkfix cc appconv lamconv defconv (Sx.atom v) e a =
      classify sy mkfix v e a := by
  unfold cconv classify
  simp only [Sx.posq]
  by_cases ha : v ∈ a
  · obtain ⟨h1, h2⟩ := posq_mem v a ha
    rw [if_pos h1, if_pos ha, h2]
    rfl
  · rw [if_neg (by rw [posq_not_mem v a ha]; exact fun h => h rfl), if_neg ha]
    by_cases he : v ∈ e
    · obtain ⟨h1, h2⟩ := posq_mem v e he
      rw [if_pos h1, if_pos he, h2]
      rfl
    · rw [if_neg (by rw [posq_not_mem v e he]; exact fun h => h rfl), if_neg he, if_pos hv]

/-- C23, witness: the symbol 5003 is the second formal and the first
variable of the environment; 5004 is in the environment only, 5005 in
neither list. -/
theorem cconv_classifies_symbol_witness :
    symCell 5003 = true ∧
    cconv sampleSyms symCell sampleFix noConv noConv noConv noConv (Sx.atom 5003)
        [5003, 5004] [5002, 5003, 5003] =
      classify sampleSyms sampleFix 5003 [5003, 5004] [5002, 5003, 5003] :=
  ⟨by decide, cconv_classifies_symbol sampleSyms symCell sampleFix noConv noConv noConv noConv
    5003 [5003, 5004] [5002, 5003, 5003] (by decide)⟩

/-! ## C29: errors and their handler -/

theorem assqVal_bindset (v a : Int) : ∀ (g : List (Int × Int)) (w : Int),
    assqVal v g = some w → assqVal v (bindset v a g) = some a := by
  intro g
  induction g with
  | nil => intro w h; simp [assqVal] at h
  | cons b g ih =>
    intro w h
    obtain ⟨n, u⟩ := b
    by_cases hn : n = v
    · simp [bindset, assqVal, hn]
    · simp only [assqVal, if_neg hn] at h
      simp only [bindset, if_neg hn, assqVal]
      exact ih w h

theorem assqVal_bindset_nil (v : Int) : ∀ (g : List (Int × Int)),
    (assqVal v (bindset v NIL g)).getD NIL = NIL := by
  intro g
  induction g with
  | nil => rfl
  | cons b g ih =>
    obtain ⟨n, u⟩ := b
    by_cases hn : n = v
    · simp [bindset, assqVal, hn]
    · simp only [bindset, if_neg hn, assqVal]
      exact ih

/-- C29 (amended): when `*errtag*` is bound to a catch tag `h`, `error`
continues at `setjmp(Errtag)` and `run` throws the value of `*errval*` to
`h`; that value is the message when `*errval*` held the tag `h` itself, and
is the old value of `*errval*` (NIL when unbound) otherwise. When `*errtag*`
is unbound or NIL, as after `bindset(S_errtag, NIL)`, `error` reports and
continues at `setjmp(Restart)`. -/
theorem error_throws_errval (es : ErrSyms) (mkstr : String → Int) (tags : Int → Option CTag)
    (s : String) (x : Int) (st : ErrState) (h : Int) (t : CTag)
    (hh : assqVal es.S_errtag st.Glob = some h) (hn : h ≠ NIL) (ht : tags h = some t) :
    landing es tags (error es mkstr s x st) =
      some (t.resume (if assqVal es.S_errval st.Glob = some h then mkstr s
        else (assqVal es.S_errval st.Glob).getD NIL)) ∧
    error es mkstr s x { Glob := bindset es.S_errtag NIL st.Glob, Handler := st.Handler } =
      Jump.Restart s x { Glob := bindset es.S_errtag NIL st.Glob, Handler := NIL } := by
  constructor
  · have hd : (assqVal es.S_errtag st.Glob).getD NIL = h := by rw [hh]; rfl
    unfold error
    simp only [hd]
    rw [if_pos hn]
    cases hv : assqVal es.S_errval st.Glob with
    | none =>
      simp only [landing, throwerr, throw, hv, ht, CTag.resume]
      rw [if_neg (by simp)]
    | some v =>
      simp only
      by_cases hvh : v = h
      · subst hvh
        rw [if_pos rfl]
        simp only [landing, throwerr, throw, ht, CTag.resume, assqVal_bindset _ _ _ _ hv]
        simp
      · rw [if_neg hvh]
        simp only [landing, throwerr, throw, hv, ht, CTag.resume]
        rw [if_neg (by simpa using hvh)]
  · unfold error
    simp only [assqVal_bindset_nil]
    rw [if_neg (by simp)]

/-- C29, witness: `*errtag*` and `*errval*` both hold the catch tag 50. -/
theorem error_throws_errval_witness :
    assqVal sampleErrSyms.S_errtag armedGlob = some 50 ∧ (50 : Int) ≠ NIL ∧
    sampleTags 50 = some { Ip := 12, Sp := 3, Fp := 1, Ep := 60, Prog := 61 } ∧
    landing sampleErrSyms sampleTags
        (error sampleErrSyms sampleStr "boom" UNDEF { Glob := armedGlob, Handler := NIL }) =
      some (CTag.resume { Ip := 12, Sp := 3, Fp := 1, Ep := 60, Prog := 61 }
        (if assqVal sampleErrSyms.S_errval armedGlob = some 50 then sampleStr "boom"
          else (assqVal sampleErrSyms.S_errval armedGlob).getD NIL)) :=
  ⟨by decide, by decide, by decide,
    (error_throws_errval sampleErrSyms sampleStr sampleTags "boom" UNDEF
      { Glob := armedGlob, Handler := NIL } 50 { Ip := 12, Sp := 3, Fp := 1, Ep := 60, Prog := 61 }
      (by decide) (by decide) (by decide)).1⟩

/-- C29, counterexample: `*errtag*` holds the catch tag 50 and `*errval*`
holds 7; `error` leaves `*errval*` as it is and the catch returns 7, not the
message. With the tag in `*errval*` the catch returns the message. -/
theorem error_keeps_other_errval :
    assqVal sampleErrSyms.S_errtag handlerGlob = some 50 ∧
    error sampleErrSyms sampleStr "boom" UNDEF { Glob := handlerGlob, Handler := NIL } =
      Jump.Errtag { Glob := handlerGlob, Handler := 50 } ∧
    landing sampleErrSyms sampleTags
        (error sampleErrSyms sampleStr "boom" UNDEF { Glob := handlerGlob, Handler := NIL }) =
      some { Ip := 12, Sp := 3, Fp := 1, Ep := 60, Prog := 61, Acc := 7 } ∧
    landing sampleErrSyms sampleTags
        (error sampleErrSyms sampleStr "boom" UNDEF { Glob := armedGlob, Handler := NIL }) =
      some { Ip := 12, Sp := 3, Fp := 1, Ep := 60, Prog := 61, Acc := 8000 } := by
  decide

/-! ## C27: `defun` and `defmac` -/

theorem expand_atom (sy : Syms) (xs : ExpSyms) (symname : Int → String) (symp : Int → Bool)
    (macros : List (Int × Int)) (eval : Sx → Conv) (k : Nat) (lev : Int) (c : Int) (r : Bool)
    (h0 : 0 ≤ lev) (h1 : lev ≤ MXMAX) :
    expand sy xs symname symp macros eval (k + 1) lev (Sx.atom c) r =
      some (Conv.val (Sx.atom c)) := by
  rw [expand, if_neg (by omega), if_neg (by omega)]

theorem is_atom (c d : Int) : (Sx.atom c).is d = decide (c = d) := by
  simp only [Sx.is]
  rfl

/-- C27 (amended): the expander rewrites `(defun (name . F) B...)` into
`(def name (lambda F B...))` and `(defmac (name . F) B...)` into `(macro name
(lambda F B...))`, the body being the expansion of `expandbody(B...)`. -/
theorem expand_defun_rewrites (sy : Syms) (xs : ExpSyms) (symname : Int → String)
    (symp : Int → Bool) (macros : List (Int × Int)) (eval : Sx → Conv) (k : Nat) (lev : Int)
    (hc name : Int) (F B B1 : Sx) (r : Bool)
    (hhead : hc = xs.S_defun ∨ hc = xs.S_defmac)
    (hkw : Keywords sy xs macros)
    (hlev : 0 ≤ lev) (hmax : lev + 2 ≤ MXMAX)
    (hb : expandbody sy xs symname B = Conv.val B1) :
    expand sy xs symname symp macros eval (k + 3) lev
        (Sx.cons (Sx.atom hc) (Sx.cons (Sx.cons (Sx.atom name) F) B)) r =
      match mapexp (expand sy xs symname symp macros eval k (lev + 3)) B1 r with
      | some (Conv.val b) =>
        some (Conv.val (Sx.ofList [Sx.atom (defHead sy xs hc), Sx.atom name,
          Sx.cons (Sx.atom sy.S_lambda) (Sx.cons F b)]))
      | o => o := by
  obtain ⟨k1, k2, k3, k4, k5, k6, k7, k8, k9, k10, k11, k12, k13, k14, k15⟩ := hkw
  have hq : (Sx.atom hc).is sy.S_quote = false := by
    rw [is_atom]; rcases hhead with h | h <;> simp [h, k2, k4]
  have hl : (Sx.atom hc).is sy.S_lambda = false := by
    rw [is_atom]; rcases hhead with h | h <;> simp [h, k3, k5]
  have hd : ((Sx.atom hc).is xs.S_defun || (Sx.atom hc).is xs.S_defmac) = true := by
    rw [is_atom, is_atom]; rcases hhead with h | h <;> simp [h]
  have hdq : (Sx.atom (defHead sy xs hc)).is sy.S_quote = false := by
    rw [is_atom]; unfold defHead; split <;> simp [k6, k10]
  have hdl : (Sx.atom (defHead sy xs hc)).is sy.S_lambda = false := by
    rw [is_atom]; unfold defHead; split <;> simp [k7, k11]
  have hdd : ((Sx.atom (defHead sy xs hc)).is xs.S_defun ||
      (Sx.atom (defHead sy xs hc)).is xs.S_defmac) = false := by
    rw [is_atom, is_atom]; unfold defHead; split <;> simp [k8, k9, k12, k13]
  have hdm : assqVal (defHead sy xs hc) macros = none := by
    unfold defHead; split <;> assumption
  have hlq : (Sx.atom sy.S_lambda).is sy.S_quote = false := by
    rw [is_atom]; simp [Ne.symm k1]
  have hll : (Sx.atom sy.S_lambda).is sy.S_lambda = true := by
    rw [is_atom]; simp
  have hdef : expanddef sy xs symname
      (Sx.cons (Sx.atom hc) (Sx.cons (Sx.cons (Sx.atom name) F) B)) =
      Conv.val (Sx.cons (Sx.atom (defHead sy xs hc))
        (Sx.cons (Sx.atom name) (Sx.cons (Sx.cons (Sx.atom sy.S_lambda) (Sx.cons F B1))
          (Sx.atom NIL)))) := by
    rw [expanddef]
    unfold expandbody at hb
    simp only [hb]
    rfl
  rw [expand, if_neg (by omega), if_neg (by omega)]
  simp only [hq, hl, hd, Bool.false_eq_true, if_false, if_true, hdef]
  rw [expand, if_neg (by omega), if_neg (by omega)]
  simp only [hdq, hdl, hdd, Bool.false_eq_true, if_false, hdm]
  have hm : mapexp (expand sy xs symname symp macros eval (k + 1) (lev + 1 + 1))
      (Sx.cons (Sx.atom (defHead sy xs hc))
        (Sx.cons (Sx.atom name) (Sx.cons (Sx.cons (Sx.atom sy.S_lambda) (Sx.cons F B1))
          (Sx.atom NIL)))) r =
      match mapexp (expand sy xs symname symp macros eval k (lev + 3)) B1 r with
      | some (Conv.val b) =>
        some (Conv.val (Sx.ofList [Sx.atom (defHead sy xs hc), Sx.atom name,
          Sx.cons (Sx.atom sy.S_lambda) (Sx.cons F b)]))
      | o => o := by
    have e3 : lev + 1 + 1 + 1 = lev + 3 := by ring
    unfold mapexp
    simp only [mapexpLoop]
    rw [expand_atom _ _ _ _ _ _ _ _ _ _ (by omega) (by omega),
      expand_atom _ _ _ _ _ _ _ _ _ _ (by omega) (by omega)]
    simp only
    rw [expand, if_neg (by omega), if_neg (by omega)]
    simp only [hlq, hll, Bool.false_eq_true, if_false, if_true, e3]
    unfold mapexp
    cases mapexpLoop (expand sy xs symname symp macros eval k (lev + 3)) B1 B1 r with
    | none => rfl
    | some o =>
      cases o <;> simp [Sx.ofList, NIL]
  split <;> exact hm

/-- C27, witness: `(defmac (when c . b) (list (quote if) c (cons (quote
prog) b)))`. -/
theorem expand_defun_rewrites_witness :
    (sampleExp.S_defmac = sampleExp.S_defun ∨ sampleExp.S_defmac = sampleExp.S_defmac) ∧
    Keywords sampleSyms sampleExp [] ∧ (0 : Int) ≤ 0 ∧ (0 : Int) + 2 ≤ MXMAX ∧
    expandbody sampleSyms sampleExp sampleName (Sx.cons whenBody (Sx.atom NIL)) =
      Conv.val (Sx.cons whenBody (Sx.atom NIL)) ∧
    expand sampleSyms sampleExp sampleName symCell [] noEval (7 + 3) 0
        (Sx.cons (Sx.atom sampleExp.S_defmac)
          (Sx.cons (Sx.cons (Sx.atom 5010) whenFormals) (Sx.cons whenBody (Sx.atom NIL)))) true =
      match mapexp (expand sampleSyms sampleExp sampleName symCell [] noEval 7 (0 + 3))
          (Sx.cons whenBody (Sx.atom NIL)) true with
      | some (Conv.val b) =>
        some (Conv.val (Sx.ofList [Sx.atom (defHead sampleSyms sampleExp sampleExp.S_defmac),
          Sx.atom 5010, Sx.cons (Sx.atom sampleSyms.S_lambda) (Sx.cons whenFormals b)]))
      | o => o :=
  ⟨Or.inr rfl, by decide, by decide, by decide, by decide,
    expand_defun_rewrites sampleSyms sampleExp sampleName symCell [] noEval 7 0
      sampleExp.S_defmac 5010 whenFormals (Sx.cons whenBody (Sx.atom NIL))
      (Sx.cons whenBody (Sx.atom NIL)) true (Or.inr rfl) (by decide) (by decide) (by decide)
      (by decide)⟩

/-- C27, counterexample: `(defmac when (c . b) (list (quote if) c (cons
(quote prog) b)))` raises "defmac: expected signature"; with the signature
`(when c . b)` the form expands to `(macro when (lambda (c . b) (list (quote
if) c (cons (quote prog) b))))`. -/
theorem expand_defmac_expects_signature :
    expand sampleSyms sampleExp sampleName symCell [] noEval 10 0 whenNamed true =
      some (Conv.error "defmac: expected signature" (Sx.atom 5010)) ∧
    expand sampleSyms sampleExp sampleName symCell [] noEval 10 0 whenSigned true =
      some (Conv.val whenMacro) := by
  decide

/-! ## Nested evaluation with stages that keep `Protected` -/

theorem protect_ok (fuel k : Nat) (M : Machine) (n : Int) (c : Nat) (fl : List Nat)
    (hf : freeChain M.heap k M.Freelist = some (c :: fl)) (hnd : c ∉ fl) :
    protect fuel M n = Outcome.ok (M.prot c n) ∧
    freeChain (M.prot c n).heap k (M.prot c n).Freelist = some fl := by
  obtain ⟨e1, f1⟩ := cons3_ok fuel k M n M.Protected 0 c fl hf hnd
  constructor
  · unfold protect consM
    rw [e1]
    rfl
  · exact f1

theorem fixed_ok (fuel k : Nat) (M : Machine) (v : Int) (c1 c2 : Nat) (fl : List Nat)
    (hf : freeChain M.heap k M.Freelist = some (c1 :: c2 :: fl))
    (hnd : (c1 :: c2 :: fl).Nodup) :
    mkfix fuel M v = Outcome.ok (M.fixed c1 c2 v, (c2 : Int)) ∧
    freeChain (M.fixed c1 c2 v).heap k (M.fixed c1 c2 v).Freelist = some fl := by
  obtain ⟨M2, e, rfl, f, _, _⟩ := mkfix_ok fuel k M v c1 c2 fl hf hnd (fun _ => False)
  exact ⟨e, f⟩

theorem nodup_tail {c : Nat} {l : List Nat} (h : (c :: l).Nodup) : l.Nodup :=
  (List.nodup_cons.mp h).2

theorem nodup_head {c : Nat} {l : List Nat} (h : (c :: l).Nodup) : c ∉ l :=
  (List.nodup_cons.mp h).1

/-- What `protect` changes. -/
theorem prot_facts (M : Machine) (c : Nat) (n : Int) :
    (M.prot c n).Protected = (c : Int) ∧ (M.prot c n).heap.nnodes = M.heap.nnodes ∧
    (M.prot c n).heap.Car c = n ∧ (M.prot c n).heap.Cdr c = M.Protected ∧
    (∀ d, d ≠ c → (M.prot c n).heap.Car d = M.heap.Car d ∧
      (M.prot c n).heap.Cdr d = M.heap.Cdr d) ∧
    (M.prot c n).Prog = M.Prog ∧ (M.prot c n).Ep = M.Ep ∧ (M.prot c n).Ip = M.Ip ∧
    (M.prot c n).Sp = M.Sp ∧ (M.prot c n).Fp = M.Fp := by
  refine ⟨rfl, rfl, by simp [Machine.prot, Machine.alloc, upd],
    by simp [Machine.prot, Machine.alloc, upd], ?_, rfl, rfl, rfl, rfl, rfl⟩
  intro d hd
  simp [Machine.prot, Machine.alloc, upd, hd]

/-- What `mkfix` changes. -/
theorem fixed_facts (M : Machine) (c1 c2 : Nat) (v : Int) (hne : c1 ≠ c2) :
    (M.fixed c1 c2 v).Protected = M.Protected ∧ (M.fixed c1 c2 v).heap.nnodes = M.heap.nnodes ∧
    (M.fixed c1 c2 v).heap.Car c1 = v ∧ (M.fixed c1 c2 v).heap.Cdr c2 = (c1 : Int) ∧
    (∀ d, d ≠ c1 → d ≠ c2 → (M.fixed c1 c2 v).heap.Car d = M.heap.Car d ∧
      (M.fixed c1 c2 v).heap.Cdr d = M.heap.Cdr d) ∧
    (M.fixed c1 c2 v).Prog = M.Prog ∧ (M.fixed c1 c2 v).Ep = M.Ep ∧
    (M.fixed c1 c2 v).Ip = M.Ip ∧ (M.fixed c1 c2 v).Sp = M.Sp ∧ (M.fixed c1 c2 v).Fp = M.Fp := by
  refine ⟨rfl, rfl, by simp [Machine.fixed, Machine.alloc, upd, hne],
    by simp [Machine.fixed, Machine.alloc, upd], ?_, rfl, rfl, rfl, rfl, rfl⟩
  intro d h1 h2
  simp [Machine.fixed, Machine.alloc, upd, h1, h2]


theorem protect_step (fuel k : Nat) (M : Machine) (n : Int) (c : Nat) (fl : List Nat)
    (hf : freeChain M.heap k M.Freelist = some (c :: fl)) (hnd : c ∉ fl) :
    ∃ M1, protect fuel M n = Outcome.ok M1 ∧ freeChain M1.heap k M1.Freelist = some fl ∧
      c < M.heap.nnodes ∧ M1.Protected = (c : Int) ∧ M1.heap.nnodes = M.heap.nnodes ∧
      M1.heap.Car c = n ∧ M1.heap.Cdr c = M.Protected ∧
      (∀ d, d ≠ c → M1.heap.Car d = M.heap.Car d) ∧
      (∀ d, d ≠ c → M1.heap.Cdr d = M.heap.Cdr d) ∧
      (M1.Prog = M.Prog ∧ M1.Ep = M.Ep ∧ M1.Ip = M.Ip ∧ M1.Sp = M.Sp ∧ M1.Fp = M.Fp) := by
  obtain ⟨e, f⟩ := protect_ok fuel k M n c fl hf hnd
  obtain ⟨_, hlt, _⟩ := freeChain_cons hf
  obtain ⟨a1, a2, a3, a4, a5, a6⟩ := prot_facts M c n
  exact ⟨_, e, f, hlt, a1, a2, a3, a4, fun d hd => (a5 d hd).1, fun d hd => (a5 d hd).2, a6⟩

theorem mkfix_step (fuel k : Nat) (M : Machine) (v : Int) (c1 c2 : Nat) (fl : List Nat)
    (hf : freeChain M.heap k M.Freelist = some (c1 :: c2 :: fl))
    (hnd : (c1 :: c2 :: fl).Nodup) :
    ∃ M1, mkfix fuel M v = Outcome.ok (M1, (c2 : Int)) ∧
      freeChain M1.heap k M1.Freelist = some fl ∧
      c1 < M.heap.nnodes ∧ c2 < M.heap.nnodes ∧
      M1.Protected = M.Protected ∧ M1.heap.nnodes = M.heap.nnodes ∧
      M1.heap.Car c1 = v ∧ M1.heap.Cdr c2 = (c1 : Int) ∧
      (∀ d, d ≠ c1 → d ≠ c2 → M1.heap.Car d = M.heap.Car d) ∧
      (∀ d, d ≠ c1 → d ≠ c2 → M1.heap.Cdr d = M.heap.Cdr d) ∧
      (M1.Prog = M.Prog ∧ M1.Ep = M.Ep ∧ M1.Ip = M.Ip ∧ M1.Sp = M.Sp ∧ M1.Fp = M.Fp) := by
  obtain ⟨e, f⟩ := fixed_ok fuel k M v c1 c2 fl hf hnd
  obtain ⟨_, hlt1, f1⟩ := freeChain_cons hf
  have hne : c1 ≠ c2 := fun h => nodup_head hnd (by simp [h])
  have hlt2 : c2 < M.heap.nnodes := by
    obtain ⟨e1, g1⟩ := cons3_ok fuel k M v NIL ATOM_TAG c1 (c2 :: fl) hf (nodup_head hnd)
    obtain ⟨_, h2, _⟩ := freeChain_cons g1
    exact h2
  obtain ⟨a1, a2, a3, a4, a5, a6⟩ := fixed_facts M c1 c2 v hne
  exact ⟨_, e, f, hlt1, hlt2, a1, a2, a3, a4, fun d h1 h2 => (a5 d h1 h2).1,
    fun d h1 h2 => (a5 d h1 h2).2, a6⟩

/-- The state after `begin_rec()` and `protect(x)`. -/
theorem evalEnter_ok (fuel k : Nat) (M : Machine) (x : Int)
    (c1 c2 c3 c4 c5 c6 c7 c8 c9 c10 c11 c12 : Nat) (fl : List Nat)
    (hf : freeChain M.heap k M.Freelist =
      some (c1 :: c2 :: c3 :: c4 :: c5 :: c6 :: c7 :: c8 :: c9 :: c10 :: c11 :: c12 :: fl))
    (hnd : (c1 :: c2 :: c3 :: c4 :: c5 :: c6 :: c7 :: c8 :: c9 :: c10 :: c11 :: c12 :: fl).Nodup) :
    ∃ M1, evalEnter fuel M x true = Outcome.ok M1 ∧ M1.Protected = (c12 : Int) ∧
      M1.heap.nnodes = M.heap.nnodes ∧
      Saved M1.heap c1 c2 c3 c4 c5 c6 c7 c8 c9 c10 c11 c12 M.Protected M.Prog M.Ep M.Ip M.Sp
        M.Fp := by
  have n1 := hnd
  have n2 := nodup_tail n1
  have n3 := nodup_tail n2
  have n4 := nodup_tail n3
  have n5 := nodup_tail n4
  have n6 := nodup_tail n5
  have n7 := nodup_tail n6
  have n8 := nodup_tail n7
  have n9 := nodup_tail n8
  have n10 := nodup_tail n9
  have n11 := nodup_tail n10
  have n12 := nodup_tail n11
  have hd : [c1, c2, c3, c4, c5, c6, c7, c8, c9, c10, c11, c12].Nodup := by
    have : ([c1, c2, c3, c4, c5, c6, c7, c8, c9, c10, c11, c12] ++ fl).Nodup := hnd
    exact (List.nodup_append.mp this).1
  simp only [List.nodup_cons, List.mem_cons, List.mem_singleton, not_or, List.not_mem_nil,
    not_false_eq_true, List.nodup_nil, and_true] at hd
  obtain ⟨⟨n1_2, n1_3, n1_4, n1_5, n1_6, n1_7, n1_8, n1_9, n1_10, n1_11, n1_12⟩, ⟨n2_3, n2_4, n2_5, n2_6, n2_7, n2_8, n2_9, n2_10, n2_11, n2_12⟩, ⟨n3_4, n3_5, n3_6, n3_7, n3_8, n3_9, n3_10, n3_11, n3_12⟩, ⟨n4_5, n4_6, n4_7, n4_8, n4_9, n4_10, n4_11, n4_12⟩, ⟨n5_6, n5_7, n5_8, n5_9, n5_10, n5_11, n5_12⟩, ⟨n6_7, n6_8, n6_9, n6_10, n6_11, n6_12⟩, ⟨n7_8, n7_9, n7_10, n7_11, n7_12⟩, ⟨n8_9, n8_10, n8_11, n8_12⟩, ⟨n9_10, n9_11, n9_12⟩, ⟨n10_11, n10_12⟩, n11_12⟩ := hd
  generalize hA0 : ({ M with Tmp := x } : Machine) = A0
  have r0 : A0.Prog = M.Prog ∧ A0.Ep = M.Ep ∧ A0.Ip = M.Ip ∧ A0.Sp = M.Sp ∧ A0.Fp = M.Fp ∧
      A0.Protected = M.Protected ∧ A0.heap = M.heap ∧ A0.Freelist = M.Freelist := by
    subst hA0
    exact ⟨rfl, rfl, rfl, rfl, rfl, rfl, rfl, rfl⟩
  obtain ⟨rp, re, ri, rs, rf, rq, rh, rl⟩ := r0
  have hf0 : freeChain A0.heap k A0.Freelist =
      some (c1 :: c2 :: c3 :: c4 :: c5 :: c6 :: c7 :: c8 :: c9 :: c10 :: c11 :: c12 :: fl) := by
    rw [rh, rl]; exact hf
  obtain ⟨A1, e1, f1, l1, q1, m1, a1, d1, pa1, pd1, g1⟩ :=
    protect_step fuel k A0 A0.Prog c1 _ hf0 (nodup_head n1)
  obtain ⟨A2, e2, f2, l2, q2, m2, a2, d2, pa2, pd2, g2⟩ :=
    protect_step fuel k A1 A1.Ep c2 _ f1 (nodup_head n2)
  obtain ⟨A3, e3, f3, l3, l4, q3, m3, a3, d3, pa3, pd3, g3⟩ :=
    mkfix_step fuel k A2 A2.Ip c3 c4 _ f2 n3
  obtain ⟨A4, e4, f4, l5, q4, m4, a4, d4, pa4, pd4, g4⟩ :=
    protect_step fuel k A3 (c4 : Int) c5 _ f3 (nodup_head n5)
  obtain ⟨A5, e5, f5, l6, l7, q5, m5, a5, d5, pa5, pd5, g5⟩ :=
    mkfix_step fuel k A4 A4.Sp c6 c7 _ f4 n6
  obtain ⟨A6, e6, f6, l8, q6, m6, a6, d6, pa6, pd6, g6⟩ :=
    protect_step fuel k A5 (c7 : Int) c8 _ f5 (nodup_head n8)
  obtain ⟨A7, e7, f7, l9, l10, q7, m7, a7, d7, pa7, pd7, g7⟩ :=
    mkfix_step fuel k A6 A6.Fp c9 c10 _ f6 n9
  obtain ⟨A8, e8, f8, l11, q8, m8, a8, d8, pa8, pd8, g8⟩ :=
    protect_step fuel k A7 (c10 : Int) c11 _ f7 (nodup_head n11)
  obtain ⟨A9, e9, f9, l12, q9, m9, a9, d9, pa9, pd9, g9⟩ :=
    protect_step fuel k A8 x c12 _ f8 (nodup_head n12)
  have hb : begin_rec fuel A0 = Outcome.ok A8 := by
    unfold begin_rec
    rw [e1, bind_ok, e2, bind_ok, e3, bind_ok]
    simp only
    rw [e4, bind_ok, e5, bind_ok]
    simp only
    rw [e6, bind_ok, e7, bind_ok]
    simp only
    rw [e8]
  have he : evalEnter fuel M x true = Outcome.ok { A9 with Tmp := NIL } := by
    unfold evalEnter
    rw [if_pos rfl, hA0, hb, bind_ok, e9, bind_ok]
  refine ⟨_, he, q9, ?_, ?_⟩
  · show A9.heap.nnodes = M.heap.nnodes
    rw [m9, m8, m7, m6, m5, m4, m3, m2, m1, rh]
  · show Saved A9.heap c1 c2 c3 c4 c5 c6 c7 c8 c9 c10 c11 c12 M.Protected M.Prog M.Ep M.Ip M.Sp
      M.Fp
    unfold Saved
    rw [m9, m8, m7, m6, m5, m4, m3, m2, m1]
    rw [m8, m7, m6, m5, m4, m3, m2, m1] at l12
    rw [m7, m6, m5, m4, m3, m2, m1] at l11
    rw [m6, m5, m4, m3, m2, m1] at l9 l10
    rw [m5, m4, m3, m2, m1] at l8
    rw [m4, m3, m2, m1] at l6 l7
    rw [m3, m2, m1] at l5
    rw [m2, m1] at l3 l4
    rw [m1] at l2
    refine ⟨⟨l1, l2, l3, l4, l5, l6, l7, l8, l9, l10, l11, l12⟩, ⟨?_, ?_, ?_, ?_⟩,
      ⟨?_, ?_, ?_, ?_⟩, ⟨?_, ?_, ?_, ?_⟩, ⟨?_, ?_, ?_, ?_⟩, ?_⟩
    · rw [pa9 _ n1_12, pa8 _ n1_11, pa7 _ n1_9 n1_10, pa6 _ n1_8, pa5 _ n1_6 n1_7, pa4 _ n1_5, pa3 _ n1_3 n1_4, pa2 _ n1_2, a1, rp]
    · rw [pd9 _ n1_12, pd8 _ n1_11, pd7 _ n1_9 n1_10, pd6 _ n1_8, pd5 _ n1_6 n1_7, pd4 _ n1_5, pd3 _ n1_3 n1_4, pd2 _ n1_2, d1, rq]
    · rw [pa9 _ n2_12, pa8 _ n2_11, pa7 _ n2_9 n2_10, pa6 _ n2_8, pa5 _ n2_6 n2_7, pa4 _ n2_5, pa3 _ n2_3 n2_4, a2, g1.2.1, re]
    · rw [pd9 _ n2_12, pd8 _ n2_11, pd7 _ n2_9 n2_10, pd6 _ n2_8, pd5 _ n2_6 n2_7, pd4 _ n2_5, pd3 _ n2_3 n2_4, d2, q1]
    · rw [pa9 _ n3_12, pa8 _ n3_11, pa7 _ n3_9 n3_10, pa6 _ n3_8, pa5 _ n3_6 n3_7, pa4 _ n3_5, a3, g2.2.2.1, g1.2.2.1, ri]
    · rw [pd9 _ n4_12, pd8 _ n4_11, pd7 _ n4_9 n4_10, pd6 _ n4_8, pd5 _ n4_6 n4_7, pd4 _ n4_5, d3]
    · rw [pa9 _ n5_12, pa8 _ n5_11, pa7 _ n5_9 n5_10, pa6 _ n5_8, pa5 _ n5_6 n5_7, a4]
    · rw [pd9 _ n5_12, pd8 _ n5_11, pd7 _ n5_9 n5_10, pd6 _ n5_8, pd5 _ n5_6 n5_7, d4, q3, q2]
    · rw [pa9 _ n6_12, pa8 _ n6_11, pa7 _ n6_9 n6_10, pa6 _ n6_8, a5, g4.2.2.2.1, g3.2.2.2.1, g2.2.2.2.1, g1.2.2.2.1, rs]
    · rw [pd9 _ n7_12, pd8 _ n7_11, pd7 _ n7_9 n7_10, pd6 _ n7_8, d5]
    · rw [pa9 _ n8_12, pa8 _ n8_11, pa7 _ n8_9 n8_10, a6]
    · rw [pd9 _ n8_12, pd8 _ n8_11, pd7 _ n8_9 n8_10, d6, q5, q4]
    · rw [pa9 _ n9_12, pa8 _ n9_11, a7, g6.2.2.2.2, g5.2.2.2.2, g4.2.2.2.2, g3.2.2.2.2, g2.2.2.2.2, g1.2.2.2.2, rf]
    · rw [pd9 _ n10_12, pd8 _ n10_11, d7]
    · rw [pa9 _ n11_12, a8]
    · rw [pd9 _ n11_12, d8, q7, q6]
    · rw [d9, q8]

theorem bind_eq_ok {α β : Type} {o : Outcome α} {f : α → Outcome β} {b : β}
    (h : o.bind f = Outcome.ok b) : ∃ a, o = Outcome.ok a ∧ f a = Outcome.ok b := by
  cases o with
  | ok a => exact ⟨a, rfl, h⟩
  | error msg M => simp [Outcome.bind] at h
  | fault => simp [Outcome.bind] at h

/-- A state that keeps the twelve cells keeps what they save. -/
theorem saved_keeps {M M1 : Machine} {c1 c2 c3 c4 c5 c6 c7 c8 c9 c10 c11 c12 : Nat}
    {p0 prog ep ip sp fp : Int}
    (hk : Keeps [c1, c2, c3, c4, c5, c6, c7, c8, c9, c10, c11, c12] M M1)
    (hp : M.Protected = (c12 : Int))
    (hs : Saved M.heap c1 c2 c3 c4 c5 c6 c7 c8 c9 c10 c11 c12 p0 prog ep ip sp fp) :
    M1.Protected = (c12 : Int) ∧
    Saved M1.heap c1 c2 c3 c4 c5 c6 c7 c8 c9 c10 c11 c12 p0 prog ep ip sp fp := by
  obtain ⟨k1, k2, k3⟩ := hk
  refine ⟨k1.trans hp, ?_⟩
  unfold Saved at hs ⊢
  rw [k2]
  have e1 := k3 c1 (by simp)
  have e2 := k3 c2 (by simp)
  have e3 := k3 c3 (by simp)
  have e4 := k3 c4 (by simp)
  have e5 := k3 c5 (by simp)
  have e6 := k3 c6 (by simp)
  have e7 := k3 c7 (by simp)
  have e8 := k3 c8 (by simp)
  have e9 := k3 c9 (by simp)
  have e10 := k3 c10 (by simp)
  have e11 := k3 c11 (by simp)
  have e12 := k3 c12 (by simp)
  rw [e1.1, e1.2, e2.1, e2.2, e3.1, e4.2, e5.1, e5.2, e6.1, e7.2, e8.1, e8.2, e9.1, e10.2,
    e11.1, e11.2, e12.2]
  exact hs

/-- The assignment `car(Protected) = x` keeps what the cells save. -/
theorem saved_setProtected {M : Machine} {c1 c2 c3 c4 c5 c6 c7 c8 c9 c10 c11 c12 : Nat}
    {p0 prog ep ip sp fp : Int} (x : Int)
    (hd : c1 ≠ c12 ∧ c2 ≠ c12 ∧ c3 ≠ c12 ∧ c5 ≠ c12 ∧ c6 ≠ c12 ∧ c8 ≠ c12 ∧ c9 ≠ c12 ∧
      c11 ≠ c12)
    (hp : M.Protected = (c12 : Int))
    (hs : Saved M.heap c1 c2 c3 c4 c5 c6 c7 c8 c9 c10 c11 c12 p0 prog ep ip sp fp) :
    ∃ M1, setProtected M x = Outcome.ok M1 ∧ M1.Protected = (c12 : Int) ∧
      Saved M1.heap c1 c2 c3 c4 c5 c6 c7 c8 c9 c10 c11 c12 p0 prog ep ip sp fp := by
  obtain ⟨d1, d2, d3, d5, d6, d8, d9, d11⟩ := hd
  have hlt : c12 < M.heap.nnodes := hs.1.2.2.2.2.2.2.2.2.2.2.2
  have hin : M.heap.inNodes (c12 : Int) = true := by
    simp [Heap.inNodes, hlt]
  refine ⟨{ M with heap := { M.heap with Car := upd M.heap.Car c12 x } }, ?_, hp, ?_⟩
  · unfold setProtected Heap.setCar
    rw [hp, hin]
    simp
  · unfold Saved at hs ⊢
    simp only [upd, if_neg d1, if_neg d2, if_neg d3, if_neg d5, if_neg d6, if_neg d8, if_neg d9,
      if_neg d11]
    exact hs

/-- The call `unprot(1)` on a list that starts with the cell `c`. -/
theorem unprot1_ok (M : Machine) (c : Nat) (hp : M.Protected = (c : Int))
    (hlt : c < M.heap.nnodes) :
    unprot1 M = Outcome.ok ({ M with Protected := M.heap.Cdr c }, M.heap.Car c) := by
  unfold unprot1
  have hne : M.Protected ≠ NIL := by rw [hp]; simp [NIL]
  rw [if_neg hne, hp]
  simp [Heap.car, Heap.cdr, Heap.inNodes, hlt]

/-- The expression `fixval(unprot(1))` on a list that starts with the cell
`c`, whose element is the fixnum `f` with the value in `d`. -/
theorem unprotFix_ok (M : Machine) (c f d : Nat) (hp : M.Protected = (c : Int))
    (hc : c < M.heap.nnodes) (hf : f < M.heap.nnodes) (hd : d < M.heap.nnodes)
    (h1 : M.heap.Car c = (f : Int)) (h2 : M.heap.Cdr f = (d : Int)) :
    unprotFix M = Outcome.ok ({ M with Protected := M.heap.Cdr c }, M.heap.Car d) := by
  unfold unprotFix
  rw [unprot1_ok M c hp hc, bind_ok]
  simp [Heap.fixval, Heap.car, Heap.cdr, Heap.inNodes, h1, h2, hf, hd, Outcome.ofOption,
    Outcome.bind]

theorem unprot1_step (M : Machine) (c : Nat) (hp : M.Protected = (c : Int))
    (hlt : c < M.heap.nnodes) :
    ∃ M1, unprot1 M = Outcome.ok (M1, M.heap.Car c) ∧ M1.heap = M.heap ∧
      M1.Protected = M.heap.Cdr c ∧
      (M1.Prog = M.Prog ∧ M1.Ep = M.Ep ∧ M1.Ip = M.Ip ∧ M1.Sp = M.Sp ∧ M1.Fp = M.Fp) :=
  ⟨_, unprot1_ok M c hp hlt, rfl, rfl, rfl, rfl, rfl, rfl, rfl⟩

theorem unprotFix_step (M : Machine) (c f d : Nat) (hp : M.Protected = (c : Int))
    (hc : c < M.heap.nnodes) (hf : f < M.heap.nnodes) (hd : d < M.heap.nnodes)
    (h1 : M.heap.Car c = (f : Int)) (h2 : M.heap.Cdr f = (d : Int)) :
    ∃ M1, unprotFix M = Outcome.ok (M1, M.heap.Car d) ∧ M1.heap = M.heap ∧
      M1.Protected = M.heap.Cdr c ∧
      (M1.Prog = M.Prog ∧ M1.Ep = M.Ep ∧ M1.Ip = M.Ip ∧ M1.Sp = M.Sp ∧ M1.Fp = M.Fp) :=
  ⟨_, unprotFix_ok M c f d hp hc hf hd h1 h2, rfl, rfl, rfl, rfl, rfl, rfl, rfl⟩

/-- The calls `unprot(1)` and `end_rec()` on the saved registers. -/
theorem leave_ok (M : Machine) (c1 c2 c3 c4 c5 c6 c7 c8 c9 c10 c11 c12 : Nat)
    (p0 prog ep ip sp fp : Int) (hp : M.Protected = (c12 : Int))
    (hs : Saved M.heap c1 c2 c3 c4 c5 c6 c7 c8 c9 c10 c11 c12 p0 prog ep ip sp fp) :
    ∃ M3, ((unprot1 M).bind fun u => end_rec u.1) = Outcome.ok M3 ∧
      M3.Prog = prog ∧ M3.Ep = ep ∧ M3.Ip = ip ∧ M3.Sp = sp ∧ M3.Fp = fp ∧
      M3.Protected = p0 := by
  obtain ⟨⟨l1, l2, l3, l4, l5, l6, l7, l8, l9, l10, l11, l12⟩, ⟨a1, d1, a2, d2⟩,
    ⟨a3, d4, a5, d5⟩, ⟨a6, d7, a8, d8⟩, ⟨a9, d10, a11, d11⟩, d12⟩ := hs
  obtain ⟨U0, e0, h0, q0, _⟩ := unprot1_step M c12 hp l12
  rw [d12] at q0
  obtain ⟨U1, e1, h1, q1, g1⟩ := unprotFix_step U0 c11 c10 c9 q0 (by rw [h0]; exact l11)
    (by rw [h0]; exact l10) (by rw [h0]; exact l9) (by rw [h0]; exact a11)
    (by rw [h0]; exact d10)
  rw [h0, d11] at q1
  rw [h0, a9] at e1
  generalize hV1 : ({ U1 with Fp := fp } : Machine) = V1
  have v1 : V1.heap = M.heap ∧ V1.Protected = (c8 : Int) ∧ V1.Fp = fp := by
    subst hV1
    exact ⟨h1.trans h0, q1, rfl⟩
  obtain ⟨vh1, vq1, vf1⟩ := v1
  obtain ⟨U2, e2, h2, q2, g2⟩ := unprotFix_step V1 c8 c7 c6 vq1 (by rw [vh1]; exact l8)
    (by rw [vh1]; exact l7) (by rw [vh1]; exact l6) (by rw [vh1]; exact a8)
    (by rw [vh1]; exact d7)
  rw [vh1, d8] at q2
  rw [vh1, a6] at e2
  generalize hV2 : ({ U2 with Sp := sp } : Machine) = V2
  have v2 : V2.heap = M.heap ∧ V2.Protected = (c5 : Int) ∧ V2.Fp = fp ∧ V2.Sp = sp := by
    subst hV2
    exact ⟨h2.trans vh1, q2, g2.2.2.2.2.trans vf1, rfl⟩
  obtain ⟨vh2, vq2, vf2, vs2⟩ := v2
  obtain ⟨U3, e3, h3, q3, g3⟩ := unprotFix_step V2 c5 c4 c3 vq2 (by rw [vh2]; exact l5)
    (by rw [vh2]; exact l4) (by rw [vh2]; exact l3) (by rw [vh2]; exact a5)
    (by rw [vh2]; exact d4)
  rw [vh2, d5] at q3
  rw [vh2, a3] at e3
  generalize hV3 : ({ U3 with Ip := ip } : Machine) = V3
  have v3 : V3.heap = M.heap ∧ V3.Protected = (c2 : Int) ∧ V3.Fp = fp ∧ V3.Sp = sp ∧
      V3.Ip = ip := by
    subst hV3
    exact ⟨h3.trans vh2, q3, g3.2.2.2.2.trans vf2, g3.2.2.2.1.trans vs2, rfl⟩
  obtain ⟨vh3, vq3, vf3, vs3, vi3⟩ := v3
  obtain ⟨U4, e4, h4, q4, g4⟩ := unprot1_step V3 c2 vq3 (by rw [vh3]; exact l2)
  rw [vh3, d2] at q4
  rw [vh3, a2] at e4
  generalize hV4 : ({ U4 with Ep := ep } : Machine) = V4
  have v4 : V4.heap = M.heap ∧ V4.Protected = (c1 : Int) ∧ V4.Fp = fp ∧ V4.Sp = sp ∧
      V4.Ip = ip ∧ V4.Ep = ep := by
    subst hV4
    exact ⟨h4.trans vh3, q4, g4.2.2.2.2.trans vf3, g4.2.2.2.1.trans vs3,
      g4.2.2.1.trans vi3, rfl⟩
  obtain ⟨vh4, vq4, vf4, vs4, vi4, ve4⟩ := v4
  obtain ⟨U5, e5, h5, q5, g5⟩ := unprot1_step V4 c1 vq4 (by rw [vh4]; exact l1)
  rw [vh4, d1] at q5
  rw [vh4, a1] at e5
  refine ⟨{ U5 with Prog := prog }, ?_, rfl, g5.2.1.trans ve4, g5.2.2.1.trans vi4,
    g5.2.2.2.1.trans vs4, g5.2.2.2.2.trans vf4, q5⟩
  rw [e0, bind_ok]
  unfold end_rec
  simp only
  rw [e1, bind_ok]
  simp only
  rw [hV1, e2, bind_ok]
  simp only
  rw [hV2, e3, bind_ok]
  simp only
  rw [hV3, e4, bind_ok]
  simp only
  rw [hV4, e5, bind_ok]

/-- The stages keep what the twelve cells save. -/
theorem stages_saved (st : Stages) (M M2 : Machine) (x v : Int)
    (c1 c2 c3 c4 c5 c6 c7 c8 c9 c10 c11 c12 : Nat) (p0 prog ep ip sp fp : Int)
    (hk : st.Keep [c1, c2, c3, c4, c5, c6, c7, c8, c9, c10, c11, c12])
    (hd : c1 ≠ c12 ∧ c2 ≠ c12 ∧ c3 ≠ c12 ∧ c5 ≠ c12 ∧ c6 ≠ c12 ∧ c8 ≠ c12 ∧ c9 ≠ c12 ∧
      c11 ≠ c12)
    (hp : M.Protected = (c12 : Int))
    (hs : Saved M.heap c1 c2 c3 c4 c5 c6 c7 c8 c9 c10 c11 c12 p0 prog ep ip sp fp)
    (hr : evalStages st M x = Outcome.ok (M2, v)) :
    M2.Protected = (c12 : Int) ∧
    Saved M2.heap c1 c2 c3 c4 c5 c6 c7 c8 c9 c10 c11 c12 p0 prog ep ip sp fp := by
  obtain ⟨k1, k2, k3, k4, k5⟩ := hk
  unfold evalStages at hr
  obtain ⟨⟨E, y1⟩, x1, hr⟩ := bind_eq_ok hr
  obtain ⟨p1, s1⟩ := saved_keeps (k1 _ _ _ _ x1) hp hs
  obtain ⟨W1, w1, p2, s2⟩ := saved_setProtected y1 hd p1 s1
  simp only at hr
  rw [w1, bind_ok] at hr
  obtain ⟨S, x2, hr⟩ := bind_eq_ok hr
  obtain ⟨p3, s3⟩ := saved_keeps (k2 _ _ _ x2) p2 s2
  obtain ⟨⟨C, y2⟩, x3, hr⟩ := bind_eq_ok hr
  obtain ⟨p4, s4⟩ := saved_keeps (k3 _ _ _ _ x3) p3 s3
  obtain ⟨W2, w2, p5, s5⟩ := saved_setProtected y2 hd p4 s4
  simp only at hr
  rw [w2, bind_ok] at hr
  obtain ⟨⟨P, y3⟩, x4, hr⟩ := bind_eq_ok hr
  obtain ⟨p6, s6⟩ := saved_keeps (k4 _ _ _ _ x4) p5 s5
  obtain ⟨W3, w3, p7, s7⟩ := saved_setProtected y3 hd p6 s6
  simp only at hr
  rw [w3, bind_ok] at hr
  exact saved_keeps (k5 _ _ _ _ hr) p7 s7

theorem setProtected_ok (M : Machine) (x : Int) (c : Nat) (hp : M.Protected = (c : Int))
    (hlt : c < M.heap.nnodes) :
    ∃ M1, setProtected M x = Outcome.ok M1 ∧ M1.Protected = (c : Int) ∧
      M1.heap.nnodes = M.heap.nnodes := by
  refine ⟨{ M with heap := { M.heap with Car := upd M.heap.Car c x } }, ?_, hp, rfl⟩
  unfold setProtected Heap.setCar
  rw [hp]
  simp [Heap.inNodes, hlt]

/-- The balanced case: with twelve free cells at hand, `eval(x, 1)` enters the stages with
the registers saved; when the stages complete normally, each leaving
`Protected` and the cells of the saved registers as it found them, `eval`
returns their result with `Prog`, `Ep`, `Ip`, `Sp`, `Fp` and `Protected` as
they were on entry. -/
theorem eval_restores_registers (fuel k : Nat) (st : Stages) (M : Machine) (x : Int)
    (c1 c2 c3 c4 c5 c6 c7 c8 c9 c10 c11 c12 : Nat) (fl : List Nat)
    (hf : freeChain M.heap k M.Freelist =
      some (c1 :: c2 :: c3 :: c4 :: c5 :: c6 :: c7 :: c8 :: c9 :: c10 :: c11 :: c12 :: fl))
    (hnd : (c1 :: c2 :: c3 :: c4 :: c5 :: c6 :: c7 :: c8 :: c9 :: c10 :: c11 :: c12 :: fl).Nodup)
    (hk : st.Keep [c1, c2, c3, c4, c5, c6, c7, c8, c9, c10, c11, c12]) :
    ∃ M1, evalEnter fuel M x true = Outcome.ok M1 ∧ M1.Protected = (c12 : Int) ∧
      c12 < M1.heap.nnodes ∧
      ∀ M2 v, evalStages st M1 x = Outcome.ok (M2, v) →
        ∃ M3, eval fuel st M x true = Outcome.ok (M3, v) ∧
          M3.Prog = M.Prog ∧ M3.Ep = M.Ep ∧ M3.Ip = M.Ip ∧ M3.Sp = M.Sp ∧ M3.Fp = M.Fp ∧
          M3.Protected = M.Protected := by
  obtain ⟨M1, he, hp, hn, hs⟩ := evalEnter_ok fuel k M x c1 c2 c3 c4 c5 c6 c7 c8 c9 c10 c11 c12
    fl hf hnd
  have hd0 : [c1, c2, c3, c4, c5, c6, c7, c8, c9, c10, c11, c12].Nodup := by
    have : ([c1, c2, c3, c4, c5, c6, c7, c8, c9, c10, c11, c12] ++ fl).Nodup := hnd
    exact (List.nodup_append.mp this).1
  simp only [List.nodup_cons, List.mem_cons, List.mem_singleton, not_or, List.not_mem_nil,
    not_false_eq_true, List.nodup_nil, and_true] at hd0
  have hd : c1 ≠ c12 ∧ c2 ≠ c12 ∧ c3 ≠ c12 ∧ c5 ≠ c12 ∧ c6 ≠ c12 ∧ c8 ≠ c12 ∧ c9 ≠ c12 ∧
      c11 ≠ c12 := by
    refine ⟨?_, ?_, ?_, ?_, ?_, ?_, ?_, ?_⟩ <;> simp only [ne_eq, hd0, not_false_eq_true]
  refine ⟨M1, he, hp, hs.1.2.2.2.2.2.2.2.2.2.2.2, ?_⟩
  intro M2 v hr
  obtain ⟨p2, s2⟩ := stages_saved st M1 M2 x v c1 c2 c3 c4 c5 c6 c7 c8 c9 c10 c11 c12 _ _ _ _ _
    _ hk hd hp hs hr
  obtain ⟨M3, e3, r1, r2, r3, r4, r5, r6⟩ := leave_ok M2 c1 c2 c3 c4 c5 c6 c7 c8 c9 c10 c11 c12
    _ _ _ _ _ _ p2 s2
  obtain ⟨u, hu, hend⟩ := bind_eq_ok e3
  refine ⟨M3, ?_, r1, r2, r3, r4, r5, r6⟩
  unfold eval
  rw [he, bind_ok, hr, bind_ok]
  simp only
  rw [hu, bind_ok, if_pos trivial, hend, bind_ok]

/-- Example of the balanced case: a machine with fourteen free cells and stages that return
the form as it is; `eval` returns with the registers of the entry. -/
theorem eval_restores_registers_witness :
    freeChain recMachine.heap 14 recMachine.Freelist =
      some (0 :: 1 :: 2 :: 3 :: 4 :: 5 :: 6 :: 7 :: 8 :: 9 :: 10 :: 11 :: [12, 13]) ∧
    (0 :: 1 :: 2 :: 3 :: 4 :: 5 :: 6 :: 7 :: 8 :: 9 :: 10 :: 11 :: [12, 13]).Nodup ∧
    idStages.Keep [0, 1, 2, 3, 4, 5, 6, 7, 8, 9, 10, 11] ∧
    ∃ M3, eval 0 idStages recMachine 99 true = Outcome.ok (M3, 99) ∧
      M3.Prog = 40 ∧ M3.Ep = 41 ∧ M3.Ip = 7 ∧ M3.Sp = 3 ∧ M3.Fp = 1 ∧ M3.Protected = NIL := by
  have hf : freeChain recMachine.heap 14 recMachine.Freelist =
      some (0 :: 1 :: 2 :: 3 :: 4 :: 5 :: 6 :: 7 :: 8 :: 9 :: 10 :: 11 :: [12, 13]) := by
    decide
  have hnd : (0 :: 1 :: 2 :: 3 :: 4 :: 5 :: 6 :: 7 :: 8 :: 9 :: 10 :: 11 :: [12, 13]).Nodup := by
    decide
  have keep : ∀ (M : Machine), Keeps [0, 1, 2, 3, 4, 5, 6, 7, 8, 9, 10, 11] M M :=
    fun M => ⟨rfl, rfl, fun _ _ => ⟨rfl, rfl⟩⟩
  have hk : idStages.Keep [0, 1, 2, 3, 4, 5, 6, 7, 8, 9, 10, 11] := by
    refine ⟨?_, ?_, ?_, ?_, ?_⟩
    · intro M y M1 y1 h
      simp only [idStages, Outcome.ok.injEq, Prod.mk.injEq] at h
      rw [← h.1]; exact keep M
    · intro M y M1 h
      simp only [idStages, Outcome.ok.injEq] at h
      rw [← h]; exact keep M
    · intro M y M1 y1 h
      simp only [idStages, Outcome.ok.injEq, Prod.mk.injEq] at h
      rw [← h.1]; exact keep M
    · intro M y M1 y1 h
      simp only [idStages, Outcome.ok.injEq, Prod.mk.injEq] at h
      rw [← h.1]; exact keep M
    · intro M y M1 y1 h
      simp only [idStages, Outcome.ok.injEq, Prod.mk.injEq] at h
      rw [← h.1]; exact keep M
  refine ⟨hf, hnd, hk, ?_⟩
  obtain ⟨M1, _, hp, hlt, H⟩ := eval_restores_registers 0 14 idStages recMachine 99
    0 1 2 3 4 5 6 7 8 9 10 11 [12, 13] hf hnd hk
  obtain ⟨W1, w1, p1, n1⟩ := setProtected_ok M1 99 11 hp hlt
  obtain ⟨W2, w2, p2, n2⟩ := setProtected_ok W1 99 11 p1 (by rw [n1]; exact hlt)
  obtain ⟨W3, w3, p3, n3⟩ := setProtected_ok W2 99 11 p2 (by rw [n2, n1]; exact hlt)
  have hst : evalStages idStages M1 99 = Outcome.ok (W3, 99) := by
    unfold evalStages
    simp only [idStages, bind_ok]
    rw [w1, bind_ok, w2, bind_ok, w3, bind_ok]
  exact H W3 99 hst

/-! ## C25 and C11: the frame of a call -/

theorem sameRegs_refl (M : Machine) : SameRegs M M := ⟨rfl, rfl, rfl, rfl, rfl⟩

theorem sameRegs_trans {M M1 M2 : Machine} (a : SameRegs M M1) (b : SameRegs M1 M2) :
    SameRegs M M2 :=
  ⟨b.1.trans a.1, b.2.1.trans a.2.1, b.2.2.1.trans a.2.2.1, b.2.2.2.1.trans a.2.2.2.1,
    b.2.2.2.2.trans a.2.2.2.2⟩

theorem stackInv_rts {M0 M : Machine} {fl0 fl : List Nat} {k : Nat} {W : Nat → Prop} {rb : Int}
    (hinv : StackInv M0 M fl0 fl k W) (hrts : Live M0.heap fl0 M0.Rts)
    (hrc : M0.heap.cdr M0.Rts = some rb) : M.heap.cdr M.Rts = some rb := by
  obtain ⟨h1, _, _, h4, _⟩ := hinv
  obtain ⟨_, _, e, _⟩ := live_ext h1 hrts
  rw [h4, e, hrc]

theorem stackref_eq {M : Machine} {rb : Int} (hrc : M.heap.cdr M.Rts = some rb) (j : Int) :
    M.stackref j = M.heap.vref (rb + j) := by
  unfold Machine.stackref
  rw [hrc]

/-- A push with room on the stack. -/
theorem push_st {M0 M : Machine} {fl0 fl : List Nat} {k : Nat} {W : Nat → Prop} {rb : Int}
    (fuel : Nat) (x : Int)
    (hinv : StackInv M0 M fl0 fl k W) (hrts : Live M0.heap fl0 M0.Rts)
    (hrc : M0.heap.cdr M0.Rts = some rb)
    (hsz : M.Sp + 1 < M.Sz) (hin : M0.heap.inVec (rb + (M.Sp + 1)) = true)
    (hW : W (rb + (M.Sp + 1)).toNat) :
    ∃ M1, push fuel M x = Outcome.ok M1 ∧ StackInv M0 M1 fl0 fl k W ∧ M1.Sp = M.Sp + 1 ∧
      M1.stackref (M.Sp + 1) = some x ∧
      (∀ j, j ≠ M.Sp + 1 → M1.stackref j = M.stackref j) ∧
      HeapExt M.heap M1.heap fl fl W ∧
      SameRegs M M1 := by
  have hrcM := stackInv_rts hinv hrts hrc
  obtain ⟨h1, h2, h3, h4, h5⟩ := hinv
  have hinM : M.heap.inVec (rb + (M.Sp + 1)) = true := by
    simp only [Heap.inVec, h1.2.1] at hin ⊢
    exact hin
  have e := push_ok fuel M x rb hrcM hsz hinM
  have hrc1 : (M.pushed (rb + (M.Sp + 1)).toNat x).heap.cdr (M.pushed (rb + (M.Sp + 1)).toNat x).Rts
      = some rb := hrcM
  refine ⟨_, e, ⟨heapExt_trans h1 (heapExt_pushed M _ x fl W hW), ?_, h3, h4, h5⟩, rfl, ?_, ?_,
    heapExt_pushed M _ x fl W hW, ⟨rfl, rfl, rfl, rfl, rfl⟩⟩
  · exact @freeChain_congr M.heap (M.pushed (rb + (M.Sp + 1)).toNat x).heap rfl k _ fl h2
      (fun _ _ => rfl)
  · rw [stackref_eq hrc1]
    simp only [Heap.vref, Machine.pushed, upd, if_true]
    rw [if_pos (by exact hinM)]
  · intro j hj
    rw [stackref_eq hrc1, stackref_eq hrcM]
    simp only [Heap.vref, Heap.inVec, Machine.pushed, upd]
    by_cases hv : (decide (0 ≤ rb + j) && decide (rb + j < (M.heap.nvcells : Int))) = true
    · rw [if_pos hv, if_pos hv]
      simp only [Bool.and_eq_true, decide_eq_true_eq] at hv
      simp only [Heap.inVec, Bool.and_eq_true, decide_eq_true_eq] at hinM
      have : (rb + j).toNat ≠ (rb + (M.Sp + 1)).toNat := by omega
      rw [if_neg this]
    · rw [if_neg hv, if_neg hv]

/-- An allocation with a free cell at hand. -/
theorem cons3_st {M0 M : Machine} {fl0 fl : List Nat} {k : Nat} {W : Nat → Prop} {c : Nat}
    (fuel : Nat) (a d : Int) (t : Nat)
    (hinv : StackInv M0 M fl0 (c :: fl) k W) (hrts : Live M0.heap fl0 M0.Rts) :
    ∃ M1, cons3 fuel M a d t = Outcome.ok (M1, (c : Int)) ∧ StackInv M0 M1 fl0 fl k W ∧
      M1.Sp = M.Sp ∧ (∀ j, M1.stackref j = M.stackref j) ∧
      HeapExt M.heap M1.heap (c :: fl) fl W ∧
      c < M1.heap.nnodes ∧ M1.heap.Car c = a ∧ M1.heap.Cdr c = d ∧ M1.heap.Tag c = t % 256 ∧
      SameRegs M M1 := by
  obtain ⟨h1, h2, h3, h4, h5⟩ := hinv
  have hnd := List.nodup_cons.mp h3
  obtain ⟨e, hfree⟩ := cons3_ok fuel k M a d t c fl h2 hnd.1
  obtain ⟨_, hlt, _⟩ := freeChain_cons h2
  have hext := heapExt_alloc M c fl a d t W
  refine ⟨_, e, ⟨heapExt_trans h1 hext, hfree, hnd.2, h4, h5⟩, rfl, ?_, hext, hlt,
    by simp [Machine.alloc, upd], by simp [Machine.alloc, upd], by simp [Machine.alloc, upd],
    ⟨rfl, rfl, rfl, rfl, rfl⟩⟩
  intro j
  have hl : Live M.heap (c :: fl) M.Rts := by
    rw [h4]
    exact (live_ext h1 hrts).1
  obtain ⟨_, _, e2, _⟩ := live_ext hext hl
  have e3 : (M.alloc c a d t).heap.cdr (M.alloc c a d t).Rts = M.heap.cdr M.Rts := e2
  unfold Machine.stackref
  rw [e3]
  cases M.heap.cdr M.Rts with
  | none => rfl
  | some v =>
    have hx := heapExt_alloc M c fl a d t (fun _ => False)
    exact @vref_ext M.heap (M.alloc c a d t).heap (c :: fl) fl (fun _ => False) hx (v + j)
      (fun h => h)

/-- The function `mkfix` with two free cells at hand. -/
theorem mkfix_st {M0 M : Machine} {fl0 fl : List Nat} {k : Nat} {W : Nat → Prop} {c1 c2 : Nat}
    (fuel : Nat) (v : Int)
    (hinv : StackInv M0 M fl0 (c1 :: c2 :: fl) k W) (hrts : Live M0.heap fl0 M0.Rts) :
    ∃ M1, mkfix fuel M v = Outcome.ok (M1, (c2 : Int)) ∧ StackInv M0 M1 fl0 fl k W ∧
      M1.Sp = M.Sp ∧ (∀ j, M1.stackref j = M.stackref j) ∧
      HeapExt M.heap M1.heap (c1 :: c2 :: fl) fl W ∧ FixCell M1.heap fl c2 v ∧
      SameRegs M M1 := by
  obtain ⟨A, e1, i1, s1, r1, x1, l1, a1, d1, t1, g1⟩ := cons3_st fuel v NIL ATOM_TAG hinv hrts
  obtain ⟨B, e2, i2, s2, r2, x2, l2, a2, d2, t2, g2⟩ :=
    cons3_st fuel T_FIXNUM (c1 : Int) ATOM_TAG i1 hrts
  have hnd := i1.2.2.1
  have hn1 : c1 ∉ c2 :: fl := by
    have := hinv.2.2.1
    exact (List.nodup_cons.mp this).1
  have hn2 : c2 ∉ fl := (List.nodup_cons.mp hnd).1
  refine ⟨B, ?_, i2, s2.trans s1, fun j => (r2 j).trans (r1 j), heapExt_trans x1 x2, ?_,
    sameRegs_trans g1 g2⟩
  · unfold mkfix mkatom
    rw [e1]
    simp only
    rw [e2]
  · obtain ⟨y1, y2, _⟩ := x2.2.2.2.1 c1 hn1
    have l1B : c1 < B.heap.nnodes := by rw [x2.1]; exact l1
    refine ⟨c2, c1, rfl, l2, l1B, ?_, a2, d2, ?_, hn2, fun h => hn1 (List.mem_cons_of_mem _ h)⟩
    · rw [t2]; decide
    · rw [y1, a1]

/-- What `apply` reads of a closure. -/
theorem closure_read {h : Heap} {fl : List Nat} {c ip e p : Int}
    (hc : ClosureAt h fl c ip e p) :
    h.closurep c = some true ∧ h.caddr c = some e ∧ h.cadddr c = some p ∧
    (h.cadr c).bind h.fixval = some ip := by
  obtain ⟨n0, n1, n2, n3, ipc, rfl, l0, l1, l2, l3, f0, f1, f2, f3, ht, a0, d0, a1, d1, a2, d2,
    a3, hfix⟩ := hc
  obtain ⟨_, hv, _⟩ := fixCell_read hfix
  refine ⟨?_, ?_, ?_, ?_⟩
  · simp [Heap.closurep, specialp, Heap.tag, Heap.car, Heap.inNodes, l0, ht, a0]
  · simp [Heap.caddr, Heap.cddr, Heap.cdr, Heap.car, Heap.inNodes, l0, l1, l2, d0, d1, a2]
  · simp [Heap.cadddr, Heap.cddr, Heap.cdr, Heap.car, Heap.inNodes, l0, l1, l2, l3, d0, d1, d2,
      a3]
  · simp [Heap.cadr, Heap.cdr, Heap.car, Heap.inNodes, l0, l1, d0, a1, hv]

theorem closure_ext {h h1 : Heap} {fl fl1 : List Nat} {W : Nat → Prop}
    (a : HeapExt h h1 fl fl1 W) {c ip e p : Int} (hc : ClosureAt h fl c ip e p) :
    ClosureAt h1 fl1 c ip e p := by
  obtain ⟨n0, n1, n2, n3, ipc, rfl, l0, l1, l2, l3, f0, f1, f2, f3, ht, a0, d0, a1, d1, a2, d2,
    a3, hfix⟩ := hc
  have hf := fixCell_ext a hfix
  have s0 := heapExt_sub a f0
  have s1 := heapExt_sub a f1
  have s2 := heapExt_sub a f2
  have s3 := heapExt_sub a f3
  obtain ⟨e1, _, _, e4, _⟩ := a
  obtain ⟨x0, y0, z0⟩ := e4 _ f0
  obtain ⟨x1, y1, _⟩ := e4 _ f1
  obtain ⟨x2, y2, _⟩ := e4 _ f2
  obtain ⟨x3, _, _⟩ := e4 _ f3
  exact ⟨n0, n1, n2, n3, ipc, rfl, by omega, by omega, by omega, by omega, s0, s1, s2, s3,
    by rw [z0]; exact ht, by rw [x0]; exact a0, by rw [y0]; exact d0, by rw [x1]; exact a1,
    by rw [y1]; exact d1, by rw [x2]; exact a2, by rw [y2]; exact d2, by rw [x3]; exact a3, hf⟩

/-- The instruction and its operand in a program that the run has not
written to. -/
theorem prog_read {h : Heap} {M : Machine} {fl fl1 : List Nat} {W : Nat → Prop} {p : Int}
    {buf : Nat → Nat} {lo hi : Nat}
    (hext : HeapExt h M.heap fl fl1 W) (hcode : ProgAt h fl W p buf lo hi)
    (hp : M.Prog = p) (j : Nat) (hip : M.Ip = (j : Int)) (hl : lo ≤ j) (hj : j + 2 < hi) :
    M.ins = some (buf j) ∧ M.op1 = some ((buf (j + 1) <<< 8) ||| buf (j + 2)) := by
  obtain ⟨pc, pb, l1, c1, l2, c2, hb⟩ := hcode
  obtain ⟨_, _, e1, _⟩ := live_ext hext l1
  obtain ⟨_, _, e2, _⟩ := live_ext hext l2
  have hc : M.code = some pb := by
    unfold Machine.code
    rw [hp, e1, c1]
    simp only [Option.bind]
    rw [e2, c2]
  have hbr : ∀ i, i < hi → lo ≤ i → M.heap.bref pb i = some (buf i) := by
    intro i h1 h2
    obtain ⟨b1, b2⟩ := hb i h1 h2
    rw [bref_ext hext b2, b1]
  constructor
  · unfold Machine.ins
    rw [if_neg (by omega), hc, hip]
    simp only [Option.bind, Int.toNat_ofNat]
    exact hbr j (by omega) hl
  · unfold Machine.op1
    rw [if_neg (by omega), hc, hip]
    simp only [Option.bind, Int.toNat_ofNat, Heap.fetcharg]
    rw [hbr (j + 1) (by omega) (by omega), hbr (j + 1 + 1) (by omega) (by omega)]

/-- The function `apply(0)` on a closure with three free cells at hand and
room for two entries on the stack. -/
theorem apply_st {M0 M : Machine} {fl0 fl : List Nat} {k : Nat} {W : Nat → Prop} {rb : Int}
    {c1 c2 c3 : Nat} (fuel : Nat) {ip e p : Int}
    (hinv : StackInv M0 M fl0 (c1 :: c2 :: c3 :: fl) k W) (hrts : Live M0.heap fl0 M0.Rts)
    (hrc : M0.heap.cdr M0.Rts = some rb) (hsz : M.Sp + 2 < M.Sz)
    (hin1 : M0.heap.inVec (rb + (M.Sp + 1)) = true)
    (hin2 : M0.heap.inVec (rb + (M.Sp + 2)) = true)
    (hW1 : W (rb + (M.Sp + 1)).toNat) (hW2 : W (rb + (M.Sp + 2)).toNat)
    (hcl : ClosureAt M.heap (c1 :: c2 :: c3 :: fl) M.Acc ip e p) :
    ∃ M5, apply fuel M false = Outcome.ok M5 ∧ StackInv M0 M5 fl0 fl k W ∧
      HeapExt M.heap M5.heap (c1 :: c2 :: c3 :: fl) fl W ∧
      M5.Sp = M.Sp + 2 ∧ M5.Fp = M.Fp ∧ M5.Acc = M.Acc ∧ M5.Ep = e ∧ M5.Prog = p ∧ M5.Ip = ip ∧
      M5.stackref (M.Sp + 1) = some M.Ep ∧ M5.stackref (M.Sp + 2) = some (c3 : Int) ∧
      (∀ j, j ≠ M.Sp + 1 → j ≠ M.Sp + 2 → M5.stackref j = M.stackref j) ∧
      c3 < M5.heap.nnodes ∧ M5.heap.Car c3 = (c2 : Int) ∧ M5.heap.Cdr c3 = M.Prog ∧
      FixCell M5.heap fl c2 (M.Ip + 1) := by
  obtain ⟨q1, _, _, _⟩ := closure_read hcl
  obtain ⟨A, eA, iA, sA, tA, oA, xA, gA⟩ := push_st fuel M.Ep hinv hrts hrc (by omega) hin1 hW1
  obtain ⟨B, eB, iB, sB, oB, xB, fB, gB⟩ := mkfix_st fuel (A.Ip + 1) iA hrts
  obtain ⟨C, eC, iC, sC, oC, xC, lC, aC, dC, _, gC⟩ := cons3_st fuel (c2 : Int) B.Prog 0 iB hrts
  have sC2 : C.Sp + 1 = M.Sp + 2 := by rw [sC, sB, sA]; ring
  obtain ⟨D, eD, iD, sD, tD, oD, xD, gD⟩ := push_st fuel (c3 : Int) iC hrts hrc
    (by rw [sC2, iC.2.2.2.2, ← hinv.2.2.2.2]; exact hsz) (by rw [sC2]; exact hin2)
    (by rw [sC2]; exact hW2)
  have xAll : HeapExt M.heap D.heap (c1 :: c2 :: c3 :: fl) fl W :=
    heapExt_trans (heapExt_trans (heapExt_trans xA xB) xC) xD
  have gAll : SameRegs M D := sameRegs_trans (sameRegs_trans (sameRegs_trans gA gB) gC) gD
  obtain ⟨g1, g2, g3, g4, g5⟩ := gAll
  have hclD : ClosureAt D.heap fl D.Acc ip e p := by
    rw [g5]
    exact closure_ext xAll hcl
  obtain ⟨r1, r2, r3, r4⟩ := closure_read hclD
  have hnd := hinv.2.2.1
  have n3 : c3 ∉ fl := by
    have := List.nodup_cons.mp (List.nodup_cons.mp (List.nodup_cons.mp hnd).2).2
    exact this.1
  obtain ⟨y1, y2, _⟩ := xD.2.2.2.1 c3 n3
  refine ⟨{ D with Ep := e, Prog := p, Ip := ip }, ?_, ?_, xAll, ?_, g1, g5, rfl, rfl, rfl, ?_, ?_,
    ?_, ?_, ?_, ?_, ?_⟩
  · unfold apply
    rw [q1]
    simp only [Bool.false_eq_true, if_false]
    rw [eA, bind_ok, eB, bind_ok]
    simp only
    have eC2 : consM fuel B (c2 : Int) B.Prog = Outcome.ok (C, (c3 : Int)) := eC
    rw [eC2, bind_ok]
    simp only
    rw [eD, bind_ok, r2, r3, r4]
  · obtain ⟨i1, i2, i3, i4, i5⟩ := iD
    exact ⟨i1, i2, i3, i4, i5⟩
  · show D.Sp = M.Sp + 2
    rw [sD, sC2]
  · show D.stackref (M.Sp + 1) = some M.Ep
    rw [oD _ (by rw [sC2]; omega), oC, oB, tA]
  · show D.stackref (M.Sp + 2) = some (c3 : Int)
    rw [← sC2, tD]
  · intro j h1 h2
    show D.stackref j = M.stackref j
    rw [oD _ (by rw [sC2]; exact h2), oC, oB, oA _ h1]
  · show c3 < D.heap.nnodes
    rw [xD.1]; exact lC
  · show D.heap.Car c3 = (c2 : Int)
    rw [y1, aC]
  · show D.heap.Cdr c3 = M.Prog
    rw [y2, dC, gB.2.2.2.1, gA.2.2.2.1]
  · show FixCell D.heap fl c2 (M.Ip + 1)
    rw [← gA.2.1]
    exact fixCell_ext xD (fixCell_ext xC fB)

theorem vmStep_apply {fuel : Nat} {M : Machine} (h : M.ins = some OP_APPLY) :
    vmStep fuel M = apply fuel M false := by
  simp [vmStep, h, OP_TAILAPP, OP_APPLY]

theorem vmStep_enter {fuel : Nat} {M : Machine} (h : M.ins = some OP_ENTER) :
    vmStep fuel M = opEnter fuel M := by
  simp [vmStep, h, OP_QUOTE, OP_TAILAPP, OP_APPLY, OP_PUSH, OP_ENTER]

theorem vmStep_return {fuel : Nat} {M : Machine} (h : M.ins = some OP_RETURN) :
    vmStep fuel M = ret M := by
  simp [vmStep, h, OP_QUOTE, OP_TAILAPP, OP_APPLY, OP_PUSH, OP_ENTER, OP_ENTCOL, OP_RETURN]

/-- The case `OP_ENTER` with two free cells at hand and room for one entry
on the stack. -/
theorem enter_st {M0 M : Machine} {fl0 fl : List Nat} {k : Nat} {W : Nat → Prop} {rb : Int}
    {c4 c5 : Nat} (fuel : Nat) {m : Int} {n : Nat}
    (hinv : StackInv M0 M fl0 (c4 :: c5 :: fl) k W) (hrts : Live M0.heap fl0 M0.Rts)
    (hrc : M0.heap.cdr M0.Rts = some rb) (hsz : M.Sp + 1 < M.Sz)
    (hin : M0.heap.inVec (rb + (M.Sp + 1)) = true) (hW : W (rb + (M.Sp + 1)).toNat)
    (hcnt : M.stackfix (M.Sp - 2) = some m) (hop : M.op1 = some n) :
    (m = (n : Int) → ∃ M1, opEnter fuel M = Outcome.ok M1 ∧ StackInv M0 M1 fl0 fl k W ∧
      HeapExt M.heap M1.heap (c4 :: c5 :: fl) fl W ∧
      M1.Sp = M.Sp + 1 ∧ M1.Fp = M.Sp - 3 ∧ M1.Ip = M.Ip + 3 ∧ M1.Ep = M.Ep ∧
      M1.Prog = M.Prog ∧ M1.Acc = M.Acc ∧
      M1.stackref (M.Sp + 1) = some (c5 : Int) ∧ FixCell M1.heap fl c5 M.Fp ∧
      (∀ j, j ≠ M.Sp + 1 → M1.stackref j = M.stackref j)) ∧
    (m ≠ (n : Int) → opEnter fuel M = Outcome.error "wrong number of arguments" M) := by
  constructor
  · intro hm
    obtain ⟨A, eA, iA, sA, oA, xA, fA, gA⟩ := mkfix_st fuel M.Fp hinv hrts
    obtain ⟨B, eB, iB, sB, tB, oB, xB, gB⟩ := push_st fuel (c5 : Int) iA hrts hrc
      (by rw [sA, iA.2.2.2.2, ← hinv.2.2.2.2]; exact hsz) (by rw [sA]; exact hin)
      (by rw [sA]; exact hW)
    obtain ⟨g1, g2, g3, g4, g5⟩ := sameRegs_trans gA gB
    refine ⟨{ B with Fp := B.Sp - 4, Ip := B.Ip + ISIZE1 }, ?_, ?_, heapExt_trans xA xB, ?_, ?_,
      ?_, g3, g4, g5, ?_, ?_, ?_⟩
    · unfold opEnter
      rw [hcnt, hop]
      simp only
      rw [if_neg (fun h => h hm)]
      unfold pushFp
      rw [eA, bind_ok]
      simp only
      rw [eB, bind_ok, bind_ok]
    · obtain ⟨i1, i2, i3, i4, i5⟩ := iB
      exact ⟨i1, i2, i3, i4, i5⟩
    · show B.Sp = M.Sp + 1
      rw [sB, sA]
    · show B.Sp - 4 = M.Sp - 3
      rw [sB, sA]; ring
    · show B.Ip + ISIZE1 = M.Ip + 3
      rw [g2]; rfl
    · show B.stackref (M.Sp + 1) = some (c5 : Int)
      rw [← sA, tB]
    · exact fixCell_ext xB fA
    · intro j hj
      show B.stackref j = M.stackref j
      rw [oB _ (by rw [sA]; exact hj), oA]
  · intro hm
    unfold opEnter
    rw [hcnt, hop]
    simp only
    rw [if_pos hm]

/-- The function `ret` on a frame. -/
theorem ret_frame (M : Machine) (n ep ip prog fp : Int) (hf : FrameAt M n ep ip prog fp) :
    ret M = Outcome.ok
      { M with Fp := fp, Prog := prog, Ep := ep, Sp := M.Sp - (n + 4), Ip := ip } := by
  obtain ⟨h1, h2, ⟨r, h3, h4, h5⟩, h6⟩ := hf
  unfold ret
  rw [h6, h3, h2, h1]
  simp only
  rw [h4, h5]

theorem vmRun_two (fuel : Nat) (M : Machine) :
    vmRun fuel 2 M = (vmStep fuel M).bind fun M1 => vmStep fuel M1 := by
  show (vmStep fuel M).bind (fun M1 => (vmStep fuel M1).bind (vmRun fuel 0)) = _
  congr 1
  funext M1
  cases vmStep fuel M1 <;> rfl

/-- The instructions `APPLY` and `ENTER n` on a closure whose code starts
with `ENTER n`, with five free cells at hand and room for three entries on
the stack, the count `m` being on top of the stack. -/
theorem call_enter (fuel k : Nat) (M : Machine) (fl : List Nat) (c1 c2 c3 c4 c5 : Nat)
    (rb : Int) (j : Nat) (e p : Int) (buf : Nat → Nat) (n : Nat) (cnt m : Int)
    (hfree : freeChain M.heap k M.Freelist = some (c1 :: c2 :: c3 :: c4 :: c5 :: fl))
    (hnd : (c1 :: c2 :: c3 :: c4 :: c5 :: fl).Nodup)
    (hrts : Live M.heap (c1 :: c2 :: c3 :: c4 :: c5 :: fl) M.Rts)
    (hrc : M.heap.cdr M.Rts = some rb) (hsz : M.Sp + 3 < M.Sz)
    (hin1 : M.heap.inVec (rb + (M.Sp + 1)) = true)
    (hin2 : M.heap.inVec (rb + (M.Sp + 2)) = true)
    (hin3 : M.heap.inVec (rb + (M.Sp + 3)) = true)
    (hins : M.ins = some OP_APPLY)
    (hcl : ClosureAt M.heap (c1 :: c2 :: c3 :: c4 :: c5 :: fl) M.Acc j e p)
    (hcode : ProgAt M.heap (c1 :: c2 :: c3 :: c4 :: c5 :: fl) (frameSlots rb M.Sp) p buf j
      (j + 3))
    (hb0 : buf j = OP_ENTER) (hb1 : (buf (j + 1) <<< 8) ||| buf (j + 2) = n)
    (hcnt : M.stackref M.Sp = some cnt)
    (hfix : FixCell M.heap (c1 :: c2 :: c3 :: c4 :: c5 :: fl) cnt m) :
    (m = (n : Int) → ∃ M1, vmRun fuel 2 M = Outcome.ok M1 ∧
      HeapExt M.heap M1.heap (c1 :: c2 :: c3 :: c4 :: c5 :: fl) fl (frameSlots rb M.Sp) ∧
      M1.Sp = M.Sp + 3 ∧ M1.Fp = M.Sp - 1 ∧ M1.Ep = e ∧ M1.Prog = p ∧ M1.Ip = (j : Int) + 3 ∧
      M1.Acc = M.Acc ∧ FrameAt M1 m M.Ep (M.Ip + 1) M.Prog M.Fp ∧
      ∀ i, i ≤ M.Sp → M1.stackref i = M.stackref i) ∧
    (m ≠ (n : Int) → ∃ Me, vmRun fuel 2 M = Outcome.error "wrong number of arguments" Me) := by
  have hinv : StackInv M M (c1 :: c2 :: c3 :: c4 :: c5 :: fl) (c1 :: c2 :: c3 :: c4 :: c5 :: fl) k
      (frameSlots rb M.Sp) := ⟨heapExt_refl _ _ _, hfree, hnd, rfl, rfl⟩
  have w1 : frameSlots rb M.Sp (rb + (M.Sp + 1)).toNat := Or.inl rfl
  have w2 : frameSlots rb M.Sp (rb + (M.Sp + 2)).toNat := Or.inr (Or.inl rfl)
  have w3 : frameSlots rb M.Sp (rb + (M.Sp + 3)).toNat := Or.inr (Or.inr rfl)
  obtain ⟨A, eA, iA, xA, sA, fpA, accA, epA, prA, ipA, t1, t2, oA, l3, a3, d3, f2⟩ :=
    apply_st fuel hinv hrts hrc (by omega) hin1 hin2 w1 w2 hcl
  have sA3 : A.Sp + 1 = M.Sp + 3 := by rw [sA]; ring
  obtain ⟨hiA, hoA⟩ := prog_read xA hcode prA j ipA (le_refl _) (by omega)
  rw [hb0] at hiA
  rw [hb1] at hoA
  have hcntA : A.stackfix (A.Sp - 2) = some m := by
    unfold Machine.stackfix
    have : A.Sp - 2 = M.Sp := by rw [sA]; ring
    rw [this, oA _ (by omega) (by omega), hcnt]
    simp only [Option.bind]
    exact (fixCell_read (fixCell_ext xA hfix)).2.1
  obtain ⟨r1, r2⟩ := enter_st fuel iA hrts hrc (by rw [sA3, iA.2.2.2.2]; exact hsz)
    (by rw [sA3]; exact hin3) (by rw [sA3]; exact w3) hcntA hoA
  have hrun : vmRun fuel 2 M = opEnter fuel A := by
    rw [vmRun_two, vmStep_apply hins, eA, bind_ok, vmStep_enter hiA]
  constructor
  · intro hm
    obtain ⟨B, eB, iB, xB, sB, fpB, ipB, epB, prB, accB, t3, f5, oB⟩ := r1 hm
    have hnd3 : c3 ∉ c4 :: c5 :: fl := by
      have := List.nodup_cons.mp (List.nodup_cons.mp (List.nodup_cons.mp hnd).2).2
      exact this.1
    obtain ⟨y1, y2, _⟩ := xB.2.2.2.1 c3 hnd3
    have l3B : c3 < B.heap.nnodes := by rw [xB.1]; exact l3
    have f2B := fixCell_ext xB f2
    refine ⟨B, by rw [hrun, eB], heapExt_trans xA xB, by rw [sB, sA]; ring,
      by rw [fpB, sA]; ring, epB.trans epA, prB.trans prA, by rw [ipB, ipA],
      accB.trans accA, ⟨?_, ?_, ⟨(c3 : Int), ?_, ?_, ?_⟩, ?_⟩, ?_⟩
    · unfold Machine.stackfix
      have : B.Sp - 3 = M.Sp := by rw [sB, sA]; ring
      rw [this, oB _ (by rw [sA]; omega), oA _ (by omega) (by omega), hcnt]
      simp only [Option.bind]
      exact (fixCell_read (fixCell_ext xB (fixCell_ext xA hfix))).2.1
    · have : B.Sp - 2 = M.Sp + 1 := by rw [sB, sA]; ring
      rw [this, oB _ (by rw [sA]; omega), t1]
    · have : B.Sp - 1 = M.Sp + 2 := by rw [sB, sA]; ring
      rw [this, oB _ (by rw [sA]; omega), t2]
    · simp [Heap.cdr, Heap.inNodes, l3B, y2, d3]
    · have : B.heap.car (c3 : Int) = some (c2 : Int) := by
        simp [Heap.car, Heap.inNodes, l3B, y1, a3]
      rw [this]
      simp only [Option.bind]
      exact (fixCell_read f2B).2.1
    · unfold Machine.stackfix
      have : B.Sp = A.Sp + 1 := sB
      rw [this, t3]
      simp only [Option.bind]
      rw [← fpA]
      exact (fixCell_read f5).2.1
    · intro i hi
      rw [oB _ (by rw [sA]; omega), oA _ (by omega) (by omega)]
  · intro hm
    exact ⟨A, by rw [hrun, r2 hm]⟩

/-- C25: for a call with the boxes of `n` arguments and the count `m` on the
stack and a closure whose code starts with `ENTER n` in `Acc`, `APPLY` and
`ENTER n` leave, when `m = n`, the frame box(an) ... box(a1), the count, the
saved `Ep`, the pair of `Ip + 1` and `Prog`, the saved `Fp`, with `Fp` at
the box of the first argument, so that `argref(i)` is the value of the
argument `i + 1`; when `m` differs from `n`, `ENTER` raises "wrong number of
arguments". -/
theorem call_frame_layout (fuel k : Nat) (M : Machine) (fl : List Nat) (c1 c2 c3 c4 c5 : Nat)
    (rb : Int) (j : Nat) (e p : Int) (buf : Nat → Nat) (n : Nat) (cnt m : Int)
    (b a : Nat → Int)
    (hfree : freeChain M.heap k M.Freelist = some (c1 :: c2 :: c3 :: c4 :: c5 :: fl))
    (hnd : (c1 :: c2 :: c3 :: c4 :: c5 :: fl).Nodup)
    (hrts : Live M.heap (c1 :: c2 :: c3 :: c4 :: c5 :: fl) M.Rts)
    (hrc : M.heap.cdr M.Rts = some rb) (hsz : M.Sp + 3 < M.Sz)
    (hin1 : M.heap.inVec (rb + (M.Sp + 1)) = true)
    (hin2 : M.heap.inVec (rb + (M.Sp + 2)) = true)
    (hin3 : M.heap.inVec (rb + (M.Sp + 3)) = true)
    (hins : M.ins = some OP_APPLY)
    (hcl : ClosureAt M.heap (c1 :: c2 :: c3 :: c4 :: c5 :: fl) M.Acc j e p)
    (hcode : ProgAt M.heap (c1 :: c2 :: c3 :: c4 :: c5 :: fl) (frameSlots rb M.Sp) p buf j
      (j + 3))
    (hb0 : buf j = OP_ENTER) (hb1 : (buf (j + 1) <<< 8) ||| buf (j + 2) = n)
    (hcnt : M.stackref M.Sp = some cnt)
    (hfix : FixCell M.heap (c1 :: c2 :: c3 :: c4 :: c5 :: fl) cnt m)
    (hbox : ∀ i, i < n → M.stackref (M.Sp - 1 - (i : Int)) = some (b i) ∧
      Live M.heap (c1 :: c2 :: c3 :: c4 :: c5 :: fl) (b i) ∧ M.heap.car (b i) = some (a i)) :
    (m = (n : Int) → ∃ M1, vmRun fuel 2 M = Outcome.ok M1 ∧
      M1.Sp = M.Sp + 3 ∧ M1.Fp = M1.Sp - 4 ∧ M1.Ep = e ∧ M1.Prog = p ∧ M1.Ip = (j : Int) + 3 ∧
      FrameAt M1 n M.Ep (M.Ip + 1) M.Prog M.Fp ∧
      ∀ i, i < n → M1.stackref (M1.Sp - 4 - (i : Int)) = some (b i) ∧
        M1.argref i = some (a i)) ∧
    (m ≠ (n : Int) → ∃ Me, vmRun fuel 2 M = Outcome.error "wrong number of arguments" Me) := by
  obtain ⟨r1, r2⟩ := call_enter fuel k M fl c1 c2 c3 c4 c5 rb j e p buf n cnt m hfree hnd hrts
    hrc hsz hin1 hin2 hin3 hins hcl hcode hb0 hb1 hcnt hfix
  refine ⟨?_, r2⟩
  intro hm
  obtain ⟨M1, e1, x1, s1, f1, ep1, p1, i1, _, fr1, o1⟩ := r1 hm
  refine ⟨M1, e1, s1, by rw [f1, s1]; ring, ep1, p1, i1, hm ▸ fr1, ?_⟩
  intro i hi
  obtain ⟨b1, b2, b3⟩ := hbox i hi
  have hs : M1.stackref (M.Sp - 1 - (i : Int)) = some (b i) := by
    rw [o1 _ (by omega), b1]
  constructor
  · have : M1.Sp - 4 - (i : Int) = M.Sp - 1 - (i : Int) := by rw [s1]; ring
    rw [this, hs]
  · unfold Machine.argref
    rw [f1, hs]
    simp only [Option.bind]
    rw [(live_ext x1 b2).2.1, b3]

/-- C11: after `APPLY` and `ENTER n` on a call with `n` arguments, a
`RETURN` in a state whose stack pointer and frame are those that `ENTER`
left sets `Sp` to its value before the first argument was pushed, `Fp`,
`Ep` and `Prog` to their values at the `APPLY`, `Ip` to the instruction
after the `APPLY`, and leaves `Acc` as it is. -/
theorem call_return_balance (fuel k : Nat) (M : Machine) (fl : List Nat)
    (c1 c2 c3 c4 c5 : Nat) (rb : Int) (j : Nat) (e p : Int) (buf : Nat → Nat) (n : Nat)
    (cnt : Int)
    (hfree : freeChain M.heap k M.Freelist = some (c1 :: c2 :: c3 :: c4 :: c5 :: fl))
    (hnd : (c1 :: c2 :: c3 :: c4 :: c5 :: fl).Nodup)
    (hrts : Live M.heap (c1 :: c2 :: c3 :: c4 :: c5 :: fl) M.Rts)
    (hrc : M.heap.cdr M.Rts = some rb) (hsz : M.Sp + 3 < M.Sz)
    (hin1 : M.heap.inVec (rb + (M.Sp + 1)) = true)
    (hin2 : M.heap.inVec (rb + (M.Sp + 2)) = true)
    (hin3 : M.heap.inVec (rb + (M.Sp + 3)) = true)
    (hins : M.ins = some OP_APPLY)
    (hcl : ClosureAt M.heap (c1 :: c2 :: c3 :: c4 :: c5 :: fl) M.Acc j e p)
    (hcode : ProgAt M.heap (c1 :: c2 :: c3 :: c4 :: c5 :: fl) (frameSlots rb M.Sp) p buf j
      (j + 3))
    (hb0 : buf j = OP_ENTER) (hb1 : (buf (j + 1) <<< 8) ||| buf (j + 2) = n)
    (hcnt : M.stackref M.Sp = some cnt)
    (hfix : FixCell M.heap (c1 :: c2 :: c3 :: c4 :: c5 :: fl) cnt n) :
    ∃ M1, vmRun fuel 2 M = Outcome.ok M1 ∧
      HeapExt M.heap M1.heap (c1 :: c2 :: c3 :: c4 :: c5 :: fl) fl (frameSlots rb M.Sp) ∧
      M1.Sp = M.Sp + 3 ∧ M1.Prog = p ∧ M1.Ip = (j : Int) + 3 ∧ M1.Acc = M.Acc ∧
      FrameAt M1 n M.Ep (M.Ip + 1) M.Prog M.Fp ∧
      ∀ M3, SameFrame M1 M3 → M3.ins = some OP_RETURN →
        ∃ M4, vmStep fuel M3 = Outcome.ok M4 ∧ M4.Sp = M.Sp - (n : Int) - 1 ∧ M4.Fp = M.Fp ∧
          M4.Ep = M.Ep ∧ M4.Prog = M.Prog ∧ M4.Ip = M.Ip + 1 ∧ M4.Acc = M3.Acc := by
  obtain ⟨r1, _⟩ := call_enter fuel k M fl c1 c2 c3 c4 c5 rb j e p buf n cnt n hfree hnd hrts
    hrc hsz hin1 hin2 hin3 hins hcl hcode hb0 hb1 hcnt hfix
  obtain ⟨M1, e1, x1, s1, f1, ep1, p1, i1, acc1, fr1, o1⟩ := r1 rfl
  refine ⟨M1, e1, x1, s1, p1, i1, acc1, fr1, ?_⟩
  intro M3 hsame hret
  obtain ⟨q1, q2, q3, q4, r, q5, q6, q7, q8⟩ := hsame
  obtain ⟨g1, g2, ⟨r0, g3, g4, g5⟩, g6⟩ := fr1
  have hr : r0 = r := by
    rw [g3] at q6
    exact Option.some.inj q6
  subst hr
  have fr3 : FrameAt M3 n M.Ep (M.Ip + 1) M.Prog M.Fp :=
    ⟨q4.trans g1, q3.trans g2, ⟨r0, q5, q7.trans g4, q8.trans g5⟩, q2.trans g6⟩
  refine ⟨{ M3 with Fp := M.Fp, Prog := M.Prog, Ep := M.Ep, Sp := M3.Sp - ((n : Int) + 4), Ip := M.Ip + 1 }, by rw [vmStep_return hret, ret_frame M3 _ _ _ _ _ fr3], ?_, rfl, rfl, rfl, rfl, rfl⟩
  show M3.Sp - ((n : Int) + 4) = M.Sp - (n : Int) - 1
  rw [q1, s1]
  ring

/-- The closure of `callMachine`: the cells 3 to 6, with the entry point 1 in
the fixnum of the cells 7 and 8. -/
theorem callClosure :
    ClosureAt callMachine.heap [13, 14, 15, 16, 17, 18] callMachine.Acc ((1 : Nat) : Int) (-1)
      0 := by
  refine ⟨3, 4, 5, 6, 7, rfl, ?_⟩
  have hlt : 3 < callMachine.heap.nnodes ∧ 4 < callMachine.heap.nnodes ∧
      5 < callMachine.heap.nnodes ∧ 6 < callMachine.heap.nnodes := by decide
  have hfree : 3 ∉ [13, 14, 15, 16, 17, 18] ∧ 4 ∉ [13, 14, 15, 16, 17, 18] ∧
      5 ∉ [13, 14, 15, 16, 17, 18] ∧ 6 ∉ [13, 14, 15, 16, 17, 18] := by decide
  have hfix : FixCell callMachine.heap [13, 14, 15, 16, 17, 18] 7 ((1 : Nat) : Int) := by
    refine ⟨7, 8, rfl, ?_⟩
    decide
  refine ⟨hlt.1, hlt.2.1, hlt.2.2.1, hlt.2.2.2, hfree.1, hfree.2.1, hfree.2.2.1, hfree.2.2.2,
    ?_⟩
  refine ⟨by decide, rfl, rfl, rfl, rfl, rfl, rfl, rfl, hfix⟩

/-- C25, witness: the call of `callMachine` with two arguments. -/
theorem call_frame_layout_witness :
    ∃ M1, vmRun 0 2 callMachine = Outcome.ok M1 ∧
      M1.Sp = 5 ∧ M1.Fp = 1 ∧ M1.Ep = -1 ∧ M1.Prog = 0 ∧ M1.Ip = 4 ∧
      FrameAt M1 2 4 1 0 0 ∧
      ∀ i : Nat, i < 2 → M1.stackref (M1.Sp - 4 - (i : Int)) = some (callBoxes i) ∧
        M1.argref i = some (callArgs i) := by
  obtain ⟨M1, e1, s1, f1, ep1, p1, i1, fr, hb⟩ :=
    (call_frame_layout 0 19 callMachine [18] 13 14 15 16 17 6 1 (-1) 0 callBuf 2 9 2
      callBoxes callArgs (by decide) (by decide) (by decide) (by decide) (by decide)
      (by decide) (by decide) (by decide) (by decide)
      callClosure
      ⟨1, 2, by decide, by decide, by decide, by decide, by decide⟩
      (by decide) (by decide) (by decide)
      ⟨9, 10, by decide, by decide, by decide, by decide, by decide, by decide, by decide,
        by decide, by decide⟩
      (by decide)).1 rfl
  exact ⟨M1, e1, s1, by rw [f1, s1]; rfl, ep1, p1, i1, fr, hb⟩

/-- C11, witness: the call of `callMachine`, whose body is the instruction
`RETURN`; after it the registers are those before the call and the stack
pointer is below the two arguments. -/
theorem call_return_balance_witness :
    ∃ M4, vmRun 0 3 callMachine = Outcome.ok M4 ∧
      M4.Sp = -1 ∧ M4.Fp = 0 ∧ M4.Ep = 4 ∧ M4.Prog = 0 ∧ M4.Ip = 1 ∧ M4.Acc = 3 := by
  have hcode : ProgAt callMachine.heap [13, 14, 15, 16, 17, 18] (frameSlots 6 callMachine.Sp) 0
      callBuf 1 7 := ⟨1, 2, by decide, by decide, by decide, by decide, by decide⟩
  obtain ⟨M1, e1, x1, s1, p1, i1, hacc, fr, H⟩ :=
    call_return_balance 0 19 callMachine [18] 13 14 15 16 17 6 1 (-1) 0 callBuf 2 9
      (by decide) (by decide) (by decide) (by decide) (by decide)
      (by decide) (by decide) (by decide) (by decide)
      callClosure
      ⟨1, 2, by decide, by decide, by decide, by decide, by decide⟩
      (by decide) (by decide) (by decide)
      ⟨9, 10, by decide, by decide, by decide, by decide, by decide, by decide, by decide,
        by decide, by decide⟩
  have hret : M1.ins = some OP_RETURN :=
    (prog_read x1 hcode p1 4 i1 (by decide) (by decide)).1
  obtain ⟨g1, g2, ⟨r, g3, g4, g5⟩, g6⟩ := fr
  obtain ⟨M4, e4, a1, a2, a3, a4, a5, a6⟩ :=
    H M1 ⟨rfl, rfl, rfl, rfl, r, g3, g3, rfl, rfl⟩ hret
  refine ⟨M4, ?_, a1, a2, a3, a4, a5, a6.trans hacc⟩
  show (vmStep 0 callMachine).bind (fun Ma => (vmStep 0 Ma).bind
    (fun Mb => (vmStep 0 Mb).bind (vmRun 0 0))) = _
  rw [vmRun_two] at e1
  obtain ⟨Ma, ha, hb⟩ := bind_eq_ok e1
  rw [ha, bind_ok, hb, bind_ok, e4, bind_ok]
  rfl

/-! ## C26: captured variables share their box -/

theorem vset_read {h h1 : Heap} {w x : Int} (hs : h.vset w x = some h1) :
    h1.vref w = some x ∧ (∀ u, u ≠ w → h1.vref u = h.vref u) ∧
    (∀ c, h1.car c = h.car c ∧ h1.cdr c = h.cdr c) := by
  unfold Heap.vset at hs
  by_cases hin : h.inVec w = true
  · rw [if_pos hin] at hs
    have e := Option.some.inj hs
    subst e
    refine ⟨?_, ?_, fun c => ⟨rfl, rfl⟩⟩
    · simp only [Heap.vref]
      rw [if_pos (by exact hin)]
      simp [upd]
    · intro u hu
      simp only [Heap.vref, Heap.inVec, upd]
      by_cases hv : (decide (0 ≤ u) && decide (u < (h.nvcells : Int))) = true
      · rw [if_pos hv, if_pos hv]
        simp only [Bool.and_eq_true, decide_eq_true_eq] at hv
        simp only [Heap.inVec, Bool.and_eq_true, decide_eq_true_eq] at hin
        have : u.toNat ≠ w.toNat := by omega
        rw [if_neg this]
      · rw [if_neg hv, if_neg hv]
  · rw [if_neg hin] at hs
    exact absurd hs (by simp)

theorem setCar_read {h h1 : Heap} {b x : Int} (hs : h.setCar b x = some h1) :
    h1.car b = some x ∧ (∀ c, h1.cdr c = h.cdr c) ∧ (∀ u, h1.vref u = h.vref u) := by
  unfold Heap.setCar at hs
  by_cases hin : h.inNodes b = true
  · rw [if_pos hin] at hs
    have e := Option.some.inj hs
    subst e
    refine ⟨?_, fun c => rfl, fun u => rfl⟩
    simp only [Heap.car]
    rw [if_pos (by exact hin)]
    simp [upd]
  · rw [if_neg hin] at hs
    exact absurd hs (by simp)

/-- The reads of a stack slot and of an environment slot depend on the `cdr`
of the cells and on the arena only. -/
theorem slots_congr {M N : Machine} (hc : ∀ c, N.heap.cdr c = M.heap.cdr c)
    (hv : ∀ u, N.heap.vref u = M.heap.vref u) :
    (N.Rts = M.Rts → N.Fp = M.Fp → ∀ i, N.argbox i = M.argbox i) ∧
    (N.Ep = M.Ep → ∀ i, N.envbox i = M.envbox i) := by
  constructor
  · intro h1 h2 i
    simp only [Machine.argbox, Machine.stackref, h1, h2, hc, hv]
  · intro h1 i
    simp only [Machine.envbox, h1, hc, hv]

/-- A store through `boxset` and the reads of the box that follow it. -/
theorem setBox_shared (H : Machine) (b : Int) (hb : H.heap.inNodes b = true) :
    ∃ H1, setBox H b = Outcome.ok H1 ∧ H1.heap.car b = some H.Acc ∧
      (∀ c, H1.heap.cdr c = H.heap.cdr c) ∧ (∀ u, H1.heap.vref u = H.heap.vref u) ∧
      (∀ (R : Machine) (i : Nat), R.heap = H1.heap → R.argbox i = some b →
        R.op1 = some i → opArg R = Outcome.ok { R with Acc := H.Acc, Ip := R.Ip + ISIZE1 }) ∧
      (∀ (R : Machine) (j : Nat), R.heap = H1.heap → R.envbox j = some b →
        R.op1 = some j → H.Acc ≠ UNDEF →
        opRef R = Outcome.ok { R with Acc := H.Acc, Ip := R.Ip + ISIZE2 }) := by
  have hs : H.heap.setCar b H.Acc =
      some { H.heap with Car := upd H.heap.Car b.toNat H.Acc } := by
    unfold Heap.setCar
    rw [if_pos hb]
  obtain ⟨r1, r2, r3⟩ := setCar_read hs
  refine ⟨{ H with heap := { H.heap with Car := upd H.heap.Car b.toNat H.Acc }, Ip := H.Ip + ISIZE1 }, ?_, r1, r2, r3, ?_, ?_⟩
  · unfold setBox
    rw [hs]
  · intro R i hh ha ho
    unfold opArg
    rw [ho]
    simp only
    have : R.argref i = some H.Acc := by
      unfold Machine.argref
      have ha2 : R.stackref (R.Fp - (i : Int)) = some b := ha
      rw [ha2]
      simp only [Option.bind]
      rw [hh]
      exact r1
    rw [this]
  · intro R j hh he ho hx
    unfold opRef
    rw [ho]
    simp only
    rw [he]
    simp only [Option.bind]
    rw [hh, r1]
    simp only
    rw [if_neg hx]

theorem vset_keeps {h h1 : Heap} {w b : Int} (hs : h.vset w b = some h1) (u : Int)
    (hu : h.vref u = some b) : h1.vref u = some b := by
  obtain ⟨r1, r2, _⟩ := vset_read hs
  by_cases e : u = w
  · rw [e]; exact r1
  · rw [r2 u e]; exact hu

theorem vset_nnodes {h h1 : Heap} {w b : Int} (hs : h.vset w b = some h1) :
    h1.nnodes = h.nnodes := by
  unfold Heap.vset at hs
  split at hs
  · have e := Option.some.inj hs
    subst e
    rfl
  · exact absurd hs (by simp)

theorem envbox_of {N : Machine} {ev b : Int} {j : Int} (hc : N.heap.cdr N.Ep = some ev)
    (hv : N.heap.vref (ev + j) = some b) : N.envbox j = some b := by
  unfold Machine.envbox
  rw [hc]
  exact hv

theorem envbox_inv {N : Machine} {b : Int} {j : Int} (h : N.envbox j = some b) :
    ∃ ev, N.heap.cdr N.Ep = some ev ∧ N.heap.vref (ev + j) = some b := by
  unfold Machine.envbox at h
  cases hc : N.heap.cdr N.Ep with
  | none => rw [hc] at h; exact absurd h (by simp)
  | some ev => rw [hc] at h; exact ⟨ev, rfl, h⟩

theorem argbox_of {N : Machine} {rb b : Int} {i : Int} (hc : N.heap.cdr N.Rts = some rb)
    (hv : N.heap.vref (rb + (N.Fp - i)) = some b) : N.argbox i = some b := by
  unfold Machine.argbox Machine.stackref
  rw [hc]
  exact hv

theorem argbox_inv {N : Machine} {b : Int} {i : Int} (h : N.argbox i = some b) :
    ∃ rb, N.heap.cdr N.Rts = some rb ∧ N.heap.vref (rb + (N.Fp - i)) = some b := by
  unfold Machine.argbox Machine.stackref at h
  cases hc : N.heap.cdr N.Rts with
  | none => rw [hc] at h; exact absurd h (by simp)
  | some rb => rw [hc] at h; exact ⟨rb, rfl, h⟩

/-- The assignment `vector(Acc)[j] = b`. -/
theorem setEnvSlot_ok (M : Machine) (j : Nat) (ev b : Int)
    (hv : M.heap.cdr M.Acc = some ev) (hin : M.heap.inVec (ev + j) = true) :
    ∃ M1, setEnvSlot M j b = Outcome.ok M1 ∧ M1.Rts = M.Rts ∧ M1.Fp = M.Fp ∧
      M1.heap.nnodes = M.heap.nnodes ∧
      (∀ c, M1.heap.cdr c = M.heap.cdr c) ∧ M1.heap.vref (ev + j) = some b ∧
      (∀ u, M.heap.vref u = some b → M1.heap.vref u = some b) := by
  have hs : M.heap.vset (ev + j) b =
      some { M.heap with Vectors := upd M.heap.Vectors (ev + j).toNat b } := by
    unfold Heap.vset
    rw [if_pos hin]
  obtain ⟨r1, r2, r3⟩ := vset_read hs
  refine ⟨{ M with heap := { M.heap with Vectors := upd M.heap.Vectors (ev + j).toNat b }, Ip := M.Ip + ISIZE2 }, ?_, rfl, rfl, rfl, fun c => (r3 c).2, r1, fun u hu => vset_keeps hs u hu⟩
  unfold setEnvSlot
  rw [hv]
  simp only
  rw [hs]

theorem inNodes_congr {h h1 : Heap} (hn : h1.nnodes = h.nnodes) (b : Int) :
    h1.inNodes b = h.inNodes b := by
  simp only [Heap.inNodes, hn]

/-- Two holders of a box on one heap: a frame that reaches the box `b` as
`argbox(i)` and a closure whose environment `env` holds `b` in slot `j`. A
value stored through one of them is the value read through the other. -/
theorem frame_closure_shared (N : Machine) (rts fp env rb ev b : Int) (i j : Nat)
    (hb : N.heap.inNodes b = true)
    (hr : N.heap.cdr rts = some rb) (ha : N.heap.vref (rb + (fp - (i : Int))) = some b)
    (he : N.heap.cdr env = some ev) (hs : N.heap.vref (ev + (j : Int)) = some b) :
    (∀ F : Machine, F.heap = N.heap → F.Rts = rts → F.Fp = fp → F.op1 = some i →
      ∃ F1, opSetarg F = Outcome.ok F1 ∧
        ∀ C : Machine, C.heap = F1.heap → C.Ep = env → C.op1 = some j → F.Acc ≠ UNDEF →
          opRef C = Outcome.ok { C with Acc := F.Acc, Ip := C.Ip + ISIZE2 }) ∧
    (∀ C : Machine, C.heap = N.heap → C.Ep = env → C.op1 = some j →
      ∃ C1, opSetref C = Outcome.ok C1 ∧
        ∀ F : Machine, F.heap = C1.heap → F.Rts = rts → F.Fp = fp → F.op1 = some i →
          opArg F = Outcome.ok { F with Acc := C.Acc, Ip := F.Ip + ISIZE1 }) := by
  constructor
  · intro F hh h1 h2 ho
    have hab : F.argbox i = some b :=
      argbox_of (by rw [hh, h1]; exact hr) (by rw [hh, h2]; exact ha)
    obtain ⟨F1, e1, _, k1, v1, _, rd⟩ := setBox_shared F b (by rw [hh]; exact hb)
    refine ⟨F1, ?_, ?_⟩
    · unfold opSetarg
      rw [ho]
      simp only
      rw [hab]
      exact e1
    · intro C hc hep hop hx
      exact rd C j hc (envbox_of (by rw [hc, k1, hh, hep]; exact he)
        (by rw [hc, v1, hh]; exact hs)) hop hx
  · intro C hh hep ho
    have heb : C.envbox j = some b :=
      envbox_of (by rw [hh, hep]; exact he) (by rw [hh]; exact hs)
    obtain ⟨C1, e1, _, k1, v1, rd, _⟩ := setBox_shared C b (by rw [hh]; exact hb)
    refine ⟨C1, ?_, ?_⟩
    · unfold opSetref
      rw [ho]
      simp only
      rw [heb]
      exact e1
    · intro F hf h1 h2 hop
      exact rd F i hf (argbox_of (by rw [hf, k1, hh, h1]; exact hr)
        (by rw [hf, v1, hh, h2]; exact ha)) hop

/-- Two closures that hold one box on one heap: the environment `env1` holds
`b` in slot `i`, the environment `env2` holds it in slot `j`. A value stored
through the first is the value read through the second. -/
theorem closures_shared (N : Machine) (env1 env2 e1 e2 b : Int) (i j : Nat)
    (hb : N.heap.inNodes b = true)
    (h1 : N.heap.cdr env1 = some e1) (s1 : N.heap.vref (e1 + (i : Int)) = some b)
    (h2 : N.heap.cdr env2 = some e2) (s2 : N.heap.vref (e2 + (j : Int)) = some b) :
    ∀ A : Machine, A.heap = N.heap → A.Ep = env1 → A.op1 = some i →
      ∃ A1, opSetref A = Outcome.ok A1 ∧
        ∀ C : Machine, C.heap = A1.heap → C.Ep = env2 → C.op1 = some j → A.Acc ≠ UNDEF →
          opRef C = Outcome.ok { C with Acc := A.Acc, Ip := C.Ip + ISIZE2 } := by
  intro A hh hep ho
  have heb : A.envbox i = some b :=
    envbox_of (by rw [hh, hep]; exact h1) (by rw [hh]; exact s1)
  obtain ⟨A1, e, _, k1, v1, _, rd⟩ := setBox_shared A b (by rw [hh]; exact hb)
  refine ⟨A1, ?_, ?_⟩
  · unfold opSetref
    rw [ho]
    simp only
    rw [heb]
    exact e
  · intro C hc hep2 hop hx
    exact rd C j hc (envbox_of (by rw [hc, k1, hh, hep2]; exact h2)
      (by rw [hc, v1, hh]; exact s2)) hop hx

/-- C26: `CPARG i j` stores the cell `argbox(i)` of the creating frame, and
`CPREF i j` the cell `envbox(i)` of the current environment, in slot `j` of
the new environment vector in `Acc`; the frame or the current closure still
holds the same cell. Hence in every later state on that heap a value stored
by `SETARG i` in the frame is the value read by `REF j` in a closure over
the new environment, a value stored by `SETREF j` in such a closure is the
value read by `ARG i` in the frame, and a value stored by `SETREF i` in the
current closure is the value read by `REF j` in the new one. -/
theorem captured_box_shared (M : Machine) (i j : Nat) (ev b : Int)
    (h1 : M.op1 = some i) (h2 : M.op2 = some j)
    (hv : M.heap.cdr M.Acc = some ev) (hin : M.heap.inVec (ev + (j : Int)) = true)
    (hb : M.heap.inNodes b = true) :
    (M.argbox i = some b → ∃ M1, opCparg M = Outcome.ok M1 ∧
      M1.argbox i = some b ∧
      (∀ C : Machine, C.heap = M1.heap → C.Ep = M.Acc → C.envbox j = some b) ∧
      (∀ F : Machine, F.heap = M1.heap → F.Rts = M.Rts → F.Fp = M.Fp → F.op1 = some i →
        ∃ F1, opSetarg F = Outcome.ok F1 ∧
          ∀ C : Machine, C.heap = F1.heap → C.Ep = M.Acc → C.op1 = some j → F.Acc ≠ UNDEF →
            opRef C = Outcome.ok { C with Acc := F.Acc, Ip := C.Ip + ISIZE2 }) ∧
      (∀ C : Machine, C.heap = M1.heap → C.Ep = M.Acc → C.op1 = some j →
        ∃ C1, opSetref C = Outcome.ok C1 ∧
          ∀ F : Machine, F.heap = C1.heap → F.Rts = M.Rts → F.Fp = M.Fp → F.op1 = some i →
            opArg F = Outcome.ok { F with Acc := C.Acc, Ip := F.Ip + ISIZE1 })) ∧
    (M.envbox i = some b → ∃ M1, opCpref M = Outcome.ok M1 ∧
      (∀ A : Machine, A.heap = M1.heap → A.Ep = M.Ep → A.envbox i = some b) ∧
      (∀ C : Machine, C.heap = M1.heap → C.Ep = M.Acc → C.envbox j = some b) ∧
      (∀ A : Machine, A.heap = M1.heap → A.Ep = M.Ep → A.op1 = some i →
        ∃ A1, opSetref A = Outcome.ok A1 ∧
          ∀ C : Machine, C.heap = A1.heap → C.Ep = M.Acc → C.op1 = some j → A.Acc ≠ UNDEF →
            opRef C = Outcome.ok { C with Acc := A.Acc, Ip := C.Ip + ISIZE2 })) := by
  obtain ⟨M1, e1, rt1, fp1, n1, k1, s1, p1⟩ := setEnvSlot_ok M j ev b hv hin
  have hb1 : M1.heap.inNodes b = true := by rw [inNodes_congr n1]; exact hb
  have hev : M1.heap.cdr M.Acc = some ev := by rw [k1]; exact hv
  constructor
  · intro ha
    obtain ⟨rb, c1, v1⟩ := argbox_inv ha
    have hr1 : M1.heap.cdr M.Rts = some rb := by rw [k1]; exact c1
    have hv1 : M1.heap.vref (rb + (M.Fp - (i : Int))) = some b := p1 _ v1
    obtain ⟨q1, q2⟩ := frame_closure_shared M1 M.Rts M.Fp M.Acc rb ev b i j hb1 hr1 hv1 hev s1
    refine ⟨M1, ?_, argbox_of (by rw [rt1]; exact hr1) (by rw [fp1]; exact hv1), ?_, q1, q2⟩
    · unfold opCparg
      rw [h1, h2]
      simp only
      rw [ha]
      exact e1
    · intro C hc hep
      exact envbox_of (by rw [hc, hep]; exact hev) (by rw [hc]; exact s1)
  · intro he
    obtain ⟨eo, c1, v1⟩ := envbox_inv he
    have hr1 : M1.heap.cdr M.Ep = some eo := by rw [k1]; exact c1
    have hv1 : M1.heap.vref (eo + (i : Int)) = some b := p1 _ v1
    refine ⟨M1, ?_, ?_, ?_, closures_shared M1 M.Ep M.Acc eo ev b i j hb1 hr1 hv1 hev s1⟩
    · unfold opCpref
      rw [h1, h2]
      simp only
      rw [he]
      exact e1
    · intro A hc hep
      exact envbox_of (by rw [hc, hep]; exact hr1) (by rw [hc]; exact hv1)
    · intro C hc hep
      exact envbox_of (by rw [hc, hep]; exact hev) (by rw [hc]; exact s1)

/-- C26, witness: `CPARG 0 0` in the frame of `captMachine` puts the box of
the argument, cell 4, into the new environment; run on the machine, a value
stored by `SETARG 0` in the frame is read by `REF 0` in the closure. -/
theorem captured_box_shared_witness :
    (∃ M1, opCparg captMachine = Outcome.ok M1 ∧ M1.argbox 0 = some 4 ∧
      ∀ C : Machine, C.heap = M1.heap → C.Ep = 3 → C.envbox 0 = some 4) ∧
    captRun 5 = some 5 := by
  obtain ⟨M1, e1, a1, c1, _, _⟩ :=
    (captured_box_shared captMachine 0 0 11 4 (by decide) (by decide) (by decide) (by decide)
      (by decide)).1 (by decide)
  exact ⟨⟨M1, e1, a1, c1⟩, by decide⟩

/-! ## C32, C33: operands and the layout of a conditional -/

theorem emitarg_toOption (i : Int) (s : Emit) : emitarg i s = (emitargE i s).toOption := by
  unfold emitarg emitargE
  split <;> rfl

theorem patch_toOption (a n : Int) (s : Emit) : patch a n s = (patchE a n s).toOption := by
  unfold patch patchE
  split
  · rfl
  · split <;> rfl

theorem fetch_bytes_nat (i : Int) (h0 : 0 ≤ i) (h1 : i ≤ 65535) :
    (((i / 256).toNat <<< 8) ||| (i % 256).toNat) = i.toNat := by
  have := fetch_bytes i h0 h1
  have e1 : (i / 256) % 256 = i / 256 := by omega
  have e2 : (i % 256) % 256 = i % 256 := by omega
  rw [e1, e2] at this
  exact this

/-- Claim C32: for `0 ≤ i ≤ 65535`, `emitarg(i)` stores at `Here` the high
byte `i / 256` and then the low byte `i % 256`, moves `Here` by two and
leaves the other bytes, and `fetcharg` at that offset gives `i`; `patch(a,
i)` stores the same two bytes at `a` and `a+1`, leaves `Here` and the other
bytes, and `fetcharg` at `a` gives `i`.  Outside the range both raise
"bytecode argument out of range" with the state they were given: nothing
was written. -/
theorem operand_round_trip (i : Int) (s : Emit) :
    (0 ≤ i ∧ i ≤ 65535 →
      (∃ s1, emitargE i s = Emitted.ok s1 ∧ s1.Here = s.Here + 2 ∧
        s1.buf s.Here = (i / 256).toNat ∧ s1.buf (s.Here + 1) = (i % 256).toNat ∧
        s1.buf s.Here < 256 ∧ s1.buf (s.Here + 1) < 256 ∧
        fetcharg s1.buf s.Here = i.toNat ∧
        (∀ j, j ≠ s.Here → j ≠ s.Here + 1 → s1.buf j = s.buf j)) ∧
      (∀ a : Nat, ∃ s1, patchE a i s = Emitted.ok s1 ∧ s1.Here = s.Here ∧
        s1.buf a = (i / 256).toNat ∧ s1.buf (a + 1) = (i % 256).toNat ∧
        s1.buf a < 256 ∧ s1.buf (a + 1) < 256 ∧
        fetcharg s1.buf a = i.toNat ∧
        (∀ j, j ≠ a → j ≠ a + 1 → s1.buf j = s.buf j))) ∧
    (i < 0 ∨ i > 65535 →
      emitargE i s = Emitted.error "bytecode argument out of range" i s ∧
      ∀ a : Int, patchE a i s = Emitted.error "bytecode argument out of range" i s) := by
  refine ⟨?_, ?_⟩
  · rintro ⟨h0, h1⟩
    have hr : ¬ (i < 0 ∨ i > 65535) := by omega
    have eh : ((i / 256) % 256).toNat = (i / 256).toNat := by
      have : (i / 256) % 256 = i / 256 := by omega
      rw [this]
    have el : ((i % 256) % 256).toNat = (i % 256).toNat := by
      have : (i % 256) % 256 = i % 256 := by omega
      rw [this]
    have bh : (i / 256).toNat < 256 := by omega
    have bl : (i % 256).toNat < 256 := by omega
    refine ⟨?_, ?_⟩
    · refine ⟨emit (i % 256) (emit (i / 256) s), ?_, rfl, ?_, ?_, ?_, ?_, ?_, ?_⟩
      · unfold emitargE
        rw [if_neg hr]
      · have n1 : s.Here ≠ s.Here + 1 := by omega
        simp only [emit, upd, if_neg n1, if_true]
        exact eh
      · simp only [emit, upd, if_true]
        exact el
      · have n1 : s.Here ≠ s.Here + 1 := by omega
        simp only [emit, upd, if_neg n1, if_true]
        rw [eh]; exact bh
      · simp only [emit, upd, if_true]
        rw [el]; exact bl
      · have n1 : s.Here ≠ s.Here + 1 := by omega
        simp only [fetcharg, emit, upd, if_neg n1, if_true]
        rw [eh, el]
        exact fetch_bytes_nat i h0 h1
      · intro j j0 j1
        simp only [emit, upd, if_neg j0, if_neg j1]
    · intro a
      refine ⟨{ s with buf := upd (upd s.buf a (i / 256).toNat) (a + 1) (i % 256).toNat }, ?_, rfl, ?_, ?_, ?_, ?_, ?_, ?_⟩
      · unfold patchE
        rw [if_neg hr, if_neg (by omega)]
        simp
      · have n1 : a ≠ a + 1 := by omega
        simp only [upd, if_neg n1, if_true]
      · simp only [upd, if_true]
      · have n1 : a ≠ a + 1 := by omega
        simp only [upd, if_neg n1, if_true]
        exact bh
      · simp only [upd, if_true]
        exact bl
      · have n1 : a ≠ a + 1 := by omega
        simp only [fetcharg, upd, if_neg n1, if_true]
        exact fetch_bytes_nat i h0 h1
      · intro j j0 j1
        simp only [upd, if_neg j0, if_neg j1]
  · intro h
    refine ⟨?_, ?_⟩
    · unfold emitargE
      rw [if_pos h]
    · intro a
      unfold patchE
      rw [if_pos h]

theorem operand_round_trip_witness :
    ((0 : Int) ≤ 300 ∧ (300 : Int) ≤ 65535) ∧
    (∃ s1, emitargE 300 emptyEmit = Emitted.ok s1 ∧ s1.buf 0 = 1 ∧ s1.buf 1 = 44 ∧
      fetcharg s1.buf 0 = 300) ∧
    ((70000 : Int) < 0 ∨ (70000 : Int) > 65535) ∧
    emitargE 70000 emptyEmit = Emitted.error "bytecode argument out of range" 70000 emptyEmit :=
  ⟨by decide,
    by
      obtain ⟨s1, h, _, h0, h1, _, _, hf, _⟩ :=
        ((operand_round_trip 300 emptyEmit).1 (by decide)).1
      exact ⟨s1, h, h0, h1, hf⟩,
    by decide, ((operand_round_trip 70000 emptyEmit).2 (by decide)).1⟩

theorem bytes_length (s : Emit) : s.bytes.length = s.Here := by
  simp [Emit.bytes]

theorem emitAll_Cts : ∀ (bs : List Nat) (s : Emit), (emitAll bs s).Cts = s.Cts
  | [], _ => rfl
  | b :: bs, s => by
    have e : emitAll (b :: bs) s = emitAll bs (emit (b : Int) s) := rfl
    rw [e, emitAll_Cts bs]
    rfl

theorem bytes_upd (s : Emit) (i v : Nat) (f : Emit) (hb : f.buf = upd s.buf i v)
    (hh : f.Here = s.Here) : f.bytes = s.bytes.set i v := by
  apply List.ext_getElem
  · simp [Emit.bytes, hh]
  · intro n h1 h2
    simp only [Emit.bytes, List.getElem_map, List.getElem_range, List.getElem_set, hb, upd]
    by_cases h : n = i
    · simp [h]
    · have : ¬ i = n := fun e => h e.symm
      simp [h, this]

theorem set_hole : ∀ (P : List Nat) (x y u v : Nat) (Q : List Nat),
    ((P ++ x :: y :: Q).set P.length u).set (P.length + 1) v = P ++ u :: v :: Q
  | [], _, _, _, _, _ => rfl
  | p :: P, x, y, u, v, Q => by
    simp only [List.cons_append, List.length_cons, List.set_cons_succ]
    rw [set_hole P]

/-- The bytes after `patch(a, n)` on a hole of two bytes at `a`. -/
theorem patch_hole (s : Emit) (P Q : List Nat) (x y : Nat) (n : Nat) (hn : n ≤ 65535)
    (hs : s.bytes = P ++ x :: y :: Q) :
    ∃ s1, patch (P.length : Nat) (n : Nat) s = some s1 ∧ s1.bytes = P ++ (n / 256) :: (n % 256) :: Q ∧
      s1.Cts = s.Cts ∧ s1.Here = s.Here := by
  have e1 : ((n : Int) / 256).toNat = n / 256 := by omega
  have e2 : ((n : Int) % 256).toNat = n % 256 := by omega
  refine ⟨{ s with buf := upd (upd s.buf P.length (n / 256)) (P.length + 1) (n % 256) }, ?_, ?_, rfl, rfl⟩
  · unfold patch
    rw [if_neg (by omega), if_neg (by omega)]
    simp only [Int.toNat_ofNat, e1, e2]
  · have h1 := bytes_upd s P.length (n / 256) { s with buf := upd s.buf P.length (n / 256) } rfl rfl
    have h2 := bytes_upd { s with buf := upd s.buf P.length (n / 256) } (P.length + 1) (n % 256)
      { s with buf := upd (upd s.buf P.length (n / 256)) (P.length + 1) (n % 256) } rfl rfl
    rw [h2, h1, hs, set_hole]

/-- The state after `emitop(op); cpushval(Here); emitarg(0)`. -/
theorem hole_spec (op : Nat) (hop : op < 256) (s : Emit) :
    ∃ s4, emitarg 0 (cpushval ((emitop (op : Nat) s).Here : Nat) (emitop (op : Nat) s)) = some s4 ∧
      s4.bytes = s.bytes ++ [op, 0, 0] ∧ s4.Cts = ((s.Here + 1 : Nat) : Int) :: s.Cts := by
  refine ⟨_, rfl, ?_, rfl⟩
  rw [bytes_emit, bytes_emit]
  have : (cpushval ((emitop (op : Nat) s).Here : Nat) (emitop (op : Nat) s)).bytes =
      (emitop (op : Nat) s).bytes := rfl
  rw [this, bytes_emitop]
  have e1 : (((op : Nat) : Int) % 256).toNat = op := by omega
  rw [e1]
  simp

theorem ceAt_spec (code : Sx → Bool → Nat → List Nat) (hc : ∀ a t p, ∀ b ∈ code a t p, b < 256)
    (a : Sx) (t : Bool) (s : Emit) :
    ∃ s1, ceAt code a t s = some s1 ∧ s1.bytes = s.bytes ++ code a t s.Here ∧ s1.Cts = s.Cts :=
  ⟨_, rfl, bytes_emitAll _ _ (hc a t s.Here), emitAll_Cts _ _⟩

theorem here_of_bytes (s : Emit) (l : List Nat) (h : s.bytes = l) : s.Here = l.length := by
  rw [← h, bytes_length]

theorem cpopval_spec (s : Emit) (x : Int) (r : List Int) (h : s.Cts = x :: r) :
    ∃ s1, cpopval s = some (x, s1) ∧ s1.bytes = s.bytes ∧ s1.Cts = r ∧ s1.Here = s.Here := by
  refine ⟨{ s with Cts := r }, ?_, rfl, rfl, rfl⟩
  unfold cpopval
  rw [h]

theorem swap_spec (s : Emit) (x y : Int) (r : List Int) (h : s.Cts = x :: y :: r) :
    ∃ s1, swap s = some s1 ∧ s1.bytes = s.bytes ∧ s1.Cts = y :: x :: r ∧ s1.Here = s.Here := by
  refine ⟨{ s with Cts := y :: x :: r }, ?_, rfl, rfl, rfl⟩
  unfold swap
  rw [h]

theorem compif_two (code : Sx → Bool → Nat → List Nat)
    (hc : ∀ a t p, ∀ b ∈ code a t p, b < 256) (h c a : Sx) (t star : Bool) (s : Emit)
    (hn : s.Here + (ifCode code c a none t star s.Here).length ≤ 65535) :
    ∃ s1, compif (ceAt code) (Sx.cons h (Sx.ofList [c, a])) t star s = some s1 ∧
      s1.bytes = s.bytes ++ ifCode code c a none t star s.Here ∧ s1.Cts = s.Cts := by
  have hB := bytes_length s
  obtain ⟨sc, hsc, bc, cc⟩ := ceAt_spec code hc c false s
  have lc : sc.Here = s.Here + (code c false s.Here).length := by
    rw [← bytes_length sc, bc, List.length_append, hB]
  have hbr : (if star then OP_BRT else OP_BRF) < 256 := by cases star <;> decide
  obtain ⟨s4, hs4, b4, c4⟩ := hole_spec (if star then OP_BRT else OP_BRF) hbr sc
  have l4 : s4.Here = s.Here + (code c false s.Here).length + 3 := by
    rw [← bytes_length s4, b4, List.length_append, bytes_length, lc]
    rfl
  obtain ⟨s5, hs5, b5, c5⟩ := ceAt_spec code hc a t s4
  rw [l4] at b5
  have l5 : s5.Here = s.Here + (code c false s.Here).length + 3 +
      (code a t (s.Here + (code c false s.Here).length + 3)).length := by
    rw [← bytes_length s5, b5, List.length_append, bytes_length, l4]
  rw [c4] at c5
  obtain ⟨s7, hs7, b7, c7, h7⟩ := cpopval_spec s5 _ _ c5
  have e7 : s7.bytes = (sc.bytes ++ [if star then OP_BRT else OP_BRF]) ++
      0 :: 0 :: code a t (s.Here + (code c false s.Here).length + 3) := by
    rw [b7, b5, b4]
    simp
  have hl : s7.Here ≤ 65535 := by
    rw [h7, l5]
    simp only [ifCode, List.length_append, List.length_cons, List.length_nil] at hn
    omega
  obtain ⟨s1, hs1, b1, c1, h1⟩ := patch_hole s7 _ _ 0 0 s7.Here hl e7
  have lP : (sc.bytes ++ [if star then OP_BRT else OP_BRF]).length = sc.Here + 1 := by
    rw [List.length_append, bytes_length]
    rfl
  rw [lP] at hs1
  refine ⟨s1, ?_, ?_, ?_⟩
  · simp only [compif, Sx.ofList, Sx.cadr, Sx.caddr, Sx.cdddr, Sx.cddr, Sx.cdr, Sx.car,
      Option.bind_eq_bind, Option.some_bind, hsc]
    have eb : (((if star then OP_BRT else OP_BRF : Nat) : Nat) : Int) =
        if star then (OP_BRT : Int) else (OP_BRF : Int) := by cases star <;> rfl
    rw [eb] at hs4
    have en : (Sx.atom NIL).is NIL = true := by simp [Sx.is]
    rw [hs4]
    simp only [Option.some_bind, hs5, en, if_true, hs7, hs1]
  · rw [b1, bc, h7, l5]
    simp [ifCode]
  · rw [c1, c7, cc]

theorem compif_three (code : Sx → Bool → Nat → List Nat)
    (hc : ∀ a t p, ∀ b ∈ code a t p, b < 256) (h c a b : Sx) (t star : Bool) (s : Emit)
    (hn : s.Here + (ifCode code c a (some b) t star s.Here).length ≤ 65535) :
    ∃ s1, compif (ceAt code) (Sx.cons h (Sx.ofList [c, a, b])) t star s = some s1 ∧
      s1.bytes = s.bytes ++ ifCode code c a (some b) t star s.Here ∧ s1.Cts = s.Cts := by
  have hB := bytes_length s
  simp only [ifCode, List.length_append, List.length_cons, List.length_nil] at hn
  obtain ⟨sc, hsc, bc, cc⟩ := ceAt_spec code hc c false s
  have lc : sc.Here = s.Here + (code c false s.Here).length := by
    rw [← bytes_length sc, bc, List.length_append, hB]
  have hbr : (if star then OP_BRT else OP_BRF) < 256 := by cases star <;> decide
  obtain ⟨s4, hs4, b4, c4⟩ := hole_spec (if star then OP_BRT else OP_BRF) hbr sc
  have l4 : s4.Here = s.Here + (code c false s.Here).length + 3 := by
    rw [← bytes_length s4, b4, List.length_append, bytes_length, lc]
    rfl
  obtain ⟨s5, hs5, b5, c5⟩ := ceAt_spec code hc a t s4
  rw [l4] at b5
  have l5 : s5.Here = s.Here + (code c false s.Here).length + 3 +
      (code a t (s.Here + (code c false s.Here).length + 3)).length := by
    rw [← bytes_length s5, b5, List.length_append, bytes_length, l4]
  rw [c4] at c5
  -- the jump over the alternative
  obtain ⟨s8, hs8, b8, c8⟩ := hole_spec OP_JMP (by decide) s5
  rw [c5] at c8
  have l8 : s8.Here = s5.Here + 3 := by
    rw [← bytes_length s8, b8, List.length_append, bytes_length]
    rfl
  obtain ⟨s9, hs9, b9, c9, h9⟩ := swap_spec s8 _ _ _ c8
  obtain ⟨s10, hs10, b10, c10, h10⟩ := cpopval_spec s9 _ _ c9
  have e10 : s10.bytes = (sc.bytes ++ [if star then OP_BRT else OP_BRF]) ++
      0 :: 0 :: (code a t (s.Here + (code c false s.Here).length + 3) ++ [OP_JMP, 0, 0]) := by
    rw [b10, b9, b8, b5, b4]
    simp
  have hl10 : s10.Here ≤ 65535 := by
    rw [h10, h9, l8, l5]
    omega
  obtain ⟨s11, hs11, b11, c11, h11⟩ := patch_hole s10 _ _ 0 0 s10.Here hl10 e10
  have lP : (sc.bytes ++ [if star then OP_BRT else OP_BRF]).length = sc.Here + 1 := by
    rw [List.length_append, bytes_length]
    rfl
  rw [lP] at hs11
  have l11 : s11.Here = s.Here + (code c false s.Here).length + 3 +
      (code a t (s.Here + (code c false s.Here).length + 3)).length + 3 := by
    rw [h11, h10, h9, l8, l5]
  -- the alternative
  obtain ⟨s12, hs12, b12, c12⟩ := ceAt_spec code hc b t s11
  rw [l11] at b12
  have l12 : s12.Here = s.Here + (code c false s.Here).length + 3 +
      (code a t (s.Here + (code c false s.Here).length + 3)).length + 3 +
      (code b t (s.Here + (code c false s.Here).length + 3 +
        (code a t (s.Here + (code c false s.Here).length + 3)).length + 3)).length := by
    rw [← bytes_length s12, b12, List.length_append, bytes_length, l11]
  rw [c11, c10] at c12
  obtain ⟨s13, hs13, b13, c13, h13⟩ := cpopval_spec s12 _ _ c12
  have e13 : s13.bytes = (sc.bytes ++ [if star then OP_BRT else OP_BRF, s10.Here / 256,
      s10.Here % 256] ++ code a t (s.Here + (code c false s.Here).length + 3) ++ [OP_JMP]) ++
      0 :: 0 :: code b t (s.Here + (code c false s.Here).length + 3 +
        (code a t (s.Here + (code c false s.Here).length + 3)).length + 3) := by
    rw [b13, b12, b11]
    simp
  have hl13 : s13.Here ≤ 65535 := by
    rw [h13, l12]
    omega
  obtain ⟨s14, hs14, b14, c14, h14⟩ := patch_hole s13 _ _ 0 0 s13.Here hl13 e13
  have lQ : (sc.bytes ++ [if star then OP_BRT else OP_BRF, s10.Here / 256,
      s10.Here % 256] ++ code a t (s.Here + (code c false s.Here).length + 3) ++ [OP_JMP]).length
      = s5.Here + 1 := by
    simp only [List.length_append, List.length_cons, List.length_nil, bytes_length]
    rw [l5, lc]
  rw [lQ] at hs14
  refine ⟨s14, ?_, ?_, ?_⟩
  · simp only [compif, compelse, Sx.ofList, Sx.cadr, Sx.caddr, Sx.cdddr, Sx.cadddr, Sx.cddr, Sx.cdr,
      Sx.car, Option.bind_eq_bind, Option.some_bind, hsc]
    have eb : (((if star then OP_BRT else OP_BRF : Nat) : Nat) : Int) =
        if star then (OP_BRT : Int) else (OP_BRF : Int) := by cases star <;> rfl
    rw [eb] at hs4
    have en : (Sx.cons b (Sx.atom NIL)).is NIL = false := rfl
    rw [hs4]
    simp only [Option.some_bind, hs5, en, hs8, hs9, hs10, hs11, hs12, Bool.false_eq_true, if_false,
      hs13, hs14]
  · rw [b14, bc, h13, l12, h10, h9, l8, l5]
    simp [ifCode]
  · rw [c14, c13, cc]

theorem posCode_byte : ∀ a t p, ∀ b ∈ posCode a t p, b < 256 := by
  intro a t p b hb
  cases a with
  | atom c =>
    simp only [posCode, List.mem_cons, List.mem_singleton, List.mem_nil_iff, or_false] at hb
    omega
  | cons x y => simp [posCode] at hb

/-- Claim C33: whatever code the parts compile to, `compif` lays out `(if c
a b)` at the offset `Here` as the code of `c`, the branch (`BRF`, for `if*`
`BRT`) with the operand `L1`, the code of `a`, `JMP` with the operand `L2`
and the code of `b`, where `L1` is the offset of the first byte of the code
of `b` and `L2` the offset after it; `(if c a)` as the code of `c`, the
branch with the operand `L1` and the code of `a`, where `L1` is the offset
after the code of `a`.  `Cts` is left as it was.  At run time `BRF` with
`NIL` in `Acc` goes to its operand and leaves `NIL` in `Acc`. -/
theorem if_code_layout (code : Sx → Bool → Nat → List Nat)
    (hc : ∀ a t p, ∀ b ∈ code a t p, b < 256) (h c a b : Sx) (t star : Bool) (s : Emit)
    (hn : s.Here + (ifCode code c a (some b) t star s.Here).length ≤ 65535) :
    (∃ s1, compif (ceAt code) (Sx.cons h (Sx.ofList [c, a, b])) t star s = some s1 ∧
      s1.bytes = s.bytes ++ ifCode code c a (some b) t star s.Here ∧ s1.Cts = s.Cts) ∧
    (∃ s1, compif (ceAt code) (Sx.cons h (Sx.ofList [c, a])) t star s = some s1 ∧
      s1.bytes = s.bytes ++ ifCode code c a none t star s.Here ∧ s1.Cts = s.Cts) ∧
    (∀ (M : Machine) (l : Nat), M.Acc = NIL → M.op1 = some l →
      ∃ M1, opBrf M = Outcome.ok M1 ∧ M1.Acc = NIL ∧ M1.Ip = (l : Int)) := by
  refine ⟨compif_three code hc h c a b t star s hn, compif_two code hc h c a t star s ?_, ?_⟩
  · simp only [ifCode, List.length_append, List.length_cons, List.length_nil] at hn ⊢
    omega
  · intro M l hM hl
    refine ⟨{ M with Ip := (l : Int) }, ?_, hM, rfl⟩
    unfold opBrf
    rw [if_pos hM, hl]

theorem if_code_layout_witness :
    (∀ a t p, ∀ b ∈ posCode a t p, b < 256) ∧
    ifEmit.Here + (ifCode posCode (Sx.atom 201) (Sx.atom 202) (some (Sx.atom 203)) false false
      ifEmit.Here).length ≤ 65535 ∧
    ifCode posCode (Sx.atom 201) (Sx.atom 202) (some (Sx.atom 203)) false false ifEmit.Here
      = [201, 0, OP_BRF, 0, 10, 202, 5, OP_JMP, 0, 12, 203, 10] ∧
    ∃ s1, compif (ceAt posCode)
        (Sx.cons (Sx.atom 200) (Sx.ofList [Sx.atom 201, Sx.atom 202, Sx.atom 203])) false false
        ifEmit = some s1 ∧
      s1.bytes = ifEmit.bytes ++
        ifCode posCode (Sx.atom 201) (Sx.atom 202) (some (Sx.atom 203)) false false ifEmit.Here ∧
      s1.Cts = ifEmit.Cts :=
  ⟨posCode_byte, by decide, by decide,
    (if_code_layout posCode posCode_byte (Sx.atom 200) (Sx.atom 201) (Sx.atom 202) (Sx.atom 203)
      false false ifEmit (by decide)).1⟩

/-! ## C38: the sign of a number with leading zeros -/

/-- Claim C38, evaluated: `scanfix` of `-05` is the fixnum 5 and `scanfix` of
`-007` is the fixnum 7, not -5 and -7, and the reader returns the fixnum 5
for the text `-05`; in every radix from 2 to 36 `scanfix` of `-01` is the
fixnum 1.  Without the leading zero the sign is kept (`-5` is -5), and
with a plus sign the value is right (`+05` is 5). -/
theorem scanfix_minus_leading_zero :
    scanfix minusZeroFive 10 true = ScanRes.fix 5 ∧
    scanfix minusZeroZeroSeven 10 false = ScanRes.fix 7 ∧
    (xread 10 (Rd.ofPort minusZeroFive)).value = some (Obj.fix 5) ∧
    (∀ r : Int, 2 ≤ r → r ≤ 36 → ∀ ovf, scanfix [45, 48, 49] r ovf = ScanRes.fix 1) ∧
    scanfix [45, 53] 10 true = ScanRes.fix (-5) ∧
    scanfix [43, 48, 53] 10 true = ScanRes.fix 5 := by
  refine ⟨by decide, by decide, by decide!, ?_, by decide, by decide⟩
  intro r h2 h36 ovf
  interval_cases r <;> cases ovf <;> decide

/-! ## C39: the operand tests of the string comparisons -/

theorem strPrim_no_error (who : String) (comp : Heap → Int → Int → Option Int) (lens : Bool)
    (rel : Int → Bool) (h : Heap) (vbase : Int)
    (hpos : ∀ c : Nat, vbase + (sizeof_cell : Int) * h.Cdr c ≠ 0) (x y : Int) (msg : String)
    (obj : Int) : strPrim who comp lens rel h vbase x y ≠ Cmp.error msg obj := by
  unfold strPrim Heap.stringAddr Heap.cdr
  by_cases hx : h.inNodes x = true
  · by_cases hy : h.inNodes y = true
    · simp only [hx, hy, if_true, Option.map_some', if_neg (hpos _)]
      split
      · split
        · simp
        · split <;> simp
      · simp
    · simp only [hx, hy, if_true, Option.map_some', if_neg (hpos _)]
      simp
  · simp [hx]

theorem cmpHeap_addr : ∀ c : Nat, (4096 : Int) + (sizeof_cell : Int) * cmpHeap.Cdr c ≠ 0 := by
  intro c
  have : -1 ≤ cmpHeap.Cdr c := by
    by_cases hc : c < 6
    · interval_cases c <;> decide
    · have e : cmpHeap.Cdr c = 0 := by
        simp only [cmpHeap, poolOf]
        rw [List.getD_eq_default]
        simp
        omega
      rw [e]
      decide
  have e4 : (sizeof_cell : Int) = 4 := rfl
  rw [e4]
  omega

/-- Claim C39, evaluated: in `cmpHeap` the fixnum 5 (cell 2) and the list
(cell 4) are no strings, and `s<`, `s=`, `s>` and `si<` applied to them and
the string `a` (cell 0) return `T` or `NIL`; none of the ten primitives
raises an error in this heap, whatever its operands are: the test
`!string(x)` is the test of an address in the arena against the null
pointer.  For the strings of cell 0 and cell 1, which differ in length,
`s<`, `s=` and `s>` all return `NIL`. -/
theorem string_compare_takes_non_strings :
    cmpHeap.stringp 2 = false ∧ cmpHeap.stringp 4 = false ∧ cmpHeap.stringp 0 = true ∧
    sless cmpHeap 4096 2 0 = Cmp.val TRUE ∧ sless cmpHeap 4096 0 2 = Cmp.val NIL ∧
    sequal cmpHeap 4096 2 0 = Cmp.val NIL ∧ sgrtr cmpHeap 4096 0 2 = Cmp.val TRUE ∧
    siless cmpHeap 4096 2 0 = Cmp.val TRUE ∧ sgteq cmpHeap 4096 4 0 = Cmp.val TRUE ∧
    (∀ p ∈ strPrims, ∀ x y msg obj, p cmpHeap 4096 x y ≠ Cmp.error msg obj) ∧
    cmpHeap.stringp 1 = true ∧
    sless cmpHeap 4096 0 1 = Cmp.val NIL ∧ sequal cmpHeap 4096 0 1 = Cmp.val NIL ∧
    sgrtr cmpHeap 4096 0 1 = Cmp.val NIL := by
  refine ⟨by decide, by decide, by decide, by decide, by decide, by decide, by decide, by decide,
    by decide, ?_, by decide, by decide, by decide, by decide⟩
  intro p hp x y msg obj
  simp only [strPrims, List.mem_cons, List.mem_singleton, List.mem_nil_iff, or_false] at hp
  rcases hp with h | h | h | h | h | h | h | h | h | h <;> subst h <;>
    exact strPrim_no_error _ _ _ _ cmpHeap 4096 cmpHeap_addr x y msg obj

/-! ## C35: the printer on cyclic objects -/

theorem blockwrite_keeps (bs : List Nat) (s : PrSt) (h : s.Plimit = 0) :
    (blockwrite bs s).Plimit = 0 ∧ (blockwrite bs s).Intr = s.Intr := by
  unfold blockwrite
  rw [if_neg (by rw [h]; decide)]
  simp [h]

theorem circular_loop (sl : Bool) : ∀ (fuel : Nat) (s : PrSt), s.Plimit = 0 → s.Intr = false →
    prlistLoop printSyms sl printHeap fuel 0 0 s = PrOut.more
  | 0, _, _, _ => by rw [prlistLoop]
  | fuel + 1, s, hp, hi => by
    rw [prlistLoop]
    have hc : (0 : Int) ≠ NIL ∧ s.Plimit ≠ 1 := ⟨by decide, by rw [hp]; decide⟩
    rw [if_pos hc]
    have e1 : printHeap.car 0 = some NIL := rfl
    have e2 : printHeap.cdr 0 = some 0 := rfl
    simp only [e1, e2]
    cases fuel with
    | zero =>
      rw [prex]
      rfl
    | succ k =>
      rw [prex]
      have hd : ¬ ((0 : Int) + 1 > PRDEPTH) := by decide
      rw [if_neg hd, hi]
      simp only [Bool.false_eq_true, if_false, if_true, PrOut.bind]
      have hn : (0 : Int) ≠ NIL := by decide
      rw [if_pos hn]
      have ea : printHeap.atomp 0 = some false := by decide
      simp only [ea]
      have k1 := blockwrite_keeps ("nil".toList.map Char.toNat) s hp
      have k2 := blockwrite_keeps [32] (prints "nil" s) k1.1
      exact circular_loop sl (k + 1) _ k2.1 (k2.2.trans (k1.2.trans hi))

theorem prex_pair (q : QuoteSyms) (sl : Bool) (h : Heap) (fuel : Nat) (x d : Int) (s : PrSt)
    (hx : 0 ≤ x) (t : Nat) (a : Int) (ht : h.tag x = some t) (ha : h.car x = some a)
    (hA : tst t ATOM_TAG = false) (hV : tst t VECTOR_TAG = false)
    (q1 : h.quoted x q.S_quote = some false) (q2 : h.quoted x q.S_qquote = some false)
    (q3 : h.quoted x q.S_unquote = some false) (q4 : h.quoted x q.S_splice = some false)
    (hd : ¬ d > PRDEPTH) (hi : s.Intr = false) :
    prex q sl h (fuel + 1) x d s =
      (prlistLoop q sl h fuel x d (writec 40 s)).bind fun s1 => PrOut.ok (writec 41 s1) := by
  rw [prex]
  have n1 : x ≠ NIL := by unfold NIL; omega
  have n2 : x ≠ TRUE := by unfold TRUE; omega
  have n3 : x ≠ EOFMARK := by unfold EOFMARK; omega
  have n4 : x ≠ UNDEF := by unfold UNDEF; omega
  have n5 : specialp x = false := by simp [specialp]; omega
  rw [if_neg hd, hi]
  simp only [Bool.false_eq_true, if_false, if_neg n1, if_neg n2, if_neg n3, if_neg n4, n5, ht, ha,
    hA, hV, false_and, or_self, q1, q2, q3, q4]

theorem circular_prex (sl : Bool) (fuel : Nat) (s : PrSt) (hp : s.Plimit = 0)
    (hi : s.Intr = false) : prex printSyms sl printHeap fuel 0 0 s = PrOut.more := by
  cases fuel with
  | zero => rw [prex]
  | succ k =>
    have k1 := blockwrite_keeps [40] s hp
    have hl := circular_loop sl k (writec 40 s) k1.1 (k1.2.trans hi)
    rw [prex_pair printSyms sl printHeap k 0 0 s (by decide) 0 NIL rfl rfl (by decide) (by decide)
      (by decide) (by decide) (by decide) (by decide) (by decide) hi, hl]
    rfl

theorem quoted_prex (sl : Bool) : ∀ (fuel : Nat) (s : PrSt), s.Plimit = 0 → s.Intr = false →
    prex printSyms sl printHeap fuel 1 0 s = PrOut.more
  | 0, _, _, _ => by rw [prex]
  | fuel + 1, s, hp, hi => by
    rw [prex]
    have hd : ¬ ((0 : Int) > PRDEPTH) := by decide
    rw [if_neg hd, hi]
    have e1 : printHeap.tag 1 = some 0 := rfl
    have e2 : printHeap.car 1 = some 5 := rfl
    have e3 : printHeap.cadr 1 = some 1 := rfl
    have q1 : printHeap.quoted 1 printSyms.S_quote = some true := by decide
    have q2 : printHeap.quoted 1 printSyms.S_qquote = some false := by decide
    have q3 : printHeap.quoted 1 printSyms.S_unquote = some false := by decide
    have q4 : printHeap.quoted 1 printSyms.S_splice = some false := by decide
    have k1 := blockwrite_keeps [39] s hp
    have hq : quoteMark printSyms 5 s = writec 39 s := rfl
    have ih := quoted_prex sl fuel (writec 39 s) k1.1 (k1.2.trans hi)
    simp only [e1, e2, e3, q1, q2, q3, q4, hq, ih]
    rfl

theorem car_cycle_prex (sl : Bool) : ∀ (n : Nat) (d : Int) (s : PrSt), d + n = PRDEPTH + 1 →
    s.Plimit = 0 → s.Intr = false →
    ∃ s1, prex printSyms sl printHeap (2 * n + 1) 3 d s = PrOut.error "prin: nesting too deep" s1
  | 0, d, s, hd, _, _ => by
    rw [prex]
    have : d > PRDEPTH := by omega
    rw [if_pos this]
    exact ⟨_, rfl⟩
  | n + 1, d, s, hd, hp, hi => by
    have hd1 : ¬ d > PRDEPTH := by omega
    have e : 2 * (n + 1) + 1 = (2 * n + 1 + 1) + 1 := by ring
    rw [e, prex_pair printSyms sl printHeap _ 3 d s (by decide) 0 3 rfl rfl (by decide) (by decide)
      (by decide) (by decide) (by decide) (by decide) hd1 hi, prlistLoop]
    have k1 := blockwrite_keeps [40] s hp
    have hc : (3 : Int) ≠ NIL ∧ (writec 40 s).Plimit ≠ 1 := by
      refine ⟨by decide, ?_⟩
      have : (writec 40 s).Plimit = 0 := k1.1
      rw [this]
      decide
    rw [if_pos hc]
    have e1 : printHeap.car 3 = some 3 := rfl
    have e2 : printHeap.cdr 3 = some NIL := rfl
    obtain ⟨s1, h1⟩ := car_cycle_prex sl n (d + 1) (writec 40 s) (by omega) k1.1 (k1.2.trans hi)
    simp only [e1, e2, h1, PrOut.bind]
    exact ⟨_, rfl⟩

theorem vec_cycle_prex (sl : Bool) : ∀ (n : Nat) (d : Int) (s : PrSt), d + n = PRDEPTH + 1 →
    s.Plimit = 0 → s.Intr = false →
    ∃ s1, prex printSyms sl printHeap (2 * n + 1) 4 d s = PrOut.error "prin: nesting too deep" s1
  | 0, d, s, hd, _, _ => by
    rw [prex]
    have : d > PRDEPTH := by omega
    rw [if_pos this]
    exact ⟨_, rfl⟩
  | n + 1, d, s, hd, hp, hi => by
    have hd1 : ¬ d > PRDEPTH := by omega
    have e : 2 * (n + 1) + 1 = (2 * n + 1 + 1) + 1 := by ring
    rw [e, prex, if_neg hd1, hi]
    have e1 : printHeap.tag 4 = some VECTOR_TAG := rfl
    have e2 : printHeap.car 4 = some T_VECTOR := rfl
    have e3 : printHeap.veclen 4 = some 1 := by decide
    have k1 := blockwrite_keeps ("#(".toList.map Char.toNat) s hp
    obtain ⟨s1, h1⟩ := vec_cycle_prex sl n (d + 1) (prints "#(" s) (by omega) k1.1 (k1.2.trans hi)
    have hl : prvecLoop printSyms sl printHeap (2 * n + 1 + 1) 4 d 1 0 (prints "#(" s) =
        PrOut.error "prin: nesting too deep" s1 := by
      rw [prvecLoop]
      have e4 : ((printHeap.cdr 4).bind fun base => printHeap.vref (base + ((0 : Nat) : Int))) =
          some 4 := by decide
      simp only [e4, h1, PrOut.bind]
      rfl
    simp only [e1, e2, e3, hl]
    exact ⟨s1, rfl⟩

/-- Claim C35, evaluated: for the circular list of cell 0 of `printHeap`
`prin` neither returns nor raises an error, whatever the fuel: the loop of
`prlist` follows the cdr with the same depth `d`.  The same holds for the
object of cell 1, the list of `quote` and of itself, which `prquote` prints
with the same depth.  For the pair of cell 3 (a cycle through the car) and
the vector of cell 4 (a cycle through a slot) `prin` raises "prin: nesting
too deep".  With the limit of 100 bytes that `report` sets, the circular
list is printed up to the limit and `xprint` returns. -/
theorem prin_circular_list_runs_on :
    (∀ fuel, prin printSyms printHeap fuel 0 printStart = PrOut.more) ∧
    (∀ fuel, prin printSyms printHeap fuel 1 printStart = PrOut.more) ∧
    (∃ fuel s, prin printSyms printHeap fuel 3 printStart =
      PrOut.error "prin: nesting too deep" s) ∧
    (∃ fuel s, prin printSyms printHeap fuel 4 printStart =
      PrOut.error "prin: nesting too deep" s) ∧
    ((prin printSyms printHeap 30 0 printLimited).written.map fun o => (o.take 9, o.length)) =
      some ([40, 110, 105, 108, 32, 110, 105, 108, 32], 103) := by
  refine ⟨?_, ?_, ?_, ?_, ?_⟩
  · intro fuel
    unfold prin xprint
    rw [circular_prex true fuel printStart rfl rfl]
    rfl
  · intro fuel
    unfold prin xprint
    rw [quoted_prex true fuel printStart rfl rfl]
    rfl
  · obtain ⟨s1, h1⟩ := car_cycle_prex true 1025 0 printStart (by decide) rfl rfl
    refine ⟨2 * 1025 + 1, s1, ?_⟩
    unfold prin xprint
    rw [h1]
    rfl
  · obtain ⟨s1, h1⟩ := vec_cycle_prex true 1025 0 printStart (by decide) rfl rfl
    refine ⟨2 * 1025 + 1, s1, ?_⟩
    unfold prin xprint
    rw [h1]
    rfl
  · decide

/-! ## C31, C40: slots of the literal pool and the collector -/

theorem poolGiven_eq : obslot 50 poolStart = Outcome.ok (poolGiven, 0) := by
  rfl

theorem poolFixed_eq : mkfix 50 poolGiven.M 0 = Outcome.ok poolFixed := by
  rfl

theorem obindexNew_pool (ops : HtOps) :
    obindexNew ops 50 poolStart 2 =
      (ops.htadd 50 poolFixed.1 poolFixed.1.Obhash 2 poolFixed.2).bind fun M1 =>
        Outcome.ok ({ poolGiven with M := M1 }, 0) := by
  unfold obindexNew
  rw [poolGiven_eq]
  simp only [Outcome.bind]
  rw [poolFixed_eq]

/-- Claim C40, evaluated: in `poolStart` the free list is empty.  The call
of `obslot` in `obindex(x)` hands out the slot 0 and marks it `OBALLOC`;
the call `mkfix(0)` that follows, for the argument of `htadd`, runs `gc`,
after which the slot 0 is `OBFREE`; `obindex` goes on with `htadd` in that
state and returns the slot 0, and after `emitq` has stored the literal in
the slot, the slot holds the literal and is `OBFREE`. -/
theorem literal_slot_freed_in_window :
    poolStart.M.Freelist = NIL ∧
    slotGiven (obslot 50 poolStart) = some (0, 0, some (OBALLOC, NIL)) ∧
    (mkfix 50 poolGiven.M 0).result.map (fun r => r.1.slot 0) = some (some (OBFREE, NIL)) ∧
    (∀ ops : HtOps, obindexNew ops 50 poolStart 2 =
      (ops.htadd 50 poolFixed.1 poolFixed.1.Obhash 2 poolFixed.2).bind fun M1 =>
        Outcome.ok ({ poolGiven with M := M1 }, 0)) ∧
    poolStored.M.slot 0 = some (OBFREE, 2) := by
  refine ⟨rfl, by decide!, by decide!, obindexNew_pool, by decide!⟩

/-- Claim C31, evaluated: in `poolStored` the slot 0 holds the fixnum of
cell 2, a scalar literal for which `obindex` has returned the slot 0 (the
map byte of the slot is `OBFREE` since the run of `gc` during that call).
For the pair of cell 4, a mutable literal, `obindex` returns the slot 0 as
well, whatever the hash table is.  In `poolGiven` the slot 0 is `OBALLOC`
before the call of `obslot`, which returns it after its call of `gc`. -/
theorem mutable_literal_shares_slot :
    slotGiven (obslot 50 poolStart) = some (0, 0, some (OBALLOC, NIL)) ∧
    poolStored.M.slot 0 = some (OBFREE, 2) ∧
    poolStored.M.heap.fixp 2 = some true ∧
    poolStored.M.heap.pairp 4 = some true ∧
    (∀ ops : HtOps, slotGiven (obindex ops 50 poolStored 4) = some (0, 0, some (OBALLOC, 2))) ∧
    poolGiven.M.slot 0 = some (OBALLOC, NIL) ∧
    slotGiven (obslot 50 poolGiven) = some (0, 0, some (OBALLOC, NIL)) := by
  refine ⟨by decide!, by decide!, by decide!, by decide!, ?_, by decide!, by decide!⟩
  intro ops
  have e : obindex ops 50 poolStored 4 = obslot 50 poolStored := by
    unfold obindex
    have hm : poolStored.M.heap.mutableLit 4 = some true := by decide!
    rw [hm]
  rw [e]
  decide!

/-! ## C34: the literal pool after `gc` -/

theorem wordOfNat_mod (v : Nat) : (wordOfNat v % (2 : Int) ^ 32).toNat = v % 2 ^ 32 := by
  unfold wordOfNat
  split <;> omega

theorem wordByte_set (w : Int) (j j1 b : Nat) (hj : j < 4) (hj1 : j1 < 4) :
    wordByte (wordSetByte w j b) j1 = if j1 = j then b % 256 else wordByte w j1 := by
  unfold wordSetByte wordByte
  simp only [wordOfNat_mod]
  have hu : (w % (2 : Int) ^ 32).toNat < 2 ^ 32 := by omega
  generalize (w % (2 : Int) ^ 32).toNat = u at hu
  interval_cases j <;> interval_cases j1 <;> simp <;> omega

/-- A byte write inside the arena: the byte is read back, the other bytes
and the other words are kept. -/
theorem bset_spec (h : Heap) (m : Int) (i b : Nat) (hm : 0 ≤ m)
    (hin : h.inVec (m + ((i / sizeof_cell : Nat) : Int)) = true) :
    ∃ h1, h.bset m i b = some h1 ∧ h1 = { h with Vectors := h1.Vectors } ∧
      (∀ j, h1.bref m j = if j = i then some (b % 256) else h.bref m j) ∧
      (∀ w, w ≠ (m + ((i / sizeof_cell : Nat) : Int)).toNat → h1.Vectors w = h.Vectors w) := by
  refine ⟨{ h with Vectors := upd h.Vectors (m + ((i / sizeof_cell : Nat) : Int)).toNat (wordSetByte (h.Vectors (m + ((i / sizeof_cell : Nat) : Int)).toNat) (i % sizeof_cell) b) }, ?_, rfl, ?_, ?_⟩
  · unfold Heap.bset Heap.vref Heap.vset
    simp only [hin, if_true]
  · intro j
    unfold Heap.bref Heap.vref
    have hin1 : ∀ x, Heap.inVec { h with Vectors := upd h.Vectors (m + ((i / sizeof_cell : Nat) : Int)).toNat (wordSetByte (h.Vectors (m + ((i / sizeof_cell : Nat) : Int)).toNat) (i % sizeof_cell) b) } x = h.inVec x := fun _ => rfl
    simp only [hin1]
    by_cases hw : j / sizeof_cell = i / sizeof_cell
    · rw [hw]
      simp only [hin, if_true, upd]
      have h4 : i % sizeof_cell < 4 := Nat.mod_lt _ (by decide)
      have h4j : j % sizeof_cell < 4 := Nat.mod_lt _ (by decide)
      rw [wordByte_set _ _ _ b h4 h4j]
      by_cases hji : j = i
      · subst hji
        simp
      · have : j % sizeof_cell ≠ i % sizeof_cell := by
          intro e
          apply hji
          have a1 := Nat.div_add_mod j sizeof_cell
          have a2 := Nat.div_add_mod i sizeof_cell
          rw [hw, e] at a1
          omega
        simp [this, hji]
    · have hji : j ≠ i := fun e => hw (by rw [e])
      simp only [if_neg hji]
      have hne : (m + ((j / sizeof_cell : Nat) : Int)).toNat ≠
          (m + ((i / sizeof_cell : Nat) : Int)).toNat := by
        intro e
        apply hw
        have : (m + ((j / sizeof_cell : Nat) : Int)) = (m + ((i / sizeof_cell : Nat) : Int)) := by
          have h1 : 0 ≤ m + ((j / sizeof_cell : Nat) : Int) := by positivity
          have h2 : 0 ≤ m + ((i / sizeof_cell : Nat) : Int) := by positivity
          rw [← Int.toNat_of_nonneg h1, ← Int.toNat_of_nonneg h2, e]
        have : ((j / sizeof_cell : Nat) : Int) = ((i / sizeof_cell : Nat) : Int) := by linarith
        exact_mod_cast this
      simp only [upd, if_neg hne]
  · intro w hw
    simp only [upd, if_neg hw]

theorem bref_congr (h h1 : Heap) (m : Int) (j : Nat) (hn : h1.nvcells = h.nvcells)
    (hv : h1.Vectors (m + ((j / sizeof_cell : Nat) : Int)).toNat =
      h.Vectors (m + ((j / sizeof_cell : Nat) : Int)).toNat) : h1.bref m j = h.bref m j := by
  unfold Heap.bref Heap.vref Heap.inVec
  rw [hn, hv]

/-- The state of a slot of the literal pool after the last loop of `gc`, from
its state `(b, x)` before: map byte and object. -/
theorem litStep_spec (a m : Int) (h : Heap) (i N : Nat) (hm0 : 0 ≤ m) (ha0 : 0 ≤ a)
    (hm : h.inVec (m + ((i / sizeof_cell : Nat) : Int)) = true)
    (ha : h.inVec (a + (i : Int)) = true) (hiN : i < N)
    (hd : ∀ j j1, j < N → j1 < N → m + ((j / sizeof_cell : Nat) : Int) ≠ a + (j1 : Int)) :
    ∃ h1, litStep a m h i = some h1 ∧ h1 = { h with Vectors := h1.Vectors } ∧
      h1.bref m i = some (if h.bref m i = some OBUSED then OBALLOC else OBFREE) ∧
      h1.Vectors (a + (i : Int)).toNat =
        (if h.bref m i = some OBUSED then h.Vectors (a + (i : Int)).toNat else NIL) ∧
      (∀ j, j ≠ i → j < N → h1.bref m j = h.bref m j) ∧
      (∀ j, j ≠ i → j < N → h1.Vectors (a + (j : Int)).toNat = h.Vectors (a + (j : Int)).toNat) := by
  have hb : h.bref m i = some (wordByte (h.Vectors (m + ((i / sizeof_cell : Nat) : Int)).toNat)
      (i % sizeof_cell)) := by
    unfold Heap.bref Heap.vref
    simp only [hm, if_true]
  have hne : ∀ j j1, j < N → j1 < N →
      (a + (j1 : Int)).toNat ≠ (m + ((j / sizeof_cell : Nat) : Int)).toNat := by
    intro j j1 hj hj1 e
    apply hd j j1 hj hj1
    have h1 : 0 ≤ m + ((j / sizeof_cell : Nat) : Int) := by positivity
    have h2 : 0 ≤ a + (j1 : Int) := by positivity
    rw [← Int.toNat_of_nonneg h1, ← Int.toNat_of_nonneg h2, e]
  unfold litStep
  by_cases hu : wordByte (h.Vectors (m + ((i / sizeof_cell : Nat) : Int)).toNat)
      (i % sizeof_cell) = OBUSED
  · obtain ⟨h1, e1, e2, e3, e4⟩ := bset_spec h m i OBALLOC hm0 hm
    have hbu : h.bref m i = some OBUSED := by rw [hb, hu]
    rw [hbu]
    simp only [if_true]
    refine ⟨h1, e1, e2, ?_, ?_, ?_, ?_⟩
    · rw [e3 i]
      simp [OBALLOC]
    · exact e4 _ (hne i i hiN hiN)
    · intro j hj _
      rw [e3 j, if_neg hj]
    · intro j _ hjN
      exact e4 _ (hne i j hiN hjN)
  · obtain ⟨h1, e1, e2, e3, e4⟩ := bset_spec h m i OBFREE hm0 hm
    have hbu : h.bref m i ≠ some OBUSED := by
      rw [hb]
      intro e
      exact hu (Option.some.inj e)
    rw [hb]
    simp only [if_neg hu, e1]
    have ha1 : h1.inVec (a + (i : Int)) = true := by rw [e2]; exact ha
    rw [hb] at hbu
    refine ⟨{ h1 with Vectors := upd h1.Vectors (a + (i : Int)).toNat NIL }, ?_, ?_, ?_, ?_, ?_, ?_⟩
    · unfold Heap.vset
      simp only [ha1, if_true]
    · rw [e2]
    · rw [if_neg hbu]
      have := e3 i
      simp only [if_true] at this
      have e0 : OBFREE % 256 = OBFREE := rfl
      rw [e0] at this
      rw [← this]
      apply bref_congr
      · rfl
      · simp only [upd, if_neg (hne i i hiN hiN).symm]
    · rw [if_neg hbu]
      simp [upd]
    · intro j hj hjN
      have := e3 j
      rw [if_neg hj] at this
      rw [← this]
      apply bref_congr
      · rfl
      · simp only [upd, if_neg (hne j i hjN hiN).symm]
    · intro j hj hjN
      have hji : (a + (j : Int)).toNat ≠ (a + (i : Int)).toNat := by omega
      simp only [upd, if_neg hji]
      exact e4 _ (hne i j hiN hjN)

/-- The last loop of `gc` over the slots from `i` on: each slot whose map
byte is `OBUSED` becomes `OBALLOC` and keeps its object, each other slot
becomes `OBFREE` and gets the object `NIL`; the slots outside the range are
kept. -/
theorem litLoop_spec (a m : Int) (N : Nat) (hm0 : 0 ≤ m) (ha0 : 0 ≤ a)
    (hd : ∀ j j1, j < N → j1 < N → m + ((j / sizeof_cell : Nat) : Int) ≠ a + (j1 : Int)) :
    ∀ (cnt i : Nat) (h : Heap), i + cnt ≤ N →
    (∀ j, i ≤ j → j < i + cnt →
      h.inVec (m + ((j / sizeof_cell : Nat) : Int)) = true ∧ h.inVec (a + (j : Int)) = true) →
    ∃ h1, litLoop a m cnt i h = some h1 ∧ h1 = { h with Vectors := h1.Vectors } ∧
      (∀ j, i ≤ j → j < i + cnt →
        h1.bref m j = some (if h.bref m j = some OBUSED then OBALLOC else OBFREE) ∧
        h1.Vectors (a + (j : Int)).toNat =
          (if h.bref m j = some OBUSED then h.Vectors (a + (j : Int)).toNat else NIL)) ∧
      (∀ j, j < N → ¬ (i ≤ j ∧ j < i + cnt) →
        h1.bref m j = h.bref m j ∧
        h1.Vectors (a + (j : Int)).toNat = h.Vectors (a + (j : Int)).toNat)
  | 0, i, h, _, _ => ⟨h, rfl, rfl, fun j h1 h2 => by omega, fun _ _ _ => ⟨rfl, rfl⟩⟩
  | cnt + 1, i, h, hN, hr => by
    obtain ⟨h1, e1, e2, e3, e4, e5, e6⟩ := litStep_spec a m h i N hm0 ha0
      (hr i (le_refl _) (by omega)).1 (hr i (le_refl _) (by omega)).2 (by omega) hd
    have hr1 : ∀ j, i + 1 ≤ j → j < i + 1 + cnt →
        h1.inVec (m + ((j / sizeof_cell : Nat) : Int)) = true ∧
        h1.inVec (a + (j : Int)) = true := by
      intro j h1j h2j
      have := hr j (by omega) (by omega)
      rw [e2]
      exact this
    obtain ⟨h2, f1, f2, f3, f4⟩ := litLoop_spec a m N hm0 ha0 hd cnt (i + 1) h1 (by omega) hr1
    refine ⟨h2, ?_, ?_, ?_, ?_⟩
    · simp only [litLoop, e1, f1]
    · rw [f2, e2]
    · intro j h1j h2j
      by_cases hji : j = i
      · subst hji
        have := f4 j (by omega) (by omega)
        rw [this.1, this.2, e3, e4]
        exact ⟨rfl, rfl⟩
      · have := f3 j (by omega) (by omega)
        rw [this.1, this.2, e5 j hji (by omega), e6 j hji (by omega)]
        exact ⟨rfl, rfl⟩
    · intro j hjN hout
      have hji : j ≠ i := by omega
      have := f4 j hjN (by omega)
      rw [this.1, this.2, e5 j hji hjN, e6 j hji hjN]
      exact ⟨rfl, rfl⟩

/-- The literal loop of `gc` on a heap `s` that agrees with the well-formed
heap `H1` on the literal vector and on the literal map: it returns, and
each slot is `OBALLOC` with its object if its map byte was `OBUSED`, else
`OBFREE` with the object `NIL`. -/
theorem litSweep_spec {H1 s : Heap} {L : List Nat} {obarray : Int}
    (hw : WF H1 L) (hlit : litSweepOK H1 L obarray)
    (hn : s.nnodes = H1.nnodes) (hv : s.nvcells = H1.nvcells) (hob : s.Obmap = H1.Obmap)
    (hca : s.Cdr obarray.toNat = H1.Cdr obarray.toNat)
    (hsz : s.Vectors (H1.sizeIx obarray.toNat) = H1.Vectors (H1.sizeIx obarray.toNat))
    (hcm : s.Cdr H1.Obmap.toNat = H1.Cdr H1.Obmap.toNat)
    (h0 : 0 ≤ obarray) (hm0 : 0 ≤ H1.Obmap) (hne : obarray ≠ H1.Obmap) :
    ∃ h4, litSweep s obarray = some h4 ∧ h4 = { s with Vectors := h4.Vectors } ∧
      ∀ j, j < H1.vlen obarray.toNat →
        h4.bref (H1.Cdr H1.Obmap.toNat) j =
          some (if s.bref (H1.Cdr H1.Obmap.toNat) j = some OBUSED then OBALLOC else OBFREE) ∧
        h4.Vectors (H1.Cdr obarray.toNat + (j : Int)).toNat =
          (if s.bref (H1.Cdr H1.Obmap.toNat) j = some OBUSED
            then s.Vectors (H1.Cdr obarray.toNat + (j : Int)).toNat else NIL) := by
  unfold litSweep
  rcases hlit with h | ⟨_, hL, hvec, hrest⟩
  · unfold NIL at h; omega
  · have hne1 : obarray ≠ NIL := by unfold NIL; omega
    have hlt := hw.1 _ hL
    have hb := hw.2.2.2.1 _ hL hvec
    have hin : s.inNodes obarray = true := by
      simp only [Heap.inNodes, hn]; simp; omega
    have hiv : s.inVec (s.Cdr obarray.toNat - 1) = true := by
      simp only [Heap.inVec, hv, hca]; simp; omega
    have hsix : (s.Cdr obarray.toNat - 1).toNat = H1.sizeIx obarray.toNat := by
      rw [hca]; rfl
    have hlen : s.veclen obarray = some (H1.vlen obarray.toNat) := by
      simp only [Heap.veclen, Heap.stringlen, Heap.cdr, hin, if_true, Heap.vref, hiv, hsix,
        hsz, Heap.vlen]
    have hcdr : s.cdr obarray = some (H1.Cdr obarray.toNat) := by
      simp only [Heap.cdr, hin, if_true, hca]
    simp only [hne1, if_false, hlen, hcdr, hob]
    rcases hrest with ⟨hm, _⟩ | ⟨_, hle⟩
    · unfold NIL at hm; omega
    · have hmne : H1.Obmap ≠ NIL := by unfold NIL; omega
      rcases hw.2.2.2.2.2 with hneg | ⟨hmL, hmv, _⟩
      · omega
      · have hmlt := hw.1 _ hmL
        have hmb := hw.2.2.2.1 _ hmL hmv
        have hmin : s.inNodes H1.Obmap = true := by
          simp only [Heap.inNodes, hn]; simp; omega
        have hcd : obarray.toNat ≠ H1.Obmap.toNat := by
          intro e; apply hne; omega
        have hdis := hw.2.2.2.2.1 _ hL _ hmL hvec hmv hcd
        simp only [hmne, if_false, Heap.cdr, hmin, if_true, hcm]
        simp only [sizeof_cell] at hle
        have hd : ∀ j j1, j < H1.vlen obarray.toNat → j1 < H1.vlen obarray.toNat →
            H1.Cdr H1.Obmap.toNat + ((j / sizeof_cell : Nat) : Int) ≠
              H1.Cdr obarray.toNat + (j1 : Int) := by
          intro j j1 hj hj1
          simp only [sizeof_cell]
          have hj4 : j / 4 < H1.vlen H1.Obmap.toNat := by omega
          omega
        have hr : ∀ j, 0 ≤ j → j < 0 + H1.vlen obarray.toNat →
            s.inVec (H1.Cdr H1.Obmap.toNat + ((j / sizeof_cell : Nat) : Int)) = true ∧
            s.inVec (H1.Cdr obarray.toNat + (j : Int)) = true := by
          intro j _ hj
          simp only [sizeof_cell]
          have hj4 : j / 4 < H1.vlen H1.Obmap.toNat := by omega
          constructor
          · simp only [Heap.inVec, hv]; simp; omega
          · simp only [Heap.inVec, hv]; simp; omega
        obtain ⟨h4, e1, e2, e3, _⟩ := litLoop_spec (H1.Cdr obarray.toNat) (H1.Cdr H1.Obmap.toNat)
          (H1.vlen obarray.toNat) (by omega) (by omega) hd (H1.vlen obarray.toNat) 0 s
          (by omega) hr
        rw [hob] at e2
        exact ⟨h4, e1, e2, fun j hj => e3 j (by omega) (by omega)⟩

/-- The state of a slot that is read inside the pools. -/
theorem slot_eq (M : Machine) (i : Nat) (m a : Int)
    (hm : M.heap.cdr M.heap.Obmap = some m) (ha : M.heap.cdr M.Obarray = some a)
    (h1 : M.heap.inVec (m + ((i / sizeof_cell : Nat) : Int)) = true)
    (h2 : M.heap.inVec (a + (i : Int)) = true) :
    M.slot i = some (wordByte (M.heap.Vectors (m + ((i / sizeof_cell : Nat) : Int)).toNat)
      (i % sizeof_cell), M.heap.Vectors (a + (i : Int)).toNat) ∧
    M.heap.bref m i = some (wordByte (M.heap.Vectors (m + ((i / sizeof_cell : Nat) : Int)).toNat)
      (i % sizeof_cell)) := by
  have hb : M.heap.bref m i = some (wordByte
      (M.heap.Vectors (m + ((i / sizeof_cell : Nat) : Int)).toNat) (i % sizeof_cell)) := by
    unfold Heap.bref Heap.vref
    simp only [h1, if_true]
  refine ⟨?_, hb⟩
  unfold Machine.slot
  rw [hm, ha]
  simp only [hb]
  unfold Heap.vref
  simp only [h2, if_true]

/-- Claim C34: on a state that is fit for `gc`, with a literal vector and a
literal map, `gc` returns; every slot of the literal pool whose map byte is
`OBUSED` in the pools at the end of marking is `OBALLOC` after `gc` and
holds the object it held, every other slot is `OBFREE` after `gc` and holds
`NIL`; no slot is `OBUSED` after `gc`. -/
theorem gc_literal_sweep (M : Machine) (L : List Nat) (sk : Int) (H1 : Heap)
    (hwf : GcWF M L sk H1) (h0 : 0 ≤ M.Obarray) (hm0 : 0 ≤ H1.Obmap)
    (hne : M.Obarray ≠ H1.Obmap) :
    ∃ fuel h2, ∀ j, markAll (fuel + j) H1 M.roots = some h2 ∧
      ∃ M1 k, gc (fuel + j) M = some (M1, k) ∧
        ∀ i, i < H1.vlen M.Obarray.toNat →
          ∃ b x, Machine.slot { M with heap := h2 } i = some (b, x) ∧
            M1.slot i = some (if b = OBUSED then (OBALLOC, x) else (OBFREE, NIL)) ∧
            (∀ y, M1.slot i ≠ some (OBUSED, y)) := by
  obtain ⟨hprep, hw, hclean, hroots, hrts, hlit⟩ := hwf
  have hcleanL : ∀ c ∈ L, H1.marked c = false := fun c hc => hclean c (hw.1 c hc)
  obtain ⟨fuel, h2, hrun, hp⟩ :=
    markAll_spec hw hcleanL M.roots [] H1 (MarkAllPost.nil H1 L) hroots
  simp only [List.nil_append] at hp
  have hRtsMem : M.Rts ∈ M.roots := by simp [Machine.roots]
  have hObMem : M.Obarray ∈ M.roots := by simp [Machine.roots]
  have hr : M.Rts = NIL ∨ (0 ≤ M.Rts ∧ M.Rts.toNat ∈ L ∧ H1.isVec M.Rts.toNat = true) := by
    rcases hrts with h | ⟨h0, hv, _⟩
    · exact Or.inl h
    · exact Or.inr ⟨h0, hroots _ hRtsMem h0, hv⟩
  obtain ⟨h3, hres, hh3, hv3⟩ := restore_ok hw hp M.Rts sk hr
  have e3n : h3.nnodes = H1.nnodes := by rw [hh3]; exact hp.nn
  have e3p : h3.nports = H1.nports := by rw [hh3]; exact hp.np
  have e3f : h3.Port_flags = h2.Port_flags := by rw [hh3]
  have hsw := sweepN_spec h3 H1.nnodes (le_of_eq e3n.symm)
  obtain ⟨s1, s2, s3, s4, s5, s6, s7, s8, s9, s10, s11⟩ := hsw
  have e3t : h3.Tag = h2.Tag := by rw [hh3]
  have e3c : h3.Cdr = h2.Cdr := by rw [hh3]
  have hmk : ∀ r ∈ M.roots, 0 ≤ r → h3.marked r.toNat = true := by
    intro r hr h0
    rcases hp.roots r hr with h | h
    · omega
    · simp only [Heap.marked, e3t] at h ⊢; exact h
  have hcdr : ∀ r ∈ M.roots, 0 ≤ r →
      (sweepN h3 H1.nnodes).h.Cdr r.toNat = H1.Cdr r.toNat := by
    intro r hr h0
    rw [s9 _ (Or.inr (hmk r hr h0)), e3c, hp.cdr]
  have hobm : H1.Obmap ∈ M.roots := by
    rw [(gcPrep_frame hprep).2.2.2.1]; simp [Machine.roots]
  -- the literal vector and the literal map
  have hL : M.Obarray.toNat ∈ L := hroots _ hObMem h0
  have hmL : H1.Obmap.toNat ∈ L := hroots _ hobm hm0
  rcases hlit with hnil | ⟨_, _, hvec, hrest⟩
  · unfold NIL at hnil; omega
  have hlit : litSweepOK H1 L M.Obarray := Or.inr ⟨h0, hL, hvec, hrest⟩
  rcases hw.2.2.2.2.2 with hneg | ⟨_, hmv, _⟩
  · omega
  have hle : H1.vlen M.Obarray.toNat ≤ sizeof_cell * H1.vlen H1.Obmap.toNat := by
    rcases hrest with ⟨hm, _⟩ | ⟨_, hle⟩
    · unfold NIL at hm; omega
    · exact hle
  have hb := hw.2.2.2.1 _ hL hvec
  have hmb := hw.2.2.2.1 _ hmL hmv
  have hsz3 : h3.Vectors (H1.sizeIx M.Obarray.toNat) = H1.Vectors (H1.sizeIx M.Obarray.toNat) := by
    rw [hv3]
    have hne1 : ¬ (M.Rts ≠ NIL ∧ H1.sizeIx M.Obarray.toNat = H1.sizeIx M.Rts.toNat) := by
      rintro ⟨hne1, hw1⟩
      rcases hrts with h | ⟨r0, rv, rne⟩
      · exact hne1 h
      · have rL := hroots _ hRtsMem r0
        have hcd : M.Obarray.toNat ≠ M.Rts.toNat := by
          intro h; apply rne; omega
        have hd := hw.2.2.2.2.1 _ hL _ rL hvec rv hcd
        have b2 := hw.2.2.2.1 _ rL rv
        simp only [Heap.sizeIx] at hw1
        omega
    rw [if_neg hne1]
    exact (post_words hw hp hL hvec).1
  obtain ⟨h4, hl1, hl2, hl3⟩ := litSweep_spec (s := (sweepN h3 H1.nnodes).h) hw hlit
    (s1.trans e3n) (by rw [s2, hh3]; exact hp.nv) (by rw [s4, hh3]; exact hp.ob)
    (hcdr _ hObMem h0) (by rw [s6]; exact hsz3) (hcdr _ hobm hm0) h0 hm0 hne
  refine ⟨fuel, h2, fun j => ⟨markAll_mono j _ _ _ hrun, ?_⟩⟩
  refine ⟨M.afterGc h4 (sweepN h3 H1.nnodes).Freelist
    (closePorts H1.nports h2.Port_flags M.Ports), (sweepN h3 H1.nnodes).k, ?_, ?_⟩
  · unfold gc
    rw [hprep]
    simp only
    rw [markAll_mono j _ _ _ hrun]
    simp only
    rw [hres]
    simp only
    rw [sweep_eq, e3n, hl1]
    simp only [Machine.afterGc, s3, s7, e3p, e3f]
  · intro i hi
    have hpay : ∀ c ∈ L, H1.isVec c = true → ∀ w : Nat, H1.Cdr c ≤ (w : Int) →
        (w : Int) < H1.Cdr c + (H1.vlen c : Int) →
        (sweepN h3 H1.nnodes).h.Vectors w = h2.Vectors w := by
      intro c hc hcv w hw1 hw2
      rw [s6, hv3]
      have hne1 : ¬ (M.Rts ≠ NIL ∧ w = H1.sizeIx M.Rts.toNat) := by
        rintro ⟨hne1, hw3⟩
        rcases hrts with h | ⟨r0, rv, _⟩
        · exact hne1 h
        · have rL := hroots _ hRtsMem r0
          have b1 := hw.2.2.2.1 _ hc hcv
          have b2 := hw.2.2.2.1 _ rL rv
          simp only [Heap.sizeIx] at hw3
          by_cases hcr : c = M.Rts.toNat
          · subst hcr
            omega
          · have hd := hw.2.2.2.2.1 _ hc _ rL hcv rv hcr
            omega
      rw [if_neg hne1]
    simp only [sizeof_cell] at hle
    have hi4 : i / 4 < H1.vlen H1.Obmap.toNat := by omega
    have e4 : (4 : Nat) = sizeof_cell := rfl
    have hwm : (sweepN h3 H1.nnodes).h.Vectors
        (H1.Cdr H1.Obmap.toNat + ((i / sizeof_cell : Nat) : Int)).toNat =
        h2.Vectors (H1.Cdr H1.Obmap.toNat + ((i / sizeof_cell : Nat) : Int)).toNat := by
      apply hpay _ hmL hmv
      · simp only [sizeof_cell]; omega
      · simp only [sizeof_cell]; omega
    have hwa : (sweepN h3 H1.nnodes).h.Vectors (H1.Cdr M.Obarray.toNat + (i : Int)).toNat =
        h2.Vectors (H1.Cdr M.Obarray.toNat + (i : Int)).toNat := by
      apply hpay _ hL hvec <;> omega
    have hsv : (sweepN h3 H1.nnodes).h.nvcells = h2.nvcells := by rw [s2, hh3]
    have hsb := bref_congr h2 (sweepN h3 H1.nnodes).h (H1.Cdr H1.Obmap.toNat) i hsv hwm
    obtain ⟨g1, g2⟩ := hl3 i hi
    rw [hsb] at g1 g2
    rw [hwa] at g2
    -- the slot at the end of marking
    have hlt := hw.1 _ hL
    have hmlt := hw.1 _ hmL
    have c1 : Heap.cdr h2 H1.Obmap = some (H1.Cdr H1.Obmap.toNat) := by
      have : h2.inNodes H1.Obmap = true := by
        simp only [Heap.inNodes, hp.nn]; simp; omega
      simp only [Heap.cdr, this, if_true, hp.cdr]
    have c2 : Heap.cdr h2 M.Obarray = some (H1.Cdr M.Obarray.toNat) := by
      have : h2.inNodes M.Obarray = true := by
        simp only [Heap.inNodes, hp.nn]; simp; omega
      simp only [Heap.cdr, this, if_true, hp.cdr]
    have r1 : h2.inVec (H1.Cdr H1.Obmap.toNat + ((i / sizeof_cell : Nat) : Int)) = true := by
      simp only [Heap.inVec, hp.nv, sizeof_cell]; simp; omega
    have r2 : h2.inVec (H1.Cdr M.Obarray.toNat + (i : Int)) = true := by
      simp only [Heap.inVec, hp.nv]; simp; omega
    obtain ⟨t1, t2⟩ := slot_eq { M with heap := h2 } i (H1.Cdr H1.Obmap.toNat)
      (H1.Cdr M.Obarray.toNat) (by rw [show Heap.Obmap h2 = H1.Obmap from hp.ob]; exact c1) c2 r1 r2
    -- the slot after gc
    have d1 : Heap.cdr h4 H1.Obmap = some (H1.Cdr H1.Obmap.toNat) := by
      have : h4.inNodes H1.Obmap = true := by
        rw [hl2]
        simp only [Heap.inNodes, s1, e3n]; simp; omega
      rw [hl2] at this ⊢
      simp only [Heap.cdr, this, if_true, hcdr _ hobm hm0]
    have d2 : Heap.cdr h4 M.Obarray = some (H1.Cdr M.Obarray.toNat) := by
      have : h4.inNodes M.Obarray = true := by
        rw [hl2]
        simp only [Heap.inNodes, s1, e3n]; simp; omega
      rw [hl2] at this ⊢
      simp only [Heap.cdr, this, if_true, hcdr _ hObMem h0]
    have hv4 : h4.nvcells = h2.nvcells := by rw [hl2]; exact hsv
    have q1 : h4.inVec (H1.Cdr H1.Obmap.toNat + ((i / sizeof_cell : Nat) : Int)) = true := by
      simp only [Heap.inVec, hv4] at r1 ⊢; exact r1
    have q2 : h4.inVec (H1.Cdr M.Obarray.toNat + (i : Int)) = true := by
      simp only [Heap.inVec, hv4] at r2 ⊢; exact r2
    have ho4 : h4.Obmap = H1.Obmap := by
      rw [hl2]
      show (sweepN h3 H1.nnodes).h.Obmap = H1.Obmap
      rw [s4, hh3]; exact hp.ob
    obtain ⟨u1, u2⟩ := slot_eq (M.afterGc h4 (sweepN h3 H1.nnodes).Freelist
      (closePorts H1.nports h2.Port_flags M.Ports)) i (H1.Cdr H1.Obmap.toNat)
      (H1.Cdr M.Obarray.toNat)
      (by show Heap.cdr h4 h4.Obmap = _; rw [ho4]; exact d1) d2 q1 q2
    have u2' : h4.bref (H1.Cdr H1.Obmap.toNat) i = _ := u2
    have t2' : h2.bref (H1.Cdr H1.Obmap.toNat) i = _ := t2
    rw [t2'] at g1 g2
    rw [u2'] at g1
    have g1' := Option.some.inj g1
    refine ⟨_, _, t1, ?_, ?_⟩
    · rw [u1]
      show some (_, h4.Vectors _) = _
      rw [g1', g2]
      simp only [Option.some.injEq]
      split <;> rfl
    · intro y
      rw [u1]
      show some (_, h4.Vectors _) ≠ _
      rw [g1']
      simp only [Option.some.injEq]
      split <;> simp [OBALLOC, OBFREE, OBUSED]

theorem gc_literal_sweep_witness :
    (0 ≤ sweepMachine.Obarray ∧ 0 ≤ sweepPrep.2.Obmap ∧
      sweepMachine.Obarray ≠ sweepPrep.2.Obmap ∧ sweepPrep.2.vlen sweepMachine.Obarray.toNat = 2) ∧
    (∃ fuel h2, ∀ j, markAll (fuel + j) sweepPrep.2 sweepMachine.roots = some h2 ∧
      ∃ M1 k, gc (fuel + j) sweepMachine = some (M1, k) ∧
        ∀ i, i < sweepPrep.2.vlen sweepMachine.Obarray.toNat →
          ∃ b x, Machine.slot { sweepMachine with heap := h2 } i = some (b, x) ∧
            M1.slot i = some (if b = OBUSED then (OBALLOC, x) else (OBFREE, NIL)) ∧
            (∀ y, M1.slot i ≠ some (OBUSED, y))) ∧
    (sweepMachine.slot 0, sweepMachine.slot 1) = (some (OBALLOC, 5), some (OBALLOC, 6)) ∧
    (gc 50 sweepMachine).map (fun r => (r.1.slot 0, r.1.slot 1)) =
      some (some (OBALLOC, 5), some (OBFREE, NIL)) :=
  ⟨⟨by decide, by decide, by decide, by decide⟩,
    gc_literal_sweep sweepMachine [0, 1, 2, 3, 5, 6] sweepPrep.1 sweepPrep.2
      ⟨rfl, by decide, by decide, by decide, by decide, by decide⟩ (by decide) (by decide)
      (by decide),
    by decide, by decide!⟩

/-! ## C37: the positions of the global environment -/

set_option maxRecDepth 100000 in
/-- Claim C36 fails for the form
`((lambda (v) ((lambda (f) (f) v) (lambda () (setq v (- v))))) 1)`.  The text
of `(lambda (f) (f) v)` has no `setq`, so `cconv` hands the inner application
to `appconv`, which passes `v` as the extra argument `(%arg 0)`; the argument
is a closure that assigns to `v`, and the body calls it before it reads `v`.
Both conversions are compiled (one literal each, the fixnum 1) and run to
their `OP_HALT`: the lifted program leaves the fixnum 1 in `Acc`, the
program converted without lifting leaves the fixnum -1. -/
theorem lifting_changes_result :
    liftFn.liftHead sampleSyms = true ∧
    contains setterForm sampleSyms.S_setq = true ∧
    liftedForm = outerCall liftedInner ∧
    plainForm = outerCall plainInner ∧
    progLiterals liftedForm = some 1 ∧
    progLiterals plainForm = some 1 ∧
    progBytes liftedForm =
      [5, 0, 0, 8, 10, 0, 1, 13, 0, 71, 24, 0, 1, 13, 0, 29, 24, 0, 0, 7, 0, 0, 0, 0, 90,
       28, 0, 0, 26, 20, 0, 1, 23, 0, 0, 0, 0, 19, 0, 16, 8, 6, 0, 0, 8, 10, 0, 2, 13, 0,
       65, 24, 0, 2, 10, 0, 0, 6, 0, 1, 3, 6, 0, 0, 26, 21, 19, 0, 51, 4, 26, 21, 19, 0,
       10, 3, 16, 0] ∧
    progBytes plainForm =
      [5, 0, 0, 8, 10, 0, 1, 13, 0, 76, 24, 0, 1, 13, 0, 29, 24, 0, 0, 7, 0, 0, 0, 0, 90,
       28, 0, 0, 26, 20, 0, 1, 23, 0, 0, 0, 0, 19, 0, 16, 8, 10, 0, 1, 13, 0, 63, 24, 0,
       1, 10, 0, 0, 6, 0, 0, 3, 7, 0, 0, 0, 0, 26, 20, 0, 1, 23, 0, 0, 0, 0, 19, 0, 47,
       4, 26, 21, 19, 0, 10, 3, 16, 0] ∧
    runResult (progBytes liftedForm) 31 = some (some OP_HALT, some true, some 1) ∧
    runResult (progBytes plainForm) 30 = some (some OP_HALT, some true, some (-1)) := by
  refine ⟨rfl, rfl, ?_, ?_, ?_, ?_, ?_, ?_, ?_, ?_⟩
  · decide!
  · decide!
  · decide!
  · decide!
  · decide!
  · decide!
  · decide!
  · decide!

/-! ## C4 and C5: the free list and the compaction in terms of the state before the collection -/

/-- Reachability in a heap `H` whose references, on a closed set `L` of
cells, are those that count in `M`, is liveness in `M`. -/
theorem reach_iff_live {H : Heap} {M : Machine} {L : List Nat}
    (hcl : ∀ c ∈ L, ∀ v ∈ H.succs c, 0 ≤ v → v.toNat ∈ L)
    (hroots : ∀ r ∈ M.roots, 0 ≤ r → r.toNat ∈ L)
    (hs : ∀ c ∈ L, H.succs c = M.liveSuccs c) (c : Nat) :
    H.ReachAny M.roots c ↔ M.Live c := by
  have fwd : ∀ n, Relation.ReflTransGen H.Edge n c → n ∈ L →
      Relation.ReflTransGen M.LiveEdge n c := by
    intro n hp
    induction hp using Relation.ReflTransGen.head_induction_on with
    | refl => intro _; exact Relation.ReflTransGen.refl
    | @head a b hab _ ih =>
      intro hn
      have hbL : b ∈ L := by
        have := hcl a hn (b : Int) hab (by omega)
        simpa using this
      have he : M.LiveEdge a b := by
        unfold Machine.LiveEdge; rw [← hs a hn]; exact hab
      exact Relation.ReflTransGen.head he (ih hbL)
  have bwd : ∀ n, Relation.ReflTransGen M.LiveEdge n c → n ∈ L →
      Relation.ReflTransGen H.Edge n c := by
    intro n hp
    induction hp using Relation.ReflTransGen.head_induction_on with
    | refl => intro _; exact Relation.ReflTransGen.refl
    | @head a b hab _ ih =>
      intro hn
      have he : H.Edge a b := by
        unfold Heap.Edge; rw [hs a hn]; exact hab
      have hbL : b ∈ L := by
        have := hcl a hn (b : Int) he (by omega)
        simpa using this
      exact Relation.ReflTransGen.head he (ih hbL)
  constructor
  · rintro ⟨r, hr, n, rfl, hp⟩
    have hn : n ∈ L := by
      have := hroots (n : Int) hr (by omega)
      simpa using this
    exact ⟨(n : Int), hr, n, rfl, fwd n hp hn⟩
  · rintro ⟨r, hr, n, rfl, hp⟩
    have hn : n ∈ L := by
      have := hroots (n : Int) hr (by omega)
      simpa using this
    exact ⟨(n : Int), hr, n, rfl, bwd n hp hn⟩

/-- The narrowing of the stack stores the length of its used part in its
size word. -/
theorem narrowRts_size {h H1 : Heap} {rts sp sk : Int}
    (hrun : narrowRts h rts sp = some (sk, H1)) (hne : rts ≠ NIL) :
    H1.Vectors (h.sizeIx rts.toNat) = (1 + sp) * (sizeof_cell : Int) := by
  unfold narrowRts at hrun
  simp only [ne_eq, hne, not_false_eq_true, if_true] at hrun
  unfold Heap.stringlen Heap.setStringlen Heap.cdr at hrun
  by_cases hin : h.inNodes rts = true
  · simp only [hin, if_true] at hrun
    unfold Heap.vref Heap.vset at hrun
    by_cases hiv : h.inVec (h.Cdr rts.toNat - 1) = true
    · simp only [hiv, if_true, Option.some.injEq, Prod.mk.injEq] at hrun
      obtain ⟨_, rfl⟩ := hrun
      show upd _ _ _ _ = _
      unfold upd Heap.sizeIx
      rw [if_pos rfl]
    · simp [hiv] at hrun
  · simp [hin] at hrun

/-- The length of a vector whose size word is `(1 + sp) * sizeof(cell)`. -/
theorem vecsize_used (sp : Int) (h0 : -1 ≤ sp) (h1 : sp < 2 ^ 29) :
    vecsize ((1 + sp) * (sizeof_cell : Int)) - 2 = (1 + sp).toNat := by
  unfold vecsize
  simp only [sizeof_cell]
  have e : ((1 + sp) * ((4 : Nat) : Int) + (((4 : Nat) : Int) - 1)) % (2 : Int) ^ 64
      = (1 + sp) * 4 + 3 := by
    apply Int.emod_eq_of_lt <;> norm_num <;> omega
  rw [e]
  omega

/-- The references from a cell depend on its tag, its `car` and `cdr`, and,
for a vector object, on its size word and its slots. -/
theorem succs_congr {H1 H : Heap} {c : Nat} (ht : H1.Tag c = H.Tag c)
    (ha : H1.Car c = H.Car c) (hd : H1.Cdr c = H.Cdr c)
    (hv : H1.isVec c = true → H1.Vectors (H1.sizeIx c) = H.Vectors (H1.sizeIx c) ∧
      ∀ i, i < H1.vlen c → H1.Vectors (H1.slotIx c i) = H.Vectors (H1.slotIx c i)) :
    H1.succs c = H.succs c := by
  have e1 : H1.isVec c = H.isVec c := by simp only [Heap.isVec, ht]
  have e2 : H1.isAtom c = H.isAtom c := by simp only [Heap.isAtom, ht]
  have e3 : H.sizeIx c = H1.sizeIx c := by simp only [Heap.sizeIx, hd]
  have e4 : ∀ i, H.slotIx c i = H1.slotIx c i := by intro i; simp only [Heap.slotIx, hd]
  unfold Heap.succs
  rw [← e1, ← e2]
  by_cases hvc : H1.isVec c = true
  · obtain ⟨h1, h2⟩ := hv hvc
    have e5 : H1.vlen c = H.vlen c := by simp only [Heap.vlen, e3, h1]
    have e6 : H1.travVec c = H.travVec c := by simp only [Heap.travVec, e1, ha, e5]
    rw [if_pos hvc, if_pos hvc, ← e6, ← e5]
    by_cases htv : H1.travVec c = true
    · rw [if_pos htv, if_pos htv]
      apply List.map_congr_left
      intro i hi
      have hi' : i < H1.vlen c := List.mem_range.1 hi
      simp only [Heap.slot, e4]
      exact h2 i hi'
    · rw [if_neg htv, if_neg htv]
  · rw [if_neg hvc, if_neg hvc, ha, hd]

/-- In the heap that the marker sees, the references from a cell of `L` are
those that count in the state before `gc`. -/
theorem prep_succs {M : Machine} {L : List Nat} {sk : Int} {H1 : Heap}
    (hwf : GcWF M L sk H1) (hst : M.stackFit) :
    ∀ c ∈ L, H1.succs c = M.liveSuccs c := by
  obtain ⟨hprep, hw, hclean, hroots, hrts, hlit⟩ := hwf
  obtain ⟨p1, p2, p3, p4, p5, p6, p7, p8, p9⟩ := gcPrep_frame hprep
  obtain ⟨w1, w2, w3, w4, w5, w6⟩ := hw
  intro c hc
  have hT : H1.Tag c = M.heap.Tag c := by rw [p7]
  have hA : H1.Car c = M.heap.Car c := by rw [p5]
  have hD : H1.Cdr c = M.heap.Cdr c := by rw [p6]
  unfold Machine.liveSuccs
  by_cases e : (c : Int) = M.Rts
  · rw [if_pos e]
    have hne : M.Rts ≠ NIL := by rw [← e]; unfold NIL; omega
    have hR : M.Rts.toNat = c := by rw [← e]; simp
    rcases hrts with h | ⟨h0, hv, _⟩
    · exact absurd h hne
    rcases hst with h | ⟨hcar, hs0, hs1⟩
    · exact absurd h hne
    rw [hR] at hv hcar
    have hsz : H1.Vectors (H1.sizeIx c) = (1 + M.Sp) * (sizeof_cell : Int) := by
      have := narrowRts_size hprep hne
      rw [hR] at this
      have e0 : H1.sizeIx c = M.heap.sizeIx c := by simp only [Heap.sizeIx, hD]
      rw [e0]; exact this
    have hvl : H1.vlen c = (1 + M.Sp).toNat := by
      unfold Heap.vlen; rw [hsz]; exact vecsize_used M.Sp hs0 hs1
    have hge := (w4 c hc hv).1
    have hslot : ∀ i, H1.slot c i = M.heap.slot c i := by
      intro i
      have e4 : M.heap.slotIx c i = H1.slotIx c i := by simp only [Heap.slotIx, hD]
      simp only [Heap.slot, e4]
      apply p8
      right
      rw [hR]
      simp only [Heap.slotIx, Heap.sizeIx, ← hD]
      omega
    unfold Heap.succs
    rw [if_pos hv]
    by_cases htv : H1.travVec c = true
    · rw [if_pos htv, hvl]
      apply List.map_congr_left
      intro i _
      exact hslot i
    · rw [if_neg htv]
      have : H1.vlen c = 0 := by
        by_contra h0'
        apply htv
        simp only [Heap.travVec, hv, hA, hcar, decide_True, Bool.and_self, Bool.true_and,
          decide_eq_true_eq]
        exact h0'
      rw [← hvl, this]
      rfl
  · rw [if_neg e]
    apply succs_congr hT hA hD
    intro hv
    have hge := (w4 c hc hv).1
    by_cases hn : M.Rts = NIL
    · exact ⟨p8 _ (Or.inl hn), fun i _ => p8 _ (Or.inl hn)⟩
    · rcases hrts with h | ⟨h0, hrv, _⟩
      · exact absurd h hn
      have hRL : M.Rts.toNat ∈ L := hroots M.Rts (by simp [Machine.roots]) h0
      have hcR : c ≠ M.Rts.toNat := by
        intro h; apply e; rw [h]; omega
      have hgeR := (w4 _ hRL hrv).1
      have hdis := w5 c hc _ hRL hv hrv hcR
      have eR : M.heap.sizeIx M.Rts.toNat = (H1.Cdr M.Rts.toNat - 1).toNat := by
        simp only [Heap.sizeIx, p6]
      refine ⟨p8 _ (Or.inr ?_), fun i hi => p8 _ (Or.inr ?_)⟩
      · rw [eR]; simp only [Heap.sizeIx]; omega
      · rw [eR]; simp only [Heap.slotIx]; omega

/-- Reachability in the heap that the marker sees is liveness in the state
before `gc`. -/
theorem prep_live {M : Machine} {L : List Nat} {sk : Int} {H1 : Heap}
    (hwf : GcWF M L sk H1) (hst : M.stackFit) (c : Nat) :
    H1.ReachAny M.roots c ↔ M.Live c := by
  apply reach_iff_live _ hwf.2.2.2.1 (prep_succs hwf hst)
  intro a ha v hv h0
  exact hwf.2.1.2.1 a ha (hwf.2.2.1 a (hwf.2.1.1 a ha)) v hv h0

/-- C4: on a state that is fit for `gc`, `gc` returns (with enough fuel for
the marker) a state whose free list, threaded through `Cdr` from `Freelist`
and ending in `NIL` after at most `NNODES` cells, holds without repetition
exactly the cells that are not live in the state before `gc`, where a cell
is live when a chain of references leads to it from one of the roots, the
stack counting with its slots 0 to `Sp` only; the returned count is the
length of the free list; count plus number of live cells is `NNODES`; and a
call of `cons3` that runs this `gc` raises only the error "cons3: out of
nodes", and only when every cell is live, the temporaries of the pending
`car` and `cdr` being roots. -/
theorem gc_free_list (M : Machine) (L : List Nat) (sk : Int) (H1 : Heap)
    (hwf : GcWF M L sk H1) (hst : M.stackFit) :
    ∃ (fuel : Nat) (M1 : Machine) (k : Nat) (fl live : List Nat),
      (∀ j, gc (fuel + j) M = some (M1, k)) ∧
      freeChain M1.heap M.heap.nnodes M1.Freelist = some fl ∧ fl.Nodup ∧
      (∀ c, c ∈ fl ↔ c < M.heap.nnodes ∧ ¬ M.Live c) ∧
      fl.length = k ∧
      live.Nodup ∧ (∀ c, c ∈ live ↔ c < M.heap.nnodes ∧ M.Live c) ∧
      k + live.length = M.heap.nnodes ∧
      ∀ M0 pcar pcdr ptag, cons3Tmp M0 pcar pcdr ptag = M →
        ∀ f msg Me, cons3 f M0 pcar pcdr ptag = Outcome.error msg Me →
          msg = "cons3: out of nodes" ∧ ∀ c, c < M.heap.nnodes → M.Live c := by
  have hn : H1.nnodes = M.heap.nnodes := (gcPrep_frame hwf.1).1
  have hl := prep_live hwf hst
  obtain ⟨fuel, M1, k, fl, live, h1, h2, h3, h4, h5, h6, h7, h8, h9⟩ :=
    gc_free_seen M L sk H1 hwf
  rw [hn] at h2 h8
  refine ⟨fuel, M1, k, fl, live, h1, h2, h3, ?_, h5, h6, ?_, h8, ?_⟩
  · intro c; rw [h4 c, hn, hl c]
  · intro c; rw [h7 c, hn, hl c]
  · intro M0 pcar pcdr ptag hM f msg Me he
    obtain ⟨a1, a2⟩ := h9 M0 pcar pcdr ptag hM f msg Me he
    refine ⟨a1, fun c hc => (hl c).1 (a2 c (by rw [hn]; exact hc))⟩

/-- The collector returns on `staleMachine` with fuel 10. -/
theorem gc_stale_some : (gc 10 staleMachine).isSome = true := by decide

/-- Witness of C4: the stack has one slot in use and a stale slot that
refers to the pair in cell 2; the pair is not live and `gc` puts it on the
free list, after the unused cell 3. -/
theorem gc_free_list_witness :
    staleMachine.heap.slot 0 1 = 2 ∧ staleMachine.Sp = 0 ∧
    ∃ (fuel : Nat) (M1 : Machine) (k : Nat) (fl : List Nat),
      (∀ j, gc (fuel + j) staleMachine = some (M1, k)) ∧
      freeChain M1.heap staleMachine.heap.nnodes M1.Freelist = some fl ∧
      (∀ c, c ∈ fl ↔ c < staleMachine.heap.nnodes ∧ ¬ staleMachine.Live c) ∧
      fl = [3, 2] ∧ k = 2 ∧ ¬ staleMachine.Live 2 ∧ staleMachine.Live 1 := by
  refine ⟨rfl, rfl, ?_⟩
  obtain ⟨fuel, M1, k, fl, live, h1, h2, h3, h4, h5, h6, h7, h8, h9⟩ :=
    gc_free_list staleMachine [0, 1] stalePrep.1 stalePrep.2
      ⟨rfl, by decide, by decide, by decide, by decide, by decide⟩ (by decide)
  have e1 := gc_mono fuel (Option.some_get gc_stale_some).symm
  have e2 := h1 10
  rw [Nat.add_comm] at e2
  rw [e2] at e1
  have e3 : M1 = ((gc 10 staleMachine).get gc_stale_some).1 := by
    have := congrArg Prod.fst (Option.some.inj e1); exact this
  have e4 : k = ((gc 10 staleMachine).get gc_stale_some).2 := by
    have := congrArg Prod.snd (Option.some.inj e1); exact this
  have e5 : freeChain ((gc 10 staleMachine).get gc_stale_some).1.heap staleMachine.heap.nnodes
      ((gc 10 staleMachine).get gc_stale_some).1.Freelist = some [3, 2] := by decide
  have e6 : fl = [3, 2] := by
    rw [e3, e5] at h2
    exact (Option.some.inj h2).symm
  have e7 : ((gc 10 staleMachine).get gc_stale_some).2 = 2 := by decide
  refine ⟨fuel, M1, k, fl, h1, h2, h4, e6, by rw [e4, e7], ?_, ?_⟩
  · exact ((h4 2).1 (by rw [e6]; decide)).2
  · by_contra hnl
    have : 1 ∈ fl := (h4 1).2 ⟨by decide, hnl⟩
    rw [e6] at this
    exact absurd this (by decide)

/-- In the heap that the marker sees inside `gcv`, the references from a
cell of `L` are those that count in the state before `gcv`. -/
theorem gcv_succs {M : Machine} {L ts : List Nat} {sk : Int} {H1 : Heap}
    (hwf : GcvWF M L ts sk H1) (hst : M.stackFit) :
    ∀ c ∈ L, H1.succs c = M.liveSuccs c := by
  obtain ⟨hF0, hFle, hnv, htiled, hgc, hblk⟩ := hwf
  have hps := prep_succs hgc hst
  obtain ⟨hprep, hw, hclean, hroots, hrts, hlit⟩ := hgc
  obtain ⟨p1, p2, p3, p4, p5, p6, p7, p8, p9⟩ := gcPrep_frame hprep
  obtain ⟨w1, w2, w3, w4, w5, w6⟩ := hw
  intro c hc
  rw [hps c hc]
  have hD : H1.Cdr c = M.heap.Cdr c := by rw [p6]; rfl
  have hV : H1.isVec c = M.heap.isVec c := by simp only [Heap.isVec, p7]; rfl
  have hnot : ∀ w, (∀ t ∈ ts, w ≠ t) →
      (M.unmarked ts).heap.Vectors w = M.heap.Vectors w := by
    intro w hw
    show unlinked M.heap.Vectors ts w = _
    unfold unlinked
    rw [if_neg (fun h => hw w h rfl)]
  unfold Machine.liveSuccs
  show (if (c : Int) = M.Rts then _ else _) = _
  by_cases e : (c : Int) = M.Rts
  · rw [if_pos e, if_pos e]
    have hne : M.Rts ≠ NIL := by rw [← e]; unfold NIL; omega
    have hR : M.Rts.toNat = c := by rw [← e]; simp
    rcases hrts with h | ⟨h0, hv, _⟩
    · exact absurd h hne
    rcases hst with h | ⟨hcar, hs0, hs1⟩
    · exact absurd h hne
    have hv' : H1.isVec c = true := by
      have : (M.unmarked ts).Rts.toNat = c := hR
      rw [this] at hv; exact hv
    have hsz : H1.Vectors (H1.sizeIx c) = (1 + M.Sp) * (sizeof_cell : Int) := by
      have := narrowRts_size hprep hne
      have e0 : (M.unmarked ts).Rts.toNat = c := hR
      rw [e0] at this
      have e1 : H1.sizeIx c = M.heap.sizeIx c := by simp only [Heap.sizeIx, hD]
      rw [e1]; exact this
    have hvl : H1.vlen c = (1 + M.Sp).toNat := by
      unfold Heap.vlen; rw [hsz]; exact vecsize_used M.Sp hs0 hs1
    obtain ⟨b1, b2⟩ := hblk c hc hv'
    have hge := (w4 c hc hv').1
    apply List.map_congr_left
    intro i hi
    have hi' : i < (1 + M.Sp).toNat := List.mem_range.1 hi
    show (M.unmarked ts).heap.Vectors (M.heap.slotIx c i) = M.heap.Vectors (M.heap.slotIx c i)
    apply hnot
    intro t ht
    have e1 : H1.sizeIx c = H1.linkIx c + 1 := by simp only [Heap.sizeIx, Heap.linkIx]; omega
    rw [e1] at b2
    refine (tile_interior htiled b1 ht ?_ ?_).1
    · simp only [Heap.slotIx, Heap.linkIx, ← hD]; omega
    · simp only [Heap.slotIx, Heap.linkIx, ← hD] at b2 ⊢; omega
  · rw [if_neg e, if_neg e]
    refine @succs_congr (M.unmarked ts).heap M.heap c rfl rfl rfl ?_
    intro hv
    have hv' : H1.isVec c = true := by rw [hV]; exact hv
    obtain ⟨b1, _⟩ := hblk c hc hv'
    have hge := (w4 c hc hv').1
    have hD' : M.heap.Cdr c = H1.Cdr c := hD.symm
    have e1 : (M.unmarked ts).heap.sizeIx c = H1.linkIx c + 1 := by
      show M.heap.sizeIx c = _
      simp only [Heap.sizeIx, Heap.linkIx, hD']; omega
    have hs : (M.unmarked ts).heap.Vectors ((M.unmarked ts).heap.sizeIx c)
        = M.heap.Vectors ((M.unmarked ts).heap.sizeIx c) := by
      apply hnot
      intro t ht
      rw [e1]
      intro h
      exact tiled_succ_not_mem htiled b1 (h ▸ ht)
    refine ⟨hs, ?_⟩
    intro i hi
    apply hnot
    intro t ht
    have hi' : i < vecsize (M.heap.Vectors (H1.linkIx c + 1)) - 2 := by
      unfold Heap.vlen at hi
      rw [hs, e1] at hi
      exact hi
    refine (tile_interior htiled b1 ht ?_ ?_).1
    · show H1.linkIx c + 2 ≤ M.heap.slotIx c i
      simp only [Heap.slotIx, Heap.linkIx, hD']; omega
    · show M.heap.slotIx c i < _
      simp only [Heap.slotIx, Heap.linkIx, hD'] at hi' ⊢; omega

/-- Reachability in the heap that the marker sees inside `gcv` is liveness
in the state before `gcv`. -/
theorem gcv_live {M : Machine} {L ts : List Nat} {sk : Int} {H1 : Heap}
    (hwf : GcvWF M L ts sk H1) (hst : M.stackFit) (c : Nat) :
    H1.ReachAny M.roots c ↔ M.Live c := by
  have hg := hwf.2.2.2.2.1
  have hr : ∀ r ∈ M.roots, 0 ≤ r → r.toNat ∈ L := hg.2.2.2.1
  refine @reach_iff_live H1 M L ?_ hr (gcv_succs hwf hst) c
  intro a ha v hv h0
  exact hg.2.1.2.1 a ha (hg.2.2.1 a (hg.2.1.1 a ha)) v hv h0

/-- More fuel does not change the result of the loop of `unmark_vecs`. -/
theorem unmarkLoop_mono (fv : Int) (j : Nat) : ∀ (fuel : Nat) (h : Heap) (p : Int) (x : Heap),
    unmarkLoop fv fuel h p = some x → unmarkLoop fv (fuel + j) h p = some x
  | 0, h, p, x, hx => by
    unfold unmarkLoop at hx
    by_cases hp : p < fv
    · rw [if_pos hp] at hx; cases hx
    · rw [if_neg hp] at hx
      cases j with
      | zero => unfold unmarkLoop; rw [if_neg hp]; exact hx
      | succ j => rw [Nat.zero_add]; unfold unmarkLoop; rw [if_neg hp]; exact hx
  | fuel + 1, h, p, x, hx => by
    rw [Nat.add_right_comm]
    unfold unmarkLoop at hx ⊢
    by_cases hp : p < fv
    · rw [if_pos hp] at hx ⊢
      cases h1 : h.vref (p + RAW_VECSIZE) with
      | none => rw [h1] at hx; cases hx
      | some k =>
        rw [h1] at hx
        simp only at hx ⊢
        cases h2 : h.vset p NIL with
        | none => rw [h2] at hx; cases hx
        | some g =>
          rw [h2] at hx
          simp only at hx ⊢
          exact unmarkLoop_mono fv j fuel _ _ x hx
    · rw [if_neg hp] at hx ⊢
      exact hx

/-- More fuel does not change the result of the compaction loop. -/
theorem compactLoop_mono (fv : Int) (j : Nat) :
    ∀ (fuel : Nat) (h : Heap) (dst src : Int) (x : Heap × Int),
    compactLoop fv fuel h dst src = some x → compactLoop fv (fuel + j) h dst src = some x
  | 0, h, dst, src, x, hx => by
    unfold compactLoop at hx
    by_cases hp : src < fv
    · rw [if_pos hp] at hx; cases hx
    · rw [if_neg hp] at hx
      cases j with
      | zero => unfold compactLoop; rw [if_neg hp]; exact hx
      | succ j => rw [Nat.zero_add]; unfold compactLoop; rw [if_neg hp]; exact hx
  | fuel + 1, h, dst, src, x, hx => by
    rw [Nat.add_right_comm]
    unfold compactLoop at hx ⊢
    by_cases hp : src < fv
    · rw [if_pos hp] at hx ⊢
      cases h1 : h.vref (src + RAW_VECSIZE) with
      | none => rw [h1] at hx; cases hx
      | some v =>
        cases h2 : h.vref (src + RAW_VECLINK) with
        | none => rw [h1, h2] at hx; cases hx
        | some link =>
          rw [h1, h2] at hx
          simp only at hx ⊢
          cases h3 : addInt src (wordOfNat (vecsize v)) with
          | none => rw [h3] at hx; cases hx
          | some src1 =>
            rw [h3] at hx
            simp only at hx ⊢
            by_cases hl : link ≠ NIL
            · rw [if_pos hl] at hx ⊢
              cases h4 : relocate h dst src (wordOfNat (vecsize v)) with
              | none => rw [h4] at hx; cases hx
              | some h2' =>
                cases h5 : addInt dst (wordOfNat (vecsize v)) with
                | none => rw [h4, h5] at hx; cases hx
                | some dst1 =>
                  rw [h4, h5] at hx
                  simp only at hx ⊢
                  exact compactLoop_mono fv j fuel _ _ _ x hx
            · rw [if_neg hl] at hx ⊢
              exact compactLoop_mono fv j fuel _ _ _ x hx
    · rw [if_neg hp] at hx ⊢
      exact hx

/-- More fuel does not change the result of `gcv`. -/
theorem gcv_mono {fuel : Nat} {M : Machine} {x : Machine × Int} (j : Nat)
    (h : gcv fuel M = some x) : gcv (fuel + j) M = some x := by
  unfold gcv unmark_vecs at h ⊢
  cases h1 : unmarkLoop M.Freevec fuel M.heap 0 with
  | none => rw [h1] at h; cases h
  | some g =>
    rw [h1] at h
    rw [unmarkLoop_mono M.Freevec j fuel _ _ g h1]
    simp only at h ⊢
    cases h2 : gc fuel { M with heap := g } with
    | none => rw [h2] at h; cases h
    | some r =>
      obtain ⟨M2, k2⟩ := r
      rw [h2] at h
      rw [gc_mono j h2]
      simp only at h ⊢
      cases h3 : compactLoop M2.Freevec fuel M2.heap 0 0 with
      | none => rw [h3] at h; cases h
      | some q =>
        rw [h3] at h
        rw [compactLoop_mono M2.Freevec j fuel _ _ _ q h3]
        exact h

/-- C5: on a state that is fit for `gcv`, `gcv` returns (with enough fuel for
its loops) a state in which every live vector object `n` (a vector object
that is live in the state before `gcv`: a chain of references leads to it
from one of the roots, the stack counting with its slots 0 to `Sp` only) is
the content of its own backlink word, has the size word and the payload
that it had in the heap `G` before the compaction loop (and, the literal
vector and the literal map apart, before `gcv`), and the blocks of the live
vector objects, listed in `rl` with their old and new offsets in their old
order, tile the arena from offset 0 to the new `Freevec`, which is the sum
of their lengths. -/
theorem gcv_compacts (M : Machine) (L ts : List Nat) (sk : Int) (H1 : Heap)
    (hwf : GcvWF M L ts sk H1) (hst : M.stackFit) :
    ∃ (fuel : Nat) (M1 : Machine) (k : Int) (G : Heap) (rl : List (Nat × Nat)),
      (∀ j, gcv (fuel + j) M = some (M1, k)) ∧
      (∃ M0 Mg kg, unmark_vecs fuel M = some M0 ∧ gc fuel M0 = some (Mg, kg) ∧ Mg.heap = G) ∧
      (∀ n, n < M.heap.nnodes → M.Live n → M.heap.isVec n = true →
        2 ≤ M1.heap.Cdr n ∧
        M1.heap.Vectors (M1.heap.linkIx n) = (n : Int) ∧
        M1.heap.Vectors (M1.heap.sizeIx n) = G.Vectors (G.sizeIx n) ∧
        (∀ i, i < G.vlen n → M1.heap.slot n i = G.slot n i) ∧
        M1.heap.Vectors (M1.heap.sizeIx n) = M.heap.Vectors (M.heap.sizeIx n) ∧
        ((n : Int) ≠ M.Obarray → (n : Int) ≠ M.heap.Obmap →
          ∀ i, i < G.vlen n → M1.heap.slot n i = M.heap.slot n i) ∧
        (G.linkIx n, M1.heap.linkIx n) ∈ rl) ∧
      (∀ p ∈ rl, ∃ n, n < M.heap.nnodes ∧ M.Live n ∧ M.heap.isVec n = true ∧
        p = (G.linkIx n, M1.heap.linkIx n)) ∧
      rl.Pairwise (fun a b => a.1 < b.1 ∧ a.2 < b.2) ∧
      0 ≤ M1.Freevec ∧
      Tiled M1.heap.Vectors 0 (rl.map Prod.snd) M1.Freevec.toNat ∧
      M1.Freevec = (((rl.map (fun p => vecsize (M1.heap.Vectors (p.2 + 1)))).sum : Nat) : Int) ∧
      k = M.Freevec - M1.Freevec := by
  have hf := gcPrep_frame hwf.2.2.2.2.1.1
  have hn : H1.nnodes = M.heap.nnodes := hf.1
  have hv : ∀ n, H1.isVec n = M.heap.isVec n := by
    intro n
    have : H1.Tag = M.heap.Tag := hf.2.2.2.2.2.2.1
    simp only [Heap.isVec, this]
  have hl := gcv_live hwf hst
  obtain ⟨fuel, M1, k, G, rl, h1, h2, h3, h4, h5, h6, h7, h8, h9⟩ :=
    gcv_compacts_seen M L ts sk H1 hwf
  refine ⟨fuel, M1, k, G, rl, h1, h2, ?_, ?_, h5, h6, h7, h8, h9⟩
  · intro n a b c
    exact h3 n (by rw [hn]; exact a) ((hl n).2 b) (by rw [hv n]; exact c)
  · intro p hp
    obtain ⟨n, a, b, c, d⟩ := h4 p hp
    exact ⟨n, by rw [← hn]; exact a, (hl n).1 b, by rw [← hv n]; exact c, d⟩

/-- The compactor returns on `staleVecMachine` with fuel 10. -/
theorem gcv_stale_some : (gcv 10 staleVecMachine).isSome = true := by decide

/-- Witness of C5: the arena with the stack vector, a string that only a
stale slot of the stack refers to, and a live string; the block of the
first string is reclaimed and the live string moves down over it. -/
theorem gcv_compacts_witness :
    staleVecMachine.heap.slot 0 1 = 3 ∧ staleVecMachine.Sp = 0 ∧
    staleVecMachine.heap.linkIx 3 = 4 ∧
    ∃ (fuel : Nat) (M1 : Machine) (k : Int) (rl : List (Nat × Nat)),
      (∀ j, gcv (fuel + j) staleVecMachine = some (M1, k)) ∧
      (∀ n, n < staleVecMachine.heap.nnodes → staleVecMachine.Live n →
        staleVecMachine.heap.isVec n = true →
        M1.heap.Vectors (M1.heap.linkIx n) = (n : Int) ∧
        M1.heap.Vectors (M1.heap.sizeIx n) =
          staleVecMachine.heap.Vectors (staleVecMachine.heap.sizeIx n)) ∧
      Tiled M1.heap.Vectors 0 (rl.map Prod.snd) M1.Freevec.toNat ∧
      M1.Freevec = (((rl.map (fun p => vecsize (M1.heap.Vectors (p.2 + 1)))).sum : Nat) : Int) ∧
      M1.Freevec = 7 ∧ k = 3 ∧ M1.heap.linkIx 0 = 0 ∧ M1.heap.linkIx 1 = 4 := by
  refine ⟨rfl, rfl, rfl, ?_⟩
  obtain ⟨fuel, M1, k, G, rl, h1, h2, h3, h4, h5, h6, h7, h8, h9⟩ :=
    gcv_compacts staleVecMachine [0, 1, 2] [0, 4, 7] staleVecPrep.1 staleVecPrep.2
      ⟨by decide, by decide, by decide, by decide,
        ⟨rfl, by decide, by decide, by decide, by decide, by decide⟩, by decide⟩
      (by decide)
  have e1 := gcv_mono fuel (Option.some_get gcv_stale_some).symm
  have e2 := h1 10
  rw [Nat.add_comm] at e2
  rw [e2] at e1
  have e3 : M1 = ((gcv 10 staleVecMachine).get gcv_stale_some).1 :=
    congrArg Prod.fst (Option.some.inj e1)
  have e4 : k = ((gcv 10 staleVecMachine).get gcv_stale_some).2 :=
    congrArg Prod.snd (Option.some.inj e1)
  have c1 : ((gcv 10 staleVecMachine).get gcv_stale_some).1.Freevec = 7 := by decide
  have c2 : ((gcv 10 staleVecMachine).get gcv_stale_some).2 = 3 := by decide
  have c3 : ((gcv 10 staleVecMachine).get gcv_stale_some).1.heap.linkIx 0 = 0 := by decide
  have c4 : ((gcv 10 staleVecMachine).get gcv_stale_some).1.heap.linkIx 1 = 4 := by decide
  refine ⟨fuel, M1, k, rl, h1, ?_, h7, h8, by rw [e3]; exact c1, by rw [e4]; exact c2,
    by rw [e3]; exact c3, by rw [e3]; exact c4⟩
  intro n a b c
  obtain ⟨_, q2, _, _, q5, _⟩ := h3 n a b c
  exact ⟨q2, q5⟩

/-! ## C28: a caught error inside a nested evaluation -/

set_option maxRecDepth 100000 in
/-- Claim C28 fails for the form
`(catch* (lambda (k) (setq *errtag* k) (conc k k)))`.  The form lies in
cell 13 of `evalMachine`, passes `expand` unchanged and `syncheck`, and its
program, the bytes that `compile` gives for the result of `clsconv`, has
one literal, `NIL`.  The caller is at `Prog = 10`, `Ep = 12`, `Ip = 7`,
`Sp = 3`, `Fp = 1` with `Protected = NIL`.  The program makes its catch tag
the error handler; `conc` protects a new pair and then raises "conc:
expected list"; `error` finds the handler and jumps to `Errtag` in `run`,
which goes on at the catch tag and reaches `OP_HALT`: the evaluation
completes and `eval(x, 1)` returns `NIL`.  `Protected` still holds the pair
of `conc`, seven entries where `interpret` was called with six, so
`unprot(1)` and `end_rec` take the wrong entries: `eval` returns with
`Prog = 12`, `Ep = 29`, `Ip = 3`, `Sp = 1`, `Fp = T_STRING` and
`Protected = 26`.  For the form `(catch* (lambda (k) (setq *errtag* k)
(conc)))`, which raises no error, the same `eval` returns with all six as
they were on entry. -/
theorem eval_loses_registers_after_caught_error :
    (evalHeap leakForm (leakProg leakForm).1).sxAt 20 13 = some leakForm ∧
    expand sampleSyms sampleExp sampleName symCell [] (fun _ => Conv.fault) 10 0 leakForm true =
      some (Conv.val leakForm) ∧
    syncheck sampleSyms symCell 10 leakForm true = Chk.ok ∧
    leakProg leakForm =
      ([13, 0, 27, 24, 0, 1, 6, 0, 0, 28, 0, 0, 5, 0, 0, 8, 6, 0, 0, 51, 8, 6, 0, 0, 51, 50,
        26, 20, 0, 1, 22, 0, 1, 0, 0, 19, 0, 3, 17, 3, 16, 0], some 1) ∧
    (evalMachine leakForm (leakProg leakForm).1).regs = [10, 12, 7, 3, 1, NIL] ∧
    protDepths leakForm = some (6, 7) ∧
    evalOn leakForm = some [NIL, 12, 29, 3, 1, T_STRING, 26] ∧
    (evalHeap calmForm (leakProg calmForm).1).sxAt 20 13 = some calmForm ∧
    leakProg calmForm =
      ([13, 0, 16, 24, 0, 1, 6, 0, 0, 28, 0, 0, 5, 0, 0, 26, 20, 0, 1, 22, 0, 1, 0, 0, 19,
        0, 3, 17, 3, 16, 0], some 1) ∧
    (evalMachine calmForm (leakProg calmForm).1).regs = [10, 12, 7, 3, 1, NIL] ∧
    protDepths calmForm = some (6, 6) ∧
    evalOn calmForm = some [NIL, 10, 12, 7, 3, 1, NIL] := by
  refine ⟨?_, ?_, ?_, ?_, rfl, ?_, ?_, ?_, ?_, rfl, ?_, ?_⟩
  · decide!
  · decide!
  · decide!
  · decide!
  · decide!
  · decide!
  · decide!
  · decide!
  · decide!
  · decide!

end LS9
